import Mathlib

/-! # ART optimizing compiler: constant folding and dead code elimination

A shallow embedding of `compiler/optimizing/dead_code_elimination.cc` and
`compiler/optimizing/constant_folding.cc`.  Blocks and instructions are
addressed by their ids (`GetBlockId()`, `GetId()`); a pointer in the C++
code is an id here, and a deleted block is an empty slot of the block table.
-/

namespace art

/-! ## Data model -/

/-- Modelled from the spec: `DataType::Type` (data_type.h is not among the
sources); the spec distinguishes boolean, integral and floating-point types. -/
inductive DataType where
  | kReference | kBool | kUint8 | kInt8 | kUint16 | kInt16
  | kUint32 | kInt32 | kUint64 | kInt64 | kFloat32 | kFloat64 | kVoid
  deriving DecidableEq, Repr

/-- Modelled from the spec: `DataType::IsFloatingPointType`. -/
def DataType.IsFloatingPointType : DataType → Bool
  | .kFloat32 => true
  | .kFloat64 => true
  | _ => false

/-- Modelled from the spec: the instruction kinds of nodes.h that the two
passes dispatch on.  An int constant carries its `int32_t` value, a long
constant its `int64_t` value, float and double constants their bit pattern. -/
inductive InstructionKind where
  | IntConstant (value : Int)
  | LongConstant (value : Int)
  | FloatConstant (bits : Nat)
  | DoubleConstant (bits : Nat)
  | NullConstant
  | If
  | PackedSwitch (start_value : Int) (num_entries : Nat)
  | Goto | Return | ReturnVoid | Throw | Exit
  | TryBoundary (is_entry : Bool)
  | Equal | NotEqual | LessThan | LessThanOrEqual | GreaterThan | GreaterThanOrEqual
  | Below | BelowOrEqual | Above | AboveOrEqual
  | Compare (gt_bias : Bool)
  | Add | Sub | Mul | Div | Rem | And | Or | Xor | Shl | Shr | UShr
  | Neg | Not | BooleanNot
  | TypeConversion
  | DivZeroCheck | NullCheck | BoundType
  | Phi | ParameterValue | Invoke (always_throws : Bool) | SuspendCheck
  deriving DecidableEq, Repr

/-- An SSA instruction: its kind, its data type, its inputs (ids of the
producing instructions, in input order), the block it is in, if any, whether
its value can be null, and its dex pc. -/
structure HInstruction where
  kind : InstructionKind
  type : DataType
  inputs : List Nat
  block : Option Nat
  can_be_null : Bool := true
  dex_pc : Nat := 0
  deriving DecidableEq, Repr

/-- A basic block: its phis, its non-phi instructions (the last one is the
terminator), its predecessor and successor block ids, the header of the
innermost loop it is in, if any, the try entry it belongs to, if any, and
whether it is a catch block. -/
structure HBasicBlock where
  phis : List Nat
  instructions : List Nat
  predecessors : List Nat
  successors : List Nat
  loop_information : Option Nat := none
  try_catch_information : Option Nat := none
  is_catch_block : Bool := false
  deriving DecidableEq, Repr

/-- The graph: the block table indexed by block id (`none` for a deleted
block), the instruction arena indexed by instruction id, the entry and exit
blocks, the reverse post order computed by the last dominance analysis, and
the two flags the passes consult. -/
structure HGraph where
  blocks : List (Option HBasicBlock)
  instructions : List HInstruction
  entry_block : Nat
  exit_block : Option Nat
  reverse_post_order : List Nat
  has_irreducible_loops : Bool
  has_try_catch : Bool
  deriving DecidableEq, Repr

/-- The block with the given id, if it is still in the graph. -/
def HGraph.GetBlock (g : HGraph) (id : Nat) : Option HBasicBlock :=
  g.blocks.getD id none

/-- The instruction with the given id. -/
def HGraph.GetInstruction (g : HGraph) (id : Nat) : Option HInstruction :=
  g.instructions[id]?

/-- The kind of an instruction, if the id is known. -/
def HGraph.KindOf (g : HGraph) (id : Nat) : Option InstructionKind :=
  (g.GetInstruction id).map (·.kind)

/-- `HInstruction::InputAt(i)`. -/
def HGraph.InputAt (g : HGraph) (id : Nat) (i : Nat) : Option Nat :=
  (g.GetInstruction id).bind (·.inputs[i]?)

/-- `HBasicBlock::GetLastInstruction()`: the last non-phi instruction. -/
def HBasicBlock.GetLastInstruction (b : HBasicBlock) : Option Nat :=
  b.instructions.getLast?

/-- `HBasicBlock::GetFirstInstruction()`: the first non-phi instruction. -/
def HBasicBlock.GetFirstInstruction (b : HBasicBlock) : Option Nat :=
  b.instructions.head?

/-- `HGraph::GetPostOrder()`: the reverse post order, reversed. -/
def HGraph.GetPostOrder (g : HGraph) : List Nat :=
  g.reverse_post_order.reverse

/-! ## Instruction queries -/

/-- `HInstruction::IsConstant`. -/
def InstructionKind.IsConstant : InstructionKind → Bool
  | .IntConstant _ => true
  | .LongConstant _ => true
  | .FloatConstant _ => true
  | .DoubleConstant _ => true
  | .NullConstant => true
  | _ => false

/-- `HInstruction::IsCondition`: the ten comparison kinds. -/
def InstructionKind.IsCondition : InstructionKind → Bool
  | .Equal => true
  | .NotEqual => true
  | .LessThan => true
  | .LessThanOrEqual => true
  | .GreaterThan => true
  | .GreaterThanOrEqual => true
  | .Below => true
  | .BelowOrEqual => true
  | .Above => true
  | .AboveOrEqual => true
  | _ => false

/-- Modelled from the spec: `HConstant::IsArithmeticZero`, the arithmetic
zero of the constant's type (for float and double both signed zeros). -/
def InstructionKind.IsArithmeticZero : InstructionKind → Bool
  | .IntConstant v => v == 0
  | .LongConstant v => v == 0
  | .FloatConstant bits => bits == 0 || bits == 0x80000000
  | .DoubleConstant bits => bits == 0 || bits == 0x8000000000000000
  | _ => false

/-- Modelled from the spec: `HConstant::IsZeroBitPattern`. -/
def InstructionKind.IsZeroBitPattern : InstructionKind → Bool
  | .IntConstant v => v == 0
  | .LongConstant v => v == 0
  | .FloatConstant bits => bits == 0
  | .DoubleConstant bits => bits == 0
  | .NullConstant => true
  | _ => false

/-- Modelled from the spec: `HConstant::IsOne`. -/
def InstructionKind.IsOne : InstructionKind → Bool
  | .IntConstant v => v == 1
  | .LongConstant v => v == 1
  | .FloatConstant bits => bits == 0x3f800000
  | .DoubleConstant bits => bits == 0x3ff0000000000000
  | _ => false

/-- Modelled from the spec: `HConstant::IsMinusOne`. -/
def InstructionKind.IsMinusOne : InstructionKind → Bool
  | .IntConstant v => v == -1
  | .LongConstant v => v == -1
  | .FloatConstant bits => bits == 0xbf800000
  | .DoubleConstant bits => bits == 0xbff0000000000000
  | _ => false

/-- Modelled from the spec: `HFloatConstant::IsNaN` / `HDoubleConstant::IsNaN`
on the IEEE-754 bit pattern. -/
def InstructionKind.IsNaN : InstructionKind → Bool
  | .FloatConstant bits => decide (0x7f800000 < bits % 0x80000000)
  | .DoubleConstant bits => decide (0x7ff0000000000000 < bits % 0x8000000000000000)
  | _ => false

/-- Modelled from the spec: `Int64FromConstant`. -/
def InstructionKind.Int64FromConstant : InstructionKind → Int
  | .IntConstant v => v
  | .LongConstant v => v
  | _ => 0

/-- Modelled from the spec: `HBinaryOperation::IsCommutative`. -/
def InstructionKind.IsCommutative : InstructionKind → Bool
  | .Add => true
  | .Mul => true
  | .And => true
  | .Or => true
  | .Xor => true
  | .Equal => true
  | .NotEqual => true
  | _ => false

/-- Modelled from the spec: `DataType::IsIntOrLongType`. -/
def DataType.IsIntOrLongType : DataType → Bool
  | .kInt32 => true
  | .kInt64 => true
  | _ => false

/-- Modelled from the spec: `DataType::IsIntegralType`; the bit
representation of a boolean makes it an integral type too. -/
def DataType.IsIntegralType : DataType → Bool
  | .kBool => true
  | .kUint8 => true
  | .kInt8 => true
  | .kUint16 => true
  | .kInt16 => true
  | .kInt32 => true
  | .kInt64 => true
  | _ => false

/-- Whether the instruction `id` has a kind satisfying `p`. -/
def HGraph.kindIs (g : HGraph) (p : InstructionKind → Bool) (id : Nat) : Bool :=
  match g.KindOf id with
  | none => false
  | some k => p k

/-- `HInstruction::IsConstant` on an instruction of the graph. -/
def HGraph.IsConstant (g : HGraph) (id : Nat) : Bool :=
  g.kindIs InstructionKind.IsConstant id

/-- `HInstruction::GetType`. -/
def HGraph.GetType (g : HGraph) (id : Nat) : DataType :=
  match g.GetInstruction id with
  | none => DataType.kVoid
  | some i => i.type

/-- `HInstruction::GetBlock`. -/
def HGraph.BlockOf (g : HGraph) (id : Nat) : Option Nat :=
  (g.GetInstruction id).bind (·.block)

/-- A use of `v`: the instruction `user` is in a block and its input at
`index` is `v`. -/
def HGraph.IsUse (g : HGraph) (v user index : Nat) : Prop :=
  (g.BlockOf user).isSome = true ∧ g.InputAt user index = some v

/-- `GetUses().SizeSlow()`: the number of uses of `v`. -/
def HGraph.NumUses (g : HGraph) (v : Nat) : Nat :=
  ((g.instructions.filter (fun u => u.block.isSome)).map (fun u => u.inputs.count v)).sum

/-! ## Bit vectors and array views -/

/-- The bits of an `ArenaBitVector` that are set, as a list of indices. -/
abbrev ArenaBitVector := List Nat

/-- `BitVector::IsBitSet`. -/
def ArenaBitVector.IsBitSet (v : ArenaBitVector) (i : Nat) : Bool :=
  decide (i ∈ v)

/-- `BitVector::SetBit`. -/
def ArenaBitVector.SetBit (v : ArenaBitVector) (i : Nat) : ArenaBitVector :=
  if i ∈ v then v else i :: v

/-- `ArrayRef::SubArray(pos, length)`. -/
def SubArray {α : Type} (a : List α) (pos length : Nat) : List α :=
  (a.drop pos).take length

/-! ## dead_code_elimination.cc: MarkReachableBlocks -/

/-- `static_cast<uint32_t>` of an `int32_t`. -/
def toUint32 (v : Int) : Nat :=
  (v % 4294967296).toNat

/-- The `switch_index` of MarkReachableBlocks: the unsigned difference
`static_cast<uint32_t>(switch_value) - static_cast<uint32_t>(start_value)`. -/
def switchIndex (switch_value start_value : Int) : Nat :=
  (toUint32 switch_value + 4294967296 - toUint32 start_value) % 4294967296

/-- The `live_successors` that one iteration of the worklist loop of
MarkReachableBlocks computes for `block` (lines 44-78). -/
def liveSuccessors (g : HGraph) (block : HBasicBlock) : List Nat :=
  let live_successors := block.successors
  match block.GetLastInstruction with
  | none => live_successors
  | some last_instruction =>
    match g.KindOf last_instruction with
    | some .If =>
      match (g.InputAt last_instruction 0).bind g.KindOf with
      | some (.IntConstant value) =>
        if value = 1 then SubArray live_successors 0 1
        else SubArray live_successors 1 1
      | _ => live_successors
    | some (.PackedSwitch start_value num_entries) =>
      match (g.InputAt last_instruction 0).bind g.KindOf with
      | some (.IntConstant switch_value) =>
        let switch_index := switchIndex switch_value start_value
        if switch_index < num_entries then SubArray live_successors switch_index 1
        else SubArray live_successors num_entries 1
      | _ => live_successors
    | _ => live_successors

/-- The live successors of the block with the given id (none for an id
that names no block). -/
def liveSuccessorsOf (g : HGraph) (block_id : Nat) : List Nat :=
  match g.GetBlock block_id with
  | none => []
  | some block => liveSuccessors g block

/-- The `for` loop over `live_successors` (lines 80-86): every successor
that is not yet visited is marked and pushed on the worklist. -/
def visitSuccessors (live_successors : List Nat) (worklist : List Nat)
    (visited : ArenaBitVector) : List Nat × ArenaBitVector :=
  live_successors.foldl
    (fun st successor =>
      if !st.2.IsBitSet successor then (successor :: st.1, st.2.SetBit successor) else st)
    (worklist, visited)

/-- The `while (!worklist.empty())` loop (lines 38-87), over an arbitrary
successor function; the head of the list is `worklist.back()`.  The loop has
no bound in the source; `none` is returned when the fuel runs out. -/
def markLoop (live : Nat → List Nat) : Nat → List Nat → ArenaBitVector → Option ArenaBitVector
  | _, [], visited => some visited
  | 0, _ :: _, _ => none
  | fuel + 1, block :: worklist, visited =>
    let st := visitSuccessors (live block) worklist visited
    markLoop live fuel st.1 st.2

/-- The successor lists of all blocks of the graph, concatenated. -/
def HGraph.allSuccessors (g : HGraph) : List Nat :=
  (g.blocks.map (fun b => match b with
    | none => []
    | some b => b.successors)).flatten

/-- The number of successor edges of the graph. -/
def HGraph.numEdges (g : HGraph) : Nat :=
  g.allSuccessors.length

/-- `MarkReachableBlocks(graph, visited)`. The fuel is one more than the
number of blocks that can ever be pushed. -/
def MarkReachableBlocks (g : HGraph) (visited : ArenaBitVector) : Option ArenaBitVector :=
  markLoop (liveSuccessorsOf g) (g.numEdges + 2) [g.entry_block] (visited.SetBit g.entry_block)

/-- The claim's words for a statically decided terminator: the last
instruction is an If or a PackedSwitch, and its input is an int constant. -/
def endsWithConstantBranch (g : HGraph) (block : HBasicBlock) : Bool :=
  match block.GetLastInstruction with
  | none => false
  | some last_instruction =>
    (match g.KindOf last_instruction with
      | some .If => true
      | some (.PackedSwitch _ _) => true
      | _ => false) &&
    (match (g.InputAt last_instruction 0).bind g.KindOf with
      | some (.IntConstant _) => true
      | _ => false)

/-! ## Graph mutation primitives (nodes.cc) -/

/-- The first instruction of kind `k` that is in a block, if any, searching
the arena from id `n` on. -/
def findConstant (k : InstructionKind) : List HInstruction → Nat → Option Nat
  | [], _ => none
  | i :: rest, n =>
    if i.kind = k ∧ i.block.isSome = true then some n else findConstant k rest (n + 1)

/-- Insertion before the last element of an instruction list. -/
def insertBeforeLast (l : List Nat) (c : Nat) : List Nat :=
  l.dropLast ++ c :: (match l.getLast? with
    | none => []
    | some x => [x])

/-- Modelled from the spec: `HGraph::InsertConstant` (nodes.cc is not among
the sources): a new constant becomes an instruction of the entry block, placed
before the block's terminator. -/
def HGraph.InsertConstant (g : HGraph) (k : InstructionKind) (ty : DataType) : HGraph × Nat :=
  let id := g.instructions.length
  ({ g with
      instructions := g.instructions ++
        [{ kind := k, type := ty, inputs := [], block := some g.entry_block }],
      blocks := g.blocks.modify
        (Option.map (fun b => { b with instructions := insertBeforeLast b.instructions id }))
        g.entry_block },
    id)

/-- Modelled from the spec: constant interning (`HGraph::GetIntConstant` and
its siblings; nodes.cc is not among the sources): constants are interned per
graph per (type, bit pattern), so the node already in the graph is returned
and a new one is created only when there is none. -/
def HGraph.GetConstantOfKind (g : HGraph) (k : InstructionKind) (ty : DataType) :
    HGraph × Nat :=
  match findConstant k g.instructions 0 with
  | some c => (g, c)
  | none => g.InsertConstant k ty

/-- `HGraph::GetIntConstant`. -/
def HGraph.GetIntConstant (g : HGraph) (value : Int) : HGraph × Nat :=
  g.GetConstantOfKind (InstructionKind.IntConstant value) DataType.kInt32

/-- `HGraph::GetLongConstant`. -/
def HGraph.GetLongConstant (g : HGraph) (value : Int) : HGraph × Nat :=
  g.GetConstantOfKind (InstructionKind.LongConstant value) DataType.kInt64

/-- Modelled from the spec: `HGraph::GetConstant(type, value)`: a long
constant for `kInt64`, an int constant for the other integral types and bool. -/
def HGraph.GetConstant (g : HGraph) (ty : DataType) (value : Int) : HGraph × Nat :=
  match ty with
  | DataType.kInt64 => g.GetLongConstant value
  | _ => g.GetIntConstant value

/-- Replacement of `old` by `new` in an input list. -/
def substInput (old new : Nat) (inputs : List Nat) : List Nat :=
  inputs.map (fun i => if i = old then new else i)

/-- Modelled from the spec: `HInstruction::ReplaceWith` (nodes.cc is not among
the sources): every use of `inst` is redirected to `other`. -/
def HGraph.ReplaceWith (g : HGraph) (inst other : Nat) : HGraph :=
  { g with instructions := g.instructions.map (fun u =>
      if u.block.isSome then { u with inputs := substInput inst other u.inputs } else u) }

/-- Modelled from the spec: `HBasicBlock::RemoveInstruction` (nodes.cc is not
among the sources): the instruction leaves the instruction list of the block
and no longer belongs to a block. -/
def HGraph.RemoveInstruction (g : HGraph) (block_id inst : Nat) : HGraph :=
  { g with
      blocks := g.blocks.modify
        (Option.map (fun b => { b with instructions := b.instructions.filter (fun i => i ≠ inst) }))
        block_id,
      instructions := g.instructions.modify (fun u => { u with block := none }) inst }

/-- The pair `inst->ReplaceWith(other); inst->GetBlock()->RemoveInstruction(inst);`
that every folding rule ends in; `none` when `inst->GetBlock()` is null. -/
def HGraph.ReplaceWithAndRemove (g : HGraph) (inst other : Nat) : Option HGraph :=
  let g1 := g.ReplaceWith inst other
  match g1.BlockOf inst with
  | none => none
  | some block_id => some (g1.RemoveInstruction block_id inst)

/-! ## constant_folding.cc -/

/-- The literal of a constant: what static evaluation computes. -/
inductive ConstantValue where
  | Int (value : Int)
  | Long (value : Int)
  | Float (bits : Nat)
  | Double (bits : Nat)
  | Null
  deriving DecidableEq, Repr

/-- The instruction kind of the constant with the given literal. -/
def ConstantValue.kind : ConstantValue → InstructionKind
  | .Int v => InstructionKind.IntConstant v
  | .Long v => InstructionKind.LongConstant v
  | .Float b => InstructionKind.FloatConstant b
  | .Double b => InstructionKind.DoubleConstant b
  | .Null => InstructionKind.NullConstant

/-- The data type of the constant with the given literal. -/
def ConstantValue.type : ConstantValue → DataType
  | .Int _ => DataType.kInt32
  | .Long _ => DataType.kInt64
  | .Float _ => DataType.kFloat32
  | .Double _ => DataType.kFloat64
  | .Null => DataType.kReference

/-- The numeric part of the constant evaluator: the literal an instruction
statically evaluates to, or `none` when it is not evaluable. -/
abbrev StaticEvaluator := HGraph → Nat → Option ConstantValue

/-- Modelled from the spec: `TryStaticEvaluation` (nodes.cc is not among the
sources): the evaluator produces a new or interned constant representing the
statically computed result, or reports "not evaluable". -/
def HGraph.TryStaticEvaluation (ev : StaticEvaluator) (g : HGraph) (inst : Nat) :
    Option (HGraph × Nat) :=
  match ev g inst with
  | none => none
  | some c => some (g.GetConstantOfKind c.kind c.type)

/-- `HConstantFoldingVisitor::VisitUnaryOperation`. -/
def VisitUnaryOperation (ev : StaticEvaluator) (g : HGraph) (inst : Nat) : Option HGraph :=
  match g.TryStaticEvaluation ev inst with
  | some (g1, constant) => g1.ReplaceWithAndRemove inst constant
  | none => some g

/-- `HConstantFoldingVisitor::VisitTypeConversion`. -/
def VisitTypeConversion (ev : StaticEvaluator) (g : HGraph) (inst : Nat) : Option HGraph :=
  match g.TryStaticEvaluation ev inst with
  | some (g1, constant) => g1.ReplaceWithAndRemove inst constant
  | none => some g

/-- `HConstantFoldingVisitor::VisitDivZeroCheck`. -/
def VisitDivZeroCheck (g : HGraph) (inst : Nat) : Option HGraph :=
  match g.InputAt inst 0 with
  | none => none
  | some check_input =>
    if g.IsConstant check_input && !g.kindIs InstructionKind.IsArithmeticZero check_input then
      g.ReplaceWithAndRemove inst check_input
    else some g

/-! ### InstructionWithAbsorbingInputSimplifier -/

/-- `HBinaryOperation::GetLeft`. -/
def HGraph.GetLeft (g : HGraph) (inst : Nat) : Option Nat := g.InputAt inst 0

/-- `HBinaryOperation::GetRight`. -/
def HGraph.GetRight (g : HGraph) (inst : Nat) : Option Nat := g.InputAt inst 1

/-- Modelled from the spec: `HBinaryOperation::GetConstantRight` (nodes.cc is
not among the sources): the right operand when it is a constant, else the left
operand when the operation is commutative and the left operand is a constant. -/
def HGraph.GetConstantRight (g : HGraph) (inst : Nat) : Option Nat :=
  match g.GetLeft inst, g.GetRight inst with
  | some left, some right =>
    if g.IsConstant right then some right
    else if g.kindIs InstructionKind.IsCommutative inst && g.IsConstant left then some left
    else none
  | _, _ => none

/-- Modelled from the spec: `HBinaryOperation::GetLeastConstantLeft`: the
operand that `GetConstantRight` did not return. -/
def HGraph.GetLeastConstantLeft (g : HGraph) (inst : Nat) : Option Nat :=
  match g.GetConstantRight inst with
  | none => none
  | some most_constant_right =>
    if some most_constant_right = g.GetLeft inst then g.GetRight inst else g.GetLeft inst

/-- The pair `instruction->ReplaceWith(GetGraph()->GetConstant(type, value));
instruction->GetBlock()->RemoveInstruction(instruction);`. -/
def HGraph.ReplaceWithConstantAndRemove (g : HGraph) (inst : Nat) (ty : DataType)
    (value : Int) : Option HGraph :=
  let r := g.GetConstant ty value
  r.1.ReplaceWithAndRemove inst r.2

/-- The pair `instruction->ReplaceWith(other); block->RemoveInstruction(instruction);`
with the block read before the rules are tested (VisitRem, VisitSub and
VisitXor); `none` when that block is null. -/
def HGraph.ReplaceWithAndRemoveFrom (g : HGraph) (block : Option Nat) (inst other : Nat) :
    Option HGraph :=
  match block with
  | none => none
  | some block_id => some ((g.ReplaceWith inst other).RemoveInstruction block_id inst)

/-- The pair `instruction->ReplaceWith(GetGraph()->GetConstant(type, value));
block->RemoveInstruction(instruction);` with the block read beforehand. -/
def HGraph.ReplaceWithConstantAndRemoveFrom (g : HGraph) (block : Option Nat) (inst : Nat)
    (ty : DataType) (value : Int) : Option HGraph :=
  let r := g.GetConstant ty value
  r.1.ReplaceWithAndRemoveFrom block inst r.2

/-- `InstructionWithAbsorbingInputSimplifier::VisitShift`. -/
def VisitShift (g : HGraph) (instruction : Nat) : Option HGraph :=
  match g.GetLeft instruction with
  | none => none
  | some left =>
    if g.IsConstant left && g.kindIs InstructionKind.IsArithmeticZero left then
      g.ReplaceWithAndRemove instruction left
    else some g

/-- The test shared by VisitEqual and VisitNotEqual: one operand is the null
constant and the other cannot be null. -/
def comparesNonNullWithNull (g : HGraph) (instruction : Nat) : Bool :=
  match g.GetLeft instruction, g.GetRight instruction with
  | some left, some right =>
    let CanBeNull := fun id => match g.GetInstruction id with
      | none => true
      | some i => i.can_be_null
    (g.kindIs (fun k => k = InstructionKind.NullConstant) left && !CanBeNull right) ||
    (g.kindIs (fun k => k = InstructionKind.NullConstant) right && !CanBeNull left)
  | _, _ => false

/-- `InstructionWithAbsorbingInputSimplifier::VisitEqual`. -/
def VisitEqual (g : HGraph) (instruction : Nat) : Option HGraph :=
  if comparesNonNullWithNull g instruction then
    g.ReplaceWithConstantAndRemove instruction DataType.kBool 0
  else some g

/-- `InstructionWithAbsorbingInputSimplifier::VisitNotEqual`. -/
def VisitNotEqual (g : HGraph) (instruction : Nat) : Option HGraph :=
  if comparesNonNullWithNull g instruction then
    g.ReplaceWithConstantAndRemove instruction DataType.kBool 1
  else some g

/-- Whether the operand is a constant that is the arithmetic zero. -/
def HGraph.isZeroConstant (g : HGraph) (operand : Option Nat) : Bool :=
  match operand with
  | none => false
  | some x => g.IsConstant x && g.kindIs InstructionKind.IsArithmeticZero x

/-- `InstructionWithAbsorbingInputSimplifier::VisitAbove`. -/
def VisitAbove (g : HGraph) (instruction : Nat) : Option HGraph :=
  if g.isZeroConstant (g.GetLeft instruction) then
    g.ReplaceWithConstantAndRemove instruction DataType.kBool 0
  else some g

/-- `InstructionWithAbsorbingInputSimplifier::VisitAboveOrEqual`. -/
def VisitAboveOrEqual (g : HGraph) (instruction : Nat) : Option HGraph :=
  if g.isZeroConstant (g.GetRight instruction) then
    g.ReplaceWithConstantAndRemove instruction DataType.kBool 1
  else some g

/-- `InstructionWithAbsorbingInputSimplifier::VisitBelow`. -/
def VisitBelow (g : HGraph) (instruction : Nat) : Option HGraph :=
  if g.isZeroConstant (g.GetRight instruction) then
    g.ReplaceWithConstantAndRemove instruction DataType.kBool 0
  else some g

/-- `InstructionWithAbsorbingInputSimplifier::VisitBelowOrEqual`. -/
def VisitBelowOrEqual (g : HGraph) (instruction : Nat) : Option HGraph :=
  if g.isZeroConstant (g.GetLeft instruction) then
    g.ReplaceWithConstantAndRemove instruction DataType.kBool 1
  else some g

/-- The second rule of VisitAnd (lines 370-387): `And(x, Not(x))`. -/
def VisitAnd.notRule (g : HGraph) (instruction : Nat) (type : DataType) : Option HGraph :=
  match g.GetLeft instruction, g.GetRight instruction with
  | some left, some right =>
    let IsNot := g.kindIs (fun k => k = InstructionKind.Not)
    if xor (IsNot left) (IsNot right) then
      let hnot := if IsNot left then left else right
      let hother := if IsNot left then right else left
      match g.InputAt hnot 0 with
      | none => none
      | some src =>
        if src = hother then g.ReplaceWithConstantAndRemove instruction type 0
        else some g
    else some g
  | _, _ => none

/-- `InstructionWithAbsorbingInputSimplifier::VisitAnd`: the two rules are
tested one after the other, without a return in between. -/
def VisitAnd (g : HGraph) (instruction : Nat) : Option HGraph :=
  let type := g.GetType instruction
  let first :=
    match g.GetConstantRight instruction with
    | some input_cst =>
      if g.kindIs InstructionKind.IsZeroBitPattern input_cst then
        g.ReplaceWithAndRemove instruction input_cst
      else some g
    | none => some g
  match first with
  | none => none
  | some g1 => VisitAnd.notRule g1 instruction type

/-- `InstructionWithAbsorbingInputSimplifier::VisitCompare`. -/
def VisitCompare (g : HGraph) (instruction : Nat) : Option HGraph :=
  match g.GetConstantRight instruction with
  | none => some g
  | some input_cst =>
    match g.GetLeastConstantLeft instruction with
    | none => none
    | some input_value =>
      if (g.GetType input_value).IsFloatingPointType &&
          g.kindIs InstructionKind.IsNaN input_cst then
        g.ReplaceWithConstantAndRemove instruction DataType.kInt32
          (if g.kindIs (fun k => k = InstructionKind.Compare true) instruction then 1 else -1)
      else some g

/-- `InstructionWithAbsorbingInputSimplifier::VisitMul`. -/
def VisitMul (g : HGraph) (instruction : Nat) : Option HGraph :=
  match g.GetConstantRight instruction with
  | some input_cst =>
    if (g.GetType instruction).IsIntOrLongType &&
        g.kindIs InstructionKind.IsArithmeticZero input_cst then
      g.ReplaceWithAndRemove instruction input_cst
    else some g
  | none => some g

/-- `InstructionWithAbsorbingInputSimplifier::VisitOr`. -/
def VisitOr (g : HGraph) (instruction : Nat) : Option HGraph :=
  match g.GetConstantRight instruction with
  | none => some g
  | some input_cst =>
    if g.kindIs (fun k => k.Int64FromConstant = -1) input_cst then
      g.ReplaceWithAndRemove instruction input_cst
    else some g

/-- The second rule of VisitRem (lines 463-477): `Rem(x, 1)`, `Rem(x, -1)`
and `Rem(x, x)`. -/
def VisitRem.oneRule (g : HGraph) (block : Option Nat) (instruction : Nat) (type : DataType) :
    Option HGraph :=
  match g.GetLeft instruction, g.GetRight instruction with
  | some left, some right =>
    if (g.IsConstant right &&
          (g.kindIs InstructionKind.IsOne right || g.kindIs InstructionKind.IsMinusOne right)) ||
        left = right then
      g.ReplaceWithConstantAndRemoveFrom block instruction type 0
    else some g
  | _, _ => none

/-- `InstructionWithAbsorbingInputSimplifier::VisitRem`: the two rules are
tested one after the other, without a return in between. -/
def VisitRem (g : HGraph) (instruction : Nat) : Option HGraph :=
  let type := g.GetType instruction
  if !type.IsIntegralType then some g
  else
    let block := g.BlockOf instruction
    let first :=
      match g.GetLeft instruction with
      | none => none
      | some left =>
        if g.IsConstant left && g.kindIs InstructionKind.IsArithmeticZero left then
          g.ReplaceWithAndRemoveFrom block instruction left
        else some g
    match first with
    | none => none
    | some g1 => VisitRem.oneRule g1 block instruction type

/-- `InstructionWithAbsorbingInputSimplifier::VisitSub`. -/
def VisitSub (g : HGraph) (instruction : Nat) : Option HGraph :=
  let type := g.GetType instruction
  if !type.IsIntegralType then some g
  else
    let block := g.BlockOf instruction
    match g.GetLeft instruction, g.GetRight instruction with
    | some left, some right =>
      if left = right then g.ReplaceWithConstantAndRemoveFrom block instruction type 0
      else some g
    | _, _ => none

/-- `InstructionWithAbsorbingInputSimplifier::VisitXor`. -/
def VisitXor (g : HGraph) (instruction : Nat) : Option HGraph :=
  match g.GetLeft instruction, g.GetRight instruction with
  | some left, some right =>
    if left = right then
      g.ReplaceWithConstantAndRemoveFrom (g.BlockOf instruction) instruction
        (g.GetType instruction) 0
    else some g
  | _, _ => none

/-- `inst->Accept(&simplifier)`: the dispatch of
InstructionWithAbsorbingInputSimplifier on the kind of the instruction; kinds
without an override fall through to the empty default visit. -/
def InstructionWithAbsorbingInputSimplifier.Accept (g : HGraph) (inst : Nat) : Option HGraph :=
  match g.KindOf inst with
  | some .Equal => VisitEqual g inst
  | some .NotEqual => VisitNotEqual g inst
  | some .Above => VisitAbove g inst
  | some .AboveOrEqual => VisitAboveOrEqual g inst
  | some .Below => VisitBelow g inst
  | some .BelowOrEqual => VisitBelowOrEqual g inst
  | some .And => VisitAnd g inst
  | some (.Compare _) => VisitCompare g inst
  | some .Mul => VisitMul g inst
  | some .Or => VisitOr g inst
  | some .Rem => VisitRem g inst
  | some .Shl => VisitShift g inst
  | some .Shr => VisitShift g inst
  | some .Sub => VisitSub g inst
  | some .UShr => VisitShift g inst
  | some .Xor => VisitXor g inst
  | _ => some g

/-- `HConstantFoldingVisitor::VisitBinaryOperation`. -/
def VisitBinaryOperation (ev : StaticEvaluator) (g : HGraph) (inst : Nat) : Option HGraph :=
  match g.TryStaticEvaluation ev inst with
  | some (g1, constant) => g1.ReplaceWithAndRemove inst constant
  | none => InstructionWithAbsorbingInputSimplifier.Accept g inst

/-! ## Dominance -/

/-- The successors of the block with the given id. -/
def HGraph.successorsOf (g : HGraph) (block_id : Nat) : List Nat :=
  match g.GetBlock block_id with
  | none => []
  | some block => block.successors

/-- The predecessors of the block with the given id. -/
def HGraph.predecessorsOf (g : HGraph) (block_id : Nat) : List Nat :=
  match g.GetBlock block_id with
  | none => []
  | some block => block.predecessors

/-- The successor edges that neither leave nor enter block `a`. -/
def HGraph.successorsAvoiding (g : HGraph) (a : Nat) (block_id : Nat) : List Nat :=
  if block_id = a then [] else (g.successorsOf block_id).filter (fun s => s ≠ a)

/-- The blocks reached from the entry block by a path that does not pass
through `a` (the entry block itself is always listed). -/
def HGraph.reachableAvoiding (g : HGraph) (a : Nat) : List Nat :=
  (markLoop (g.successorsAvoiding a) (g.numEdges + 2) [g.entry_block] [g.entry_block]).getD []

/-- Modelled from the spec: `HBasicBlock::Dominates` (nodes.cc is not among
the sources).  Glossary: block A dominates block B if every path from entry to
B passes through A. -/
def HGraph.Dominates (g : HGraph) (a b : Nat) : Bool :=
  a == b || !decide (b ∈ g.reachableAvoiding a)

/-- Modelled from the spec: `HInstructionList::FoundBefore`: whether `a` comes
before `b` in the ordered instruction sequence of a block. -/
def FoundBefore (a b : Nat) : List Nat → Bool
  | [] => false
  | x :: xs => if x = a then true else if x = b then false else FoundBefore a b xs

/-- `HInstruction::IsPhi`. -/
def HGraph.IsPhi (g : HGraph) (id : Nat) : Bool :=
  g.kindIs (fun k => k = InstructionKind.Phi) id

/-- Modelled from the spec: `HInstruction::StrictlyDominates` (nodes.cc is not
among the sources): across blocks it is block dominance; within a block the
phis come before the other instructions, which are ordered by position. -/
def HGraph.StrictlyDominates (g : HGraph) (a b : Nat) : Bool :=
  if a = b then false
  else
    match g.BlockOf a, g.BlockOf b with
    | some block, some other_block =>
      if block ≠ other_block then g.Dominates block other_block
      else if g.IsPhi a then !g.IsPhi b
      else if g.IsPhi b then false
      else
        match g.GetBlock block with
        | none => false
        | some blk => FoundBefore a b blk.instructions
    | _, _ => false

/-- Modelled from the spec: `HInstruction::Dominates`: an instruction
dominates itself and what it strictly dominates. -/
def HGraph.InstructionDominates (g : HGraph) (a b : Nat) : Bool :=
  a == b || g.StrictlyDominates a b

/-- A map over a list that also passes the index of each element, counted
from `n`. -/
def mapWithIndex {α : Type} (f : Nat → α → α) : Nat → List α → List α
  | _, [] => []
  | n, x :: xs => f n x :: mapWithIndex f (n + 1) xs

/-- Modelled from the spec: `HInstruction::ReplaceUsesDominatedBy` (nodes.cc is
not among the sources): the uses of `var` that are dominated by the
instruction `dominator` are rewritten to reference `replacement` instead, and
no other use is. -/
def HGraph.ReplaceUsesDominatedBy (g : HGraph) (var dominator replacement : Nat)
    (strictly_dominated : Bool) : HGraph :=
  { g with instructions := mapWithIndex (fun user u =>
      if u.block.isSome &&
          (if strictly_dominated then g.StrictlyDominates dominator user
            else g.InstructionDominates dominator user) then
        { u with inputs := substInput var replacement u.inputs }
      else u) 0 g.instructions }

/-! ## constant_folding.cc: branch-value propagation -/

/-- The counters of `MethodCompilationStat` that the two passes report. -/
inductive MethodCompilationStat where
  | kPropagatedIfValue | kRemovedDeadInstruction | kSimplifyIf | kSimplifyIfAddedPhi
  | kSimplifyThrowingInvoke | kRemovedNullCheck | kRemovedTry
  deriving DecidableEq, Repr

/-- The statistics sink: the list of recorded (counter, increment) events. -/
abbrev OptimizingCompilerStats := List (MethodCompilationStat × Nat)

/-- `MaybeRecordStat(stats, stat, count)`: nothing when the sink is null. -/
def MaybeRecordStat (stats : Option OptimizingCompilerStats) (stat : MethodCompilationStat)
    (count : Nat) : Option OptimizingCompilerStats :=
  stats.map (fun s => (stat, count) :: s)

/-- The state of `HConstantFoldingVisitor`: the graph and the statistics sink. -/
structure HConstantFoldingVisitor where
  graph : HGraph
  stats : Option OptimizingCompilerStats
  deriving DecidableEq, Repr

/-- `HConstantFoldingVisitor::PropagateValue`; `none` when the starting block
has no first instruction. -/
def PropagateValue (vis : HConstantFoldingVisitor) (starting_block var constant : Nat) :
    Option HConstantFoldingVisitor :=
  match (vis.graph.GetBlock starting_block).bind (·.GetFirstInstruction) with
  | none => none
  | some first_instruction =>
    let recording_stats := vis.stats.isSome
    let uses_before := if recording_stats then vis.graph.NumUses var else 0
    let graph := vis.graph.ReplaceUsesDominatedBy var first_instruction constant false
    let uses_after := if recording_stats then graph.NumUses var else 0
    some { graph := graph,
           stats := if recording_stats then
               MaybeRecordStat vis.stats MethodCompilationStat.kPropagatedIfValue
                 (uses_before - uses_after)
             else vis.stats }

/-- `HIf::IfTrueSuccessor`: the successor at index 0 of the If's block. -/
def HGraph.IfTrueSuccessor (g : HGraph) (inst : Nat) : Option Nat :=
  ((g.BlockOf inst).bind g.GetBlock).bind (·.successors[0]?)

/-- `HIf::IfFalseSuccessor`: the successor at index 1 of the If's block. -/
def HGraph.IfFalseSuccessor (g : HGraph) (inst : Nat) : Option Nat :=
  ((g.BlockOf inst).bind g.GetBlock).bind (·.successors[1]?)

/-- The operand choice that VisitIf makes twice (lines 196-219 and 233-245):
exactly one of `left` and `right` must be a constant, and the other one, the
variable, must not be floating-point.  The result is (var, constant), `var` being the source's `variable`. -/
def VisitIf.pickOperands (g : HGraph) (left right : Nat) : Option (Nat × Nat) :=
  if g.IsConstant left == g.IsConstant right then none
  else
    let constant := if g.IsConstant left then left else right
    let var := if g.IsConstant left then right else left
    if (g.GetType var).IsFloatingPointType then none
    else some (var, constant)

/-- Lines 182-246 of VisitIf: the (var, constant) pair whose equality
the condition `if_input` establishes, or `none` where VisitIf returns. -/
def VisitIf.candidate (g : HGraph) (if_input : Nat) : Option (Nat × Nat) :=
  if !g.kindIs InstructionKind.IsCondition if_input then none
  else if !g.kindIs (fun k => k = InstructionKind.Equal) if_input &&
      !g.kindIs (fun k => k = InstructionKind.NotEqual) if_input then none
  else
    match g.GetLeft if_input, g.GetRight if_input with
    | some left, some right =>
      match VisitIf.pickOperands g left right with
      | none => none
      | some (var, constant) =>
        if g.kindIs (fun k => k = InstructionKind.Compare true ∨ k = InstructionKind.Compare false)
            var then
          if !g.kindIs InstructionKind.IsArithmeticZero constant then none
          else
            match g.GetLeft var, g.GetRight var with
            | some left, some right => VisitIf.pickOperands g left right
            | _, _ => none
        else some (var, constant)
    | _, _ => none

/-- Lines 255-270 of VisitIf: whether the boolean special case applies to
`var` and `constant`. -/
def VisitIf.isBooleanCase (g : HGraph) (var constant : Nat) : Bool :=
  decide (g.GetType var = DataType.kBool) &&
    (g.kindIs (fun k => k = InstructionKind.IntConstant 1) constant ||
      g.kindIs (fun k => k = InstructionKind.IntConstant 0) constant)

/-- Lines 182-270 of VisitIf: the propagation of what an `==` or `!=`
condition says about its operands, after the truth value of the condition
itself has been propagated. -/
def VisitIf.propagateCondition (vis : HConstantFoldingVisitor)
    (if_input true_successor false_successor : Nat) : Option HConstantFoldingVisitor :=
  match VisitIf.candidate vis.graph if_input with
  | none => some vis
  | some (var, constant) =>
    let is_equal := vis.graph.kindIs (fun k => k = InstructionKind.Equal) if_input
    let starting_block := if is_equal then true_successor else false_successor
    match PropagateValue vis starting_block var constant with
    | none => none
    | some vis3 =>
      if VisitIf.isBooleanCase vis3.graph var constant then
        let other_starting_block := if is_equal then false_successor else true_successor
        let r :=
          if vis3.graph.kindIs (fun k => k = InstructionKind.IntConstant 1) constant
          then vis3.graph.GetIntConstant 0
          else vis3.graph.GetIntConstant 1
        PropagateValue { vis3 with graph := r.1 } other_starting_block var r.2
      else some vis3

/-- `HConstantFoldingVisitor::VisitIf`. -/
def VisitIf (vis : HConstantFoldingVisitor) (inst : Nat) : Option HConstantFoldingVisitor :=
  match vis.graph.InputAt inst 0 with
  | none => none
  | some if_input =>
    if vis.graph.IsConstant if_input then some vis
    else
      match vis.graph.IfTrueSuccessor inst, vis.graph.IfFalseSuccessor inst with
      | some true_successor, some false_successor =>
        let r1 := vis.graph.GetIntConstant 1
        match PropagateValue { vis with graph := r1.1 } true_successor if_input r1.2 with
        | none => none
        | some vis1 =>
          let r0 := vis1.graph.GetIntConstant 0
          match PropagateValue { vis1 with graph := r0.1 } false_successor if_input r0.2 with
          | none => none
          | some vis2 => VisitIf.propagateCondition vis2 if_input true_successor false_successor
      | _, _ => none

/-! ## dead_code_elimination.cc: RemoveDeadBlocks -/

/-- A Goto instruction in block `b`. -/
def mkGoto (b : Nat) : HInstruction :=
  { kind := InstructionKind.Goto, type := DataType.kVoid, inputs := [], block := some b }


/-- Modelled from the spec: the Dominance/CFG Maintenance component (nodes.cc
is not among the sources), which recomputes the derived structures from the
control-flow graph: the reverse post order, the loop each block is in and the
try each block belongs to. -/
structure GraphAnalysis where
  reversePostOrder : HGraph → List Nat
  loopInformation : HGraph → Nat → Option Nat
  tryCatchInformation : HGraph → Nat → Option Nat

/-- An update of every block of the block table by a function of its id. -/
def HGraph.mapBlocks (g : HGraph) (f : Nat → HBasicBlock → HBasicBlock) : HGraph :=
  { g with blocks := mapWithIndex (fun id b => Option.map (f id) b) 0 g.blocks }

/-- Modelled from the spec: `HGraph::ClearLoopInformation`. -/
def HGraph.ClearLoopInformation (g : HGraph) : HGraph :=
  g.mapBlocks (fun _ b => { b with loop_information := none })

/-- Modelled from the spec: `HGraph::ClearDominanceInformation`. -/
def HGraph.ClearDominanceInformation (g : HGraph) : HGraph :=
  { g with reverse_post_order := [] }

/-- Modelled from the spec: `HGraph::ComputeDominanceInformation`. -/
def HGraph.ComputeDominanceInformation (a : GraphAnalysis) (g : HGraph) : HGraph :=
  { g with reverse_post_order := a.reversePostOrder g }

/-- Modelled from the spec: `HGraph::ComputeTryBlockInformation`. -/
def HGraph.ComputeTryBlockInformation (a : GraphAnalysis) (g : HGraph) : HGraph :=
  g.mapBlocks (fun id b => { b with try_catch_information := a.tryCatchInformation g id })

/-- Modelled from the spec: `HGraph::BuildDominatorTree`, the full rebuild of
the dominance information, the loop information and the try-block membership. -/
def HGraph.BuildDominatorTree (a : GraphAnalysis) (g : HGraph) : HGraph :=
  let g1 := g.ComputeDominanceInformation a
  let g2 := g1.mapBlocks (fun id b => { b with loop_information := a.loopInformation g1 id })
  g2.ComputeTryBlockInformation a

/-- The inputs of a phi that remain when the predecessor `b` is removed: one
input per predecessor, in predecessor order. -/
def removeInputsOf (b : Nat) : List Nat → List Nat → List Nat
  | p :: ps, x :: xs => if p = b then removeInputsOf b ps xs else x :: removeInputsOf b ps xs
  | _, xs => xs

/-- The predecessors of `b` that are left with exactly one successor when `b`
is deleted: their terminator becomes a Goto. -/
def HGraph.becomesGoto (g : HGraph) (b : Nat) : List Nat :=
  (List.range g.blocks.length).filter (fun p =>
    decide (p ≠ b) && decide (b ∈ g.successorsOf p) &&
      decide (((g.successorsOf p).filter (fun s => s ≠ b)).length = 1))

/-- Modelled from the spec: `HBasicBlock::DisconnectAndDelete` (nodes.cc is not
among the sources): the block is deleted with its phis and instructions; it is
disconnected from its successors, whose phis lose the input of that edge, and
from its predecessors, whose terminator becomes a Goto when a single successor
remains; it leaves the block table and the reverse post order. -/
def HGraph.DisconnectAndDelete (g : HGraph) (b : Nat) : HGraph :=
  let gotos := g.becomesGoto b
  let lastOf := fun p => (g.GetBlock p).bind (·.GetLastInstruction)
  { g with
    blocks := (mapWithIndex (fun id ob => if id = b then none else
      Option.map (fun blk =>
        { blk with
          predecessors := blk.predecessors.filter (fun p => p ≠ b),
          successors := blk.successors.filter (fun s => s ≠ b),
          instructions :=
            if id ∈ gotos then
              blk.instructions.dropLast ++ [g.instructions.length + gotos.indexOf id]
            else blk.instructions }) ob) 0 g.blocks),
    instructions := mapWithIndex (fun id i =>
        if i.block = some b then { i with block := none }
        else if gotos.any (fun p => lastOf p = some id) then { i with block := none }
        else if i.kind = InstructionKind.Phi then
          match i.block with
          | none => i
          | some s => { i with inputs := removeInputsOf b (g.predecessorsOf s) i.inputs }
        else i) 0 g.instructions ++ gotos.map mkGoto,
    reverse_post_order := g.reverse_post_order.filter (fun x => x ≠ b),
    exit_block := if g.exit_block = some b then none else g.exit_block }

/-- `HBasicBlock::IsInLoop`. -/
def HBasicBlock.IsInLoop (b : HBasicBlock) : Bool := b.loop_information.isSome

/-- The state of `HDeadCodeElimination`: the graph and the statistics sink. -/
structure HDeadCodeElimination where
  graph : HGraph
  stats : Option OptimizingCompilerStats
  deriving DecidableEq, Repr

/-- `HDeadCodeElimination::MaybeRecordDeadBlock`. -/
def MaybeRecordDeadBlock (stats : Option OptimizingCompilerStats) (block : HBasicBlock) :
    Option OptimizingCompilerStats :=
  MaybeRecordStat stats MethodCompilationStat.kRemovedDeadInstruction
    (block.phis.length + block.instructions.length)

/-- The state of the removal loop of RemoveDeadBlocks. -/
structure RemoveDeadBlocksState where
  graph : HGraph
  stats : Option OptimizingCompilerStats
  removed_one_or_more_blocks : Bool
  rerun_dominance_and_loop_analysis : Bool

/-- One iteration of the loop over the post order in RemoveDeadBlocks (lines
776-786). -/
def RemoveDeadBlocks.step (live_blocks : ArenaBitVector) (st : RemoveDeadBlocksState)
    (id : Nat) : RemoveDeadBlocksState :=
  if !live_blocks.IsBitSet id then
    match st.graph.GetBlock id with
    | none => st
    | some block =>
      { graph := st.graph.DisconnectAndDelete id,
        stats := MaybeRecordDeadBlock st.stats block,
        removed_one_or_more_blocks := true,
        rerun_dominance_and_loop_analysis :=
          st.rerun_dominance_and_loop_analysis || block.IsInLoop }
  else st

/-- `HDeadCodeElimination::RemoveDeadBlocks`; the loop runs over the post
order as it is when the loop starts. -/
def RemoveDeadBlocks (a : GraphAnalysis) (dce : HDeadCodeElimination) :
    Option (HDeadCodeElimination × Bool) :=
  match MarkReachableBlocks dce.graph [] with
  | none => none
  | some live_blocks =>
    let st := dce.graph.GetPostOrder.foldl (RemoveDeadBlocks.step live_blocks)
      { graph := dce.graph, stats := dce.stats, removed_one_or_more_blocks := false,
        rerun_dominance_and_loop_analysis := false }
    let graph :=
      if st.removed_one_or_more_blocks then
        if st.rerun_dominance_and_loop_analysis then
          (st.graph.ClearLoopInformation.ClearDominanceInformation).BuildDominatorTree a
        else
          ((st.graph.ClearDominanceInformation).ComputeDominanceInformation a
            ).ComputeTryBlockInformation a
      else st.graph
    some ({ graph := graph, stats := st.stats }, st.removed_one_or_more_blocks)

/-! ## Example graphs -/

/-- A block without phis. -/
def mkBlock (instructions predecessors successors : List Nat) : HBasicBlock :=
  { phis := [], instructions := instructions, predecessors := predecessors,
    successors := successors }

/-- The entry block of `exampleConstantIf`. -/
def exampleIfBlock : HBasicBlock := mkBlock [0, 1] [] [1, 2]

/-- Block 0 ends in `If(IntConstant 1)` with true successor 1 and false
successor 2; both jump to the exit block 3. -/
def exampleConstantIf : HGraph :=
  { blocks := [some exampleIfBlock, some (mkBlock [2] [0] [3]), some (mkBlock [3] [0] [3]),
      some (mkBlock [4] [1, 2] [])],
    instructions := [
      { kind := InstructionKind.IntConstant 1, type := DataType.kInt32, inputs := [],
        block := some 0 },
      { kind := InstructionKind.If, type := DataType.kVoid, inputs := [0], block := some 0 },
      mkGoto 1, mkGoto 2,
      { kind := InstructionKind.Exit, type := DataType.kVoid, inputs := [], block := some 3 }],
    entry_block := 0,
    exit_block := some 3,
    reverse_post_order := [0, 1, 2, 3],
    has_irreducible_loops := false,
    has_try_catch := false }

/-- The entry block of `exampleConstantSwitch`. -/
def exampleSwitchBlock : HBasicBlock := mkBlock [0, 1] [] [1, 2, 3]

/-- Block 0 ends in a PackedSwitch on `IntConstant 6` with start value 5 and
two entries (blocks 1 and 2) and default block 3; all jump to the exit block 4. -/
def exampleConstantSwitch : HGraph :=
  { blocks := [some exampleSwitchBlock, some (mkBlock [2] [0] [4]), some (mkBlock [3] [0] [4]),
      some (mkBlock [4] [0] [4]), some (mkBlock [5] [1, 2, 3] [])],
    instructions := [
      { kind := InstructionKind.IntConstant 6, type := DataType.kInt32, inputs := [],
        block := some 0 },
      { kind := InstructionKind.PackedSwitch 5 2, type := DataType.kVoid, inputs := [0],
        block := some 0 },
      mkGoto 1, mkGoto 2, mkGoto 3,
      { kind := InstructionKind.Exit, type := DataType.kVoid, inputs := [], block := some 4 }],
    entry_block := 0,
    exit_block := some 4,
    reverse_post_order := [0, 1, 2, 3, 4],
    has_irreducible_loops := false,
    has_try_catch := false }

/-- An evaluator that folds the negation of an int constant. -/
def exampleEvaluator : StaticEvaluator := fun g inst =>
  match g.KindOf inst, (g.InputAt inst 0).bind g.KindOf with
  | some InstructionKind.Neg, some (InstructionKind.IntConstant v) =>
    some (ConstantValue.Int (-v))
  | _, _ => none

/-- Block 1 returns `Neg(IntConstant 5)`. -/
def exampleNeg : HGraph :=
  { blocks := [some (mkBlock [0, 3] [] [1]), some (mkBlock [1, 2] [0] [2]),
      some (mkBlock [4] [1] [])],
    instructions := [
      { kind := InstructionKind.IntConstant 5, type := DataType.kInt32, inputs := [],
        block := some 0 },
      { kind := InstructionKind.Neg, type := DataType.kInt32, inputs := [0], block := some 1 },
      { kind := InstructionKind.Return, type := DataType.kVoid, inputs := [1], block := some 1 },
      mkGoto 0,
      { kind := InstructionKind.Exit, type := DataType.kVoid, inputs := [], block := some 2 }],
    entry_block := 0,
    exit_block := some 2,
    reverse_post_order := [0, 1, 2],
    has_irreducible_loops := false,
    has_try_catch := false }

/-- An instruction in block `block`. -/
def mkInst (kind : InstructionKind) (type : DataType) (inputs : List Nat) (block : Nat) :
    HInstruction :=
  { kind := kind, type := type, inputs := inputs, block := some block }

/-- Block 1 ends in `If(Equal(x, 7))` for the int parameter `x` (instruction
0); the true successor 2, the false successor 3 and the merge block 4 each call
a method with the condition (instruction 3) and `x` as arguments. -/
def exampleEqualIf : HGraph :=
  { blocks := [some (mkBlock [0, 1, 2] [] [1]), some (mkBlock [3, 4] [0] [2, 3]),
      some (mkBlock [5, 6] [1] [4]), some (mkBlock [7, 8] [1] [4]),
      some (mkBlock [9, 10] [2, 3] [5]), some (mkBlock [11] [4] [])],
    instructions := [
      mkInst InstructionKind.ParameterValue DataType.kInt32 [] 0,
      mkInst (InstructionKind.IntConstant 7) DataType.kInt32 [] 0,
      mkGoto 0,
      mkInst InstructionKind.Equal DataType.kBool [0, 1] 1,
      mkInst InstructionKind.If DataType.kVoid [3] 1,
      mkInst (InstructionKind.Invoke false) DataType.kVoid [3, 0] 2,
      mkGoto 2,
      mkInst (InstructionKind.Invoke false) DataType.kVoid [3, 0] 3,
      mkGoto 3,
      mkInst (InstructionKind.Invoke false) DataType.kVoid [3, 0] 4,
      mkInst InstructionKind.ReturnVoid DataType.kVoid [] 4,
      mkInst InstructionKind.Exit DataType.kVoid [] 5],
    entry_block := 0,
    exit_block := some 5,
    reverse_post_order := [0, 1, 2, 3, 4, 5],
    has_irreducible_loops := false,
    has_try_catch := false }

/-- Block 1 ends in `If(Equal(Compare(a, b), 0))` for the long parameters `a`
and `b` (instructions 0 and 1); the true successor 2 and the false successor 3
each call a method with the Compare (instruction 4) as argument. -/
def exampleCompareIf : HGraph :=
  { blocks := [some (mkBlock [0, 1, 2, 3] [] [1]), some (mkBlock [4, 5, 6] [0] [2, 3]),
      some (mkBlock [7, 8] [1] [4]), some (mkBlock [9, 10] [1] [4]),
      some (mkBlock [11] [2, 3] [5]), some (mkBlock [12] [4] [])],
    instructions := [
      mkInst InstructionKind.ParameterValue DataType.kInt64 [] 0,
      mkInst InstructionKind.ParameterValue DataType.kInt64 [] 0,
      mkInst (InstructionKind.IntConstant 0) DataType.kInt32 [] 0,
      mkGoto 0,
      mkInst (InstructionKind.Compare false) DataType.kInt32 [0, 1] 1,
      mkInst InstructionKind.Equal DataType.kBool [4, 2] 1,
      mkInst InstructionKind.If DataType.kVoid [5] 1,
      mkInst (InstructionKind.Invoke false) DataType.kVoid [4] 2,
      mkGoto 2,
      mkInst (InstructionKind.Invoke false) DataType.kVoid [4] 3,
      mkGoto 3,
      mkInst InstructionKind.ReturnVoid DataType.kVoid [] 4,
      mkInst InstructionKind.Exit DataType.kVoid [] 5],
    entry_block := 0,
    exit_block := some 5,
    reverse_post_order := [0, 1, 2, 3, 4, 5],
    has_irreducible_loops := false,
    has_try_catch := false }

/-- Block 1 ends in `If(NotEqual(Compare(x, 1.0f), 0))` for the float
parameter `x` (instruction 0); the true successor 2 and the false successor 3
each call a method with `x` and the Compare (instruction 4) as arguments. -/
def exampleFloatCompareIf : HGraph :=
  { blocks := [some (mkBlock [0, 1, 2, 3] [] [1]), some (mkBlock [4, 5, 6] [0] [2, 3]),
      some (mkBlock [7, 8] [1] [4]), some (mkBlock [9, 10] [1] [4]),
      some (mkBlock [11] [2, 3] [5]), some (mkBlock [12] [4] [])],
    instructions := [
      mkInst InstructionKind.ParameterValue DataType.kFloat32 [] 0,
      mkInst (InstructionKind.FloatConstant 0x3f800000) DataType.kFloat32 [] 0,
      mkInst (InstructionKind.IntConstant 0) DataType.kInt32 [] 0,
      mkGoto 0,
      mkInst (InstructionKind.Compare true) DataType.kInt32 [0, 1] 1,
      mkInst InstructionKind.NotEqual DataType.kBool [4, 2] 1,
      mkInst InstructionKind.If DataType.kVoid [5] 1,
      mkInst (InstructionKind.Invoke false) DataType.kVoid [0, 4] 2,
      mkGoto 2,
      mkInst (InstructionKind.Invoke false) DataType.kVoid [0, 4] 3,
      mkGoto 3,
      mkInst InstructionKind.ReturnVoid DataType.kVoid [] 4,
      mkInst InstructionKind.Exit DataType.kVoid [] 5],
    entry_block := 0,
    exit_block := some 5,
    reverse_post_order := [0, 1, 2, 3, 4, 5],
    has_irreducible_loops := false,
    has_try_catch := false }

/-! ## Reachability -/

/-- Reachability along a successor function: `x` is reached from `start` by
a path each of whose steps goes from a block to one of its successors. -/
def Reach (live : Nat → List Nat) (start x : Nat) : Prop :=
  Relation.ReflTransGen (fun a b => b ∈ live a) start x

/-- A block is live-reachable when it is reached from the entry block by a
path that follows only live successors. -/
def LiveReachable (g : HGraph) (block_id : Nat) : Prop :=
  Reach (liveSuccessorsOf g) g.entry_block block_id

/-! ## Specification vocabulary for branch-value propagation -/

/-- The inputs of an instruction (none for an unknown id). -/
def HGraph.inputsOf (g : HGraph) (id : Nat) : List Nat :=
  match g.GetInstruction id with
  | none => []
  | some i => i.inputs

/-- The instruction `user` is in a block and is dominated by the instruction
`dominator`: its uses are the ones that `ReplaceUsesDominatedBy` rewrites. -/
def HGraph.inRegion (g : HGraph) (dominator user : Nat) : Bool :=
  (g.BlockOf user).isSome && g.InstructionDominates dominator user

/-- The block is reachable from the entry block along successor edges. -/
def HGraph.Reachable (g : HGraph) (block_id : Nat) : Prop :=
  Reach g.successorsOf g.entry_block block_id

/-- Every successor edge is recorded in the predecessor list of its target. -/
def HGraph.SuccessorsArePredecessors (g : HGraph) : Bool :=
  (List.range g.blocks.length).all (fun x =>
    (g.successorsOf x).all (fun s => decide (x ∈ g.predecessorsOf s)))

/-- Modelled from the spec: the run-time result of an `==` or `!=` condition
on two integer values (no other kind is given a meaning here). -/
def evalEquality (k : InstructionKind) (l r : Int) : Option Bool :=
  match k with
  | InstructionKind.Equal => some (decide (l = r))
  | InstructionKind.NotEqual => some (decide (l ≠ r))
  | _ => none

/-- Modelled from the spec: the successor an If transfers control to: the
true successor when its condition holds, the false successor otherwise. -/
def takenSuccessor (cond : Bool) (true_successor false_successor : Nat) : Nat :=
  if cond then true_successor else false_successor

/-- No dangling inputs: every input of every instruction is an instruction
of the arena. -/
def HGraph.InputsDefined (g : HGraph) : Bool :=
  g.instructions.all (fun i => i.inputs.all (fun y => decide (y < g.instructions.length)))

/-- The setting in which VisitIf runs on the If `inst`: its condition is
`v`, its true and false successors are `t` and `f`, whose first instructions
are `tfirst` and `ffirst`; the successors are not the entry block, no input
dangles, and `v` is neither its own input nor an input of one of its operands
(SSA form). -/
structure IfContext (g : HGraph) (inst v t f tfirst ffirst : Nat) : Prop where
  input : g.InputAt inst 0 = some v
  true_successor : g.IfTrueSuccessor inst = some t
  false_successor : g.IfFalseSuccessor inst = some f
  true_first : (g.GetBlock t).bind (·.GetFirstInstruction) = some tfirst
  false_first : (g.GetBlock f).bind (·.GetFirstInstruction) = some ffirst
  true_first_block : g.BlockOf tfirst = some t
  false_first_block : g.BlockOf ffirst = some f
  true_not_entry : t ≠ g.entry_block
  false_not_entry : f ≠ g.entry_block
  inputs_defined : g.InputsDefined = true
  no_self_use : v ∉ g.inputsOf v
  operands_no_use : ∀ y ∈ g.inputsOf v, v ∉ g.inputsOf y

/-- What a sequence of constant interning and use replacement preserves of
the graph `g`: the entry block, the successor edges, the first instruction of
every block but the entry block, the kind, type, block and input count of
every instruction, and which instructions dominate which; an instruction that
`g` does not have is a constant without inputs. -/
structure Agree (g gi : HGraph) : Prop where
  entry : gi.entry_block = g.entry_block
  succ : ∀ b, gi.successorsOf b = g.successorsOf b
  first : ∀ b, b ≠ g.entry_block →
    (gi.GetBlock b).bind (·.GetFirstInstruction) = (g.GetBlock b).bind (·.GetFirstInstruction)
  inst : ∀ id i, g.GetInstruction id = some i →
    ∃ i', gi.GetInstruction id = some i' ∧ i'.kind = i.kind ∧ i'.type = i.type ∧
      i'.block = i.block ∧ i'.inputs.length = i.inputs.length
  fresh : ∀ id i', g.GetInstruction id = none → gi.GetInstruction id = some i' →
    i'.inputs = [] ∧ i'.kind.IsConstant = true
  region : ∀ d user, (g.GetInstruction d).isSome = true → (g.GetInstruction user).isSome = true →
    gi.inRegion d user = g.inRegion d user

/-! ## Specification vocabulary for the rewrites of single instructions -/

/-- The graph `g'` is `g` with the instruction `inst` of block `block_id`
replaced by `r`: every use of `inst` now refers to `r`, no use of `inst` is
left, `inst` has left its block, and every input that held another
instruction still holds it. -/
def HGraph.Replaced (g g' : HGraph) (inst block_id r : Nat) : Prop :=
  (∀ user index, g.IsUse inst user index → g'.InputAt user index = some r) ∧
  (∀ user index, ¬ g'.IsUse inst user index) ∧
  g'.BlockOf inst = none ∧
  (∀ blk, g'.GetBlock block_id = some blk → inst ∉ blk.instructions) ∧
  (∀ user index y, y ≠ inst → g.InputAt user index = some y → g'.InputAt user index = some y)

/-- The kind of the constant that `GetConstant(type, value)` returns. -/
def constantKind (ty : DataType) (value : Int) : InstructionKind :=
  match ty with
  | DataType.kInt64 => InstructionKind.LongConstant value
  | _ => InstructionKind.IntConstant value

/-! ## constant_folding.cc: the sweep -/

/-- `HInstruction::IsUnaryOperation`: the kinds derived from HUnaryOperation. -/
def InstructionKind.IsUnaryOperation : InstructionKind → Bool
  | .Neg => true
  | .Not => true
  | .BooleanNot => true
  | _ => false

/-- `HInstruction::IsBinaryOperation`: the kinds derived from HBinaryOperation
(the conditions and Compare among them). -/
def InstructionKind.IsBinaryOperation : InstructionKind → Bool
  | .Equal => true
  | .NotEqual => true
  | .LessThan => true
  | .LessThanOrEqual => true
  | .GreaterThan => true
  | .GreaterThanOrEqual => true
  | .Below => true
  | .BelowOrEqual => true
  | .Above => true
  | .AboveOrEqual => true
  | .Compare _ => true
  | .Add => true
  | .Sub => true
  | .Mul => true
  | .Div => true
  | .Rem => true
  | .And => true
  | .Or => true
  | .Xor => true
  | .Shl => true
  | .Shr => true
  | .UShr => true
  | _ => false

/-- `it.Current()->Accept(this)` for the HConstantFoldingVisitor: the five
visit methods the visitor overrides, by the kind of the instruction; every
other kind falls through to the empty default visit. -/
def HConstantFoldingVisitor.Accept (ev : StaticEvaluator) (vis : HConstantFoldingVisitor)
    (inst : Nat) : Option HConstantFoldingVisitor :=
  let withGraph := fun (r : Option HGraph) => r.map (fun g => { vis with graph := g })
  match vis.graph.KindOf inst with
  | none => none
  | some k =>
    if k.IsUnaryOperation then withGraph (VisitUnaryOperation ev vis.graph inst)
    else if k.IsBinaryOperation then withGraph (VisitBinaryOperation ev vis.graph inst)
    else
      match k with
      | .TypeConversion => withGraph (VisitTypeConversion ev vis.graph inst)
      | .DivZeroCheck => withGraph (VisitDivZeroCheck vis.graph inst)
      | .If => VisitIf vis inst
      | _ => some vis

/-- The loop of `HConstantFoldingVisitor::VisitBasicBlock` over the
instructions of a block, first to last.  The iterator reads the successor of
the current instruction before the visit, so the removal of the current
instruction does not disturb the walk; the only instructions a visit inserts
are constants, whose visit is empty. -/
def HConstantFoldingVisitor.visitInstructions (ev : StaticEvaluator) :
    List Nat → HConstantFoldingVisitor → Option HConstantFoldingVisitor
  | [], vis => some vis
  | inst :: rest, vis =>
    match HConstantFoldingVisitor.Accept ev vis inst with
    | none => none
    | some vis1 => HConstantFoldingVisitor.visitInstructions ev rest vis1

/-- `HConstantFoldingVisitor::VisitBasicBlock`. -/
def HConstantFoldingVisitor.VisitBasicBlock (ev : StaticEvaluator)
    (vis : HConstantFoldingVisitor) (block : Nat) : Option HConstantFoldingVisitor :=
  match vis.graph.GetBlock block with
  | none => none
  | some b => HConstantFoldingVisitor.visitInstructions ev b.instructions vis

/-- The loop of `VisitReversePostOrder` over the blocks. -/
def HConstantFoldingVisitor.visitBlocks (ev : StaticEvaluator) :
    List Nat → HConstantFoldingVisitor → Option HConstantFoldingVisitor
  | [], vis => some vis
  | block :: rest, vis =>
    match HConstantFoldingVisitor.VisitBasicBlock ev vis block with
    | none => none
    | some vis1 => HConstantFoldingVisitor.visitBlocks ev rest vis1

/-- `HGraphVisitor::VisitReversePostOrder`. -/
def HConstantFoldingVisitor.VisitReversePostOrder (ev : StaticEvaluator)
    (vis : HConstantFoldingVisitor) : Option HConstantFoldingVisitor :=
  HConstantFoldingVisitor.visitBlocks ev vis.graph.reverse_post_order vis

/-- `HConstantFolding::Run`: the visitor state after the sweep, and the
result `true`. -/
def HConstantFolding.Run (ev : StaticEvaluator) (graph : HGraph)
    (stats : Option OptimizingCompilerStats) : Option (HConstantFoldingVisitor × Bool) :=
  (HConstantFoldingVisitor.VisitReversePostOrder ev { graph := graph, stats := stats }).map
    (fun vis => (vis, true))

/-! ## Example graphs for the rewrites of single instructions -/

/-- Block 1 returns `Div(x, DivZeroCheck(5))` for the int parameter `x`
(instruction 0); instruction 3 is the DivZeroCheck. -/
def exampleDivZeroCheck : HGraph :=
  { blocks := [some (mkBlock [0, 1, 2] [] [1]), some (mkBlock [3, 4, 5] [0] [2]),
      some (mkBlock [6] [1] [])],
    instructions := [
      mkInst InstructionKind.ParameterValue DataType.kInt32 [] 0,
      mkInst (InstructionKind.IntConstant 5) DataType.kInt32 [] 0,
      mkGoto 0,
      mkInst InstructionKind.DivZeroCheck DataType.kInt32 [1] 1,
      mkInst InstructionKind.Div DataType.kInt32 [0, 3] 1,
      mkInst InstructionKind.Return DataType.kVoid [4] 1,
      mkInst InstructionKind.Exit DataType.kVoid [] 2],
    entry_block := 0,
    exit_block := some 2,
    reverse_post_order := [0, 1, 2],
    has_irreducible_loops := false,
    has_try_catch := false }


/-! ## Run-time meaning of the operations -/

/-- Modelled from the spec: the value of an integer in `w`-bit two's-complement
arithmetic (integer operations wrap). -/
def wrapSigned (w : Nat) (x : Int) : Int := (x + 2 ^ (w - 1)) % 2 ^ w - 2 ^ (w - 1)

/-- Modelled from the spec: the `w`-bit pattern of an integer, read as an
unsigned number. -/
def toUnsigned (w : Nat) (x : Int) : Nat := (x % 2 ^ w).toNat

/-- Modelled from the spec: the run-time result of an integer binary operation
on `w`-bit values (`w` is 32 for int and 64 for long): wrap-around arithmetic,
the remainder of the truncating division (no result for a zero divisor, which
throws), bitwise operations on the bit patterns, and shifts by the distance
modulo `w`. -/
def evalBinary (k : InstructionKind) (w : Nat) (x y : Int) : Option Int :=
  match k with
  | .Mul => some (wrapSigned w (x * y))
  | .Sub => some (wrapSigned w (x - y))
  | .Rem => if y = 0 then none else some (wrapSigned w (x.tmod y))
  | .And => some (wrapSigned w (toUnsigned w x &&& toUnsigned w y : Nat))
  | .Or => some (wrapSigned w (toUnsigned w x ||| toUnsigned w y : Nat))
  | .Xor => some (wrapSigned w (toUnsigned w x ^^^ toUnsigned w y : Nat))
  | .Shl => some (wrapSigned w (toUnsigned w x <<< (y % w).toNat : Nat))
  | .Shr => some (wrapSigned w x >>> (y % w).toNat)
  | .UShr => some (wrapSigned w (toUnsigned w x >>> (y % w).toNat : Nat))
  | _ => none

/-- Modelled from the spec: the run-time result of the bitwise negation. -/
def evalNot (w : Nat) (x : Int) : Int := wrapSigned w (-x - 1)

/-- Modelled from the spec: the run-time result of the four unsigned
conditions on `w`-bit values. -/
def evalUnsignedCondition (k : InstructionKind) (w : Nat) (x y : Int) : Option Bool :=
  match k with
  | .Above => some (decide (toUnsigned w y < toUnsigned w x))
  | .AboveOrEqual => some (decide (toUnsigned w y ≤ toUnsigned w x))
  | .Below => some (decide (toUnsigned w x < toUnsigned w y))
  | .BelowOrEqual => some (decide (toUnsigned w x ≤ toUnsigned w y))
  | _ => none

/-- The literal of an int or long constant. -/
def InstructionKind.integralValue : InstructionKind → Option Int
  | .IntConstant v => some v
  | .LongConstant v => some v
  | _ => none

/-- The literal of the instruction `id` when it is an int or long constant. -/
def HGraph.literalOf (g : HGraph) (id : Nat) : Option Int :=
  (g.KindOf id).bind InstructionKind.integralValue

/-- Block 1 returns an operation (instruction 3) of kind `op` and type
`opType` on the given inputs; instruction 0 is a parameter `x` of type `ty`
and instruction 1 a constant of kind `ck` and type `ty`. -/
def exampleOperation (op : InstructionKind) (opType : DataType) (inputs : List Nat)
    (ty : DataType) (ck : InstructionKind) : HGraph :=
  { blocks := [some (mkBlock [0, 1, 2] [] [1]), some (mkBlock [3, 4] [0] [2]),
      some (mkBlock [5] [1] [])],
    instructions := [
      mkInst InstructionKind.ParameterValue ty [] 0,
      mkInst ck ty [] 0,
      mkGoto 0,
      mkInst op opType inputs 1,
      mkInst InstructionKind.Return DataType.kVoid [3] 1,
      mkInst InstructionKind.Exit DataType.kVoid [] 2],
    entry_block := 0,
    exit_block := some 2,
    reverse_post_order := [0, 1, 2],
    has_irreducible_loops := false,
    has_try_catch := false }

/-- Block 1 returns `And(x, Not(x))` (instruction 4) where `x` is itself
`Not(y)` (instruction 2) for the int parameter `y` (instruction 0);
instruction 3 is `Not(x)`. -/
def exampleAndOfNots : HGraph :=
  { blocks := [some (mkBlock [0, 1] [] [1]), some (mkBlock [2, 3, 4, 5] [0] [2]),
      some (mkBlock [6] [1] [])],
    instructions := [
      mkInst InstructionKind.ParameterValue DataType.kInt32 [] 0,
      mkGoto 0,
      mkInst InstructionKind.Not DataType.kInt32 [0] 1,
      mkInst InstructionKind.Not DataType.kInt32 [2] 1,
      mkInst InstructionKind.And DataType.kInt32 [2, 3] 1,
      mkInst InstructionKind.Return DataType.kVoid [4] 1,
      mkInst InstructionKind.Exit DataType.kVoid [] 2],
    entry_block := 0,
    exit_block := some 2,
    reverse_post_order := [0, 1, 2],
    has_irreducible_loops := false,
    has_try_catch := false }

/-- Block 1 ends in `If(NotEqual(b, 1))` for the boolean parameter `b`
(instruction 0); the true successor 2, the false successor 3 and the merge
block 4 each call a method with the condition (instruction 3) and `b` as
arguments. -/
def exampleBooleanIf : HGraph :=
  { blocks := [some (mkBlock [0, 1, 2] [] [1]), some (mkBlock [3, 4] [0] [2, 3]),
      some (mkBlock [5, 6] [1] [4]), some (mkBlock [7, 8] [1] [4]),
      some (mkBlock [9, 10] [2, 3] [5]), some (mkBlock [11] [4] [])],
    instructions := [
      mkInst InstructionKind.ParameterValue DataType.kBool [] 0,
      mkInst (InstructionKind.IntConstant 1) DataType.kInt32 [] 0,
      mkGoto 0,
      mkInst InstructionKind.NotEqual DataType.kBool [0, 1] 1,
      mkInst InstructionKind.If DataType.kVoid [3] 1,
      mkInst (InstructionKind.Invoke false) DataType.kVoid [3, 0] 2,
      mkGoto 2,
      mkInst (InstructionKind.Invoke false) DataType.kVoid [3, 0] 3,
      mkGoto 3,
      mkInst (InstructionKind.Invoke false) DataType.kVoid [3, 0] 4,
      mkInst InstructionKind.ReturnVoid DataType.kVoid [] 4,
      mkInst InstructionKind.Exit DataType.kVoid [] 5],
    entry_block := 0,
    exit_block := some 5,
    reverse_post_order := [0, 1, 2, 3, 4, 5],
    has_irreducible_loops := false,
    has_try_catch := false }

/-! ## dead_code_elimination.cc: SimplifyIfs and MaybeAddPhi -/

/-- The ten conditions of `IfCondition`. -/
inductive IfCondition where
  | kCondEQ | kCondNE | kCondLT | kCondLE | kCondGT | kCondGE
  | kCondB | kCondBE | kCondA | kCondAE
  deriving DecidableEq, Repr

/-- Modelled from the spec: `HCondition::GetCondition` (nodes.h is not among
the sources): the condition that a comparison kind stands for. -/
def InstructionKind.GetCondition : InstructionKind → Option IfCondition
  | .Equal => some .kCondEQ
  | .NotEqual => some .kCondNE
  | .LessThan => some .kCondLT
  | .LessThanOrEqual => some .kCondLE
  | .GreaterThan => some .kCondGT
  | .GreaterThanOrEqual => some .kCondGE
  | .Below => some .kCondB
  | .BelowOrEqual => some .kCondBE
  | .Above => some .kCondA
  | .AboveOrEqual => some .kCondAE
  | _ => none

/-- Modelled from the spec: `HCondition::GetOppositeCondition` (nodes.h is not
among the sources): the exactly inverted condition. -/
def InstructionKind.GetOppositeCondition : InstructionKind → Option IfCondition
  | .Equal => some .kCondNE
  | .NotEqual => some .kCondEQ
  | .LessThan => some .kCondGE
  | .LessThanOrEqual => some .kCondGT
  | .GreaterThan => some .kCondLE
  | .GreaterThanOrEqual => some .kCondLT
  | .Below => some .kCondAE
  | .BelowOrEqual => some .kCondA
  | .Above => some .kCondBE
  | .AboveOrEqual => some .kCondB
  | _ => none

/-- `HasEquality` (lines 108-123). -/
def HasEquality : IfCondition → Bool
  | .kCondEQ => true
  | .kCondLE => true
  | .kCondGE => true
  | .kCondBE => true
  | .kCondAE => true
  | .kCondNE => false
  | .kCondLT => false
  | .kCondGT => false
  | .kCondB => false
  | .kCondA => false

/-- `HasInput` (lines 103-106). -/
def HasInput (g : HGraph) (instruction input : Nat) : Bool :=
  g.InputAt instruction 0 == some input || g.InputAt instruction 1 == some input

/-- The numeric part of `HCondition::Evaluate` on two constants (nodes.h is
not among the sources): the truth value of the condition of the given kind on
the constants of the given kinds, or `none` when the condition has no static
meaning on them. -/
abbrev ConditionEvaluator := InstructionKind → InstructionKind → InstructionKind → Option Bool

/-- `Evaluate` (lines 125-147): the graph, in which the result may have been
interned, and the constant the condition evaluates to on `left` and `right`,
if any; `none` when the condition has no static meaning on the operands. -/
def Evaluate (cev : ConditionEvaluator) (g : HGraph) (condition left right : Nat) :
    Option (HGraph × Option Nat) :=
  match g.KindOf condition with
  | none => none
  | some ck =>
    if left = right ∧ (g.GetType left).IsFloatingPointType = false then
      match ck.GetCondition with
      | none => none
      | some c =>
        let r := g.GetIntConstant (if HasEquality c then 1 else 0)
        some (r.1, some r.2)
    else if !g.IsConstant left || !g.IsConstant right then some (g, none)
    else
      match g.KindOf left, g.KindOf right with
      | some lk, some rk =>
        match cev ck lk rk with
        | none => none
        | some value =>
          let r := g.GetIntConstant (if value then 1 else 0)
          some (r.1, some r.2)
      | _, _ => none

/-- Modelled from the spec: `HBasicBlock::GetDominator` (nodes.h is not among
the sources): the immediate dominator of a block, the strict dominator that
every strict dominator of the block dominates. -/
def HGraph.GetDominator (g : HGraph) (block : Nat) : Option Nat :=
  let strict := (List.range g.blocks.length).filter (fun d =>
    decide (d ≠ block) && (g.GetBlock d).isSome && g.Dominates d block)
  strict.find? (fun d => strict.all (fun e => g.Dominates e d))

/-- Modelled from the spec: `HInstruction::IsRemovable` (nodes.h is not among
the sources): the instruction has no side effect, cannot throw and is neither
control flow nor a parameter nor a suspend check. -/
def InstructionKind.IsRemovable : InstructionKind → Bool
  | .If => false
  | .PackedSwitch _ _ => false
  | .Goto => false
  | .Return => false
  | .ReturnVoid => false
  | .Throw => false
  | .Exit => false
  | .TryBoundary _ => false
  | .DivZeroCheck => false
  | .NullCheck => false
  | .ParameterValue => false
  | .Invoke _ => false
  | .SuspendCheck => false
  | _ => true

/-- Modelled from the spec: `HInstruction::IsDeadAndRemovable`: removable and
without uses. -/
def HGraph.IsDeadAndRemovable (g : HGraph) (id : Nat) : Bool :=
  g.kindIs InstructionKind.IsRemovable id && g.NumUses id == 0

/-- Modelled from the spec: `HInstruction::HasOnlyOneNonEnvironmentUse`
(environments are not part of the model). -/
def HGraph.HasOnlyOneNonEnvironmentUse (g : HGraph) (id : Nat) : Bool :=
  g.NumUses id == 1

/-- Modelled from the spec: `HBasicBlock::AddPhi` of a new phi of the given
type and inputs (nodes.cc is not among the sources): the phi is appended to the
phis of the block; the result is the graph and the id of the phi. -/
def HGraph.AddPhi (g : HGraph) (block : Nat) (type : DataType) (inputs : List Nat) :
    HGraph × Nat :=
  let id := g.instructions.length
  ({ g with
      instructions := g.instructions ++
        [{ kind := InstructionKind.Phi, type := type, inputs := inputs, block := some block }],
      blocks := g.blocks.modify (Option.map (fun b => { b with phis := b.phis ++ [id] })) block },
    id)

/-- Modelled from the spec: `HInstruction::ReplaceInput(replacement, index)`. -/
def HGraph.ReplaceInput (g : HGraph) (user index replacement : Nat) : HGraph :=
  { g with instructions :=
      g.instructions.modify (fun u => { u with inputs := u.inputs.set index replacement }) user }

/-- Modelled from the spec: `HPhi::RemoveInputAt(index)`. -/
def HGraph.RemoveInputAt (g : HGraph) (phi index : Nat) : HGraph :=
  { g with instructions :=
      g.instructions.modify (fun u => { u with inputs := u.inputs.eraseIdx index }) phi }

/-- Modelled from the spec: `HBasicBlock::RemovePhi` (nodes.cc is not among
the sources): the phi leaves the phis of the block and no longer belongs to a
block. -/
def HGraph.RemovePhi (g : HGraph) (block_id phi : Nat) : HGraph :=
  { g with
      blocks := g.blocks.modify
        (Option.map (fun b => { b with phis := b.phis.filter (fun i => i ≠ phi) })) block_id,
      instructions := g.instructions.modify (fun u => { u with block := none }) phi }

/-- Replacement of the first occurrence of `old` in a list. -/
def replaceFirst (old new : Nat) : List Nat → List Nat
  | [] => []
  | x :: xs => if x = old then new :: xs else x :: replaceFirst old new xs

/-- Modelled from the spec: `HBasicBlock::ReplaceSuccessor(existing, new_block)`
on the block `block` (nodes.h is not among the sources): the edge from `block`
to `existing` is redirected to `new_block`; `existing` loses the predecessor
`block`, `new_block` gains it as its last predecessor, and `new_block` takes
the place of `existing` among the successors of `block`. -/
def HGraph.ReplaceSuccessor (g : HGraph) (block existing new_block : Nat) : HGraph :=
  { g with
      blocks :=
        List.modify
          (Option.map (fun b =>
            { b with successors := replaceFirst existing new_block b.successors }))
          block
          (List.modify
            (Option.map (fun b => { b with predecessors := b.predecessors ++ [block] }))
            new_block
            (List.modify
              (Option.map (fun b => { b with predecessors := b.predecessors.erase block }))
              existing g.blocks)) }

/-- The test of MaybeAddPhi for the opposite condition (lines 469-480): both
inputs are conditions on the same left and right operands, and the opposite of
the condition of the block is the condition of the dominator. -/
def MaybeAddPhi.isOpposite (g : HGraph) (input dominator_input : Nat) : Bool :=
  g.kindIs InstructionKind.IsCondition dominator_input &&
  g.kindIs InstructionKind.IsCondition input &&
  (g.GetLeft input == g.GetLeft dominator_input) &&
  (g.GetRight input == g.GetRight dominator_input) &&
  ((g.KindOf input).bind InstructionKind.GetOppositeCondition ==
    (g.KindOf dominator_input).bind InstructionKind.GetCondition)

/-- The loop of MaybeAddPhi over the predecessors (lines 495-542): the graph,
in which the literals have been interned, and the inputs of the new phi, one
per predecessor; no inputs when the loop returns from MaybeAddPhi (line 525). -/
def MaybeAddPhi.inputs (true_successor false_successor : Nat) (same_input : Bool)
    (input : Nat) : HGraph → List Nat → HGraph × Option (List Nat)
  | g, [] => (g, some [])
  | g, pred :: rest =>
    let dominated_by_true := g.Dominates true_successor pred
    let dominated_by_false := g.Dominates false_successor pred
    if dominated_by_true = dominated_by_false then
      if !same_input then (g, none)
      else
        let r := MaybeAddPhi.inputs true_successor false_successor same_input input g rest
        (r.1, r.2.map (fun l => input :: l))
    else
      let c := g.GetIntConstant (if same_input = dominated_by_true then 1 else 0)
      let r := MaybeAddPhi.inputs true_successor false_successor same_input input c.1 rest
      (r.1, r.2.map (fun l => c.2 :: l))

/-- `HDeadCodeElimination::MaybeAddPhi`; `none` where the source dereferences
a null pointer. -/
def MaybeAddPhi (dce : HDeadCodeElimination) (block : Nat) : Option HDeadCodeElimination :=
  let g := dce.graph
  match g.GetBlock block with
  | none => none
  | some b =>
    match b.GetLastInstruction with
    | none => none
    | some if_instruction =>
      match g.InputAt if_instruction 0 with
      | none => none
      | some input =>
        if g.IsConstant input then some dce
        else if b.predecessors.length < 2 then some dce
        else if !b.phis.isEmpty then some dce
        else
          match g.GetDominator block with
          | none => none
          | some dominator =>
            match (g.GetBlock dominator).bind (·.GetLastInstruction) with
            | none => some dce
            | some dominator_if =>
              if !g.kindIs (fun k => k = InstructionKind.If) dominator_if then some dce
              else
                match g.InputAt dominator_if 0 with
                | none => none
                | some dominator_input =>
                  let same_input := decide (dominator_input = input)
                  if !same_input && !MaybeAddPhi.isOpposite g input dominator_input then some dce
                  else
                    match g.IfTrueSuccessor dominator_if, g.IfFalseSuccessor dominator_if with
                    | some true_successor, some false_successor =>
                      match MaybeAddPhi.inputs true_successor false_successor same_input input g
                          b.predecessors with
                      | (g1, none) => some { dce with graph := g1 }
                      | (g1, some inputs) =>
                        let r := g1.AddPhi block DataType.kInt32 inputs
                        let g3 := r.1.ReplaceInput if_instruction 0 r.2
                        let g4 :=
                          if g3.IsDeadAndRemovable input then
                            match g3.BlockOf input with
                            | none => g3
                            | some input_block => g3.RemoveInstruction input_block input
                          else g3
                        some { graph := g4,
                               stats := MaybeRecordStat dce.stats
                                 MethodCompilationStat.kSimplifyIfAddedPhi 1 }
                    | _, _ => none

/-- The state of the loop of SimplifyIfs over the blocks. -/
structure SimplifyIfsState where
  graph : HGraph
  stats : Option OptimizingCompilerStats
  simplified_one_or_more_ifs : Bool
  rerun_dominance_and_loop_analysis : Bool

/-- The `value_to_check` of SimplifyIfs for one input of the phi (lines
363-375). -/
def SimplifyIfs.valueToCheck (cev : ConditionEvaluator) (g : HGraph) (first : Nat)
    (has_only_phi_and_if phi_input_is_left : Bool) (input : Nat) :
    Option (HGraph × Option Nat) :=
  if has_only_phi_and_if then
    some (g, if g.kindIs (fun k => match k with
      | InstructionKind.IntConstant _ => true
      | _ => false) input then some input else none)
  else if phi_input_is_left then
    match g.InputAt first 1 with
    | none => none
    | some right => Evaluate cev g first input right
  else
    match g.InputAt first 0 with
    | none => none
    | some left => Evaluate cev g first left input

/-- The walk of SimplifyIfs over the inputs of the phi (lines 361-401), from
index `i` on.  The first argument bounds the number of iterations; `none` is
returned when it runs out, and where the source dereferences a null pointer. -/
def SimplifyIfs.redirect (cev : ConditionEvaluator) (block phi first : Nat)
    (has_only_phi_and_if phi_input_is_left : Bool) :
    Nat → Nat → SimplifyIfsState → Option SimplifyIfsState
  | 0, i, st => if i < (st.graph.inputsOf phi).length then none else some st
  | fuel + 1, i, st =>
    if i < (st.graph.inputsOf phi).length then
      match st.graph.InputAt phi i with
      | none => none
      | some input =>
        match SimplifyIfs.valueToCheck cev st.graph first has_only_phi_and_if
            phi_input_is_left input with
        | none => none
        | some (g1, none) =>
          SimplifyIfs.redirect cev block phi first has_only_phi_and_if phi_input_is_left
            fuel (i + 1) { st with graph := g1 }
        | some (g1, some value_to_check) =>
          match g1.GetBlock block with
          | none => none
          | some b =>
            match b.predecessors[i]?,
              (if g1.kindIs (fun k => k = InstructionKind.IntConstant 1) value_to_check
                then b.successors[0]? else b.successors[1]?) with
            | some predecessor_to_update, some successor_to_update =>
              let g2 := g1.ReplaceSuccessor predecessor_to_update block successor_to_update
              let g3 := g2.RemoveInputAt phi i
              let st1 : SimplifyIfsState :=
                { graph := g3, stats := st.stats, simplified_one_or_more_ifs := true,
                  rerun_dominance_and_loop_analysis :=
                    st.rerun_dominance_and_loop_analysis || b.IsInLoop }
              if (g3.inputsOf phi).length = 1 then some st1
              else
                SimplifyIfs.redirect cev block phi first has_only_phi_and_if
                  phi_input_is_left fuel i st1
            | _, _ => none
    else some st

/-- Lines 402-414 of SimplifyIfs: when the block is left with one
predecessor, the phi is replaced by its input and removed, and the condition,
if there is one, is evaluated. -/
def SimplifyIfs.removePhi (ev : StaticEvaluator) (g : HGraph) (block phi first : Nat)
    (has_only_phi_condition_and_if : Bool) : Option HGraph :=
  match g.GetBlock block with
  | none => none
  | some b =>
    if b.predecessors.length = 1 then
      match g.InputAt phi 0 with
      | none => none
      | some input =>
        let g1 := (g.ReplaceWith phi input).RemovePhi block phi
        if has_only_phi_condition_and_if then
          match g1.TryStaticEvaluation ev first with
          | some (g2, result) => some ((g2.ReplaceWith first result).RemoveInstruction block first)
          | none => some g1
        else some g1
    else some g

/-- The body of the loop of SimplifyIfs for one block (lines 314-419). -/
def SimplifyIfs.visitBlock (ev : StaticEvaluator) (cev : ConditionEvaluator)
    (st : SimplifyIfsState) (block : Nat) : Option SimplifyIfsState :=
  match st.graph.GetBlock block with
  | none => none
  | some b0 =>
    if b0.is_catch_block then some st
    else
      match b0.GetLastInstruction with
      | none => none
      | some last =>
        if !st.graph.kindIs (fun k => k = InstructionKind.If) last then some st
        else if b0.loop_information = some block then some st
        else
          match MaybeAddPhi { graph := st.graph, stats := st.stats } block with
          | none => none
          | some dce =>
            let st0 : SimplifyIfsState := { st with graph := dce.graph, stats := dce.stats }
            match dce.graph.GetBlock block with
            | none => none
            | some b =>
              match b.phis with
              | [phi] =>
                if dce.graph.HasOnlyOneNonEnvironmentUse phi then
                  match b.GetFirstInstruction with
                  | none => none
                  | some first =>
                    let has_only_phi_and_if :=
                      decide (last = first) && (dce.graph.InputAt last 0 == some phi)
                    let has_only_phi_condition_and_if :=
                      !has_only_phi_and_if &&
                      dce.graph.kindIs InstructionKind.IsCondition first &&
                      HasInput dce.graph first phi &&
                      (b.instructions[1]? == some last) &&
                      (dce.graph.InputAt last 0 == some first) &&
                      dce.graph.HasOnlyOneNonEnvironmentUse first
                    if has_only_phi_and_if || has_only_phi_condition_and_if then
                      let phi_input_is_left := dce.graph.InputAt first 0 == some phi
                      match SimplifyIfs.redirect cev block phi first has_only_phi_and_if
                          phi_input_is_left (dce.graph.inputsOf phi).length 0 st0 with
                      | none => none
                      | some st1 =>
                        match SimplifyIfs.removePhi ev st1.graph block phi first
                            has_only_phi_condition_and_if with
                        | none => none
                        | some g2 =>
                          some { st1 with
                            graph := g2,
                            stats :=
                              if st1.simplified_one_or_more_ifs then
                                MaybeRecordStat st1.stats MethodCompilationStat.kSimplifyIf 1
                              else st1.stats }
                    else some st0
                else some st0
              | _ => some st0

/-- `HDeadCodeElimination::SimplifyIfs`.  The critical-edge removal of
`HGraph::SimplifyCFG` (nodes.cc is not among the sources) is a parameter. -/
def SimplifyIfs (a : GraphAnalysis) (simplifyCFG : HGraph → HGraph) (ev : StaticEvaluator)
    (cev : ConditionEvaluator) (dce : HDeadCodeElimination) :
    Option (HDeadCodeElimination × Bool) :=
  let loop := dce.graph.GetPostOrder.foldl
    (fun (st : Option SimplifyIfsState) block =>
      match st with
      | none => none
      | some st => SimplifyIfs.visitBlock ev cev st block)
    (some { graph := dce.graph, stats := dce.stats, simplified_one_or_more_ifs := false,
            rerun_dominance_and_loop_analysis := false })
  match loop with
  | none => none
  | some st =>
    let graph :=
      if st.simplified_one_or_more_ifs then
        if st.rerun_dominance_and_loop_analysis then
          (st.graph.ClearLoopInformation.ClearDominanceInformation).BuildDominatorTree a
        else
          (((simplifyCFG st.graph.ClearDominanceInformation).ComputeDominanceInformation a
            ).ComputeTryBlockInformation a)
      else st.graph
    some ({ graph := graph, stats := st.stats }, st.simplified_one_or_more_ifs)

/-- What the interning of constants preserves of the graph `g`: the entry
block, the phis, predecessors, successors and loop of every block, and every
instruction of the arena. -/
structure Extends (g g1 : HGraph) : Prop where
  entry : g1.entry_block = g.entry_block
  blocks : ∀ b, (g1.GetBlock b).isSome = (g.GetBlock b).isSome
  phis : ∀ b, (g1.GetBlock b).map (·.phis) = (g.GetBlock b).map (·.phis)
  predecessors : ∀ b, g1.predecessorsOf b = g.predecessorsOf b
  successors : ∀ b, g1.successorsOf b = g.successorsOf b
  loop : ∀ b, (g1.GetBlock b).map (·.loop_information) = (g.GetBlock b).map (·.loop_information)
  last : ∀ b x, (g.GetBlock b).bind (·.GetLastInstruction) = some x →
    (g1.GetBlock b).bind (·.GetLastInstruction) = some x
  inst : ∀ id i, g.GetInstruction id = some i → g1.GetInstruction id = some i
  length : g.instructions.length ≤ g1.instructions.length

/-- Block 4 has the same condition (the boolean parameter, instruction 0) as
its dominator, block 1; its predecessors are block 2, under the true successor
of block 1, and block 3, under the false successor. -/
def exampleChain : HGraph :=
  { blocks := [some (mkBlock [0, 1] [] [1]), some (mkBlock [2] [0] [2, 3]),
      some (mkBlock [3] [1] [4]), some (mkBlock [4] [1] [4]),
      some (mkBlock [5] [2, 3] [5, 6]), some (mkBlock [6] [4] [7]), some (mkBlock [7] [4] [7]),
      some (mkBlock [8] [5, 6] [])],
    instructions := [
      mkInst InstructionKind.ParameterValue DataType.kBool [] 0,
      mkGoto 0,
      mkInst InstructionKind.If DataType.kVoid [0] 1,
      mkGoto 2,
      mkGoto 3,
      mkInst InstructionKind.If DataType.kVoid [0] 4,
      mkInst InstructionKind.ReturnVoid DataType.kVoid [] 5,
      mkInst InstructionKind.ReturnVoid DataType.kVoid [] 6,
      mkInst InstructionKind.Exit DataType.kVoid [] 7],
    entry_block := 0,
    exit_block := some 7,
    reverse_post_order := [0, 1, 2, 3, 4, 5, 6, 7],
    has_irreducible_loops := false,
    has_try_catch := false }

/-! ## Specification vocabulary for SimplifyIfs -/

/-- The claim's words for the outcome of the walk of SimplifyIfs over the
slots of the phi (one slot per predecessor edge), `i` slots having been kept
so far: a slot that does not resolve is kept, a slot that resolves is dropped,
and the walk stops when a single slot is left after a drop. -/
def SimplifyIfs.walk {α : Type} (resolve : α → Option Bool) : Nat → List α → List α
  | _, [] => []
  | i, s :: rest =>
    match resolve s with
    | none => s :: SimplifyIfs.walk resolve (i + 1) rest
    | some _ => if i + rest.length = 1 then rest else SimplifyIfs.walk resolve i rest

/-- The slots that the walk drops, each with the truth value it resolves to. -/
def SimplifyIfs.walkRedirected {α : Type} (resolve : α → Option Bool) :
    Nat → List α → List (α × Bool)
  | _, [] => []
  | i, s :: rest =>
    match resolve s with
    | none => SimplifyIfs.walkRedirected resolve (i + 1) rest
    | some v =>
      (s, v) :: (if i + rest.length = 1 then [] else SimplifyIfs.walkRedirected resolve i rest)

/-- The truth value that an input of the phi statically resolves to in
SimplifyIfs: `none` when it does not resolve; the outer `none` where the
evaluation of the condition has no result. -/
def SimplifyIfs.resolution (cev : ConditionEvaluator) (g : HGraph) (first : Nat)
    (has_only_phi_and_if phi_input_is_left : Bool) (input : Nat) : Option (Option Bool) :=
  (SimplifyIfs.valueToCheck cev g first has_only_phi_and_if phi_input_is_left input).map
    (fun r => r.2.map (fun c => r.1.kindIs (fun k => k = InstructionKind.IntConstant 1) c))

/-- What the walk of SimplifyIfs preserves of the graph `g0`: the kind, type
and block of every instruction and the inputs of every instruction but the
phi, and the successors and the loop of the block. -/
structure WalkStable (g0 g : HGraph) (block phi : Nat) : Prop where
  inst : ∀ id i, g0.GetInstruction id = some i →
    ∃ i', g.GetInstruction id = some i' ∧ i'.kind = i.kind ∧ i'.type = i.type ∧
      i'.block = i.block ∧ (id ≠ phi → i'.inputs = i.inputs)
  succs : g.successorsOf block = g0.successorsOf block
  is_some : (g.GetBlock block).isSome = (g0.GetBlock block).isSome
  loop : (g.GetBlock block).map (·.loop_information) =
    (g0.GetBlock block).map (·.loop_information)

/-- The successors of the block `p` after the walk of SimplifyIfs: when `p`
is the predecessor of a dropped slot, its edge to `block` goes to the true
successor `t` or to the false successor `f` instead, as the input resolved. -/
def SimplifyIfs.redirectedSuccessors (block t f : Nat)
    (redirected : List ((Nat × Nat) × Bool)) (p : Nat) (succs : List Nat) : List Nat :=
  match redirected.find? (fun r => r.1.2 == p) with
  | some r => replaceFirst block (if r.2 then t else f) succs
  | none => succs

/-- The diamond of the SimplifyIfs comment: blocks 2 and 3 go to block 4,
which consists of the phi (instruction 7) and the If on it (instruction 8),
with true successor 5 and false successor 6.  The phi has the constant 1
(instruction 1) as the input of the edge from block 2 and `second` as the
input of the edge from block 3; instruction 2 is the constant 0 and
instruction 0 the boolean parameter. -/
def exampleDiamond (second : Nat) : HGraph :=
  { blocks := [some (mkBlock [0, 1, 2, 3] [] [1]), some (mkBlock [4] [0] [2, 3]),
      some (mkBlock [5] [1] [4]), some (mkBlock [6] [1] [4]),
      some { phis := [7], instructions := [8], predecessors := [2, 3], successors := [5, 6] },
      some (mkBlock [9] [4] [7]), some (mkBlock [10] [4] [7]),
      some (mkBlock [11] [5, 6] [])],
    instructions := [
      mkInst InstructionKind.ParameterValue DataType.kBool [] 0,
      mkInst (InstructionKind.IntConstant 1) DataType.kInt32 [] 0,
      mkInst (InstructionKind.IntConstant 0) DataType.kInt32 [] 0,
      mkGoto 0,
      mkInst InstructionKind.If DataType.kVoid [0] 1,
      mkGoto 2,
      mkGoto 3,
      mkInst InstructionKind.Phi DataType.kBool [1, second] 4,
      mkInst InstructionKind.If DataType.kVoid [7] 4,
      mkInst InstructionKind.ReturnVoid DataType.kVoid [] 5,
      mkInst InstructionKind.ReturnVoid DataType.kVoid [] 6,
      mkInst InstructionKind.Exit DataType.kVoid [] 7],
    entry_block := 0,
    exit_block := some 7,
    reverse_post_order := [0, 1, 2, 3, 4, 5, 6, 7],
    has_irreducible_loops := false,
    has_try_catch := false }

/-- The state in which the loop of SimplifyIfs starts. -/
def SimplifyIfsState.start (g : HGraph) : SimplifyIfsState :=
  { graph := g, stats := none, simplified_one_or_more_ifs := false,
    rerun_dominance_and_loop_analysis := false }

/-! ## Specification vocabulary for the idempotence of constant folding -/

/-- The kinds that a visit of the constant folding pass can replace and
remove: the unary and binary operations, the type conversions and the
DivZeroCheck. -/
def InstructionKind.IsFoldable (k : InstructionKind) : Bool :=
  k.IsUnaryOperation || k.IsBinaryOperation || k == InstructionKind.TypeConversion ||
    k == InstructionKind.DivZeroCheck

/-- The non-phi instructions of a block, first to last (none for a deleted
block). -/
def HGraph.instructionsOf (g : HGraph) (b : Nat) : List Nat :=
  match g.GetBlock b with
  | none => []
  | some blk => blk.instructions

/-- The instructions in the order in which the sweep of the constant folding
pass visits them: the blocks in reverse post order, the instructions of a block
first to last. -/
def HGraph.visitOrder (g : HGraph) : List Nat :=
  (g.reverse_post_order.map g.instructionsOf).flatten

/-- Whether `y` occurs in the list after the first occurrence of `x`. -/
def precedes : List Nat → Nat → Nat → Bool
  | [], _, _ => false
  | z :: zs, x, y => if z = x then decide (y ∈ zs) else precedes zs x y

/-- The instructions that a propagation from the block `s` reaches: the
non-phi instructions of `s` and the instructions of the other blocks that `s`
dominates. -/
def HGraph.inBranch (g : HGraph) (s u : Nat) : Bool :=
  match g.BlockOf u with
  | none => false
  | some b => if b = s then !g.IsPhi u else g.Dominates s b

/-- Every instruction of the instruction list of a block belongs to that
block and is not a phi. -/
def HGraph.Consistent (g : HGraph) : Prop :=
  ∀ b u, u ∈ g.instructionsOf b → g.BlockOf u = some b ∧ g.IsPhi u = false

/-- No instruction that a propagation from the block `s` reaches has `x` as
an input. -/
def HGraph.NoUse (g : HGraph) (x s : Nat) : Prop :=
  ∀ u, g.inBranch s u = true → x ∉ g.inputsOf u

/-- The evaluator looks only at the instruction and at the kinds and types of
its inputs. -/
def StaticEvaluator.IsLocal (ev : StaticEvaluator) : Prop :=
  ∀ (g g' : HGraph) (inst : Nat), g'.GetInstruction inst = g.GetInstruction inst →
    (∀ x ∈ g.inputsOf inst, g'.KindOf x = g.KindOf x ∧ g'.GetType x = g.GetType x) →
    ev g' inst = ev g inst

/-- Well-formedness of a graph, as far as the sweep of the constant folding
pass relies on it: the reverse post order starts with the entry block, lists
every block of the graph and no block twice; no instruction is listed twice;
no input dangles; every instruction of an instruction list belongs to the block
of the list and is not a phi; every block ends in an instruction that is not an
operation; an operation that is an input of an instruction comes before it in
the visiting order (definitions dominate uses); and the blocks dominated by a
successor of a block with an If come after that block in the reverse post
order (the successors of an If have no other predecessor). -/
def HGraph.WellFormed (g : HGraph) : Bool :=
  (g.reverse_post_order.head? == some g.entry_block) &&
  decide g.reverse_post_order.Nodup &&
  decide g.visitOrder.Nodup &&
  g.InputsDefined &&
  (List.range g.blocks.length).all (fun b =>
    (!(g.GetBlock b).isSome || decide (b ∈ g.reverse_post_order)) &&
    (g.instructionsOf b).all (fun u => g.BlockOf u == some b && !g.IsPhi u)) &&
  g.reverse_post_order.all (fun b =>
    (g.GetBlock b).isSome &&
    (match (g.instructionsOf b).getLast? with
      | none => false
      | some x => !g.kindIs InstructionKind.IsFoldable x)) &&
  g.visitOrder.all (fun u => (g.inputsOf u).all (fun x =>
    !g.kindIs InstructionKind.IsFoldable x || precedes g.visitOrder x u)) &&
  g.reverse_post_order.all (fun a =>
    !(g.instructionsOf a).any (fun u => g.kindIs (fun k => k = InstructionKind.If) u) ||
    ((g.successorsOf a).take 2).all (fun s =>
      g.reverse_post_order.all (fun b =>
        !g.Dominates s b || precedes g.reverse_post_order a b)))

/-- What the visits of the constant folding pass preserve of the graph `g`
and what they change: the entry block, the reverse post order and the edges
stay; the instruction lists lose only removed instructions and gain only new
constants, and keep their last instruction; an instruction keeps its kind,
type and nullability, leaves its block only when it is removed, and has its
inputs changed only when it is touched, and then only into constants; a new
instruction is a constant of the entry block. -/
structure Evolves (g g' : HGraph) (touched removed : Nat → Prop) : Prop where
  entry : g'.entry_block = g.entry_block
  rpo : g'.reverse_post_order = g.reverse_post_order
  succ : ∀ b, g'.successorsOf b = g.successorsOf b
  block_some : ∀ b, (g.GetBlock b).isSome = true → (g'.GetBlock b).isSome = true
  lists : ∀ b u, u ∈ g'.instructionsOf b →
    u ∈ g.instructionsOf b ∨ g.instructions.length ≤ u
  lists_frame : ∀ b, b ≠ g.entry_block → (∀ u ∈ g.instructionsOf b, ¬ removed u) →
    g'.instructionsOf b = g.instructionsOf b
  last : ∀ b x, (g.instructionsOf b).getLast? = some x → ¬ removed x →
    (g'.instructionsOf b).getLast? = some x
  inst : ∀ u i, g.GetInstruction u = some i →
    ∃ i', g'.GetInstruction u = some i' ∧ i'.kind = i.kind ∧ i'.type = i.type ∧
      (i'.can_be_null = i.can_be_null ∧ i'.dex_pc = i.dex_pc) ∧
      (i'.block = i.block ∨ (removed u ∧ i'.block = none)) ∧
      (i'.inputs = i.inputs ∨ (touched u ∧ i.block.isSome = true ∧
        i'.inputs.length = i.inputs.length ∧
        ∀ x ∈ i'.inputs, x ∈ i.inputs ∨ g'.IsConstant x = true))
  fresh : ∀ u i', g.GetInstruction u = none → g'.GetInstruction u = some i' →
    i'.inputs = [] ∧ i'.kind.IsConstant = true
  cons : g.Consistent → g'.Consistent

/-- The If `inst` on the condition `v`, with true successor `t` and false
successor `f`, has nothing left to propagate: the int constants 1 and 0 are
interned, both successors have a first instruction, no instruction that the
propagation reaches uses `v`, or uses the operand that the condition equates
with a constant. -/
structure IfSettled (g : HGraph) (inst v t f : Nat) : Prop where
  input : g.InputAt inst 0 = some v
  true_successor : g.IfTrueSuccessor inst = some t
  false_successor : g.IfFalseSuccessor inst = some f
  one : (findConstant (InstructionKind.IntConstant 1) g.instructions 0).isSome = true
  zero : (findConstant (InstructionKind.IntConstant 0) g.instructions 0).isSome = true
  true_first : ((g.GetBlock t).bind (·.GetFirstInstruction)).isSome = true
  false_first : ((g.GetBlock f).bind (·.GetFirstInstruction)).isSome = true
  true_uses : g.NoUse v t
  false_uses : g.NoUse v f
  operand_uses : ∀ var constant, VisitIf.candidate g v = some (var, constant) →
    g.NoUse var (if g.kindIs (fun k => k = InstructionKind.Equal) v then t else f) ∧
    (VisitIf.isBooleanCase g var constant = true →
      g.NoUse var (if g.kindIs (fun k => k = InstructionKind.Equal) v then f else t))

/-- The visit of the instruction `inst` leaves the graph `g` as it is: the
instruction has been removed, or its visit returns the graph unchanged. -/
def Settled (ev : StaticEvaluator) (g : HGraph) (inst : Nat) : Prop :=
  g.BlockOf inst = none ∨
  (g.KindOf inst ≠ some InstructionKind.If ∧ (g.KindOf inst).isSome = true ∧
    ∀ stats, HConstantFoldingVisitor.Accept ev { graph := g, stats := stats } inst =
      some { graph := g, stats := stats }) ∨
  (g.KindOf inst = some InstructionKind.If ∧
    ∃ v, g.InputAt inst 0 = some v ∧
      (g.IsConstant v = true ∨ ∃ t f, IfSettled g inst v t f))

/-- The visit of the instruction `inst` has folded it: its users now use a
constant instead and the instruction has left its block; nothing else has
changed but for a constant that may have been interned. -/
def Folds (g g' : HGraph) (inst : Nat) : Prop :=
  Evolves g g' (fun u => inst ∈ g.inputsOf u) (fun u => u = inst) ∧ g'.BlockOf inst = none

/-- The graph `g'` shows the visit of the instruction `inst` the same as the graph `g`: the instruction
itself is the same, its inputs have the same kind, type and nullability, and
those of its inputs that are operations have the same inputs. -/
structure SameView (g g' : HGraph) (inst : Nat) : Prop where
  self : g'.GetInstruction inst = g.GetInstruction inst
  operands : ∀ x ∈ g.inputsOf inst,
    g'.KindOf x = g.KindOf x ∧ g'.GetType x = g.GetType x ∧
    (g'.GetInstruction x).map (·.can_be_null) = (g.GetInstruction x).map (·.can_be_null) ∧
    (g.kindIs InstructionKind.IsFoldable x = true → g'.inputsOf x = g.inputsOf x)

/-- The visit of the instruction `inst` returns and leaves the graph `g` as
it is, whatever the statistics are. -/
def Quiet (ev : StaticEvaluator) (g : HGraph) (inst : Nat) : Prop :=
  ∀ stats, ∃ stats', HConstantFoldingVisitor.Accept ev { graph := g, stats := stats } inst =
    some { graph := g, stats := stats' }

/-- No input dangles: every input of every instruction is an instruction of
the arena. -/
def HGraph.Defined (g : HGraph) : Prop :=
  ∀ u x, x ∈ g.inputsOf u → (g.GetInstruction x).isSome = true

/-- What the check `HGraph.WellFormed` establishes, as propositions. -/
structure HGraph.Ordered (g : HGraph) : Prop where
  head : g.reverse_post_order.head? = some g.entry_block
  nodup_blocks : g.reverse_post_order.Nodup
  nodup : g.visitOrder.Nodup
  defined : g.Defined
  consistent : g.Consistent
  listed : ∀ b, (g.GetBlock b).isSome = true → b ∈ g.reverse_post_order
  terminated : ∀ b ∈ g.reverse_post_order, (g.GetBlock b).isSome = true ∧
    ∃ x, (g.instructionsOf b).getLast? = some x ∧ g.kindIs InstructionKind.IsFoldable x = false
  ordered : ∀ u ∈ g.visitOrder, ∀ x ∈ g.inputsOf u,
    g.kindIs InstructionKind.IsFoldable x = true → precedes g.visitOrder x u = true
  branches : ∀ a ∈ g.reverse_post_order,
    (∃ u ∈ g.instructionsOf a, g.KindOf u = some InstructionKind.If) →
    ∀ s ∈ (g.successorsOf a).take 2, ∀ b ∈ g.reverse_post_order,
      g.Dominates s b = true → precedes g.reverse_post_order a b = true

/-- The state of the sweep of the constant folding pass over the graph `g0`
after the visits of the instructions `done`: the graph has evolved by these
visits, which removed only visited operations, and every visited instruction is
settled. -/
structure Swept (ev : StaticEvaluator) (g0 g : HGraph) (done : List Nat) : Prop where
  evolves : Evolves g0 g (fun _ => True)
    (fun u => u ∈ done ∧ g0.kindIs InstructionKind.IsFoldable u = true)
  settled : ∀ u ∈ done, Settled ev g u

/-- Block 1 ends in `If(Equal(x, Neg(5)))` for the int parameter `x`
(instruction 0); the true successor 2, the false successor 3 and the merge
block 4 each call a method with the condition (instruction 4) and `x` as
arguments. -/
def exampleFoldedIf : HGraph :=
  { blocks := [some (mkBlock [0, 1, 2] [] [1]), some (mkBlock [3, 4, 5] [0] [2, 3]),
      some (mkBlock [6, 7] [1] [4]), some (mkBlock [8, 9] [1] [4]),
      some (mkBlock [10, 11] [2, 3] [5]), some (mkBlock [12] [4] [])],
    instructions := [
      mkInst InstructionKind.ParameterValue DataType.kInt32 [] 0,
      mkInst (InstructionKind.IntConstant 5) DataType.kInt32 [] 0,
      mkGoto 0,
      mkInst InstructionKind.Neg DataType.kInt32 [1] 1,
      mkInst InstructionKind.Equal DataType.kBool [0, 3] 1,
      mkInst InstructionKind.If DataType.kVoid [4] 1,
      mkInst (InstructionKind.Invoke false) DataType.kVoid [4, 0] 2,
      mkGoto 2,
      mkInst (InstructionKind.Invoke false) DataType.kVoid [4, 0] 3,
      mkGoto 3,
      mkInst (InstructionKind.Invoke false) DataType.kVoid [4, 0] 4,
      mkInst InstructionKind.ReturnVoid DataType.kVoid [] 4,
      mkInst InstructionKind.Exit DataType.kVoid [] 5],
    entry_block := 0,
    exit_block := some 5,
    reverse_post_order := [0, 1, 2, 3, 4, 5],
    has_irreducible_loops := false,
    has_try_catch := false }

/-! ## dead_code_elimination.cc: RemoveUnneededTries -/

/-- A loop over a list whose body may fail: the state after the last
iteration, `none` as soon as the body returns `none`. -/
def iterate {σ α : Type} (body : σ → α → Option σ) : List α → σ → Option σ
  | [], s => some s
  | x :: xs, s =>
    match body s x with
    | none => none
    | some s1 => iterate body xs s1

/-- Modelled from the spec: `HInstruction::CanThrow` (nodes.h is not among the
sources): the kinds that carry the flag "can throw". -/
def InstructionKind.CanThrow : InstructionKind → Bool
  | .Throw => true
  | .DivZeroCheck => true
  | .NullCheck => true
  | .Invoke _ => true
  | _ => false

/-- `HInstruction::CanThrow` on an instruction of the graph. -/
def HGraph.CanThrow (g : HGraph) (id : Nat) : Bool :=
  g.kindIs InstructionKind.CanThrow id

/-- `HBasicBlock::EndsWithTryBoundary`: the block has instructions and the
last one is a TryBoundary. -/
def HGraph.EndsWithTryBoundary (g : HGraph) (block : Nat) : Bool :=
  match (g.instructionsOf block).getLast? with
  | none => false
  | some last => g.kindIs (fun k => match k with
    | InstructionKind.TryBoundary _ => true
    | _ => false) last

/-- Modelled from the spec: `HBasicBlock::RemoveSuccessor` (nodes.h is not
among the sources): the first occurrence of `successor` leaves the successors
of `block`. -/
def HGraph.RemoveSuccessor (g : HGraph) (block successor : Nat) : HGraph :=
  { g with
      blocks := g.blocks.modify
        (Option.map (fun b => { b with successors := b.successors.erase successor })) block }

/-- Modelled from the spec: `HBasicBlock::RemovePredecessor` (nodes.h is not
among the sources): the first occurrence of `predecessor` leaves the
predecessors of `block`. -/
def HGraph.RemovePredecessor (g : HGraph) (block predecessor : Nat) : HGraph :=
  { g with
      blocks := g.blocks.modify
        (Option.map (fun b => { b with predecessors := b.predecessors.erase predecessor }))
        block }

/-- Modelled from the spec: `HBasicBlock::AddInstruction` of a new instruction
(nodes.cc is not among the sources): the instruction becomes the last
instruction of the block. -/
def HGraph.AddInstruction (g : HGraph) (block : Nat) (i : HInstruction) : HGraph :=
  { g with
      instructions := g.instructions ++ [{ i with block := some block }],
      blocks := g.blocks.modify
        (Option.map (fun b => { b with instructions := b.instructions ++ [g.instructions.length] }))
        block }

/-- `HInstruction::GetDexPc`. -/
def HGraph.GetDexPc (g : HGraph) (id : Nat) : Nat :=
  match g.GetInstruction id with
  | none => 0
  | some i => i.dex_pc

/-- `new HGoto(dex_pc)`. -/
def HGoto (dex_pc : Nat) : HInstruction :=
  { kind := InstructionKind.Goto, type := DataType.kVoid, inputs := [], block := none,
    dex_pc := dex_pc }

/-- The loop of DisconnectHandlersAndUpdateTryBoundary (lines 604-612): while
the block has more than one successor, the successor at index 1 is
disconnected.  The first argument bounds the number of iterations; `none` is
returned when it runs out. -/
def disconnectHandlers : Nat → HGraph → Nat → Bool → Option (HGraph × Bool)
  | fuel, g, block, any_handler_in_loop =>
    match g.successorsOf block with
    | _ :: handler :: _ =>
      match fuel with
      | 0 => none
      | fuel + 1 =>
        let g1 := (g.RemoveSuccessor block handler).RemovePredecessor handler block
        disconnectHandlers fuel g1 block
          (any_handler_in_loop || ((g1.GetBlock handler).map (·.IsInLoop)).getD false)
    | _ => some (g, any_handler_in_loop)

/-- `HDeadCodeElimination::DisconnectHandlersAndUpdateTryBoundary`: the graph
and the flag `any_handler_in_loop`; `none` where the source dereferences a null
pointer. -/
def DisconnectHandlersAndUpdateTryBoundary (g : HGraph) (block : Nat)
    (any_handler_in_loop : Bool) : Option (HGraph × Bool) :=
  match disconnectHandlers (g.successorsOf block).length g block any_handler_in_loop with
  | none => none
  | some (g1, any1) =>
    match (g1.instructionsOf block).getLast? with
    | none => none
    | some last =>
      some ((g1.RemoveInstruction block last).AddInstruction block (HGoto (g1.GetDexPc last)),
        any1)

/-- `TryBelongingInformation`: the blocks that belong in the try and the
other try entries that reference the same try. -/
structure TryBelongingInformation where
  blocks_in_try : List Nat
  coalesced_try_entries : List Nat
  deriving DecidableEq, Repr

/-- `HDeadCodeElimination::CanPerformTryRemoval`. -/
def CanPerformTryRemoval (g : HGraph) (try_belonging_info : TryBelongingInformation) : Bool :=
  try_belonging_info.blocks_in_try.all (fun block =>
    (g.instructionsOf block).all (fun i => !g.CanThrow i))

/-- `block->SetTryCatchInformation(nullptr)`. -/
def HGraph.ClearTryCatchInformation (g : HGraph) (block : Nat) : HGraph :=
  { g with
      blocks := g.blocks.modify
        (Option.map (fun b => { b with try_catch_information := none, is_catch_block := false }))
        block }

/-- The body of the loop of RemoveTry over the blocks in the try (lines
637-656). -/
def RemoveTry.updateBlock (st : HGraph × Bool) (block : Nat) : Option (HGraph × Bool) :=
  let g1 := st.1.ClearTryCatchInformation block
  if g1.EndsWithTryBoundary block then
    match DisconnectHandlersAndUpdateTryBoundary g1 block st.2 with
    | none => none
    | some (g2, any2) =>
      match (g2.successorsOf block)[0]? with
      | none => none
      | some successor =>
        if g2.exit_block = some successor then
          match (g2.predecessorsOf block)[0]? with
          | none => none
          | some predecessor => some (g2.ReplaceSuccessor predecessor block successor, any2)
        else some (g2, any2)
  else some (g1, st.2)

/-- `HDeadCodeElimination::RemoveTry`. -/
def RemoveTry (g : HGraph) (try_entry : Nat) (try_belonging_info : TryBelongingInformation)
    (any_handler_in_loop : Bool) : Option (HGraph × Bool) :=
  match DisconnectHandlersAndUpdateTryBoundary g try_entry any_handler_in_loop with
  | none => none
  | some st1 =>
    match iterate (fun st other_try_entry =>
        DisconnectHandlersAndUpdateTryBoundary st.1 other_try_entry st.2)
        try_belonging_info.coalesced_try_entries st1 with
    | none => none
    | some st2 => iterate RemoveTry.updateBlock try_belonging_info.blocks_in_try st2

/-- The map `tries` of RemoveUnneededTries, in insertion order: the block of
a try entry and what belongs to that try. -/
abbrev TryMap := List (Nat × TryBelongingInformation)

/-- The update `tries[key].blocks_in_try.insert(block)` (lines 672-676). -/
def TryMap.insertBlock : TryMap → Nat → Nat → TryMap
  | [], key, block => [(key, { blocks_in_try := [block], coalesced_try_entries := [] })]
  | (k, info) :: rest, key, block =>
    if k = key then
      (k, { info with blocks_in_try :=
        if block ∈ info.blocks_in_try then info.blocks_in_try
        else info.blocks_in_try ++ [block] }) :: rest
    else (k, info) :: TryMap.insertBlock rest key block

/-- The body of the loop that collects the tries (lines 669-678); the try
entry of a try block is the TryBoundary instruction that its try-catch
information records. -/
def RemoveUnneededTries.collect (g : HGraph) (tries : TryMap) (block : Nat) : Option TryMap :=
  match g.GetBlock block with
  | none => none
  | some b =>
    match b.try_catch_information with
    | none => some tries
    | some try_entry =>
      match g.BlockOf try_entry with
      | none => none
      | some key => some (tries.insertBlock key block)

/-- Modelled from the spec: `HTryBoundary::HasSameExceptionHandlersAs` (nodes.cc
is not among the sources) on the TryBoundary instructions that end the blocks
`key` and `other`: the same catch blocks in the same order; the handlers are
the successors after the normal-flow successor at index 0. -/
def HGraph.HasSameExceptionHandlersAs (g : HGraph) (key other : Nat) : Bool :=
  (g.successorsOf key).drop 1 == (g.successorsOf other).drop 1

/-- The union of two block sets. -/
def unionBlocks (xs ys : List Nat) : List Nat :=
  xs ++ ys.filter (fun y => y ∉ xs)

/-- The deduplication of the tries (lines 681-702): every later entry with
the same exception handlers is merged into the earlier one and erased.  The
first argument bounds the number of iterations of the outer loop. -/
def RemoveUnneededTries.coalesce (g : HGraph) : Nat → TryMap → TryMap
  | 0, tries => tries
  | _, [] => []
  | fuel + 1, (key, info) :: rest =>
    let same := rest.filter (fun other => g.HasSameExceptionHandlersAs key other.1)
    let others := rest.filter (fun other => !g.HasSameExceptionHandlersAs key other.1)
    (key,
      { blocks_in_try := same.foldl (fun acc other => unionBlocks acc other.2.blocks_in_try)
          info.blocks_in_try,
        coalesced_try_entries := unionBlocks info.coalesced_try_entries (same.map (·.1)) }) ::
      RemoveUnneededTries.coalesce g fuel others

/-- The state of the loop of RemoveUnneededTries that removes the tries. -/
structure RemoveUnneededTriesState where
  graph : HGraph
  removed_tries : Nat
  any_handler_in_loop : Bool
  deriving DecidableEq, Repr

/-- The body of the loop that removes the tries (lines 709-714). -/
def RemoveUnneededTries.step (st : RemoveUnneededTriesState)
    (entry : Nat × TryBelongingInformation) : Option RemoveUnneededTriesState :=
  if CanPerformTryRemoval st.graph entry.2 then
    match RemoveTry st.graph entry.1 entry.2 st.any_handler_in_loop with
    | none => none
    | some (g, any) =>
      some { graph := g, removed_tries := st.removed_tries + 1, any_handler_in_loop := any }
  else some st

/-- Lines 667-702 of RemoveUnneededTries: the tries of the graph, coalesced. -/
def RemoveUnneededTries.tries (g : HGraph) : Option TryMap :=
  match iterate (RemoveUnneededTries.collect g) (g.reverse_post_order.drop 1) [] with
  | none => none
  | some tries => some (RemoveUnneededTries.coalesce g tries.length tries)

/-- `HDeadCodeElimination::RemoveUnneededTries`.  The iteration order of the
unordered map is the insertion order here. -/
def RemoveUnneededTries (a : GraphAnalysis) (dce : HDeadCodeElimination) :
    Option (HDeadCodeElimination × Bool) :=
  if !dce.graph.has_try_catch then some (dce, false)
  else
    match RemoveUnneededTries.tries dce.graph with
    | none => none
    | some tries =>
      match iterate RemoveUnneededTries.step tries
          { graph := dce.graph, removed_tries := 0, any_handler_in_loop := false } with
      | none => none
      | some st =>
        let g1 := if st.removed_tries = tries.length then { st.graph with has_try_catch := false }
          else st.graph
        if st.removed_tries ≠ 0 then
          match RemoveDeadBlocks a { graph := g1, stats := dce.stats } with
          | none => none
          | some (dce1, removed) =>
            let g2 :=
              if !removed then
                if st.any_handler_in_loop then
                  (dce1.graph.ClearLoopInformation.ClearDominanceInformation).BuildDominatorTree a
                else
                  ((dce1.graph.ClearDominanceInformation).ComputeDominanceInformation a
                    ).ComputeTryBlockInformation a
              else dce1.graph
            some ({ graph := g2,
                    stats := MaybeRecordStat dce1.stats MethodCompilationStat.kRemovedTry
                      st.removed_tries }, true)
        else some ({ graph := g1, stats := dce.stats }, false)

/-! ## dead_code_elimination.cc: SimplifyAlwaysThrows -/

/-- Modelled from the spec: `HInstruction::AlwaysThrows` (nodes.h is not among
the sources): the flag "always throws" of an invoke; a Throw always throws. -/
def InstructionKind.AlwaysThrows : InstructionKind → Bool
  | .Invoke always_throws => always_throws
  | .Throw => true
  | _ => false

/-- Modelled from the spec: `HBasicBlock::InsertInstructionBefore` of a new
instruction before the first instruction of the block (nodes.cc is not among
the sources): the graph and the id of the new instruction. -/
def HGraph.InsertInstructionFirst (g : HGraph) (block : Nat) (i : HInstruction) :
    HGraph × Nat :=
  ({ g with
      instructions := g.instructions ++ [{ i with block := some block }],
      blocks := g.blocks.modify
        (Option.map (fun b => { b with instructions := g.instructions.length :: b.instructions }))
        block },
    g.instructions.length)

/-- `new HBoundType(obj)` with the upper bound set to "cannot be null" (lines
193-197). -/
def HBoundType (g : HGraph) (obj : Nat) : HInstruction :=
  { kind := InstructionKind.BoundType, type := g.GetType obj, inputs := [obj], block := none,
    can_be_null := false }

/-- The users of `obj` that RemoveNonNullControlDependences replaces (lines
183-191): the NullChecks on `obj` in a block other than `block` and `throws`
that `block` dominates.  The dominator tree is not rebuilt while
SimplifyAlwaysThrows runs: `dom` is the graph it was computed for. -/
def RemoveNonNullControlDependences.users (dom g : HGraph) (block throws obj : Nat) :
    List Nat :=
  (List.range g.instructions.length).filter (fun user =>
    decide (obj ∈ g.inputsOf user) &&
    g.kindIs (fun k => k = InstructionKind.NullCheck) user &&
    match g.BlockOf user with
    | none => false
    | some user_block =>
      decide (user_block ≠ block) && decide (user_block ≠ throws) &&
        dom.Dominates block user_block)

/-- Lines 165-180 of RemoveNonNullControlDependences: the block `not_throws`
and the object that the If of `block` compares with null; the outer `none`
where the source dereferences a null pointer, the inner one where it returns
false. -/
def RemoveNonNullControlDependences.pattern (g : HGraph) (ifs throws : Nat) :
    Option (Option (Option Nat × Nat)) :=
  match g.InputAt ifs 0 with
  | none => none
  | some cond =>
    let not_throws :=
      if g.IfTrueSuccessor ifs = some throws ∧
          g.kindIs (fun k => k = InstructionKind.Equal) cond = true then
        some (g.IfFalseSuccessor ifs)
      else if g.IfFalseSuccessor ifs = some throws ∧
          g.kindIs (fun k => k = InstructionKind.NotEqual) cond = true then
        some (g.IfTrueSuccessor ifs)
      else none
    match not_throws with
    | none => some none
    | some not_throws =>
      match g.InputAt cond 1, g.InputAt cond 0 with
      | some right, some left =>
        if g.kindIs (fun k => k = InstructionKind.NullConstant) right then
          some (some (not_throws, left))
        else if !g.kindIs (fun k => k = InstructionKind.NullConstant) left then some none
        else some (some (not_throws, right))
      | _, _ => none

/-- `RemoveNonNullControlDependences(block, throws)` (lines 149-206): the
graph and whether a bound type was created; `none` where the source
dereferences a null pointer. -/
def RemoveNonNullControlDependences (dom g : HGraph) (block throws : Nat) :
    Option (HGraph × Bool) :=
  match g.GetBlock block with
  | none => none
  | some b =>
    match b.GetLastInstruction with
    | none => some (g, false)
    | some ifs =>
      if !g.kindIs (fun k => k = InstructionKind.If) ifs then some (g, false)
      else
        match RemoveNonNullControlDependences.pattern g ifs throws with
        | none => none
        | some none => some (g, false)
        | some (some (not_throws, obj)) =>
          match RemoveNonNullControlDependences.users dom g block throws obj with
          | [] => some (g, false)
          | user :: users =>
            match not_throws with
            | none => none
            | some not_throws =>
              match (g.GetBlock not_throws).bind (·.GetFirstInstruction) with
              | none => none
              | some _ =>
                let r := g.InsertInstructionFirst not_throws (HBoundType g obj)
                some ((user :: users).foldl (fun g1 u =>
                    match g1.BlockOf u with
                    | none => g1
                    | some user_block => (g1.ReplaceWith u r.2).RemoveInstruction user_block u)
                  r.1, true)

/-- The state of the loop of SimplifyAlwaysThrows over the blocks. -/
structure SimplifyAlwaysThrowsState where
  graph : HGraph
  stats : Option OptimizingCompilerStats
  rerun_dominance_and_loop_analysis : Bool
  deriving DecidableEq, Repr

/-- The body of the loop of SimplifyAlwaysThrows (lines 245-293).  The
dominator tree is rebuilt only after the loop: `Dominates` answers for `dom`,
the graph as it was when SimplifyAlwaysThrows was called. -/
def SimplifyAlwaysThrows.visitBlock (dom : HGraph) (exit : Nat)
    (st : SimplifyAlwaysThrowsState) (block : Nat) : Option SimplifyAlwaysThrowsState :=
  match st.graph.GetBlock block with
  | none => none
  | some b =>
    if b.try_catch_information.isSome || b.is_catch_block then some st
    else
      match b.GetLastInstruction with
      | none => none
      | some last =>
        match b.instructions.dropLast.getLast? with
        | none => some st
        | some prev =>
          if st.graph.kindIs InstructionKind.AlwaysThrows prev &&
              st.graph.kindIs (fun k => k = InstructionKind.Goto) last &&
              b.phis.isEmpty && decide (b.predecessors.length = 1) then
            match b.predecessors[0]?, b.successors[0]? with
            | some pred, some succ =>
              if succ = exit then some st
              else if dom.Dominates block pred then some st
              else if !dom.Dominates pred succ then some st
              else
                match st.graph.GetBlock succ with
                | none => none
                | some sb =>
                  if decide (sb.predecessors.length > 1) && sb.phis.isEmpty then
                    let g1 := st.graph.ReplaceSuccessor block succ exit
                    let stats1 :=
                      MaybeRecordStat st.stats MethodCompilationStat.kSimplifyThrowingInvoke 1
                    match RemoveNonNullControlDependences dom g1 pred block with
                    | none => none
                    | some (g2, removed) =>
                      some { graph := g2,
                             stats :=
                               if removed then
                                 MaybeRecordStat stats1 MethodCompilationStat.kRemovedNullCheck 1
                               else stats1,
                             rerun_dominance_and_loop_analysis := true }
                  else some st
            | _, _ => none
          else some st

/-- `HDeadCodeElimination::SimplifyAlwaysThrows`. -/
def SimplifyAlwaysThrows (a : GraphAnalysis) (dce : HDeadCodeElimination) :
    Option (HDeadCodeElimination × Bool) :=
  match dce.graph.exit_block with
  | none => some (dce, false)
  | some exit =>
    match iterate (SimplifyAlwaysThrows.visitBlock dce.graph exit) dce.graph.reverse_post_order
        { graph := dce.graph, stats := dce.stats,
          rerun_dominance_and_loop_analysis := false } with
    | none => none
    | some st =>
      if st.rerun_dominance_and_loop_analysis then
        some ({ graph :=
                  (st.graph.ClearLoopInformation.ClearDominanceInformation).BuildDominatorTree a,
                stats := st.stats }, true)
      else some ({ graph := st.graph, stats := st.stats }, false)

/-! ## dead_code_elimination.cc: ConnectSuccessiveBlocks -/

/-- Modelled from the spec: `HBasicBlock::MergeWith` (nodes.cc is not among
the sources): the block, which ends in a jump to `other`, absorbs `other`: its
jump is removed, the instructions of `other` follow its own, it takes over the
successors of `other`, which list it as predecessor in place of `other`, and
`other` leaves the graph and the reverse post order. -/
def HGraph.MergeWith (g : HGraph) (block other : Nat) : HGraph :=
  let last := (g.instructionsOf block).getLast?
  let moved := g.instructionsOf other
  let successors := g.successorsOf other
  { g with
    blocks := mapWithIndex (fun id ob =>
      if id = other then none
      else Option.map (fun blk =>
        { blk with
          instructions :=
            if id = block then
              blk.instructions.filter (fun i => some i ≠ last) ++ moved
            else blk.instructions,
          successors := if id = block then successors else blk.successors,
          predecessors :=
            if id ∈ successors then
              (successors.filter (fun s => s = id)).foldl
                (fun preds _ => replaceFirst other block preds) blk.predecessors
            else blk.predecessors }) ob) 0 g.blocks,
    instructions := mapWithIndex (fun id i =>
      if some id = last then { i with block := none }
      else if id ∈ moved then { i with block := some block }
      else i) 0 g.instructions,
    reverse_post_order := g.reverse_post_order.filter (fun x => x ≠ other) }

/-- The inner loop of ConnectSuccessiveBlocks (lines 563-574) for one block.
The first argument bounds the number of iterations; `none` is returned when it
runs out, and where the source dereferences a null pointer. -/
def ConnectSuccessiveBlocks.merge : Nat → HGraph → Nat → Option HGraph
  | fuel, g, block =>
    match (g.GetBlock block).bind (·.GetLastInstruction) with
    | none => none
    | some last =>
      if g.kindIs (fun k => k = InstructionKind.Goto) last then
        match (g.successorsOf block)[0]? with
        | none => none
        | some successor =>
          match g.GetBlock successor with
          | none => none
          | some sb =>
            if g.exit_block = some successor ∨ sb.predecessors.length ≠ 1 then some g
            else
              match fuel with
              | 0 => none
              | fuel + 1 => ConnectSuccessiveBlocks.merge fuel (g.MergeWith block successor) block
      else some g

/-- The outer loop of ConnectSuccessiveBlocks (lines 560-575) from index `i`
on; `size` is the size of the reverse post order (line 571).  The first
argument bounds the number of iterations. -/
def ConnectSuccessiveBlocks.loop : Nat → Nat → HGraph → Option HGraph
  | fuel, i, g =>
    if i = g.reverse_post_order.length then some g
    else
      match fuel with
      | 0 => none
      | fuel + 1 =>
        match g.reverse_post_order[i]? with
        | none => none
        | some block =>
          match ConnectSuccessiveBlocks.merge g.reverse_post_order.length g block with
          | none => none
          | some g1 => ConnectSuccessiveBlocks.loop fuel (i + 1) g1

/-- `HDeadCodeElimination::ConnectSuccessiveBlocks`. -/
def ConnectSuccessiveBlocks (g : HGraph) : Option HGraph :=
  ConnectSuccessiveBlocks.loop g.reverse_post_order.length 1 g

/-! ## dead_code_elimination.cc: RemoveDeadInstructions and Run -/

/-- The test and the removal of one instruction in RemoveDeadInstructions
(lines 815-820). -/
def RemoveDeadInstructions.step (block : Nat) (dce : HDeadCodeElimination) (inst : Nat) :
    HDeadCodeElimination :=
  if dce.graph.IsDeadAndRemovable inst then
    { graph := dce.graph.RemoveInstruction block inst,
      stats := MaybeRecordStat dce.stats MethodCompilationStat.kRemovedDeadInstruction 1 }
  else dce

/-- The body of the loop of RemoveDeadInstructions over the blocks (lines
808-821): the instructions of the block are visited backwards, the last one
excepted. -/
def RemoveDeadInstructions.visitBlock (dce : HDeadCodeElimination) (block : Nat) :
    Option HDeadCodeElimination :=
  match dce.graph.GetBlock block with
  | none => none
  | some b => some ((b.instructions.reverse.drop 1).foldl (RemoveDeadInstructions.step block) dce)

/-- `HDeadCodeElimination::RemoveDeadInstructions`. -/
def RemoveDeadInstructions (dce : HDeadCodeElimination) : Option HDeadCodeElimination :=
  iterate RemoveDeadInstructions.visitBlock dce.graph.GetPostOrder dce

/-- `HDeadCodeElimination::Run`.  The critical-edge removal of
`HGraph::SimplifyCFG` and the pass `SsaRedundantPhiElimination` (nodes.cc and
ssa_phi_elimination.cc are not among the sources) are parameters. -/
def HDeadCodeElimination.Run (a : GraphAnalysis) (simplifyCFG : HGraph → HGraph)
    (ev : StaticEvaluator) (cev : ConditionEvaluator)
    (ssaRedundantPhiElimination : HGraph → HGraph) (dce : HDeadCodeElimination) :
    Option (HDeadCodeElimination × Bool) :=
  let simplified : Option HDeadCodeElimination :=
    if !dce.graph.has_irreducible_loops then
      match ConnectSuccessiveBlocks dce.graph with
      | none => none
      | some g0 =>
        match SimplifyAlwaysThrows a { dce with graph := g0 } with
        | none => none
        | some (dce1, did1) =>
          match SimplifyIfs a simplifyCFG ev cev dce1 with
          | none => none
          | some (dce2, did2) =>
            match RemoveDeadBlocks a dce2 with
            | none => none
            | some (dce3, did3) =>
              match RemoveUnneededTries a dce3 with
              | none => none
              | some (dce4, did4) =>
                if did1 || did2 || did3 || did4 then
                  match ConnectSuccessiveBlocks dce4.graph with
                  | none => none
                  | some g5 => some { dce4 with graph := g5 }
                else some dce4
    else some dce
  match simplified with
  | none => none
  | some dce5 =>
    match RemoveDeadInstructions
        { dce5 with graph := ssaRedundantPhiElimination dce5.graph } with
    | none => none
    | some dce6 => some (dce6, true)

/-- The fields of a block other than its instruction list: phis,
predecessors, successors, loop, try entry and whether it is a catch block. -/
def HGraph.shapeOf (g : HGraph) (b : Nat) :
    Option (List Nat × List Nat × List Nat × Option Nat × Option Nat × Bool) :=
  (g.GetBlock b).map (fun blk => (blk.phis, blk.predecessors, blk.successors,
    blk.loop_information, blk.try_catch_information, blk.is_catch_block))

/-- `block->GetTryCatchInformation() != nullptr`: the block is a try block
or a catch block. -/
def HGraph.HasTryCatchInformation (g : HGraph) (b : Nat) : Bool :=
  match g.GetBlock b with
  | none => false
  | some blk => blk.try_catch_information.isSome || blk.is_catch_block

/-! ## Specification vocabulary for RemoveDeadInstructions -/

/-- Well-formedness of a graph, as far as the sweep of RemoveDeadInstructions
relies on it: no instruction is listed twice; every instruction of an
instruction list belongs to the block of the list; the reverse post order lists
every block of the graph; a block ends in an instruction that is not removable
(its control flow); and an instruction of an instruction list that is an input
of another one comes before it in the visiting order (definitions dominate
uses). -/
def HGraph.DefinedBeforeUse (g : HGraph) : Bool :=
  decide g.visitOrder.Nodup &&
  (List.range g.blocks.length).all (fun b =>
    (!(g.GetBlock b).isSome || decide (b ∈ g.reverse_post_order)) &&
    (g.instructionsOf b).all (fun u => g.BlockOf u == some b)) &&
  g.reverse_post_order.all (fun b =>
    (g.GetBlock b).isSome &&
    (match (g.instructionsOf b).getLast? with
      | none => true
      | some x => !g.kindIs InstructionKind.IsRemovable x)) &&
  g.visitOrder.all (fun w => (g.inputsOf w).all (fun x =>
    !decide (x ∈ g.visitOrder) || precedes g.visitOrder x w))

/-- What the check `HGraph.DefinedBeforeUse` establishes, as propositions. -/
structure HGraph.Sweepable (g : HGraph) : Prop where
  nodup : g.visitOrder.Nodup
  listed : ∀ b, (g.GetBlock b).isSome = true → b ∈ g.reverse_post_order
  member : ∀ b u, u ∈ g.instructionsOf b → g.BlockOf u = some b
  block_some : ∀ b ∈ g.reverse_post_order, (g.GetBlock b).isSome = true
  terminated : ∀ b ∈ g.reverse_post_order, ∀ x, (g.instructionsOf b).getLast? = some x →
    g.kindIs InstructionKind.IsRemovable x = false
  ordered : ∀ w ∈ g.visitOrder, ∀ x ∈ g.inputsOf w, x ∈ g.visitOrder →
    precedes g.visitOrder x w = true

/-- The state of the sweep of RemoveDeadInstructions over the graph `g0`
after the visits of the instructions `seen`, a final stretch of the visiting
order: only visited instructions have left their block, and every visited
instruction that is still in its block is not removable or has a user that the
rest of the sweep does not visit. -/
structure SweptDead (g0 g : HGraph) (seen : List Nat) : Prop where
  rpo : g.reverse_post_order = g0.reverse_post_order
  block_some : ∀ b, (g.GetBlock b).isSome = (g0.GetBlock b).isSome
  kind : ∀ u, g.KindOf u = g0.KindOf u
  inputs : ∀ u, g.inputsOf u = g0.inputsOf u
  block : ∀ u, g.BlockOf u = g0.BlockOf u ∨ (u ∈ seen ∧ g.BlockOf u = none)
  lists : ∀ b u, u ∈ g.instructionsOf b →
    u ∈ g0.instructionsOf b ∧ g.BlockOf u = g0.BlockOf u
  lists_frame : ∀ b, (∀ u ∈ g0.instructionsOf b, u ∉ seen) →
    g.instructionsOf b = g0.instructionsOf b
  alive : ∀ u ∈ seen, (g.BlockOf u).isSome = true →
    g.kindIs InstructionKind.IsRemovable u = false ∨
    ∃ w, (g.BlockOf w).isSome = true ∧ u ∈ g.inputsOf w ∧ (w ∈ g0.visitOrder → w ∈ seen)

/-- Block 4 merges the two branches of block 1 with the phi 7 of the int
parameters 0 and 1; the only user of the phi is the Neg 8, which has no
user. -/
def exampleDeadPhiUser : HGraph :=
  { blocks := [some (mkBlock [0, 1, 2, 3] [] [1]), some (mkBlock [4] [0] [2, 3]),
      some (mkBlock [5] [1] [4]), some (mkBlock [6] [1] [4]),
      some { mkBlock [8, 9] [2, 3] [5] with phis := [7] },
      some (mkBlock [10] [4] [])],
    instructions := [
      mkInst InstructionKind.ParameterValue DataType.kInt32 [] 0,
      mkInst InstructionKind.ParameterValue DataType.kInt32 [] 0,
      mkInst InstructionKind.ParameterValue DataType.kBool [] 0,
      mkGoto 0,
      mkInst InstructionKind.If DataType.kVoid [2] 1,
      mkGoto 2,
      mkGoto 3,
      mkInst InstructionKind.Phi DataType.kInt32 [0, 1] 4,
      mkInst InstructionKind.Neg DataType.kInt32 [7] 4,
      mkInst InstructionKind.ReturnVoid DataType.kVoid [] 4,
      mkInst InstructionKind.Exit DataType.kVoid [] 5],
    entry_block := 0,
    exit_block := some 5,
    reverse_post_order := [0, 1, 2, 3, 4, 5],
    has_irreducible_loops := false,
    has_try_catch := false }

/-- Block 1 returns the int parameter 0; the Neg 2 of the parameter has no
user but the Not 3, which has no user. -/
def exampleDeadChain : HGraph :=
  { blocks := [some (mkBlock [0, 1] [] [1]), some (mkBlock [2, 3, 4] [0] [2]),
      some (mkBlock [5] [1] [])],
    instructions := [
      mkInst InstructionKind.ParameterValue DataType.kInt32 [] 0,
      mkGoto 0,
      mkInst InstructionKind.Neg DataType.kInt32 [0] 1,
      mkInst InstructionKind.Not DataType.kInt32 [2] 1,
      mkInst InstructionKind.Return DataType.kVoid [0] 1,
      mkInst InstructionKind.Exit DataType.kVoid [] 2],
    entry_block := 0,
    exit_block := some 2,
    reverse_post_order := [0, 1, 2],
    has_irreducible_loops := false,
    has_try_catch := false }

/-- How the follow-up of SimplifyAlwaysThrows changes instructions: the
instructions keep their kind and their number of inputs, and all but the
NullChecks their block; a new instruction is a bound type; an instruction list
loses only NullChecks and gains only new instructions, at its front, and only
if the block satisfies `P`. -/
structure InstStep (P : Nat → Prop) (g g' : HGraph) : Prop where
  kind_old : ∀ u, (g.GetInstruction u).isSome = true → g'.KindOf u = g.KindOf u
  fresh : ∀ u, g.GetInstruction u = none → (g'.GetInstruction u).isSome = true →
    g'.KindOf u = some InstructionKind.BoundType
  lists : ∀ b, ∃ inserted removed : List Nat,
    g'.instructionsOf b =
      inserted ++ (g.instructionsOf b).filter (fun u => decide (u ∉ removed)) ∧
    (∀ u ∈ removed, g.KindOf u = some InstructionKind.NullCheck) ∧
    (∀ u ∈ inserted, g.GetInstruction u = none ∧
      g'.KindOf u = some InstructionKind.BoundType) ∧
    (inserted ≠ [] → P b)
  block_old : ∀ u, (g.GetInstruction u).isSome = true →
    g.KindOf u ≠ some InstructionKind.NullCheck → g'.BlockOf u = g.BlockOf u
  arity : ∀ u, (g.GetInstruction u).isSome = true →
    (g'.inputsOf u).length = (g.inputsOf u).length

/-- The block `b` is the block `not_throws` of RemoveNonNullControlDependences
(lines 165-173): `block` ends in an If of which `throws` is one successor and
`b` the other one. -/
def HGraph.IsNotThrows (g : HGraph) (block throws b : Nat) : Prop :=
  ∃ ifs, (g.instructionsOf block).getLast? = some ifs ∧
    g.KindOf ifs = some InstructionKind.If ∧
    (g.IfTrueSuccessor ifs = some throws ∧ g.IfFalseSuccessor ifs = some b ∨
      g.IfFalseSuccessor ifs = some throws ∧ g.IfTrueSuccessor ifs = some b)

/-- What RemoveNonNullControlDependences changes of a graph: instructions as
in `InstStep`; the edges, the phis and the try and loop membership of the
blocks stay. -/
structure NullStep (P : Nat → Prop) (g g' : HGraph) extends InstStep P g g' : Prop where
  shape : ∀ b, g'.shapeOf b = g.shapeOf b
  exit : g'.exit_block = g.exit_block
  rpo : g'.reverse_post_order = g.reverse_post_order

/-- What one visit of SimplifyAlwaysThrows changes of a graph: instructions as
in `InstStep`, none being added to a block that has try-catch information; the
blocks keep their try-catch information, and a block that has try-catch
information keeps its successors. -/
structure ThrowStep (g g' : HGraph)
    extends InstStep (fun b => g.HasTryCatchInformation b = false) g g' : Prop where
  info : ∀ b, g'.HasTryCatchInformation b = g.HasTryCatchInformation b
  succ : ∀ b, g.HasTryCatchInformation b = true → g'.successorsOf b = g.successorsOf b
  block_some : ∀ b, (g'.GetBlock b).isSome = (g.GetBlock b).isSome
  exit : g'.exit_block = g.exit_block
  rpo : g'.reverse_post_order = g.reverse_post_order

/-- Well-formedness of a graph, as far as SimplifyAlwaysThrows relies on it to
dereference no null pointer: the blocks of the reverse post order, the
successors and the predecessors of a block are blocks of the graph; a block has
a last instruction, which is not a NullCheck; a block that ends in a Goto has a
successor; a block that ends in an If has two successors, which all have or
all lack try-catch information, and the If has an input and the block as its
block; an Equal and a NotEqual have two inputs; the exit block, if there is
one, is a block of the graph. -/
def HGraph.ThrowReady (g : HGraph) : Bool :=
  (match g.exit_block with
    | none => true
    | some exit => (g.GetBlock exit).isSome) &&
  g.reverse_post_order.all (fun B => (g.GetBlock B).isSome) &&
  (List.range g.blocks.length).all (fun B =>
    (g.successorsOf B).all (fun s => (g.GetBlock s).isSome) &&
    (g.predecessorsOf B).all (fun p => (g.GetBlock p).isSome) &&
    (!(g.GetBlock B).isSome ||
      match (g.instructionsOf B).getLast? with
      | none => false
      | some last =>
        !g.kindIs (fun k => k = InstructionKind.NullCheck) last &&
        (!g.kindIs (fun k => k = InstructionKind.Goto) last ||
          !(g.successorsOf B).isEmpty) &&
        (!g.kindIs (fun k => k = InstructionKind.If) last ||
          (decide (2 ≤ (g.successorsOf B).length) && g.BlockOf last == some B &&
            decide (1 ≤ (g.inputsOf last).length) &&
            (g.successorsOf B).all (fun s1 => (g.successorsOf B).all (fun s2 =>
              g.HasTryCatchInformation s1 == g.HasTryCatchInformation s2)))))) &&
  (List.range g.instructions.length).all (fun u =>
    !(g.kindIs (fun k => k = InstructionKind.Equal) u ||
        g.kindIs (fun k => k = InstructionKind.NotEqual) u) ||
      decide (2 ≤ (g.inputsOf u).length))

/-- What the check `HGraph.ThrowReady` establishes, as propositions. -/
structure Throwable (g : HGraph) : Prop where
  exit_some : ∀ exit, g.exit_block = some exit → (g.GetBlock exit).isSome = true
  blocks : ∀ B ∈ g.reverse_post_order, (g.GetBlock B).isSome = true
  succs : ∀ B s, s ∈ g.successorsOf B → (g.GetBlock s).isSome = true
  preds : ∀ B p, p ∈ g.predecessorsOf B → (g.GetBlock p).isSome = true
  last : ∀ B, (g.GetBlock B).isSome = true →
    ∃ last, (g.instructionsOf B).getLast? = some last ∧
      g.KindOf last ≠ some InstructionKind.NullCheck
  goto : ∀ B last, (g.instructionsOf B).getLast? = some last →
    g.KindOf last = some InstructionKind.Goto → g.successorsOf B ≠ []
  ifs : ∀ B last, (g.instructionsOf B).getLast? = some last →
    g.KindOf last = some InstructionKind.If →
    2 ≤ (g.successorsOf B).length ∧ g.BlockOf last = some B ∧ 1 ≤ (g.inputsOf last).length
  sides : ∀ B last, (g.instructionsOf B).getLast? = some last →
    g.KindOf last = some InstructionKind.If →
    ∀ s1 ∈ g.successorsOf B, ∀ s2 ∈ g.successorsOf B,
      g.HasTryCatchInformation s1 = g.HasTryCatchInformation s2
  conds : ∀ u, g.KindOf u = some InstructionKind.Equal ∨
      g.KindOf u = some InstructionKind.NotEqual →
    2 ≤ (g.inputsOf u).length

/-! ## Specification vocabulary and examples for SimplifyAlwaysThrows -/

/-- The phis of the block with the given id. -/
def HGraph.phisOf (g : HGraph) (b : Nat) : List Nat :=
  match g.GetBlock b with
  | none => []
  | some blk => blk.phis

/-- The block `block` is outside a try, its second-to-last instruction always
throws, and its last instruction is a Goto to the block `succ`, which is not
the block `exit`, has at least two predecessors and has no phis. -/
def HGraph.ThrowsBeforeGoto (g : HGraph) (exit block succ : Nat) : Bool :=
  !g.HasTryCatchInformation block &&
  (match (g.instructionsOf block).reverse with
    | last :: prev :: _ =>
      g.kindIs InstructionKind.AlwaysThrows prev &&
        g.kindIs (fun k => k = InstructionKind.Goto) last
    | _ => false) &&
  g.successorsOf block == [succ] && succ != exit &&
  decide (2 ≤ (g.predecessorsOf succ).length) && (g.phisOf succ).isEmpty

/-- An analysis for the example graphs: the given order of the blocks, as far
as they are still in the graph, no loops, and the try membership that the
blocks record. -/
def exampleAnalysis (order : List Nat) : GraphAnalysis :=
  { reversePostOrder := fun g => order.filter (fun b => (g.GetBlock b).isSome),
    loopInformation := fun _ _ => none,
    tryCatchInformation := fun g b => (g.GetBlock b).bind (·.try_catch_information) }

/-- Block 1 branches on the parameter (instruction 0) to the blocks 2 and 3,
which both jump to block 4; block 2 calls a method that always throws before
it jumps.  Block 5 is the exit block. -/
def exampleThrowingBranch : HGraph :=
  { blocks := [some (mkBlock [0, 1] [] [1]), some (mkBlock [2] [0] [2, 3]),
      some (mkBlock [3, 4] [1] [4]), some (mkBlock [5] [1] [4]),
      some (mkBlock [6] [2, 3] [5]), some (mkBlock [7] [4] [])],
    instructions := [
      mkInst InstructionKind.ParameterValue DataType.kBool [] 0, mkGoto 0,
      mkInst InstructionKind.If DataType.kVoid [0] 1,
      mkInst (InstructionKind.Invoke true) DataType.kVoid [] 2, mkGoto 2,
      mkGoto 3,
      mkInst InstructionKind.ReturnVoid DataType.kVoid [] 4,
      mkInst InstructionKind.Exit DataType.kVoid [] 5],
    entry_block := 0,
    exit_block := some 5,
    reverse_post_order := [0, 1, 2, 3, 4, 5],
    has_irreducible_loops := false,
    has_try_catch := false }

/-- The graph `exampleThrowingBranch` with a phi (instruction 8) in the
throwing block 2. -/
def exampleThrowingPhi : HGraph :=
  { exampleThrowingBranch with
    blocks := [some (mkBlock [0, 1] [] [1]), some (mkBlock [2] [0] [2, 3]),
      some { mkBlock [3, 4] [1] [4] with phis := [8] }, some (mkBlock [5] [1] [4]),
      some (mkBlock [6] [2, 3] [5]), some (mkBlock [7] [4] [])],
    instructions := exampleThrowingBranch.instructions ++
      [mkInst InstructionKind.Phi DataType.kBool [0] 2] }

/-- The graph `exampleThrowingBranch` with a call that always throws in block
3 as well (instruction 8, before the Goto 5). -/
def exampleThrowingTwice : HGraph :=
  { exampleThrowingBranch with
    blocks := [some (mkBlock [0, 1] [] [1]), some (mkBlock [2] [0] [2, 3]),
      some (mkBlock [3, 4] [1] [4]), some (mkBlock [8, 5] [1] [4]),
      some (mkBlock [6] [2, 3] [5]), some (mkBlock [7] [4] [])],
    instructions := exampleThrowingBranch.instructions ++
      [mkInst (InstructionKind.Invoke true) DataType.kVoid [] 3] }

/-- The entry block 0 branches to the blocks 1 and 3; block 1 jumps to block
2, which calls a method that always throws and jumps to block 4, as block 3
does: block 1, the only predecessor of block 2, does not dominate block 4.
Block 5 is the exit block. -/
def exampleThrowingSide : HGraph :=
  { blocks := [some (mkBlock [0, 1] [] [1, 3]), some (mkBlock [2] [0] [2]),
      some (mkBlock [3, 4] [1] [4]), some (mkBlock [5] [0] [4]),
      some (mkBlock [6] [2, 3] [5]), some (mkBlock [7] [4] [])],
    instructions := [
      mkInst InstructionKind.ParameterValue DataType.kBool [] 0,
      mkInst InstructionKind.If DataType.kVoid [0] 0,
      mkGoto 1,
      mkInst (InstructionKind.Invoke true) DataType.kVoid [] 2, mkGoto 2,
      mkGoto 3,
      mkInst InstructionKind.ReturnVoid DataType.kVoid [] 4,
      mkInst InstructionKind.Exit DataType.kVoid [] 5],
    entry_block := 0,
    exit_block := some 5,
    reverse_post_order := [0, 1, 2, 3, 4, 5],
    has_irreducible_loops := false,
    has_try_catch := false }

/-- The entry block 0 branches to the blocks 1 and 7; block 1 branches to the
blocks 2 and 3, which both jump to block 4; block 4 calls a method that always
throws and jumps to block 5, as block 7 does.  Block 6 is the exit block. -/
def exampleThrowingMerge : HGraph :=
  { blocks := [some (mkBlock [0, 1] [] [1, 7]), some (mkBlock [2] [0] [2, 3]),
      some (mkBlock [3] [1] [4]), some (mkBlock [4] [1] [4]),
      some (mkBlock [5, 6] [2, 3] [5]), some (mkBlock [7] [4, 7] [6]),
      some (mkBlock [8] [5] []), some (mkBlock [9] [0] [5])],
    instructions := [
      mkInst InstructionKind.ParameterValue DataType.kBool [] 0,
      mkInst InstructionKind.If DataType.kVoid [0] 0,
      mkInst InstructionKind.If DataType.kVoid [0] 1,
      mkGoto 2, mkGoto 3,
      mkInst (InstructionKind.Invoke true) DataType.kVoid [] 4, mkGoto 4,
      mkInst InstructionKind.ReturnVoid DataType.kVoid [] 5,
      mkInst InstructionKind.Exit DataType.kVoid [] 6,
      mkGoto 7],
    entry_block := 0,
    exit_block := some 6,
    reverse_post_order := [0, 1, 2, 3, 4, 7, 5, 6],
    has_irreducible_loops := false,
    has_try_catch := false }

/-- Block 1 tests the parameter (instruction 0) against null and branches to
block 2, which calls a method that always throws, and to block 3; both jump to
block 4, the entry of a try whose block 5 checks the parameter against null
(instruction 9) and calls a method with it.  Block 7 is the catch block and
block 8 the exit block. -/
def exampleNullCheckInTry : HGraph :=
  { blocks := [some (mkBlock [0, 1, 2] [] [1]), some (mkBlock [3, 4] [0] [2, 3]),
      some (mkBlock [5, 6] [1] [4]), some (mkBlock [7] [1] [4]),
      some (mkBlock [8] [2, 3] [5, 7]),
      some { mkBlock [9, 10, 11] [4] [6, 7] with try_catch_information := some 8 },
      some (mkBlock [12] [5] [8]),
      some { mkBlock [13] [4, 5] [8] with is_catch_block := true },
      some (mkBlock [14] [6, 7] [])],
    instructions := [
      mkInst InstructionKind.ParameterValue DataType.kReference [] 0,
      mkInst InstructionKind.NullConstant DataType.kReference [] 0,
      mkGoto 0,
      mkInst InstructionKind.Equal DataType.kBool [0, 1] 1,
      mkInst InstructionKind.If DataType.kVoid [3] 1,
      mkInst (InstructionKind.Invoke true) DataType.kVoid [] 2, mkGoto 2,
      mkGoto 3,
      mkInst (InstructionKind.TryBoundary true) DataType.kVoid [] 4,
      mkInst InstructionKind.NullCheck DataType.kReference [0] 5,
      mkInst (InstructionKind.Invoke false) DataType.kVoid [9] 5,
      mkInst (InstructionKind.TryBoundary false) DataType.kVoid [] 5,
      mkInst InstructionKind.ReturnVoid DataType.kVoid [] 6,
      mkInst InstructionKind.ReturnVoid DataType.kVoid [] 7,
      mkInst InstructionKind.Exit DataType.kVoid [] 8],
    entry_block := 0,
    exit_block := some 8,
    reverse_post_order := [0, 1, 2, 3, 4, 5, 6, 7, 8],
    has_irreducible_loops := false,
    has_try_catch := true }

/-! ## Specification vocabulary for ConnectSuccessiveBlocks -/

/-- The block ends in a Goto whose unique successor has exactly one
predecessor and is not the exit block. -/
def HGraph.EndsInMergeableGoto (g : HGraph) (block : Nat) : Bool :=
  match (g.instructionsOf block).getLast?, g.successorsOf block with
  | some last, [s] =>
    g.kindIs (fun k => k = InstructionKind.Goto) last &&
      decide ((g.predecessorsOf s).length = 1) && decide (g.exit_block ≠ some s)
  | _, _ => false

/-- Well-formedness of a graph, as far as ConnectSuccessiveBlocks relies on
it: the reverse post order starts with the entry block and lists every block of
the graph once; a block has a last instruction; a block that ends in a Goto has
exactly one successor; every successor edge is recorded in the predecessor list
of its target; and a block that ends in a Goto whose unique successor has
exactly one predecessor and is not the exit block comes before that successor
in the reverse post order. -/
def HGraph.MergeReady (g : HGraph) : Bool :=
  decide g.reverse_post_order.Nodup &&
  g.reverse_post_order.head? == some g.entry_block &&
  (List.range g.blocks.length).all (fun B =>
    !(g.GetBlock B).isSome || decide (B ∈ g.reverse_post_order)) &&
  g.reverse_post_order.all (fun B =>
    (g.GetBlock B).isSome &&
    (g.successorsOf B).all (fun s => decide (B ∈ g.predecessorsOf s)) &&
    match (g.instructionsOf B).getLast? with
    | none => false
    | some last =>
      !g.kindIs (fun k => k = InstructionKind.Goto) last ||
        match g.successorsOf B with
        | [s] => !g.EndsInMergeableGoto B || precedes g.reverse_post_order B s
        | _ => false)

/-- What the check `HGraph.MergeReady` establishes, as propositions. -/
structure Merging (g : HGraph) : Prop where
  nodup : g.reverse_post_order.Nodup
  entry : g.reverse_post_order.head? = some g.entry_block
  listed : ∀ B, (g.GetBlock B).isSome = true → B ∈ g.reverse_post_order
  blocks : ∀ B ∈ g.reverse_post_order, (g.GetBlock B).isSome = true
  edges : ∀ B ∈ g.reverse_post_order, ∀ s ∈ g.successorsOf B, B ∈ g.predecessorsOf s
  last : ∀ B ∈ g.reverse_post_order, ∃ last, (g.instructionsOf B).getLast? = some last
  single : ∀ B ∈ g.reverse_post_order, ∀ last, (g.instructionsOf B).getLast? = some last →
    g.KindOf last = some InstructionKind.Goto → ∃ s, g.successorsOf B = [s]
  order : ∀ B ∈ g.reverse_post_order, ∀ s, g.EndsInMergeableGoto B = true →
    g.successorsOf B = [s] → precedes g.reverse_post_order B s = true

/-- The entry block 0 jumps to block 1, its only successor, which returns;
block 2 is the exit block. -/
def exampleEntryGoto : HGraph :=
  { blocks := [some (mkBlock [0] [] [1]), some (mkBlock [1] [0] [2]),
      some (mkBlock [2] [1] [])],
    instructions := [mkGoto 0, mkInst InstructionKind.ReturnVoid DataType.kVoid [] 1,
      mkInst InstructionKind.Exit DataType.kVoid [] 2],
    entry_block := 0,
    exit_block := some 2,
    reverse_post_order := [0, 1, 2],
    has_irreducible_loops := false,
    has_try_catch := false }

/-- The entry block 0 jumps to block 1, which jumps to block 2, which jumps to
block 3, which returns; block 4 is the exit block. -/
def exampleGotoChain : HGraph :=
  { blocks := [some (mkBlock [0] [] [1]), some (mkBlock [1] [0] [2]),
      some (mkBlock [2] [1] [3]), some (mkBlock [3] [2] [4]), some (mkBlock [4] [3] [])],
    instructions := [mkGoto 0, mkGoto 1, mkGoto 2,
      mkInst InstructionKind.ReturnVoid DataType.kVoid [] 3,
      mkInst InstructionKind.Exit DataType.kVoid [] 4],
    entry_block := 0,
    exit_block := some 4,
    reverse_post_order := [0, 1, 2, 3, 4],
    has_irreducible_loops := false,
    has_try_catch := false }

/-! ## Specification vocabulary for RemoveUnneededTries -/

/-- The try-catch information of a block: the try entry and whether it is a
catch block. -/
def HGraph.tryOf (g : HGraph) (b : Nat) : Option (Option Nat × Bool) :=
  (g.GetBlock b).map (fun blk => (blk.try_catch_information, blk.is_catch_block))

/-- What DisconnectHandlersAndUpdateTryBoundary does to the block `X`, whose
last instruction was `last` and is the new Goto `n` now: `X` keeps its first
successor only and is erased from the predecessors of the others once for each
edge; everything else stays. -/
structure Disconnected (g g' : HGraph) (X last n : Nat) : Prop where
  succ_self : g'.successorsOf X = (g.successorsOf X).take 1
  succ_other : ∀ B, B ≠ X → g'.successorsOf B = g.successorsOf B
  preds : ∀ B Y, (g'.predecessorsOf B).count Y =
    if Y = X then (g.predecessorsOf B).count X - ((g.successorsOf X).drop 1).count B
    else (g.predecessorsOf B).count Y
  last_old : (g.instructionsOf X).getLast? = some last
  insts_self : g'.instructionsOf X = (g.instructionsOf X).filter (fun i => i ≠ last) ++ [n]
  insts_other : ∀ B, B ≠ X → g'.instructionsOf B = g.instructionsOf B
  fresh : n = g.instructions.length
  length : g'.instructions.length = g.instructions.length + 1
  goto : g'.KindOf n = some InstructionKind.Goto ∧ g'.GetDexPc n = g.GetDexPc last
  old : ∀ u, u ≠ n → g'.KindOf u = g.KindOf u ∧ g'.GetDexPc u = g.GetDexPc u
  try_same : ∀ B, g'.tryOf B = g.tryOf B
  block_some : ∀ B, (g'.GetBlock B).isSome = (g.GetBlock B).isSome
  exit : g'.exit_block = g.exit_block

/-- The state of RemoveTry on the graph `g0`: `rew` are the blocks whose
TryBoundary has been replaced so far, `clr` the member blocks visited so far and
`hk` the blocks that the exit fix-up of lines 649-654 may redirect.  A replaced
block keeps its first successor only, ends in a new Goto with the dex pc of its
old last instruction, and has left the predecessors of its handlers; the other
blocks keep their instructions, and but for `hk` their successors and their
place among the predecessors; a visited member has no try-catch information. -/
structure TryInv (g0 g : HGraph) (rew clr hk : List Nat) : Prop where
  succ_rew : ∀ X ∈ rew, g.successorsOf X = (g0.successorsOf X).take 1
  succ_keep : ∀ X, X ∉ rew → X ∉ hk → g.successorsOf X = g0.successorsOf X
  insts : ∀ X, X ∉ rew → g.instructionsOf X = g0.instructionsOf X
  goto : ∀ X ∈ rew, ∃ last n, (g0.instructionsOf X).getLast? = some last ∧
    (g.instructionsOf X).getLast? = some n ∧ g.KindOf n = some InstructionKind.Goto ∧
    g.GetDexPc n = g0.GetDexPc last
  length : g0.instructions.length ≤ g.instructions.length
  old : ∀ u, u < g0.instructions.length →
    g.KindOf u = g0.KindOf u ∧ g.GetDexPc u = g0.GetDexPc u
  fresh : ∀ u, g0.instructions.length ≤ u →
    g.KindOf u = some InstructionKind.Goto ∨ g.KindOf u = none
  preds_rew : ∀ X ∈ rew, ∀ B, (g.predecessorsOf B).count X ≤
    (g0.predecessorsOf B).count X - ((g0.successorsOf X).drop 1).count B
  preds_keep : ∀ B Y, Y ∉ rew → Y ∉ hk →
    (g.predecessorsOf B).count Y = (g0.predecessorsOf B).count Y
  preds_own : ∀ B Y, Y ∉ rew → B ∉ clr → g0.exit_block ≠ some B →
    (g.predecessorsOf B).count Y = (g0.predecessorsOf B).count Y
  try_clr : ∀ M ∈ clr, g.tryOf M = (g0.tryOf M).map (fun _ => (none, false))
  try_keep : ∀ B, B ∉ clr → g.tryOf B = g0.tryOf B
  block_some : ∀ B, (g.GetBlock B).isSome = (g0.GetBlock B).isSome
  exit : g.exit_block = g0.exit_block

/-- The blocks of a try that RemoveTry rewrites: the try entry, the coalesced
try entries and the member blocks that end with a TryBoundary. -/
def HGraph.boundaryBlocks (g : HGraph) (try_entry : Nat) (info : TryBelongingInformation) :
    List Nat :=
  try_entry :: info.coalesced_try_entries ++
    info.blocks_in_try.filter (fun M => g.EndsWithTryBoundary M)

/-- The member blocks of a try that do not end with a TryBoundary. -/
def HGraph.innerBlocks (g : HGraph) (info : TryBelongingInformation) : List Nat :=
  info.blocks_in_try.filter (fun M => !g.EndsWithTryBoundary M)

/-- Well-formedness of a try, as far as RemoveTry relies on it to dereference
no null pointer: the try entry, the coalesced try entries and the member blocks
are distinct blocks; the entries end with a TryBoundary; a member that ends with
a TryBoundary has a successor, and if that is the exit block, it has a
predecessor, and its predecessors are members that do not end with a
TryBoundary; the exit block is no member. -/
def HGraph.TryRemovable (g : HGraph) (try_entry : Nat) (info : TryBelongingInformation) :
    Bool :=
  decide (try_entry :: info.coalesced_try_entries ++ info.blocks_in_try).Nodup &&
  (try_entry :: info.coalesced_try_entries).all (fun X => g.EndsWithTryBoundary X) &&
  info.blocks_in_try.all (fun M =>
    decide (g.exit_block ≠ some M) &&
    (!g.EndsWithTryBoundary M ||
      (!(g.successorsOf M).isEmpty &&
        (decide ((g.successorsOf M)[0]? ≠ g.exit_block) ||
          (!(g.predecessorsOf M).isEmpty &&
            (g.predecessorsOf M).all (fun p =>
              decide (p ∈ info.blocks_in_try) && !g.EndsWithTryBoundary p))))))

/-- What the check `HGraph.TryRemovable` establishes, as propositions. -/
structure TryReady (g : HGraph) (try_entry : Nat) (info : TryBelongingInformation) : Prop where
  nodup : (try_entry :: info.coalesced_try_entries ++ info.blocks_in_try).Nodup
  entries : ∀ X ∈ try_entry :: info.coalesced_try_entries, g.EndsWithTryBoundary X = true
  exits : ∀ M ∈ info.blocks_in_try, g.EndsWithTryBoundary M = true → g.successorsOf M ≠ []
  fix_up : ∀ M ∈ info.blocks_in_try, g.EndsWithTryBoundary M = true →
    (g.successorsOf M)[0]? = g.exit_block →
    g.predecessorsOf M ≠ [] ∧ ∀ p ∈ g.predecessorsOf M, p ∈ g.innerBlocks info
  exit_out : ∀ M ∈ info.blocks_in_try, g.exit_block ≠ some M

/-- The TryBoundary of block 1 (instruction 2, dex pc 10) enters a try with
the member blocks 2, 3, 4 and 7 and the catch block 6.  Block 2 branches on the
parameter to the blocks 3 and 4; block 3 leaves the try by a TryBoundary
(instruction 4, dex pc 20) towards block 5, which returns; block 4 returns, and
its successor, block 7, leaves the try by a TryBoundary (instruction 8, dex pc
30) towards the exit block 8.  No instruction of the try can throw. -/
def exampleRemovableTry : HGraph :=
  { blocks := [some (mkBlock [0, 1] [] [1]), some (mkBlock [2] [0] [2, 6]),
      some { mkBlock [3] [1] [3, 4] with try_catch_information := some 2 },
      some { mkBlock [4] [2] [5, 6] with try_catch_information := some 2 },
      some { mkBlock [5] [2] [7] with try_catch_information := some 2 },
      some (mkBlock [6] [3] [8]),
      some { mkBlock [7] [1, 3, 7] [8] with is_catch_block := true },
      some { mkBlock [8] [4] [8, 6] with try_catch_information := some 2 },
      some (mkBlock [9] [5, 6, 7] [])],
    instructions := [
      mkInst InstructionKind.ParameterValue DataType.kBool [] 0, mkGoto 0,
      { mkInst (InstructionKind.TryBoundary true) DataType.kVoid [] 1 with dex_pc := 10 },
      mkInst InstructionKind.If DataType.kVoid [0] 2,
      { mkInst (InstructionKind.TryBoundary false) DataType.kVoid [] 3 with dex_pc := 20 },
      mkInst InstructionKind.ReturnVoid DataType.kVoid [] 4,
      mkInst InstructionKind.ReturnVoid DataType.kVoid [] 5,
      mkInst InstructionKind.ReturnVoid DataType.kVoid [] 6,
      { mkInst (InstructionKind.TryBoundary false) DataType.kVoid [] 7 with dex_pc := 30 },
      mkInst InstructionKind.Exit DataType.kVoid [] 8],
    entry_block := 0,
    exit_block := some 8,
    reverse_post_order := [0, 1, 2, 3, 5, 4, 7, 6, 8],
    has_irreducible_loops := false,
    has_try_catch := true }

/-- The blocks of a try of the map `tries`: the try entry, the coalesced try
entries and the member blocks. -/
def tryBlocks (entry : Nat × TryBelongingInformation) : List Nat :=
  entry.1 :: entry.2.coalesced_try_entries ++ entry.2.blocks_in_try

/-- What the removal of tries leaves alone: a block outside `T` keeps its
successors, its instructions, its try-catch information and its place among the
predecessors of every block, and, unless it is the exit block, gains no
predecessor; the instructions of the graph keep their kind and dex pc, and a new
instruction is a Goto. -/
structure TryFrame (T : List Nat) (g0 g : HGraph) : Prop where
  succ : ∀ X, X ∉ T → g.successorsOf X = g0.successorsOf X
  insts : ∀ X, X ∉ T → g.instructionsOf X = g0.instructionsOf X
  try_same : ∀ X, X ∉ T → g.tryOf X = g0.tryOf X
  preds_out : ∀ B Y, Y ∉ T → (g.predecessorsOf B).count Y = (g0.predecessorsOf B).count Y
  preds_in : ∀ B Y, B ∉ T → g0.exit_block ≠ some B →
    (g.predecessorsOf B).count Y ≤ (g0.predecessorsOf B).count Y
  length : g0.instructions.length ≤ g.instructions.length
  old : ∀ u, u < g0.instructions.length →
    g.KindOf u = g0.KindOf u ∧ g.GetDexPc u = g0.GetDexPc u
  fresh : ∀ u, g0.instructions.length ≤ u →
    g.KindOf u = some InstructionKind.Goto ∨ g.KindOf u = none
  exit : g.exit_block = g0.exit_block

/-- The tries of the map are well-formed in the graph, pairwise disjoint, and
their member blocks have try-catch information. -/
def HGraph.TriesRemovable (g : HGraph) (tries : TryMap) : Bool :=
  tries.all (fun entry => g.TryRemovable entry.1 entry.2 &&
    entry.2.blocks_in_try.all (fun M => g.HasTryCatchInformation M)) &&
  decide (tries.flatMap tryBlocks).Nodup

/-- What the check `HGraph.TriesRemovable` establishes, as propositions. -/
structure TriesReady (g : HGraph) (tries : TryMap) : Prop where
  ready : ∀ entry ∈ tries, TryReady g entry.1 entry.2
  member_info : ∀ entry ∈ tries, ∀ M ∈ entry.2.blocks_in_try,
    g.HasTryCatchInformation M = true
  disjoint : (tries.flatMap tryBlocks).Nodup

/-- Two tries.  The TryBoundary of block 1 (instruction 1) enters the first
one: its member, block 2, cannot throw, and its handlers are the catch blocks 7
and 9.  The second one has two entries with the same handler, the catch block
9: the TryBoundary of block 3 (instruction 3), with the member block 4, which
cannot throw, and the TryBoundary that ends the catch block 7 (instruction 7),
with the member block 8, which calls a method (instruction 8).  Block 5
returns, and block 6 is the exit block. -/
def exampleCoalescedTry : HGraph :=
  { blocks := [some (mkBlock [0] [] [1]),
      some (mkBlock [1] [0] [2, 7, 9]),
      some { mkBlock [2] [1] [3, 7, 9] with try_catch_information := some 1 },
      some (mkBlock [3] [2] [4, 9]),
      some { mkBlock [4] [3] [5, 9] with try_catch_information := some 3 },
      some (mkBlock [5] [4, 8] [6]),
      some (mkBlock [6] [5, 9] []),
      some { mkBlock [7] [1, 2] [8, 9] with is_catch_block := true },
      some { mkBlock [8, 9] [7] [5, 9] with try_catch_information := some 7 },
      some { mkBlock [10] [1, 2, 3, 4, 7, 8] [6] with is_catch_block := true }],
    instructions := [
      mkGoto 0,
      mkInst (InstructionKind.TryBoundary true) DataType.kVoid [] 1,
      mkInst (InstructionKind.TryBoundary false) DataType.kVoid [] 2,
      mkInst (InstructionKind.TryBoundary true) DataType.kVoid [] 3,
      mkInst (InstructionKind.TryBoundary false) DataType.kVoid [] 4,
      mkInst InstructionKind.ReturnVoid DataType.kVoid [] 5,
      mkInst InstructionKind.Exit DataType.kVoid [] 6,
      mkInst (InstructionKind.TryBoundary true) DataType.kVoid [] 7,
      mkInst (InstructionKind.Invoke false) DataType.kVoid [] 8,
      mkInst (InstructionKind.TryBoundary false) DataType.kVoid [] 8,
      mkInst InstructionKind.ReturnVoid DataType.kVoid [] 9],
    entry_block := 0,
    exit_block := some 6,
    reverse_post_order := [0, 1, 2, 3, 4, 7, 8, 5, 9, 6],
    has_irreducible_loops := false,
    has_try_catch := true }

/-- The map `tries` of RemoveUnneededTries for `exampleCoalescedTry`. -/
def exampleCoalescedTries : TryMap :=
  [(1, { blocks_in_try := [2], coalesced_try_entries := [] }),
    (3, { blocks_in_try := [4, 8], coalesced_try_entries := [7] })]

/-- A try in the handler of another one.  The TryBoundary of block 1
(instruction 1) enters the outer try: its member, block 2, cannot throw, and
its handler is the catch block 5, which jumps to block 6.  The TryBoundary of
block 6 (instruction 7) enters the inner try: its member, block 7, calls a
method (instruction 8), and its handler is the catch block 9.  The blocks 3 and
8 return, and block 4 is the exit block. -/
def exampleNestedTry : HGraph :=
  { blocks := [some (mkBlock [0] [] [1]),
      some (mkBlock [1] [0] [2, 5]),
      some { mkBlock [2] [1] [3, 5] with try_catch_information := some 1 },
      some (mkBlock [3] [2] [4]),
      some (mkBlock [4] [3, 8, 9] []),
      some { mkBlock [6] [1, 2] [6] with is_catch_block := true },
      some (mkBlock [7] [5] [7, 9]),
      some { mkBlock [8, 9] [6] [8, 9] with try_catch_information := some 7 },
      some (mkBlock [10] [7] [4]),
      some { mkBlock [11] [6, 7] [4] with is_catch_block := true }],
    instructions := [
      mkGoto 0,
      mkInst (InstructionKind.TryBoundary true) DataType.kVoid [] 1,
      mkInst (InstructionKind.TryBoundary false) DataType.kVoid [] 2,
      mkInst InstructionKind.ReturnVoid DataType.kVoid [] 3,
      mkInst InstructionKind.Exit DataType.kVoid [] 4,
      mkInst InstructionKind.ReturnVoid DataType.kVoid [] 4,
      mkGoto 5,
      mkInst (InstructionKind.TryBoundary true) DataType.kVoid [] 6,
      mkInst (InstructionKind.Invoke false) DataType.kVoid [] 7,
      mkInst (InstructionKind.TryBoundary false) DataType.kVoid [] 7,
      mkInst InstructionKind.ReturnVoid DataType.kVoid [] 8,
      mkInst InstructionKind.ReturnVoid DataType.kVoid [] 9],
    entry_block := 0,
    exit_block := some 4,
    reverse_post_order := [0, 1, 2, 3, 5, 6, 7, 8, 9, 4],
    has_irreducible_loops := false,
    has_try_catch := true }
/-- The graph that RemoveUnneededTries makes of `exampleCoalescedTry`: the
first try is removed, the TryBoundaries of the blocks 1 and 2 are Gotos
(instructions 11 and 12), and the blocks 7 and 8 are deleted. -/
def exampleCoalescedTryRemoved : HGraph :=
  { blocks := [some (mkBlock [0] [] [1]),
      some (mkBlock [11] [0] [2]),
      some (mkBlock [12] [1] [3]),
      some (mkBlock [3] [2] [4, 9]),
      some { mkBlock [4] [3] [5, 9] with try_catch_information := some 3 },
      some (mkBlock [5] [4] [6]),
      some (mkBlock [6] [5, 9] []),
      none,
      none,
      some { mkBlock [10] [3, 4] [6] with is_catch_block := true }],
    instructions := [
      mkGoto 0,
      { mkInst (InstructionKind.TryBoundary true) DataType.kVoid [] 1 with block := none },
      { mkInst (InstructionKind.TryBoundary false) DataType.kVoid [] 2 with block := none },
      mkInst (InstructionKind.TryBoundary true) DataType.kVoid [] 3,
      mkInst (InstructionKind.TryBoundary false) DataType.kVoid [] 4,
      mkInst InstructionKind.ReturnVoid DataType.kVoid [] 5,
      mkInst InstructionKind.Exit DataType.kVoid [] 6,
      { mkInst (InstructionKind.TryBoundary true) DataType.kVoid [] 7 with block := none },
      { mkInst (InstructionKind.Invoke false) DataType.kVoid [] 8 with block := none },
      { mkInst (InstructionKind.TryBoundary false) DataType.kVoid [] 8 with block := none },
      mkInst InstructionKind.ReturnVoid DataType.kVoid [] 9,
      mkGoto 1,
      mkGoto 2,
      { mkGoto 7 with block := none }],
    entry_block := 0,
    exit_block := some 6,
    reverse_post_order := [0, 1, 2, 3, 4, 5, 9, 6],
    has_irreducible_loops := false,
    has_try_catch := true }

/-! ## Specification vocabulary for the blocks that SimplifyIfs skips -/

/-- The phis of a block, whether it is a catch block, and its loop. -/
def HGraph.headOf (g : HGraph) (X : Nat) : Option (List Nat × Bool × Option Nat) :=
  (g.GetBlock X).map (fun b => (b.phis, b.is_catch_block, b.loop_information))

/-- `block->IsCatchBlock() || block->IsLoopHeader()` for the block `X`. -/
def HGraph.IsCatchOrLoopHeader (g : HGraph) (X : Nat) : Bool :=
  match g.headOf X with
  | none => false
  | some h => h.2.1 || decide (h.2.2 = some X)

/-- What a pass leaves of block `X` when it does not apply to it: the block
has the phis it had, each of them has as many inputs as it had, the
predecessors it had are still its first predecessors, in the same order, and
every block has it among its successors at least as often as before. -/
structure Bypassed (X : Nat) (g g' : HGraph) : Prop where
  phis : g'.phisOf X = g.phisOf X
  inputs : ∀ p ∈ g.phisOf X, (g'.inputsOf p).length = (g.inputsOf p).length
  preds : g.predecessorsOf X <+: g'.predecessorsOf X
  succs : ∀ p, (g.successorsOf p).count X ≤ (g'.successorsOf p).count X

/-- The phis of block `X` are instructions of the graph, and no other block
has one of them among its phis. -/
def HGraph.PhisApart (g : HGraph) (X : Nat) : Bool :=
  (g.phisOf X).all (fun p => decide (p < g.instructions.length)) &&
  (List.range g.blocks.length).all (fun B =>
    decide (B = X) || (g.phisOf B).all (fun p => decide (p ∉ g.phisOf X)))

/-- What the check `HGraph.PhisApart` establishes, as propositions. -/
structure PhisOwned (g : HGraph) (X : Nat) : Prop where
  bound : ∀ p ∈ g.phisOf X, p < g.instructions.length
  apart : ∀ B, B ≠ X → ∀ p ∈ g.phisOf B, p ∉ g.phisOf X

/-- The invariant of SimplifyIfs for a block `X` it skips: the block is
bypassed, it is a catch block and a loop header as before, and its phis are
still its own. -/
structure Skipping (X : Nat) (g g' : HGraph) : Prop where
  kept : Bypassed X g g'
  head : g'.headOf X = g.headOf X
  length : g.instructions.length ≤ g'.instructions.length
  owned : PhisOwned g' X

/-- The diamond of `exampleDiamond` in front of a loop: the true successor of
the If of block 4, block 5, is a loop header with the phi 12 and the
predecessors 4 and 5 (its own back edge); it ends with an If on its phi. -/
def exampleDiamondLoop : HGraph :=
  { blocks := [some (mkBlock [0, 1, 2, 3] [] [1]), some (mkBlock [4] [0] [2, 3]),
      some (mkBlock [5] [1] [4]), some (mkBlock [6] [1] [4]),
      some { phis := [7], instructions := [8], predecessors := [2, 3], successors := [5, 6] },
      some { phis := [12], instructions := [9], predecessors := [4, 5], successors := [5, 7],
             loop_information := some 5 },
      some (mkBlock [10] [4] [7]),
      some (mkBlock [11] [5, 6] [])],
    instructions := [
      mkInst InstructionKind.ParameterValue DataType.kBool [] 0,
      mkInst (InstructionKind.IntConstant 1) DataType.kInt32 [] 0,
      mkInst (InstructionKind.IntConstant 0) DataType.kInt32 [] 0,
      mkGoto 0,
      mkInst InstructionKind.If DataType.kVoid [0] 1,
      mkGoto 2,
      mkGoto 3,
      mkInst InstructionKind.Phi DataType.kBool [1, 0] 4,
      mkInst InstructionKind.If DataType.kVoid [7] 4,
      mkInst InstructionKind.If DataType.kVoid [12] 5,
      mkInst InstructionKind.ReturnVoid DataType.kVoid [] 6,
      mkInst InstructionKind.Exit DataType.kVoid [] 7,
      mkInst InstructionKind.Phi DataType.kBool [1, 2] 5],
    entry_block := 0,
    exit_block := some 7,
    reverse_post_order := [0, 1, 2, 3, 4, 5, 6, 7],
    has_irreducible_loops := false,
    has_try_catch := false }

/-! ## Specification vocabulary for the uses of removed instructions -/

/-- No dangling use is created from `g` to `g'`: every instruction that is in
a block in `g` and in no block in `g'` has zero remaining uses in `g'`. -/
def Unlinks (g g' : HGraph) : Prop :=
  ∀ u, (g.BlockOf u).isSome = true → g'.BlockOf u = none → g'.NumUses u = 0

/-- The invariant of the constant folding sweep, from the graph `g0` it starts
with to the graph `g` it has reached: the visits so far have only folded, and
every instruction that has left its block is not a constant and has no use. -/
structure FoldedClean (g0 g : HGraph) : Prop where
  evolves : Evolves g0 g (fun _ => True) (fun _ => True)
  removed : ∀ u, (g0.BlockOf u).isSome = true → g.BlockOf u = none →
    g0.IsConstant u = false ∧ g.NumUses u = 0

/-- An evaluator that folds the Equal of an instruction with itself. -/
def exampleEqualEvaluator : StaticEvaluator := fun g inst =>
  match g.KindOf inst with
  | some InstructionKind.Equal =>
    if g.InputAt inst 0 = g.InputAt inst 1 then some (ConstantValue.Int 1) else none
  | _ => none

/-- Block 1, whose only predecessor is block 0, consists of a phi with one
input, the int parameter (instruction 0), the Equal of the phi and the
parameter, and an If on the Equal. -/
def exampleSinglePhi : HGraph :=
  { blocks := [some (mkBlock [0, 1] [] [1]),
      some { phis := [2], instructions := [3, 4], predecessors := [0], successors := [2, 3] },
      some (mkBlock [5] [1] [4]), some (mkBlock [6] [1] [4]),
      some (mkBlock [7] [2, 3] [])],
    instructions := [
      mkInst InstructionKind.ParameterValue DataType.kInt32 [] 0,
      mkGoto 0,
      mkInst InstructionKind.Phi DataType.kInt32 [0] 1,
      mkInst InstructionKind.Equal DataType.kBool [2, 0] 1,
      mkInst InstructionKind.If DataType.kVoid [3] 1,
      mkInst InstructionKind.ReturnVoid DataType.kVoid [] 2,
      mkInst InstructionKind.ReturnVoid DataType.kVoid [] 3,
      mkInst InstructionKind.Exit DataType.kVoid [] 4],
    entry_block := 0,
    exit_block := some 4,
    reverse_post_order := [0, 1, 2, 3, 4],
    has_irreducible_loops := false,
    has_try_catch := false }

/-! ## image.h: ImageHeader -/

/-- The `memcmp` of `<string.h>` on byte arrays: the difference of the first
pair of bytes that differ among the first `n`, and 0 when there is none. -/
def memcmp : List Nat → List Nat → Nat → Int
  | a :: as, b :: bs, n + 1 => if a = b then memcmp as bs n else (a : Int) - (b : Int)
  | _, _, _ => 0

/-- `sizeof(kImageMagic)`, a `byte[4]` (line 37). -/
def sizeofImageMagic : Nat := 4

/-- `sizeof(kImageVersion)`, a `byte[4]` (line 38). -/
def sizeofImageVersion : Nat := 4

/-- The fields of `ImageHeader` (lines 36-42). -/
structure ImageHeader where
  magic_ : List Nat
  version_ : List Nat
  base_addr_ : Nat
  deriving DecidableEq, Repr

/-- `ImageHeader(uint32_t base_addr)` (lines 17-20); the two constants, which
are defined outside the sources, are parameters. -/
def ImageHeader.ofBaseAddr (kImageMagic kImageVersion : List Nat) (base_addr : Nat) :
    ImageHeader :=
  { magic_ := kImageMagic.take sizeofImageMagic,
    version_ := kImageVersion.take sizeofImageVersion,
    base_addr_ := base_addr }

/-- `ImageHeader::IsValid` (lines 22-30).  The length passed to `memcmp` is
the value of the comparison `sizeof(kImageMagic) != 0`, and of
`sizeof(kImageVersion) != 0` in the second test, as the parentheses of the
source have it. -/
def ImageHeader.IsValid (kImageMagic kImageVersion : List Nat) (h : ImageHeader) : Bool :=
  if memcmp h.magic_ kImageMagic (if sizeofImageMagic ≠ 0 then 1 else 0) ≠ 0 then false
  else if memcmp h.version_ kImageVersion (if sizeofImageVersion ≠ 0 then 1 else 0) ≠ 0 then
    false
  else true

/-! ## Specification vocabulary for Evaluate -/

/-- Modelled from the spec: the run-time truth of a condition on two `w`-bit
integer values: the six signed comparisons compare the values, the four
unsigned ones the bit patterns. -/
def IfCondition.holds (c : IfCondition) (w : Nat) (x y : Int) : Bool :=
  match c with
  | .kCondEQ => decide (x = y)
  | .kCondNE => decide (x ≠ y)
  | .kCondLT => decide (x < y)
  | .kCondLE => decide (x ≤ y)
  | .kCondGT => decide (y < x)
  | .kCondGE => decide (y ≤ x)
  | .kCondB => decide (toUnsigned w x < toUnsigned w y)
  | .kCondBE => decide (toUnsigned w x ≤ toUnsigned w y)
  | .kCondA => decide (toUnsigned w y < toUnsigned w x)
  | .kCondAE => decide (toUnsigned w y ≤ toUnsigned w x)

/-! ## Example graph for the two rules of VisitAnd -/

/-- Block 1 returns `And(0, Not(0))` (instruction 3) for the int constant 0
(instruction 0); instruction 2 is the `Not(0)`. -/
def exampleAndOfZeroAndNot : HGraph :=
  { blocks := [some (mkBlock [0, 1] [] [1]), some (mkBlock [2, 3, 4] [0] [2]),
      some (mkBlock [5] [1] [])],
    instructions := [
      mkInst (InstructionKind.IntConstant 0) DataType.kInt32 [] 0,
      mkGoto 0,
      mkInst InstructionKind.Not DataType.kInt32 [0] 1,
      mkInst InstructionKind.And DataType.kInt32 [0, 2] 1,
      mkInst InstructionKind.Return DataType.kVoid [3] 1,
      mkInst InstructionKind.Exit DataType.kVoid [] 2],
    entry_block := 0,
    exit_block := some 2,
    reverse_post_order := [0, 1, 2],
    has_irreducible_loops := false,
    has_try_catch := false }

/-! ## Specification vocabulary for MaybeAddPhi -/

/-- The step from `g` to `g'` has added exactly one phi to the block, which
had none: the phi is a new instruction, it is the only phi of the block, it has
one input per predecessor of the block, and the If takes it as its input. -/
structure PhiAdded (g g' : HGraph) (block if_instruction phi : Nat) : Prop where
  fresh : g.GetInstruction phi = none
  before : g.phisOf block = []
  phis : g'.phisOf block = [phi]
  kind : g'.KindOf phi = some InstructionKind.Phi
  inputs : (g'.inputsOf phi).length = (g.predecessorsOf block).length
  condition : g'.InputAt if_instruction 0 = some phi

/-- The step from `g` to `g'` has left the phis of the block, the input of
the If and every instruction of `g` as they were. -/
structure PhiSkipped (g g' : HGraph) (block if_instruction : Nat) : Prop where
  phis : g'.phisOf block = g.phisOf block
  condition : g'.InputAt if_instruction 0 = g.InputAt if_instruction 0
  instructions : ∀ id i, g.GetInstruction id = some i → g'.GetInstruction id = some i

/-! ## Specification vocabulary for the coalescing of tries -/

/-- The block of the try entry of a try block:
`block->GetTryCatchInformation()->GetTryEntry().GetBlock()`. -/
def HGraph.tryEntryBlockOf (g : HGraph) (block : Nat) : Option Nat :=
  ((g.GetBlock block).bind (·.try_catch_information)).bind g.BlockOf

/-- Every block of the reverse post order after the entry block is in the
graph, and the try entry of each try block among them is in a block. -/
def HGraph.TriesCollectable (g : HGraph) : Bool :=
  (g.reverse_post_order.drop 1).all (fun block =>
    match g.GetBlock block with
    | none => false
    | some b =>
      match b.try_catch_information with
      | none => true
      | some try_entry => (g.BlockOf try_entry).isSome)

/-! ## Specification vocabulary for Run on a graph with irreducible loops -/

/-- The step from `g` to `g'` removes no block and changes no control flow:
the same blocks are in the graph, every block has the predecessors, the
successors and the last instruction it had, that instruction has its kind and
its block, and the try-catch flag is the same. -/
structure CfgKept (g g' : HGraph) : Prop where
  blocks : ∀ b, (g'.GetBlock b).isSome = (g.GetBlock b).isSome
  predecessors : ∀ b, g'.predecessorsOf b = g.predecessorsOf b
  successors : ∀ b, g'.successorsOf b = g.successorsOf b
  terminator : ∀ b, (g'.instructionsOf b).getLast? = (g.instructionsOf b).getLast?
  kind : ∀ b x, (g.instructionsOf b).getLast? = some x →
    g'.KindOf x = g.KindOf x ∧ g'.BlockOf x = g.BlockOf x
  try_catch : g'.has_try_catch = g.has_try_catch

/-- Every block of the reverse post order is in the graph, and the last
instruction of every block is not removable (it is the control flow of the
block). -/
def HGraph.EndsInControlFlow (g : HGraph) : Bool :=
  g.reverse_post_order.all (fun b => (g.GetBlock b).isSome) &&
  (List.range g.blocks.length).all (fun b =>
    match (g.instructionsOf b).getLast? with
    | none => true
    | some x => !g.kindIs InstructionKind.IsRemovable x)

/-- What the sweep of RemoveDeadInstructions keeps of the graph `g1` it
starts with. -/
structure SweepFrame (g1 g : HGraph) : Prop where
  rpo : g.reverse_post_order = g1.reverse_post_order
  shape : ∀ b, g.shapeOf b = g1.shapeOf b
  kind : ∀ u, g.KindOf u = g1.KindOf u
  last : ∀ b, (g.instructionsOf b).getLast? = (g1.instructionsOf b).getLast?
  block : ∀ u, g1.kindIs InstructionKind.IsRemovable u = false → g.BlockOf u = g1.BlockOf u
  sublist : ∀ b, (g.instructionsOf b).Sublist (g1.instructionsOf b)
  try_catch : g.has_try_catch = g1.has_try_catch

/-- The blocks 1 and 2 form a loop that the entry block enters at both of
them.  Block 1 holds the Neg (instruction 3) of the int parameter
(instruction 1), which has no user, and ends in an If on the boolean parameter
(instruction 0); block 3 returns and block 4 is the exit block. -/
def exampleIrreducibleLoop : HGraph :=
  { blocks := [some (mkBlock [0, 1, 2] [] [1, 2]), some (mkBlock [3, 4] [0, 2] [2, 3]),
      some (mkBlock [5] [0, 1] [1]), some (mkBlock [6] [1] [4]), some (mkBlock [7] [3] [])],
    instructions := [
      mkInst InstructionKind.ParameterValue DataType.kBool [] 0,
      mkInst InstructionKind.ParameterValue DataType.kInt32 [] 0,
      mkInst InstructionKind.If DataType.kVoid [0] 0,
      mkInst InstructionKind.Neg DataType.kInt32 [1] 1,
      mkInst InstructionKind.If DataType.kVoid [0] 1,
      mkGoto 2,
      mkInst InstructionKind.ReturnVoid DataType.kVoid [] 3,
      mkInst InstructionKind.Exit DataType.kVoid [] 4],
    entry_block := 0,
    exit_block := some 4,
    reverse_post_order := [0, 1, 2, 3, 4],
    has_irreducible_loops := true,
    has_try_catch := false }

/-! ## Specification vocabulary for the independence from the statistics -/

/-- Two optional states agree: both are absent, or both are present and
related. -/
def Agreeing {σ : Type} (R : σ → σ → Prop) (o o' : Option σ) : Prop :=
  match o, o' with
  | none, none => True
  | some v, some v' => R v v'
  | _, _ => False

/-- Two visitors with the same graph. -/
def HConstantFoldingVisitor.sameGraph (v v' : HConstantFoldingVisitor) : Prop :=
  v.graph = v'.graph

/-- Two states of the dead code elimination with the same graph. -/
def HDeadCodeElimination.sameGraph (d d' : HDeadCodeElimination) : Prop :=
  d.graph = d'.graph

/-- Two states of the loop of SimplifyIfs that differ in the statistics at
most. -/
def SimplifyIfsState.sameButStats (st st' : SimplifyIfsState) : Prop :=
  st.graph = st'.graph ∧ st.simplified_one_or_more_ifs = st'.simplified_one_or_more_ifs ∧
    st.rerun_dominance_and_loop_analysis = st'.rerun_dominance_and_loop_analysis

/-- Two states of the loop of SimplifyAlwaysThrows that differ in the
statistics at most. -/
def SimplifyAlwaysThrowsState.sameButStats (st st' : SimplifyAlwaysThrowsState) : Prop :=
  st.graph = st'.graph ∧
    st.rerun_dominance_and_loop_analysis = st'.rerun_dominance_and_loop_analysis

/-- Two states of the loop of RemoveDeadBlocks that differ in the statistics
at most. -/
def RemoveDeadBlocksState.sameButStats (st st' : RemoveDeadBlocksState) : Prop :=
  st.graph = st'.graph ∧ st.removed_one_or_more_blocks = st'.removed_one_or_more_blocks ∧
    st.rerun_dominance_and_loop_analysis = st'.rerun_dominance_and_loop_analysis

/-- Two results of a phase of the dead code elimination with the same graph
and the same return value. -/
def sameResult (r r' : HDeadCodeElimination × Bool) : Prop :=
  r.1.graph = r'.1.graph ∧ r.2 = r'.2

/-! ## Specification vocabulary for the aliases of RemoveNonNullControlDependences -/

/-- The instruction is in a block of `g` and in no block of `g'`: the step
from `g` to `g'` has removed it. -/
def HGraph.RemovedIn (g g' : HGraph) (u : Nat) : Bool :=
  (g.BlockOf u).isSome && (g'.BlockOf u).isNone

/-- Well-formedness of the graph `g` that SimplifyAlwaysThrows has reached when
it redirects the edge from `throws` to `succ` to the exit block and calls
RemoveNonNullControlDependences on `pred`; `dom` is the graph that the
dominator tree was computed for.  The graph after the redirection passes
`HGraph.ThrowReady`; `pred` is a block with at most two successors; `g` has the
entry block of `dom`, and each of its edges that does not lead to the exit
block is an edge of `dom` (the earlier visits have only redirected edges to the
exit block); the exit block has no successor and holds no NullCheck; `succ` is
the only successor of `throws`. -/
def HGraph.DetachReady (g dom : HGraph) (pred throws succ exit : Nat) : Bool :=
  (g.ReplaceSuccessor throws succ exit).ThrowReady &&
  (g.GetBlock pred).isSome &&
  decide ((g.successorsOf pred).length ≤ 2) &&
  decide (g.entry_block = dom.entry_block) &&
  (List.range g.blocks.length).all (fun b =>
    (g.successorsOf b).all (fun s => s == exit || decide (s ∈ dom.successorsOf b))) &&
  (g.successorsOf exit).isEmpty &&
  (List.range g.instructions.length).all (fun u =>
    !(g.BlockOf u == some exit && g.kindIs (fun k => k = InstructionKind.NullCheck) u)) &&
  g.successorsOf throws == [succ]

/-- What the check `HGraph.DetachReady` establishes, as propositions. -/
structure Detaching (dom g : HGraph) (pred throws succ exit : Nat) : Prop where
  ready : Throwable (g.ReplaceSuccessor throws succ exit)
  pred_some : (g.GetBlock pred).isSome = true
  two : (g.successorsOf pred).length ≤ 2
  entry : g.entry_block = dom.entry_block
  edges : ∀ b s, s ∈ g.successorsOf b → s ≠ exit → s ∈ dom.successorsOf b
  exit_last : g.successorsOf exit = []
  exit_clean : ∀ u, g.BlockOf u = some exit → g.KindOf u ≠ some InstructionKind.NullCheck
  goto : g.successorsOf throws = [succ]

/-- What RemoveNonNullControlDependences has done when it returns true, from
the graph `g` to the graph `g'`: `not_throws` is the successor of `block` other
than `throws`; the new instruction is the first instruction of `not_throws`, a
bound type that cannot be null, with `obj` as its input; every removed
instruction is a NullCheck on `obj` without a use left, in a block other than
`block` and `throws` that `block` dominates in `dom` and that `not_throws`
dominates in `g` and in `g'`; in the inputs of the instructions that stay,
the new instruction has taken the place of every removed one; the edges have
stayed; and `not_throws` dominates in `g'` every block that the block of a
removed instruction dominates in `g`. -/
structure NullChecksAliased (dom g g' : HGraph) (block throws not_throws obj : Nat) :
    Prop where
  survivor : g.IsNotThrows block throws not_throws
  first : ∃ rest, g'.instructionsOf not_throws = g.instructions.length :: rest
  fresh : g.GetInstruction g.instructions.length = none
  kind : g'.KindOf g.instructions.length = some InstructionKind.BoundType
  owner : g'.BlockOf g.instructions.length = some not_throws
  non_null : (g'.GetInstruction g.instructions.length).map (·.can_be_null) = some false
  inputs : g.RemovedIn g' obj = false → g'.inputsOf g.instructions.length = [obj]
  replaced : ∀ u, g.RemovedIn g' u = true →
    g.KindOf u = some InstructionKind.NullCheck ∧ obj ∈ g.inputsOf u ∧ g'.NumUses u = 0 ∧
    ∃ ub, g.BlockOf u = some ub ∧ ub ≠ block ∧ ub ≠ throws ∧
      dom.Dominates block ub = true ∧ g.Dominates not_throws ub = true ∧
      g'.Dominates not_throws ub = true
  uses : ∀ w, (g.BlockOf w).isSome = true → (g'.BlockOf w).isSome = true →
    g'.inputsOf w =
      (g.inputsOf w).map (fun x => if g.RemovedIn g' x = true then g.instructions.length else x)
  edges : ∀ b, g'.shapeOf b = g.shapeOf b
  dominated : ∀ u ub wb, g.RemovedIn g' u = true → g.BlockOf u = some ub →
    g.Dominates ub wb = true → g'.Dominates not_throws wb = true

/-! ## Specification vocabulary for the rewrites of one visit -/

/-- The graph `g'` is the graph `g` after exactly one rewrite of the
instruction `inst` of the block `block_id`: one `ReplaceWith` followed by one
`RemoveInstruction`, after the interning of at most one constant. -/
def HGraph.RewrittenOnce (g g' : HGraph) (inst block_id : Nat) : Prop :=
  ∃ g1 r, (g1 = g ∨ ∃ k ty, g.GetConstantOfKind k ty = (g1, r)) ∧
    g' = (g1.ReplaceWith inst r).RemoveInstruction block_id inst

/-- An evaluator that folds the Not of an int constant and the And of two
int constants. -/
def exampleBitwiseEvaluator : StaticEvaluator := fun g inst =>
  match g.KindOf inst, (g.InputAt inst 0).bind g.KindOf, (g.InputAt inst 1).bind g.KindOf with
  | some InstructionKind.Not, some (InstructionKind.IntConstant v), _ =>
    some (ConstantValue.Int (-v - 1))
  | some InstructionKind.And, some (InstructionKind.IntConstant v),
      some (InstructionKind.IntConstant w) => some (ConstantValue.Int (Int.land v w))
  | _, _, _ => none

/-- The test of the second rule of VisitAnd (lines 373 and 383 of
constant_folding.cc): exactly one operand is a Not, and its input is the other
operand. -/
def VisitAnd.notRuleApplies (g : HGraph) (instruction : Nat) : Bool :=
  match g.GetLeft instruction, g.GetRight instruction with
  | some left, some right =>
    let IsNot := g.kindIs (fun k => k = InstructionKind.Not)
    xor (IsNot left) (IsNot right) &&
      (g.InputAt (if IsNot left then left else right) 0 ==
        some (if IsNot left then right else left))
  | _, _ => false

/-- The test of the second rule of VisitRem (lines 463-466 of
constant_folding.cc): the right operand is the constant one or minus one, or
the two operands are the same instruction. -/
def VisitRem.oneRuleApplies (g : HGraph) (instruction : Nat) : Bool :=
  match g.GetLeft instruction, g.GetRight instruction with
  | some left, some right =>
    (g.IsConstant right &&
      (g.kindIs InstructionKind.IsOne right || g.kindIs InstructionKind.IsMinusOne right)) ||
    decide (left = right)
  | _, _ => false

/-! # Theorems -/

/-! ## The worklist loop computes reachability -/

theorem mem_SetBit (v : ArenaBitVector) (i x : Nat) :
    x ∈ v.SetBit i ↔ x = i ∨ x ∈ v := by
  unfold ArenaBitVector.SetBit
  split
  · constructor
    · intro h; exact Or.inr h
    · rintro (h | h)
      · subst h; assumption
      · exact h
  · simp

theorem nodup_SetBit (v : ArenaBitVector) (i : Nat) (h : v.Nodup) : (v.SetBit i).Nodup := by
  unfold ArenaBitVector.SetBit
  split
  · exact h
  · exact List.nodup_cons.mpr ⟨by assumption, h⟩

theorem visitSuccessors_cons (s : Nat) (rest worklist : List Nat) (visited : ArenaBitVector) :
    visitSuccessors (s :: rest) worklist visited =
      if s ∈ visited then visitSuccessors rest worklist visited
      else visitSuccessors rest (s :: worklist) (s :: visited) := by
  unfold visitSuccessors
  simp only [List.foldl_cons, ArenaBitVector.IsBitSet, ArenaBitVector.SetBit]
  by_cases h : s ∈ visited <;> simp [h]

theorem visitSuccessors_spec (succs : List Nat) :
    ∀ (worklist : List Nat) (visited : ArenaBitVector),
      (∀ x, x ∈ (visitSuccessors succs worklist visited).2 ↔ x ∈ visited ∨ x ∈ succs) ∧
      (∀ x, x ∈ (visitSuccessors succs worklist visited).1 ↔
        x ∈ worklist ∨ (x ∈ succs ∧ x ∉ visited)) ∧
      (visited.Nodup → (visitSuccessors succs worklist visited).2.Nodup) ∧
      (visitSuccessors succs worklist visited).1.length + visited.length =
        worklist.length + (visitSuccessors succs worklist visited).2.length := by
  induction succs with
  | nil =>
    intro worklist visited
    simp [visitSuccessors]
  | cons s rest ih =>
    intro worklist visited
    rw [visitSuccessors_cons]
    by_cases h : s ∈ visited
    · simp only [h, if_true]
      obtain ⟨h1, h2, h3, h4⟩ := ih worklist visited
      refine ⟨?_, ?_, h3, h4⟩
      · intro x
        rw [h1]
        constructor
        · rintro (hx | hx)
          · exact Or.inl hx
          · exact Or.inr (List.mem_cons_of_mem _ hx)
        · rintro (hx | hx)
          · exact Or.inl hx
          · rcases List.mem_cons.mp hx with hx | hx
            · subst hx; exact Or.inl h
            · exact Or.inr hx
      · intro x
        rw [h2]
        constructor
        · rintro (hx | ⟨hx, hn⟩)
          · exact Or.inl hx
          · exact Or.inr ⟨List.mem_cons_of_mem _ hx, hn⟩
        · rintro (hx | ⟨hx, hn⟩)
          · exact Or.inl hx
          · rcases List.mem_cons.mp hx with hx | hx
            · subst hx; exact absurd h hn
            · exact Or.inr ⟨hx, hn⟩
    · simp only [h, if_false]
      obtain ⟨h1, h2, h3, h4⟩ := ih (s :: worklist) (s :: visited)
      refine ⟨?_, ?_, ?_, ?_⟩
      · intro x
        rw [h1]
        simp only [List.mem_cons]
        tauto
      · intro x
        rw [h2]
        simp only [List.mem_cons]
        constructor
        · rintro ((hx | hx) | ⟨hx, hn⟩)
          · subst hx; exact Or.inr ⟨Or.inl rfl, h⟩
          · exact Or.inl hx
          · exact Or.inr ⟨Or.inr hx, fun hv => hn (Or.inr hv)⟩
        · rintro (hx | ⟨hx | hx, hn⟩)
          · exact Or.inl (Or.inr hx)
          · exact Or.inl (Or.inl hx)
          · by_cases hxs : x = s
            · exact Or.inl (Or.inl hxs)
            · exact Or.inr ⟨hx, fun hv => by rcases hv with hv | hv <;> contradiction⟩
      · intro hnd
        exact h3 (List.nodup_cons.mpr ⟨h, hnd⟩)
      · simp only [List.length_cons] at h4 ⊢
        omega

theorem markLoop_spec (live : Nat → List Nat) (start : Nat) (U : List Nat)
    (hU : ∀ x s, s ∈ live x → s ∈ U) :
    ∀ (fuel : Nat) (worklist : List Nat) (visited : ArenaBitVector),
      (∀ x ∈ worklist, x ∈ visited) →
      visited.Nodup →
      (∀ x ∈ visited, x = start ∨ x ∈ U) →
      (∀ x ∈ visited, Reach live start x) →
      (∀ x ∈ visited, x ∈ worklist ∨ ∀ s ∈ live x, s ∈ visited) →
      start ∈ visited →
      worklist.length + (U.length + 1) ≤ fuel + visited.length →
      ∃ result, markLoop live fuel worklist visited = some result ∧
        ∀ x, x ∈ result ↔ Reach live start x := by
  intro fuel
  induction fuel with
  | zero =>
    intro worklist visited hwl hnd hsub hreach hclosed hstart hfuel
    have hlen : visited.length ≤ (start :: U).length := by
      apply List.Subperm.length_le
      apply List.subperm_of_subset hnd
      intro x hx
      rcases hsub x hx with h | h
      · subst h; exact List.mem_cons_self _ _
      · exact List.mem_cons_of_mem _ h
    simp only [List.length_cons] at hlen
    have : worklist = [] := by
      cases worklist with
      | nil => rfl
      | cons a l => simp only [List.length_cons] at hfuel; omega
    subst this
    refine ⟨visited, by simp [markLoop], ?_⟩
    intro x
    constructor
    · exact hreach x
    · intro hx
      induction hx with
      | refl => exact hstart
      | tail _ hstep ih =>
        rcases hclosed _ ih with h | h
        · simp at h
        · exact h _ hstep
  | succ fuel ih =>
    intro worklist visited hwl hnd hsub hreach hclosed hstart hfuel
    cases worklist with
    | nil =>
      refine ⟨visited, by simp [markLoop], ?_⟩
      intro x
      constructor
      · exact hreach x
      · intro hx
        induction hx with
        | refl => exact hstart
        | tail _ hstep ih =>
          rcases hclosed _ ih with h | h
          · simp at h
          · exact h _ hstep
    | cons block rest =>
      obtain ⟨h1, h2, h3, h4⟩ := visitSuccessors_spec (live block) rest visited
      have hblock : block ∈ visited := hwl block (List.mem_cons_self _ _)
      simp only [markLoop]
      apply ih
      · intro x hx
        rw [h1]
        rcases (h2 x).mp hx with h | ⟨h, _⟩
        · exact Or.inl (hwl x (List.mem_cons_of_mem _ h))
        · exact Or.inr h
      · exact h3 hnd
      · intro x hx
        rcases (h1 x).mp hx with h | h
        · exact hsub x h
        · exact Or.inr (hU block x h)
      · intro x hx
        rcases (h1 x).mp hx with h | h
        · exact hreach x h
        · exact Relation.ReflTransGen.tail (hreach block hblock) h
      · intro x hx
        rcases (h1 x).mp hx with h | h
        · rcases hclosed x h with hc | hc
          · rcases List.mem_cons.mp hc with hc | hc
            · subst hc
              right
              intro s hs
              exact (h1 s).mpr (Or.inr hs)
            · left
              exact (h2 x).mpr (Or.inl hc)
          · right
            intro s hs
            exact (h1 s).mpr (Or.inl (hc s hs))
        · by_cases hv : x ∈ visited
          · rcases hclosed x hv with hc | hc
            · rcases List.mem_cons.mp hc with hc | hc
              · subst hc
                right
                intro s hs
                exact (h1 s).mpr (Or.inr hs)
              · left
                exact (h2 x).mpr (Or.inl hc)
            · right
              intro s hs
              exact (h1 s).mpr (Or.inl (hc s hs))
          · left
            exact (h2 x).mpr (Or.inr ⟨h, hv⟩)
      · exact (h1 start).mpr (Or.inl hstart)
      · simp only [List.length_cons] at hfuel
        omega

theorem SubArray_subset {α : Type} (a : List α) (pos length : Nat) :
    ∀ x ∈ SubArray a pos length, x ∈ a := by
  intro x hx
  exact List.mem_of_mem_drop (List.mem_of_mem_take hx)

theorem liveSuccessors_subset (g : HGraph) (block : HBasicBlock) :
    ∀ x ∈ liveSuccessors g block, x ∈ block.successors := by
  intro x hx
  unfold liveSuccessors at hx
  simp only at hx
  split at hx
  · exact hx
  · split at hx
    · split at hx
      · split at hx <;> exact SubArray_subset _ _ _ x hx
      · exact hx
    · split at hx
      · split at hx <;> exact SubArray_subset _ _ _ x hx
      · exact hx
    · exact hx

theorem GetBlock_mem (g : HGraph) (id : Nat) (block : HBasicBlock)
    (h : g.GetBlock id = some block) : some block ∈ g.blocks := by
  unfold HGraph.GetBlock at h
  rw [List.getD_eq_getElem?_getD] at h
  cases hb : g.blocks[id]? with
  | none => rw [hb] at h; simp at h
  | some b =>
    rw [hb] at h
    simp only [Option.getD_some] at h
    subst h
    exact List.getElem?_mem hb

theorem liveSuccessorsOf_mem_allSuccessors (g : HGraph) (x s : Nat)
    (h : s ∈ liveSuccessorsOf g x) : s ∈ g.allSuccessors := by
  unfold liveSuccessorsOf at h
  cases hb : g.GetBlock x with
  | none => rw [hb] at h; simp at h
  | some block =>
    rw [hb] at h
    simp only at h
    unfold HGraph.allSuccessors
    rw [List.mem_flatten]
    refine ⟨block.successors, ?_, liveSuccessors_subset g block s h⟩
    rw [List.mem_map]
    exact ⟨some block, GetBlock_mem g x block hb, rfl⟩

theorem liveSuccessors_shape (g : HGraph) (block : HBasicBlock) :
    (endsWithConstantBranch g block = false → liveSuccessors g block = block.successors) ∧
    (endsWithConstantBranch g block = true → (liveSuccessors g block).length ≤ 1) := by
  unfold liveSuccessors
  simp only
  split
  · next h => simp [endsWithConstantBranch, h]
  · next last h =>
    split
    · next hk =>
      split
      · next v hc =>
        simp only [endsWithConstantBranch, h, hk, hc, Bool.and_self, Bool.true_eq_false,
          false_implies, true_implies, true_and]
        split <;> simp [SubArray, List.length_take]
      · next hc =>
        have : endsWithConstantBranch g block = false := by
          simp only [endsWithConstantBranch, h, hk, Bool.true_and]
        simp [this]
    · next s n hk =>
      split
      · next v hc =>
        simp only [endsWithConstantBranch, h, hk, hc, Bool.and_self, Bool.true_eq_false,
          false_implies, true_implies, true_and]
        split <;> simp [SubArray, List.length_take]
      · next hc =>
        have : endsWithConstantBranch g block = false := by
          simp only [endsWithConstantBranch, h, hk, Bool.true_and]
        simp [this]
    · next hk1 hk2 =>
      have : endsWithConstantBranch g block = false := by
        simp only [endsWithConstantBranch, h]
        split <;> simp_all
      simp [this]
theorem MarkReachableBlocks_spec (g : HGraph) :
    ∃ visited, MarkReachableBlocks g [] = some visited ∧
      ∀ b, visited.IsBitSet b = true ↔ LiveReachable g b := by
  have hmain := markLoop_spec (liveSuccessorsOf g) g.entry_block g.allSuccessors
    (liveSuccessorsOf_mem_allSuccessors g) (g.numEdges + 2) [g.entry_block]
    (ArenaBitVector.SetBit [] g.entry_block)
    (by intro x hx; simpa [ArenaBitVector.SetBit] using hx)
    (by simp [ArenaBitVector.SetBit])
    (by intro x hx; left; simpa [ArenaBitVector.SetBit] using hx)
    (by
      intro x hx
      have : x = g.entry_block := by simpa [ArenaBitVector.SetBit] using hx
      subst this
      exact Relation.ReflTransGen.refl)
    (by
      intro x hx
      left
      simpa [ArenaBitVector.SetBit] using hx)
    (by simp [ArenaBitVector.SetBit])
    (by simp only [ArenaBitVector.SetBit, HGraph.numEdges, List.not_mem_nil, if_false,
      List.length_cons, List.length_nil]; omega)
  obtain ⟨visited, hrun, hiff⟩ := hmain
  refine ⟨visited, hrun, ?_⟩
  intro b
  simp only [ArenaBitVector.IsBitSet, decide_eq_true_eq]
  exact hiff b

/-- C1: MarkReachableBlocks, run on an empty visited set, terminates and
marks a block iff the block is reachable from the entry block along live
successors; the entry block is marked, the marked set is closed under live
successors, and the live successors of a block are all its successors unless
the block ends in an If or PackedSwitch on an int constant, in which case at
most one successor is live. -/
theorem MarkReachableBlocks_marks_exactly_live_reachable (g : HGraph) :
    ∃ visited, MarkReachableBlocks g [] = some visited ∧
      (∀ b, visited.IsBitSet b = true ↔ LiveReachable g b) ∧
      visited.IsBitSet g.entry_block = true ∧
      (∀ b s, visited.IsBitSet b = true → s ∈ liveSuccessorsOf g b →
        visited.IsBitSet s = true) ∧
      (∀ block, (endsWithConstantBranch g block = false →
          liveSuccessors g block = block.successors) ∧
        (endsWithConstantBranch g block = true → (liveSuccessors g block).length ≤ 1)) := by
  obtain ⟨visited, hrun, hiff⟩ := MarkReachableBlocks_spec g
  refine ⟨visited, hrun, hiff, ?_, ?_, liveSuccessors_shape g⟩
  · exact (hiff _).mpr Relation.ReflTransGen.refl
  · intro b s hb hs
    exact (hiff s).mpr (Relation.ReflTransGen.tail ((hiff b).mp hb) hs)

theorem SubArray_one {α : Type} (a : List α) (i : Nat) (x : α) (h : a[i]? = some x) :
    SubArray a i 1 = [x] := by
  unfold SubArray
  obtain ⟨hi, hx⟩ := List.getElem?_eq_some.mp h
  rw [List.drop_eq_getElem_cons hi, hx]
  simp

/-- C4: for a block that ends in an If, the reachability walk follows only
the true successor (index 0) when the condition is the int constant 1, only
the false successor (index 1) when it is the int constant 0, and both
successors when the condition is not an int constant. -/
theorem liveSuccessorsOf_If (g : HGraph) (id : Nat) (block : HBasicBlock) (last t f : Nat)
    (hb : g.GetBlock id = some block)
    (hlast : block.GetLastInstruction = some last)
    (hif : g.KindOf last = some InstructionKind.If)
    (hsucc : block.successors = [t, f]) :
    ((g.InputAt last 0).bind g.KindOf = some (InstructionKind.IntConstant 1) →
      liveSuccessorsOf g id = [t] ∧
      ∀ fuel worklist visited,
        markLoop (liveSuccessorsOf g) (fuel + 1) (id :: worklist) visited =
          markLoop (liveSuccessorsOf g) fuel (visitSuccessors [t] worklist visited).1
            (visitSuccessors [t] worklist visited).2) ∧
    ((g.InputAt last 0).bind g.KindOf = some (InstructionKind.IntConstant 0) →
      liveSuccessorsOf g id = [f] ∧
      ∀ fuel worklist visited,
        markLoop (liveSuccessorsOf g) (fuel + 1) (id :: worklist) visited =
          markLoop (liveSuccessorsOf g) fuel (visitSuccessors [f] worklist visited).1
            (visitSuccessors [f] worklist visited).2) ∧
    ((∀ c, (g.InputAt last 0).bind g.KindOf ≠ some (InstructionKind.IntConstant c)) →
      liveSuccessorsOf g id = [t, f] ∧
      ∀ fuel worklist visited,
        markLoop (liveSuccessorsOf g) (fuel + 1) (id :: worklist) visited =
          markLoop (liveSuccessorsOf g) fuel (visitSuccessors [t, f] worklist visited).1
            (visitSuccessors [t, f] worklist visited).2) := by
  have key : ∀ l, liveSuccessorsOf g id = l →
      ∀ fuel worklist visited,
        markLoop (liveSuccessorsOf g) (fuel + 1) (id :: worklist) visited =
          markLoop (liveSuccessorsOf g) fuel (visitSuccessors l worklist visited).1
            (visitSuccessors l worklist visited).2 := by
    intro l hl fuel worklist visited
    simp only [markLoop, hl]
  refine ⟨?_, ?_, ?_⟩
  · intro hc
    have : liveSuccessorsOf g id = [t] := by
      simp only [liveSuccessorsOf, hb, liveSuccessors, hlast, hif, hc, hsucc]
      simp [SubArray]
    exact ⟨this, key _ this⟩
  · intro hc
    have : liveSuccessorsOf g id = [f] := by
      simp only [liveSuccessorsOf, hb, liveSuccessors, hlast, hif, hc, hsucc]
      simp [SubArray]
    exact ⟨this, key _ this⟩
  · intro hc
    have : liveSuccessorsOf g id = [t, f] := by
      simp only [liveSuccessorsOf, hb, liveSuccessors, hlast, hif, hsucc]
    exact ⟨this, key _ this⟩

theorem switchIndex_eq (v s : Int) :
    switchIndex v s = ((v - s) % 4294967296).toNat := by
  unfold switchIndex toUint32
  omega

/-- C5: for a PackedSwitch on the int constant `v` with start value `s` and
`n` entries, the walk follows exactly one successor: the case at index
`(v - s) mod 2^32` when that is below `n`, the default at index `n` otherwise.
For int32 values with `s + n - 1 <= INT32_MAX` this is the signed range check,
and a range that wraps past INT32_MAX still selects a single successor. -/
theorem liveSuccessorsOf_PackedSwitch (g : HGraph) (id : Nat) (block : HBasicBlock)
    (last : Nat) (v s : Int) (n : Nat)
    (hb : g.GetBlock id = some block)
    (hlast : block.GetLastInstruction = some last)
    (hsw : g.KindOf last = some (InstructionKind.PackedSwitch s n))
    (hin : (g.InputAt last 0).bind g.KindOf = some (InstructionKind.IntConstant v))
    (hsucc : block.successors.length = n + 1) :
    switchIndex v s = ((v - s) % 4294967296).toNat ∧
    (switchIndex v s < n →
      ∃ x, block.successors[switchIndex v s]? = some x ∧ liveSuccessorsOf g id = [x]) ∧
    (¬ switchIndex v s < n →
      ∃ x, block.successors[n]? = some x ∧ liveSuccessorsOf g id = [x]) ∧
    (-2147483648 ≤ v → v ≤ 2147483647 → -2147483648 ≤ s → s ≤ 2147483647 →
      s + n - 1 ≤ 2147483647 →
      (switchIndex v s < n ↔ s ≤ v ∧ v ≤ s + n - 1) ∧
      (s ≤ v → v ≤ s + n - 1 → (switchIndex v s : Int) = v - s)) ∧
    (s = 2147483647 → n = 2 → v = -2147483648 →
      ∃ x, block.successors[1]? = some x ∧ liveSuccessorsOf g id = [x]) := by
  have hlive : liveSuccessorsOf g id =
      if switchIndex v s < n then SubArray block.successors (switchIndex v s) 1
      else SubArray block.successors n 1 := by
    simp only [liveSuccessorsOf, hb, liveSuccessors, hlast, hsw, hin]
  have hcase : switchIndex v s < n →
      ∃ x, block.successors[switchIndex v s]? = some x ∧ liveSuccessorsOf g id = [x] := by
    intro hlt
    have hi : switchIndex v s < block.successors.length := by omega
    refine ⟨block.successors[switchIndex v s], List.getElem?_eq_getElem hi, ?_⟩
    rw [hlive, if_pos hlt]
    exact SubArray_one _ _ _ (List.getElem?_eq_getElem hi)
  refine ⟨switchIndex_eq v s, hcase, ?_, ?_, ?_⟩
  · intro hge
    have hi : n < block.successors.length := by omega
    refine ⟨block.successors[n], List.getElem?_eq_getElem hi, ?_⟩
    rw [hlive, if_neg hge]
    exact SubArray_one _ _ _ (List.getElem?_eq_getElem hi)
  · intro h1 h2 h3 h4 h5
    rw [switchIndex_eq]
    constructor
    · omega
    · intro h6 h7
      omega
  · intro hs hn hv
    subst hs hn hv
    have h1 : switchIndex (-2147483648) 2147483647 = 1 := by
      rw [switchIndex_eq]; decide
    have := hcase (by rw [h1]; omega)
    rw [h1] at this
    exact this


theorem liveSuccessorsOf_If_witness :
    exampleConstantIf.GetBlock 0 = some exampleIfBlock ∧
    exampleIfBlock.GetLastInstruction = some 1 ∧
    exampleConstantIf.KindOf 1 = some InstructionKind.If ∧
    exampleIfBlock.successors = [1, 2] ∧
    liveSuccessorsOf exampleConstantIf 0 = [1] :=
  ⟨rfl, rfl, rfl, rfl,
    ((liveSuccessorsOf_If exampleConstantIf 0 exampleIfBlock 1 1 2 rfl rfl rfl rfl).1 rfl).1⟩

theorem liveSuccessorsOf_PackedSwitch_witness :
    exampleConstantSwitch.GetBlock 0 = some exampleSwitchBlock ∧
    exampleSwitchBlock.successors.length = 2 + 1 ∧
    switchIndex 6 5 = 1 ∧
    liveSuccessorsOf exampleConstantSwitch 0 = [2] := by
  have h := liveSuccessorsOf_PackedSwitch exampleConstantSwitch 0 exampleSwitchBlock 1 6 5 2
    rfl rfl rfl rfl rfl
  have h1 : switchIndex 6 5 = 1 := by decide
  refine ⟨rfl, rfl, h1, ?_⟩
  obtain ⟨x, hx, hl⟩ := h.2.1 (by rw [h1]; decide)
  rw [h1] at hx
  have : x = 2 := by
    have h2 : exampleSwitchBlock.successors[1]? = some 2 := rfl
    rw [h2] at hx
    exact (Option.some.inj hx).symm
  rw [hl, this]

/-! ## Constant folding of evaluable instructions -/

theorem findConstant_some (k : InstructionKind) (l : List HInstruction) :
    ∀ (n c : Nat), findConstant k l n = some c →
      n ≤ c ∧ ∃ i, l[c - n]? = some i ∧ i.kind = k ∧ i.block.isSome = true := by
  induction l with
  | nil => intro n c h; simp [findConstant] at h
  | cons x rest ih =>
    intro n c h
    unfold findConstant at h
    split at h
    · next hx =>
      have : n = c := Option.some.inj h
      subst this
      exact ⟨Nat.le_refl _, x, by simp, hx.1, hx.2⟩
    · obtain ⟨hle, i, hi, hk, hb⟩ := ih (n + 1) c h
      refine ⟨by omega, i, ?_, hk, hb⟩
      have : c - n = (c - (n + 1)) + 1 := by omega
      rw [this, List.getElem?_cons_succ]
      exact hi

theorem GetInstruction_InsertConstant_old (g : HGraph) (k : InstructionKind) (ty : DataType)
    (id : Nat) (i : HInstruction) (h : g.GetInstruction id = some i) :
    (g.InsertConstant k ty).1.GetInstruction id = some i := by
  unfold HGraph.GetInstruction at h ⊢
  unfold HGraph.InsertConstant
  simp only
  have hlt : id < g.instructions.length := (List.getElem?_eq_some.mp h).1
  rw [List.getElem?_append_left hlt]
  exact h

theorem GetInstruction_InsertConstant_new (g : HGraph) (k : InstructionKind) (ty : DataType) :
    (g.InsertConstant k ty).1.GetInstruction (g.InsertConstant k ty).2 =
      some { kind := k, type := ty, inputs := [], block := some g.entry_block } := by
  unfold HGraph.GetInstruction HGraph.InsertConstant
  simp

/-- What interning guarantees: the returned node has the requested kind and
is in a block, and every instruction already in the arena is untouched. -/
theorem GetConstantOfKind_spec (g : HGraph) (k : InstructionKind) (ty : DataType) :
    (g.GetConstantOfKind k ty).1.KindOf (g.GetConstantOfKind k ty).2 = some k ∧
    ((g.GetConstantOfKind k ty).1.BlockOf (g.GetConstantOfKind k ty).2).isSome = true ∧
    (∀ id i, g.GetInstruction id = some i →
      (g.GetConstantOfKind k ty).1.GetInstruction id = some i) := by
  unfold HGraph.GetConstantOfKind
  split
  · next c hc =>
    obtain ⟨_, i, hi, hk, hb⟩ := findConstant_some k g.instructions 0 c hc
    simp only [Nat.sub_zero] at hi
    refine ⟨?_, ?_, fun id i h => h⟩
    · simp [HGraph.KindOf, HGraph.GetInstruction, hi, hk]
    · simp [HGraph.BlockOf, HGraph.GetInstruction, hi, hb]
  · refine ⟨?_, ?_, GetInstruction_InsertConstant_old g k ty⟩
    · simp [HGraph.KindOf, GetInstruction_InsertConstant_new]
    · simp [HGraph.BlockOf, GetInstruction_InsertConstant_new]

theorem GetInstruction_ReplaceWith (g : HGraph) (inst other id : Nat) :
    (g.ReplaceWith inst other).GetInstruction id =
      (g.GetInstruction id).map (fun u =>
        if u.block.isSome then { u with inputs := substInput inst other u.inputs } else u) := by
  simp [HGraph.GetInstruction, HGraph.ReplaceWith]

theorem GetInstruction_RemoveInstruction (g : HGraph) (block_id inst id : Nat) :
    (g.RemoveInstruction block_id inst).GetInstruction id =
      (g.GetInstruction id).map (fun u => if inst = id then { u with block := none } else u) := by
  simp only [HGraph.GetInstruction, HGraph.RemoveInstruction, List.getElem?_modify]
  rfl

theorem GetBlock_RemoveInstruction (g : HGraph) (block_id inst id : Nat) :
    (g.RemoveInstruction block_id inst).GetBlock id =
      (g.GetBlock id).map (fun b =>
        if block_id = id then { b with instructions := b.instructions.filter (fun i => i ≠ inst) }
        else b) := by
  simp only [HGraph.GetBlock, HGraph.RemoveInstruction, List.getD_eq_getElem?_getD,
    List.getElem?_modify]
  cases h : g.blocks[id]? with
  | none => simp
  | some b =>
    by_cases hb : block_id = id
    · simp [hb]
    · simp [hb]


theorem substInput_getElem? (old new : Nat) (l : List Nat) (i : Nat) :
    (substInput old new l)[i]? = (l[i]?).map (fun x => if x = old then new else x) := by
  simp [substInput]

theorem KindOf_ReplaceWith (g : HGraph) (inst other id : Nat) :
    (g.ReplaceWith inst other).KindOf id = g.KindOf id := by
  simp only [HGraph.KindOf, GetInstruction_ReplaceWith]
  cases g.GetInstruction id with
  | none => rfl
  | some u => simp only [Option.map_some']; split <;> rfl

theorem KindOf_RemoveInstruction (g : HGraph) (block_id inst id : Nat) :
    (g.RemoveInstruction block_id inst).KindOf id = g.KindOf id := by
  simp only [HGraph.KindOf, GetInstruction_RemoveInstruction]
  cases g.GetInstruction id with
  | none => rfl
  | some u => simp only [Option.map_some']; split <;> rfl

theorem BlockOf_ReplaceWith (g : HGraph) (inst other id : Nat) :
    (g.ReplaceWith inst other).BlockOf id = g.BlockOf id := by
  simp only [HGraph.BlockOf, GetInstruction_ReplaceWith]
  cases g.GetInstruction id with
  | none => rfl
  | some u => simp only [Option.map_some', Option.some_bind]; split <;> rfl

/-- What `ReplaceWith` followed by `RemoveInstruction` achieves when the
replacement differs from the instruction. -/
theorem ReplaceWith_RemoveInstruction_spec (g : HGraph) (inst other block_id : Nat)
    (hne : other ≠ inst) :
    (∀ user index, g.IsUse inst user index →
      ((g.ReplaceWith inst other).RemoveInstruction block_id inst).InputAt user index =
        some other) ∧
    (∀ user index,
      ¬ ((g.ReplaceWith inst other).RemoveInstruction block_id inst).IsUse inst user index) ∧
    ((g.ReplaceWith inst other).RemoveInstruction block_id inst).BlockOf inst = none ∧
    (∀ blk, ((g.ReplaceWith inst other).RemoveInstruction block_id inst).GetBlock block_id =
      some blk → inst ∉ blk.instructions) := by
  refine ⟨?_, ?_, ?_, ?_⟩
  · intro user index ⟨hb, hin⟩
    simp only [HGraph.InputAt, HGraph.BlockOf, GetInstruction_RemoveInstruction,
      GetInstruction_ReplaceWith] at hb hin ⊢
    cases hu : g.GetInstruction user with
    | none => rw [hu] at hb; simp at hb
    | some u =>
      rw [hu] at hb hin
      simp only [Option.some_bind] at hb hin
      simp only [Option.map_some', hb, if_true, Option.some_bind]
      split <;> simp [substInput_getElem?, hin]
  · intro user index ⟨hb, hin⟩
    simp only [HGraph.InputAt, HGraph.BlockOf, GetInstruction_RemoveInstruction,
      GetInstruction_ReplaceWith] at hb hin
    cases hu : g.GetInstruction user with
    | none => rw [hu] at hb; simp at hb
    | some u =>
      rw [hu] at hb hin
      simp only [Option.map_some', Option.some_bind] at hb hin
      by_cases hiu : inst = user
      · simp [hiu] at hb
      · simp only [hiu, if_false] at hb hin
        by_cases hblk : u.block.isSome = true
        · simp only [hblk, if_true, substInput_getElem?] at hin
          cases hi : u.inputs[index]? with
          | none => rw [hi] at hin; simp at hin
          | some x =>
            rw [hi] at hin
            simp only [Option.map_some', Option.some.injEq] at hin
            split at hin
            · exact hne hin
            · next hx => exact hx hin
        · simp only [hblk] at hb
          simp at hb
          exact hblk hb
  · simp only [HGraph.BlockOf, GetInstruction_RemoveInstruction]
    cases g.ReplaceWith inst other |>.GetInstruction inst with
    | none => rfl
    | some u => simp
  · intro blk hblk
    rw [GetBlock_RemoveInstruction] at hblk
    cases hb : (g.ReplaceWith inst other).GetBlock block_id with
    | none => rw [hb] at hblk; simp at hblk
    | some b =>
      rw [hb] at hblk
      simp only [Option.map_some', if_true, Option.some.injEq] at hblk
      subst hblk
      simp [List.mem_filter]


theorem ConstantValue_kind_IsConstant (value : ConstantValue) :
    value.kind.IsConstant = true := by
  cases value <;> rfl

/-- C6: when static evaluation of a unary operation, binary operation or type
conversion yields a constant, the visitor redirects every use of the
instruction to that constant and removes the instruction from its block;
when it yields no result, a unary operation or type conversion is left
unchanged. -/
theorem constant_folding_replaces_evaluable (ev : StaticEvaluator) (g : HGraph)
    (inst block_id : Nat)
    (hblock : g.BlockOf inst = some block_id)
    (hkind : g.IsConstant inst = false) :
    (∀ value, ev g inst = some value →
      ∃ g' c,
        VisitUnaryOperation ev g inst = some g' ∧
        VisitBinaryOperation ev g inst = some g' ∧
        VisitTypeConversion ev g inst = some g' ∧
        g'.KindOf c = some value.kind ∧
        (∀ user index, g.IsUse inst user index → g'.InputAt user index = some c) ∧
        (∀ user index, ¬ g'.IsUse inst user index) ∧
        g'.BlockOf inst = none ∧
        (∀ blk, g'.GetBlock block_id = some blk → inst ∉ blk.instructions)) ∧
    (ev g inst = none →
      VisitUnaryOperation ev g inst = some g ∧ VisitTypeConversion ev g inst = some g) := by
  constructor
  · intro value hev
    obtain ⟨hk, _, hold⟩ := GetConstantOfKind_spec g value.kind value.type
    generalize hr : g.GetConstantOfKind value.kind value.type = r at hk hold
    have heval : g.TryStaticEvaluation ev inst = some (r.1, r.2) := by
      simp [HGraph.TryStaticEvaluation, hev, hr]
    have hinst : ∃ i, g.GetInstruction inst = some i ∧ i.block = some block_id := by
      unfold HGraph.BlockOf at hblock
      cases hi : g.GetInstruction inst with
      | none => rw [hi] at hblock; simp at hblock
      | some i => rw [hi] at hblock; exact ⟨i, rfl, by simpa using hblock⟩
    obtain ⟨i, hi, hib⟩ := hinst
    have hblock1 : r.1.BlockOf inst = some block_id := by
      simp [HGraph.BlockOf, hold inst i hi, hib]
    have hne : r.2 ≠ inst := by
      intro heq
      rw [heq] at hk
      have : g.KindOf inst = some value.kind := by
        simp only [HGraph.KindOf, hold inst i hi, Option.map_some'] at hk
        simp only [HGraph.KindOf, hi, Option.map_some']
        exact hk
      simp [HGraph.IsConstant, HGraph.kindIs, this, ConstantValue_kind_IsConstant] at hkind
    have hrr : r.1.ReplaceWithAndRemove inst r.2 =
        some ((r.1.ReplaceWith inst r.2).RemoveInstruction block_id inst) := by
      simp [HGraph.ReplaceWithAndRemove, BlockOf_ReplaceWith, hblock1]
    obtain ⟨h1, h2, h3, h4⟩ := ReplaceWith_RemoveInstruction_spec r.1 inst r.2 block_id hne
    refine ⟨(r.1.ReplaceWith inst r.2).RemoveInstruction block_id inst, r.2, ?_, ?_, ?_, ?_,
      ?_, h2, h3, h4⟩
    · simp [VisitUnaryOperation, heval, hrr]
    · simp [VisitBinaryOperation, heval, hrr]
    · simp [VisitTypeConversion, heval, hrr]
    · rw [KindOf_RemoveInstruction, KindOf_ReplaceWith]
      exact hk
    · intro user index ⟨hb, hin⟩
      apply h1
      cases hu : g.GetInstruction user with
      | none => simp [HGraph.BlockOf, hu] at hb
      | some u =>
        have hu1 := hold user u hu
        constructor
        · simpa [HGraph.BlockOf, hu1, hu] using hb
        · simpa [HGraph.InputAt, hu1, hu] using hin
  · intro hev
    simp [VisitUnaryOperation, VisitTypeConversion, HGraph.TryStaticEvaluation, hev]

theorem constant_folding_replaces_evaluable_witness :
    exampleNeg.BlockOf 1 = some 1 ∧ exampleNeg.IsConstant 1 = false ∧
    exampleEvaluator exampleNeg 1 = some (ConstantValue.Int (-5)) ∧
    ∃ g' c,
      VisitUnaryOperation exampleEvaluator exampleNeg 1 = some g' ∧
      VisitBinaryOperation exampleEvaluator exampleNeg 1 = some g' ∧
      VisitTypeConversion exampleEvaluator exampleNeg 1 = some g' ∧
      g'.KindOf c = some (ConstantValue.Int (-5)).kind ∧
      (∀ user index, exampleNeg.IsUse 1 user index → g'.InputAt user index = some c) ∧
      (∀ user index, ¬ g'.IsUse 1 user index) ∧
      g'.BlockOf 1 = none ∧
      (∀ blk, g'.GetBlock 1 = some blk → 1 ∉ blk.instructions) :=
  ⟨rfl, rfl, rfl,
    (constant_folding_replaces_evaluable exampleEvaluator exampleNeg 1 1 rfl rfl).1 _ rfl⟩

/-! ## Branch-value propagation: what the primitives preserve -/

theorem getElem?_mapWithIndex {α : Type} (f : Nat → α → α) (l : List α) :
    ∀ (n i : Nat), (mapWithIndex f n l)[i]? = (l[i]?).map (f (n + i)) := by
  induction l with
  | nil => intro n i; simp [mapWithIndex]
  | cons x xs ih =>
    intro n i
    cases i with
    | zero => simp [mapWithIndex]
    | succ i =>
      simp only [mapWithIndex, List.getElem?_cons_succ]
      rw [ih (n + 1) i]
      have : n + 1 + i = n + (i + 1) := by omega
      rw [this]

theorem GetInstruction_ReplaceUsesDominatedBy (g : HGraph) (var d r : Nat) (s : Bool)
    (user : Nat) :
    (g.ReplaceUsesDominatedBy var d r s).GetInstruction user =
      (g.GetInstruction user).map (fun u =>
        if u.block.isSome &&
            (if s then g.StrictlyDominates d user else g.InstructionDominates d user) then
          { u with inputs := substInput var r u.inputs }
        else u) := by
  simp only [HGraph.GetInstruction, HGraph.ReplaceUsesDominatedBy, getElem?_mapWithIndex,
    Nat.zero_add]

theorem KindOf_ReplaceUsesDominatedBy (g : HGraph) (var d r : Nat) (s : Bool) (id : Nat) :
    (g.ReplaceUsesDominatedBy var d r s).KindOf id = g.KindOf id := by
  simp only [HGraph.KindOf, GetInstruction_ReplaceUsesDominatedBy]
  cases g.GetInstruction id with
  | none => rfl
  | some u => simp only [Option.map_some']; split_ifs <;> rfl

theorem BlockOf_ReplaceUsesDominatedBy (g : HGraph) (var d r : Nat) (s : Bool) (id : Nat) :
    (g.ReplaceUsesDominatedBy var d r s).BlockOf id = g.BlockOf id := by
  simp only [HGraph.BlockOf, GetInstruction_ReplaceUsesDominatedBy]
  cases g.GetInstruction id with
  | none => rfl
  | some u => simp only [Option.map_some', Option.some_bind]; split_ifs <;> rfl

theorem inRegion_ReplaceUsesDominatedBy (g : HGraph) (var d r : Nat) (s : Bool) (a b : Nat) :
    (g.ReplaceUsesDominatedBy var d r s).inRegion a b = g.inRegion a b := by
  have hk : ∀ p id, (g.ReplaceUsesDominatedBy var d r s).kindIs p id = g.kindIs p id := by
    intro p id
    simp only [HGraph.kindIs, KindOf_ReplaceUsesDominatedBy]
  simp only [HGraph.inRegion, HGraph.InstructionDominates, HGraph.StrictlyDominates,
    BlockOf_ReplaceUsesDominatedBy, HGraph.IsPhi, hk]
  rfl

theorem InputAt_ReplaceUsesDominatedBy (g : HGraph) (var d r user index : Nat) :
    (g.ReplaceUsesDominatedBy var d r false).InputAt user index =
      (g.InputAt user index).map (fun x =>
        if x = var ∧ g.inRegion d user = true then r else x) := by
  cases hu : g.GetInstruction user with
  | none =>
    simp only [HGraph.InputAt, GetInstruction_ReplaceUsesDominatedBy, hu, Option.map_none',
      Option.none_bind]
  | some u =>
    simp only [HGraph.InputAt, GetInstruction_ReplaceUsesDominatedBy, HGraph.inRegion,
      HGraph.BlockOf, Bool.false_eq_true, if_false, hu, Option.map_some', Option.some_bind]
    by_cases hc : (u.block.isSome && g.InstructionDominates d user) = true
    · simp only [hc, if_true, substInput_getElem?, and_true]
    · simp only [hc, if_false, and_false]
      cases hi : u.inputs[index]? <;> simp [hi]

theorem Agree.refl (g : HGraph) : Agree g g where
  entry := rfl
  succ := fun _ => rfl
  first := fun _ _ => rfl
  inst := fun _ i h => ⟨i, h, rfl, rfl, rfl, rfl⟩
  fresh := fun id i' h h' => by rw [h] at h'; cases h'
  region := fun _ _ _ _ => rfl

theorem Agree.trans {g g1 g2 : HGraph} (h1 : Agree g g1) (h2 : Agree g1 g2) : Agree g g2 where
  entry := by rw [h2.entry, h1.entry]
  succ := fun b => by rw [h2.succ, h1.succ]
  first := fun b hb => by
    rw [h2.first b (by rw [h1.entry]; exact hb), h1.first b hb]
  inst := fun id i h => by
    obtain ⟨i1, hi1, hk1, ht1, hb1, hl1⟩ := h1.inst id i h
    obtain ⟨i2, hi2, hk2, ht2, hb2, hl2⟩ := h2.inst id i1 hi1
    exact ⟨i2, hi2, hk2.trans hk1, ht2.trans ht1, hb2.trans hb1, hl2.trans hl1⟩
  fresh := fun id i2 h h' => by
    cases h1i : g1.GetInstruction id with
    | none => exact h2.fresh id i2 h1i h'
    | some i1 =>
      obtain ⟨hin, hk⟩ := h1.fresh id i1 h h1i
      obtain ⟨i2', hi2, hk2, _, _, hl2⟩ := h2.inst id i1 h1i
      rw [h'] at hi2
      cases hi2
      refine ⟨?_, by rw [hk2]; exact hk⟩
      rw [hin] at hl2
      exact List.length_eq_zero.mp hl2
  region := fun d user hd hu => by
    have hd1 : (g1.GetInstruction d).isSome = true := by
      cases hg : g.GetInstruction d with
      | none => rw [hg] at hd; cases hd
      | some i => obtain ⟨i', hi', _⟩ := h1.inst d i hg; rw [hi']; rfl
    have hu1 : (g1.GetInstruction user).isSome = true := by
      cases hg : g.GetInstruction user with
      | none => rw [hg] at hu; cases hu
      | some i => obtain ⟨i', hi', _⟩ := h1.inst user i hg; rw [hi']; rfl
    rw [h2.region d user hd1 hu1, h1.region d user hd hu]

theorem Agree_ReplaceUsesDominatedBy (g : HGraph) (var d r : Nat) (s : Bool) :
    Agree g (g.ReplaceUsesDominatedBy var d r s) where
  entry := rfl
  succ := fun _ => rfl
  first := fun _ _ => rfl
  inst := fun id i h => by
    rw [GetInstruction_ReplaceUsesDominatedBy, h]
    simp only [Option.map_some']
    generalize (i.block.isSome &&
      (if s then g.StrictlyDominates d id else g.InstructionDominates d id)) = c
    cases c
    · exact ⟨_, rfl, rfl, rfl, rfl, rfl⟩
    · exact ⟨_, rfl, rfl, rfl, rfl, by simp [substInput]⟩
  fresh := fun id i' h h' => by
    rw [GetInstruction_ReplaceUsesDominatedBy, h] at h'
    cases h'
  region := fun a b _ _ => inRegion_ReplaceUsesDominatedBy g var d r s a b

theorem successorsAvoiding_subset (g : HGraph) (a x s : Nat)
    (h : s ∈ g.successorsAvoiding a x) : s ∈ g.successorsOf x := by
  unfold HGraph.successorsAvoiding at h
  split at h
  · simp at h
  · exact (List.mem_filter.mp h).1

theorem successorsOf_mem_allSuccessors (g : HGraph) (x s : Nat)
    (h : s ∈ g.successorsOf x) : s ∈ g.allSuccessors := by
  unfold HGraph.successorsOf at h
  cases hb : g.GetBlock x with
  | none => rw [hb] at h; simp at h
  | some block =>
    rw [hb] at h
    simp only at h
    unfold HGraph.allSuccessors
    rw [List.mem_flatten]
    refine ⟨block.successors, ?_, h⟩
    rw [List.mem_map]
    exact ⟨some block, GetBlock_mem g x block hb, rfl⟩

/-- The computed set of blocks reached without passing through `a` is the
set of blocks reachable along edges that avoid `a`. -/
theorem mem_reachableAvoiding (g : HGraph) (a b : Nat) :
    b ∈ g.reachableAvoiding a ↔ Reach (g.successorsAvoiding a) g.entry_block b := by
  have hmain := markLoop_spec (g.successorsAvoiding a) g.entry_block g.allSuccessors
    (fun x s h => successorsOf_mem_allSuccessors g x s (successorsAvoiding_subset g a x s h))
    (g.numEdges + 2) [g.entry_block] [g.entry_block]
    (by intro x hx; exact hx)
    (by simp)
    (by intro x hx; left; simpa using hx)
    (by
      intro x hx
      have : x = g.entry_block := by simpa using hx
      subst this
      exact Relation.ReflTransGen.refl)
    (by intro x hx; left; exact hx)
    (by simp)
    (by simp only [HGraph.numEdges, List.length_cons, List.length_nil]; omega)
  obtain ⟨result, hrun, hiff⟩ := hmain
  unfold HGraph.reachableAvoiding
  rw [hrun]
  exact hiff b

theorem Dominates_iff (g : HGraph) (a b : Nat) :
    g.Dominates a b = true ↔ a = b ∨ ¬ Reach (g.successorsAvoiding a) g.entry_block b := by
  unfold HGraph.Dominates
  simp only [Bool.or_eq_true, beq_iff_eq, Bool.not_eq_true', decide_eq_false_iff_not,
    mem_reachableAvoiding]

theorem Dominates_congr (g g' : HGraph) (hentry : g'.entry_block = g.entry_block)
    (hsucc : ∀ b, g'.successorsOf b = g.successorsOf b) (a b : Nat) :
    g'.Dominates a b = g.Dominates a b := by
  have h : g'.successorsAvoiding a = g.successorsAvoiding a := by
    funext x
    simp only [HGraph.successorsAvoiding, hsucc]
  rw [Bool.eq_iff_iff, Dominates_iff, Dominates_iff, h, hentry]

theorem FoundBefore_insert (a b c : Nat) (hca : c ≠ a) (hcb : c ≠ b) (l1 l2 : List Nat) :
    FoundBefore a b (l1 ++ c :: l2) = FoundBefore a b (l1 ++ l2) := by
  induction l1 with
  | nil => simp [FoundBefore, hca, hcb]
  | cons x xs ih =>
    show FoundBefore a b (x :: (xs ++ c :: l2)) = FoundBefore a b (x :: (xs ++ l2))
    simp only [FoundBefore, ih]

theorem FoundBefore_insertBeforeLast (a b c : Nat) (hca : c ≠ a) (hcb : c ≠ b) (l : List Nat) :
    FoundBefore a b (insertBeforeLast l c) = FoundBefore a b l := by
  unfold insertBeforeLast
  rw [FoundBefore_insert a b c hca hcb]
  congr 1
  cases h : l.getLast? with
  | none =>
    have : l = [] := List.getLast?_eq_none_iff.mp h
    subst this
    rfl
  | some x => exact List.dropLast_append_getLast? x (by rw [h]; rfl)


theorem GetBlock_InsertConstant (g : HGraph) (k : InstructionKind) (ty : DataType) (b : Nat) :
    (g.InsertConstant k ty).1.GetBlock b =
      (g.GetBlock b).map (fun blk =>
        if g.entry_block = b then
          { blk with instructions := insertBeforeLast blk.instructions g.instructions.length }
        else blk) := by
  simp only [HGraph.GetBlock, HGraph.InsertConstant, List.getD_eq_getElem?_getD,
    List.getElem?_modify]
  cases h : g.blocks[b]? with
  | none => simp
  | some blk =>
    by_cases hb : g.entry_block = b
    · cases blk <;> simp [hb]
    · simp [hb]

theorem GetInstruction_lt (g : HGraph) (id : Nat) (h : (g.GetInstruction id).isSome = true) :
    id < g.instructions.length := by
  unfold HGraph.GetInstruction at h
  cases hi : g.instructions[id]? with
  | none => rw [hi] at h; cases h
  | some i => exact (List.getElem?_eq_some.mp hi).1

theorem Agree_InsertConstant (g : HGraph) (k : InstructionKind) (ty : DataType)
    (hk : k.IsConstant = true) : Agree g (g.InsertConstant k ty).1 := by
  have hold := GetInstruction_InsertConstant_old g k ty
  have hsucc : ∀ b, (g.InsertConstant k ty).1.successorsOf b = g.successorsOf b := by
    intro b
    simp only [HGraph.successorsOf, GetBlock_InsertConstant]
    cases g.GetBlock b with
    | none => rfl
    | some blk => simp only [Option.map_some']; split <;> rfl
  have hkind : ∀ id, (g.GetInstruction id).isSome = true →
      (g.InsertConstant k ty).1.KindOf id = g.KindOf id := by
    intro id hid
    cases hi : g.GetInstruction id with
    | none => rw [hi] at hid; cases hid
    | some i => simp [HGraph.KindOf, hold id i hi, hi]
  have hblock : ∀ id, (g.GetInstruction id).isSome = true →
      (g.InsertConstant k ty).1.BlockOf id = g.BlockOf id := by
    intro id hid
    cases hi : g.GetInstruction id with
    | none => rw [hi] at hid; cases hid
    | some i => simp [HGraph.BlockOf, hold id i hi, hi]
  refine ⟨rfl, hsucc, ?_, ?_, ?_, ?_⟩
  · intro b hb
    rw [GetBlock_InsertConstant]
    cases g.GetBlock b with
    | none => rfl
    | some blk => simp [Ne.symm hb]
  · intro id i h
    exact ⟨i, hold id i h, rfl, rfl, rfl, rfl⟩
  · intro id i' h h'
    have hge : g.instructions.length ≤ id := by
      unfold HGraph.GetInstruction at h
      exact List.getElem?_eq_none_iff.mp h
    unfold HGraph.GetInstruction HGraph.InsertConstant at h'
    simp only at h'
    rw [List.getElem?_append_right hge] at h'
    cases hz : id - g.instructions.length with
    | zero =>
      rw [hz] at h'
      simp only [List.getElem?_cons_zero, Option.some.injEq] at h'
      subst h'
      exact ⟨rfl, hk⟩
    | succ n => rw [hz] at h'; simp at h'
  · intro d user hd hu
    have hdl := GetInstruction_lt g d hd
    have hul := GetInstruction_lt g user hu
    have hdom : ∀ a b, (g.InsertConstant k ty).1.Dominates a b = g.Dominates a b :=
      Dominates_congr g _ rfl hsucc
    simp only [HGraph.inRegion, HGraph.InstructionDominates, HGraph.StrictlyDominates,
      hblock d hd, hblock user hu, HGraph.IsPhi, HGraph.kindIs, hkind d hd, hkind user hu, hdom,
      GetBlock_InsertConstant]
    congr 2
    split
    · rfl
    · split
      · next block other hbd hbu =>
        split
        · rfl
        · split
          · rfl
          · split
            · rfl
            · cases hb : g.GetBlock block with
              | none => rfl
              | some blk =>
                simp only [Option.map_some']
                split
                · exact FoundBefore_insertBeforeLast d user _ (by omega) (by omega) _
                · rfl
      · rfl

theorem InputAt_InsertConstant (g : HGraph) (k : InstructionKind) (ty : DataType)
    (user index : Nat) :
    (g.InsertConstant k ty).1.InputAt user index = g.InputAt user index := by
  cases hu : g.GetInstruction user with
  | some u => simp [HGraph.InputAt, GetInstruction_InsertConstant_old g k ty user u hu, hu]
  | none =>
    have hge : g.instructions.length ≤ user := by
      unfold HGraph.GetInstruction at hu
      exact List.getElem?_eq_none_iff.mp hu
    simp only [HGraph.InputAt, hu, Option.none_bind]
    unfold HGraph.GetInstruction HGraph.InsertConstant
    simp only
    rw [List.getElem?_append_right hge]
    cases hz : user - g.instructions.length with
    | zero => simp
    | succ n => simp

theorem Agree_GetConstantOfKind (g : HGraph) (k : InstructionKind) (ty : DataType)
    (hk : k.IsConstant = true) : Agree g (g.GetConstantOfKind k ty).1 := by
  unfold HGraph.GetConstantOfKind
  split
  · exact Agree.refl g
  · exact Agree_InsertConstant g k ty hk

theorem InputAt_GetConstantOfKind (g : HGraph) (k : InstructionKind) (ty : DataType)
    (user index : Nat) :
    (g.GetConstantOfKind k ty).1.InputAt user index = g.InputAt user index := by
  unfold HGraph.GetConstantOfKind
  split
  · rfl
  · exact InputAt_InsertConstant g k ty user index

theorem InputsDefined_isSome (g : HGraph) (h : g.InputsDefined = true) (id y : Nat)
    (hy : y ∈ g.inputsOf id) : (g.GetInstruction y).isSome = true := by
  unfold HGraph.inputsOf at hy
  cases hi : g.GetInstruction id with
  | none => rw [hi] at hy; simp at hy
  | some i =>
    rw [hi] at hy
    simp only at hy
    unfold HGraph.InputsDefined at h
    rw [List.all_eq_true] at h
    have h1 := h i (List.getElem?_mem hi)
    rw [List.all_eq_true] at h1
    have h2 := h1 y hy
    simp only [decide_eq_true_eq] at h2
    unfold HGraph.GetInstruction
    rw [List.getElem?_eq_getElem h2]
    rfl

theorem InputAt_mem_inputsOf (g : HGraph) (id index y : Nat) (h : g.InputAt id index = some y) :
    y ∈ g.inputsOf id := by
  unfold HGraph.InputAt at h
  unfold HGraph.inputsOf
  cases hi : g.GetInstruction id with
  | none => rw [hi] at h; simp at h
  | some i =>
    rw [hi] at h
    simp only [Option.some_bind] at h
    exact List.getElem?_mem h

theorem InputAt_isSome (g : HGraph) (id index y : Nat) (h : g.InputAt id index = some y) :
    (g.GetInstruction id).isSome = true := by
  unfold HGraph.InputAt at h
  cases hi : g.GetInstruction id with
  | none => rw [hi] at h; simp at h
  | some i => rfl

theorem Agree.InputAt_old {g gi : HGraph} (h : Agree g gi) (user index x : Nat)
    (hx : gi.InputAt user index = some x) : (g.GetInstruction user).isSome = true := by
  cases hg : g.GetInstruction user with
  | some _ => rfl
  | none =>
    unfold HGraph.InputAt at hx
    cases hi : gi.GetInstruction user with
    | none => rw [hi] at hx; simp at hx
    | some i' =>
      rw [hi] at hx
      obtain ⟨hin, _⟩ := h.fresh user i' hg hi
      simp [hin] at hx

theorem Agree.KindOf_eq {g gi : HGraph} (h : Agree g gi) (id : Nat)
    (hid : (g.GetInstruction id).isSome = true) : gi.KindOf id = g.KindOf id := by
  cases hg : g.GetInstruction id with
  | none => rw [hg] at hid; cases hid
  | some i =>
    obtain ⟨i', hi', hk, _⟩ := h.inst id i hg
    simp [HGraph.KindOf, hi', hg, hk]

theorem Agree.kindIs_eq {g gi : HGraph} (h : Agree g gi) (p : InstructionKind → Bool) (id : Nat)
    (hid : (g.GetInstruction id).isSome = true) : gi.kindIs p id = g.kindIs p id := by
  simp only [HGraph.kindIs, h.KindOf_eq id hid]

theorem Agree.GetType_eq {g gi : HGraph} (h : Agree g gi) (id : Nat)
    (hid : (g.GetInstruction id).isSome = true) : gi.GetType id = g.GetType id := by
  cases hg : g.GetInstruction id with
  | none => rw [hg] at hid; cases hid
  | some i =>
    obtain ⟨i', hi', _, ht, _⟩ := h.inst id i hg
    simp [HGraph.GetType, hi', hg, ht]

theorem Agree.isSome {g gi : HGraph} (h : Agree g gi) (id : Nat)
    (hid : (g.GetInstruction id).isSome = true) : (gi.GetInstruction id).isSome = true := by
  cases hg : g.GetInstruction id with
  | none => rw [hg] at hid; cases hid
  | some i =>
    obtain ⟨i', hi', _⟩ := h.inst id i hg
    rw [hi']; rfl

/-- One `PropagateValue` step on a graph that agrees with `g`: it succeeds,
the result still agrees with `g`, and exactly the inputs that hold `var` in an
instruction of the region of `d` (measured in `g`) now hold `c`. -/
theorem PropagateValue_step {g : HGraph} (vis : HConstantFoldingVisitor)
    (hag : Agree g vis.graph) (start d var c : Nat)
    (hfirst : (g.GetBlock start).bind (·.GetFirstInstruction) = some d)
    (hstart : start ≠ g.entry_block)
    (hd : (g.GetInstruction d).isSome = true) :
    ∃ vis', PropagateValue vis start var c = some vis' ∧ Agree g vis'.graph ∧
      (∀ user index, vis.graph.InputAt user index = none →
        vis'.graph.InputAt user index = none) ∧
      (∀ user index x, vis.graph.InputAt user index = some x →
        vis'.graph.InputAt user index =
          some (if x = var ∧ g.inRegion d user = true then c else x)) := by
  have hf : (vis.graph.GetBlock start).bind (·.GetFirstInstruction) = some d := by
    rw [hag.first start hstart, hfirst]
  have hrun : ∃ st, PropagateValue vis start var c =
      some { graph := vis.graph.ReplaceUsesDominatedBy var d c false, stats := st } := by
    simp only [PropagateValue, hf]
    exact ⟨_, rfl⟩
  obtain ⟨st, hrun⟩ := hrun
  refine ⟨_, hrun, ?_, ?_, ?_⟩
  · exact hag.trans (Agree_ReplaceUsesDominatedBy _ _ _ _ _)
  · intro user index hnone
    simp only [InputAt_ReplaceUsesDominatedBy, hnone, Option.map_none']
  · intro user index x hx
    have hu := hag.InputAt_old user index x hx
    simp only [InputAt_ReplaceUsesDominatedBy, hx, Option.map_some', hag.region d user hd hu]


theorem GetIntConstant_step {g : HGraph} (gi : HGraph) (hag : Agree g gi) (value : Int) :
    Agree g (gi.GetIntConstant value).1 ∧
    (∀ user index, (gi.GetIntConstant value).1.InputAt user index = gi.InputAt user index) ∧
    (gi.GetIntConstant value).1.KindOf (gi.GetIntConstant value).2 =
      some (InstructionKind.IntConstant value) := by
  unfold HGraph.GetIntConstant
  exact ⟨hag.trans (Agree_GetConstantOfKind gi _ _ rfl),
    InputAt_GetConstantOfKind gi _ _, (GetConstantOfKind_spec gi _ _).1⟩

theorem pickOperands_spec (g : HGraph) (left right var constant : Nat)
    (h : VisitIf.pickOperands g left right = some (var, constant)) :
    ((var = left ∧ constant = right) ∨ (var = right ∧ constant = left)) ∧
    g.IsConstant var = false ∧ g.IsConstant constant = true ∧
    (g.GetType var).IsFloatingPointType = false := by
  unfold VisitIf.pickOperands at h
  cases hl : g.IsConstant left <;> cases hr : g.IsConstant right <;>
    simp only [hl, hr, beq_self_eq_true, if_true, Bool.false_eq_true, if_false,
      Bool.true_eq_false, Bool.false_eq_true, beq_iff_eq, reduceCtorEq] at h
  · cases hf : (g.GetType left).IsFloatingPointType <;>
      simp only [hf, Bool.false_eq_true, if_false, if_true, Option.some.injEq, Prod.mk.injEq,
        reduceCtorEq] at h
    obtain ⟨h1, h2⟩ := h
    subst h1 h2
    exact ⟨Or.inl ⟨rfl, rfl⟩, hl, hr, hf⟩
  · cases hf : (g.GetType right).IsFloatingPointType <;>
      simp only [hf, Bool.false_eq_true, if_false, if_true, Option.some.injEq, Prod.mk.injEq,
        reduceCtorEq] at h
    obtain ⟨h1, h2⟩ := h
    subst h1 h2
    exact ⟨Or.inr ⟨rfl, rfl⟩, hr, hl, hf⟩

theorem pickOperands_congr {g gi : HGraph} (hag : Agree g gi) (left right : Nat)
    (hl : (g.GetInstruction left).isSome = true) (hr : (g.GetInstruction right).isSome = true) :
    VisitIf.pickOperands gi left right = VisitIf.pickOperands g left right := by
  unfold VisitIf.pickOperands
  simp only [HGraph.IsConstant, hag.kindIs_eq _ left hl, hag.kindIs_eq _ right hr]
  split
  · rfl
  · by_cases hc : g.kindIs InstructionKind.IsConstant left = true
    · simp only [hc, if_true, hag.GetType_eq right hr]
    · simp only [hc, Bool.false_eq_true, if_false, hag.GetType_eq left hl]

theorem candidate_congr {g gi : HGraph} (hag : Agree g gi) (v : Nat)
    (hdef : g.InputsDefined = true)
    (hv : (g.GetInstruction v).isSome = true)
    (hin : ∀ index, gi.InputAt v index = g.InputAt v index)
    (hin2 : ∀ y ∈ g.inputsOf v, ∀ index, gi.InputAt y index = g.InputAt y index) :
    VisitIf.candidate gi v = VisitIf.candidate g v := by
  unfold VisitIf.candidate
  simp only [hag.kindIs_eq _ v hv, HGraph.GetLeft, HGraph.GetRight, hin]
  split
  · rfl
  · split
    · rfl
    · cases hl : g.InputAt v 0 with
      | none => rfl
      | some left =>
        cases hr : g.InputAt v 1 with
        | none => rfl
        | some right =>
          simp only
          have hlm := InputAt_mem_inputsOf g v 0 left hl
          have hrm := InputAt_mem_inputsOf g v 1 right hr
          have hle := InputsDefined_isSome g hdef v left hlm
          have hre := InputsDefined_isSome g hdef v right hrm
          rw [pickOperands_congr hag left right hle hre]
          cases hp : VisitIf.pickOperands g left right with
          | none => rfl
          | some p =>
            obtain ⟨var, constant⟩ := p
            simp only
            obtain ⟨hwhich, _⟩ := pickOperands_spec g left right var constant hp
            have hvm : var ∈ g.inputsOf v := by
              rcases hwhich with ⟨h, _⟩ | ⟨h, _⟩ <;> rw [h] <;> assumption
            have hcm : constant ∈ g.inputsOf v := by
              rcases hwhich with ⟨_, h⟩ | ⟨_, h⟩ <;> rw [h] <;> assumption
            have hve := InputsDefined_isSome g hdef v var hvm
            have hce := InputsDefined_isSome g hdef v constant hcm
            simp only [hag.kindIs_eq _ var hve, hag.kindIs_eq _ constant hce, hin2 var hvm]
            split
            · split
              · rfl
              · cases hl2 : g.InputAt var 0 with
                | none => rfl
                | some left2 =>
                  cases hr2 : g.InputAt var 1 with
                  | none => rfl
                  | some right2 =>
                    simp only
                    exact pickOperands_congr hag left2 right2
                      (InputsDefined_isSome g hdef var left2
                        (InputAt_mem_inputsOf g var 0 left2 hl2))
                      (InputsDefined_isSome g hdef var right2
                        (InputAt_mem_inputsOf g var 1 right2 hr2))
            · rfl

/-- What the (var, constant) pair chosen by VisitIf satisfies: `var` is not a
constant and not floating-point, `constant` is a constant, and both are
operands of `v` or of an operand of `v`. -/
theorem candidate_spec (g : HGraph) (v var constant : Nat)
    (h : VisitIf.candidate g v = some (var, constant)) :
    g.IsConstant var = false ∧ g.IsConstant constant = true ∧
    (g.GetType var).IsFloatingPointType = false ∧
    (var ∈ g.inputsOf v ∨ ∃ y ∈ g.inputsOf v, var ∈ g.inputsOf y) := by
  unfold VisitIf.candidate at h
  split at h
  · cases h
  · split at h
    · cases h
    · simp only [HGraph.GetLeft, HGraph.GetRight] at h
      cases hl : g.InputAt v 0 with
      | none => rw [hl] at h; cases h
      | some left =>
        cases hr : g.InputAt v 1 with
        | none => rw [hl, hr] at h; cases h
        | some right =>
          rw [hl, hr] at h
          simp only at h
          have hlm := InputAt_mem_inputsOf g v 0 left hl
          have hrm := InputAt_mem_inputsOf g v 1 right hr
          cases hp : VisitIf.pickOperands g left right with
          | none => rw [hp] at h; cases h
          | some p =>
            obtain ⟨var1, constant1⟩ := p
            rw [hp] at h
            simp only at h
            obtain ⟨hwhich, h1, h2, h3⟩ := pickOperands_spec g left right var1 constant1 hp
            have hvm : var1 ∈ g.inputsOf v := by
              rcases hwhich with ⟨h, _⟩ | ⟨h, _⟩ <;> rw [h] <;> assumption
            split at h
            · split at h
              · cases h
              · cases hl2 : g.InputAt var1 0 with
                | none => rw [hl2] at h; cases h
                | some left2 =>
                  cases hr2 : g.InputAt var1 1 with
                  | none => rw [hl2, hr2] at h; cases h
                  | some right2 =>
                    rw [hl2, hr2] at h
                    simp only at h
                    obtain ⟨hwhich2, h4, h5, h6⟩ :=
                      pickOperands_spec g left2 right2 var constant h
                    refine ⟨h4, h5, h6, Or.inr ⟨var1, hvm, ?_⟩⟩
                    rcases hwhich2 with ⟨h, _⟩ | ⟨h, _⟩ <;> rw [h]
                    · exact InputAt_mem_inputsOf g var1 0 left2 hl2
                    · exact InputAt_mem_inputsOf g var1 1 right2 hr2
            · simp only [Option.some.injEq, Prod.mk.injEq] at h
              obtain ⟨hv1, hc1⟩ := h
              subst hv1 hc1
              exact ⟨h1, h2, h3, Or.inl hvm⟩

theorem IfContext.v_isSome {g : HGraph} {inst v t f tfirst ffirst : Nat}
    (ctx : IfContext g inst v t f tfirst ffirst) : (g.GetInstruction v).isSome = true :=
  InputsDefined_isSome g ctx.inputs_defined inst v (InputAt_mem_inputsOf g inst 0 v ctx.input)

theorem BlockOf_isSome (g : HGraph) (id b : Nat) (h : g.BlockOf id = some b) :
    (g.GetInstruction id).isSome = true := by
  unfold HGraph.BlockOf at h
  cases hi : g.GetInstruction id with
  | none => rw [hi] at h; simp at h
  | some i => rfl

/-- The first half of VisitIf (lines 162-180): on a non-constant condition
`v` both PropagateValue calls succeed, and the graph they leave agrees with
`g`, has the int constants 1 and 0, and differs from `g` exactly in that an
input holding `v` now holds 1 in the region of the true successor and 0 in
the region of the false successor. -/
theorem VisitIf_prefix (g : HGraph) (stats : Option OptimizingCompilerStats)
    (inst v t f tfirst ffirst : Nat) (ctx : IfContext g inst v t f tfirst ffirst)
    (hnc : g.IsConstant v = false) :
    ∃ vis2 c1 c0,
      VisitIf { graph := g, stats := stats } inst = VisitIf.propagateCondition vis2 v t f ∧
      Agree g vis2.graph ∧
      vis2.graph.KindOf c1 = some (InstructionKind.IntConstant 1) ∧
      vis2.graph.KindOf c0 = some (InstructionKind.IntConstant 0) ∧
      (∀ user index, g.InputAt user index = none → vis2.graph.InputAt user index = none) ∧
      (∀ user index x, g.InputAt user index = some x →
        vis2.graph.InputAt user index =
          some (if x = v then
              (if g.inRegion tfirst user = true then c1
                else if g.inRegion ffirst user = true then c0 else v)
            else x)) := by
  have htf := BlockOf_isSome g tfirst t ctx.true_first_block
  have hff := BlockOf_isSome g ffirst f ctx.false_first_block
  obtain ⟨hag1, hin1, hk1⟩ := GetIntConstant_step (g := g) g (Agree.refl g) 1
  generalize hr1 : g.GetIntConstant 1 = r1 at hag1 hin1 hk1
  obtain ⟨vis1, hrun1, hagv1, hnone1, hsome1⟩ :=
    PropagateValue_step (g := g) { graph := r1.1, stats := stats } hag1 t tfirst v r1.2
      ctx.true_first ctx.true_not_entry htf
  obtain ⟨hag0, hin0, hk0⟩ := GetIntConstant_step (g := g) vis1.graph hagv1 0
  generalize hr0 : vis1.graph.GetIntConstant 0 = r0 at hag0 hin0 hk0
  obtain ⟨vis2, hrun2, hagv2, hnone2, hsome2⟩ :=
    PropagateValue_step (g := g) { graph := r0.1, stats := vis1.stats } hag0 f ffirst v r0.2
      ctx.false_first ctx.false_not_entry hff
  have hc1 : vis2.graph.KindOf r1.2 = some (InstructionKind.IntConstant 1) := by
    have hex : (r1.1.GetInstruction r1.2).isSome = true := by
      simp only [HGraph.KindOf] at hk1
      cases h : r1.1.GetInstruction r1.2 with
      | none => rw [h] at hk1; cases hk1
      | some _ => rfl
    have hag12 : Agree r1.1 vis2.graph := by
      have a1 : Agree r1.1 vis1.graph := by
        have := PropagateValue_step (g := r1.1) { graph := r1.1, stats := stats }
          (Agree.refl _) t tfirst v r1.2
          (by rw [hag1.first t ctx.true_not_entry]; exact ctx.true_first)
          (by rw [hag1.entry]; exact ctx.true_not_entry) (hag1.isSome tfirst htf)
        obtain ⟨vis1', hrun1', hag', _⟩ := this
        rw [hrun1] at hrun1'
        cases hrun1'
        exact hag'
      have a2 : Agree vis1.graph r0.1 := by
        rw [← hr0]
        exact (GetIntConstant_step (g := vis1.graph) vis1.graph (Agree.refl _) 0).1
      have a3 : Agree r0.1 vis2.graph := by
        have := PropagateValue_step (g := r0.1) { graph := r0.1, stats := vis1.stats }
          (Agree.refl _) f ffirst v r0.2
          (by rw [hag0.first f ctx.false_not_entry]; exact ctx.false_first)
          (by rw [hag0.entry]; exact ctx.false_not_entry) (hag0.isSome ffirst hff)
        obtain ⟨vis2', hrun2', hag', _⟩ := this
        rw [hrun2] at hrun2'
        cases hrun2'
        exact hag'
      exact (a1.trans a2).trans a3
    rw [hag12.KindOf_eq r1.2 hex, hk1]
  have hc0 : vis2.graph.KindOf r0.2 = some (InstructionKind.IntConstant 0) := by
    have hex : (r0.1.GetInstruction r0.2).isSome = true := by
      simp only [HGraph.KindOf] at hk0
      cases h : r0.1.GetInstruction r0.2 with
      | none => rw [h] at hk0; cases hk0
      | some _ => rfl
    have a3 : Agree r0.1 vis2.graph := by
      have := PropagateValue_step (g := r0.1) { graph := r0.1, stats := vis1.stats }
        (Agree.refl _) f ffirst v r0.2
        (by rw [hag0.first f ctx.false_not_entry]; exact ctx.false_first)
        (by rw [hag0.entry]; exact ctx.false_not_entry) (hag0.isSome ffirst hff)
      obtain ⟨vis2', hrun2', hag', _⟩ := this
      rw [hrun2] at hrun2'
      cases hrun2'
      exact hag'
    rw [a3.KindOf_eq r0.2 hex, hk0]
  have hvk : vis2.graph.KindOf v = g.KindOf v := hagv2.KindOf_eq v ctx.v_isSome
  have hc1v : r1.2 ≠ v := by
    intro h
    rw [h, hvk] at hc1
    simp [HGraph.IsConstant, HGraph.kindIs, hc1, InstructionKind.IsConstant] at hnc
  refine ⟨vis2, r1.2, r0.2, ?_, hagv2, hc1, hc0, ?_, ?_⟩
  · simp only [VisitIf, ctx.input, hnc, ctx.true_successor, ctx.false_successor, hr1, hrun1,
      hr0, hrun2, Bool.false_eq_true, if_false]
  · intro user index hnone
    apply hnone2
    rw [hin0]
    apply hnone1
    simp only
    rw [hin1]
    exact hnone
  · intro user index x hx
    have h1 := hsome1 user index x (by simp only; rw [hin1]; exact hx)
    have h2 := hsome2 user index _ (by simp only; rw [hin0]; exact h1)
    rw [h2]
    by_cases hxv : x = v
    · subst hxv
      by_cases hT : g.inRegion tfirst user = true
      · simp [hT, hc1v]
      · simp [hT]
    · simp [hxv]

theorem isBooleanCase_congr {g gi : HGraph} (hag : Agree g gi) (var constant : Nat)
    (hv : (g.GetInstruction var).isSome = true)
    (hc : (g.GetInstruction constant).isSome = true) :
    VisitIf.isBooleanCase gi var constant = VisitIf.isBooleanCase g var constant := by
  simp only [VisitIf.isBooleanCase, hag.GetType_eq var hv, hag.kindIs_eq _ constant hc]

/-- The second half of VisitIf (lines 182-270) on a graph that agrees with
`g`, when the condition yields the pair (var, constant): the inputs that hold
`var` now hold `constant` in the region of the chosen successor and, in the
boolean case, the negated literal in the region of the other successor. -/
theorem propagateCondition_some {g : HGraph} (vis2 : HConstantFoldingVisitor)
    (hag : Agree g vis2.graph) (inst v t f tfirst ffirst var constant : Nat)
    (ctx : IfContext g inst v t f tfirst ffirst)
    (hcand : VisitIf.candidate vis2.graph v = some (var, constant))
    (hvar : (g.GetInstruction var).isSome = true)
    (hconst : (g.GetInstruction constant).isSome = true)
    (hvc : g.IsConstant var = false) (hcc : g.IsConstant constant = true) :
    ∃ vis' other,
      VisitIf.propagateCondition vis2 v t f = some vis' ∧ Agree g vis'.graph ∧
      (VisitIf.isBooleanCase g var constant = true →
        vis'.graph.KindOf other = some (InstructionKind.IntConstant
          (if g.kindIs (fun k => k = InstructionKind.IntConstant 1) constant then 0 else 1))) ∧
      (∀ user index, vis2.graph.InputAt user index = none →
        vis'.graph.InputAt user index = none) ∧
      (∀ user index x, vis2.graph.InputAt user index = some x →
        vis'.graph.InputAt user index =
          some (if x = var then
              (if g.inRegion (if g.kindIs (fun k => k = InstructionKind.Equal) v
                  then tfirst else ffirst) user = true then constant
                else if VisitIf.isBooleanCase g var constant = true ∧
                    g.inRegion (if g.kindIs (fun k => k = InstructionKind.Equal) v
                      then ffirst else tfirst) user = true then other
                else var)
            else x)) := by
  have htf := BlockOf_isSome g tfirst t ctx.true_first_block
  have hff := BlockOf_isSome g ffirst f ctx.false_first_block
  have hne : constant ≠ var := by
    intro h
    rw [h, hvc] at hcc
    cases hcc
  have hke : vis2.graph.kindIs (fun k => k = InstructionKind.Equal) v =
      g.kindIs (fun k => k = InstructionKind.Equal) v := hag.kindIs_eq _ v ctx.v_isSome
  -- the chosen successor
  have hstep3 : ∃ vis3, PropagateValue vis2
      (if g.kindIs (fun k => k = InstructionKind.Equal) v then t else f) var constant =
        some vis3 ∧ Agree g vis3.graph ∧
      (∀ user index, vis2.graph.InputAt user index = none →
        vis3.graph.InputAt user index = none) ∧
      (∀ user index x, vis2.graph.InputAt user index = some x →
        vis3.graph.InputAt user index =
          some (if x = var ∧ g.inRegion (if g.kindIs (fun k => k = InstructionKind.Equal) v
            then tfirst else ffirst) user = true then constant else x)) := by
    by_cases he : g.kindIs (fun k => k = InstructionKind.Equal) v = true
    · simp only [he, if_true]
      exact PropagateValue_step vis2 hag t tfirst var constant ctx.true_first
        ctx.true_not_entry htf
    · simp only [he, if_false]
      exact PropagateValue_step vis2 hag f ffirst var constant ctx.false_first
        ctx.false_not_entry hff
  obtain ⟨vis3, hrun3, hag3, hnone3, hsome3⟩ := hstep3
  have hbool : VisitIf.isBooleanCase vis3.graph var constant =
      VisitIf.isBooleanCase g var constant := isBooleanCase_congr hag3 var constant hvar hconst
  by_cases hb : VisitIf.isBooleanCase g var constant = true
  · -- the boolean case: one more constant and one more propagation
    have hk1 : vis3.graph.kindIs (fun k => k = InstructionKind.IntConstant 1) constant =
        g.kindIs (fun k => k = InstructionKind.IntConstant 1) constant :=
      hag3.kindIs_eq _ constant hconst
    obtain ⟨hagr, hinr, hkr⟩ := GetIntConstant_step (g := g) vis3.graph hag3
      (if g.kindIs (fun k => k = InstructionKind.IntConstant 1) constant then 0 else 1)
    generalize hr : vis3.graph.GetIntConstant
      (if g.kindIs (fun k => k = InstructionKind.IntConstant 1) constant then 0 else 1) = r
      at hagr hinr hkr
    have hstep4 : ∃ vis4, PropagateValue { vis3 with graph := r.1 }
        (if g.kindIs (fun k => k = InstructionKind.Equal) v then f else t) var r.2 =
          some vis4 ∧ Agree g vis4.graph ∧
        (∀ user index, r.1.InputAt user index = none →
          vis4.graph.InputAt user index = none) ∧
        (∀ user index x, r.1.InputAt user index = some x →
          vis4.graph.InputAt user index =
            some (if x = var ∧ g.inRegion (if g.kindIs (fun k => k = InstructionKind.Equal) v
              then ffirst else tfirst) user = true then r.2 else x)) ∧
        vis4.graph.KindOf r.2 = r.1.KindOf r.2 := by
      have hex : (r.1.GetInstruction r.2).isSome = true := by
        simp only [HGraph.KindOf] at hkr
        cases h : r.1.GetInstruction r.2 with
        | none => rw [h] at hkr; cases hkr
        | some _ => rfl
      by_cases he : g.kindIs (fun k => k = InstructionKind.Equal) v = true
      · simp only [he, if_true]
        obtain ⟨vis4, h1, h2, h3, h4⟩ := PropagateValue_step (g := g)
          { vis3 with graph := r.1 } hagr f ffirst var r.2 ctx.false_first
          ctx.false_not_entry hff
        obtain ⟨vis4', h1', h2', _⟩ := PropagateValue_step (g := r.1)
          { vis3 with graph := r.1 } (Agree.refl _) f ffirst var r.2
          (by rw [hagr.first f ctx.false_not_entry]; exact ctx.false_first)
          (by rw [hagr.entry]; exact ctx.false_not_entry) (hagr.isSome ffirst hff)
        rw [h1] at h1'
        cases h1'
        exact ⟨vis4, h1, h2, h3, h4, h2'.KindOf_eq r.2 hex⟩
      · simp only [he, if_false]
        obtain ⟨vis4, h1, h2, h3, h4⟩ := PropagateValue_step (g := g)
          { vis3 with graph := r.1 } hagr t tfirst var r.2 ctx.true_first
          ctx.true_not_entry htf
        obtain ⟨vis4', h1', h2', _⟩ := PropagateValue_step (g := r.1)
          { vis3 with graph := r.1 } (Agree.refl _) t tfirst var r.2
          (by rw [hagr.first t ctx.true_not_entry]; exact ctx.true_first)
          (by rw [hagr.entry]; exact ctx.true_not_entry) (hagr.isSome tfirst htf)
        rw [h1] at h1'
        cases h1'
        exact ⟨vis4, h1, h2, h3, h4, h2'.KindOf_eq r.2 hex⟩
    obtain ⟨vis4, hrun4, hag4, hnone4, hsome4, hk4⟩ := hstep4
    have hr' : (if g.kindIs (fun k => k = InstructionKind.IntConstant 1) constant = true
        then vis3.graph.GetIntConstant 0 else vis3.graph.GetIntConstant 1) = r := by
      rw [← hr]
      split <;> rfl
    refine ⟨vis4, r.2, ?_, hag4, ?_, ?_, ?_⟩
    · simp only [VisitIf.propagateCondition, hcand, hke, hrun3, hbool, hb, if_true, hk1, hr']
      by_cases he : g.kindIs (fun k => k = InstructionKind.Equal) v = true
      · simp only [he, if_true] at hrun4 ⊢
        exact hrun4
      · simp only [he, if_false] at hrun4 ⊢
        simp only [Bool.not_eq_true] at he
        simp only [he, Bool.false_eq_true, if_false] at hrun4 ⊢
        exact hrun4
    · intro _
      rw [hk4, hkr]
    · intro user index hnone
      apply hnone4
      rw [hinr]
      exact hnone3 user index hnone
    · intro user index x hx
      have h3 := hsome3 user index x hx
      have h4 := hsome4 user index _ (by rw [hinr]; exact h3)
      rw [h4]
      by_cases hxv : x = var
      · subst hxv
        by_cases hS : g.inRegion (if g.kindIs (fun k => k = InstructionKind.Equal) v
            then tfirst else ffirst) user = true
        · simp [hS, hne]
        · simp [hS, hb]
      · simp [hxv]
  · refine ⟨vis3, 0, ?_, hag3, ?_, hnone3, ?_⟩
    · simp only [VisitIf.propagateCondition, hcand, hke, hrun3, hbool, hb, Bool.false_eq_true,
        if_false]
    · intro h
      exact absurd h hb
    · intro user index x hx
      rw [hsome3 user index x hx]
      by_cases hxv : x = var
      · subst hxv
        by_cases hS : g.inRegion (if g.kindIs (fun k => k = InstructionKind.Equal) v
            then tfirst else ffirst) user = true
        · simp [hS]
        · simp [hS, hb]
      · simp [hxv]

theorem mem_inputsOf_ne {g : HGraph} {v y x : Nat} (hv : v ∉ g.inputsOf y)
    (hx : x ∈ g.inputsOf y) : x ≠ v := by
  intro h
  rw [h] at hx
  exact hv hx

theorem PropagateValue_KindOf (vis vis' : HConstantFoldingVisitor) (start var c : Nat)
    (h : PropagateValue vis start var c = some vis') (id : Nat) :
    vis'.graph.KindOf id = vis.graph.KindOf id := by
  unfold PropagateValue at h
  split at h
  · cases h
  · simp only [Option.some.injEq] at h
    subst h
    exact KindOf_ReplaceUsesDominatedBy _ _ _ _ _ _

theorem PropagateValue_isSome (vis vis' : HConstantFoldingVisitor) (start var c : Nat)
    (h : PropagateValue vis start var c = some vis') (id : Nat)
    (hid : (vis.graph.GetInstruction id).isSome = true) :
    (vis'.graph.GetInstruction id).isSome = true := by
  unfold PropagateValue at h
  split at h
  · cases h
  · simp only [Option.some.injEq] at h
    subst h
    exact (Agree_ReplaceUsesDominatedBy _ _ _ _ _).isSome id hid

theorem GetIntConstant_KindOf (g : HGraph) (value : Int) (id : Nat)
    (hid : (g.GetInstruction id).isSome = true) :
    (g.GetIntConstant value).1.KindOf id = g.KindOf id ∧
    ((g.GetIntConstant value).1.GetInstruction id).isSome = true :=
  ⟨(Agree_GetConstantOfKind g (InstructionKind.IntConstant value) DataType.kInt32
      rfl).KindOf_eq id hid,
    (Agree_GetConstantOfKind g (InstructionKind.IntConstant value) DataType.kInt32
      rfl).isSome id hid⟩

theorem propagateCondition_KindOf (vis2 vis' : HConstantFoldingVisitor) (v t f : Nat)
    (h : VisitIf.propagateCondition vis2 v t f = some vis') (id : Nat)
    (hid : (vis2.graph.GetInstruction id).isSome = true) :
    vis'.graph.KindOf id = vis2.graph.KindOf id := by
  unfold VisitIf.propagateCondition at h
  split at h
  · simp only [Option.some.injEq] at h
    subst h
    rfl
  · simp only at h
    split at h
    · cases h
    · next vis3 h3 =>
      have hk3 := PropagateValue_KindOf _ _ _ _ _ h3 id
      have hs3 := PropagateValue_isSome _ _ _ _ _ h3 id hid
      split at h
      · have hk4 := PropagateValue_KindOf _ _ _ _ _ h id
        simp only at hk4
        rw [hk4, ← hk3]
        split
        · exact (GetIntConstant_KindOf vis3.graph 0 id hs3).1
        · exact (GetIntConstant_KindOf vis3.graph 1 id hs3).1
      · simp only [Option.some.injEq] at h
        subst h
        exact hk3

theorem KindOf_isSome (g : HGraph) (id : Nat) (k : InstructionKind)
    (h : g.KindOf id = some k) : (g.GetInstruction id).isSome = true := by
  unfold HGraph.KindOf at h
  cases hi : g.GetInstruction id with
  | none => rw [hi] at h; cases h
  | some _ => rfl

/-- The effect of VisitIf on a non-constant condition `v`, input by input:
an input that holds `v` holds 1 in the region of the true successor and 0 in
the region of the false successor; an input that holds the compared variable
holds the compared constant in the region of the chosen successor (and, in the
boolean case, the negated literal in the other region); every other input is
unchanged. -/
theorem VisitIf_effect (g : HGraph) (stats : Option OptimizingCompilerStats)
    (inst v t f tfirst ffirst : Nat) (ctx : IfContext g inst v t f tfirst ffirst)
    (hnc : g.IsConstant v = false) :
    ∃ vis' c1 c0,
      VisitIf { graph := g, stats := stats } inst = some vis' ∧ Agree g vis'.graph ∧
      vis'.graph.KindOf c1 = some (InstructionKind.IntConstant 1) ∧
      vis'.graph.KindOf c0 = some (InstructionKind.IntConstant 0) ∧
      (∀ user index, g.InputAt user index = none → vis'.graph.InputAt user index = none) ∧
      (∀ user index, g.InputAt user index = some v →
        vis'.graph.InputAt user index =
          some (if g.inRegion tfirst user = true then c1
            else if g.inRegion ffirst user = true then c0 else v)) ∧
      (VisitIf.candidate g v = none →
        ∀ user index x, x ≠ v → g.InputAt user index = some x →
          vis'.graph.InputAt user index = some x) ∧
      (∀ var constant, VisitIf.candidate g v = some (var, constant) →
        ∃ other,
          (VisitIf.isBooleanCase g var constant = true →
            vis'.graph.KindOf other = some (InstructionKind.IntConstant
              (if g.kindIs (fun k => k = InstructionKind.IntConstant 1) constant
                then 0 else 1))) ∧
          ∀ user index x, x ≠ v → g.InputAt user index = some x →
            vis'.graph.InputAt user index =
              some (if x = var then
                  (if g.inRegion (if g.kindIs (fun k => k = InstructionKind.Equal) v
                      then tfirst else ffirst) user = true then constant
                    else if VisitIf.isBooleanCase g var constant = true ∧
                        g.inRegion (if g.kindIs (fun k => k = InstructionKind.Equal) v
                          then ffirst else tfirst) user = true then other
                    else var)
                else x)) := by
  obtain ⟨vis2, c1, c0, hrun, hag2, hk1, hk0, hnone2, hsome2⟩ :=
    VisitIf_prefix g stats inst v t f tfirst ffirst ctx hnc
  have hvs := ctx.v_isSome
  -- the operands of `v`, and their operands, are untouched so far
  have hin : ∀ index, vis2.graph.InputAt v index = g.InputAt v index := by
    intro index
    cases hx : g.InputAt v index with
    | none => exact hnone2 v index hx
    | some x =>
      rw [hsome2 v index x hx]
      have : x ≠ v := mem_inputsOf_ne ctx.no_self_use (InputAt_mem_inputsOf g v index x hx)
      simp [this]
  have hin2 : ∀ y ∈ g.inputsOf v, ∀ index, vis2.graph.InputAt y index = g.InputAt y index := by
    intro y hy index
    cases hx : g.InputAt y index with
    | none => exact hnone2 y index hx
    | some x =>
      rw [hsome2 y index x hx]
      have : x ≠ v :=
        mem_inputsOf_ne (ctx.operands_no_use y hy) (InputAt_mem_inputsOf g y index x hx)
      simp [this]
  have hcand : VisitIf.candidate vis2.graph v = VisitIf.candidate g v :=
    candidate_congr hag2 v ctx.inputs_defined hvs hin hin2
  cases hc : VisitIf.candidate g v with
  | none =>
    refine ⟨vis2, c1, c0, ?_, hag2, hk1, hk0, hnone2, ?_, ?_, ?_⟩
    · rw [hrun]
      simp only [VisitIf.propagateCondition, hcand, hc]
    · intro user index hx
      rw [hsome2 user index v hx]
      simp
    · intro _ user index x hxv hx
      rw [hsome2 user index x hx]
      simp [hxv]
    · intro var constant h
      cases h
  | some p =>
    obtain ⟨var, constant⟩ := p
    obtain ⟨hvc, hcc, _, hwhere⟩ := candidate_spec g v var constant hc
    have hvar : (g.GetInstruction var).isSome = true := by
      rcases hwhere with h | ⟨y, hy, h⟩
      · exact InputsDefined_isSome g ctx.inputs_defined v var h
      · exact InputsDefined_isSome g ctx.inputs_defined y var h
    have hvarv : var ≠ v := by
      rcases hwhere with h | ⟨y, hy, h⟩
      · exact mem_inputsOf_ne ctx.no_self_use h
      · exact mem_inputsOf_ne (ctx.operands_no_use y hy) h
    have hconst : (g.GetInstruction constant).isSome = true := by
      cases h : g.GetInstruction constant with
      | some _ => rfl
      | none => simp [HGraph.IsConstant, HGraph.kindIs, HGraph.KindOf, h] at hcc
    obtain ⟨vis', other, hrun', hag', hother, hnone', hsome'⟩ :=
      propagateCondition_some vis2 hag2 inst v t f tfirst ffirst var constant ctx
        (by rw [hcand, hc]) hvar hconst hvc hcc
    have hk1' : vis'.graph.KindOf c1 = some (InstructionKind.IntConstant 1) := by
      rw [propagateCondition_KindOf vis2 vis' v t f hrun' c1 (KindOf_isSome _ _ _ hk1), hk1]
    have hk0' : vis'.graph.KindOf c0 = some (InstructionKind.IntConstant 0) := by
      rw [propagateCondition_KindOf vis2 vis' v t f hrun' c0 (KindOf_isSome _ _ _ hk0), hk0]
    have hvk2 : vis2.graph.KindOf var = g.KindOf var := hag2.KindOf_eq var hvar
    have hvk : vis2.graph.KindOf v = g.KindOf v := hag2.KindOf_eq v hvs
    have hnotconst : ∀ c k, vis2.graph.KindOf c = some k → k.IsConstant = true → c ≠ var := by
      intro c k hk hkc h
      rw [h, hvk2] at hk
      simp [HGraph.IsConstant, HGraph.kindIs, hk, hkc] at hvc
    refine ⟨vis', c1, c0, by rw [hrun, hrun'], hag', hk1', hk0', ?_, ?_, ?_, ?_⟩
    · intro user index hx
      exact hnone' user index (hnone2 user index hx)
    · intro user index hx
      rw [hsome' user index _ (hsome2 user index v hx)]
      simp only [if_true]
      by_cases hT : g.inRegion tfirst user = true
      · simp [hT, hnotconst c1 _ hk1 rfl]
      · by_cases hF : g.inRegion ffirst user = true
        · simp [hT, hF, hnotconst c0 _ hk0 rfl]
        · simp [hT, hF, Ne.symm hvarv]
    · intro h
      cases h
    · intro var' constant' h
      simp only [Option.some.injEq, Prod.mk.injEq] at h
      obtain ⟨h1, h2⟩ := h
      subst h1 h2
      refine ⟨other, hother, ?_⟩
      intro user index x hxv hx
      rw [hsome' user index _ (hsome2 user index x hx)]
      simp [hxv]

/-! ## Dominance is a tree order -/

theorem mem_successorsAvoiding (g : HGraph) (a u w : Nat) :
    w ∈ g.successorsAvoiding a u ↔ u ≠ a ∧ w ∈ g.successorsOf u ∧ w ≠ a := by
  unfold HGraph.successorsAvoiding
  by_cases h : u = a
  · simp [h]
  · simp [h, List.mem_filter]

theorem avoiding_of_avoiding_both (g : HGraph) (a b x : Nat) :
    ∀ z, Relation.ReflTransGen (fun u w => w ∈ g.successorsOf u ∧ w ≠ a ∧ w ≠ b) z x →
      z ≠ a → Reach (g.successorsAvoiding a) z x := by
  intro z h
  induction h using Relation.ReflTransGen.head_induction_on with
  | refl => intro _; exact Relation.ReflTransGen.refl
  | head hstep _ ih =>
    intro hz
    exact Relation.ReflTransGen.head ((mem_successorsAvoiding g a _ _).mpr
      ⟨hz, hstep.1, hstep.2.1⟩) (ih hstep.2.1)

theorem last_occurrence (g : HGraph) (a b x : Nat) :
    ∀ y, Reach g.successorsOf y x →
      Relation.ReflTransGen (fun u w => w ∈ g.successorsOf u ∧ w ≠ a ∧ w ≠ b) y x ∨
      Relation.ReflTransGen (fun u w => w ∈ g.successorsOf u ∧ w ≠ a ∧ w ≠ b) a x ∨
      Relation.ReflTransGen (fun u w => w ∈ g.successorsOf u ∧ w ≠ a ∧ w ≠ b) b x := by
  intro y h
  induction h using Relation.ReflTransGen.head_induction_on with
  | refl => exact Or.inl Relation.ReflTransGen.refl
  | @head y y' hstep _ ih =>
    rcases ih with h | h | h
    · by_cases ha : y' = a
      · subst ha; exact Or.inr (Or.inl h)
      · by_cases hb : y' = b
        · subst hb; exact Or.inr (Or.inr h)
        · exact Or.inl (Relation.ReflTransGen.head ⟨hstep, ha, hb⟩ h)
    · exact Or.inr (Or.inl h)
    · exact Or.inr (Or.inr h)

theorem avoiding_both_symm (g : HGraph) (a b z x : Nat)
    (h : Relation.ReflTransGen (fun u w => w ∈ g.successorsOf u ∧ w ≠ a ∧ w ≠ b) z x) :
    Relation.ReflTransGen (fun u w => w ∈ g.successorsOf u ∧ w ≠ b ∧ w ≠ a) z x :=
  Relation.ReflTransGen.mono (fun _ _ hs => ⟨hs.1, hs.2.2, hs.2.1⟩) h

theorem Reach_avoiding_start (g : HGraph) (a x : Nat)
    (h : Reach (g.successorsAvoiding a) a x) : x = a := by
  induction h with
  | refl => rfl
  | tail _ hstep ih =>
    have := (mem_successorsAvoiding g a _ _).mp hstep
    exact absurd ih this.1

/-- Dominators of a reachable block are comparable: of two blocks that both
dominate it, one dominates the other. -/
theorem dominators_comparable (g : HGraph) (a b x : Nat) (hx : g.Reachable x)
    (ha : g.Dominates a x = true) (hb : g.Dominates b x = true) :
    g.Dominates a b = true ∨ g.Dominates b a = true := by
  by_contra hcon
  rw [not_or] at hcon
  obtain ⟨hab, hba⟩ := hcon
  rw [Dominates_iff] at hab hba ha hb
  rw [not_or, not_not] at hab hba
  obtain ⟨hne, hpab⟩ := hab
  obtain ⟨_, hpba⟩ := hba
  have hax : a ≠ x := by
    intro h
    subst h
    rcases hb with h | h
    · exact hne h.symm
    · exact h hpba
  have hbx : b ≠ x := by
    intro h
    subst h
    rcases ha with h | h
    · exact hne h
    · exact h hpab
  have hna : ¬ Reach (g.successorsAvoiding a) g.entry_block x := by
    rcases ha with h | h
    · exact absurd h hax
    · exact h
  have hnb : ¬ Reach (g.successorsAvoiding b) g.entry_block x := by
    rcases hb with h | h
    · exact absurd h hbx
    · exact h
  have hea : g.entry_block ≠ a := by
    intro h
    rw [h] at hpab
    exact hne (Reach_avoiding_start g a b hpab).symm
  rcases last_occurrence g a b x g.entry_block hx with h | h | h
  · exact hna (avoiding_of_avoiding_both g a b x _ h hea)
  · exact hnb (Relation.ReflTransGen.trans hpba
      (avoiding_of_avoiding_both g b a x a (avoiding_both_symm g a b a x h) hne))
  · exact hna (Relation.ReflTransGen.trans hpab
      (avoiding_of_avoiding_both g a b x b h (Ne.symm hne)))

theorem inRegion_Dominates (g : HGraph) (d user b x : Nat) (hd : g.BlockOf d = some b)
    (hu : g.BlockOf user = some x) (h : g.inRegion d user = true) :
    g.Dominates b x = true := by
  simp only [HGraph.inRegion, HGraph.InstructionDominates, Bool.and_eq_true, Bool.or_eq_true,
    beq_iff_eq] at h
  rcases h.2 with h | h
  · subst h
    rw [hd] at hu
    cases hu
    simp [HGraph.Dominates]
  · unfold HGraph.StrictlyDominates at h
    split at h
    · cases h
    · simp only [hd, hu] at h
      split at h
      · exact h
      · next hbx =>
        simp only [ne_eq, not_not] at hbx
        subst hbx
        simp [HGraph.Dominates]

/-- The regions of the two successors of an If are disjoint when neither
successor dominates the other (the consistency check of VisitIf). -/
theorem regions_disjoint (g : HGraph) (t f tfirst ffirst user x : Nat)
    (ht : g.BlockOf tfirst = some t) (hf : g.BlockOf ffirst = some f)
    (hu : g.BlockOf user = some x) (hx : g.Reachable x)
    (htf : g.Dominates t f = false) (hft : g.Dominates f t = false)
    (hT : g.inRegion tfirst user = true) (hF : g.inRegion ffirst user = true) : False := by
  rcases dominators_comparable g t f x hx (inRegion_Dominates g tfirst user t x ht hu hT)
    (inRegion_Dominates g ffirst user f x hf hu hF) with h | h
  · rw [h] at htf; cases htf
  · rw [h] at hft; cases hft

/-! ## Branch-value propagation: the claims -/

theorem inRegion_of_Dominates (g : HGraph) (d user b x : Nat) (hd : g.BlockOf d = some b)
    (hu : g.BlockOf user = some x) (hbx : x ≠ b) (h : g.Dominates b x = true) :
    g.inRegion d user = true := by
  have hne : d ≠ user := by
    intro h
    subst h
    rw [hd] at hu
    cases hu
    exact hbx rfl
  simp only [HGraph.inRegion, hu, Option.isSome_some, Bool.true_and, HGraph.InstructionDominates,
    HGraph.StrictlyDominates, hne, hd, if_false, Bool.or_eq_true, beq_iff_eq, false_or]
  simp [Ne.symm hbx, h]

/-- C7: for an If on a non-constant condition `v`, after VisitIf every use of
`v` dominated by the first instruction of the true successor refers to the int
constant 1 and every use dominated by the first instruction of the false
successor refers to the int constant 0, in every block the successor
dominates; an If on a constant is left unchanged. -/
theorem VisitIf_propagates_branch_value (g : HGraph) (stats : Option OptimizingCompilerStats)
    (inst v t f tfirst ffirst : Nat) (ctx : IfContext g inst v t f tfirst ffirst)
    (htf : g.Dominates t f = false) (hft : g.Dominates f t = false) :
    (g.IsConstant v = false →
      ∃ vis' c1 c0,
        VisitIf { graph := g, stats := stats } inst = some vis' ∧
        vis'.graph.KindOf c1 = some (InstructionKind.IntConstant 1) ∧
        vis'.graph.KindOf c0 = some (InstructionKind.IntConstant 0) ∧
        (∀ user index, g.IsUse v user index → g.InstructionDominates tfirst user = true →
          vis'.graph.InputAt user index = some c1) ∧
        (∀ user index x, g.IsUse v user index → g.BlockOf user = some x → g.Reachable x →
          g.InstructionDominates ffirst user = true →
          vis'.graph.InputAt user index = some c0) ∧
        (∀ user index x, g.IsUse v user index → g.BlockOf user = some x → x ≠ t →
          g.Dominates t x = true → vis'.graph.InputAt user index = some c1) ∧
        (∀ user index x, g.IsUse v user index → g.BlockOf user = some x → g.Reachable x →
          x ≠ f → g.Dominates f x = true → vis'.graph.InputAt user index = some c0)) ∧
    (g.IsConstant v = true →
      VisitIf { graph := g, stats := stats } inst = some { graph := g, stats := stats }) := by
  constructor
  · intro hnc
    obtain ⟨vis', c1, c0, hrun, _, hk1, hk0, _, hv, _, _⟩ :=
      VisitIf_effect g stats inst v t f tfirst ffirst ctx hnc
    have hT : ∀ user index, g.IsUse v user index → g.inRegion tfirst user = true →
        vis'.graph.InputAt user index = some c1 := by
      intro user index hu hr
      rw [hv user index hu.2]
      simp [hr]
    have hF : ∀ user index x, g.IsUse v user index → g.BlockOf user = some x →
        g.Reachable x → g.inRegion ffirst user = true →
        vis'.graph.InputAt user index = some c0 := by
      intro user index x hu hb hx hr
      rw [hv user index hu.2]
      have hnT : ¬ g.inRegion tfirst user = true := fun hT =>
        regions_disjoint g t f tfirst ffirst user x ctx.true_first_block ctx.false_first_block
          hb hx htf hft hT hr
      simp [hnT, hr]
    refine ⟨vis', c1, c0, hrun, hk1, hk0, ?_, ?_, ?_, ?_⟩
    · intro user index hu hd
      exact hT user index hu (by simp [HGraph.inRegion, hu.1, hd])
    · intro user index x hu hb hx hd
      exact hF user index x hu hb hx (by simp [HGraph.inRegion, hu.1, hd])
    · intro user index x hu hb hxt hd
      exact hT user index hu (inRegion_of_Dominates g tfirst user t x ctx.true_first_block hb hxt hd)
    · intro user index x hu hb hx hxf hd
      exact hF user index x hu hb hx
        (inRegion_of_Dominates g ffirst user f x ctx.false_first_block hb hxf hd)
  · intro hc
    simp [VisitIf, ctx.input, hc]

theorem exampleEqualIf_context : IfContext exampleEqualIf 4 3 2 3 5 7 where
  input := rfl
  true_successor := rfl
  false_successor := rfl
  true_first := rfl
  false_first := rfl
  true_first_block := rfl
  false_first_block := rfl
  true_not_entry := by decide
  false_not_entry := by decide
  inputs_defined := rfl
  no_self_use := by decide
  operands_no_use := by decide

theorem VisitIf_propagates_branch_value_witness :
    IfContext exampleEqualIf 4 3 2 3 5 7 ∧
    exampleEqualIf.Dominates 2 3 = false ∧ exampleEqualIf.Dominates 3 2 = false ∧
    exampleEqualIf.IsConstant 3 = false ∧
    ∃ vis' c1 c0,
      VisitIf { graph := exampleEqualIf, stats := none } 4 = some vis' ∧
      vis'.graph.KindOf c1 = some (InstructionKind.IntConstant 1) ∧
      vis'.graph.KindOf c0 = some (InstructionKind.IntConstant 0) ∧
      (∀ user index, exampleEqualIf.IsUse 3 user index →
        exampleEqualIf.InstructionDominates 5 user = true →
        vis'.graph.InputAt user index = some c1) ∧
      (∀ user index x, exampleEqualIf.IsUse 3 user index →
        exampleEqualIf.BlockOf user = some x → exampleEqualIf.Reachable x →
        exampleEqualIf.InstructionDominates 7 user = true →
        vis'.graph.InputAt user index = some c0) ∧
      (∀ user index x, exampleEqualIf.IsUse 3 user index →
        exampleEqualIf.BlockOf user = some x → x ≠ 2 →
        exampleEqualIf.Dominates 2 x = true → vis'.graph.InputAt user index = some c1) ∧
      (∀ user index x, exampleEqualIf.IsUse 3 user index →
        exampleEqualIf.BlockOf user = some x → exampleEqualIf.Reachable x →
        x ≠ 3 → exampleEqualIf.Dominates 3 x = true →
        vis'.graph.InputAt user index = some c0) :=
  ⟨exampleEqualIf_context, by decide, by decide, rfl,
    (VisitIf_propagates_branch_value exampleEqualIf none 4 3 2 3 5 7 exampleEqualIf_context
      (by decide) (by decide)).1 rfl⟩

theorem SuccessorsArePredecessors_spec (g : HGraph) (h : g.SuccessorsArePredecessors = true)
    (x s : Nat) (hs : s ∈ g.successorsOf x) : x ∈ g.predecessorsOf s := by
  have hx : x < g.blocks.length := by
    by_contra hge
    have : g.GetBlock x = none := by
      unfold HGraph.GetBlock
      rw [List.getD_eq_getElem?_getD, List.getElem?_eq_none (by omega)]
      rfl
    simp [HGraph.successorsOf, this] at hs
  unfold HGraph.SuccessorsArePredecessors at h
  rw [List.all_eq_true] at h
  have h1 := h x (List.mem_range.mpr hx)
  rw [List.all_eq_true] at h1
  simpa using h1 s hs

/-- A block whose only predecessor is the reachable block `b`, and that is
not the entry block, does not dominate `b`. -/
theorem not_Dominates_of_single_predecessor (g : HGraph)
    (hcons : g.SuccessorsArePredecessors = true) (s b : Nat)
    (hp : g.predecessorsOf s = [b]) (hs : s ≠ g.entry_block) (hb : g.Reachable b) :
    g.Dominates s b = false := by
  have hstart : ∀ e, Reach (g.successorsAvoiding s) e s → s = e := by
    intro e h
    cases h with
    | refl => rfl
    | tail _ hstep => exact absurd rfl ((mem_successorsAvoiding g s _ _).mp hstep).2.2
  have key : ∀ y, Reach g.successorsOf g.entry_block y →
      Reach (g.successorsAvoiding s) g.entry_block y ∨
      Reach (g.successorsAvoiding s) g.entry_block b := by
    intro y h
    induction h with
    | refl => exact Or.inl Relation.ReflTransGen.refl
    | @tail y z _ hstep ih =>
      rcases ih with h | h
      · by_cases hz : z = s
        · subst hz
          have := SuccessorsArePredecessors_spec g hcons y z hstep
          rw [hp] at this
          simp only [List.mem_singleton] at this
          subst this
          exact Or.inr h
        · have hy : y ≠ s := fun hys => by
            subst hys
            exact hs (hstart _ h)
          exact Or.inl (Relation.ReflTransGen.tail h
            ((mem_successorsAvoiding g s y z).mpr ⟨hy, hstep, hz⟩))
      · exact Or.inr h
  have hpath : Reach (g.successorsAvoiding s) g.entry_block b := by
    rcases key b hb with h | h <;> exact h
  have hne : s ≠ b := fun h => by
    subst h
    exact hs (hstart _ hpath)
  cases hd : g.Dominates s b with
  | false => rfl
  | true =>
    rcases (Dominates_iff g s b).mp hd with h | h
    · exact absurd h hne
    · exact absurd hpath h

theorem IsUse_NumUses (g : HGraph) (v user index : Nat) (h : g.IsUse v user index) :
    1 ≤ g.NumUses v := by
  obtain ⟨hb, hin⟩ := h
  unfold HGraph.BlockOf at hb
  unfold HGraph.InputAt at hin
  cases hu : g.GetInstruction user with
  | none => rw [hu] at hb; simp at hb
  | some u =>
    rw [hu] at hb hin
    simp only [Option.some_bind] at hb hin
    have hmem : u ∈ g.instructions.filter (fun u => u.block.isSome) :=
      List.mem_filter.mpr ⟨List.getElem?_mem hu, hb⟩
    have hcount : 1 ≤ u.inputs.count v :=
      List.count_pos_iff.mpr (List.getElem?_mem hin)
    unfold HGraph.NumUses
    have hle : u.inputs.count v ≤
        ((g.instructions.filter (fun u => u.block.isSome)).map
          (fun u => u.inputs.count v)).sum :=
      List.single_le_sum (fun _ _ => Nat.zero_le _) _
        (List.mem_map.mpr ⟨u, hmem, rfl⟩)
    omega

/-- C8: for a reachable If block whose two successors each have that block
as their only predecessor, VisitIf rewrites no use located in the If's block:
the If still has the condition `v` as its input, every input of every
instruction of the block is unchanged, and `v` keeps at least one use. -/
theorem VisitIf_keeps_uses_in_branch_block (g : HGraph)
    (stats : Option OptimizingCompilerStats) (inst v t f tfirst ffirst b : Nat)
    (ctx : IfContext g inst v t f tfirst ffirst)
    (hb : g.BlockOf inst = some b) (hreach : g.Reachable b)
    (hcons : g.SuccessorsArePredecessors = true)
    (hpt : g.predecessorsOf t = [b]) (hpf : g.predecessorsOf f = [b]) :
    ∃ vis', VisitIf { graph := g, stats := stats } inst = some vis' ∧
      vis'.graph.InputAt inst 0 = some v ∧
      (∀ user index, g.BlockOf user = some b →
        vis'.graph.InputAt user index = g.InputAt user index) ∧
      vis'.graph.IsUse v inst 0 ∧ 1 ≤ vis'.graph.NumUses v := by
  have hdt := not_Dominates_of_single_predecessor g hcons t b hpt ctx.true_not_entry hreach
  have hdf := not_Dominates_of_single_predecessor g hcons f b hpf ctx.false_not_entry hreach
  have hnT : ∀ user, g.BlockOf user = some b → ¬ g.inRegion tfirst user = true := by
    intro user hu h
    rw [inRegion_Dominates g tfirst user t b ctx.true_first_block hu h] at hdt
    cases hdt
  have hnF : ∀ user, g.BlockOf user = some b → ¬ g.inRegion ffirst user = true := by
    intro user hu h
    rw [inRegion_Dominates g ffirst user f b ctx.false_first_block hu h] at hdf
    cases hdf
  have hmain : ∃ vis', VisitIf { graph := g, stats := stats } inst = some vis' ∧
      (∀ id, g.BlockOf id = some b → vis'.graph.BlockOf id = some b) ∧
      (∀ user index, g.BlockOf user = some b →
        vis'.graph.InputAt user index = g.InputAt user index) := by
    cases hnc : g.IsConstant v with
    | true =>
      exact ⟨{ graph := g, stats := stats }, by simp [VisitIf, ctx.input, hnc],
        fun _ h => h, fun _ _ _ => rfl⟩
    | false =>
      obtain ⟨vis', c1, c0, hrun, hag, _, _, hnone, hv, hcnone, hcsome⟩ :=
        VisitIf_effect g stats inst v t f tfirst ffirst ctx hnc
      refine ⟨vis', hrun, ?_, ?_⟩
      · intro id hid
        unfold HGraph.BlockOf at hid ⊢
        cases hi : g.GetInstruction id with
        | none => rw [hi] at hid; simp at hid
        | some i =>
          obtain ⟨i', hi', _, _, hbl, _⟩ := hag.inst id i hi
          rw [hi] at hid
          simp only [Option.some_bind] at hid
          simp [hi', hbl, hid]
      · intro user index hu
        cases hx : g.InputAt user index with
        | none => exact hnone user index hx
        | some x =>
          by_cases hxv : x = v
          · subst hxv
            rw [hv user index hx]
            simp [hnT user hu, hnF user hu]
          · cases hc : VisitIf.candidate g v with
            | none => exact hcnone hc user index x hxv hx
            | some p =>
              obtain ⟨var, constant⟩ := p
              obtain ⟨other, _, hsome⟩ := hcsome var constant hc
              rw [hsome user index x hxv hx]
              have h1 := hnT user hu
              have h2 := hnF user hu
              simp only [Bool.not_eq_true] at h1 h2
              cases he : g.kindIs (fun k => k = InstructionKind.Equal) v <;>
                simp [h1, h2] <;> exact fun h => h.symm
  obtain ⟨vis', hrun, hblk, hin⟩ := hmain
  have h0 : vis'.graph.InputAt inst 0 = some v := by
    rw [hin inst 0 hb, ctx.input]
  have huse : vis'.graph.IsUse v inst 0 := ⟨by rw [hblk inst hb]; rfl, h0⟩
  exact ⟨vis', hrun, h0, hin, huse, IsUse_NumUses _ _ _ _ huse⟩

theorem VisitIf_keeps_uses_in_branch_block_witness :
    IfContext exampleEqualIf 4 3 2 3 5 7 ∧ exampleEqualIf.BlockOf 4 = some 1 ∧
    exampleEqualIf.Reachable 1 ∧ exampleEqualIf.SuccessorsArePredecessors = true ∧
    exampleEqualIf.predecessorsOf 2 = [1] ∧ exampleEqualIf.predecessorsOf 3 = [1] ∧
    ∃ vis', VisitIf { graph := exampleEqualIf, stats := some [] } 4 = some vis' ∧
      vis'.graph.InputAt 4 0 = some 3 ∧
      (∀ user index, exampleEqualIf.BlockOf user = some 1 →
        vis'.graph.InputAt user index = exampleEqualIf.InputAt user index) ∧
      vis'.graph.IsUse 3 4 0 ∧ 1 ≤ vis'.graph.NumUses 3 :=
  have hreach : exampleEqualIf.Reachable 1 :=
    Relation.ReflTransGen.tail Relation.ReflTransGen.refl (by decide)
  ⟨exampleEqualIf_context, rfl, hreach, by decide, rfl, rfl,
    VisitIf_keeps_uses_in_branch_block exampleEqualIf (some []) 4 3 2 3 5 7 1
      exampleEqualIf_context rfl hreach (by decide) rfl rfl⟩

theorem exampleCompareIf_context : IfContext exampleCompareIf 6 5 2 3 7 9 where
  input := rfl
  true_successor := rfl
  false_successor := rfl
  true_first := rfl
  false_first := rfl
  true_first_block := rfl
  false_first_block := rfl
  true_not_entry := by decide
  false_not_entry := by decide
  inputs_defined := rfl
  no_self_use := by decide
  operands_no_use := by decide

/-- C9 (counterexample): in `If(Equal(x, 0))` with `x = Compare(a, b)`, the
variable `x` (instruction 4) is not a constant and not floating-point and `0`
(instruction 2) is a constant, yet the use of `x` in the true successor still
refers to `x`, not to the constant, after VisitIf. -/
theorem VisitIf_does_not_replace_Compare_operand :
    IfContext exampleCompareIf 6 5 2 3 7 9 ∧
    exampleCompareIf.KindOf 5 = some InstructionKind.Equal ∧
    exampleCompareIf.InputAt 5 0 = some 4 ∧ exampleCompareIf.InputAt 5 1 = some 2 ∧
    exampleCompareIf.IsConstant 2 = true ∧ exampleCompareIf.IsConstant 4 = false ∧
    (exampleCompareIf.GetType 4).IsFloatingPointType = false ∧
    exampleCompareIf.IsUse 4 7 0 ∧ exampleCompareIf.InstructionDominates 7 7 = true ∧
    (VisitIf { graph := exampleCompareIf, stats := none } 6).map
      (fun vis => vis.graph.InputAt 7 0) = some (some 4) ∧
    (VisitIf { graph := exampleCompareIf, stats := none } 6).map
      (fun vis => vis.graph.InputAt 7 0) ≠ some (some 2) :=
  ⟨exampleCompareIf_context, rfl, rfl, rfl, rfl, rfl, rfl, ⟨rfl, rfl⟩, rfl, by decide,
    by decide⟩

theorem candidate_direct (g : HGraph) (v x c : Nat)
    (hkind : g.KindOf v = some InstructionKind.Equal ∨
      g.KindOf v = some InstructionKind.NotEqual)
    (hops : (g.InputAt v 0 = some x ∧ g.InputAt v 1 = some c) ∨
      (g.InputAt v 0 = some c ∧ g.InputAt v 1 = some x))
    (hc : g.IsConstant c = true) (hx : g.IsConstant x = false)
    (hfl : (g.GetType x).IsFloatingPointType = false)
    (hcmp : g.kindIs (fun k => k = InstructionKind.Compare true ∨
      k = InstructionKind.Compare false) x = false) :
    VisitIf.candidate g v = some (x, c) := by
  have h1 : g.kindIs InstructionKind.IsCondition v = true := by
    rcases hkind with h | h <;> simp [HGraph.kindIs, h, InstructionKind.IsCondition]
  have h2 : (!g.kindIs (fun k => k = InstructionKind.Equal) v &&
      !g.kindIs (fun k => k = InstructionKind.NotEqual) v) = false := by
    rcases hkind with h | h <;> simp [HGraph.kindIs, h]
  unfold VisitIf.candidate
  simp only [h1, h2, Bool.not_true, Bool.false_eq_true, if_false, HGraph.GetLeft,
    HGraph.GetRight]
  rcases hops with ⟨hl, hr⟩ | ⟨hl, hr⟩
  · have hp : VisitIf.pickOperands g x c = some (x, c) := by
      simp [VisitIf.pickOperands, hc, hx, hfl]
    simp only [hl, hr, hp, hcmp, Bool.false_eq_true, if_false]
  · have hp : VisitIf.pickOperands g c x = some (x, c) := by
      simp [VisitIf.pickOperands, hc, hx, hfl]
    simp only [hl, hr, hp, hcmp, Bool.false_eq_true, if_false]

theorem candidate_same_constness (g : HGraph) (v left right : Nat)
    (hl : g.InputAt v 0 = some left) (hr : g.InputAt v 1 = some right)
    (h : g.IsConstant left = g.IsConstant right) : VisitIf.candidate g v = none := by
  unfold VisitIf.candidate
  split
  · rfl
  · split
    · rfl
    · simp only [HGraph.GetLeft, HGraph.GetRight, hl, hr]
      have : VisitIf.pickOperands g left right = none := by
        simp [VisitIf.pickOperands, h]
      simp only [this]


theorem Dominates_self (g : HGraph) (a : Nat) : g.Dominates a a = true := by
  simp [HGraph.Dominates]

/-- C9 (amended): for an If on `Equal(x, c)` or `NotEqual(x, c)` in which
exactly one operand `c` is a constant and `x` is neither floating-point nor a
Compare, VisitIf replaces the uses of `x` dominated by the true successor
(Equal) or by the false successor (NotEqual) with `c`, never substitutes `c`
for `x` in the region of the other successor, and `x = c` holds at run time
whenever control enters the chosen successor; when both operands or neither
operand is a constant, no use of an operand is rewritten. -/
theorem VisitIf_propagates_compared_constant (g : HGraph)
    (stats : Option OptimizingCompilerStats) (inst v t f tfirst ffirst : Nat)
    (ctx : IfContext g inst v t f tfirst ffirst)
    (htf : g.Dominates t f = false) (hft : g.Dominates f t = false)
    (k : InstructionKind) (hk : g.KindOf v = some k)
    (hkind : k = InstructionKind.Equal ∨ k = InstructionKind.NotEqual) :
    (∀ x c,
      ((g.InputAt v 0 = some x ∧ g.InputAt v 1 = some c) ∨
        (g.InputAt v 0 = some c ∧ g.InputAt v 1 = some x)) →
      g.IsConstant c = true → g.IsConstant x = false →
      (g.GetType x).IsFloatingPointType = false →
      g.kindIs (fun k => k = InstructionKind.Compare true ∨
        k = InstructionKind.Compare false) x = false →
      ∃ vis', VisitIf { graph := g, stats := stats } inst = some vis' ∧
        (∀ user index, g.IsUse x user index →
          g.InstructionDominates (if k = InstructionKind.Equal then tfirst else ffirst) user
            = true →
          vis'.graph.InputAt user index = some c) ∧
        (∀ user index b, g.IsUse x user index → g.BlockOf user = some b → g.Reachable b →
          g.InstructionDominates (if k = InstructionKind.Equal then ffirst else tfirst) user
            = true →
          vis'.graph.InputAt user index ≠ some c) ∧
        (∀ (xval cval : Int) (cond : Bool),
          (evalEquality k xval cval = some cond ∨ evalEquality k cval xval = some cond) →
          takenSuccessor cond t f = (if k = InstructionKind.Equal then t else f) →
          xval = cval)) ∧
    (∀ left right, g.InputAt v 0 = some left → g.InputAt v 1 = some right →
      g.IsConstant left = g.IsConstant right →
      ∃ vis', VisitIf { graph := g, stats := stats } inst = some vis' ∧
        ∀ user index y, y ≠ v → g.InputAt user index = some y →
          vis'.graph.InputAt user index = some y) := by
  have hnc : g.IsConstant v = false := by
    rcases hkind with h | h <;> subst h <;>
      simp [HGraph.IsConstant, HGraph.kindIs, hk, InstructionKind.IsConstant]
  have hne : t ≠ f := by
    intro h
    rw [h, Dominates_self] at htf
    cases htf
  obtain ⟨vis', c1, c0, hrun, hag, _, _, _, _, hcnone, hcsome⟩ :=
    VisitIf_effect g stats inst v t f tfirst ffirst ctx hnc
  have hke : g.kindIs (fun k => k = InstructionKind.Equal) v = decide (k = InstructionKind.Equal) := by
    simp [HGraph.kindIs, hk]
  constructor
  · intro x c hops hc hx hfl hcmp
    have hcand := candidate_direct g v x c (by rcases hkind with h | h <;> subst h <;> simp [hk])
      hops hc hx hfl hcmp
    obtain ⟨other, hother, hsome⟩ := hcsome x c hcand
    have hxm : x ∈ g.inputsOf v := by
      rcases hops with ⟨h, _⟩ | ⟨_, h⟩ <;> exact InputAt_mem_inputsOf g v _ x h
    have hxv : x ≠ v := mem_inputsOf_ne ctx.no_self_use hxm
    have hcx : c ≠ x := by
      intro h
      rw [h, hx] at hc
      cases hc
    have hce : (g.GetInstruction c).isSome = true := by
      cases h : g.GetInstruction c with
      | some _ => rfl
      | none => simp [HGraph.IsConstant, HGraph.kindIs, HGraph.KindOf, h] at hc
    refine ⟨vis', hrun, ?_, ?_, ?_⟩
    · intro user index hu hd
      rw [hsome user index x hxv hu.2]
      have hr : g.inRegion (if k = InstructionKind.Equal then tfirst else ffirst) user = true := by
        simp [HGraph.inRegion, hu.1, hd]
      simp only [hke, decide_eq_true_eq, if_true, hr]
    · intro user index b hu hb hreach hd
      rw [hsome user index x hxv hu.2]
      have hO : g.inRegion (if k = InstructionKind.Equal then ffirst else tfirst) user = true := by
        simp [HGraph.inRegion, hu.1, hd]
      have hS : ¬ g.inRegion (if k = InstructionKind.Equal then tfirst else ffirst) user = true := by
        intro hS
        by_cases he : k = InstructionKind.Equal
        · simp only [he, if_true] at hO hS
          exact regions_disjoint g t f tfirst ffirst user b ctx.true_first_block
            ctx.false_first_block hb hreach htf hft hS hO
        · simp only [he, if_false] at hO hS
          exact regions_disjoint g t f tfirst ffirst user b ctx.true_first_block
            ctx.false_first_block hb hreach htf hft hO hS
      have hval : (if x = x then
            (if g.inRegion (if g.kindIs (fun k => k = InstructionKind.Equal) v
                then tfirst else ffirst) user = true then c
              else if VisitIf.isBooleanCase g x c = true ∧
                  g.inRegion (if g.kindIs (fun k => k = InstructionKind.Equal) v
                    then ffirst else tfirst) user = true then other
              else x)
          else x) = if VisitIf.isBooleanCase g x c = true then other else x := by
        simp only [hke, decide_eq_true_eq] at hS hO ⊢
        rw [if_pos trivial, if_neg hS]
        by_cases hbool : VisitIf.isBooleanCase g x c = true
        · rw [if_pos ⟨hbool, hO⟩, if_pos hbool]
        · rw [if_neg (fun h => hbool h.1), if_neg hbool]
      rw [hval]
      by_cases hbool : VisitIf.isBooleanCase g x c = true
      · rw [if_pos hbool]
        intro hoc
        have hoc' : other = c := Option.some.inj hoc
        have hko := hother hbool
        rw [hoc', hag.KindOf_eq c hce] at hko
        simp only [VisitIf.isBooleanCase, Bool.and_eq_true, Bool.or_eq_true] at hbool
        by_cases h1 : g.kindIs (fun k => k = InstructionKind.IntConstant 1) c = true
        · simp only [h1, if_true] at hko
          simp [HGraph.kindIs, hko] at h1
        · simp only [h1, if_false] at hko
          rcases hbool.2 with h | h
          · exact h1 h
          · simp [HGraph.kindIs, hko] at h
      · rw [if_neg hbool]
        intro h
        exact hcx (Option.some.inj h).symm
    · intro xval cval cond hev htaken
      unfold takenSuccessor at htaken
      rcases hkind with h | h <;> subst h
      · simp only [evalEquality, Option.some.injEq, if_true] at hev htaken
        cases cond with
        | true => rcases hev with h | h <;> simp at h <;> simp [h]
        | false => simp at htaken; exact absurd htaken.symm hne
      · simp only [evalEquality, Option.some.injEq, reduceCtorEq, if_false] at hev htaken
        cases cond with
        | false => rcases hev with h | h <;> simp at h <;> simp [h]
        | true => simp at htaken; exact absurd htaken hne
  · intro left right hl hr hsame
    exact ⟨vis', hrun, hcnone (candidate_same_constness g v left right hl hr hsame)⟩

theorem VisitIf_propagates_compared_constant_witness :
    IfContext exampleEqualIf 4 3 2 3 5 7 ∧
    exampleEqualIf.Dominates 2 3 = false ∧ exampleEqualIf.Dominates 3 2 = false ∧
    exampleEqualIf.KindOf 3 = some InstructionKind.Equal ∧
    exampleEqualIf.InputAt 3 0 = some 0 ∧ exampleEqualIf.InputAt 3 1 = some 1 ∧
    exampleEqualIf.IsConstant 1 = true ∧ exampleEqualIf.IsConstant 0 = false ∧
    ∃ vis', VisitIf { graph := exampleEqualIf, stats := none } 4 = some vis' ∧
      (∀ user index, exampleEqualIf.IsUse 0 user index →
        exampleEqualIf.InstructionDominates
          (if InstructionKind.Equal = InstructionKind.Equal then 5 else 7) user = true →
        vis'.graph.InputAt user index = some 1) ∧
      (∀ user index b, exampleEqualIf.IsUse 0 user index →
        exampleEqualIf.BlockOf user = some b → exampleEqualIf.Reachable b →
        exampleEqualIf.InstructionDominates
          (if InstructionKind.Equal = InstructionKind.Equal then 7 else 5) user = true →
        vis'.graph.InputAt user index ≠ some 1) ∧
      (∀ (xval cval : Int) (cond : Bool),
        (evalEquality InstructionKind.Equal xval cval = some cond ∨
          evalEquality InstructionKind.Equal cval xval = some cond) →
        takenSuccessor cond 2 3 =
          (if InstructionKind.Equal = InstructionKind.Equal then 2 else 3) →
        xval = cval) :=
  ⟨exampleEqualIf_context, by decide, by decide, rfl, rfl, rfl, rfl, rfl,
    (VisitIf_propagates_compared_constant exampleEqualIf none 4 3 2 3 5 7
      exampleEqualIf_context (by decide) (by decide) InstructionKind.Equal rfl
      (Or.inl rfl)).1 0 1 (Or.inl ⟨rfl, rfl⟩) rfl rfl rfl rfl⟩

theorem candidate_proxy (g : HGraph) (v y k0 : Nat)
    (hkind : g.KindOf v = some InstructionKind.Equal ∨
      g.KindOf v = some InstructionKind.NotEqual)
    (hops : (g.InputAt v 0 = some y ∧ g.InputAt v 1 = some k0) ∨
      (g.InputAt v 0 = some k0 ∧ g.InputAt v 1 = some y))
    (hk0 : g.IsConstant k0 = true) (hy : g.IsConstant y = false)
    (hcmp : g.kindIs (fun k => k = InstructionKind.Compare true ∨
      k = InstructionKind.Compare false) y = true) :
    (g.kindIs InstructionKind.IsArithmeticZero k0 = false → VisitIf.candidate g v = none) ∧
    (∀ left right, g.kindIs InstructionKind.IsArithmeticZero k0 = true →
      (g.GetType y).IsFloatingPointType = false →
      g.InputAt y 0 = some left → g.InputAt y 1 = some right →
      VisitIf.candidate g v = VisitIf.pickOperands g left right) := by
  have h1 : g.kindIs InstructionKind.IsCondition v = true := by
    rcases hkind with h | h <;> simp [HGraph.kindIs, h, InstructionKind.IsCondition]
  have h2 : (!g.kindIs (fun k => k = InstructionKind.Equal) v &&
      !g.kindIs (fun k => k = InstructionKind.NotEqual) v) = false := by
    rcases hkind with h | h <;> simp [HGraph.kindIs, h]
  have hpick : ∀ l r, ((l = y ∧ r = k0) ∨ (l = k0 ∧ r = y)) →
      VisitIf.pickOperands g l r =
        if (g.GetType y).IsFloatingPointType then none else some (y, k0) := by
    intro l r h
    rcases h with ⟨h1, h2⟩ | ⟨h1, h2⟩ <;> subst h1 h2 <;>
      simp [VisitIf.pickOperands, hk0, hy]
  constructor
  · intro hz
    unfold VisitIf.candidate
    simp only [h1, h2, Bool.not_true, Bool.false_eq_true, if_false, HGraph.GetLeft,
      HGraph.GetRight]
    rcases hops with ⟨hl, hr⟩ | ⟨hl, hr⟩
    · simp only [hl, hr, hpick y k0 (Or.inl ⟨rfl, rfl⟩)]
      cases (g.GetType y).IsFloatingPointType
      · simp only [Bool.false_eq_true, if_false, hcmp, hz, if_true, Bool.not_false]
      · rfl
    · simp only [hl, hr, hpick k0 y (Or.inr ⟨rfl, rfl⟩)]
      cases (g.GetType y).IsFloatingPointType
      · simp only [Bool.false_eq_true, if_false, hcmp, hz, if_true, Bool.not_false]
      · rfl
  · intro left right hz hfl hl2 hr2
    unfold VisitIf.candidate
    simp only [h1, h2, Bool.not_true, Bool.false_eq_true, if_false, HGraph.GetLeft,
      HGraph.GetRight]
    rcases hops with ⟨hl, hr⟩ | ⟨hl, hr⟩
    · simp only [hl, hr, hpick y k0 (Or.inl ⟨rfl, rfl⟩), hfl, Bool.false_eq_true, if_false,
        hcmp, hz, if_true, Bool.not_true, hl2, hr2]
    · simp only [hl, hr, hpick k0 y (Or.inr ⟨rfl, rfl⟩), hfl, Bool.false_eq_true, if_false,
        hcmp, hz, if_true, Bool.not_true, hl2, hr2]

/-- C10: VisitIf never rewrites a use of a floating-point instruction (so it
never substitutes a constant for a floating-point compared variable, directly
or through a Compare); and for a Compare proxy `Equal/NotEqual(Compare(x, c), k)`
nothing is substituted when `k` is not the arithmetic zero or `x` is
floating-point, while for the zero `k` and a non-floating `x` the uses of `x`
in the region of the chosen successor become `c` and no use of any other
operand is rewritten (a single level of Compare is unwrapped). -/
theorem VisitIf_never_substitutes_floating_point (g : HGraph)
    (stats : Option OptimizingCompilerStats) (inst v t f tfirst ffirst : Nat)
    (ctx : IfContext g inst v t f tfirst ffirst)
    (k : InstructionKind) (hk : g.KindOf v = some k)
    (hkind : k = InstructionKind.Equal ∨ k = InstructionKind.NotEqual) :
    ∃ vis', VisitIf { graph := g, stats := stats } inst = some vis' ∧
      (∀ user index y, y ≠ v → (g.GetType y).IsFloatingPointType = true →
        g.InputAt user index = some y → vis'.graph.InputAt user index = some y) ∧
      (∀ y k0,
        ((g.InputAt v 0 = some y ∧ g.InputAt v 1 = some k0) ∨
          (g.InputAt v 0 = some k0 ∧ g.InputAt v 1 = some y)) →
        g.IsConstant k0 = true → g.IsConstant y = false →
        g.kindIs (fun k => k = InstructionKind.Compare true ∨
          k = InstructionKind.Compare false) y = true →
        (g.kindIs InstructionKind.IsArithmeticZero k0 = false →
          ∀ user index z, z ≠ v → g.InputAt user index = some z →
            vis'.graph.InputAt user index = some z) ∧
        (g.kindIs InstructionKind.IsArithmeticZero k0 = true →
          (g.GetType y).IsFloatingPointType = false →
          ∀ x c,
            ((g.InputAt y 0 = some x ∧ g.InputAt y 1 = some c) ∨
              (g.InputAt y 0 = some c ∧ g.InputAt y 1 = some x)) →
            g.IsConstant c = true → g.IsConstant x = false →
            ((g.GetType x).IsFloatingPointType = true →
              ∀ user index z, z ≠ v → g.InputAt user index = some z →
                vis'.graph.InputAt user index = some z) ∧
            ((g.GetType x).IsFloatingPointType = false →
              (∀ user index, g.IsUse x user index →
                g.InstructionDominates (if k = InstructionKind.Equal then tfirst else ffirst)
                  user = true →
                vis'.graph.InputAt user index = some c) ∧
              (∀ user index z, z ≠ v → z ≠ x → g.InputAt user index = some z →
                vis'.graph.InputAt user index = some z)))) := by
  have hnc : g.IsConstant v = false := by
    rcases hkind with h | h <;> subst h <;>
      simp [HGraph.IsConstant, HGraph.kindIs, hk, InstructionKind.IsConstant]
  have hkind' : g.KindOf v = some InstructionKind.Equal ∨
      g.KindOf v = some InstructionKind.NotEqual := by
    rcases hkind with h | h <;> subst h <;> simp [hk]
  have hke : g.kindIs (fun k => k = InstructionKind.Equal) v =
      decide (k = InstructionKind.Equal) := by
    simp [HGraph.kindIs, hk]
  obtain ⟨vis', c1, c0, hrun, hag, _, _, _, _, hcnone, hcsome⟩ :=
    VisitIf_effect g stats inst v t f tfirst ffirst ctx hnc
  refine ⟨vis', hrun, ?_, ?_⟩
  · intro user index y hyv hfl hy
    cases hc : VisitIf.candidate g v with
    | none => exact hcnone hc user index y hyv hy
    | some p =>
      obtain ⟨var, constant⟩ := p
      obtain ⟨other, _, hsome⟩ := hcsome var constant hc
      obtain ⟨_, _, hvfl, _⟩ := candidate_spec g v var constant hc
      have : y ≠ var := by
        intro h
        rw [h, hvfl] at hfl
        cases hfl
      rw [hsome user index y hyv hy, if_neg this]
  · intro y k0 hops hk0 hy hcmp
    obtain ⟨hnz, hz⟩ := candidate_proxy g v y k0 hkind' hops hk0 hy hcmp
    constructor
    · intro h
      exact hcnone (hnz h)
    · intro h hyfl x c hops2 hc hx
      have hcand : VisitIf.candidate g v =
          if (g.GetType x).IsFloatingPointType then none else some (x, c) := by
        rcases hops2 with ⟨hl, hr⟩ | ⟨hl, hr⟩
        · rw [hz x c h hyfl hl hr]
          simp [VisitIf.pickOperands, hc, hx]
        · rw [hz c x h hyfl hl hr]
          simp [VisitIf.pickOperands, hc, hx]
      constructor
      · intro hfl
        rw [hfl] at hcand
        exact hcnone hcand
      · intro hfl
        rw [hfl] at hcand
        simp only [Bool.false_eq_true, if_false] at hcand
        obtain ⟨other, _, hsome⟩ := hcsome x c hcand
        obtain ⟨_, _, _, hwhere⟩ := candidate_spec g v x c hcand
        have hxv : x ≠ v := by
          rcases hwhere with h | ⟨y', hy', h⟩
          · exact mem_inputsOf_ne ctx.no_self_use h
          · exact mem_inputsOf_ne (ctx.operands_no_use y' hy') h
        constructor
        · intro user index hu hd
          rw [hsome user index x hxv hu.2]
          have hr : g.inRegion (if k = InstructionKind.Equal then tfirst else ffirst) user
              = true := by
            simp [HGraph.inRegion, hu.1, hd]
          simp only [hke, decide_eq_true_eq, if_true, hr]
        · intro user index z hzv hzx hzin
          rw [hsome user index z hzv hzin, if_neg hzx]

theorem exampleFloatCompareIf_context : IfContext exampleFloatCompareIf 6 5 2 3 7 9 where
  input := rfl
  true_successor := rfl
  false_successor := rfl
  true_first := rfl
  false_first := rfl
  true_first_block := rfl
  false_first_block := rfl
  true_not_entry := by decide
  false_not_entry := by decide
  inputs_defined := rfl
  no_self_use := by decide
  operands_no_use := by decide

theorem VisitIf_never_substitutes_floating_point_witness :
    IfContext exampleFloatCompareIf 6 5 2 3 7 9 ∧
    exampleFloatCompareIf.KindOf 5 = some InstructionKind.NotEqual ∧
    (exampleFloatCompareIf.GetType 0).IsFloatingPointType = true ∧
    ∃ vis', VisitIf { graph := exampleFloatCompareIf, stats := none } 6 = some vis' ∧
      vis'.graph.InputAt 7 0 = some 0 ∧ vis'.graph.InputAt 9 0 = some 0 ∧
      vis'.graph.InputAt 4 0 = some 0 ∧
      vis'.graph.InputAt 7 1 = some 4 ∧ vis'.graph.InputAt 9 1 = some 4 := by
  obtain ⟨vis', hrun, hfloat, hproxy⟩ :=
    VisitIf_never_substitutes_floating_point exampleFloatCompareIf none 6 5 2 3 7 9
      exampleFloatCompareIf_context InstructionKind.NotEqual rfl (Or.inr rfl)
  have hnone := ((hproxy 4 2 (Or.inl ⟨rfl, rfl⟩) rfl rfl rfl).2 rfl rfl 0 1
    (Or.inl ⟨rfl, rfl⟩) rfl rfl).1 rfl
  exact ⟨exampleFloatCompareIf_context, rfl, rfl, vis', hrun,
    hfloat 7 0 0 (by decide) rfl rfl, hfloat 9 0 0 (by decide) rfl rfl,
    hfloat 4 0 0 (by decide) rfl rfl,
    hnone 7 1 4 (by decide) rfl, hnone 9 1 4 (by decide) rfl⟩

/-! ## RemoveDeadBlocks -/

theorem GetBlock_eq (g : HGraph) (id : Nat) : g.GetBlock id = (g.blocks[id]?).join := by
  unfold HGraph.GetBlock
  rw [List.getD_eq_getElem?_getD]
  cases g.blocks[id]? <;> rfl

theorem GetBlock_mapBlocks (g : HGraph) (f : Nat → HBasicBlock → HBasicBlock) (id : Nat) :
    (g.mapBlocks f).GetBlock id = (g.GetBlock id).map (f id) := by
  simp only [GetBlock_eq, HGraph.mapBlocks, getElem?_mapWithIndex, Nat.zero_add]
  cases g.blocks[id]? with
  | none => rfl
  | some ob => cases ob <;> rfl

theorem GetBlock_DisconnectAndDelete (g : HGraph) (b id : Nat) :
    ∃ f : HBasicBlock → HBasicBlock,
      (∀ blk, (f blk).successors = blk.successors.filter (fun s => s ≠ b) ∧
        (f blk).predecessors = blk.predecessors.filter (fun p => p ≠ b)) ∧
      (g.DisconnectAndDelete b).GetBlock id =
        if id = b then none else (g.GetBlock id).map f := by
  refine ⟨fun blk =>
    { blk with
      predecessors := blk.predecessors.filter (fun p => p ≠ b),
      successors := blk.successors.filter (fun s => s ≠ b),
      instructions :=
        if id ∈ g.becomesGoto b then
          blk.instructions.dropLast ++ [g.instructions.length + (g.becomesGoto b).indexOf id]
        else blk.instructions }, fun blk => ⟨rfl, rfl⟩, ?_⟩
  simp only [GetBlock_eq, HGraph.DisconnectAndDelete, getElem?_mapWithIndex, Nat.zero_add]
  cases g.blocks[id]? with
  | none => simp
  | some ob =>
    by_cases h : id = b
    · simp [h]
    · cases ob with
      | none => simp [h]
      | some blk =>
        simp only [Option.map_some', h, if_false, Option.join]
        rfl

theorem successorsOf_DisconnectAndDelete (g : HGraph) (b id : Nat) :
    (g.DisconnectAndDelete b).successorsOf id =
      if id = b then [] else (g.successorsOf id).filter (fun s => s ≠ b) := by
  obtain ⟨f, hf, hget⟩ := GetBlock_DisconnectAndDelete g b id
  simp only [HGraph.successorsOf, hget]
  by_cases h : id = b
  · simp [h]
  · simp only [h, if_false]
    cases g.GetBlock id with
    | none => rfl
    | some blk => simp [(hf blk).1]

theorem predecessorsOf_DisconnectAndDelete (g : HGraph) (b id : Nat) :
    (g.DisconnectAndDelete b).predecessorsOf id =
      if id = b then [] else (g.predecessorsOf id).filter (fun s => s ≠ b) := by
  obtain ⟨f, hf, hget⟩ := GetBlock_DisconnectAndDelete g b id
  simp only [HGraph.predecessorsOf, hget]
  by_cases h : id = b
  · simp [h]
  · simp only [h, if_false]
    cases g.GetBlock id with
    | none => rfl
    | some blk => simp [(hf blk).2]

theorem GetBlock_DisconnectAndDelete_none (g : HGraph) (b id : Nat) :
    (g.DisconnectAndDelete b).GetBlock id = none ↔ id = b ∨ g.GetBlock id = none := by
  obtain ⟨f, _, hget⟩ := GetBlock_DisconnectAndDelete g b id
  rw [hget]
  by_cases h : id = b
  · simp [h]
  · simp [h]


theorem RemoveDeadBlocks_step_spec (live : ArenaBitVector) (st : RemoveDeadBlocksState)
    (a : Nat) :
    (live.IsBitSet a = false ∧ (st.graph.GetBlock a).isSome = true ∧
      (RemoveDeadBlocks.step live st a).graph = st.graph.DisconnectAndDelete a ∧
      (RemoveDeadBlocks.step live st a).removed_one_or_more_blocks = true) ∨
    ((live.IsBitSet a = true ∨ st.graph.GetBlock a = none) ∧
      RemoveDeadBlocks.step live st a = st) := by
  unfold RemoveDeadBlocks.step
  cases hl : live.IsBitSet a with
  | true => right; simp
  | false =>
    cases hb : st.graph.GetBlock a with
    | none => right; simp
    | some blk => left; simp

theorem RemoveDeadBlocks_fold (live : ArenaBitVector) (l : List Nat) :
    ∀ st : RemoveDeadBlocksState,
      (∀ id, (l.foldl (RemoveDeadBlocks.step live) st).graph.GetBlock id = none ↔
        st.graph.GetBlock id = none ∨ (id ∈ l ∧ live.IsBitSet id = false)) ∧
      (∀ x s, s ∈ (l.foldl (RemoveDeadBlocks.step live) st).graph.successorsOf x →
        s ∈ st.graph.successorsOf x) ∧
      (∀ x s, s ∈ (l.foldl (RemoveDeadBlocks.step live) st).graph.predecessorsOf x →
        s ∈ st.graph.predecessorsOf x) ∧
      (∀ x id, id ∈ l → live.IsBitSet id = false → (st.graph.GetBlock id).isSome = true →
        id ∉ (l.foldl (RemoveDeadBlocks.step live) st).graph.successorsOf x ∧
        id ∉ (l.foldl (RemoveDeadBlocks.step live) st).graph.predecessorsOf x) ∧
      ((l.foldl (RemoveDeadBlocks.step live) st).removed_one_or_more_blocks = true ↔
        st.removed_one_or_more_blocks = true ∨
          ∃ id ∈ l, live.IsBitSet id = false ∧ (st.graph.GetBlock id).isSome = true) ∧
      ((l.foldl (RemoveDeadBlocks.step live) st).removed_one_or_more_blocks = false →
        l.foldl (RemoveDeadBlocks.step live) st = st) := by
  induction l with
  | nil =>
    intro st
    simp
  | cons a rest ih =>
    intro st
    simp only [List.foldl_cons]
    obtain ⟨h1, h2, h3, h4, h5, h6⟩ := ih (RemoveDeadBlocks.step live st a)
    rcases RemoveDeadBlocks_step_spec live st a with ⟨hla, hsa, hg, hr⟩ | ⟨hskip, heq⟩
    · -- the block `a` is deleted
      have hsucc : ∀ x s, s ∈ (RemoveDeadBlocks.step live st a).graph.successorsOf x →
          s ∈ st.graph.successorsOf x ∧ s ≠ a := by
        intro x s hs
        rw [hg, successorsOf_DisconnectAndDelete] at hs
        split at hs
        · simp at hs
        · simpa using List.mem_filter.mp hs
      have hpred : ∀ x s, s ∈ (RemoveDeadBlocks.step live st a).graph.predecessorsOf x →
          s ∈ st.graph.predecessorsOf x ∧ s ≠ a := by
        intro x s hs
        rw [hg, predecessorsOf_DisconnectAndDelete] at hs
        split at hs
        · simp at hs
        · simpa using List.mem_filter.mp hs
      refine ⟨?_, ?_, ?_, ?_, ?_, ?_⟩
      · intro id
        rw [h1, hg, GetBlock_DisconnectAndDelete_none]
        constructor
        · rintro ((h | h) | ⟨h, hl⟩)
          · subst h; exact Or.inr ⟨List.mem_cons_self _ _, hla⟩
          · exact Or.inl h
          · exact Or.inr ⟨List.mem_cons_of_mem _ h, hl⟩
        · rintro (h | ⟨h, hl⟩)
          · exact Or.inl (Or.inr h)
          · rcases List.mem_cons.mp h with h | h
            · exact Or.inl (Or.inl h)
            · exact Or.inr ⟨h, hl⟩
      · intro x s hs
        exact (hsucc x s (h2 x s hs)).1
      · intro x s hs
        exact (hpred x s (h3 x s hs)).1
      · intro x id hid hl hsome
        by_cases hia : id = a
        · subst hia
          exact ⟨fun h => (hsucc x id (h2 x id h)).2 rfl, fun h => (hpred x id (h3 x id h)).2 rfl⟩
        · have hrest : id ∈ rest := by
            rcases List.mem_cons.mp hid with h | h
            · exact absurd h hia
            · exact h
          apply h4 x id hrest hl
          rw [hg]
          cases hb : (st.graph.DisconnectAndDelete a).GetBlock id with
          | some _ => rfl
          | none =>
            rcases (GetBlock_DisconnectAndDelete_none st.graph a id).mp hb with h | h
            · exact absurd h hia
            · rw [h] at hsome; cases hsome
      · rw [h5]
        constructor
        · intro _
          exact Or.inr ⟨a, List.mem_cons_self _ _, hla, hsa⟩
        · intro _
          exact Or.inl hr
      · intro h
        have := h6 h
        rw [this, hr] at h
        cases h
    · -- the block `a` is kept (or there is no such block)
      rw [heq] at h1 h2 h3 h4 h5 h6 ⊢
      refine ⟨?_, h2, h3, ?_, ?_, h6⟩
      · intro id
        rw [h1]
        constructor
        · rintro (h | ⟨h, hl⟩)
          · exact Or.inl h
          · exact Or.inr ⟨List.mem_cons_of_mem _ h, hl⟩
        · rintro (h | ⟨h, hl⟩)
          · exact Or.inl h
          · rcases List.mem_cons.mp h with h | h
            · subst h
              rcases hskip with hs | hs
              · rw [hs] at hl; cases hl
              · exact Or.inl hs
            · exact Or.inr ⟨h, hl⟩
      · intro x id hid hl hsome
        rcases List.mem_cons.mp hid with h | h
        · subst h
          rcases hskip with hs | hs
          · rw [hs] at hl; cases hl
          · rw [hs] at hsome; cases hsome
        · exact h4 x id h hl hsome
      · rw [h5]
        constructor
        · rintro (h | ⟨id, hid, hl, hsome⟩)
          · exact Or.inl h
          · exact Or.inr ⟨id, List.mem_cons_of_mem _ hid, hl, hsome⟩
        · rintro (h | ⟨id, hid, hl, hsome⟩)
          · exact Or.inl h
          · rcases List.mem_cons.mp hid with h | h
            · subst h
              rcases hskip with hs | hs
              · rw [hs] at hl; cases hl
              · rw [hs] at hsome; cases hsome
            · exact Or.inr ⟨id, h, hl, hsome⟩


/-- The recomputation of the derived structures leaves the blocks and the
edges of the graph as they are. -/
theorem recompute_preserves_cfg (a : GraphAnalysis) (g : HGraph) (rerun : Bool) (id : Nat) :
    ∃ f : HBasicBlock → HBasicBlock,
      (∀ blk, (f blk).successors = blk.successors ∧ (f blk).predecessors = blk.predecessors) ∧
      (if rerun then (g.ClearLoopInformation.ClearDominanceInformation).BuildDominatorTree a
        else ((g.ClearDominanceInformation).ComputeDominanceInformation a
          ).ComputeTryBlockInformation a).GetBlock id = (g.GetBlock id).map f := by
  cases rerun with
  | true =>
    let g1 := (g.ClearLoopInformation.ClearDominanceInformation).ComputeDominanceInformation a
    let g2 := g1.mapBlocks (fun id b => { b with loop_information := a.loopInformation g1 id })
    refine ⟨fun blk => { blk with
      loop_information := a.loopInformation g1 id,
      try_catch_information := a.tryCatchInformation g2 id }, fun _ => ⟨rfl, rfl⟩, ?_⟩
    simp only [if_true, HGraph.BuildDominatorTree, HGraph.ComputeTryBlockInformation,
      GetBlock_mapBlocks]
    have : ((g.ClearLoopInformation.ClearDominanceInformation).ComputeDominanceInformation a
        ).GetBlock id = g.ClearLoopInformation.GetBlock id := rfl
    rw [this, HGraph.ClearLoopInformation, GetBlock_mapBlocks]
    cases g.GetBlock id <;> rfl
  | false =>
    refine ⟨fun blk => { blk with
      try_catch_information := a.tryCatchInformation
        ((g.ClearDominanceInformation).ComputeDominanceInformation a) id },
      fun _ => ⟨rfl, rfl⟩, ?_⟩
    simp only [Bool.false_eq_true, if_false, HGraph.ComputeTryBlockInformation,
      GetBlock_mapBlocks]
    have : ((g.ClearDominanceInformation).ComputeDominanceInformation a).GetBlock id =
        g.GetBlock id := rfl
    rw [this]

/-- C2: RemoveDeadBlocks deletes exactly the blocks of the post order that
MarkReachableBlocks did not mark, disconnecting them from every remaining
block, and keeps every marked block; it returns true iff at least one block was
deleted, and when it returns false nothing at all has changed. -/
theorem RemoveDeadBlocks_deletes_exactly_unmarked (a : GraphAnalysis)
    (dce : HDeadCodeElimination) :
    ∃ live dce' removed,
      MarkReachableBlocks dce.graph [] = some live ∧
      (∀ b, live.IsBitSet b = true ↔ LiveReachable dce.graph b) ∧
      RemoveDeadBlocks a dce = some (dce', removed) ∧
      (∀ id, dce'.graph.GetBlock id = none ↔
        dce.graph.GetBlock id = none ∨
          (id ∈ dce.graph.GetPostOrder ∧ live.IsBitSet id = false)) ∧
      (∀ id x, id ∈ dce.graph.GetPostOrder → live.IsBitSet id = false →
        (dce.graph.GetBlock id).isSome = true →
        id ∉ dce'.graph.successorsOf x ∧ id ∉ dce'.graph.predecessorsOf x) ∧
      (∀ id, live.IsBitSet id = true → (dce.graph.GetBlock id).isSome = true →
        (dce'.graph.GetBlock id).isSome = true) ∧
      (removed = true ↔
        ∃ id, (dce.graph.GetBlock id).isSome = true ∧ dce'.graph.GetBlock id = none) ∧
      (removed = false → dce' = dce) := by
  obtain ⟨live, hmark, hlive⟩ := MarkReachableBlocks_spec dce.graph
  obtain ⟨h1, h2, h3, h4, h5, h6⟩ := RemoveDeadBlocks_fold live dce.graph.GetPostOrder
    { graph := dce.graph, stats := dce.stats, removed_one_or_more_blocks := false,
      rerun_dominance_and_loop_analysis := false }
  generalize hst : dce.graph.GetPostOrder.foldl (RemoveDeadBlocks.step live)
    { graph := dce.graph, stats := dce.stats, removed_one_or_more_blocks := false,
      rerun_dominance_and_loop_analysis := false } = st at h1 h2 h3 h4 h5 h6
  simp only at h1 h2 h3 h4 h5 h6
  have hrun : RemoveDeadBlocks a dce = some
      ({ graph := if st.removed_one_or_more_blocks then
            if st.rerun_dominance_and_loop_analysis then
              (st.graph.ClearLoopInformation.ClearDominanceInformation).BuildDominatorTree a
            else ((st.graph.ClearDominanceInformation).ComputeDominanceInformation a
              ).ComputeTryBlockInformation a
          else st.graph,
         stats := st.stats }, st.removed_one_or_more_blocks) := by
    simp only [RemoveDeadBlocks, hmark, hst]
  -- the final graph has the blocks and edges of the graph the loop leaves
  have hfinal : ∀ id, ∃ f : HBasicBlock → HBasicBlock,
      (∀ blk, (f blk).successors = blk.successors ∧
        (f blk).predecessors = blk.predecessors) ∧
      (if st.removed_one_or_more_blocks then
          if st.rerun_dominance_and_loop_analysis then
            (st.graph.ClearLoopInformation.ClearDominanceInformation).BuildDominatorTree a
          else ((st.graph.ClearDominanceInformation).ComputeDominanceInformation a
            ).ComputeTryBlockInformation a
        else st.graph).GetBlock id = (st.graph.GetBlock id).map f := by
    intro id
    cases hr : st.removed_one_or_more_blocks with
    | false => exact ⟨fun blk => blk, fun _ => ⟨rfl, rfl⟩, by simp⟩
    | true =>
      simp only [if_true]
      exact recompute_preserves_cfg a st.graph st.rerun_dominance_and_loop_analysis id
  generalize hgf : (if st.removed_one_or_more_blocks then
      if st.rerun_dominance_and_loop_analysis then
        (st.graph.ClearLoopInformation.ClearDominanceInformation).BuildDominatorTree a
      else ((st.graph.ClearDominanceInformation).ComputeDominanceInformation a
        ).ComputeTryBlockInformation a
    else st.graph) = gf at hrun hfinal
  have hnone : ∀ id, gf.GetBlock id = none ↔ st.graph.GetBlock id = none := by
    intro id
    obtain ⟨f, _, hf⟩ := hfinal id
    rw [hf]
    cases st.graph.GetBlock id <;> simp
  have hsucc : ∀ x, gf.successorsOf x = st.graph.successorsOf x := by
    intro x
    obtain ⟨f, hf1, hf⟩ := hfinal x
    simp only [HGraph.successorsOf, hf]
    cases st.graph.GetBlock x with
    | none => rfl
    | some blk => simp [(hf1 blk).1]
  have hpred : ∀ x, gf.predecessorsOf x = st.graph.predecessorsOf x := by
    intro x
    obtain ⟨f, hf1, hf⟩ := hfinal x
    simp only [HGraph.predecessorsOf, hf]
    cases st.graph.GetBlock x with
    | none => rfl
    | some blk => simp [(hf1 blk).2]
  have hexact : ∀ id, gf.GetBlock id = none ↔
      dce.graph.GetBlock id = none ∨
        (id ∈ dce.graph.GetPostOrder ∧ live.IsBitSet id = false) := by
    intro id
    rw [hnone, h1]
  refine ⟨live, { graph := gf, stats := st.stats }, st.removed_one_or_more_blocks, hmark,
    hlive, hrun, hexact, ?_, ?_, ?_, ?_⟩
  · intro id x hid hl hsome
    simp only [hsucc, hpred]
    exact h4 x id hid hl hsome
  · intro id hl hsome
    cases hb : gf.GetBlock id with
    | some _ => rfl
    | none =>
      rcases (hexact id).mp hb with h | ⟨_, h⟩
      · rw [h] at hsome; cases hsome
      · rw [h] at hl; cases hl
  · rw [h5]
    simp only [Bool.false_eq_true, false_or]
    constructor
    · rintro ⟨id, hid, hl, hsome⟩
      exact ⟨id, hsome, (hexact id).mpr (Or.inr ⟨hid, hl⟩)⟩
    · rintro ⟨id, hsome, hn⟩
      rcases (hexact id).mp hn with h | ⟨hid, hl⟩
      · rw [h] at hsome; cases hsome
      · exact ⟨id, hid, hl, hsome⟩
  · intro hr
    have := h6 hr
    rw [hr] at hgf
    simp only [Bool.false_eq_true, if_false] at hgf
    rw [← hgf, this]

/-! ## Replacement of an instruction -/


theorem InputAt_ReplaceWith_RemoveInstruction_other (g : HGraph) (inst other block_id : Nat)
    (user index y : Nat) (hy : y ≠ inst) (h : g.InputAt user index = some y) :
    ((g.ReplaceWith inst other).RemoveInstruction block_id inst).InputAt user index = some y := by
  simp only [HGraph.InputAt, GetInstruction_RemoveInstruction, GetInstruction_ReplaceWith] at h ⊢
  cases hu : g.GetInstruction user with
  | none => rw [hu] at h; simp at h
  | some u =>
    rw [hu] at h
    simp only [Option.some_bind] at h
    simp only [Option.map_some', Option.some_bind]
    have h1 : (if u.block.isSome = true then
        ({ u with inputs := substInput inst other u.inputs } : HInstruction) else u).inputs[index]?
        = some y := by
      split
      · simp [substInput_getElem?, h, hy]
      · exact h
    split
    · exact h1
    · exact h1

theorem Replaced_ReplaceWith_RemoveInstruction (g : HGraph) (inst other block_id : Nat)
    (hne : other ≠ inst) :
    g.Replaced ((g.ReplaceWith inst other).RemoveInstruction block_id inst) inst block_id other := by
  obtain ⟨h1, h2, h3, h4⟩ := ReplaceWith_RemoveInstruction_spec g inst other block_id hne
  exact ⟨h1, h2, h3, h4,
    fun user index y hy h =>
      InputAt_ReplaceWith_RemoveInstruction_other g inst other block_id user index y hy h⟩

/-- Replacement on a graph that extends `g` by new instructions only is a
replacement on `g`. -/
theorem Replaced_of_extension (g g1 g' : HGraph) (inst block_id r : Nat)
    (hold : ∀ id i, g.GetInstruction id = some i → g1.GetInstruction id = some i)
    (h : g1.Replaced g' inst block_id r) : g.Replaced g' inst block_id r := by
  obtain ⟨h1, h2, h3, h4, h5⟩ := h
  have hin : ∀ user index y, g.InputAt user index = some y → g1.InputAt user index = some y := by
    intro user index y hy
    cases hu : g.GetInstruction user with
    | none => simp [HGraph.InputAt, hu] at hy
    | some u => simpa [HGraph.InputAt, hold user u hu, hu] using hy
  refine ⟨?_, h2, h3, h4, fun user index y hy h => h5 user index y hy (hin user index y h)⟩
  intro user index ⟨hb, hi⟩
  apply h1
  refine ⟨?_, hin user index inst hi⟩
  cases hu : g.GetInstruction user with
  | none => simp [HGraph.BlockOf, hu] at hb
  | some u => simpa [HGraph.BlockOf, hold user u hu, hu] using hb

theorem ReplaceWithAndRemove_Replaced (g : HGraph) (inst other block_id : Nat)
    (hb : g.BlockOf inst = some block_id) (hne : other ≠ inst) :
    ∃ g', g.ReplaceWithAndRemove inst other = some g' ∧ g.Replaced g' inst block_id other ∧
      ∀ id, g'.KindOf id = g.KindOf id := by
  refine ⟨(g.ReplaceWith inst other).RemoveInstruction block_id inst, ?_,
    Replaced_ReplaceWith_RemoveInstruction g inst other block_id hne, ?_⟩
  · simp [HGraph.ReplaceWithAndRemove, BlockOf_ReplaceWith, hb]
  · intro id
    rw [KindOf_RemoveInstruction, KindOf_ReplaceWith]

theorem ReplaceWithAndRemoveFrom_Replaced (g : HGraph) (inst other block_id : Nat)
    (hne : other ≠ inst) :
    ∃ g', g.ReplaceWithAndRemoveFrom (some block_id) inst other = some g' ∧
      g.Replaced g' inst block_id other ∧ ∀ id, g'.KindOf id = g.KindOf id := by
  refine ⟨(g.ReplaceWith inst other).RemoveInstruction block_id inst, rfl,
    Replaced_ReplaceWith_RemoveInstruction g inst other block_id hne, ?_⟩
  intro id
  rw [KindOf_RemoveInstruction, KindOf_ReplaceWith]

theorem GetConstant_spec (g : HGraph) (ty : DataType) (value : Int) :
    (g.GetConstant ty value).1.KindOf (g.GetConstant ty value).2 = some (constantKind ty value) ∧
    (∀ id i, g.GetInstruction id = some i →
      (g.GetConstant ty value).1.GetInstruction id = some i) := by
  unfold HGraph.GetConstant constantKind
  cases ty <;>
    first
    | exact ⟨(GetConstantOfKind_spec g _ _).1, (GetConstantOfKind_spec g _ _).2.2⟩

theorem BlockOf_of_extension (g g1 : HGraph) (inst block_id : Nat)
    (hold : ∀ id i, g.GetInstruction id = some i → g1.GetInstruction id = some i)
    (hb : g.BlockOf inst = some block_id) : g1.BlockOf inst = some block_id := by
  cases hu : g.GetInstruction inst with
  | none => simp [HGraph.BlockOf, hu] at hb
  | some u => simpa [HGraph.BlockOf, hold inst u hu, hu] using hb

theorem KindOf_of_extension (g g1 : HGraph) (inst : Nat) (k : InstructionKind)
    (hold : ∀ id i, g.GetInstruction id = some i → g1.GetInstruction id = some i)
    (hk : g.KindOf inst = some k) : g1.KindOf inst = some k := by
  cases hu : g.GetInstruction inst with
  | none => simp [HGraph.KindOf, hu] at hk
  | some u => simpa [HGraph.KindOf, hold inst u hu, hu] using hk

theorem ReplaceWithConstantAndRemove_Replaced (g : HGraph) (inst block_id : Nat)
    (ty : DataType) (value : Int)
    (hb : g.BlockOf inst = some block_id) (hnc : g.IsConstant inst = false) :
    ∃ g' c, g.ReplaceWithConstantAndRemove inst ty value = some g' ∧
      g'.KindOf c = some (constantKind ty value) ∧ g.Replaced g' inst block_id c := by
  obtain ⟨hk, hold⟩ := GetConstant_spec g ty value
  generalize hr : g.GetConstant ty value = r at hk hold
  have hb1 := BlockOf_of_extension g r.1 inst block_id hold hb
  have hne : r.2 ≠ inst := by
    intro heq
    rw [heq] at hk
    obtain ⟨k, hkk⟩ : ∃ k, g.KindOf inst = some k := by
      cases hu : g.GetInstruction inst with
      | none => simp [HGraph.BlockOf, hu] at hb
      | some u => exact ⟨u.kind, by simp [HGraph.KindOf, hu]⟩
    have := KindOf_of_extension g r.1 inst k hold hkk
    rw [hk] at this
    have hkc : k = constantKind ty value := (Option.some.inj this).symm
    have : k.IsConstant = true := by
      rw [hkc]; unfold constantKind; cases ty <;> rfl
    simp [HGraph.IsConstant, HGraph.kindIs, hkk, this] at hnc
  obtain ⟨g', hrun, hrep, hkind⟩ := ReplaceWithAndRemove_Replaced r.1 inst r.2 block_id hb1 hne
  refine ⟨g', r.2, ?_, ?_, Replaced_of_extension g r.1 g' inst block_id r.2 hold hrep⟩
  · simp only [HGraph.ReplaceWithConstantAndRemove, hr]
    exact hrun
  · rw [hkind]; exact hk

theorem ReplaceWithConstantAndRemoveFrom_Replaced (g : HGraph) (inst block_id : Nat)
    (ty : DataType) (value : Int)
    (hb : g.BlockOf inst = some block_id) (hnc : g.IsConstant inst = false) :
    ∃ g' c, g.ReplaceWithConstantAndRemoveFrom (some block_id) inst ty value = some g' ∧
      g'.KindOf c = some (constantKind ty value) ∧ g.Replaced g' inst block_id c := by
  obtain ⟨g', c, h, hk, hr⟩ :=
    ReplaceWithConstantAndRemove_Replaced g inst block_id ty value hb hnc
  refine ⟨g', c, ?_, hk, hr⟩
  obtain ⟨_, hold⟩ := GetConstant_spec g ty value
  have hb1 := BlockOf_of_extension g _ inst block_id hold hb
  simp only [HGraph.ReplaceWithConstantAndRemove, HGraph.ReplaceWithAndRemove,
    BlockOf_ReplaceWith, hb1] at h
  simp only [HGraph.ReplaceWithConstantAndRemoveFrom, HGraph.ReplaceWithAndRemoveFrom]
  exact h

/-! ## DivZeroCheck and floating-point operations -/

/-- C17: VisitDivZeroCheck redirects the uses of a DivZeroCheck to its input
and removes the check when that input is a constant other than the arithmetic
zero, and leaves the graph as it is otherwise, so the check is removed if and
only if its input is a non-zero constant; the sweep of the constant folding
pass visits a DivZeroCheck by this method only. -/
theorem VisitDivZeroCheck_elides_iff_nonzero_constant (g : HGraph)
    (inst block_id check_input : Nat)
    (hk : g.KindOf inst = some InstructionKind.DivZeroCheck)
    (hb : g.BlockOf inst = some block_id)
    (hin : g.InputAt inst 0 = some check_input) :
    ((g.IsConstant check_input = true ∧
        g.kindIs InstructionKind.IsArithmeticZero check_input = false) →
      ∃ g', VisitDivZeroCheck g inst = some g' ∧ g.Replaced g' inst block_id check_input) ∧
    (¬ (g.IsConstant check_input = true ∧
        g.kindIs InstructionKind.IsArithmeticZero check_input = false) →
      VisitDivZeroCheck g inst = some g) ∧
    (∃ g', VisitDivZeroCheck g inst = some g' ∧
      (g'.BlockOf inst = none ↔
        (g.IsConstant check_input = true ∧
          g.kindIs InstructionKind.IsArithmeticZero check_input = false))) ∧
    (∀ (ev : StaticEvaluator) (stats : Option OptimizingCompilerStats),
      HConstantFoldingVisitor.Accept ev { graph := g, stats := stats } inst =
        (VisitDivZeroCheck g inst).map (fun g' => { graph := g', stats := stats })) := by
  have hne : g.IsConstant check_input = true → check_input ≠ inst := by
    intro hc heq
    rw [heq] at hc
    simp [HGraph.IsConstant, HGraph.kindIs, hk, InstructionKind.IsConstant] at hc
  have hyes : (g.IsConstant check_input = true ∧
        g.kindIs InstructionKind.IsArithmeticZero check_input = false) →
      ∃ g', VisitDivZeroCheck g inst = some g' ∧ g.Replaced g' inst block_id check_input := by
    intro ⟨hc, hz⟩
    obtain ⟨g', hrun, hrep, _⟩ :=
      ReplaceWithAndRemove_Replaced g inst check_input block_id hb (hne hc)
    exact ⟨g', by simp [VisitDivZeroCheck, hin, hc, hz, hrun], hrep⟩
  have hno : ¬ (g.IsConstant check_input = true ∧
        g.kindIs InstructionKind.IsArithmeticZero check_input = false) →
      VisitDivZeroCheck g inst = some g := by
    intro h
    unfold VisitDivZeroCheck
    simp only [hin]
    split
    · next hcond =>
      simp only [Bool.and_eq_true, Bool.not_eq_true'] at hcond
      exact absurd hcond h
    · rfl
  refine ⟨hyes, hno, ?_, ?_⟩
  · by_cases h : g.IsConstant check_input = true ∧
        g.kindIs InstructionKind.IsArithmeticZero check_input = false
    · obtain ⟨g', hrun, hrep⟩ := hyes h
      exact ⟨g', hrun, by simp [hrep.2.2.1, h]⟩
    · refine ⟨g, hno h, ?_⟩
      simp only [hb, h, iff_false]
      simp
  · intro ev stats
    simp [HConstantFoldingVisitor.Accept, hk, InstructionKind.IsUnaryOperation,
      InstructionKind.IsBinaryOperation]

theorem VisitDivZeroCheck_elides_iff_nonzero_constant_witness :
    exampleDivZeroCheck.KindOf 3 = some InstructionKind.DivZeroCheck ∧
    exampleDivZeroCheck.BlockOf 3 = some 1 ∧ exampleDivZeroCheck.InputAt 3 0 = some 1 ∧
    exampleDivZeroCheck.IsConstant 1 = true ∧
    exampleDivZeroCheck.kindIs InstructionKind.IsArithmeticZero 1 = false ∧
    ∃ g', VisitDivZeroCheck exampleDivZeroCheck 3 = some g' ∧
      exampleDivZeroCheck.Replaced g' 3 1 1 :=
  ⟨rfl, rfl, rfl, rfl, rfl,
    (VisitDivZeroCheck_elides_iff_nonzero_constant exampleDivZeroCheck 3 1 1 rfl rfl rfl).1
      ⟨rfl, rfl⟩⟩

/-- C14: the absorbing simplifier leaves every Mul, Sub and Rem of type
float or double as it is (the graph is unchanged, so the instruction stays in
its block with its inputs and its uses), whatever its operands are; so does
the visit of the binary operation when static evaluation yields no result. -/
theorem absorbing_simplifier_keeps_floating_point (g : HGraph) (inst : Nat)
    (k : InstructionKind) (hk : g.KindOf inst = some k)
    (hkind : k = InstructionKind.Mul ∨ k = InstructionKind.Sub ∨ k = InstructionKind.Rem)
    (hfl : (g.GetType inst).IsFloatingPointType = true) :
    InstructionWithAbsorbingInputSimplifier.Accept g inst = some g ∧
    (∀ ev : StaticEvaluator, ev g inst = none → VisitBinaryOperation ev g inst = some g) := by
  have hnint : (g.GetType inst).IsIntOrLongType = false := by
    cases h : g.GetType inst <;> simp [h, DataType.IsFloatingPointType] at hfl <;> rfl
  have hnintegral : (g.GetType inst).IsIntegralType = false := by
    cases h : g.GetType inst <;> simp [h, DataType.IsFloatingPointType] at hfl <;> rfl
  have hacc : InstructionWithAbsorbingInputSimplifier.Accept g inst = some g := by
    rcases hkind with h | h | h <;> subst h
    · simp only [InstructionWithAbsorbingInputSimplifier.Accept, hk, VisitMul, hnint,
        Bool.false_and, Bool.false_eq_true, if_false]
      split <;> rfl
    · simp [InstructionWithAbsorbingInputSimplifier.Accept, hk, VisitSub, hnintegral]
    · simp [InstructionWithAbsorbingInputSimplifier.Accept, hk, VisitRem, hnintegral]
  refine ⟨hacc, ?_⟩
  intro ev hev
  simp [VisitBinaryOperation, HGraph.TryStaticEvaluation, hev, hacc]

theorem absorbing_simplifier_keeps_floating_point_witness :
    (exampleOperation InstructionKind.Mul DataType.kFloat32 [0, 1] DataType.kFloat32
      (InstructionKind.FloatConstant 0)).KindOf 3
      = some InstructionKind.Mul ∧
    ((exampleOperation InstructionKind.Mul DataType.kFloat32 [0, 1] DataType.kFloat32
      (InstructionKind.FloatConstant 0)).GetType 3).IsFloatingPointType = true ∧
    InstructionWithAbsorbingInputSimplifier.Accept
      (exampleOperation InstructionKind.Mul DataType.kFloat32 [0, 1] DataType.kFloat32
      (InstructionKind.FloatConstant 0)) 3 =
      some (exampleOperation InstructionKind.Mul DataType.kFloat32 [0, 1] DataType.kFloat32
        (InstructionKind.FloatConstant 0)) :=
  ⟨rfl, rfl,
    (absorbing_simplifier_keeps_floating_point
      (exampleOperation InstructionKind.Mul DataType.kFloat32 [0, 1] DataType.kFloat32
      (InstructionKind.FloatConstant 0)) 3
      InstructionKind.Mul rfl (Or.inl rfl) rfl).1⟩

/-! ## Unsigned comparisons with zero and comparisons with NaN -/

theorem literalOf_zero (g : HGraph) (z0 : Nat) (zv : Int)
    (hz : g.kindIs InstructionKind.IsArithmeticZero z0 = true)
    (hv : g.literalOf z0 = some zv) : zv = 0 := by
  unfold HGraph.literalOf at hv
  unfold HGraph.kindIs at hz
  cases hk : g.KindOf z0 with
  | none => rw [hk] at hv; cases hv
  | some k =>
    rw [hk] at hv hz
    cases k <;> simp [InstructionKind.integralValue] at hv <;>
      simp [InstructionKind.IsArithmeticZero] at hz <;> omega

theorem toUnsigned_zero (w : Nat) : toUnsigned w 0 = 0 := by
  simp [toUnsigned]

theorem IsConstant_false_of_KindOf (g : HGraph) (inst : Nat) (k : InstructionKind)
    (hk : g.KindOf inst = some k) (hc : k.IsConstant = false) : g.IsConstant inst = false := by
  simp [HGraph.IsConstant, HGraph.kindIs, hk, hc]

theorem isZeroConstant_false (g : HGraph) (x : Nat) (hx : g.IsConstant x = false) :
    g.isZeroConstant (some x) = false := by
  simp [HGraph.isZeroConstant, hx]

theorem isZeroConstant_true (g : HGraph) (z0 : Nat) (hzc : g.IsConstant z0 = true)
    (hz : g.kindIs InstructionKind.IsArithmeticZero z0 = true) :
    g.isZeroConstant (some z0) = true := by
  simp [HGraph.isZeroConstant, hzc, hz]

/-- C15: the absorbing simplifier replaces `Above(0, x)` and `Below(x, 0)` by
the constant false and `AboveOrEqual(x, 0)` and `BelowOrEqual(0, x)` by the
constant true, which is the result of the unsigned comparison for every value
of `x` at every width; the mirrored forms `Above(x, 0)`, `Below(0, x)`,
`AboveOrEqual(0, x)` and `BelowOrEqual(x, 0)`, whose result depends on `x`,
are left as they are. -/
theorem unsigned_comparison_with_zero_bound (g : HGraph) (inst block_id z0 x : Nat)
    (hb : g.BlockOf inst = some block_id)
    (hzc : g.IsConstant z0 = true)
    (hz : g.kindIs InstructionKind.IsArithmeticZero z0 = true)
    (hx : g.IsConstant x = false) :
    (g.KindOf inst = some InstructionKind.Above → g.InputAt inst 0 = some z0 →
      ∃ g' c, InstructionWithAbsorbingInputSimplifier.Accept g inst = some g' ∧
        g'.KindOf c = some (InstructionKind.IntConstant 0) ∧ g.Replaced g' inst block_id c ∧
        ∀ zv, g.literalOf z0 = some zv → ∀ (w : Nat) (xv : Int),
          evalUnsignedCondition InstructionKind.Above w zv xv = some false) ∧
    (g.KindOf inst = some InstructionKind.Below → g.InputAt inst 1 = some z0 →
      ∃ g' c, InstructionWithAbsorbingInputSimplifier.Accept g inst = some g' ∧
        g'.KindOf c = some (InstructionKind.IntConstant 0) ∧ g.Replaced g' inst block_id c ∧
        ∀ zv, g.literalOf z0 = some zv → ∀ (w : Nat) (xv : Int),
          evalUnsignedCondition InstructionKind.Below w xv zv = some false) ∧
    (g.KindOf inst = some InstructionKind.AboveOrEqual → g.InputAt inst 1 = some z0 →
      ∃ g' c, InstructionWithAbsorbingInputSimplifier.Accept g inst = some g' ∧
        g'.KindOf c = some (InstructionKind.IntConstant 1) ∧ g.Replaced g' inst block_id c ∧
        ∀ zv, g.literalOf z0 = some zv → ∀ (w : Nat) (xv : Int),
          evalUnsignedCondition InstructionKind.AboveOrEqual w xv zv = some true) ∧
    (g.KindOf inst = some InstructionKind.BelowOrEqual → g.InputAt inst 0 = some z0 →
      ∃ g' c, InstructionWithAbsorbingInputSimplifier.Accept g inst = some g' ∧
        g'.KindOf c = some (InstructionKind.IntConstant 1) ∧ g.Replaced g' inst block_id c ∧
        ∀ zv, g.literalOf z0 = some zv → ∀ (w : Nat) (xv : Int),
          evalUnsignedCondition InstructionKind.BelowOrEqual w zv xv = some true) ∧
    (g.KindOf inst = some InstructionKind.Above → g.InputAt inst 0 = some x →
      InstructionWithAbsorbingInputSimplifier.Accept g inst = some g ∧
      evalUnsignedCondition InstructionKind.Above 32 0 0 = some false ∧
      evalUnsignedCondition InstructionKind.Above 32 1 0 = some true) ∧
    (g.KindOf inst = some InstructionKind.Below → g.InputAt inst 1 = some x →
      InstructionWithAbsorbingInputSimplifier.Accept g inst = some g ∧
      evalUnsignedCondition InstructionKind.Below 32 0 0 = some false ∧
      evalUnsignedCondition InstructionKind.Below 32 0 1 = some true) ∧
    (g.KindOf inst = some InstructionKind.AboveOrEqual → g.InputAt inst 1 = some x →
      InstructionWithAbsorbingInputSimplifier.Accept g inst = some g ∧
      evalUnsignedCondition InstructionKind.AboveOrEqual 32 0 0 = some true ∧
      evalUnsignedCondition InstructionKind.AboveOrEqual 32 0 1 = some false) ∧
    (g.KindOf inst = some InstructionKind.BelowOrEqual → g.InputAt inst 0 = some x →
      InstructionWithAbsorbingInputSimplifier.Accept g inst = some g ∧
      evalUnsignedCondition InstructionKind.BelowOrEqual 32 0 0 = some true ∧
      evalUnsignedCondition InstructionKind.BelowOrEqual 32 1 0 = some false) := by
  have hzt := isZeroConstant_true g z0 hzc hz
  have hxf := isZeroConstant_false g x hx
  refine ⟨?_, ?_, ?_, ?_, ?_, ?_, ?_, ?_⟩
  · intro hk hin
    obtain ⟨g', c, hrun, hkc, hrep⟩ := ReplaceWithConstantAndRemove_Replaced g inst block_id
      DataType.kBool 0 hb (IsConstant_false_of_KindOf g inst _ hk rfl)
    refine ⟨g', c, ?_, hkc, hrep, ?_⟩
    · simp [InstructionWithAbsorbingInputSimplifier.Accept, hk, VisitAbove, HGraph.GetLeft,
        hin, hzt, hrun]
    · intro zv hzv w xv
      rw [literalOf_zero g z0 zv hz hzv]
      simp [evalUnsignedCondition, toUnsigned_zero]
  · intro hk hin
    obtain ⟨g', c, hrun, hkc, hrep⟩ := ReplaceWithConstantAndRemove_Replaced g inst block_id
      DataType.kBool 0 hb (IsConstant_false_of_KindOf g inst _ hk rfl)
    refine ⟨g', c, ?_, hkc, hrep, ?_⟩
    · simp [InstructionWithAbsorbingInputSimplifier.Accept, hk, VisitBelow, HGraph.GetRight,
        hin, hzt, hrun]
    · intro zv hzv w xv
      rw [literalOf_zero g z0 zv hz hzv]
      simp [evalUnsignedCondition, toUnsigned_zero]
  · intro hk hin
    obtain ⟨g', c, hrun, hkc, hrep⟩ := ReplaceWithConstantAndRemove_Replaced g inst block_id
      DataType.kBool 1 hb (IsConstant_false_of_KindOf g inst _ hk rfl)
    refine ⟨g', c, ?_, hkc, hrep, ?_⟩
    · simp [InstructionWithAbsorbingInputSimplifier.Accept, hk, VisitAboveOrEqual,
        HGraph.GetRight, hin, hzt, hrun]
    · intro zv hzv w xv
      rw [literalOf_zero g z0 zv hz hzv]
      simp [evalUnsignedCondition, toUnsigned_zero]
  · intro hk hin
    obtain ⟨g', c, hrun, hkc, hrep⟩ := ReplaceWithConstantAndRemove_Replaced g inst block_id
      DataType.kBool 1 hb (IsConstant_false_of_KindOf g inst _ hk rfl)
    refine ⟨g', c, ?_, hkc, hrep, ?_⟩
    · simp [InstructionWithAbsorbingInputSimplifier.Accept, hk, VisitBelowOrEqual,
        HGraph.GetLeft, hin, hzt, hrun]
    · intro zv hzv w xv
      rw [literalOf_zero g z0 zv hz hzv]
      simp [evalUnsignedCondition, toUnsigned_zero]
  · intro hk hin
    refine ⟨?_, by decide, by decide⟩
    simp [InstructionWithAbsorbingInputSimplifier.Accept, hk, VisitAbove, HGraph.GetLeft,
      hin, hxf]
  · intro hk hin
    refine ⟨?_, by decide, by decide⟩
    simp [InstructionWithAbsorbingInputSimplifier.Accept, hk, VisitBelow, HGraph.GetRight,
      hin, hxf]
  · intro hk hin
    refine ⟨?_, by decide, by decide⟩
    simp [InstructionWithAbsorbingInputSimplifier.Accept, hk, VisitAboveOrEqual,
      HGraph.GetRight, hin, hxf]
  · intro hk hin
    refine ⟨?_, by decide, by decide⟩
    simp [InstructionWithAbsorbingInputSimplifier.Accept, hk, VisitBelowOrEqual,
      HGraph.GetLeft, hin, hxf]

theorem unsigned_comparison_with_zero_bound_witness :
    (exampleOperation InstructionKind.Below DataType.kBool [0, 1] DataType.kInt32
      (InstructionKind.IntConstant 0)).BlockOf 3 = some 1 ∧
    (exampleOperation InstructionKind.Below DataType.kBool [0, 1] DataType.kInt32
      (InstructionKind.IntConstant 0)).IsConstant 1 = true ∧
    (exampleOperation InstructionKind.Below DataType.kBool [0, 1] DataType.kInt32
      (InstructionKind.IntConstant 0)).kindIs InstructionKind.IsArithmeticZero 1 = true ∧
    (exampleOperation InstructionKind.Below DataType.kBool [0, 1] DataType.kInt32
      (InstructionKind.IntConstant 0)).IsConstant 0 = false ∧
    (exampleOperation InstructionKind.Below DataType.kBool [0, 1] DataType.kInt32
      (InstructionKind.IntConstant 0)).KindOf 3 = some InstructionKind.Below ∧
    (exampleOperation InstructionKind.Below DataType.kBool [0, 1] DataType.kInt32
      (InstructionKind.IntConstant 0)).InputAt 3 1 = some 1 ∧
    ∃ g' c, InstructionWithAbsorbingInputSimplifier.Accept
        (exampleOperation InstructionKind.Below DataType.kBool [0, 1] DataType.kInt32
          (InstructionKind.IntConstant 0)) 3 = some g' ∧
      g'.KindOf c = some (InstructionKind.IntConstant 0) ∧
      (exampleOperation InstructionKind.Below DataType.kBool [0, 1] DataType.kInt32
        (InstructionKind.IntConstant 0)).Replaced g' 3 1 c ∧
      ∀ zv, (exampleOperation InstructionKind.Below DataType.kBool [0, 1] DataType.kInt32
          (InstructionKind.IntConstant 0)).literalOf 1 = some zv → ∀ (w : Nat) (xv : Int),
        evalUnsignedCondition InstructionKind.Below w xv zv = some false :=
  ⟨rfl, rfl, rfl, rfl, rfl, rfl,
    (unsigned_comparison_with_zero_bound
      (exampleOperation InstructionKind.Below DataType.kBool [0, 1] DataType.kInt32
        (InstructionKind.IntConstant 0)) 3 1 1 0 rfl rfl rfl rfl).2.1 rfl rfl⟩

/-- C16 (counterexample): `Compare(NaN, x)` with greater-than bias on the
float parameter `x`: an operand is a NaN constant, yet the absorbing simplifier
leaves the graph as it is, and the Compare stays in its block. -/
theorem VisitCompare_keeps_NaN_on_the_left :
    (exampleOperation (InstructionKind.Compare true) DataType.kInt32 [1, 0] DataType.kFloat32
      (InstructionKind.FloatConstant 0x7fc00000)).KindOf 3 =
      some (InstructionKind.Compare true) ∧
    (exampleOperation (InstructionKind.Compare true) DataType.kInt32 [1, 0] DataType.kFloat32
      (InstructionKind.FloatConstant 0x7fc00000)).InputAt 3 0 = some 1 ∧
    (exampleOperation (InstructionKind.Compare true) DataType.kInt32 [1, 0] DataType.kFloat32
      (InstructionKind.FloatConstant 0x7fc00000)).kindIs InstructionKind.IsNaN 1 = true ∧
    ((exampleOperation (InstructionKind.Compare true) DataType.kInt32 [1, 0] DataType.kFloat32
      (InstructionKind.FloatConstant 0x7fc00000)).GetType 0).IsFloatingPointType = true ∧
    InstructionWithAbsorbingInputSimplifier.Accept
      (exampleOperation (InstructionKind.Compare true) DataType.kInt32 [1, 0] DataType.kFloat32
        (InstructionKind.FloatConstant 0x7fc00000)) 3 =
      some (exampleOperation (InstructionKind.Compare true) DataType.kInt32 [1, 0]
        DataType.kFloat32 (InstructionKind.FloatConstant 0x7fc00000)) ∧
    (exampleOperation (InstructionKind.Compare true) DataType.kInt32 [1, 0] DataType.kFloat32
      (InstructionKind.FloatConstant 0x7fc00000)).BlockOf 3 = some 1 :=
  ⟨rfl, rfl, rfl, rfl, rfl, rfl⟩

/-- The rule of VisitCompare: for every Compare whose right operand is a NaN
constant and whose left operand is of type float or double, the absorbing
simplifier replaces the Compare by the int constant fixed by its bias: 1 for
the greater-than bias and -1 for the less-than bias. -/
theorem VisitCompare_right_NaN_rule (g : HGraph) (inst block_id x nan : Nat)
    (bias : Bool)
    (hk : g.KindOf inst = some (InstructionKind.Compare bias))
    (hb : g.BlockOf inst = some block_id)
    (hl : g.InputAt inst 0 = some x) (hr : g.InputAt inst 1 = some nan)
    (hfl : (g.GetType x).IsFloatingPointType = true)
    (hnan : g.kindIs InstructionKind.IsNaN nan = true) :
    ∃ g' c, InstructionWithAbsorbingInputSimplifier.Accept g inst = some g' ∧
      g'.KindOf c = some (InstructionKind.IntConstant (if bias = true then 1 else -1)) ∧
      g.Replaced g' inst block_id c := by
  have hc : g.IsConstant nan = true := by
    unfold HGraph.kindIs at hnan
    unfold HGraph.IsConstant HGraph.kindIs
    cases hkn : g.KindOf nan with
    | none => rw [hkn] at hnan; cases hnan
    | some k =>
      rw [hkn] at hnan
      cases k <;> simp [InstructionKind.IsNaN] at hnan <;> rfl
  have hcr : g.GetConstantRight inst = some nan := by
    simp [HGraph.GetConstantRight, HGraph.GetLeft, HGraph.GetRight, hl, hr, hc]
  have hll : g.GetLeastConstantLeft inst = some x := by
    simp only [HGraph.GetLeastConstantLeft, hcr, HGraph.GetLeft, HGraph.GetRight, hl, hr]
    split
    · next h => exact h
    · rfl
  obtain ⟨g', c, hrun, hkc, hrep⟩ := ReplaceWithConstantAndRemove_Replaced g inst block_id
    DataType.kInt32 (if bias = true then 1 else -1) hb
    (IsConstant_false_of_KindOf g inst _ hk rfl)
  refine ⟨g', c, ?_, hkc, hrep⟩
  have hbias : g.kindIs (fun k => k = InstructionKind.Compare true) inst = bias := by
    cases bias <;> simp [HGraph.kindIs, hk]
  simp only [InstructionWithAbsorbingInputSimplifier.Accept, hk, VisitCompare, hcr, hll, hfl,
    hnan, Bool.and_self, if_true, hbias]
  exact hrun

/-! ## The absorbing rewrites on integers -/

theorem wrapSigned_zero (w : Nat) (hw : w = 32 ∨ w = 64) : wrapSigned w 0 = 0 := by
  rcases hw with rfl | rfl <;> decide

theorem toUnsigned_lt (w : Nat) (x : Int) : toUnsigned w x < 2 ^ w := by
  unfold toUnsigned
  have h1 : (0 : Int) ≤ x % 2 ^ w := Int.emod_nonneg _ (by positivity)
  have h2 : x % 2 ^ w < 2 ^ w := Int.emod_lt_of_pos _ (by positivity)
  have : ((x % 2 ^ w).toNat : Int) < ((2 ^ w : Nat) : Int) := by
    rw [Int.toNat_of_nonneg h1]; push_cast; exact h2
  exact_mod_cast this

theorem toUnsigned_wrapSigned (w : Nat) (hw : w = 32 ∨ w = 64) (x : Int) :
    toUnsigned w (wrapSigned w x) = toUnsigned w x := by
  unfold toUnsigned wrapSigned
  congr 1
  rcases hw with rfl | rfl <;> norm_num <;> omega

theorem toUnsigned_evalNot (w : Nat) (hw : w = 32 ∨ w = 64) (x : Int) :
    toUnsigned w (evalNot w x) = 2 ^ w - (toUnsigned w x + 1) := by
  unfold evalNot
  rw [toUnsigned_wrapSigned w hw]
  unfold toUnsigned
  rcases hw with rfl | rfl <;> norm_num <;> omega

theorem and_complement (w a : Nat) (ha : a < 2 ^ w) : a &&& (2 ^ w - (a + 1)) = 0 := by
  apply Nat.eq_of_testBit_eq
  intro i
  rw [Nat.testBit_and, Nat.testBit_two_pow_sub_succ ha]
  simp
  intro h _
  simp [h]

theorem or_all_ones (w a : Nat) (ha : a < 2 ^ w) : a ||| (2 ^ w - 1) = 2 ^ w - 1 := by
  apply Nat.eq_of_testBit_eq
  intro i
  rw [Nat.testBit_or, Nat.testBit_two_pow_sub_one]
  by_cases h : i < w
  · simp [h]
  · have : a < 2 ^ i := lt_of_lt_of_le ha (Nat.pow_le_pow_right (by decide) (by omega))
    simp [h, Nat.testBit_lt_two_pow this]

theorem toUnsigned_minus_one (w : Nat) (hw : w = 32 ∨ w = 64) :
    toUnsigned w (-1) = 2 ^ w - 1 := by
  rcases hw with rfl | rfl <;> decide

theorem wrapSigned_all_ones (w : Nat) (hw : w = 32 ∨ w = 64) :
    wrapSigned w ((2 ^ w - 1 : Nat) : Int) = -1 := by
  rcases hw with rfl | rfl <;> decide

theorem literalOf_constantKind (g : HGraph) (c : Nat) (ty : DataType) (value : Int)
    (h : g.KindOf c = some (constantKind ty value)) : g.literalOf c = some value := by
  unfold HGraph.literalOf
  rw [h]
  unfold constantKind
  cases ty <;> rfl

theorem literalOf_one (g : HGraph) (one : Nat) (ov : Int)
    (h : g.kindIs InstructionKind.IsOne one = true ∨
      g.kindIs InstructionKind.IsMinusOne one = true)
    (hv : g.literalOf one = some ov) : ov = 1 ∨ ov = -1 := by
  unfold HGraph.literalOf at hv
  unfold HGraph.kindIs at h
  cases hk : g.KindOf one with
  | none => rw [hk] at hv; cases hv
  | some k =>
    rw [hk] at hv h
    cases k <;> simp [InstructionKind.integralValue] at hv <;>
      simp [InstructionKind.IsOne, InstructionKind.IsMinusOne] at h <;> omega

theorem literalOf_minus_one (g : HGraph) (m : Nat) (mv : Int)
    (h : g.kindIs (fun k => k.Int64FromConstant = -1) m = true)
    (hv : g.literalOf m = some mv) : mv = -1 := by
  unfold HGraph.literalOf at hv
  unfold HGraph.kindIs at h
  cases hk : g.KindOf m with
  | none => rw [hk] at hv; cases hv
  | some k =>
    rw [hk] at hv h
    cases k <;> simp [InstructionKind.integralValue] at hv <;>
      simp [InstructionKind.Int64FromConstant] at h <;> omega

/-- The constant operand that `GetConstantRight` finds for a commutative
operation one of whose operands is the constant `c` and the other is not a
constant. -/
theorem GetConstantRight_commutative (g : HGraph) (inst x c : Nat) (k : InstructionKind)
    (hk : g.KindOf inst = some k) (hcomm : k.IsCommutative = true)
    (hops : (g.InputAt inst 0 = some x ∧ g.InputAt inst 1 = some c) ∨
      (g.InputAt inst 0 = some c ∧ g.InputAt inst 1 = some x))
    (hc : g.IsConstant c = true) (hx : g.IsConstant x = false) :
    g.GetConstantRight inst = some c := by
  rcases hops with ⟨hl, hr⟩ | ⟨hl, hr⟩
  · simp [HGraph.GetConstantRight, HGraph.GetLeft, HGraph.GetRight, hl, hr, hc]
  · simp [HGraph.GetConstantRight, HGraph.GetLeft, HGraph.GetRight, hl, hr, hc, hx,
      HGraph.kindIs, hk, hcomm]

theorem ne_of_IsConstant (g : HGraph) (c x : Nat) (hc : g.IsConstant c = true)
    (hx : g.IsConstant x = false) : c ≠ x := by
  intro h
  rw [h, hx] at hc
  cases hc

/-- C12: the absorbing simplifier replaces an int or long `Mul` one of whose
operands is a constant zero by that zero, `Sub(x, x)` of an integral type by
the constant 0, `Rem(x, 1)`, `Rem(x, -1)` and `Rem(x, x)` of an integral type
by the constant 0, and `Rem(0, x)` by that zero; in each case the replacement
is the two's-complement result of the operation for every value of `x` (for
Rem, every value for which the divisor is not zero).  Here `x` is an operand
that is not a constant and not the instruction itself. -/
theorem integer_absorbing_rewrites_exact (g : HGraph) (inst block_id x : Nat)
    (hb : g.BlockOf inst = some block_id)
    (hx : g.IsConstant x = false) (hxi : x ≠ inst) :
    (g.KindOf inst = some InstructionKind.Mul → (g.GetType inst).IsIntOrLongType = true →
      ∀ z0, ((g.InputAt inst 0 = some x ∧ g.InputAt inst 1 = some z0) ∨
          (g.InputAt inst 0 = some z0 ∧ g.InputAt inst 1 = some x)) →
        g.IsConstant z0 = true → g.kindIs InstructionKind.IsArithmeticZero z0 = true →
        ∃ g', InstructionWithAbsorbingInputSimplifier.Accept g inst = some g' ∧
          g.Replaced g' inst block_id z0 ∧
          ∀ zv, g.literalOf z0 = some zv → ∀ w, (w = 32 ∨ w = 64) → ∀ xv : Int,
            evalBinary InstructionKind.Mul w xv zv = some zv ∧
            evalBinary InstructionKind.Mul w zv xv = some zv) ∧
    (g.KindOf inst = some InstructionKind.Sub → (g.GetType inst).IsIntegralType = true →
      g.InputAt inst 0 = some x → g.InputAt inst 1 = some x →
      ∃ g' c, InstructionWithAbsorbingInputSimplifier.Accept g inst = some g' ∧
        g'.literalOf c = some 0 ∧ g.Replaced g' inst block_id c ∧
        ∀ w, (w = 32 ∨ w = 64) → ∀ xv : Int,
          evalBinary InstructionKind.Sub w xv xv = some 0) ∧
    (g.KindOf inst = some InstructionKind.Rem → (g.GetType inst).IsIntegralType = true →
      g.InputAt inst 0 = some x →
      ∀ one, g.InputAt inst 1 = some one → g.IsConstant one = true →
        (g.kindIs InstructionKind.IsOne one = true ∨
          g.kindIs InstructionKind.IsMinusOne one = true) →
        ∃ g' c, InstructionWithAbsorbingInputSimplifier.Accept g inst = some g' ∧
          g'.literalOf c = some 0 ∧ g.Replaced g' inst block_id c ∧
          ∀ ov, g.literalOf one = some ov → ∀ w, (w = 32 ∨ w = 64) → ∀ xv : Int,
            evalBinary InstructionKind.Rem w xv ov = some 0) ∧
    (g.KindOf inst = some InstructionKind.Rem → (g.GetType inst).IsIntegralType = true →
      g.InputAt inst 0 = some x → g.InputAt inst 1 = some x →
      ∃ g' c, InstructionWithAbsorbingInputSimplifier.Accept g inst = some g' ∧
        g'.literalOf c = some 0 ∧ g.Replaced g' inst block_id c ∧
        ∀ w, (w = 32 ∨ w = 64) → ∀ xv : Int, xv ≠ 0 →
          evalBinary InstructionKind.Rem w xv xv = some 0) ∧
    (g.KindOf inst = some InstructionKind.Rem → (g.GetType inst).IsIntegralType = true →
      g.InputAt inst 1 = some x →
      ∀ z0, g.InputAt inst 0 = some z0 → g.IsConstant z0 = true →
        g.kindIs InstructionKind.IsArithmeticZero z0 = true →
        ∃ g', InstructionWithAbsorbingInputSimplifier.Accept g inst = some g' ∧
          g.Replaced g' inst block_id z0 ∧
          ∀ zv, g.literalOf z0 = some zv → ∀ w, (w = 32 ∨ w = 64) → ∀ xv : Int, xv ≠ 0 →
            evalBinary InstructionKind.Rem w zv xv = some zv) ∧
    evalBinary InstructionKind.Rem 32 (-2147483648) (-1) = some 0 := by
  refine ⟨?_, ?_, ?_, ?_, ?_, by decide⟩
  · intro hk hty z0 hops hzc hz
    have hcr := GetConstantRight_commutative g inst x z0 _ hk rfl hops hzc hx
    have hne : z0 ≠ inst := by
      intro h
      rw [h] at hzc
      simp [HGraph.IsConstant, HGraph.kindIs, hk, InstructionKind.IsConstant] at hzc
    obtain ⟨g', hrun, hrep, _⟩ := ReplaceWithAndRemove_Replaced g inst z0 block_id hb hne
    refine ⟨g', ?_, hrep, ?_⟩
    · simp [InstructionWithAbsorbingInputSimplifier.Accept, hk, VisitMul, hcr, hty, hz, hrun]
    · intro zv hzv w hw xv
      rw [literalOf_zero g z0 zv hz hzv]
      simp [evalBinary, wrapSigned_zero w hw]
  · intro hk hty hl hr
    obtain ⟨g', c, hrun, hkc, hrep⟩ := ReplaceWithConstantAndRemoveFrom_Replaced g inst
      block_id (g.GetType inst) 0 hb (IsConstant_false_of_KindOf g inst _ hk rfl)
    refine ⟨g', c, ?_, literalOf_constantKind g' c _ 0 hkc, hrep, ?_⟩
    · simp [InstructionWithAbsorbingInputSimplifier.Accept, hk, VisitSub, hty, hb,
        HGraph.GetLeft, HGraph.GetRight, hl, hr, hrun]
    · intro w hw xv
      simp [evalBinary, wrapSigned_zero w hw]
  · intro hk hty hl one hr hoc hone
    obtain ⟨g', c, hrun, hkc, hrep⟩ := ReplaceWithConstantAndRemoveFrom_Replaced g inst
      block_id (g.GetType inst) 0 hb (IsConstant_false_of_KindOf g inst _ hk rfl)
    refine ⟨g', c, ?_, literalOf_constantKind g' c _ 0 hkc, hrep, ?_⟩
    · have hcond : (g.IsConstant one &&
          (g.kindIs InstructionKind.IsOne one || g.kindIs InstructionKind.IsMinusOne one)) =
          true := by
        rcases hone with h | h <;> simp [hoc, h]
      simp [InstructionWithAbsorbingInputSimplifier.Accept, hk, VisitRem, hty, hb,
        HGraph.GetLeft, HGraph.GetRight, hl, hr, hx, VisitRem.oneRule, hcond, hrun]
    · intro ov hov w hw xv
      rcases literalOf_one g one ov hone hov with h | h <;> subst h
      · simp [evalBinary, Int.tmod_one, wrapSigned_zero w hw]
      · have : xv.tmod (-1) = 0 := by rw [Int.tmod_neg, Int.tmod_one]
        simp [evalBinary, this, wrapSigned_zero w hw]
  · intro hk hty hl hr
    obtain ⟨g', c, hrun, hkc, hrep⟩ := ReplaceWithConstantAndRemoveFrom_Replaced g inst
      block_id (g.GetType inst) 0 hb (IsConstant_false_of_KindOf g inst _ hk rfl)
    refine ⟨g', c, ?_, literalOf_constantKind g' c _ 0 hkc, hrep, ?_⟩
    · simp [InstructionWithAbsorbingInputSimplifier.Accept, hk, VisitRem, hty, hb,
        HGraph.GetLeft, HGraph.GetRight, hl, hr, hx, VisitRem.oneRule, hrun]
    · intro w hw xv hxv
      simp [evalBinary, hxv, Int.tmod_self, wrapSigned_zero w hw]
  · intro hk hty hr z0 hl hzc hz
    have hne : z0 ≠ inst := by
      intro h
      rw [h] at hzc
      simp [HGraph.IsConstant, HGraph.kindIs, hk, InstructionKind.IsConstant] at hzc
    obtain ⟨g', hrun, hrep, hkind⟩ := ReplaceWithAndRemoveFrom_Replaced g inst z0 block_id hne
    have hl' : g'.InputAt inst 0 = some z0 := hrep.2.2.2.2 inst 0 z0 hne hl
    have hr' : g'.InputAt inst 1 = some x := hrep.2.2.2.2 inst 1 x hxi hr
    have hx' : g'.IsConstant x = false := by
      simp only [HGraph.IsConstant, HGraph.kindIs, hkind] at hx ⊢
      exact hx
    refine ⟨g', ?_, hrep, ?_⟩
    · simp [InstructionWithAbsorbingInputSimplifier.Accept, hk, VisitRem, hty, hb,
        HGraph.GetLeft, HGraph.GetRight, hl, hzc, hz, hrun, VisitRem.oneRule, hl', hr', hx',
        ne_of_IsConstant g z0 x hzc hx]
    · intro zv hzv w hw xv hxv
      rw [literalOf_zero g z0 zv hz hzv]
      simp [evalBinary, hxv, Int.zero_tmod, wrapSigned_zero w hw]

theorem integer_absorbing_rewrites_exact_witness :
    (exampleOperation InstructionKind.Mul DataType.kInt32 [1, 0] DataType.kInt32
      (InstructionKind.IntConstant 0)).BlockOf 3 = some 1 ∧
    (exampleOperation InstructionKind.Mul DataType.kInt32 [1, 0] DataType.kInt32
      (InstructionKind.IntConstant 0)).IsConstant 0 = false ∧
    (exampleOperation InstructionKind.Mul DataType.kInt32 [1, 0] DataType.kInt32
      (InstructionKind.IntConstant 0)).KindOf 3 = some InstructionKind.Mul ∧
    ∃ g', InstructionWithAbsorbingInputSimplifier.Accept
        (exampleOperation InstructionKind.Mul DataType.kInt32 [1, 0] DataType.kInt32
          (InstructionKind.IntConstant 0)) 3 = some g' ∧
      (exampleOperation InstructionKind.Mul DataType.kInt32 [1, 0] DataType.kInt32
        (InstructionKind.IntConstant 0)).Replaced g' 3 1 1 ∧
      ∀ zv, (exampleOperation InstructionKind.Mul DataType.kInt32 [1, 0] DataType.kInt32
          (InstructionKind.IntConstant 0)).literalOf 1 = some zv →
        ∀ w, (w = 32 ∨ w = 64) → ∀ xv : Int,
          evalBinary InstructionKind.Mul w xv zv = some zv ∧
          evalBinary InstructionKind.Mul w zv xv = some zv :=
  ⟨rfl, rfl, rfl,
    (integer_absorbing_rewrites_exact
      (exampleOperation InstructionKind.Mul DataType.kInt32 [1, 0] DataType.kInt32
        (InstructionKind.IntConstant 0)) 3 1 0 rfl rfl (by decide)).1 rfl rfl 1
      (Or.inr ⟨rfl, rfl⟩) rfl rfl⟩

/-! ## The absorbing rewrites on bit patterns -/

/-- C13 (counterexample): in `And(x, Not(x))` with `x = Not(y)` both operands
are Not instructions, and the absorbing simplifier leaves the graph as it is:
the And stays in its block. -/
theorem VisitAnd_keeps_And_of_two_Nots :
    exampleAndOfNots.KindOf 4 = some InstructionKind.And ∧
    exampleAndOfNots.InputAt 4 0 = some 2 ∧ exampleAndOfNots.InputAt 4 1 = some 3 ∧
    exampleAndOfNots.KindOf 3 = some InstructionKind.Not ∧
    exampleAndOfNots.InputAt 3 0 = some 2 ∧
    exampleAndOfNots.IsConstant 2 = false ∧
    InstructionWithAbsorbingInputSimplifier.Accept exampleAndOfNots 4 = some exampleAndOfNots ∧
    exampleAndOfNots.BlockOf 4 = some 1 :=
  ⟨rfl, rfl, rfl, rfl, rfl, rfl, rfl, rfl⟩

theorem kindIs_of_Replaced_kinds (g g' : HGraph) (hkind : ∀ id, g'.KindOf id = g.KindOf id)
    (p : InstructionKind → Bool) (id : Nat) : g'.kindIs p id = g.kindIs p id := by
  simp [HGraph.kindIs, hkind]

theorem IsConstant_not_Not (g : HGraph) (c : Nat) (hc : g.IsConstant c = true) :
    g.kindIs (fun k => k = InstructionKind.Not) c = false := by
  unfold HGraph.IsConstant HGraph.kindIs at hc
  unfold HGraph.kindIs
  cases hk : g.KindOf c with
  | none => rfl
  | some k =>
    rw [hk] at hc
    cases k <;> simp [InstructionKind.IsConstant] at hc <;> simp

/-- C13 (amended): the absorbing simplifier replaces an `And` one of whose
operands is a constant of zero bit pattern by that constant, `And(x, Not(x))`
in either operand order, for an `x` that is not itself a Not, by the constant
0, an `Or` one of whose operands is a constant equal to -1 by that constant,
`Xor(x, x)` by the constant 0, and a `Shl`, `Shr` or `UShr` whose left operand
is a constant zero by that zero; in each case the replacement is the result of
the operation for every value of `x` and every shift distance.  Here `x` is an
operand that is not a constant and not the instruction itself. -/
theorem bitwise_absorbing_rewrites_exact (g : HGraph) (inst block_id x : Nat)
    (hb : g.BlockOf inst = some block_id)
    (hx : g.IsConstant x = false) (hxi : x ≠ inst) :
    (g.KindOf inst = some InstructionKind.And →
      ∀ z0, ((g.InputAt inst 0 = some x ∧ g.InputAt inst 1 = some z0) ∨
          (g.InputAt inst 0 = some z0 ∧ g.InputAt inst 1 = some x)) →
        g.IsConstant z0 = true → g.kindIs InstructionKind.IsZeroBitPattern z0 = true →
        (g.kindIs (fun k => k = InstructionKind.Not) x = true →
          ∃ y, g.InputAt x 0 = some y ∧ y ≠ z0 ∧ y ≠ inst) →
        ∃ g', InstructionWithAbsorbingInputSimplifier.Accept g inst = some g' ∧
          g.Replaced g' inst block_id z0 ∧
          ∀ zv, g.literalOf z0 = some zv → ∀ w, (w = 32 ∨ w = 64) → ∀ xv : Int,
            evalBinary InstructionKind.And w xv zv = some zv ∧
            evalBinary InstructionKind.And w zv xv = some zv) ∧
    (g.KindOf inst = some InstructionKind.And →
      ∀ n, ((g.InputAt inst 0 = some x ∧ g.InputAt inst 1 = some n) ∨
          (g.InputAt inst 0 = some n ∧ g.InputAt inst 1 = some x)) →
        g.KindOf n = some InstructionKind.Not → g.InputAt n 0 = some x →
        g.kindIs (fun k => k = InstructionKind.Not) x = false →
        ∃ g' c, InstructionWithAbsorbingInputSimplifier.Accept g inst = some g' ∧
          g'.literalOf c = some 0 ∧ g.Replaced g' inst block_id c ∧
          ∀ w, (w = 32 ∨ w = 64) → ∀ xv : Int,
            evalBinary InstructionKind.And w xv (evalNot w xv) = some 0 ∧
            evalBinary InstructionKind.And w (evalNot w xv) xv = some 0) ∧
    (g.KindOf inst = some InstructionKind.Or →
      ∀ m, ((g.InputAt inst 0 = some x ∧ g.InputAt inst 1 = some m) ∨
          (g.InputAt inst 0 = some m ∧ g.InputAt inst 1 = some x)) →
        g.IsConstant m = true → g.kindIs (fun k => k.Int64FromConstant = -1) m = true →
        ∃ g', InstructionWithAbsorbingInputSimplifier.Accept g inst = some g' ∧
          g.Replaced g' inst block_id m ∧
          ∀ mv, g.literalOf m = some mv → ∀ w, (w = 32 ∨ w = 64) → ∀ xv : Int,
            evalBinary InstructionKind.Or w xv mv = some mv ∧
            evalBinary InstructionKind.Or w mv xv = some mv) ∧
    (g.KindOf inst = some InstructionKind.Xor →
      g.InputAt inst 0 = some x → g.InputAt inst 1 = some x →
      ∃ g' c, InstructionWithAbsorbingInputSimplifier.Accept g inst = some g' ∧
        g'.literalOf c = some 0 ∧ g.Replaced g' inst block_id c ∧
        ∀ w, (w = 32 ∨ w = 64) → ∀ xv : Int,
          evalBinary InstructionKind.Xor w xv xv = some 0) ∧
    (∀ k, (k = InstructionKind.Shl ∨ k = InstructionKind.Shr ∨ k = InstructionKind.UShr) →
      g.KindOf inst = some k →
      ∀ z0, g.InputAt inst 0 = some z0 → g.IsConstant z0 = true →
        g.kindIs InstructionKind.IsArithmeticZero z0 = true →
        ∃ g', InstructionWithAbsorbingInputSimplifier.Accept g inst = some g' ∧
          g.Replaced g' inst block_id z0 ∧
          ∀ zv, g.literalOf z0 = some zv → ∀ w, (w = 32 ∨ w = 64) → ∀ d : Int,
            evalBinary k w zv d = some zv) := by
  refine ⟨?_, ?_, ?_, ?_, ?_⟩
  · intro hk z0 hops hzc hz hnot
    have hcr := GetConstantRight_commutative g inst x z0 _ hk rfl hops hzc hx
    have hne : z0 ≠ inst := by
      intro h
      rw [h] at hzc
      simp [HGraph.IsConstant, HGraph.kindIs, hk, InstructionKind.IsConstant] at hzc
    obtain ⟨g', hrun, hrep, hkind⟩ := ReplaceWithAndRemove_Replaced g inst z0 block_id hb hne
    have hz0not : g'.kindIs (fun k => k = InstructionKind.Not) z0 = false := by
      rw [kindIs_of_Replaced_kinds g g' hkind]
      exact IsConstant_not_Not g z0 hzc
    have hxnot : g'.kindIs (fun k => k = InstructionKind.Not) x =
        g.kindIs (fun k => k = InstructionKind.Not) x := kindIs_of_Replaced_kinds g g' hkind _ x
    have hrule : VisitAnd.notRule g' inst (g.GetType inst) = some g' := by
      unfold VisitAnd.notRule
      rcases hops with ⟨hl, hr⟩ | ⟨hl, hr⟩
      · have hl' := hrep.2.2.2.2 inst 0 x hxi hl
        have hr' := hrep.2.2.2.2 inst 1 z0 hne hr
        simp only [HGraph.GetLeft, HGraph.GetRight, hl', hr', hz0not, hxnot]
        cases hxn : g.kindIs (fun k => k = InstructionKind.Not) x with
        | false => simp
        | true =>
          obtain ⟨y, hy, hyz, hyi⟩ := hnot hxn
          have hy' := hrep.2.2.2.2 x 0 y hyi hy
          simp [hy', hyz]
      · have hl' := hrep.2.2.2.2 inst 0 z0 hne hl
        have hr' := hrep.2.2.2.2 inst 1 x hxi hr
        simp only [HGraph.GetLeft, HGraph.GetRight, hl', hr', hz0not, hxnot]
        cases hxn : g.kindIs (fun k => k = InstructionKind.Not) x with
        | false => simp
        | true =>
          obtain ⟨y, hy, hyz, hyi⟩ := hnot hxn
          have hy' := hrep.2.2.2.2 x 0 y hyi hy
          simp [hy', hyz]
    refine ⟨g', ?_, hrep, ?_⟩
    · simp [InstructionWithAbsorbingInputSimplifier.Accept, hk, VisitAnd, hcr, hz, hrun, hrule]
    · intro zv hzv w hw xv
      have hzv0 : zv = 0 := by
        unfold HGraph.literalOf at hzv
        unfold HGraph.kindIs at hz
        cases hkz : g.KindOf z0 with
        | none => rw [hkz] at hzv; cases hzv
        | some k =>
          rw [hkz] at hzv hz
          cases k <;> simp [InstructionKind.integralValue] at hzv <;>
            simp [InstructionKind.IsZeroBitPattern] at hz <;> omega
      subst hzv0
      simp [evalBinary, toUnsigned_zero, wrapSigned_zero w hw]
  · intro hk n hops hkn hnin hxnot
    have hnc : g.IsConstant n = false :=
      IsConstant_false_of_KindOf g n _ hkn rfl
    have hcr : g.GetConstantRight inst = none := by
      rcases hops with ⟨hl, hr⟩ | ⟨hl, hr⟩ <;>
        simp [HGraph.GetConstantRight, HGraph.GetLeft, HGraph.GetRight, hl, hr, hx, hnc]
    have hnn : g.kindIs (fun k => k = InstructionKind.Not) n = true := by
      simp [HGraph.kindIs, hkn]
    obtain ⟨g', c, hrun, hkc, hrep⟩ := ReplaceWithConstantAndRemove_Replaced g inst block_id
      (g.GetType inst) 0 hb (IsConstant_false_of_KindOf g inst _ hk rfl)
    refine ⟨g', c, ?_, literalOf_constantKind g' c _ 0 hkc, hrep, ?_⟩
    · rcases hops with ⟨hl, hr⟩ | ⟨hl, hr⟩
      · simp [InstructionWithAbsorbingInputSimplifier.Accept, hk, VisitAnd, hcr,
          VisitAnd.notRule, HGraph.GetLeft, HGraph.GetRight, hl, hr, hxnot, hnn, hnin, hrun]
      · simp [InstructionWithAbsorbingInputSimplifier.Accept, hk, VisitAnd, hcr,
          VisitAnd.notRule, HGraph.GetLeft, HGraph.GetRight, hl, hr, hxnot, hnn, hnin, hrun]
    · intro w hw xv
      have h1 := and_complement w (toUnsigned w xv) (toUnsigned_lt w xv)
      have h2 : (2 ^ w - (toUnsigned w xv + 1)) &&& toUnsigned w xv = 0 := by
        rw [Nat.and_comm]; exact h1
      simp only [evalBinary, toUnsigned_evalNot w hw, h1, h2]
      simp [wrapSigned_zero w hw]
  · intro hk m hops hmc hm
    have hcr := GetConstantRight_commutative g inst x m _ hk rfl hops hmc hx
    have hne : m ≠ inst := by
      intro h
      rw [h] at hmc
      simp [HGraph.IsConstant, HGraph.kindIs, hk, InstructionKind.IsConstant] at hmc
    obtain ⟨g', hrun, hrep, _⟩ := ReplaceWithAndRemove_Replaced g inst m block_id hb hne
    refine ⟨g', ?_, hrep, ?_⟩
    · simp [InstructionWithAbsorbingInputSimplifier.Accept, hk, VisitOr, hcr, hm, hrun]
    · intro mv hmv w hw xv
      rw [literalOf_minus_one g m mv hm hmv]
      have h1 := or_all_ones w (toUnsigned w xv) (toUnsigned_lt w xv)
      have h2 : (2 ^ w - 1) ||| toUnsigned w xv = 2 ^ w - 1 := by
        rw [Nat.or_comm]; exact h1
      simp only [evalBinary, toUnsigned_minus_one w hw, h1, h2, wrapSigned_all_ones w hw]
      simp
  · intro hk hl hr
    obtain ⟨g', c, hrun, hkc, hrep⟩ := ReplaceWithConstantAndRemoveFrom_Replaced g inst
      block_id (g.GetType inst) 0 hb (IsConstant_false_of_KindOf g inst _ hk rfl)
    refine ⟨g', c, ?_, literalOf_constantKind g' c _ 0 hkc, hrep, ?_⟩
    · simp [InstructionWithAbsorbingInputSimplifier.Accept, hk, VisitXor, hb,
        HGraph.GetLeft, HGraph.GetRight, hl, hr, hrun]
    · intro w hw xv
      simp [evalBinary, Nat.xor_self, wrapSigned_zero w hw]
  · intro k hkk hk z0 hl hzc hz
    have hne : z0 ≠ inst := by
      intro h
      rw [h] at hzc
      rcases hkk with h | h | h <;> subst h <;>
        simp [HGraph.IsConstant, HGraph.kindIs, hk, InstructionKind.IsConstant] at hzc
    obtain ⟨g', hrun, hrep, _⟩ := ReplaceWithAndRemove_Replaced g inst z0 block_id hb hne
    refine ⟨g', ?_, hrep, ?_⟩
    · rcases hkk with h | h | h <;> subst h <;>
        simp [InstructionWithAbsorbingInputSimplifier.Accept, hk, VisitShift, HGraph.GetLeft,
          hl, hzc, hz, hrun]
    · intro zv hzv w hw d
      rw [literalOf_zero g z0 zv hz hzv]
      rcases hkk with h | h | h <;> subst h <;>
        simp [evalBinary, toUnsigned_zero, wrapSigned_zero w hw]

theorem bitwise_absorbing_rewrites_exact_witness :
    (exampleOperation InstructionKind.Or DataType.kInt64 [0, 1] DataType.kInt64
      (InstructionKind.LongConstant (-1))).BlockOf 3 = some 1 ∧
    (exampleOperation InstructionKind.Or DataType.kInt64 [0, 1] DataType.kInt64
      (InstructionKind.LongConstant (-1))).IsConstant 0 = false ∧
    (exampleOperation InstructionKind.Or DataType.kInt64 [0, 1] DataType.kInt64
      (InstructionKind.LongConstant (-1))).KindOf 3 = some InstructionKind.Or ∧
    ∃ g', InstructionWithAbsorbingInputSimplifier.Accept
        (exampleOperation InstructionKind.Or DataType.kInt64 [0, 1] DataType.kInt64
          (InstructionKind.LongConstant (-1))) 3 = some g' ∧
      (exampleOperation InstructionKind.Or DataType.kInt64 [0, 1] DataType.kInt64
        (InstructionKind.LongConstant (-1))).Replaced g' 3 1 1 ∧
      ∀ mv, (exampleOperation InstructionKind.Or DataType.kInt64 [0, 1] DataType.kInt64
          (InstructionKind.LongConstant (-1))).literalOf 1 = some mv →
        ∀ w, (w = 32 ∨ w = 64) → ∀ xv : Int,
          evalBinary InstructionKind.Or w xv mv = some mv ∧
          evalBinary InstructionKind.Or w mv xv = some mv :=
  ⟨rfl, rfl, rfl,
    (bitwise_absorbing_rewrites_exact
      (exampleOperation InstructionKind.Or DataType.kInt64 [0, 1] DataType.kInt64
        (InstructionKind.LongConstant (-1))) 3 1 0 rfl rfl (by decide)).2.2.1 rfl 1
      (Or.inl ⟨rfl, rfl⟩) rfl rfl⟩

/-! ## Branch-value propagation: the boolean case -/

theorem exampleBooleanIf_context : IfContext exampleBooleanIf 4 3 2 3 5 7 where
  input := rfl
  true_successor := rfl
  false_successor := rfl
  true_first := rfl
  false_first := rfl
  true_first_block := rfl
  false_first_block := rfl
  true_not_entry := by decide
  false_not_entry := by decide
  inputs_defined := rfl
  no_self_use := by decide
  operands_no_use := by decide

/-- C11: for an If on `Equal(b, c)` or `NotEqual(b, c)` where `b` has
boolean type (so that it is neither a constant nor a Compare) and `c` is a
constant: when `c` is the int constant 1 or 0, VisitIf replaces the uses of
`b` dominated by the chosen successor (true for Equal, false for NotEqual)
with `c` and the uses of `b` dominated by the complementary successor with the
int constant of the negated literal, 0 for 1 and 1 for 0, which is another
instruction than `c`; for any other constant `c` the uses of `b` dominated by
the complementary successor still refer to `b`. -/
theorem VisitIf_propagates_boolean_complement (g : HGraph)
    (stats : Option OptimizingCompilerStats) (inst v t f tfirst ffirst : Nat)
    (ctx : IfContext g inst v t f tfirst ffirst)
    (htf : g.Dominates t f = false) (hft : g.Dominates f t = false)
    (k : InstructionKind) (hk : g.KindOf v = some k)
    (hkind : k = InstructionKind.Equal ∨ k = InstructionKind.NotEqual)
    (b c : Nat)
    (hops : (g.InputAt v 0 = some b ∧ g.InputAt v 1 = some c) ∨
      (g.InputAt v 0 = some c ∧ g.InputAt v 1 = some b))
    (hty : g.GetType b = DataType.kBool)
    (hb : g.IsConstant b = false)
    (hcmp : g.kindIs (fun k => k = InstructionKind.Compare true ∨
      k = InstructionKind.Compare false) b = false)
    (hc : g.IsConstant c = true) :
    ∃ vis', VisitIf { graph := g, stats := stats } inst = some vis' ∧
      (∀ lit : Int, (lit = 0 ∨ lit = 1) → g.KindOf c = some (InstructionKind.IntConstant lit) →
        ∃ other, vis'.graph.KindOf other = some (InstructionKind.IntConstant (1 - lit)) ∧
          vis'.graph.KindOf c = some (InstructionKind.IntConstant lit) ∧ other ≠ c ∧
          (∀ user index, g.IsUse b user index →
            g.InstructionDominates (if k = InstructionKind.Equal then tfirst else ffirst) user
              = true →
            vis'.graph.InputAt user index = some c) ∧
          (∀ user index blk, g.IsUse b user index → g.BlockOf user = some blk →
            g.Reachable blk →
            g.InstructionDominates (if k = InstructionKind.Equal then ffirst else tfirst) user
              = true →
            vis'.graph.InputAt user index = some other)) ∧
      ((∀ lit : Int, (lit = 0 ∨ lit = 1) →
          g.KindOf c ≠ some (InstructionKind.IntConstant lit)) →
        ∀ user index blk, g.IsUse b user index → g.BlockOf user = some blk →
          g.Reachable blk →
          g.InstructionDominates (if k = InstructionKind.Equal then ffirst else tfirst) user
            = true →
          vis'.graph.InputAt user index = some b) := by
  have hnc : g.IsConstant v = false := by
    rcases hkind with h | h <;> subst h <;>
      simp [HGraph.IsConstant, HGraph.kindIs, hk, InstructionKind.IsConstant]
  have hfl : (g.GetType b).IsFloatingPointType = false := by rw [hty]; rfl
  obtain ⟨vis', c1, c0, hrun, hag, _, _, _, _, _, hcsome⟩ :=
    VisitIf_effect g stats inst v t f tfirst ffirst ctx hnc
  have hke : g.kindIs (fun k => k = InstructionKind.Equal) v =
      decide (k = InstructionKind.Equal) := by
    simp [HGraph.kindIs, hk]
  have hcand := candidate_direct g v b c
    (by rcases hkind with h | h <;> subst h <;> simp [hk]) hops hc hb hfl hcmp
  obtain ⟨other, hother, hsome⟩ := hcsome b c hcand
  have hbm : b ∈ g.inputsOf v := by
    rcases hops with ⟨h, _⟩ | ⟨_, h⟩ <;> exact InputAt_mem_inputsOf g v _ b h
  have hbv : b ≠ v := mem_inputsOf_ne ctx.no_self_use hbm
  have hce : (g.GetInstruction c).isSome = true := by
    cases h : g.GetInstruction c with
    | some _ => rfl
    | none => simp [HGraph.IsConstant, HGraph.kindIs, HGraph.KindOf, h] at hc
  -- a reachable user in the complementary region is not in the chosen region
  have hdisj : ∀ user blk, g.BlockOf user = some blk → g.Reachable blk →
      g.inRegion (if k = InstructionKind.Equal then ffirst else tfirst) user = true →
      ¬ g.inRegion (if k = InstructionKind.Equal then tfirst else ffirst) user = true := by
    intro user blk hblk hreach hO hS
    by_cases he : k = InstructionKind.Equal
    · simp only [he, if_true] at hO hS
      exact regions_disjoint g t f tfirst ffirst user blk ctx.true_first_block
        ctx.false_first_block hblk hreach htf hft hS hO
    · simp only [he, if_false] at hO hS
      exact regions_disjoint g t f tfirst ffirst user blk ctx.true_first_block
        ctx.false_first_block hblk hreach htf hft hO hS
  have hcompl : ∀ user index blk, g.IsUse b user index → g.BlockOf user = some blk →
      g.Reachable blk →
      g.InstructionDominates (if k = InstructionKind.Equal then ffirst else tfirst) user
        = true →
      vis'.graph.InputAt user index =
        some (if VisitIf.isBooleanCase g b c = true then other else b) := by
    intro user index blk hu hblk hreach hd
    rw [hsome user index b hbv hu.2]
    have hO : g.inRegion (if k = InstructionKind.Equal then ffirst else tfirst) user = true := by
      simp [HGraph.inRegion, hu.1, hd]
    have hS := hdisj user blk hblk hreach hO
    simp only [hke, decide_eq_true_eq] at hS hO ⊢
    rw [if_pos trivial, if_neg hS]
    by_cases hbool : VisitIf.isBooleanCase g b c = true
    · rw [if_pos ⟨hbool, hO⟩, if_pos hbool]
    · rw [if_neg (fun h => hbool h.1), if_neg hbool]
  refine ⟨vis', hrun, ?_, ?_⟩
  · intro lit hlit hkc
    have hbool : VisitIf.isBooleanCase g b c = true := by
      rcases hlit with h | h <;> subst h <;>
        simp [VisitIf.isBooleanCase, hty, HGraph.kindIs, hkc]
    have hko := hother hbool
    have hlitk : (if g.kindIs (fun k => k = InstructionKind.IntConstant 1) c = true
        then (0 : Int) else 1) = 1 - lit := by
      rcases hlit with h | h <;> subst h <;> simp [HGraph.kindIs, hkc]
    rw [hlitk] at hko
    have hkc' : vis'.graph.KindOf c = some (InstructionKind.IntConstant lit) := by
      rw [hag.KindOf_eq c hce, hkc]
    refine ⟨other, hko, hkc', ?_, ?_, ?_⟩
    · intro h
      rw [h, hkc'] at hko
      have : lit = 1 - lit := by
        simpa using hko
      omega
    · intro user index hu hd
      rw [hsome user index b hbv hu.2]
      have hr : g.inRegion (if k = InstructionKind.Equal then tfirst else ffirst) user
          = true := by
        simp [HGraph.inRegion, hu.1, hd]
      simp only [hke, decide_eq_true_eq, if_true, hr]
    · intro user index blk hu hblk hreach hd
      rw [hcompl user index blk hu hblk hreach hd, if_pos hbool]
  · intro hnlit user index blk hu hblk hreach hd
    have hbool : ¬ VisitIf.isBooleanCase g b c = true := by
      intro h
      simp only [VisitIf.isBooleanCase, Bool.and_eq_true, Bool.or_eq_true] at h
      rcases h.2 with h1 | h1
      · apply hnlit 1 (Or.inr rfl)
        unfold HGraph.kindIs at h1
        cases hkc : g.KindOf c with
        | none => rw [hkc] at h1; cases h1
        | some kc => rw [hkc] at h1; simpa using h1
      · apply hnlit 0 (Or.inl rfl)
        unfold HGraph.kindIs at h1
        cases hkc : g.KindOf c with
        | none => rw [hkc] at h1; cases h1
        | some kc => rw [hkc] at h1; simpa using h1
    rw [hcompl user index blk hu hblk hreach hd, if_neg hbool]

theorem VisitIf_propagates_boolean_complement_witness :
    IfContext exampleBooleanIf 4 3 2 3 5 7 ∧
    exampleBooleanIf.Dominates 2 3 = false ∧ exampleBooleanIf.Dominates 3 2 = false ∧
    exampleBooleanIf.KindOf 3 = some InstructionKind.NotEqual ∧
    exampleBooleanIf.InputAt 3 0 = some 0 ∧ exampleBooleanIf.InputAt 3 1 = some 1 ∧
    exampleBooleanIf.GetType 0 = DataType.kBool ∧
    exampleBooleanIf.KindOf 1 = some (InstructionKind.IntConstant 1) ∧
    ∃ vis', VisitIf { graph := exampleBooleanIf, stats := none } 4 = some vis' ∧
      ∃ other, vis'.graph.KindOf other = some (InstructionKind.IntConstant (1 - 1)) ∧
        vis'.graph.KindOf 1 = some (InstructionKind.IntConstant 1) ∧ other ≠ 1 ∧
        (∀ user index, exampleBooleanIf.IsUse 0 user index →
          exampleBooleanIf.InstructionDominates
            (if InstructionKind.NotEqual = InstructionKind.Equal then 5 else 7) user = true →
          vis'.graph.InputAt user index = some 1) ∧
        (∀ user index blk, exampleBooleanIf.IsUse 0 user index →
          exampleBooleanIf.BlockOf user = some blk → exampleBooleanIf.Reachable blk →
          exampleBooleanIf.InstructionDominates
            (if InstructionKind.NotEqual = InstructionKind.Equal then 7 else 5) user = true →
          vis'.graph.InputAt user index = some other) :=
  ⟨exampleBooleanIf_context, by decide, by decide, rfl, rfl, rfl, rfl, rfl,
    (VisitIf_propagates_boolean_complement exampleBooleanIf none 4 3 2 3 5 7
      exampleBooleanIf_context (by decide) (by decide) InstructionKind.NotEqual rfl
      (Or.inr rfl) 0 1 (Or.inl ⟨rfl, rfl⟩) rfl rfl rfl rfl).imp
      (fun _ h => ⟨h.1, h.2.1 1 (Or.inr rfl) rfl⟩)⟩

/-! ## MaybeAddPhi -/

theorem Extends.ext_refl (g : HGraph) : Extends g g where
  entry := rfl
  blocks := fun _ => rfl
  phis := fun _ => rfl
  predecessors := fun _ => rfl
  successors := fun _ => rfl
  loop := fun _ => rfl
  last := fun _ _ h => h
  inst := fun _ _ h => h
  length := Nat.le_refl _

theorem Extends.ext_trans {g g1 g2 : HGraph} (h1 : Extends g g1) (h2 : Extends g1 g2) :
    Extends g g2 where
  entry := by rw [h2.entry, h1.entry]
  blocks := fun b => by rw [h2.blocks, h1.blocks]
  phis := fun b => by rw [h2.phis, h1.phis]
  predecessors := fun b => by rw [h2.predecessors, h1.predecessors]
  successors := fun b => by rw [h2.successors, h1.successors]
  loop := fun b => by rw [h2.loop, h1.loop]
  last := fun b x h => h2.last b x (h1.last b x h)
  inst := fun id i h => h2.inst id i (h1.inst id i h)
  length := Nat.le_trans h1.length h2.length

theorem getLast?_insertBeforeLast (l : List Nat) (c x : Nat) (h : l.getLast? = some x) :
    (insertBeforeLast l c).getLast? = some x := by
  unfold insertBeforeLast
  rw [h]
  simp [List.getLast?_append]

theorem Extends_InsertConstant (g : HGraph) (k : InstructionKind) (ty : DataType) :
    Extends g (g.InsertConstant k ty).1 where
  entry := rfl
  blocks := fun b => by
    rw [GetBlock_InsertConstant]
    cases g.GetBlock b <;> rfl
  phis := fun b => by
    rw [GetBlock_InsertConstant]
    cases g.GetBlock b with
    | none => rfl
    | some blk => simp only [Option.map_some']; split <;> rfl
  predecessors := fun b => by
    simp only [HGraph.predecessorsOf, GetBlock_InsertConstant]
    cases g.GetBlock b with
    | none => rfl
    | some blk => simp only [Option.map_some']; split <;> rfl
  successors := fun b => by
    simp only [HGraph.successorsOf, GetBlock_InsertConstant]
    cases g.GetBlock b with
    | none => rfl
    | some blk => simp only [Option.map_some']; split <;> rfl
  loop := fun b => by
    rw [GetBlock_InsertConstant]
    cases g.GetBlock b with
    | none => rfl
    | some blk => simp only [Option.map_some']; split <;> rfl
  last := fun b x h => by
    rw [GetBlock_InsertConstant]
    cases hb : g.GetBlock b with
    | none => rw [hb] at h; cases h
    | some blk =>
      rw [hb] at h
      simp only [Option.some_bind, HBasicBlock.GetLastInstruction] at h
      simp only [Option.map_some', Option.some_bind, HBasicBlock.GetLastInstruction]
      split
      · exact getLast?_insertBeforeLast _ _ _ h
      · exact h
  inst := GetInstruction_InsertConstant_old g k ty
  length := by simp [HGraph.InsertConstant]

theorem Extends_GetConstantOfKind (g : HGraph) (k : InstructionKind) (ty : DataType) :
    Extends g (g.GetConstantOfKind k ty).1 := by
  unfold HGraph.GetConstantOfKind
  split
  · exact Extends.ext_refl g
  · exact Extends_InsertConstant g k ty

theorem Extends_GetIntConstant (g : HGraph) (value : Int) :
    Extends g (g.GetIntConstant value).1 :=
  Extends_GetConstantOfKind g _ _

theorem Extends.Dominates_eq {g g1 : HGraph} (h : Extends g g1) (a b : Nat) :
    g1.Dominates a b = g.Dominates a b :=
  Dominates_congr g g1 h.entry h.successors a b

theorem Extends.ext_KindOf_eq {g g1 : HGraph} (h : Extends g g1) (id : Nat) (k : InstructionKind)
    (hk : g.KindOf id = some k) : g1.KindOf id = some k :=
  KindOf_of_extension g g1 id k h.inst hk

/-- The inputs that the loop of MaybeAddPhi computes: one per predecessor, the
literal truth value for a predecessor under exactly one successor of the
dominator, the condition itself otherwise. -/
theorem MaybeAddPhi_inputs_spec (true_successor false_successor : Nat) (same_input : Bool)
    (input : Nat) (preds : List Nat) :
    ∀ g : HGraph,
      (same_input = true ∨ ∀ pred ∈ preds,
        g.Dominates true_successor pred ≠ g.Dominates false_successor pred) →
      ∃ g1 l, MaybeAddPhi.inputs true_successor false_successor same_input input g preds =
          (g1, some l) ∧ Extends g g1 ∧ l.length = preds.length ∧
        ∀ (index pred : Nat), preds[index]? = some pred →
          (g.Dominates true_successor pred ≠ g.Dominates false_successor pred →
            ∃ c, l[index]? = some c ∧
              g1.KindOf c = some (InstructionKind.IntConstant
                (if same_input = g.Dominates true_successor pred then 1 else 0))) ∧
          (g.Dominates true_successor pred = g.Dominates false_successor pred →
            l[index]? = some input) := by
  induction preds with
  | nil =>
    intro g _
    exact ⟨g, [], rfl, Extends.ext_refl g, rfl, by simp⟩
  | cons pred rest ih =>
    intro g hadd
    unfold MaybeAddPhi.inputs
    dsimp only
    by_cases heq : g.Dominates true_successor pred = g.Dominates false_successor pred
    · have hsame : same_input = true := by
        rcases hadd with h | h
        · exact h
        · exact absurd heq (h pred (List.mem_cons_self _ _))
      obtain ⟨g1, l, hrun, hext, hlen, hspec⟩ := ih g (Or.inl hsame)
      refine ⟨g1, input :: l, ?_, hext, by simp [hlen], ?_⟩
      · simp only [heq, if_true, hsame, Bool.not_true, Bool.false_eq_true, if_false]
        rw [hsame] at hrun
        rw [hrun]
        rfl
      · intro index p hp
        cases index with
        | zero =>
          simp only [List.getElem?_cons_zero, Option.some.injEq] at hp
          subst hp
          exact ⟨fun h => absurd heq h, fun _ => by simp⟩
        | succ n =>
          simp only [List.getElem?_cons_succ] at hp ⊢
          exact hspec n p hp
    · have hext0 := Extends_GetIntConstant g
        (if same_input = g.Dominates true_successor pred then 1 else 0)
      have hk0 := (GetIntConstant_step g (Agree.refl g)
        (if same_input = g.Dominates true_successor pred then 1 else 0)).2.2
      generalize g.GetIntConstant
        (if same_input = g.Dominates true_successor pred then 1 else 0) = c at hext0 hk0 ⊢
      have hadd' : same_input = true ∨ ∀ p ∈ rest,
          c.1.Dominates true_successor p ≠ c.1.Dominates false_successor p := by
        rcases hadd with h | h
        · exact Or.inl h
        · right
          intro p hp
          rw [hext0.Dominates_eq, hext0.Dominates_eq]
          exact h p (List.mem_cons_of_mem _ hp)
      obtain ⟨g1, l, hrun, hext, hlen, hspec⟩ := ih c.1 hadd'
      refine ⟨g1, c.2 :: l, ?_, hext0.ext_trans hext, by simp [hlen], ?_⟩
      · simp only [heq, if_false]
        rw [hrun]
        rfl
      · intro index p hp
        cases index with
        | zero =>
          simp only [List.getElem?_cons_zero, Option.some.injEq] at hp
          subst hp
          exact ⟨fun _ => ⟨c.2, by simp, hext.ext_KindOf_eq _ _ hk0⟩, fun h => absurd h heq⟩
        | succ n =>
          simp only [List.getElem?_cons_succ] at hp ⊢
          have := hspec n p hp
          rw [hext0.Dominates_eq, hext0.Dominates_eq] at this
          exact this

/-- The loop of MaybeAddPhi returns without inputs when the conditions are
opposite and a predecessor is under both or under neither successor of the
dominator. -/
theorem MaybeAddPhi_inputs_none (true_successor false_successor input : Nat)
    (preds : List Nat) :
    ∀ g : HGraph,
      (∃ pred ∈ preds,
        g.Dominates true_successor pred = g.Dominates false_successor pred) →
      ∃ g1, MaybeAddPhi.inputs true_successor false_successor false input g preds =
          (g1, none) ∧ Extends g g1 := by
  induction preds with
  | nil =>
    intro g h
    obtain ⟨p, hp, _⟩ := h
    cases hp
  | cons pred rest ih =>
    intro g h
    unfold MaybeAddPhi.inputs
    dsimp only
    by_cases heq : g.Dominates true_successor pred = g.Dominates false_successor pred
    · exact ⟨g, by simp [heq], Extends.ext_refl g⟩
    · have hext0 := Extends_GetIntConstant g
        (if false = g.Dominates true_successor pred then 1 else 0)
      generalize g.GetIntConstant
        (if false = g.Dominates true_successor pred then 1 else 0) = c at hext0 ⊢
      have h' : ∃ p ∈ rest, c.1.Dominates true_successor p = c.1.Dominates false_successor p := by
        obtain ⟨p, hp, hpe⟩ := h
        rcases List.mem_cons.mp hp with h1 | h1
        · rw [h1] at hpe; exact absurd hpe heq
        · exact ⟨p, h1, by rw [hext0.Dominates_eq, hext0.Dominates_eq]; exact hpe⟩
      obtain ⟨g1, hrun, hext⟩ := ih c.1 h'
      refine ⟨g1, ?_, hext0.ext_trans hext⟩
      simp only [heq, if_false]
      rw [hrun]
      rfl

theorem GetInstruction_AddPhi_old (g : HGraph) (block : Nat) (ty : DataType)
    (inputs : List Nat) (id : Nat) (i : HInstruction) (h : g.GetInstruction id = some i) :
    (g.AddPhi block ty inputs).1.GetInstruction id = some i := by
  unfold HGraph.GetInstruction at h ⊢
  unfold HGraph.AddPhi
  simp only
  have hlt : id < g.instructions.length := (List.getElem?_eq_some.mp h).1
  rw [List.getElem?_append_left hlt]
  exact h

theorem GetInstruction_AddPhi_new (g : HGraph) (block : Nat) (ty : DataType)
    (inputs : List Nat) :
    (g.AddPhi block ty inputs).1.GetInstruction (g.AddPhi block ty inputs).2 =
      some { kind := InstructionKind.Phi, type := ty, inputs := inputs, block := some block } := by
  unfold HGraph.GetInstruction HGraph.AddPhi
  simp

theorem GetBlock_AddPhi (g : HGraph) (block : Nat) (ty : DataType) (inputs : List Nat)
    (b : Nat) :
    (g.AddPhi block ty inputs).1.GetBlock b =
      (g.GetBlock b).map (fun blk =>
        if block = b then { blk with phis := blk.phis ++ [g.instructions.length] } else blk) := by
  simp only [HGraph.GetBlock, HGraph.AddPhi, List.getD_eq_getElem?_getD, List.getElem?_modify]
  cases h : g.blocks[b]? with
  | none => simp
  | some blk =>
    by_cases hb : block = b
    · cases blk <;> simp [hb]
    · simp [hb]

theorem GetInstruction_ReplaceInput (g : HGraph) (user index r id : Nat) :
    (g.ReplaceInput user index r).GetInstruction id =
      (g.GetInstruction id).map (fun u =>
        if user = id then { u with inputs := u.inputs.set index r } else u) := by
  simp only [HGraph.GetInstruction, HGraph.ReplaceInput, List.getElem?_modify]
  rfl

theorem GetBlock_ReplaceInput (g : HGraph) (user index r b : Nat) :
    (g.ReplaceInput user index r).GetBlock b = g.GetBlock b := rfl

/-- The graph that MaybeAddPhi builds from the graph `g1` with the interned
literals: the phi is added, the If takes it as its input, and the old input is
removed when it is dead. -/
theorem MaybeAddPhi_finish (g1 : HGraph) (block if_instruction input : Nat) (l : List Nat)
    (g4 : HGraph)
    (hg4 : g4 =
      (if ((g1.AddPhi block DataType.kInt32 l).1.ReplaceInput if_instruction 0
            (g1.AddPhi block DataType.kInt32 l).2).IsDeadAndRemovable input = true then
        match ((g1.AddPhi block DataType.kInt32 l).1.ReplaceInput if_instruction 0
            (g1.AddPhi block DataType.kInt32 l).2).BlockOf input with
        | none => (g1.AddPhi block DataType.kInt32 l).1.ReplaceInput if_instruction 0
            (g1.AddPhi block DataType.kInt32 l).2
        | some input_block =>
          ((g1.AddPhi block DataType.kInt32 l).1.ReplaceInput if_instruction 0
            (g1.AddPhi block DataType.kInt32 l).2).RemoveInstruction input_block input
      else (g1.AddPhi block DataType.kInt32 l).1.ReplaceInput if_instruction 0
        (g1.AddPhi block DataType.kInt32 l).2))
    (u : HInstruction) (hif : g1.GetInstruction if_instruction = some u)
    (hu : u.inputs[0]? = some input)
    (hinput : (g1.GetInstruction input).isSome = true)
    (blk : HBasicBlock) (hblk : g1.GetBlock block = some blk) (hphis : blk.phis = []) :
    g4.KindOf g1.instructions.length = some InstructionKind.Phi ∧
    g4.BlockOf g1.instructions.length = some block ∧
    (g4.GetBlock block).map (·.phis) = some [g1.instructions.length] ∧
    g4.InputAt if_instruction 0 = some g1.instructions.length ∧
    g4.inputsOf g1.instructions.length = l ∧
    (∀ c k, g1.KindOf c = some k → g4.KindOf c = some k) := by
  have hphi : (g1.AddPhi block DataType.kInt32 l).2 = g1.instructions.length := rfl
  have hiflt : if_instruction < g1.instructions.length :=
    (List.getElem?_eq_some.mp hif).1
  have hinlt : input < g1.instructions.length := by
    cases h : g1.GetInstruction input with
    | none => rw [h] at hinput; cases hinput
    | some i => exact (List.getElem?_eq_some.mp h).1
  -- the graph before the removal of the old input
  have h3phi : ((g1.AddPhi block DataType.kInt32 l).1.ReplaceInput if_instruction 0
      g1.instructions.length).GetInstruction g1.instructions.length =
      some { kind := InstructionKind.Phi, type := DataType.kInt32, inputs := l,
             block := some block } := by
    rw [GetInstruction_ReplaceInput]
    have := GetInstruction_AddPhi_new g1 block DataType.kInt32 l
    rw [hphi] at this
    rw [this]
    simp [Nat.ne_of_lt hiflt]
  have h3if : ((g1.AddPhi block DataType.kInt32 l).1.ReplaceInput if_instruction 0
      g1.instructions.length).InputAt if_instruction 0 = some g1.instructions.length := by
    unfold HGraph.InputAt
    rw [GetInstruction_ReplaceInput, GetInstruction_AddPhi_old g1 block _ l _ u hif]
    simp only [Option.map_some', if_true, Option.some_bind]
    have : 0 < u.inputs.length := by
      cases hl : u.inputs with
      | nil => rw [hl] at hu; cases hu
      | cons _ _ => simp
    simp [List.getElem?_set, this]
  have h3blk : ((g1.AddPhi block DataType.kInt32 l).1.ReplaceInput if_instruction 0
      g1.instructions.length).GetBlock block =
      some { blk with phis := [g1.instructions.length] } := by
    rw [GetBlock_ReplaceInput, GetBlock_AddPhi, hblk]
    simp [hphis]
  have h3kind : ∀ c k, g1.KindOf c = some k →
      ((g1.AddPhi block DataType.kInt32 l).1.ReplaceInput if_instruction 0
        g1.instructions.length).KindOf c = some k := by
    intro c k hk
    unfold HGraph.KindOf at hk ⊢
    cases hc : g1.GetInstruction c with
    | none => rw [hc] at hk; cases hk
    | some i =>
      rw [hc] at hk
      rw [GetInstruction_ReplaceInput, GetInstruction_AddPhi_old g1 block _ l _ i hc]
      simp only [Option.map_some'] at hk ⊢
      split <;> exact hk
  rw [hphi] at hg4
  generalize hg3 : (g1.AddPhi block DataType.kInt32 l).1.ReplaceInput if_instruction 0
    g1.instructions.length = g3 at hg4 h3phi h3if h3blk h3kind
  -- removal of the old input changes none of this
  have hrem : ∀ input_block,
      (g3.RemoveInstruction input_block input).KindOf g1.instructions.length =
        some InstructionKind.Phi ∧
      (g3.RemoveInstruction input_block input).BlockOf g1.instructions.length = some block ∧
      ((g3.RemoveInstruction input_block input).GetBlock block).map (·.phis) =
        some [g1.instructions.length] ∧
      (g3.RemoveInstruction input_block input).InputAt if_instruction 0 =
        some g1.instructions.length ∧
      (g3.RemoveInstruction input_block input).inputsOf g1.instructions.length = l ∧
      (∀ c k, g1.KindOf c = some k →
        (g3.RemoveInstruction input_block input).KindOf c = some k) := by
    intro input_block
    refine ⟨?_, ?_, ?_, ?_, ?_, ?_⟩
    · rw [KindOf_RemoveInstruction]
      simp [HGraph.KindOf, h3phi]
    · simp [HGraph.BlockOf, GetInstruction_RemoveInstruction, h3phi, Nat.ne_of_lt hinlt]
    · rw [GetBlock_RemoveInstruction, h3blk]
      simp only [Option.map_some']
      split <;> rfl
    · unfold HGraph.InputAt at h3if ⊢
      rw [GetInstruction_RemoveInstruction]
      cases hi : g3.GetInstruction if_instruction with
      | none => rw [hi] at h3if; cases h3if
      | some i =>
        rw [hi] at h3if
        simp only [Option.map_some', Option.some_bind] at h3if ⊢
        split <;> exact h3if
    · simp [HGraph.inputsOf, GetInstruction_RemoveInstruction, h3phi, Nat.ne_of_lt hinlt]
    · intro c k hk
      rw [KindOf_RemoveInstruction]
      exact h3kind c k hk
  have hkeep : g3.KindOf g1.instructions.length = some InstructionKind.Phi ∧
      g3.BlockOf g1.instructions.length = some block ∧
      (g3.GetBlock block).map (·.phis) = some [g1.instructions.length] ∧
      g3.InputAt if_instruction 0 = some g1.instructions.length ∧
      g3.inputsOf g1.instructions.length = l ∧
      (∀ c k, g1.KindOf c = some k → g3.KindOf c = some k) :=
    ⟨by simp [HGraph.KindOf, h3phi], by simp [HGraph.BlockOf, h3phi], by simp [h3blk], h3if,
      by simp [HGraph.inputsOf, h3phi], h3kind⟩
  rw [hg4]
  split
  · split
    · exact hkeep
    · exact hrem _
  · exact hkeep

/-- C20: when MaybeAddPhi adds a phi to a block whose If has the same
condition as the If of its immediate dominator, or the opposite condition, the
phi has one input per predecessor, in predecessor order: for a predecessor
dominated by exactly one successor of the dominator the int constant 1 when
`same_input` equals `dominated_by_true` and the int constant 0 otherwise, and
for a predecessor dominated by both or by neither successor the condition
itself; the phi is the only phi of the block and the If takes it as its input.
With the opposite condition and a predecessor dominated by both or by neither
successor no phi is added. -/
theorem MaybeAddPhi_seeds_phi_inputs (dce : HDeadCodeElimination) (block : Nat)
    (b : HBasicBlock)
    (if_instruction input dominator dominator_if dominator_input : Nat)
    (true_successor false_successor : Nat)
    (hb : dce.graph.GetBlock block = some b)
    (hlast : b.GetLastInstruction = some if_instruction)
    (hin : dce.graph.InputAt if_instruction 0 = some input)
    (hinput : (dce.graph.GetInstruction input).isSome = true)
    (hnc : dce.graph.IsConstant input = false)
    (hpreds : 2 ≤ b.predecessors.length)
    (hphis : b.phis = [])
    (hdom : dce.graph.GetDominator block = some dominator)
    (hdlast : (dce.graph.GetBlock dominator).bind (·.GetLastInstruction) = some dominator_if)
    (hdif : dce.graph.KindOf dominator_if = some InstructionKind.If)
    (hdin : dce.graph.InputAt dominator_if 0 = some dominator_input)
    (hcond : dominator_input = input ∨
      MaybeAddPhi.isOpposite dce.graph input dominator_input = true)
    (hts : dce.graph.IfTrueSuccessor dominator_if = some true_successor)
    (hfs : dce.graph.IfFalseSuccessor dominator_if = some false_successor) :
    ((dominator_input = input ∨ ∀ pred ∈ b.predecessors,
        dce.graph.Dominates true_successor pred ≠ dce.graph.Dominates false_successor pred) →
      ∃ dce' phi, MaybeAddPhi dce block = some dce' ∧
        dce'.graph.KindOf phi = some InstructionKind.Phi ∧
        dce'.graph.BlockOf phi = some block ∧
        (dce'.graph.GetBlock block).map (·.phis) = some [phi] ∧
        dce'.graph.InputAt if_instruction 0 = some phi ∧
        (dce'.graph.inputsOf phi).length = b.predecessors.length ∧
        ∀ (index pred : Nat), b.predecessors[index]? = some pred →
          (dce.graph.Dominates true_successor pred ≠ dce.graph.Dominates false_successor pred →
            ∃ c, dce'.graph.InputAt phi index = some c ∧
              dce'.graph.KindOf c = some (InstructionKind.IntConstant
                (if decide (dominator_input = input) = dce.graph.Dominates true_successor pred
                  then 1 else 0))) ∧
          (dce.graph.Dominates true_successor pred = dce.graph.Dominates false_successor pred →
            dce'.graph.InputAt phi index = some input)) ∧
    ((dominator_input ≠ input ∧ ∃ pred ∈ b.predecessors,
        dce.graph.Dominates true_successor pred = dce.graph.Dominates false_successor pred) →
      ∃ dce', MaybeAddPhi dce block = some dce' ∧
        (dce'.graph.GetBlock block).map (·.phis) = some [] ∧
        dce'.graph.InputAt if_instruction 0 = some input) := by
  have hkif : dce.graph.kindIs (fun k => k = InstructionKind.If) dominator_if = true := by
    simp [HGraph.kindIs, hdif]
  have hso : (!decide (dominator_input = input) &&
      !MaybeAddPhi.isOpposite dce.graph input dominator_input) = false := by
    rcases hcond with h | h
    · simp [h]
    · simp [h]
  have hpre : MaybeAddPhi dce block =
      (match MaybeAddPhi.inputs true_successor false_successor
          (decide (dominator_input = input)) input dce.graph b.predecessors with
        | (g1, none) => some { dce with graph := g1 }
        | (g1, some inputs) =>
          some { graph :=
                  (if ((g1.AddPhi block DataType.kInt32 inputs).1.ReplaceInput if_instruction 0
                      (g1.AddPhi block DataType.kInt32 inputs).2).IsDeadAndRemovable input
                        = true then
                    match ((g1.AddPhi block DataType.kInt32 inputs).1.ReplaceInput
                        if_instruction 0
                        (g1.AddPhi block DataType.kInt32 inputs).2).BlockOf input with
                    | none => (g1.AddPhi block DataType.kInt32 inputs).1.ReplaceInput
                        if_instruction 0 (g1.AddPhi block DataType.kInt32 inputs).2
                    | some input_block =>
                      ((g1.AddPhi block DataType.kInt32 inputs).1.ReplaceInput if_instruction 0
                        (g1.AddPhi block DataType.kInt32 inputs).2).RemoveInstruction
                          input_block input
                  else (g1.AddPhi block DataType.kInt32 inputs).1.ReplaceInput if_instruction 0
                    (g1.AddPhi block DataType.kInt32 inputs).2),
                 stats := MaybeRecordStat dce.stats
                   MethodCompilationStat.kSimplifyIfAddedPhi 1 }) := by
    unfold MaybeAddPhi
    simp only [hb, hlast, hin, hnc, Nat.not_lt.mpr hpreds, hphis, hdom, hdlast, hkif, hdin,
      hso, hts, hfs, List.isEmpty_nil, Bool.not_true, Bool.false_eq_true, if_false]
  obtain ⟨u, hu, hu0⟩ : ∃ u, dce.graph.GetInstruction if_instruction = some u ∧
      u.inputs[0]? = some input := by
    unfold HGraph.InputAt at hin
    cases h : dce.graph.GetInstruction if_instruction with
    | none => rw [h] at hin; cases hin
    | some u => rw [h] at hin; exact ⟨u, rfl, hin⟩
  constructor
  · intro hadd
    have hadd' : decide (dominator_input = input) = true ∨ ∀ pred ∈ b.predecessors,
        dce.graph.Dominates true_successor pred ≠
          dce.graph.Dominates false_successor pred := by
      rcases hadd with h | h
      · exact Or.inl (by simp [h])
      · exact Or.inr h
    obtain ⟨g1, l, hrun, hext, hlen, hspec⟩ := MaybeAddPhi_inputs_spec true_successor
      false_successor (decide (dominator_input = input)) input b.predecessors dce.graph hadd'
    obtain ⟨blk, hblk, hblkphis⟩ : ∃ blk, g1.GetBlock block = some blk ∧ blk.phis = [] := by
      have := hext.phis block
      rw [hb] at this
      cases h : g1.GetBlock block with
      | none => rw [h] at this; cases this
      | some blk =>
        rw [h] at this
        simp only [Option.map_some', Option.some.injEq] at this
        exact ⟨blk, rfl, by rw [this, hphis]⟩
    have hinput1 : (g1.GetInstruction input).isSome = true := by
      cases h : dce.graph.GetInstruction input with
      | none => rw [h] at hinput; cases hinput
      | some i => rw [hext.inst input i h]; rfl
    obtain ⟨g4, hg4⟩ : ∃ g4 : HGraph, g4 =
        (if ((g1.AddPhi block DataType.kInt32 l).1.ReplaceInput if_instruction 0
              (g1.AddPhi block DataType.kInt32 l).2).IsDeadAndRemovable input = true then
          match ((g1.AddPhi block DataType.kInt32 l).1.ReplaceInput if_instruction 0
              (g1.AddPhi block DataType.kInt32 l).2).BlockOf input with
          | none => (g1.AddPhi block DataType.kInt32 l).1.ReplaceInput if_instruction 0
              (g1.AddPhi block DataType.kInt32 l).2
          | some input_block =>
            ((g1.AddPhi block DataType.kInt32 l).1.ReplaceInput if_instruction 0
              (g1.AddPhi block DataType.kInt32 l).2).RemoveInstruction input_block input
        else (g1.AddPhi block DataType.kInt32 l).1.ReplaceInput if_instruction 0
          (g1.AddPhi block DataType.kInt32 l).2) := ⟨_, rfl⟩
    obtain ⟨h1, h2, h3, h4, h5, h6⟩ := MaybeAddPhi_finish g1 block if_instruction input l g4
      hg4 u (hext.inst _ _ hu) hu0 hinput1 blk hblk hblkphis
    refine ⟨⟨g4, MaybeRecordStat dce.stats MethodCompilationStat.kSimplifyIfAddedPhi 1⟩,
      g1.instructions.length, ?_, h1, h2, h3, h4, ?_, ?_⟩
    · rw [hpre, hrun, hg4]
    · rw [h5, hlen]
    · intro index pred hp
      have hat : ∀ x, l[index]? = some x →
          g4.InputAt g1.instructions.length index = some x := by
        intro x hx
        have := h5
        unfold HGraph.inputsOf at this
        unfold HGraph.InputAt
        split at this
        · rw [← this] at hx; cases hx
        · next i hi =>
          rw [hi]
          simp only [Option.some_bind]
          rw [this]
          exact hx
      obtain ⟨hc, hi⟩ := hspec index pred hp
      constructor
      · intro hne
        obtain ⟨c, hlc, hkc⟩ := hc hne
        exact ⟨c, hat c hlc, h6 c _ hkc⟩
      · intro heq
        exact hat input (hi heq)
  · intro ⟨hne, hex⟩
    have hdec : decide (dominator_input = input) = false := by simp [hne]
    obtain ⟨g1, hrun, hext⟩ := MaybeAddPhi_inputs_none true_successor false_successor input
      b.predecessors dce.graph hex
    refine ⟨{ dce with graph := g1 }, ?_, ?_, ?_⟩
    · rw [hpre, hdec, hrun]
    · have := hext.phis block
      rw [hb] at this
      simp only [this, Option.map_some', hphis]
    · unfold HGraph.InputAt
      rw [hext.inst _ _ hu]
      exact hu0

theorem MaybeAddPhi_seeds_phi_inputs_witness :
    exampleChain.GetBlock 4 = some (mkBlock [5] [2, 3] [5, 6]) ∧
    exampleChain.InputAt 5 0 = some 0 ∧ exampleChain.IsConstant 0 = false ∧
    exampleChain.GetDominator 4 = some 1 ∧
    exampleChain.KindOf 2 = some InstructionKind.If ∧ exampleChain.InputAt 2 0 = some 0 ∧
    exampleChain.IfTrueSuccessor 2 = some 2 ∧ exampleChain.IfFalseSuccessor 2 = some 3 ∧
    ∃ dce' phi, MaybeAddPhi { graph := exampleChain, stats := none } 4 = some dce' ∧
      dce'.graph.KindOf phi = some InstructionKind.Phi ∧
      dce'.graph.BlockOf phi = some 4 ∧
      (dce'.graph.GetBlock 4).map (·.phis) = some [phi] ∧
      dce'.graph.InputAt 5 0 = some phi ∧
      (dce'.graph.inputsOf phi).length = (mkBlock [5] [2, 3] [5, 6]).predecessors.length ∧
      ∀ (index pred : Nat), (mkBlock [5] [2, 3] [5, 6]).predecessors[index]? = some pred →
        (exampleChain.Dominates 2 pred ≠ exampleChain.Dominates 3 pred →
          ∃ c, dce'.graph.InputAt phi index = some c ∧
            dce'.graph.KindOf c = some (InstructionKind.IntConstant
              (if decide (0 = 0) = exampleChain.Dominates 2 pred then 1 else 0))) ∧
        (exampleChain.Dominates 2 pred = exampleChain.Dominates 3 pred →
          dce'.graph.InputAt phi index = some 0) :=
  ⟨rfl, rfl, rfl, by decide, rfl, rfl, rfl, rfl,
    (MaybeAddPhi_seeds_phi_inputs { graph := exampleChain, stats := none } 4
      (mkBlock [5] [2, 3] [5, 6]) 5 0 1 2 0 2 3 rfl rfl rfl rfl rfl (by decide) rfl (by decide)
      rfl rfl rfl (Or.inl rfl) rfl rfl).1 (Or.inl rfl)⟩

/-! ## SimplifyIfs: the outcome of the walk -/

/-- With a slot already kept, the walk keeps exactly the slots that do not
resolve. -/
theorem walk_of_pos {α : Type} (resolve : α → Option Bool) (l : List α) :
    ∀ i, 0 < i → SimplifyIfs.walk resolve i l = l.filter (fun s => (resolve s).isNone) := by
  induction l with
  | nil => intro i _; rfl
  | cons s rest ih =>
    intro i hi
    unfold SimplifyIfs.walk
    cases hs : resolve s with
    | none =>
      simp only [List.filter_cons, hs, Option.isNone_none, if_true]
      rw [ih (i + 1) (Nat.succ_pos i)]
    | some v =>
      simp only [List.filter_cons, hs, Option.isNone_some, Bool.false_eq_true, if_false]
      split
      · next h =>
        have : rest = [] := List.eq_nil_of_length_eq_zero (by omega)
        subst this
        rfl
      · exact ih i hi

/-- The outcome of the walk from the start: the slots that do not resolve
when there is one, the last slot alone when all of two or more slots resolve,
and no slot when the single slot resolves. -/
theorem walk_closed_form {α : Type} (resolve : α → Option Bool) (l : List α) :
    SimplifyIfs.walk resolve 0 l =
      if (∃ s ∈ l, resolve s = none) then l.filter (fun s => (resolve s).isNone)
      else if 2 ≤ l.length then l.getLast?.toList else [] := by
  induction l with
  | nil => simp [SimplifyIfs.walk]
  | cons s rest ih =>
    unfold SimplifyIfs.walk
    cases hs : resolve s with
    | none =>
      have hex : ∃ x ∈ s :: rest, resolve x = none := ⟨s, List.mem_cons_self _ _, hs⟩
      simp only [if_pos hex, List.filter_cons, hs, Option.isNone_none, if_true]
      rw [walk_of_pos resolve rest 1 (by decide)]
    | some v =>
      simp only [Nat.zero_add]
      by_cases h1 : rest.length = 1
      · rw [if_pos h1]
        obtain ⟨y, hy⟩ : ∃ y, rest = [y] := by
          cases rest with
          | nil => cases h1
          | cons y t =>
            cases t with
            | nil => exact ⟨y, rfl⟩
            | cons _ _ => simp at h1
        subst hy
        cases hy : resolve y with
        | none =>
          have hex : ∃ x ∈ [s, y], resolve x = none := ⟨y, by simp, hy⟩
          simp [if_pos hex, List.filter_cons, hs, hy]
        | some w =>
          have hex : ¬ ∃ x ∈ [s, y], resolve x = none := by
            intro ⟨x, hx, hxn⟩
            simp only [List.mem_cons, List.mem_singleton, List.not_mem_nil, or_false] at hx
            rcases hx with h | h <;> subst h
            · rw [hs] at hxn; cases hxn
            · rw [hy] at hxn; cases hxn
          simp [hs, hy]
      · rw [if_neg h1, ih]
        by_cases hex : ∃ x ∈ rest, resolve x = none
        · have hex' : ∃ x ∈ s :: rest, resolve x = none := by
            obtain ⟨x, hx, hxn⟩ := hex
            exact ⟨x, List.mem_cons_of_mem _ hx, hxn⟩
          simp [if_pos hex, if_pos hex', List.filter_cons, hs]
        · have hex' : ¬ ∃ x ∈ s :: rest, resolve x = none := by
            intro ⟨x, hx, hxn⟩
            rcases List.mem_cons.mp hx with h | h
            · rw [h, hs] at hxn; cases hxn
            · exact hex ⟨x, h, hxn⟩
          rw [if_neg hex, if_neg hex']
          cases rest with
          | nil => simp
          | cons y t =>
            cases t with
            | nil => simp at h1
            | cons z t' => simp [List.getLast?_cons_cons]

/-! ## SimplifyIfs: the primitives of the walk -/

theorem GetBlock_ReplaceSuccessor (g : HGraph) (block existing new_block x : Nat) :
    (g.ReplaceSuccessor block existing new_block).GetBlock x =
      (g.GetBlock x).map (fun blk =>
        let b1 : HBasicBlock :=
          if existing = x then { blk with predecessors := blk.predecessors.erase block } else blk
        let b2 : HBasicBlock :=
          if new_block = x then { b1 with predecessors := b1.predecessors ++ [block] } else b1
        if block = x then
          { b2 with successors := replaceFirst existing new_block b2.successors }
        else b2) := by
  simp only [HGraph.GetBlock, HGraph.ReplaceSuccessor, List.getD_eq_getElem?_getD,
    List.getElem?_modify]
  cases h : g.blocks[x]? with
  | none => simp
  | some ob =>
    cases ob with
    | none => by_cases h1 : existing = x <;> by_cases h2 : new_block = x <;>
        by_cases h3 : block = x <;> simp [h1, h2, h3]
    | some blk =>
      by_cases h1 : existing = x <;> by_cases h2 : new_block = x <;>
        by_cases h3 : block = x <;> simp [h1, h2, h3]

theorem GetInstruction_ReplaceSuccessor (g : HGraph) (block existing new_block id : Nat) :
    (g.ReplaceSuccessor block existing new_block).GetInstruction id = g.GetInstruction id := rfl

theorem GetInstruction_RemoveInputAt (g : HGraph) (phi index id : Nat) :
    (g.RemoveInputAt phi index).GetInstruction id =
      (g.GetInstruction id).map (fun u =>
        if phi = id then { u with inputs := u.inputs.eraseIdx index } else u) := by
  simp only [HGraph.GetInstruction, HGraph.RemoveInputAt, List.getElem?_modify]
  rfl

theorem GetBlock_RemoveInputAt (g : HGraph) (phi index b : Nat) :
    (g.RemoveInputAt phi index).GetBlock b = g.GetBlock b := rfl

theorem successorsOf_ReplaceSuccessor (g : HGraph) (block existing new_block p : Nat) :
    (g.ReplaceSuccessor block existing new_block).successorsOf p =
      if p = block then replaceFirst existing new_block (g.successorsOf p)
      else g.successorsOf p := by
  simp only [HGraph.successorsOf, GetBlock_ReplaceSuccessor]
  cases h : g.GetBlock p with
  | none => simp [replaceFirst]
  | some blk =>
    simp only [Option.map_some']
    by_cases h3 : p = block
    · subst h3
      simp only [if_true]
      by_cases h1 : existing = p <;> by_cases h2 : new_block = p <;> simp [h1, h2]
    · have h3' : ¬ block = p := fun h => h3 h.symm
      simp only [h3, h3', if_false]
      by_cases h1 : existing = p <;> by_cases h2 : new_block = p <;> simp [h1, h2]

theorem predecessorsOf_ReplaceSuccessor (g : HGraph) (block existing new_block : Nat)
    (h1 : new_block ≠ existing) :
    (g.ReplaceSuccessor block existing new_block).predecessorsOf existing =
      (g.predecessorsOf existing).erase block := by
  simp only [HGraph.predecessorsOf, GetBlock_ReplaceSuccessor]
  cases h : g.GetBlock existing with
  | none => simp
  | some blk =>
    simp only [Option.map_some', if_true, h1, if_false]
    split <;> rfl

theorem erase_middle (kept rest : List Nat) (p : Nat) (h : p ∉ kept) :
    (kept ++ p :: rest).erase p = kept ++ rest := by
  induction kept with
  | nil => simp
  | cons x xs ih =>
    have hx : x ≠ p := fun hx => h (by simp [hx])
    have hxs : p ∉ xs := fun hp => h (List.mem_cons_of_mem _ hp)
    simp only [List.cons_append]
    rw [List.erase_cons_tail (by simpa using hx), ih hxs]

theorem eraseIdx_middle {α : Type} (kept rest : List α) (s : α) :
    (kept ++ s :: rest).eraseIdx kept.length = kept ++ rest := by
  induction kept with
  | nil => rfl
  | cons x xs ih => simp [ih]

theorem WalkStable.walk_refl (g : HGraph) (block phi : Nat) : WalkStable g g block phi where
  inst := fun _ i h => ⟨i, h, rfl, rfl, rfl, fun _ => rfl⟩
  succs := rfl
  is_some := rfl
  loop := rfl

theorem WalkStable.extend {g0 g g1 : HGraph} {block phi : Nat} (h : WalkStable g0 g block phi)
    (hext : Extends g g1) : WalkStable g0 g1 block phi where
  inst := fun id i hi => by
    obtain ⟨i', hi', hk, ht, hb, hin⟩ := h.inst id i hi
    exact ⟨i', hext.inst id i' hi', hk, ht, hb, hin⟩
  succs := by rw [hext.successors, h.succs]
  is_some := by rw [hext.blocks, h.is_some]
  loop := by rw [hext.loop, h.loop]

theorem WalkStable.walk_KindOf_eq {g0 g : HGraph} {block phi : Nat} (h : WalkStable g0 g block phi)
    (id : Nat) (hid : (g0.GetInstruction id).isSome = true) : g.KindOf id = g0.KindOf id := by
  cases hi : g0.GetInstruction id with
  | none => rw [hi] at hid; cases hid
  | some i =>
    obtain ⟨i', hi', hk, _⟩ := h.inst id i hi
    simp [HGraph.KindOf, hi, hi', hk]

theorem WalkStable.walk_GetType_eq {g0 g : HGraph} {block phi : Nat} (h : WalkStable g0 g block phi)
    (id : Nat) (hid : (g0.GetInstruction id).isSome = true) : g.GetType id = g0.GetType id := by
  cases hi : g0.GetInstruction id with
  | none => rw [hi] at hid; cases hid
  | some i =>
    obtain ⟨i', hi', _, ht, _⟩ := h.inst id i hi
    simp [HGraph.GetType, hi, hi', ht]

theorem WalkStable.InputAt_eq {g0 g : HGraph} {block phi : Nat} (h : WalkStable g0 g block phi)
    (id index : Nat) (hid : (g0.GetInstruction id).isSome = true) (hne : id ≠ phi) :
    g.InputAt id index = g0.InputAt id index := by
  cases hi : g0.GetInstruction id with
  | none => rw [hi] at hid; cases hid
  | some i =>
    obtain ⟨i', hi', _, _, _, hin⟩ := h.inst id i hi
    simp [HGraph.InputAt, hi, hi', hin hne]

/-! ## SimplifyIfs: the resolution of an input is stable -/

theorem kindIs_one_GetIntConstant (g : HGraph) (value : Int) :
    (g.GetIntConstant value).1.kindIs (fun k => k = InstructionKind.IntConstant 1)
      (g.GetIntConstant value).2 = decide (value = 1) := by
  have h := (GetIntConstant_step g (Agree.refl g) value).2.2
  simp [HGraph.kindIs, h]

theorem Evaluate_Extends (cev : ConditionEvaluator) (g : HGraph) (condition left right : Nat)
    (g1 : HGraph) (v : Option Nat) (h : Evaluate cev g condition left right = some (g1, v)) :
    Extends g g1 := by
  unfold Evaluate at h
  split at h
  · cases h
  · split at h
    · split at h
      · cases h
      · simp only [Option.some.injEq, Prod.mk.injEq] at h
        rw [← h.1]
        exact Extends_GetIntConstant g _
    · split at h
      · simp only [Option.some.injEq, Prod.mk.injEq] at h
        rw [← h.1]
        exact Extends.ext_refl g
      · split at h
        · split at h
          · cases h
          · simp only [Option.some.injEq, Prod.mk.injEq] at h
            rw [← h.1]
            exact Extends_GetIntConstant g _
        · cases h

theorem valueToCheck_Extends (cev : ConditionEvaluator) (g : HGraph) (first : Nat)
    (a l : Bool) (input : Nat) (g1 : HGraph) (v : Option Nat)
    (h : SimplifyIfs.valueToCheck cev g first a l input = some (g1, v)) : Extends g g1 := by
  unfold SimplifyIfs.valueToCheck at h
  split at h
  · simp only [Option.some.injEq, Prod.mk.injEq] at h
    rw [← h.1]
    exact Extends.ext_refl g
  · split at h
    · split at h
      · cases h
      · exact Evaluate_Extends cev g _ _ _ g1 v h
    · split at h
      · cases h
      · exact Evaluate_Extends cev g _ _ _ g1 v h

/-- The truth value that `Evaluate` resolves to depends only on the kinds of
the condition and of the operands and on the type of the left operand. -/
theorem Evaluate_congr (cev : ConditionEvaluator) (g0 g : HGraph) (condition left right : Nat)
    (hc : g.KindOf condition = g0.KindOf condition)
    (hl : g.KindOf left = g0.KindOf left) (hr : g.KindOf right = g0.KindOf right)
    (ht : g.GetType left = g0.GetType left) :
    (Evaluate cev g condition left right).map
        (fun r => r.2.map (fun c => r.1.kindIs (fun k => k = InstructionKind.IntConstant 1) c)) =
      (Evaluate cev g0 condition left right).map
        (fun r => r.2.map (fun c => r.1.kindIs (fun k => k = InstructionKind.IntConstant 1) c))
      := by
  have hcl : g.IsConstant left = g0.IsConstant left := by
    simp [HGraph.IsConstant, HGraph.kindIs, hl]
  have hcr : g.IsConstant right = g0.IsConstant right := by
    simp [HGraph.IsConstant, HGraph.kindIs, hr]
  unfold Evaluate
  rw [hc, hl, hr, ht, hcl, hcr]
  cases g0.KindOf condition with
  | none => rfl
  | some ck =>
    simp only
    split
    · cases ck.GetCondition with
      | none => rfl
      | some c => simp [kindIs_one_GetIntConstant]
    · split
      · rfl
      · cases g0.KindOf left with
        | none => rfl
        | some lk =>
          cases g0.KindOf right with
          | none => rfl
          | some rk =>
            simp only
            cases cev ck lk rk with
            | none => rfl
            | some value => simp [kindIs_one_GetIntConstant]

/-- The resolution of an input of the phi is the same in every graph of the
walk. -/
theorem resolution_stable (cev : ConditionEvaluator) (g0 g : HGraph) (block phi first : Nat)
    (a l : Bool) (input : Nat) (hst : WalkStable g0 g block phi)
    (hdef : g0.InputsDefined = true)
    (hfirst : (g0.GetInstruction first).isSome = true) (hne : first ≠ phi)
    (hinput : (g0.GetInstruction input).isSome = true) :
    SimplifyIfs.resolution cev g first a l input =
      SimplifyIfs.resolution cev g0 first a l input := by
  unfold SimplifyIfs.resolution SimplifyIfs.valueToCheck
  have hki := hst.walk_KindOf_eq input hinput
  have hkf := hst.walk_KindOf_eq first hfirst
  cases a with
  | true =>
    simp only [if_true, Option.map_some']
    have hkk : ∀ p, g.kindIs p input = g0.kindIs p input := fun p => by
      simp [HGraph.kindIs, hki]
    rw [hkk]
    split
    · simp only [Option.map_some', hkk]
    · rfl
  | false =>
    simp only [Bool.false_eq_true, if_false]
    cases l with
    | true =>
      simp only [if_true]
      rw [hst.InputAt_eq first 1 hfirst hne]
      cases hr : g0.InputAt first 1 with
      | none => rfl
      | some right =>
        simp only
        have hrs := InputsDefined_isSome g0 hdef first right
          (InputAt_mem_inputsOf g0 first 1 right hr)
        exact Evaluate_congr cev g0 g first input right hkf hki (hst.walk_KindOf_eq right hrs)
          (hst.walk_GetType_eq input hinput)
    | false =>
      simp only [Bool.false_eq_true, if_false]
      rw [hst.InputAt_eq first 0 hfirst hne]
      cases hr : g0.InputAt first 0 with
      | none => rfl
      | some left =>
        simp only
        have hls := InputsDefined_isSome g0 hdef first left
          (InputAt_mem_inputsOf g0 first 0 left hr)
        exact Evaluate_congr cev g0 g first left input hkf (hst.walk_KindOf_eq left hls) hki
          (hst.walk_GetType_eq left hls)

/-! ## SimplifyIfs: the walk over the inputs of the phi -/

theorem mem_walkRedirected {α : Type} (resolve : α → Option Bool) (l : List α) :
    ∀ i r, r ∈ SimplifyIfs.walkRedirected resolve i l → r.1 ∈ l := by
  induction l with
  | nil => intro i r h; simp [SimplifyIfs.walkRedirected] at h
  | cons s rest ih =>
    intro i r h
    unfold SimplifyIfs.walkRedirected at h
    split at h
    · exact List.mem_cons_of_mem _ (ih _ r h)
    · rcases List.mem_cons.mp h with h1 | h1
      · rw [h1]; exact List.mem_cons_self _ _
      · split at h1
        · cases h1
        · exact List.mem_cons_of_mem _ (ih _ r h1)

theorem InputAt_eq_inputsOf (g : HGraph) (id index : Nat) :
    g.InputAt id index = (g.inputsOf id)[index]? := by
  unfold HGraph.InputAt HGraph.inputsOf
  cases g.GetInstruction id <;> simp

theorem getElem?_middle {α : Type} (kept rest : List α) (s : α) :
    (kept ++ s :: rest)[kept.length]? = some s := by
  rw [List.getElem?_append_right (Nat.le_refl _)]
  simp

theorem predecessorsOf_eq (g : HGraph) (block : Nat) (b : HBasicBlock)
    (h : g.GetBlock block = some b) : g.predecessorsOf block = b.predecessors := by
  simp [HGraph.predecessorsOf, h]

theorem successorsOf_eq (g : HGraph) (block : Nat) (b : HBasicBlock)
    (h : g.GetBlock block = some b) : g.successorsOf block = b.successors := by
  simp [HGraph.successorsOf, h]

/-- One redirection of the walk keeps what the walk preserves. -/
theorem WalkStable_step {g0 g1 : HGraph} {block phi : Nat} (h : WalkStable g0 g1 block phi)
    (pred target index : Nat) (hpb : pred ≠ block) :
    WalkStable g0 ((g1.ReplaceSuccessor pred block target).RemoveInputAt phi index) block phi
    where
  inst := fun id i hi => by
    obtain ⟨i', hi', hk, ht, hb, hin⟩ := h.inst id i hi
    rw [GetInstruction_RemoveInputAt, GetInstruction_ReplaceSuccessor, hi']
    by_cases hp : phi = id
    · refine ⟨{ i' with inputs := i'.inputs.eraseIdx index }, by simp [hp], hk, ht, hb, ?_⟩
      intro hne
      exact absurd hp.symm hne
    · exact ⟨i', by simp [hp], hk, ht, hb, hin⟩
  succs := by
    have : ((g1.ReplaceSuccessor pred block target).RemoveInputAt phi index).successorsOf block
        = (g1.ReplaceSuccessor pred block target).successorsOf block := rfl
    rw [this, successorsOf_ReplaceSuccessor, if_neg (fun hh => hpb hh.symm), h.succs]
  is_some := by
    rw [GetBlock_RemoveInputAt, GetBlock_ReplaceSuccessor, ← h.is_some]
    cases g1.GetBlock block <;> rfl
  loop := by
    rw [GetBlock_RemoveInputAt, GetBlock_ReplaceSuccessor, ← h.loop]
    cases g1.GetBlock block with
    | none => rfl
    | some blk =>
      simp only [Option.map_some']
      by_cases h1 : block = block <;> by_cases h2 : target = block <;>
        by_cases h3 : pred = block <;> simp [h2, h3]

/-- The walk of SimplifyIfs over the inputs of the phi, from a state in which
the slots `kept` have been kept and the slots `rest` are still to be examined:
the walk returns, the slots left are `kept` followed by what the walk keeps
of `rest`, and the predecessor of every dropped slot has its edge to the block
redirected. -/
theorem redirect_spec (cev : ConditionEvaluator) (g0 : HGraph) (block phi first : Nat)
    (a l : Bool) (t f : Nat)
    (hdef : g0.InputsDefined = true)
    (hfirst : (g0.GetInstruction first).isSome = true) (hne : first ≠ phi)
    (ht : (g0.successorsOf block)[0]? = some t) (hf : (g0.successorsOf block)[1]? = some f)
    (htb : t ≠ block) (hfb : f ≠ block) :
    ∀ (rest kept : List (Nat × Nat)) (st : SimplifyIfsState) (fuel : Nat),
      rest.length ≤ fuel →
      WalkStable g0 st.graph block phi →
      st.graph.inputsOf phi = (kept ++ rest).map Prod.fst →
      st.graph.predecessorsOf block = (kept ++ rest).map Prod.snd →
      ((kept ++ rest).map Prod.snd).Nodup →
      block ∉ (kept ++ rest).map Prod.snd →
      (∀ s ∈ rest, (SimplifyIfs.resolution cev g0 first a l s.1).isSome = true) →
      (∀ s ∈ rest, (g0.GetInstruction s.1).isSome = true) →
      ∃ st', SimplifyIfs.redirect cev block phi first a l fuel kept.length st = some st' ∧
        WalkStable g0 st'.graph block phi ∧
        st'.graph.inputsOf phi =
          (kept ++ SimplifyIfs.walk
            (fun s : Nat × Nat => (SimplifyIfs.resolution cev g0 first a l s.1).join)
            kept.length rest).map Prod.fst ∧
        st'.graph.predecessorsOf block =
          (kept ++ SimplifyIfs.walk
            (fun s : Nat × Nat => (SimplifyIfs.resolution cev g0 first a l s.1).join)
            kept.length rest).map Prod.snd ∧
        st'.stats = st.stats ∧
        ∀ p, st'.graph.successorsOf p =
          SimplifyIfs.redirectedSuccessors block t f
            (SimplifyIfs.walkRedirected
              (fun s : Nat × Nat => (SimplifyIfs.resolution cev g0 first a l s.1).join)
              kept.length rest) p (st.graph.successorsOf p) := by
  have hblock0 : (g0.GetBlock block).isSome = true := by
    unfold HGraph.successorsOf at ht
    cases h : g0.GetBlock block with
    | none => rw [h] at ht; simp at ht
    | some _ => rfl
  intro rest
  induction rest with
  | nil =>
    intro kept st fuel _ hst hin _ _ _ _ _
    have hcount : ¬ kept.length < (st.graph.inputsOf phi).length := by
      rw [hin]; simp
    refine ⟨st, ?_, hst, by simpa [SimplifyIfs.walk] using hin, ?_, rfl, ?_⟩
    · cases fuel <;> simp [SimplifyIfs.redirect, hcount]
    · assumption
    · intro p
      simp [SimplifyIfs.walkRedirected, SimplifyIfs.redirectedSuccessors]
  | cons s rest ih =>
    intro kept st fuel hfuel hst hin hpreds hnodup hblock hres hinputs
    obtain ⟨fuel, rfl⟩ : ∃ n, fuel = n + 1 := by
      cases fuel with
      | zero => simp at hfuel
      | succ n => exact ⟨n, rfl⟩
    have hfuel' : rest.length ≤ fuel := by
      simp only [List.length_cons] at hfuel; omega
    have hcount : kept.length < (st.graph.inputsOf phi).length := by
      rw [hin]; simp
    have hinput : st.graph.InputAt phi kept.length = some s.1 := by
      rw [InputAt_eq_inputsOf, hin, List.map_append, List.map_cons,
        ← List.length_map kept Prod.fst, getElem?_middle]
    have hs1 : (g0.GetInstruction s.1).isSome = true := hinputs s (List.mem_cons_self _ _)
    have hstable := resolution_stable cev g0 st.graph block phi first a l s.1 hst hdef hfirst
      hne hs1
    obtain ⟨r0, hr0⟩ : ∃ r0, SimplifyIfs.resolution cev g0 first a l s.1 = some r0 := by
      have := hres s (List.mem_cons_self _ _)
      cases h : SimplifyIfs.resolution cev g0 first a l s.1 with
      | none => rw [h] at this; cases this
      | some r0 => exact ⟨r0, rfl⟩
    rw [hr0] at hstable
    obtain ⟨g1, v, hval, hv⟩ : ∃ g1 v,
        SimplifyIfs.valueToCheck cev st.graph first a l s.1 = some (g1, v) ∧
        v.map (fun c => g1.kindIs (fun k => k = InstructionKind.IntConstant 1) c) = r0 := by
      unfold SimplifyIfs.resolution at hstable
      cases h : SimplifyIfs.valueToCheck cev st.graph first a l s.1 with
      | none => rw [h] at hstable; cases hstable
      | some r =>
        rw [h] at hstable
        simp only [Option.map_some', Option.some.injEq] at hstable
        exact ⟨r.1, r.2, rfl, hstable⟩
    have hext := valueToCheck_Extends cev st.graph first a l s.1 g1 v hval
    have hst1 : WalkStable g0 g1 block phi := hst.extend hext
    have hin1 : g1.inputsOf phi = (kept ++ s :: rest).map Prod.fst := by
      rw [← hin]
      unfold HGraph.inputsOf
      cases hp : st.graph.GetInstruction phi with
      | none =>
        exfalso
        unfold HGraph.inputsOf at hcount
        rw [hp] at hcount
        simp at hcount
      | some i => rw [hext.inst phi i hp]
    have hpreds1 : g1.predecessorsOf block = (kept ++ s :: rest).map Prod.snd := by
      rw [hext.predecessors, hpreds]
    have hj : (SimplifyIfs.resolution cev g0 first a l s.1).join = r0 := by
      rw [hr0]; rfl
    unfold SimplifyIfs.redirect
    simp only [hcount, if_true, hinput, hval]
    cases v with
    | none =>
      -- the input does not resolve: the slot is kept
      have hr0n : r0 = none := by rw [← hv]; rfl
      have hlen : (kept ++ [s]).length = kept.length + 1 := by simp
      have happ : kept ++ [s] ++ rest = kept ++ s :: rest := by simp
      obtain ⟨st', hrun, hst', hin', hpreds', hstats', hsuccs'⟩ :=
        ih (kept ++ [s]) { st with graph := g1 } fuel hfuel' hst1
          (by rw [happ]; exact hin1) (by rw [happ]; exact hpreds1)
          (by rw [happ]; exact hnodup) (by rw [happ]; exact hblock)
          (fun x hx => hres x (List.mem_cons_of_mem _ hx))
          (fun x hx => hinputs x (List.mem_cons_of_mem _ hx))
      rw [hlen] at hrun hin' hpreds' hsuccs'
      have hwalk : SimplifyIfs.walk
          (fun s : Nat × Nat => (SimplifyIfs.resolution cev g0 first a l s.1).join)
          kept.length (s :: rest) =
          s :: SimplifyIfs.walk
            (fun s : Nat × Nat => (SimplifyIfs.resolution cev g0 first a l s.1).join)
            (kept.length + 1) rest := by
        rw [SimplifyIfs.walk]
        simp only [hj, hr0n]
      have hwalkr : SimplifyIfs.walkRedirected
          (fun s : Nat × Nat => (SimplifyIfs.resolution cev g0 first a l s.1).join)
          kept.length (s :: rest) =
          SimplifyIfs.walkRedirected
            (fun s : Nat × Nat => (SimplifyIfs.resolution cev g0 first a l s.1).join)
            (kept.length + 1) rest := by
        rw [SimplifyIfs.walkRedirected]
        simp only [hj, hr0n]
      refine ⟨st', hrun, hst', ?_, ?_, hstats', ?_⟩
      · rw [hin', hwalk]; simp
      · rw [hpreds', hwalk]; simp
      · intro p
        rw [hsuccs' p, hwalkr]
        show _ = SimplifyIfs.redirectedSuccessors block t f _ p (st.graph.successorsOf p)
        rw [← hext.successors p]
    | some c =>
      -- the input resolves: the edge is redirected and the slot dropped
      obtain ⟨bv, hbv⟩ : ∃ bv, r0 = some bv := ⟨_, hv.symm⟩
      have hbv' : g1.kindIs (fun k => k = InstructionKind.IntConstant 1) c = bv := by
        rw [hbv] at hv
        simpa using hv
      obtain ⟨bb, hbb⟩ : ∃ bb, g1.GetBlock block = some bb := by
        have := hst1.is_some
        rw [hblock0] at this
        cases h : g1.GetBlock block with
        | none => rw [h] at this; cases this
        | some bb => exact ⟨bb, rfl⟩
      have hbbp : bb.predecessors[kept.length]? = some s.2 := by
        rw [← predecessorsOf_eq g1 block bb hbb, hpreds1, List.map_append, List.map_cons,
          ← List.length_map kept Prod.snd, getElem?_middle]
      have hbbs : (if g1.kindIs (fun k => k = InstructionKind.IntConstant 1) c = true
          then bb.successors[0]? else bb.successors[1]?) = some (if bv = true then t else f) := by
        rw [← successorsOf_eq g1 block bb hbb, hst1.succs, hbv']
        cases bv
        · simpa using hf
        · simpa using ht
      simp only [hbb, hbbp, hbbs]
      have hs2k : s.2 ∉ kept.map Prod.snd := by
        rw [List.map_append, List.map_cons] at hnodup
        have := (List.nodup_append.mp hnodup).2.2
        intro hmem
        exact this hmem (List.mem_cons_self _ _)
      have hs2r : s.2 ∉ rest.map Prod.snd := by
        rw [List.map_append, List.map_cons] at hnodup
        have := (List.nodup_append.mp hnodup).2.1
        exact (List.nodup_cons.mp this).1
      have hs2b : s.2 ≠ block := by
        intro h
        apply hblock
        rw [← h]
        simp
      have htarget : (if bv = true then t else f) ≠ block := by
        cases bv
        · simpa using hfb
        · simpa using htb
      generalize htg : (if bv = true then t else f) = target at htarget
      have hst3 := WalkStable_step hst1 s.2 target kept.length hs2b
      have hin3 : ((g1.ReplaceSuccessor s.2 block target).RemoveInputAt phi
          kept.length).inputsOf phi = (kept ++ rest).map Prod.fst := by
        unfold HGraph.inputsOf at hin1 ⊢
        rw [GetInstruction_RemoveInputAt, GetInstruction_ReplaceSuccessor]
        cases hp : g1.GetInstruction phi with
        | none =>
          rw [hp] at hin1
          simp at hin1
        | some i =>
          rw [hp] at hin1
          simp only [Option.map_some', if_true]
          simp only at hin1
          rw [hin1, List.map_append, List.map_cons, ← List.length_map kept Prod.fst,
            eraseIdx_middle, List.map_append]
      have hpreds3 : ((g1.ReplaceSuccessor s.2 block target).RemoveInputAt phi
          kept.length).predecessorsOf block = (kept ++ rest).map Prod.snd := by
        have : ((g1.ReplaceSuccessor s.2 block target).RemoveInputAt phi
            kept.length).predecessorsOf block =
            (g1.ReplaceSuccessor s.2 block target).predecessorsOf block := rfl
        rw [this, predecessorsOf_ReplaceSuccessor g1 s.2 block target htarget, hpreds1,
          List.map_append, List.map_cons, erase_middle _ _ _ hs2k, List.map_append]
      have hsuccs3 : ∀ p, ((g1.ReplaceSuccessor s.2 block target).RemoveInputAt phi
          kept.length).successorsOf p =
          if p = s.2 then replaceFirst block target (st.graph.successorsOf p)
          else st.graph.successorsOf p := by
        intro p
        have : ((g1.ReplaceSuccessor s.2 block target).RemoveInputAt phi
            kept.length).successorsOf p =
            (g1.ReplaceSuccessor s.2 block target).successorsOf p := rfl
        rw [this, successorsOf_ReplaceSuccessor, hext.successors]
      have hcount3 : (((g1.ReplaceSuccessor s.2 block target).RemoveInputAt phi
          kept.length).inputsOf phi).length = kept.length + rest.length := by
        rw [hin3]; simp
      have hwalk : SimplifyIfs.walk
          (fun s : Nat × Nat => (SimplifyIfs.resolution cev g0 first a l s.1).join)
          kept.length (s :: rest) =
          if kept.length + rest.length = 1 then rest
          else SimplifyIfs.walk
            (fun s : Nat × Nat => (SimplifyIfs.resolution cev g0 first a l s.1).join)
            kept.length rest := by
        rw [SimplifyIfs.walk]
        simp only [hj, hbv]
      have hwalkr : SimplifyIfs.walkRedirected
          (fun s : Nat × Nat => (SimplifyIfs.resolution cev g0 first a l s.1).join)
          kept.length (s :: rest) =
          (s, bv) :: (if kept.length + rest.length = 1 then []
          else SimplifyIfs.walkRedirected
            (fun s : Nat × Nat => (SimplifyIfs.resolution cev g0 first a l s.1).join)
            kept.length rest) := by
        rw [SimplifyIfs.walkRedirected]
        simp only [hj, hbv]
      rw [hcount3, hwalk, hwalkr]
      by_cases hone : kept.length + rest.length = 1
      · -- a single slot is left: the walk stops
        simp only [hone, if_true]
        refine ⟨_, rfl, hst3, hin3, hpreds3, rfl, ?_⟩
        intro p
        show _ = SimplifyIfs.redirectedSuccessors block t f [(s, bv)] p
          (st.graph.successorsOf p)
        rw [hsuccs3 p]
        unfold SimplifyIfs.redirectedSuccessors
        by_cases hp : p = s.2
        · simp [hp, htg]
        · have : ¬ s.2 = p := fun h => hp h.symm
          simp [hp, this]
      · simp only [hone, if_false]
        obtain ⟨st', hrun, hst', hin', hpreds', hstats', hsuccs'⟩ :=
          ih kept
            { graph := (g1.ReplaceSuccessor s.2 block target).RemoveInputAt phi kept.length,
              stats := st.stats, simplified_one_or_more_ifs := true,
              rerun_dominance_and_loop_analysis :=
                st.rerun_dominance_and_loop_analysis || bb.IsInLoop }
            fuel hfuel' hst3 hin3 hpreds3
            (by
              rw [List.map_append, List.map_cons] at hnodup
              rw [List.map_append]
              have h1 := List.nodup_append.mp hnodup
              refine List.nodup_append.mpr ⟨h1.1, (List.nodup_cons.mp h1.2.1).2, ?_⟩
              intro x hx1 hx2
              exact h1.2.2 hx1 (List.mem_cons_of_mem _ hx2))
            (by
              intro hmem
              apply hblock
              rw [List.map_append] at hmem ⊢
              rcases List.mem_append.mp hmem with h | h
              · exact List.mem_append_left _ h
              · exact List.mem_append_right _ (by simp [h]))
            (fun x hx => hres x (List.mem_cons_of_mem _ hx))
            (fun x hx => hinputs x (List.mem_cons_of_mem _ hx))
        refine ⟨st', hrun, hst', hin', hpreds', hstats', ?_⟩
        intro p
        rw [hsuccs' p]
        show SimplifyIfs.redirectedSuccessors block t f _ p
          (((g1.ReplaceSuccessor s.2 block target).RemoveInputAt phi
            kept.length).successorsOf p) = _
        rw [hsuccs3 p]
        unfold SimplifyIfs.redirectedSuccessors
        by_cases hp : p = s.2
        · have hnone : (SimplifyIfs.walkRedirected
              (fun s : Nat × Nat => (SimplifyIfs.resolution cev g0 first a l s.1).join)
              kept.length rest).find? (fun r => r.1.2 == p) = none := by
            rw [List.find?_eq_none]
            intro r hr hrp
            have hmem := mem_walkRedirected _ rest _ r hr
            apply hs2r
            have : r.1.2 = s.2 := by
              rw [← hp]; simpa using hrp
            rw [← this]
            exact List.mem_map_of_mem _ hmem
          rw [hp] at hnone ⊢
          rw [hnone]
          simp [htg]
        · have : ¬ s.2 = p := fun h => hp h.symm
          simp [hp, this]

/-! ## SimplifyIfs: the body of the loop -/

/-- MaybeAddPhi leaves a block that has a phi alone. -/
theorem MaybeAddPhi_of_phis (dce : HDeadCodeElimination) (block : Nat) (b : HBasicBlock)
    (last x : Nat) (hb : dce.graph.GetBlock block = some b)
    (hlast : b.GetLastInstruction = some last) (hin : dce.graph.InputAt last 0 = some x)
    (hphis : b.phis.isEmpty = false) : MaybeAddPhi dce block = some dce := by
  unfold MaybeAddPhi
  simp only [hb, hlast, hin, hphis, Bool.not_false, if_true]
  split_ifs <;> rfl

theorem GetBlock_RemovePhi (g : HGraph) (block_id phi id : Nat) :
    (g.RemovePhi block_id phi).GetBlock id =
      (g.GetBlock id).map (fun b =>
        if block_id = id then { b with phis := b.phis.filter (fun i => i ≠ phi) } else b) := by
  simp only [HGraph.GetBlock, HGraph.RemovePhi, List.getD_eq_getElem?_getD,
    List.getElem?_modify]
  cases h : g.blocks[id]? with
  | none => simp
  | some ob =>
    by_cases hid : block_id = id
    · cases ob <;> simp [hid]
    · cases ob <;> simp [hid]

theorem edges_RemovePhi (g : HGraph) (block_id phi p : Nat) :
    (g.RemovePhi block_id phi).predecessorsOf p = g.predecessorsOf p ∧
    (g.RemovePhi block_id phi).successorsOf p = g.successorsOf p := by
  unfold HGraph.predecessorsOf HGraph.successorsOf
  rw [GetBlock_RemovePhi]
  cases g.GetBlock p with
  | none => exact ⟨rfl, rfl⟩
  | some b => by_cases h : block_id = p <;> simp [h]

theorem edges_RemoveInstruction (g : HGraph) (block_id inst p : Nat) :
    (g.RemoveInstruction block_id inst).predecessorsOf p = g.predecessorsOf p ∧
    (g.RemoveInstruction block_id inst).successorsOf p = g.successorsOf p := by
  unfold HGraph.predecessorsOf HGraph.successorsOf
  rw [GetBlock_RemoveInstruction]
  cases g.GetBlock p with
  | none => exact ⟨rfl, rfl⟩
  | some b => by_cases h : block_id = p <;> simp [h]

/-- Lines 402-414 of SimplifyIfs leave the edges of the graph alone, and the
graph itself when the block has not a single predecessor. -/
theorem removePhi_edges (ev : StaticEvaluator) (g : HGraph) (block phi first : Nat) (c : Bool)
    (hb : (g.GetBlock block).isSome = true)
    (hin : (g.predecessorsOf block).length = 1 → (g.InputAt phi 0).isSome = true) :
    ∃ g2, SimplifyIfs.removePhi ev g block phi first c = some g2 ∧
      (∀ p, g2.predecessorsOf p = g.predecessorsOf p ∧ g2.successorsOf p = g.successorsOf p) ∧
      ((g.predecessorsOf block).length ≠ 1 → g2 = g) := by
  unfold SimplifyIfs.removePhi
  cases hblk : g.GetBlock block with
  | none => rw [hblk] at hb; cases hb
  | some b =>
    have hp : g.predecessorsOf block = b.predecessors := predecessorsOf_eq g block b hblk
    rw [hp] at hin ⊢
    simp only
    by_cases hone : b.predecessors.length = 1
    · simp only [hone, if_true]
      cases hi : g.InputAt phi 0 with
      | none => have := hin hone; rw [hi] at this; cases this
      | some input =>
        simp only
        have h1 : ∀ p, ((g.ReplaceWith phi input).RemovePhi block phi).predecessorsOf p =
            g.predecessorsOf p ∧
            ((g.ReplaceWith phi input).RemovePhi block phi).successorsOf p =
            g.successorsOf p := fun p => edges_RemovePhi (g.ReplaceWith phi input) block phi p
        cases c with
        | false => exact ⟨_, rfl, h1, fun h => absurd rfl h⟩
        | true =>
          simp only [if_true]
          cases hev : ((g.ReplaceWith phi input).RemovePhi block phi).TryStaticEvaluation ev
              first with
          | none => exact ⟨_, rfl, h1, fun h => absurd rfl h⟩
          | some r =>
            refine ⟨_, rfl, ?_, fun h => absurd rfl h⟩
            intro p
            have hext : Extends ((g.ReplaceWith phi input).RemovePhi block phi) r.1 := by
              unfold HGraph.TryStaticEvaluation at hev
              split at hev
              · cases hev
              · simp only [Option.some.injEq] at hev
                rw [← hev]
                exact Extends_GetConstantOfKind _ _ _
            have h2 := edges_RemoveInstruction (r.1.ReplaceWith first r.2) block first p
            refine ⟨?_, ?_⟩
            · rw [h2.1, ← (h1 p).1, ← hext.predecessors p]; rfl
            · rw [h2.2, ← (h1 p).2, ← hext.successors p]; rfl
    · simp only [hone, if_false]
      exact ⟨g, rfl, fun _ => ⟨rfl, rfl⟩, fun _ => rfl⟩

/-- With a slot already kept, the walk drops every slot that resolves. -/
theorem walkRedirected_of_pos {α : Type} (resolve : α → Option Bool) (l : List α) :
    ∀ i, 0 < i → SimplifyIfs.walkRedirected resolve i l =
      l.filterMap (fun s => (resolve s).map (fun v => (s, v))) := by
  induction l with
  | nil => intro i _; rfl
  | cons s rest ih =>
    intro i hi
    unfold SimplifyIfs.walkRedirected
    cases hs : resolve s with
    | none =>
      simp only [List.filterMap_cons, hs, Option.map_none']
      exact ih (i + 1) (Nat.succ_pos i)
    | some v =>
      simp only [List.filterMap_cons, hs, Option.map_some']
      split
      · next h =>
        have : rest = [] := List.eq_nil_of_length_eq_zero (by omega)
        subst this
        rfl
      · rw [ih i hi]

/-- When a slot does not resolve, the walk keeps the slots that do not resolve
and drops every slot that resolves. -/
theorem walk_of_unresolved {α : Type} (resolve : α → Option Bool) (l : List α)
    (h : ∃ s ∈ l, resolve s = none) :
    SimplifyIfs.walk resolve 0 l = l.filter (fun s => (resolve s).isNone) ∧
    SimplifyIfs.walkRedirected resolve 0 l =
      l.filterMap (fun s => (resolve s).map (fun v => (s, v))) := by
  refine ⟨by rw [walk_closed_form, if_pos h], ?_⟩
  induction l with
  | nil => rfl
  | cons s rest ih =>
    unfold SimplifyIfs.walkRedirected
    cases hs : resolve s with
    | none =>
      simp only [List.filterMap_cons, hs, Option.map_none']
      exact walkRedirected_of_pos resolve rest 1 (by decide)
    | some v =>
      have hrest : ∃ x ∈ rest, resolve x = none := by
        obtain ⟨x, hx, hxn⟩ := h
        rcases List.mem_cons.mp hx with hx | hx
        · rw [hx, hs] at hxn; cases hxn
        · exact ⟨x, hx, hxn⟩
      simp only [List.filterMap_cons, hs, Option.map_some', Nat.zero_add]
      split
      · next h1 =>
        obtain ⟨y, hy⟩ : ∃ y, rest = [y] := by
          cases rest with
          | nil => cases h1
          | cons y t =>
            cases t with
            | nil => exact ⟨y, rfl⟩
            | cons _ _ => simp at h1
        subst hy
        obtain ⟨x, hx, hxn⟩ := hrest
        rw [List.mem_singleton] at hx
        subst hx
        simp [hxn]
      · rw [ih hrest]

theorem isSome_of_kindIs (g : HGraph) (p : InstructionKind → Bool) (id : Nat)
    (h : g.kindIs p id = true) : (g.GetInstruction id).isSome = true := by
  unfold HGraph.kindIs HGraph.KindOf at h
  cases hi : g.GetInstruction id with
  | none => rw [hi] at h; cases h
  | some _ => rfl

/-- The walk with an input that does not resolve: for a non-catch,
non-loop-header block that consists of a
single phi and an If on that phi (or on a single condition over that phi),
where the phi and the condition have no other use, and at least one input of
the phi does not resolve, the body of the loop of SimplifyIfs returns; every
predecessor whose phi input resolves to true has its edge to the block
redirected to the true successor of the If, every predecessor whose input
resolves to false to the false successor; the other blocks keep their
successors; the block is left with the predecessor edges whose input did not
resolve, and, when more than one edge is left, the phi with their inputs.
The slots pair each input of the phi with the predecessor of its edge. -/
theorem visitBlock_with_unresolved_input (ev : StaticEvaluator)
    (cev : ConditionEvaluator)
    (st : SimplifyIfsState) (block phi last first t f : Nat) (b : HBasicBlock)
    (slots : List (Nat × Nat)) (a l : Bool)
    (hb : st.graph.GetBlock block = some b)
    (hcatch : b.is_catch_block = false)
    (hheader : b.loop_information ≠ some block)
    (hphis : b.phis = [phi])
    (hlast : b.GetLastInstruction = some last)
    (hif : st.graph.kindIs (fun k => k = InstructionKind.If) last = true)
    (hfirst : b.GetFirstInstruction = some first)
    (huse : st.graph.HasOnlyOneNonEnvironmentUse phi = true)
    (ha : a = (decide (last = first) && (st.graph.InputAt last 0 == some phi)))
    (hl : l = (st.graph.InputAt first 0 == some phi))
    (hshape : a = true ∨
      (st.graph.kindIs InstructionKind.IsCondition first = true ∧
        HasInput st.graph first phi = true ∧ b.instructions[1]? = some last ∧
        st.graph.InputAt last 0 = some first ∧
        st.graph.HasOnlyOneNonEnvironmentUse first = true))
    (hne : first ≠ phi)
    (hdef : st.graph.InputsDefined = true)
    (ht : b.successors[0]? = some t) (hf : b.successors[1]? = some f)
    (htb : t ≠ block) (hfb : f ≠ block)
    (hinputs : st.graph.inputsOf phi = slots.map Prod.fst)
    (hpreds : b.predecessors = slots.map Prod.snd)
    (hnodup : b.predecessors.Nodup) (hself : block ∉ b.predecessors)
    (hres : ∀ s ∈ slots, (SimplifyIfs.resolution cev st.graph first a l s.1).isSome = true)
    (hex : ∃ s ∈ slots, SimplifyIfs.resolution cev st.graph first a l s.1 = some none) :
    ∃ st', SimplifyIfs.visitBlock ev cev st block = some st' ∧
      (∀ s ∈ slots, ∀ v, SimplifyIfs.resolution cev st.graph first a l s.1 = some (some v) →
        st'.graph.successorsOf s.2 =
          replaceFirst block (if v then t else f) (st.graph.successorsOf s.2)) ∧
      (∀ p, (∀ s ∈ slots, s.2 = p →
          SimplifyIfs.resolution cev st.graph first a l s.1 = some none) →
        st'.graph.successorsOf p = st.graph.successorsOf p) ∧
      st'.graph.predecessorsOf block =
        (slots.filter (fun s =>
          decide (SimplifyIfs.resolution cev st.graph first a l s.1 = some none))).map
          Prod.snd ∧
      ((slots.filter (fun s =>
          decide (SimplifyIfs.resolution cev st.graph first a l s.1 = some none))).length ≠ 1 →
        st'.graph.inputsOf phi =
          (slots.filter (fun s =>
            decide (SimplifyIfs.resolution cev st.graph first a l s.1 = some none))).map
            Prod.fst) := by
  have hx : ∃ x, st.graph.InputAt last 0 = some x := by
    rcases hshape with h | h
    · rw [ha] at h
      simp only [Bool.and_eq_true, beq_iff_eq] at h
      exact ⟨phi, h.2⟩
    · exact ⟨first, h.2.2.2.1⟩
  obtain ⟨x, hx⟩ := hx
  have hmaybe : MaybeAddPhi { graph := st.graph, stats := st.stats } block =
      some { graph := st.graph, stats := st.stats } :=
    MaybeAddPhi_of_phis _ block b last x hb hlast hx (by rw [hphis]; rfl)
  have hfirstI : (st.graph.GetInstruction first).isSome = true := by
    rcases hshape with h | h
    · rw [ha] at h
      simp only [Bool.and_eq_true, decide_eq_true_eq] at h
      rw [← h.1]
      exact isSome_of_kindIs _ _ _ hif
    · exact isSome_of_kindIs _ _ _ h.1
  have hor : (a || !a && st.graph.kindIs InstructionKind.IsCondition first &&
        HasInput st.graph first phi && (b.instructions[1]? == some last) &&
        (st.graph.InputAt last 0 == some first) &&
        st.graph.HasOnlyOneNonEnvironmentUse first) = true := by
    rcases hshape with h | h
    · rw [h]; rfl
    · cases a
      · simp [h.1, h.2.1, h.2.2.1, h.2.2.2.1, h.2.2.2.2]
      · rfl
  have hsucc0 := successorsOf_eq st.graph block b hb
  have hpred0 := predecessorsOf_eq st.graph block b hb
  -- the walk
  obtain ⟨st1, hrun, hst1, hin1, hpreds1, _, hsuccs1⟩ :=
    redirect_spec cev st.graph block phi first a l t f hdef hfirstI hne
      (by rw [hsucc0]; exact ht) (by rw [hsucc0]; exact hf) htb hfb
      slots [] st slots.length (Nat.le_refl _) (WalkStable.walk_refl _ _ _)
      (by simpa using hinputs) (by rw [hpred0]; simpa using hpreds)
      (by rw [List.nil_append, ← hpreds]; exact hnodup)
      (by rw [List.nil_append, ← hpreds]; exact hself)
      hres
      (fun s hs => InputsDefined_isSome st.graph hdef phi s.1
        (by rw [hinputs]; exact List.mem_map_of_mem _ hs))
  have hexj : ∃ s ∈ slots, (fun s : Nat × Nat =>
      (SimplifyIfs.resolution cev st.graph first a l s.1).join) s = none := by
    obtain ⟨s, hs, hsn⟩ := hex
    exact ⟨s, hs, by simp [hsn]⟩
  have hw := walk_of_unresolved _ slots hexj
  simp only [List.length_nil, List.nil_append] at hrun hin1 hpreds1 hsuccs1
  rw [hw.1] at hin1 hpreds1
  rw [hw.2] at hsuccs1
  have hfilter : slots.filter (fun s =>
      ((SimplifyIfs.resolution cev st.graph first a l s.1).join).isNone) =
      slots.filter (fun s =>
        decide (SimplifyIfs.resolution cev st.graph first a l s.1 = some none)) := by
    apply List.filter_congr
    intro s hs
    have := hres s hs
    cases h : SimplifyIfs.resolution cev st.graph first a l s.1 with
    | none => rw [h] at this; cases this
    | some r => cases r <;> simp
  rw [hfilter] at hin1 hpreds1
  -- lines 402-414
  have hkept : ∃ u, u ∈ slots.filter (fun s =>
      decide (SimplifyIfs.resolution cev st.graph first a l s.1 = some none)) := by
    obtain ⟨s, hs, hsn⟩ := hex
    exact ⟨s, List.mem_filter.mpr ⟨hs, by simp [hsn]⟩⟩
  obtain ⟨g2, hg2, hedges, hsame⟩ := removePhi_edges ev st1.graph block phi first
    (!(decide (last = first) && (st.graph.InputAt last 0 == some phi)) &&
        st.graph.kindIs InstructionKind.IsCondition first &&
        HasInput st.graph first phi && (b.instructions[1]? == some last) &&
        (st.graph.InputAt last 0 == some first) &&
        st.graph.HasOnlyOneNonEnvironmentUse first)
    (by rw [hst1.is_some, hb]; rfl)
    (by
      intro _
      rw [InputAt_eq_inputsOf, hin1]
      obtain ⟨u, hu⟩ := hkept
      cases hk : slots.filter (fun s =>
          decide (SimplifyIfs.resolution cev st.graph first a l s.1 = some none)) with
      | nil => rw [hk] at hu; cases hu
      | cons y _ => simp)
  have hst0 : (⟨st.graph, st.stats, st.simplified_one_or_more_ifs,
      st.rerun_dominance_and_loop_analysis⟩ : SimplifyIfsState) = st := rfl
  have hlen : (st.graph.inputsOf phi).length = slots.length := by rw [hinputs]; simp
  refine ⟨⟨g2, if st1.simplified_one_or_more_ifs then
      MaybeRecordStat st1.stats MethodCompilationStat.kSimplifyIf 1 else st1.stats,
    st1.simplified_one_or_more_ifs, st1.rerun_dominance_and_loop_analysis⟩, ?_, ?_, ?_, ?_, ?_⟩
  · unfold SimplifyIfs.visitBlock
    simp only [hb, hcatch, hlast, hif, hheader, hmaybe, hphis, huse, hfirst]
    rw [← ha] at hg2
    simp only [hst0, hlen, ← ha, ← hl, hrun, Bool.not_true, Bool.false_eq_true, if_false,
      if_true, hg2]
    rw [if_pos hor]
  · intro s hs v hv
    show g2.successorsOf s.2 = _
    rw [(hedges s.2).2, hsuccs1 s.2]
    unfold SimplifyIfs.redirectedSuccessors
    have hnd : (slots.map Prod.snd).Nodup := by rw [← hpreds]; exact hnodup
    cases hfind : (slots.filterMap (fun s : Nat × Nat =>
        ((SimplifyIfs.resolution cev st.graph first a l s.1).join).map
          (fun v => (s, v)))).find? (fun r => r.1.2 == s.2) with
    | none =>
      exfalso
      rw [List.find?_eq_none] at hfind
      apply hfind (s, v)
      · rw [List.mem_filterMap]
        exact ⟨s, hs, by simp [hv]⟩
      · simp
    | some r =>
      have hr := List.mem_of_find?_eq_some hfind
      have hr2 := List.find?_some hfind
      rw [List.mem_filterMap] at hr
      obtain ⟨s1, hs1, hs1r⟩ := hr
      have hs1eq : s1 = s := by
        apply List.inj_on_of_nodup_map hnd hs1 hs
        cases hj : (SimplifyIfs.resolution cev st.graph first a l s1.1).join with
        | none => rw [hj] at hs1r; cases hs1r
        | some w =>
          rw [hj] at hs1r
          simp only [Option.map_some', Option.some.injEq] at hs1r
          rw [← hs1r] at hr2
          simpa using hr2
      have hrv : (s, v) = r := by
        rw [hs1eq, hv] at hs1r
        exact Option.some.inj hs1r
      rw [← hrv]
  · intro p hp
    show g2.successorsOf p = _
    rw [(hedges p).2, hsuccs1 p]
    unfold SimplifyIfs.redirectedSuccessors
    have hnone : (slots.filterMap (fun s : Nat × Nat =>
        ((SimplifyIfs.resolution cev st.graph first a l s.1).join).map
          (fun v => (s, v)))).find? (fun r => r.1.2 == p) = none := by
      rw [List.find?_eq_none]
      intro r hr hrp
      rw [List.mem_filterMap] at hr
      obtain ⟨s1, hs1, hs1r⟩ := hr
      cases hj : (SimplifyIfs.resolution cev st.graph first a l s1.1).join with
      | none => rw [hj] at hs1r; cases hs1r
      | some w =>
        rw [hj] at hs1r
        simp only [Option.map_some', Option.some.injEq] at hs1r
        rw [← hs1r] at hrp
        have := hp s1 hs1 (by simpa using hrp)
        rw [this] at hj
        cases hj
    rw [hnone]
  · show g2.predecessorsOf block = _
    rw [(hedges block).1, hpreds1]
  · intro hlen1
    show g2.inputsOf phi = _
    rw [hsame (by rw [hpreds1]; simpa using hlen1), hin1]

/-- C19 (counterexample): in the diamond whose phi has the constants 1 and 0
as inputs, the input of the edge from block 3 resolves to false; yet after the
body of the loop of SimplifyIfs for block 4 the walk has stopped with one input
left: block 3 still goes to block 4, not to the false successor 6, and block 4
is left with a predecessor edge whose input resolved.  The block is an If on
the phi itself, so the evaluators are not consulted. -/
theorem SimplifyIfs_keeps_last_resolving_edge :
    (exampleDiamond 2).inputsOf 7 = [1, 2] ∧ (exampleDiamond 2).predecessorsOf 4 = [2, 3] ∧
    (exampleDiamond 2).successorsOf 4 = [5, 6] ∧
    SimplifyIfs.resolution (fun _ _ _ => none) (exampleDiamond 2) 8 true true 1 =
      some (some true) ∧
    SimplifyIfs.resolution (fun _ _ _ => none) (exampleDiamond 2) 8 true true 2 =
      some (some false) ∧
    ∃ st', SimplifyIfs.visitBlock (fun _ _ => none) (fun _ _ _ => none)
        (SimplifyIfsState.start (exampleDiamond 2)) 4 = some st' ∧
      st'.graph.successorsOf 2 = [5] ∧ st'.graph.successorsOf 3 = [4] ∧
      st'.graph.predecessorsOf 4 = [3] := by
  refine ⟨rfl, rfl, rfl, rfl, rfl, _, rfl, ?_, ?_, ?_⟩ <;> decide

/-! ## Constant folding is idempotent -/

theorem Evolves.ev_refl (g : HGraph) (touched removed : Nat → Prop) :
    Evolves g g touched removed where
  entry := rfl
  rpo := rfl
  succ := fun _ => rfl
  block_some := fun _ h => h
  lists := fun _ _ h => Or.inl h
  lists_frame := fun _ _ _ => rfl
  last := fun _ _ h _ => h
  inst := fun _ i h => ⟨i, h, rfl, rfl, ⟨rfl, rfl⟩, Or.inl rfl, Or.inl rfl⟩
  fresh := fun _ i' h h' => by rw [h] at h'; cases h'
  cons := fun h => h

theorem Evolves.mono {g g' : HGraph} {t r t' r' : Nat → Prop} (h : Evolves g g' t r)
    (ht : ∀ u, t u → t' u) (hr : ∀ u, r u → r' u) : Evolves g g' t' r' where
  entry := h.entry
  rpo := h.rpo
  succ := h.succ
  block_some := h.block_some
  lists := h.lists
  lists_frame := fun b hb hn => h.lists_frame b hb (fun u hu hru => hn u hu (hr u hru))
  last := fun b x hx hn => h.last b x hx (fun hrx => hn (hr x hrx))
  inst := fun u i hi => by
    obtain ⟨i', hi', hk, hty, hcn, hb, hin⟩ := h.inst u i hi
    refine ⟨i', hi', hk, hty, hcn, ?_, ?_⟩
    · rcases hb with hb | ⟨hru, hb⟩
      · exact Or.inl hb
      · exact Or.inr ⟨hr u hru, hb⟩
    · rcases hin with hin | ⟨htu, hbs, hlen, hin⟩
      · exact Or.inl hin
      · exact Or.inr ⟨ht u htu, hbs, hlen, hin⟩
  fresh := h.fresh
  cons := h.cons

theorem Evolves.length_le {g g' : HGraph} {t r : Nat → Prop} (h : Evolves g g' t r) :
    g.instructions.length ≤ g'.instructions.length := by
  by_contra hlt
  have hlt : g'.instructions.length < g.instructions.length := Nat.lt_of_not_le hlt
  have hsome : ∃ i, g.GetInstruction g'.instructions.length = some i := by
    unfold HGraph.GetInstruction
    exact ⟨_, List.getElem?_eq_getElem hlt⟩
  obtain ⟨i, hi⟩ := hsome
  obtain ⟨i', hi', _⟩ := h.inst _ i hi
  unfold HGraph.GetInstruction at hi'
  have := (List.getElem?_eq_some.mp hi').1
  exact Nat.lt_irrefl _ this

theorem Evolves.KindOf_eq_old {g g' : HGraph} {t r : Nat → Prop} (h : Evolves g g' t r)
    (u : Nat) (hu : (g.GetInstruction u).isSome = true) : g'.KindOf u = g.KindOf u := by
  cases hi : g.GetInstruction u with
  | none => rw [hi] at hu; cases hu
  | some i =>
    obtain ⟨i', hi', hk, _⟩ := h.inst u i hi
    simp [HGraph.KindOf, hi, hi', hk]

theorem Evolves.kindIs_eq_old {g g' : HGraph} {t r : Nat → Prop} (h : Evolves g g' t r)
    (p : InstructionKind → Bool) (u : Nat) (hu : (g.GetInstruction u).isSome = true) :
    g'.kindIs p u = g.kindIs p u := by
  simp only [HGraph.kindIs, h.KindOf_eq_old u hu]

theorem Evolves.GetType_eq_old {g g' : HGraph} {t r : Nat → Prop} (h : Evolves g g' t r)
    (u : Nat) (hu : (g.GetInstruction u).isSome = true) : g'.GetType u = g.GetType u := by
  cases hi : g.GetInstruction u with
  | none => rw [hi] at hu; cases hu
  | some i =>
    obtain ⟨i', hi', _, hty, _⟩ := h.inst u i hi
    simp [HGraph.GetType, hi, hi', hty]

theorem Evolves.isSome_old {g g' : HGraph} {t r : Nat → Prop} (h : Evolves g g' t r)
    (u : Nat) (hu : (g.GetInstruction u).isSome = true) :
    (g'.GetInstruction u).isSome = true := by
  cases hi : g.GetInstruction u with
  | none => rw [hi] at hu; cases hu
  | some i =>
    obtain ⟨i', hi', _⟩ := h.inst u i hi
    rw [hi']; rfl

theorem Evolves.Dominates_eq_old {g g' : HGraph} {t r : Nat → Prop} (h : Evolves g g' t r)
    (a b : Nat) : g'.Dominates a b = g.Dominates a b :=
  Dominates_congr g g' h.entry h.succ a b

/-- An instruction of the later graph that is a constant there and is known
to the earlier graph is a constant there. -/
theorem Evolves.IsConstant_eq_old {g g' : HGraph} {t r : Nat → Prop} (h : Evolves g g' t r)
    (u : Nat) (hu : (g.GetInstruction u).isSome = true) :
    g'.IsConstant u = g.IsConstant u :=
  h.kindIs_eq_old _ u hu

theorem Evolves.BlockOf_old {g g' : HGraph} {t r : Nat → Prop} (h : Evolves g g' t r)
    (u : Nat) (hu : (g.GetInstruction u).isSome = true) :
    g'.BlockOf u = g.BlockOf u ∨ (r u ∧ g'.BlockOf u = none) := by
  cases hi : g.GetInstruction u with
  | none => rw [hi] at hu; cases hu
  | some i =>
    obtain ⟨i', hi', _, _, _, hb, _⟩ := h.inst u i hi
    rcases hb with hb | ⟨hr, hb⟩
    · exact Or.inl (by simp [HGraph.BlockOf, hi, hi', hb])
    · exact Or.inr ⟨hr, by simp [HGraph.BlockOf, hi', hb]⟩

theorem Evolves.inputsOf_old {g g' : HGraph} {t r : Nat → Prop} (h : Evolves g g' t r)
    (u : Nat) :
    g'.inputsOf u = g.inputsOf u ∨ (t u ∧ (g.BlockOf u).isSome = true ∧
      ∀ x ∈ g'.inputsOf u, x ∈ g.inputsOf u ∨ g'.IsConstant x = true) := by
  cases hi : g.GetInstruction u with
  | none =>
    left
    cases hi' : g'.GetInstruction u with
    | none => simp [HGraph.inputsOf, hi, hi']
    | some i' => simp [HGraph.inputsOf, hi, hi', (h.fresh u i' hi hi').1]
  | some i =>
    obtain ⟨i', hi', _, _, _, _, hin⟩ := h.inst u i hi
    rcases hin with hin | ⟨ht, hb, _, hin⟩
    · exact Or.inl (by simp [HGraph.inputsOf, hi, hi', hin])
    · refine Or.inr ⟨ht, by simp [HGraph.BlockOf, hi, hb], ?_⟩
      simpa [HGraph.inputsOf, hi, hi'] using hin

theorem isSome_of_kindIs_true (g : HGraph) (p : InstructionKind → Bool) (id : Nat)
    (h : g.kindIs p id = true) : (g.GetInstruction id).isSome = true := by
  unfold HGraph.kindIs HGraph.KindOf at h
  cases hi : g.GetInstruction id with
  | none => rw [hi] at h; cases h
  | some _ => rfl

theorem Evolves.ev_trans {g g1 g2 : HGraph} {t1 r1 t2 r2 : Nat → Prop}
    (h1 : Evolves g g1 t1 r1) (h2 : Evolves g1 g2 t2 r2) :
    Evolves g g2 (fun u => t1 u ∨ t2 u) (fun u => r1 u ∨ r2 u) where
  entry := h2.entry.trans h1.entry
  rpo := h2.rpo.trans h1.rpo
  succ := fun b => (h2.succ b).trans (h1.succ b)
  block_some := fun b h => h2.block_some b (h1.block_some b h)
  lists := fun b u hu => by
    rcases h2.lists b u hu with h | h
    · exact h1.lists b u h
    · exact Or.inr (Nat.le_trans h1.length_le h)
  lists_frame := fun b hb hn => by
    have e1 := h1.lists_frame b hb (fun u hu hr => hn u hu (Or.inl hr))
    have e2 := h2.lists_frame b (by rw [h1.entry]; exact hb)
      (fun u hu hr => hn u (by rw [← e1]; exact hu) (Or.inr hr))
    rw [e2, e1]
  last := fun b x hx hn =>
    h2.last b x (h1.last b x hx (fun hr => hn (Or.inl hr))) (fun hr => hn (Or.inr hr))
  inst := fun u i hi => by
    obtain ⟨i1, hi1, hk1, hty1, hcn1, hb1, hin1⟩ := h1.inst u i hi
    obtain ⟨i2, hi2, hk2, hty2, hcn2, hb2, hin2⟩ := h2.inst u i1 hi1
    have hconst : ∀ x, g1.IsConstant x = true → g2.IsConstant x = true := by
      intro x hx
      rw [h2.IsConstant_eq_old x (isSome_of_kindIs_true _ _ _ hx)]
      exact hx
    refine ⟨i2, hi2, hk2.trans hk1, hty2.trans hty1,
      ⟨hcn2.1.trans hcn1.1, hcn2.2.trans hcn1.2⟩, ?_, ?_⟩
    · rcases hb2 with hb2 | ⟨hr2, hb2⟩
      · rcases hb1 with hb1 | ⟨hr1, hb1⟩
        · exact Or.inl (hb2.trans hb1)
        · exact Or.inr ⟨Or.inl hr1, hb2.trans hb1⟩
      · exact Or.inr ⟨Or.inr hr2, hb2⟩
    · rcases hin2 with hin2 | ⟨ht2, hbs2, hlen2, hin2⟩
      · rcases hin1 with hin1 | ⟨ht1, hbs1, hlen1, hin1⟩
        · exact Or.inl (hin2.trans hin1)
        · refine Or.inr ⟨Or.inl ht1, hbs1, by rw [hin2]; exact hlen1, ?_⟩
          intro x hx
          rw [hin2] at hx
          rcases hin1 x hx with h | h
          · exact Or.inl h
          · exact Or.inr (hconst x h)
      · have hbs : i.block.isSome = true := by
          rcases hb1 with hb1 | ⟨_, hb1⟩
          · rw [← hb1]; exact hbs2
          · rw [hb1] at hbs2; cases hbs2
        rcases hin1 with hin1 | ⟨_, _, hlen1, hin1⟩
        · refine Or.inr ⟨Or.inr ht2, hbs, by rw [hlen2, hin1], ?_⟩
          intro x hx
          rcases hin2 x hx with h | h
          · exact Or.inl (by rw [← hin1]; exact h)
          · exact Or.inr h
        · refine Or.inr ⟨Or.inr ht2, hbs, hlen2.trans hlen1, ?_⟩
          intro x hx
          rcases hin2 x hx with h | h
          · rcases hin1 x h with h' | h'
            · exact Or.inl h'
            · exact Or.inr (hconst x h')
          · exact Or.inr h
  fresh := fun u i2 hu hi2 => by
    cases hi1 : g1.GetInstruction u with
    | none => exact h2.fresh u i2 hi1 hi2
    | some i1 =>
      obtain ⟨hin1, hk1⟩ := h1.fresh u i1 hu hi1
      obtain ⟨i2', hi2', hk2, _, _, _, hin2⟩ := h2.inst u i1 hi1
      rw [hi2] at hi2'
      cases hi2'
      refine ⟨?_, by rw [hk2]; exact hk1⟩
      rcases hin2 with hin2 | ⟨_, _, hlen2, _⟩
      · rw [hin2, hin1]
      · rw [hin1] at hlen2
        exact List.eq_nil_of_length_eq_zero hlen2
  cons := fun h => h2.cons (h1.cons h)

theorem mem_insertBeforeLast (l : List Nat) (c u : Nat) (h : u ∈ insertBeforeLast l c) :
    u ∈ l ∨ u = c := by
  unfold insertBeforeLast at h
  rcases List.mem_append.mp h with h | h
  · exact Or.inl (List.dropLast_subset l h)
  · rcases List.mem_cons.mp h with h | h
    · exact Or.inr h
    · left
      cases hl : l.getLast? with
      | none => rw [hl] at h; cases h
      | some x =>
        rw [hl] at h
        rw [List.mem_singleton] at h
        rw [h]
        exact List.mem_of_getLast?_eq_some hl

theorem instructionsOf_InsertConstant (g : HGraph) (k : InstructionKind) (ty : DataType)
    (b : Nat) :
    (g.InsertConstant k ty).1.instructionsOf b =
      if g.entry_block = b then
        (match g.GetBlock b with
          | none => []
          | some blk => insertBeforeLast blk.instructions g.instructions.length)
      else g.instructionsOf b := by
  unfold HGraph.instructionsOf
  rw [GetBlock_InsertConstant]
  cases g.GetBlock b with
  | none => simp
  | some blk => simp only [Option.map_some']; split <;> rfl

theorem GetInstruction_InsertConstant_fresh (g : HGraph) (k : InstructionKind) (ty : DataType)
    (u : Nat) (i' : HInstruction) (hu : g.GetInstruction u = none)
    (h : (g.InsertConstant k ty).1.GetInstruction u = some i') :
    u = g.instructions.length ∧
      i' = { kind := k, type := ty, inputs := [], block := some g.entry_block } := by
  unfold HGraph.GetInstruction at hu h
  unfold HGraph.InsertConstant at h
  simp only at h
  have hge : g.instructions.length ≤ u := by
    by_contra hlt
    rw [List.getElem?_eq_getElem (Nat.lt_of_not_le hlt)] at hu
    cases hu
  rw [List.getElem?_append_right hge] at h
  have hlt := (List.getElem?_eq_some.mp h).1
  simp only [List.length_singleton, Nat.lt_one_iff] at hlt
  have hu' : u = g.instructions.length := by omega
  rw [hlt] at h
  simp only [List.getElem?_cons_zero, Option.some.injEq] at h
  exact ⟨hu', h.symm⟩

/-- Interning a constant is a step of the evolution that touches and removes
nothing. -/
theorem Evolves_InsertConstant (g : HGraph) (k : InstructionKind) (ty : DataType)
    (hk : k.IsConstant = true) (t r : Nat → Prop) :
    Evolves g (g.InsertConstant k ty).1 t r where
  entry := rfl
  rpo := rfl
  succ := fun b => by
    simp only [HGraph.successorsOf, GetBlock_InsertConstant]
    cases g.GetBlock b with
    | none => rfl
    | some blk => simp only [Option.map_some']; split <;> rfl
  block_some := fun b h => by
    rw [GetBlock_InsertConstant]
    cases hb : g.GetBlock b with
    | none => rw [hb] at h; cases h
    | some _ => rfl
  lists := fun b u hu => by
    rw [instructionsOf_InsertConstant] at hu
    split at hu
    · cases hb : g.GetBlock b with
      | none => rw [hb] at hu; cases hu
      | some blk =>
        rw [hb] at hu
        rcases mem_insertBeforeLast _ _ _ hu with h | h
        · exact Or.inl (by simp [HGraph.instructionsOf, hb, h])
        · exact Or.inr (by rw [h])
    · exact Or.inl hu
  lists_frame := fun b hb _ => by
    rw [instructionsOf_InsertConstant, if_neg (fun h => hb h.symm)]
  last := fun b x hx _ => by
    rw [instructionsOf_InsertConstant]
    split
    · cases hb : g.GetBlock b with
      | none => simp [HGraph.instructionsOf, hb] at hx
      | some blk =>
        simp only [HGraph.instructionsOf, hb] at hx
        exact getLast?_insertBeforeLast _ _ _ hx
    · exact hx
  inst := fun u i hi =>
    ⟨i, GetInstruction_InsertConstant_old g k ty u i hi, rfl, rfl, ⟨rfl, rfl⟩, Or.inl rfl,
      Or.inl rfl⟩
  fresh := fun u i' hu hi' => by
    obtain ⟨_, h⟩ := GetInstruction_InsertConstant_fresh g k ty u i' hu hi'
    rw [h]
    exact ⟨rfl, hk⟩
  cons := fun hc b u hu => by
    have hold : ∀ v, v ∈ g.instructionsOf b →
        (g.InsertConstant k ty).1.BlockOf v = some b ∧
        (g.InsertConstant k ty).1.IsPhi v = false := by
      intro v hv
      obtain ⟨hb, hp⟩ := hc b v hv
      have hs : (g.GetInstruction v).isSome = true := by
        unfold HGraph.BlockOf at hb
        cases hi : g.GetInstruction v with
        | none => rw [hi] at hb; cases hb
        | some _ => rfl
      cases hi : g.GetInstruction v with
      | none => rw [hi] at hs; cases hs
      | some i =>
        have hi' := GetInstruction_InsertConstant_old g k ty v i hi
        constructor
        · simpa [HGraph.BlockOf, hi, hi'] using hb
        · simpa [HGraph.IsPhi, HGraph.kindIs, HGraph.KindOf, hi, hi'] using hp
    rw [instructionsOf_InsertConstant] at hu
    split at hu
    · next he =>
      cases hb : g.GetBlock b with
      | none => rw [hb] at hu; cases hu
      | some blk =>
        rw [hb] at hu
        rcases mem_insertBeforeLast _ _ _ hu with h | h
        · exact hold u (by simp [HGraph.instructionsOf, hb, h])
        · have hnew := GetInstruction_InsertConstant_new g k ty
          have h2 : (g.InsertConstant k ty).2 = g.instructions.length := rfl
          rw [h2, ← h] at hnew
          constructor
          · simp [HGraph.BlockOf, hnew, he]
          · simp only [HGraph.IsPhi, HGraph.kindIs, HGraph.KindOf, hnew, Option.map_some']
            cases k <;> simp_all [InstructionKind.IsConstant]
    · exact hold u hu

theorem Evolves_GetConstantOfKind (g : HGraph) (k : InstructionKind) (ty : DataType)
    (hk : k.IsConstant = true) (t r : Nat → Prop) :
    Evolves g (g.GetConstantOfKind k ty).1 t r := by
  unfold HGraph.GetConstantOfKind
  split
  · exact Evolves.ev_refl g t r
  · exact Evolves_InsertConstant g k ty hk t r

theorem substInput_of_not_mem (old new : Nat) (l : List Nat) (h : old ∉ l) :
    substInput old new l = l := by
  unfold substInput
  induction l with
  | nil => rfl
  | cons x xs ih =>
    have hx : x ≠ old := fun e => h (by rw [e]; exact List.mem_cons_self _ _)
    have hxs : old ∉ xs := fun e => h (List.mem_cons_of_mem _ e)
    simp only [List.map_cons, hx, if_false, ih hxs]

theorem mem_substInput (old new x : Nat) (l : List Nat) (h : x ∈ substInput old new l) :
    x ∈ l ∨ x = new := by
  unfold substInput at h
  obtain ⟨y, hy, hxy⟩ := List.mem_map.mp h
  by_cases e : y = old
  · rw [if_pos e] at hxy
    exact Or.inr hxy.symm
  · rw [if_neg e] at hxy
    exact Or.inl (by rw [← hxy]; exact hy)

theorem not_mem_substInput (old new : Nat) (l : List Nat) (h : new ≠ old) :
    old ∉ substInput old new l := by
  intro hmem
  unfold substInput at hmem
  obtain ⟨y, _, hy⟩ := List.mem_map.mp hmem
  by_cases e : y = old
  · rw [if_pos e] at hy; exact h hy
  · rw [if_neg e] at hy; exact e hy

theorem length_substInput (old new : Nat) (l : List Nat) :
    (substInput old new l).length = l.length := by
  simp [substInput]

theorem instructionsOf_ReplaceUsesDominatedBy (g : HGraph) (var d c : Nat) (s : Bool) (b : Nat) :
    (g.ReplaceUsesDominatedBy var d c s).instructionsOf b = g.instructionsOf b := rfl

/-- The replacement of the uses of `var` that `d` dominates by the constant
`c` is a step of the evolution that touches the instructions which `d`
dominates and which use `var`, and removes nothing. -/
theorem Evolves_ReplaceUsesDominatedBy (g : HGraph) (var d c : Nat)
    (hc : g.IsConstant c = true) (r : Nat → Prop) :
    Evolves g (g.ReplaceUsesDominatedBy var d c false)
      (fun u => g.inRegion d u = true ∧ var ∈ g.inputsOf u) r where
  entry := rfl
  rpo := rfl
  succ := fun _ => rfl
  block_some := fun _ h => h
  lists := fun _ _ h => Or.inl h
  lists_frame := fun _ _ _ => rfl
  last := fun _ _ h _ => h
  inst := fun u i hi => by
    rw [GetInstruction_ReplaceUsesDominatedBy, hi]
    simp only [Option.map_some', Bool.false_eq_true, if_false]
    by_cases hcond : (i.block.isSome && g.InstructionDominates d u) = true
    · rw [if_pos hcond]
      refine ⟨_, rfl, rfl, rfl, ⟨rfl, rfl⟩, Or.inl rfl, ?_⟩
      by_cases hv : var ∈ i.inputs
      · right
        refine ⟨⟨?_, ?_⟩, ?_, length_substInput _ _ _, ?_⟩
        · simp only [HGraph.inRegion, HGraph.BlockOf, hi, Option.some_bind]
          exact hcond
        · simp only [HGraph.inputsOf, hi]
          exact hv
        · simp only [Bool.and_eq_true] at hcond
          exact hcond.1
        · intro x hx
          rcases mem_substInput _ _ _ _ hx with h | h
          · exact Or.inl h
          · right
            rw [h]
            simp only [HGraph.IsConstant, HGraph.kindIs, KindOf_ReplaceUsesDominatedBy]
            exact hc
      · left
        exact substInput_of_not_mem _ _ _ hv
    · rw [if_neg hcond]
      exact ⟨_, rfl, rfl, rfl, ⟨rfl, rfl⟩, Or.inl rfl, Or.inl rfl⟩
  fresh := fun u i' hu hi' => by
    rw [GetInstruction_ReplaceUsesDominatedBy, hu] at hi'
    cases hi'
  cons := fun hcons b u hu => by
    obtain ⟨hb, hp⟩ := hcons b u hu
    refine ⟨by rw [BlockOf_ReplaceUsesDominatedBy]; exact hb, ?_⟩
    simp only [HGraph.IsPhi, HGraph.kindIs, KindOf_ReplaceUsesDominatedBy]
    exact hp

theorem instructionsOf_RemoveInstruction (g : HGraph) (block_id inst b : Nat) :
    (g.RemoveInstruction block_id inst).instructionsOf b =
      if block_id = b then (g.instructionsOf b).filter (fun i => i ≠ inst)
      else g.instructionsOf b := by
  unfold HGraph.instructionsOf
  rw [GetBlock_RemoveInstruction]
  cases g.GetBlock b with
  | none => simp
  | some blk => simp only [Option.map_some']; split <;> rfl

theorem instructionsOf_ReplaceWith (g : HGraph) (inst other b : Nat) :
    (g.ReplaceWith inst other).instructionsOf b = g.instructionsOf b := rfl

theorem getLast?_filter_of_pos (p : Nat → Bool) (l : List Nat) (x : Nat)
    (h : l.getLast? = some x) (hp : p x = true) : (l.filter p).getLast? = some x := by
  obtain ⟨l', hl⟩ : ∃ l', l = l' ++ [x] := by
    rw [List.getLast?_eq_some_iff] at h
    exact h
  rw [hl, List.filter_append]
  simp [hp]

/-- The replacement of an instruction by a constant and its removal are a
step of the evolution that touches the users of the instruction and removes
the instruction. -/
theorem Evolves_ReplaceWith_RemoveInstruction (g : HGraph) (inst c b : Nat)
    (hc : g.IsConstant c = true)
    (hb : g.BlockOf inst = some b ∨ g.BlockOf inst = none) :
    Evolves g ((g.ReplaceWith inst c).RemoveInstruction b inst)
      (fun u => inst ∈ g.inputsOf u) (fun u => u = inst) where
  entry := rfl
  rpo := rfl
  succ := fun b' => by
    simp only [HGraph.successorsOf, GetBlock_RemoveInstruction]
    have : (g.ReplaceWith inst c).GetBlock b' = g.GetBlock b' := rfl
    rw [this]
    cases g.GetBlock b' with
    | none => rfl
    | some blk => simp only [Option.map_some']; split <;> rfl
  block_some := fun b' h => by
    rw [GetBlock_RemoveInstruction]
    have : (g.ReplaceWith inst c).GetBlock b' = g.GetBlock b' := rfl
    rw [this]
    cases hb' : g.GetBlock b' with
    | none => rw [hb'] at h; cases h
    | some _ => rfl
  lists := fun b' u hu => by
    rw [instructionsOf_RemoveInstruction, instructionsOf_ReplaceWith] at hu
    split at hu
    · exact Or.inl (List.mem_filter.mp hu).1
    · exact Or.inl hu
  lists_frame := fun b' _ hn => by
    rw [instructionsOf_RemoveInstruction, instructionsOf_ReplaceWith]
    split
    · rw [List.filter_eq_self]
      intro u hu
      simpa using hn u hu
    · rfl
  last := fun b' x hx hn => by
    rw [instructionsOf_RemoveInstruction, instructionsOf_ReplaceWith]
    split
    · exact getLast?_filter_of_pos _ _ _ hx (by simpa using hn)
    · exact hx
  inst := fun u i hi => by
    rw [GetInstruction_RemoveInstruction, GetInstruction_ReplaceWith, hi]
    simp only [Option.map_some']
    have hin : ∀ i1 : HInstruction,
        i1 = (if i.block.isSome = true then { i with inputs := substInput inst c i.inputs }
          else i) →
        i1.kind = i.kind ∧ i1.type = i.type ∧
        (i1.can_be_null = i.can_be_null ∧ i1.dex_pc = i.dex_pc) ∧ i1.block = i.block ∧
        (i1.inputs = i.inputs ∨ (inst ∈ g.inputsOf u ∧ i.block.isSome = true ∧
          i1.inputs.length = i.inputs.length ∧
          ∀ x ∈ i1.inputs, x ∈ i.inputs ∨
            ((g.ReplaceWith inst c).RemoveInstruction b inst).IsConstant x = true)) := by
      intro i1 hi1
      by_cases hbs : i.block.isSome = true
      · rw [if_pos hbs] at hi1
        subst hi1
        refine ⟨rfl, rfl, ⟨rfl, rfl⟩, rfl, ?_⟩
        by_cases hv : inst ∈ i.inputs
        · right
          refine ⟨by simp only [HGraph.inputsOf, hi]; exact hv, hbs,
            length_substInput _ _ _, ?_⟩
          intro x hx
          rcases mem_substInput _ _ _ _ hx with h | h
          · exact Or.inl h
          · right
            rw [h]
            simp only [HGraph.IsConstant, HGraph.kindIs, KindOf_RemoveInstruction,
              KindOf_ReplaceWith]
            exact hc
        · left
          exact substInput_of_not_mem _ _ _ hv
      · rw [if_neg hbs] at hi1
        subst hi1
        exact ⟨rfl, rfl, ⟨rfl, rfl⟩, rfl, Or.inl rfl⟩
    obtain ⟨h1, h2, h3, h4, h5⟩ := hin _ rfl
    by_cases hu : inst = u
    · rw [if_pos hu]
      exact ⟨_, rfl, h1, h2, h3, Or.inr ⟨hu.symm, rfl⟩, h5⟩
    · rw [if_neg hu]
      exact ⟨_, rfl, h1, h2, h3, Or.inl h4, h5⟩
  fresh := fun u i' hu hi' => by
    rw [GetInstruction_RemoveInstruction, GetInstruction_ReplaceWith, hu] at hi'
    cases hi'
  cons := fun hcons b' u hu => by
    rw [instructionsOf_RemoveInstruction, instructionsOf_ReplaceWith] at hu
    have hmem : u ∈ g.instructionsOf b' ∧ u ≠ inst := by
      split at hu
      · have := List.mem_filter.mp hu
        exact ⟨this.1, by simpa using this.2⟩
      · next hne =>
        refine ⟨hu, ?_⟩
        intro e
        rw [e] at hu
        have := (hcons b' inst hu).1
        rcases hb with h | h
        · rw [h] at this
          exact hne (Option.some.inj this)
        · rw [h] at this; cases this
    obtain ⟨hbu, hp⟩ := hcons b' u hmem.1
    constructor
    · simp only [HGraph.BlockOf, GetInstruction_RemoveInstruction, GetInstruction_ReplaceWith]
      simp only [HGraph.BlockOf] at hbu
      cases hi : g.GetInstruction u with
      | none => rw [hi] at hbu; cases hbu
      | some i =>
        rw [hi] at hbu
        simp only [Option.some_bind] at hbu
        have hne : ¬ inst = u := fun e => hmem.2 e.symm
        simp only [Option.map_some', Option.some_bind, if_neg hne]
        split <;> exact hbu
    · simp only [HGraph.IsPhi, HGraph.kindIs, KindOf_RemoveInstruction, KindOf_ReplaceWith]
      exact hp

theorem Evolves.inputsOf_eq {g g' : HGraph} {r : Nat → Prop}
    (h : Evolves g g' (fun _ => False) r) (u : Nat) : g'.inputsOf u = g.inputsOf u := by
  rcases h.inputsOf_old u with h | ⟨h, _⟩
  · exact h
  · exact absurd h id

theorem Evolves.BlockOf_eq {g g' : HGraph} {t : Nat → Prop}
    (h : Evolves g g' t (fun _ => False)) (u : Nat)
    (hu : (g.GetInstruction u).isSome = true) : g'.BlockOf u = g.BlockOf u := by
  rcases h.BlockOf_old u hu with h | ⟨h, _⟩
  · exact h
  · exact absurd h id

theorem BlockOf_removed (g : HGraph) (inst c b : Nat) :
    ((g.ReplaceWith inst c).RemoveInstruction b inst).BlockOf inst = none := by
  simp only [HGraph.BlockOf, GetInstruction_RemoveInstruction]
  cases (g.ReplaceWith inst c).GetInstruction inst <;> simp

theorem BlockOf_none_of_evolves {g g' : HGraph} {t r : Nat → Prop} (h : Evolves g g' t r)
    (u : Nat) (hu : (g.GetInstruction u).isSome = true) (hb : g.BlockOf u = none) :
    g'.BlockOf u = none := by
  rcases h.BlockOf_old u hu with h | ⟨_, h⟩
  · rw [h, hb]
  · exact h

/-- The replacement and removal of `inst`, after the interning of a
constant, folds it. -/
theorem Folds_intro (g g1 : HGraph) (inst c b : Nat)
    (h1 : Evolves g g1 (fun _ => False) (fun _ => False))
    (hc : g1.IsConstant c = true)
    (hb : g1.BlockOf inst = some b ∨ g1.BlockOf inst = none) :
    Folds g ((g1.ReplaceWith inst c).RemoveInstruction b inst) inst := by
  refine ⟨?_, BlockOf_removed g1 inst c b⟩
  refine (h1.ev_trans (Evolves_ReplaceWith_RemoveInstruction g1 inst c b hc hb)).mono ?_ ?_
  · intro u hu
    rcases hu with hu | hu
    · exact absurd hu id
    · rw [← h1.inputsOf_eq u]; exact hu
  · intro u hu
    rcases hu with hu | hu
    · exact absurd hu id
    · exact hu

theorem Folds_ReplaceWithAndRemove (g g1 g' : HGraph) (inst c : Nat)
    (h1 : Evolves g g1 (fun _ => False) (fun _ => False))
    (hc : g1.IsConstant c = true)
    (h : g1.ReplaceWithAndRemove inst c = some g') : Folds g g' inst := by
  unfold HGraph.ReplaceWithAndRemove at h
  simp only at h
  rw [BlockOf_ReplaceWith] at h
  cases hb : g1.BlockOf inst with
  | none => rw [hb] at h; cases h
  | some b =>
    rw [hb] at h
    simp only [Option.some.injEq] at h
    rw [← h]
    exact Folds_intro g g1 inst c b h1 hc (Or.inl hb)

theorem Folds_ReplaceWithAndRemoveFrom (g g1 g' : HGraph) (block : Option Nat) (inst c : Nat)
    (h1 : Evolves g g1 (fun _ => False) (fun _ => False))
    (hc : g1.IsConstant c = true)
    (hb : g1.BlockOf inst = block ∨ g1.BlockOf inst = none)
    (h : g1.ReplaceWithAndRemoveFrom block inst c = some g') : Folds g g' inst := by
  unfold HGraph.ReplaceWithAndRemoveFrom at h
  cases block with
  | none => cases h
  | some b =>
    simp only [Option.some.injEq] at h
    rw [← h]
    exact Folds_intro g g1 inst c b h1 hc hb

theorem constantKind_IsConstant (ty : DataType) (value : Int) :
    (constantKind ty value).IsConstant = true := by
  unfold constantKind
  split <;> rfl

theorem GetConstant_evolves (g : HGraph) (ty : DataType) (value : Int) (t r : Nat → Prop) :
    Evolves g (g.GetConstant ty value).1 t r ∧
    (g.GetConstant ty value).1.IsConstant (g.GetConstant ty value).2 = true := by
  constructor
  · unfold HGraph.GetConstant HGraph.GetLongConstant HGraph.GetIntConstant
    split
    · exact Evolves_GetConstantOfKind g (InstructionKind.LongConstant value) _ rfl t r
    · exact Evolves_GetConstantOfKind g (InstructionKind.IntConstant value) _ rfl t r
  · have h := (GetConstant_spec g ty value).1
    simp only [HGraph.IsConstant, HGraph.kindIs, h]
    exact constantKind_IsConstant ty value

theorem Folds_ReplaceWithConstantAndRemove (g g' : HGraph) (inst : Nat) (ty : DataType)
    (value : Int) (h : g.ReplaceWithConstantAndRemove inst ty value = some g') :
    Folds g g' inst := by
  unfold HGraph.ReplaceWithConstantAndRemove at h
  obtain ⟨h1, hc⟩ := GetConstant_evolves g ty value (fun _ => False) (fun _ => False)
  exact Folds_ReplaceWithAndRemove g _ g' inst _ h1 hc h

theorem Folds_ReplaceWithConstantAndRemoveFrom (g g' : HGraph) (block : Option Nat) (inst : Nat)
    (ty : DataType) (value : Int)
    (hb : g.BlockOf inst = block ∨ g.BlockOf inst = none)
    (hi : (g.GetInstruction inst).isSome = true)
    (h : g.ReplaceWithConstantAndRemoveFrom block inst ty value = some g') :
    Folds g g' inst := by
  unfold HGraph.ReplaceWithConstantAndRemoveFrom at h
  obtain ⟨h1, hc⟩ := GetConstant_evolves g ty value (fun _ => False) (fun _ => False)
  refine Folds_ReplaceWithAndRemoveFrom g _ g' block inst _ h1 hc ?_ h
  rw [h1.BlockOf_eq inst hi]
  exact hb

/-- An instruction that has been folded is folded still when a second rule
fires on it. -/
theorem Folds.again {g g1 g2 : HGraph} {inst : Nat} (h1 : Folds g g1 inst)
    (h2 : Folds g1 g2 inst) (hi : (g.GetInstruction inst).isSome = true)
    (hnc : g.IsConstant inst = false) : Folds g g2 inst := by
  refine ⟨?_, h2.2⟩
  refine (h1.1.ev_trans h2.1).mono ?_ ?_
  · intro u hu
    rcases hu with hu | hu
    · exact hu
    · rcases h1.1.inputsOf_old u with h | ⟨_, _, h⟩
      · rw [← h]; exact hu
      · rcases h inst hu with h | h
        · exact h
        · rw [h1.1.IsConstant_eq_old inst hi, hnc] at h
          cases h
  · intro u hu
    rcases hu with hu | hu <;> exact hu

theorem TryStaticEvaluation_evolves (ev : StaticEvaluator) (g g1 : HGraph) (inst c : Nat)
    (h : g.TryStaticEvaluation ev inst = some (g1, c)) (t r : Nat → Prop) :
    Evolves g g1 t r ∧ g1.IsConstant c = true := by
  unfold HGraph.TryStaticEvaluation at h
  cases hev : ev g inst with
  | none => rw [hev] at h; cases h
  | some value =>
    rw [hev] at h
    simp only [Option.some.injEq] at h
    have h1 : g1 = (g.GetConstantOfKind value.kind value.type).1 := by rw [h]
    have h2 : c = (g.GetConstantOfKind value.kind value.type).2 := by rw [h]
    rw [h1, h2]
    refine ⟨Evolves_GetConstantOfKind g _ _ (ConstantValue_kind_IsConstant value) t r, ?_⟩
    simp only [HGraph.IsConstant, HGraph.kindIs, (GetConstantOfKind_spec g _ _).1]
    exact ConstantValue_kind_IsConstant value

theorem VisitUnaryOperation_step (ev : StaticEvaluator) (g g' : HGraph) (inst : Nat)
    (h : VisitUnaryOperation ev g inst = some g') : g' = g ∨ Folds g g' inst := by
  unfold VisitUnaryOperation at h
  cases hev : g.TryStaticEvaluation ev inst with
  | none =>
    rw [hev] at h
    exact Or.inl (Option.some.inj h).symm
  | some r =>
    rw [hev] at h
    obtain ⟨h1, hc⟩ := TryStaticEvaluation_evolves ev g r.1 inst r.2 hev
      (fun _ => False) (fun _ => False)
    exact Or.inr (Folds_ReplaceWithAndRemove g r.1 g' inst r.2 h1 hc h)

theorem VisitTypeConversion_step (ev : StaticEvaluator) (g g' : HGraph) (inst : Nat)
    (h : VisitTypeConversion ev g inst = some g') : g' = g ∨ Folds g g' inst :=
  VisitUnaryOperation_step ev g g' inst h

theorem VisitDivZeroCheck_step (g g' : HGraph) (inst : Nat)
    (h : VisitDivZeroCheck g inst = some g') : g' = g ∨ Folds g g' inst := by
  unfold VisitDivZeroCheck at h
  cases hin : g.InputAt inst 0 with
  | none => rw [hin] at h; cases h
  | some check_input =>
    rw [hin] at h
    simp only at h
    split at h
    · next hc =>
      simp only [Bool.and_eq_true] at hc
      exact Or.inr (Folds_ReplaceWithAndRemove g g g' inst check_input
        (Evolves.ev_refl g _ _) hc.1 h)
    · exact Or.inl (Option.some.inj h).symm

theorem VisitShift_step (g g' : HGraph) (inst : Nat)
    (h : VisitShift g inst = some g') : g' = g ∨ Folds g g' inst := by
  unfold VisitShift at h
  cases hin : g.GetLeft inst with
  | none => rw [hin] at h; cases h
  | some left =>
    rw [hin] at h
    simp only at h
    split at h
    · next hc =>
      simp only [Bool.and_eq_true] at hc
      exact Or.inr (Folds_ReplaceWithAndRemove g g g' inst left
        (Evolves.ev_refl g _ _) hc.1 h)
    · exact Or.inl (Option.some.inj h).symm

theorem constantRule_step (g g' : HGraph) (inst : Nat) (c : Prop) [Decidable c]
    (ty : DataType) (value : Int)
    (h : (if c then g.ReplaceWithConstantAndRemove inst ty value else some g) = some g') :
    g' = g ∨ Folds g g' inst := by
  split at h
  · exact Or.inr (Folds_ReplaceWithConstantAndRemove g g' inst ty value h)
  · exact Or.inl (Option.some.inj h).symm

theorem VisitEqual_step (g g' : HGraph) (inst : Nat)
    (h : VisitEqual g inst = some g') : g' = g ∨ Folds g g' inst :=
  constantRule_step g g' inst _ _ _ h

theorem VisitNotEqual_step (g g' : HGraph) (inst : Nat)
    (h : VisitNotEqual g inst = some g') : g' = g ∨ Folds g g' inst :=
  constantRule_step g g' inst _ _ _ h

theorem VisitAbove_step (g g' : HGraph) (inst : Nat)
    (h : VisitAbove g inst = some g') : g' = g ∨ Folds g g' inst :=
  constantRule_step g g' inst _ _ _ h

theorem VisitAboveOrEqual_step (g g' : HGraph) (inst : Nat)
    (h : VisitAboveOrEqual g inst = some g') : g' = g ∨ Folds g g' inst :=
  constantRule_step g g' inst _ _ _ h

theorem VisitBelow_step (g g' : HGraph) (inst : Nat)
    (h : VisitBelow g inst = some g') : g' = g ∨ Folds g g' inst :=
  constantRule_step g g' inst _ _ _ h

theorem VisitBelowOrEqual_step (g g' : HGraph) (inst : Nat)
    (h : VisitBelowOrEqual g inst = some g') : g' = g ∨ Folds g g' inst :=
  constantRule_step g g' inst _ _ _ h

theorem GetConstantRight_IsConstant (g : HGraph) (inst c : Nat)
    (h : g.GetConstantRight inst = some c) : g.IsConstant c = true := by
  unfold HGraph.GetConstantRight at h
  cases hl : g.GetLeft inst with
  | none => rw [hl] at h; cases h
  | some left =>
    cases hr : g.GetRight inst with
    | none => rw [hl, hr] at h; cases h
    | some right =>
      rw [hl, hr] at h
      simp only at h
      split at h
      · next hc => rw [← Option.some.inj h]; exact hc
      · split at h
        · next hc =>
          simp only [Bool.and_eq_true] at hc
          rw [← Option.some.inj h]; exact hc.2
        · cases h

theorem constantRightRule_step (g g' : HGraph) (inst : Nat) (p : Nat → Bool)
    (h : (match g.GetConstantRight inst with
      | some input_cst =>
        if p input_cst = true then g.ReplaceWithAndRemove inst input_cst else some g
      | none => some g) = some g') :
    g' = g ∨ Folds g g' inst := by
  cases hc : g.GetConstantRight inst with
  | none =>
    rw [hc] at h
    exact Or.inl (Option.some.inj h).symm
  | some c =>
    rw [hc] at h
    simp only at h
    split at h
    · exact Or.inr (Folds_ReplaceWithAndRemove g g g' inst c (Evolves.ev_refl g _ _)
        (GetConstantRight_IsConstant g inst c hc) h)
    · exact Or.inl (Option.some.inj h).symm

theorem VisitMul_step (g g' : HGraph) (inst : Nat)
    (h : VisitMul g inst = some g') : g' = g ∨ Folds g g' inst := by
  unfold VisitMul at h
  exact constantRightRule_step g g' inst
    (fun c => (g.GetType inst).IsIntOrLongType &&
      g.kindIs InstructionKind.IsArithmeticZero c) h

theorem VisitOr_step (g g' : HGraph) (inst : Nat)
    (h : VisitOr g inst = some g') : g' = g ∨ Folds g g' inst := by
  unfold VisitOr at h
  cases hc : g.GetConstantRight inst with
  | none =>
    rw [hc] at h
    exact Or.inl (Option.some.inj h).symm
  | some c =>
    rw [hc] at h
    simp only at h
    split at h
    · exact Or.inr (Folds_ReplaceWithAndRemove g g g' inst c (Evolves.ev_refl g _ _)
        (GetConstantRight_IsConstant g inst c hc) h)
    · exact Or.inl (Option.some.inj h).symm

theorem VisitCompare_step (g g' : HGraph) (inst : Nat)
    (h : VisitCompare g inst = some g') : g' = g ∨ Folds g g' inst := by
  unfold VisitCompare at h
  cases hc : g.GetConstantRight inst with
  | none =>
    rw [hc] at h
    exact Or.inl (Option.some.inj h).symm
  | some c =>
    rw [hc] at h
    simp only at h
    cases hl : g.GetLeastConstantLeft inst with
    | none => rw [hl] at h; cases h
    | some x =>
      rw [hl] at h
      simp only at h
      exact constantRule_step g g' inst _ _ _ h

theorem VisitAnd_notRule_step (g g' : HGraph) (inst : Nat) (type : DataType)
    (h : VisitAnd.notRule g inst type = some g') : g' = g ∨ Folds g g' inst := by
  unfold VisitAnd.notRule at h
  cases hl : g.GetLeft inst with
  | none => rw [hl] at h; cases h
  | some left =>
    cases hr : g.GetRight inst with
    | none => rw [hl, hr] at h; cases h
    | some right =>
      rw [hl, hr] at h
      simp only at h
      split at h
      · split at h
        · cases h
        · exact constantRule_step g g' inst _ _ _ h
      · exact Or.inl (Option.some.inj h).symm

theorem kindIs_of_KindOf (g : HGraph) (p : InstructionKind → Bool) (id : Nat)
    (k : InstructionKind) (hk : g.KindOf id = some k) : g.kindIs p id = p k := by
  simp [HGraph.kindIs, hk]

theorem twoRules_step (g g1 g' : HGraph) (inst : Nat)
    (hi : (g.GetInstruction inst).isSome = true) (hnc : g.IsConstant inst = false)
    (h1 : g1 = g ∨ Folds g g1 inst) (h2 : g' = g1 ∨ Folds g1 g' inst) :
    g' = g ∨ Folds g g' inst := by
  rcases h1 with h1 | h1
  · rw [h1] at h2; exact h2
  · rcases h2 with h2 | h2
    · rw [h2]; exact Or.inr h1
    · exact Or.inr (h1.again h2 hi hnc)

theorem VisitAnd_step (g g' : HGraph) (inst : Nat)
    (hk : g.KindOf inst = some InstructionKind.And)
    (h : VisitAnd g inst = some g') : g' = g ∨ Folds g g' inst := by
  have hi := KindOf_isSome g inst _ hk
  have hnc : g.IsConstant inst = false := by
    simp [HGraph.IsConstant, kindIs_of_KindOf g _ inst _ hk, InstructionKind.IsConstant]
  unfold VisitAnd at h
  simp only at h
  cases hc : g.GetConstantRight inst with
  | none =>
    rw [hc] at h
    exact VisitAnd_notRule_step g g' inst _ h
  | some c =>
    rw [hc] at h
    simp only at h
    by_cases hz : g.kindIs InstructionKind.IsZeroBitPattern c = true
    · rw [if_pos hz] at h
      cases hr : g.ReplaceWithAndRemove inst c with
      | none => rw [hr] at h; cases h
      | some g1 =>
        rw [hr] at h
        simp only at h
        have h1 := Folds_ReplaceWithAndRemove g g g1 inst c (Evolves.ev_refl g _ _)
          (GetConstantRight_IsConstant g inst c hc) hr
        exact twoRules_step g g1 g' inst hi hnc (Or.inr h1)
          (VisitAnd_notRule_step g1 g' inst _ h)
    · rw [if_neg hz] at h
      exact VisitAnd_notRule_step g g' inst _ h

theorem VisitRem_oneRule_step (g g' : HGraph) (block : Option Nat) (inst : Nat)
    (type : DataType)
    (hb : g.BlockOf inst = block ∨ g.BlockOf inst = none)
    (hi : (g.GetInstruction inst).isSome = true)
    (h : VisitRem.oneRule g block inst type = some g') : g' = g ∨ Folds g g' inst := by
  unfold VisitRem.oneRule at h
  cases hl : g.GetLeft inst with
  | none => rw [hl] at h; cases h
  | some left =>
    cases hr : g.GetRight inst with
    | none => rw [hl, hr] at h; cases h
    | some right =>
      rw [hl, hr] at h
      simp only at h
      split at h
      · exact Or.inr (Folds_ReplaceWithConstantAndRemoveFrom g g' block inst type 0 hb hi h)
      · exact Or.inl (Option.some.inj h).symm

theorem VisitRem_step (g g' : HGraph) (inst : Nat)
    (hk : g.KindOf inst = some InstructionKind.Rem)
    (h : VisitRem g inst = some g') : g' = g ∨ Folds g g' inst := by
  have hi := KindOf_isSome g inst _ hk
  have hnc : g.IsConstant inst = false := by
    simp [HGraph.IsConstant, kindIs_of_KindOf g _ inst _ hk, InstructionKind.IsConstant]
  unfold VisitRem at h
  simp only at h
  split at h
  · exact Or.inl (Option.some.inj h).symm
  · cases hl : g.GetLeft inst with
    | none => rw [hl] at h; cases h
    | some left =>
      rw [hl] at h
      simp only at h
      by_cases hz : (g.IsConstant left && g.kindIs InstructionKind.IsArithmeticZero left) = true
      · rw [if_pos hz] at h
        cases hr : g.ReplaceWithAndRemoveFrom (g.BlockOf inst) inst left with
        | none => rw [hr] at h; cases h
        | some g1 =>
          rw [hr] at h
          simp only at h
          simp only [Bool.and_eq_true] at hz
          have h1 := Folds_ReplaceWithAndRemoveFrom g g g1 _ inst left
            (Evolves.ev_refl g _ _) hz.1 (Or.inl rfl) hr
          exact twoRules_step g g1 g' inst hi hnc (Or.inr h1)
            (VisitRem_oneRule_step g1 g' _ inst _ (Or.inr h1.2) (h1.1.isSome_old inst hi) h)
      · rw [if_neg hz] at h
        exact VisitRem_oneRule_step g g' _ inst _ (Or.inl rfl) hi h

theorem VisitSub_step (g g' : HGraph) (inst : Nat)
    (hi : (g.GetInstruction inst).isSome = true)
    (h : VisitSub g inst = some g') : g' = g ∨ Folds g g' inst := by
  unfold VisitSub at h
  simp only at h
  split at h
  · exact Or.inl (Option.some.inj h).symm
  · cases hl : g.GetLeft inst with
    | none => rw [hl] at h; cases h
    | some left =>
      cases hr : g.GetRight inst with
      | none => rw [hl, hr] at h; cases h
      | some right =>
        rw [hl, hr] at h
        simp only at h
        split at h
        · exact Or.inr (Folds_ReplaceWithConstantAndRemoveFrom g g' _ inst _ 0
            (Or.inl rfl) hi h)
        · exact Or.inl (Option.some.inj h).symm

theorem VisitXor_step (g g' : HGraph) (inst : Nat)
    (hi : (g.GetInstruction inst).isSome = true)
    (h : VisitXor g inst = some g') : g' = g ∨ Folds g g' inst := by
  unfold VisitXor at h
  cases hl : g.GetLeft inst with
  | none => rw [hl] at h; cases h
  | some left =>
    cases hr : g.GetRight inst with
    | none => rw [hl, hr] at h; cases h
    | some right =>
      rw [hl, hr] at h
      simp only at h
      split at h
      · exact Or.inr (Folds_ReplaceWithConstantAndRemoveFrom g g' _ inst _ 0
          (Or.inl rfl) hi h)
      · exact Or.inl (Option.some.inj h).symm

theorem Simplifier_Accept_step (g g' : HGraph) (inst : Nat)
    (h : InstructionWithAbsorbingInputSimplifier.Accept g inst = some g') :
    g' = g ∨ Folds g g' inst := by
  unfold InstructionWithAbsorbingInputSimplifier.Accept at h
  split at h
  · exact VisitEqual_step g g' inst h
  · exact VisitNotEqual_step g g' inst h
  · exact VisitAbove_step g g' inst h
  · exact VisitAboveOrEqual_step g g' inst h
  · exact VisitBelow_step g g' inst h
  · exact VisitBelowOrEqual_step g g' inst h
  · next hk => exact VisitAnd_step g g' inst hk h
  · exact VisitCompare_step g g' inst h
  · exact VisitMul_step g g' inst h
  · exact VisitOr_step g g' inst h
  · next hk => exact VisitRem_step g g' inst hk h
  · exact VisitShift_step g g' inst h
  · exact VisitShift_step g g' inst h
  · next hk => exact VisitSub_step g g' inst (KindOf_isSome g inst _ hk) h
  · exact VisitShift_step g g' inst h
  · next hk => exact VisitXor_step g g' inst (KindOf_isSome g inst _ hk) h
  · exact Or.inl (Option.some.inj h).symm

theorem VisitBinaryOperation_step (ev : StaticEvaluator) (g g' : HGraph) (inst : Nat)
    (h : VisitBinaryOperation ev g inst = some g') : g' = g ∨ Folds g g' inst := by
  unfold VisitBinaryOperation at h
  cases hev : g.TryStaticEvaluation ev inst with
  | none =>
    rw [hev] at h
    exact Simplifier_Accept_step g g' inst h
  | some r =>
    rw [hev] at h
    obtain ⟨h1, hc⟩ := TryStaticEvaluation_evolves ev g r.1 inst r.2 hev
      (fun _ => False) (fun _ => False)
    exact Or.inr (Folds_ReplaceWithAndRemove g r.1 g' inst r.2 h1 hc h)

theorem SameView.KindOf_eq_self {g g' : HGraph} {inst : Nat} (h : SameView g g' inst) :
    g'.KindOf inst = g.KindOf inst := by
  simp only [HGraph.KindOf, h.self]

theorem SameView.GetType_eq_self {g g' : HGraph} {inst : Nat} (h : SameView g g' inst) :
    g'.GetType inst = g.GetType inst := by
  simp only [HGraph.GetType, h.self]

theorem SameView.BlockOf_eq_self {g g' : HGraph} {inst : Nat} (h : SameView g g' inst) :
    g'.BlockOf inst = g.BlockOf inst := by
  simp only [HGraph.BlockOf, h.self]

theorem SameView.InputAt_eq_self {g g' : HGraph} {inst : Nat} (h : SameView g g' inst)
    (index : Nat) : g'.InputAt inst index = g.InputAt inst index := by
  simp only [HGraph.InputAt, h.self]

theorem SameView.GetLeft_eq {g g' : HGraph} {inst : Nat} (h : SameView g g' inst) :
    g'.GetLeft inst = g.GetLeft inst := h.InputAt_eq_self 0

theorem SameView.GetRight_eq {g g' : HGraph} {inst : Nat} (h : SameView g g' inst) :
    g'.GetRight inst = g.GetRight inst := h.InputAt_eq_self 1

theorem SameView.kindIs_eq_self {g g' : HGraph} {inst : Nat} (h : SameView g g' inst)
    (p : InstructionKind → Bool) : g'.kindIs p inst = g.kindIs p inst := by
  simp only [HGraph.kindIs, h.KindOf_eq_self]

theorem SameView.kindIs_operand {g g' : HGraph} {inst : Nat} (h : SameView g g' inst)
    (p : InstructionKind → Bool) (index x : Nat) (hx : g.InputAt inst index = some x) :
    g'.kindIs p x = g.kindIs p x := by
  simp only [HGraph.kindIs, (h.operands x (InputAt_mem_inputsOf g inst index x hx)).1]

theorem SameView.IsConstant_operand {g g' : HGraph} {inst : Nat} (h : SameView g g' inst)
    (index x : Nat) (hx : g.InputAt inst index = some x) :
    g'.IsConstant x = g.IsConstant x := h.kindIs_operand _ index x hx

theorem SameView.GetType_operand {g g' : HGraph} {inst : Nat} (h : SameView g g' inst)
    (index x : Nat) (hx : g.InputAt inst index = some x) :
    g'.GetType x = g.GetType x :=
  (h.operands x (InputAt_mem_inputsOf g inst index x hx)).2.1

theorem SameView.GetConstantRight_eq {g g' : HGraph} {inst : Nat} (h : SameView g g' inst) :
    g'.GetConstantRight inst = g.GetConstantRight inst := by
  unfold HGraph.GetConstantRight
  rw [h.GetLeft_eq, h.GetRight_eq, h.kindIs_eq_self]
  cases hl : g.GetLeft inst with
  | none => rfl
  | some left =>
    cases hr : g.GetRight inst with
    | none => rfl
    | some right =>
      simp only [h.IsConstant_operand 0 left hl, h.IsConstant_operand 1 right hr]

theorem SameView.GetLeastConstantLeft_eq {g g' : HGraph} {inst : Nat}
    (h : SameView g g' inst) :
    g'.GetLeastConstantLeft inst = g.GetLeastConstantLeft inst := by
  unfold HGraph.GetLeastConstantLeft
  rw [h.GetConstantRight_eq, h.GetLeft_eq, h.GetRight_eq]

theorem SameView.isZeroConstant_left {g g' : HGraph} {inst : Nat} (h : SameView g g' inst) :
    g'.isZeroConstant (g'.GetLeft inst) = g.isZeroConstant (g.GetLeft inst) := by
  rw [h.GetLeft_eq]
  unfold HGraph.isZeroConstant
  cases hl : g.GetLeft inst with
  | none => rfl
  | some left =>
    simp only [h.IsConstant_operand 0 left hl, h.kindIs_operand _ 0 left hl]

theorem SameView.isZeroConstant_right {g g' : HGraph} {inst : Nat} (h : SameView g g' inst) :
    g'.isZeroConstant (g'.GetRight inst) = g.isZeroConstant (g.GetRight inst) := by
  rw [h.GetRight_eq]
  unfold HGraph.isZeroConstant
  cases hr : g.GetRight inst with
  | none => rfl
  | some right =>
    simp only [h.IsConstant_operand 1 right hr, h.kindIs_operand _ 1 right hr]

theorem SameView.comparesNonNullWithNull_eq {g g' : HGraph} {inst : Nat}
    (h : SameView g g' inst) :
    comparesNonNullWithNull g' inst = comparesNonNullWithNull g inst := by
  unfold comparesNonNullWithNull
  rw [h.GetLeft_eq, h.GetRight_eq]
  cases hl : g.GetLeft inst with
  | none => rfl
  | some left =>
    cases hr : g.GetRight inst with
    | none => rfl
    | some right =>
      have hcl := (h.operands left (InputAt_mem_inputsOf g inst 0 left hl)).2.2.1
      have hcr := (h.operands right (InputAt_mem_inputsOf g inst 1 right hr)).2.2.1
      simp only [h.kindIs_operand _ 0 left hl, h.kindIs_operand _ 1 right hr]
      cases h1 : g'.GetInstruction left <;> cases h2 : g.GetInstruction left <;>
        cases h3 : g'.GetInstruction right <;> cases h4 : g.GetInstruction right <;>
        simp_all

/-- A graph in which the instruction is in a block is not the result of
folding that instruction. -/
theorem not_Folds_self {g g0 : HGraph} {inst : Nat} (h : Folds g0 g inst)
    (hb : (g.BlockOf inst).isSome = true) : False := by
  rw [h.2] at hb
  cases hb

theorem not_fired (g g1 : HGraph) (inst : Nat) (r : Option HGraph)
    (h : r = some g) (hb : (g.BlockOf inst).isSome = true)
    (hf : ∀ g', r = some g' → Folds g1 g' inst) : False :=
  not_Folds_self (hf g h) hb

theorem constantRule_quiet (g : HGraph) (inst : Nat) (c : Prop) [Decidable c]
    (ty : DataType) (value : Int) (hb : (g.BlockOf inst).isSome = true)
    (h : (if c then g.ReplaceWithConstantAndRemove inst ty value else some g) = some g) :
    ¬ c := by
  intro hc
  rw [if_pos hc] at h
  exact not_Folds_self (Folds_ReplaceWithConstantAndRemove g g inst ty value h) hb

theorem replaceRule_quiet (g : HGraph) (inst x : Nat) (c : Prop) [Decidable c]
    (hb : (g.BlockOf inst).isSome = true) (hx : c → g.IsConstant x = true)
    (h : (if c then g.ReplaceWithAndRemove inst x else some g) = some g) :
    ¬ c := by
  intro hc
  rw [if_pos hc] at h
  exact not_Folds_self
    (Folds_ReplaceWithAndRemove g g g inst x (Evolves.ev_refl g _ _) (hx hc) h) hb

theorem VisitEqual_frame (g g2 : HGraph) (inst : Nat) (hb : (g.BlockOf inst).isSome = true)
    (hv : SameView g g2 inst) (h : VisitEqual g inst = some g) :
    VisitEqual g2 inst = some g2 := by
  unfold VisitEqual at h ⊢
  rw [hv.comparesNonNullWithNull_eq, if_neg (constantRule_quiet g inst _ _ _ hb h)]

theorem VisitNotEqual_frame (g g2 : HGraph) (inst : Nat)
    (hb : (g.BlockOf inst).isSome = true)
    (hv : SameView g g2 inst) (h : VisitNotEqual g inst = some g) :
    VisitNotEqual g2 inst = some g2 := by
  unfold VisitNotEqual at h ⊢
  rw [hv.comparesNonNullWithNull_eq, if_neg (constantRule_quiet g inst _ _ _ hb h)]

theorem VisitAbove_frame (g g2 : HGraph) (inst : Nat) (hb : (g.BlockOf inst).isSome = true)
    (hv : SameView g g2 inst) (h : VisitAbove g inst = some g) :
    VisitAbove g2 inst = some g2 := by
  unfold VisitAbove at h ⊢
  rw [hv.isZeroConstant_left, if_neg (constantRule_quiet g inst _ _ _ hb h)]

theorem VisitAboveOrEqual_frame (g g2 : HGraph) (inst : Nat)
    (hb : (g.BlockOf inst).isSome = true)
    (hv : SameView g g2 inst) (h : VisitAboveOrEqual g inst = some g) :
    VisitAboveOrEqual g2 inst = some g2 := by
  unfold VisitAboveOrEqual at h ⊢
  rw [hv.isZeroConstant_right, if_neg (constantRule_quiet g inst _ _ _ hb h)]

theorem VisitBelow_frame (g g2 : HGraph) (inst : Nat) (hb : (g.BlockOf inst).isSome = true)
    (hv : SameView g g2 inst) (h : VisitBelow g inst = some g) :
    VisitBelow g2 inst = some g2 := by
  unfold VisitBelow at h ⊢
  rw [hv.isZeroConstant_right, if_neg (constantRule_quiet g inst _ _ _ hb h)]

theorem VisitBelowOrEqual_frame (g g2 : HGraph) (inst : Nat)
    (hb : (g.BlockOf inst).isSome = true)
    (hv : SameView g g2 inst) (h : VisitBelowOrEqual g inst = some g) :
    VisitBelowOrEqual g2 inst = some g2 := by
  unfold VisitBelowOrEqual at h ⊢
  rw [hv.isZeroConstant_left, if_neg (constantRule_quiet g inst _ _ _ hb h)]

theorem VisitShift_frame (g g2 : HGraph) (inst : Nat) (hb : (g.BlockOf inst).isSome = true)
    (hv : SameView g g2 inst) (h : VisitShift g inst = some g) :
    VisitShift g2 inst = some g2 := by
  unfold VisitShift at h ⊢
  rw [hv.GetLeft_eq]
  cases hl : g.GetLeft inst with
  | none => rw [hl] at h; cases h
  | some left =>
    rw [hl] at h
    simp only at h ⊢
    rw [hv.IsConstant_operand 0 left hl, hv.kindIs_operand _ 0 left hl]
    rw [if_neg (replaceRule_quiet g inst left _ hb
      (fun hc => by simp only [Bool.and_eq_true] at hc; exact hc.1) h)]

theorem VisitDivZeroCheck_frame (g g2 : HGraph) (inst : Nat)
    (hb : (g.BlockOf inst).isSome = true)
    (hv : SameView g g2 inst) (h : VisitDivZeroCheck g inst = some g) :
    VisitDivZeroCheck g2 inst = some g2 := by
  unfold VisitDivZeroCheck at h ⊢
  rw [hv.InputAt_eq_self]
  cases hl : g.InputAt inst 0 with
  | none => rw [hl] at h; cases h
  | some x =>
    rw [hl] at h
    simp only at h ⊢
    rw [hv.IsConstant_operand 0 x hl, hv.kindIs_operand _ 0 x hl]
    rw [if_neg (replaceRule_quiet g inst x _ hb
      (fun hc => by simp only [Bool.and_eq_true] at hc; exact hc.1) h)]

theorem GetConstantRight_operand (g : HGraph) (inst c : Nat)
    (h : g.GetConstantRight inst = some c) : ∃ index, g.InputAt inst index = some c := by
  unfold HGraph.GetConstantRight at h
  cases hl : g.GetLeft inst with
  | none => rw [hl] at h; cases h
  | some left =>
    cases hr : g.GetRight inst with
    | none => rw [hl, hr] at h; cases h
    | some right =>
      rw [hl, hr] at h
      simp only at h
      split at h
      · exact ⟨1, by rw [← Option.some.inj h]; exact hr⟩
      · split at h
        · exact ⟨0, by rw [← Option.some.inj h]; exact hl⟩
        · cases h

theorem VisitMul_frame (g g2 : HGraph) (inst : Nat) (hb : (g.BlockOf inst).isSome = true)
    (hv : SameView g g2 inst) (h : VisitMul g inst = some g) :
    VisitMul g2 inst = some g2 := by
  unfold VisitMul at h ⊢
  rw [hv.GetConstantRight_eq, hv.GetType_eq_self]
  cases hc : g.GetConstantRight inst with
  | none => rfl
  | some c =>
    rw [hc] at h
    simp only at h ⊢
    obtain ⟨index, hx⟩ := GetConstantRight_operand g inst c hc
    rw [hv.kindIs_operand _ index c hx]
    rw [if_neg (replaceRule_quiet g inst c _ hb
      (fun _ => GetConstantRight_IsConstant g inst c hc) h)]

theorem VisitOr_frame (g g2 : HGraph) (inst : Nat) (hb : (g.BlockOf inst).isSome = true)
    (hv : SameView g g2 inst) (h : VisitOr g inst = some g) :
    VisitOr g2 inst = some g2 := by
  unfold VisitOr at h ⊢
  rw [hv.GetConstantRight_eq]
  cases hc : g.GetConstantRight inst with
  | none => rfl
  | some c =>
    rw [hc] at h
    simp only at h ⊢
    obtain ⟨index, hx⟩ := GetConstantRight_operand g inst c hc
    rw [hv.kindIs_operand _ index c hx]
    rw [if_neg (replaceRule_quiet g inst c _ hb
      (fun _ => GetConstantRight_IsConstant g inst c hc) h)]

theorem GetLeastConstantLeft_operand (g : HGraph) (inst x : Nat)
    (h : g.GetLeastConstantLeft inst = some x) : ∃ index, g.InputAt inst index = some x := by
  unfold HGraph.GetLeastConstantLeft at h
  cases hc : g.GetConstantRight inst with
  | none => rw [hc] at h; cases h
  | some c =>
    rw [hc] at h
    simp only at h
    split at h
    · exact ⟨1, h⟩
    · exact ⟨0, h⟩

theorem VisitCompare_frame (g g2 : HGraph) (inst : Nat) (hb : (g.BlockOf inst).isSome = true)
    (hv : SameView g g2 inst) (h : VisitCompare g inst = some g) :
    VisitCompare g2 inst = some g2 := by
  unfold VisitCompare at h ⊢
  rw [hv.GetConstantRight_eq, hv.GetLeastConstantLeft_eq]
  cases hc : g.GetConstantRight inst with
  | none => rfl
  | some c =>
    rw [hc] at h
    simp only at h ⊢
    cases hl : g.GetLeastConstantLeft inst with
    | none => rw [hl] at h; cases h
    | some x =>
      rw [hl] at h
      simp only at h ⊢
      obtain ⟨index, hx⟩ := GetConstantRight_operand g inst c hc
      obtain ⟨index', hx'⟩ := GetLeastConstantLeft_operand g inst x hl
      rw [hv.kindIs_operand _ index c hx, hv.GetType_operand index' x hx',
        hv.kindIs_eq_self]
      rw [if_neg (constantRule_quiet g inst _ _ _ hb h)]

theorem VisitSub_frame (g g2 : HGraph) (inst : Nat) (hb : (g.BlockOf inst).isSome = true)
    (hi : (g.GetInstruction inst).isSome = true)
    (hv : SameView g g2 inst) (h : VisitSub g inst = some g) :
    VisitSub g2 inst = some g2 := by
  unfold VisitSub at h ⊢
  simp only at h ⊢
  rw [hv.GetType_eq_self, hv.GetLeft_eq, hv.GetRight_eq]
  split
  · rfl
  · next hty =>
    rw [if_neg hty] at h
    cases hl : g.GetLeft inst with
    | none => rw [hl] at h; cases h
    | some left =>
      cases hr : g.GetRight inst with
      | none => rw [hl, hr] at h; cases h
      | some right =>
        rw [hl, hr] at h
        simp only at h ⊢
        by_cases he : left = right
        · rw [if_pos he] at h
          exact absurd (Folds_ReplaceWithConstantAndRemoveFrom g g _ inst _ 0
            (Or.inl rfl) hi h) (fun hf => not_Folds_self hf hb)
        · rw [if_neg he]

theorem VisitXor_frame (g g2 : HGraph) (inst : Nat) (hb : (g.BlockOf inst).isSome = true)
    (hi : (g.GetInstruction inst).isSome = true)
    (hv : SameView g g2 inst) (h : VisitXor g inst = some g) :
    VisitXor g2 inst = some g2 := by
  unfold VisitXor at h ⊢
  rw [hv.GetLeft_eq, hv.GetRight_eq]
  cases hl : g.GetLeft inst with
  | none => rw [hl] at h; cases h
  | some left =>
    cases hr : g.GetRight inst with
    | none => rw [hl, hr] at h; cases h
    | some right =>
      rw [hl, hr] at h
      simp only at h ⊢
      by_cases he : left = right
      · rw [if_pos he] at h
        exact absurd (Folds_ReplaceWithConstantAndRemoveFrom g g _ inst _ 0
          (Or.inl rfl) hi h) (fun hf => not_Folds_self hf hb)
      · rw [if_neg he]

theorem IsFoldable_of_Not (g : HGraph) (x : Nat)
    (h : g.kindIs (fun k => k = InstructionKind.Not) x = true) :
    g.kindIs InstructionKind.IsFoldable x = true := by
  unfold HGraph.kindIs at h ⊢
  cases hk : g.KindOf x with
  | none => rw [hk] at h; cases h
  | some k =>
    rw [hk] at h
    simp only [decide_eq_true_eq] at h
    rw [h]
    rfl

theorem SameView.InputAt_of_Not {g g' : HGraph} {inst : Nat} (h : SameView g g' inst)
    (index x : Nat) (hx : g.InputAt inst index = some x)
    (hn : g.kindIs (fun k => k = InstructionKind.Not) x = true) (j : Nat) :
    g'.InputAt x j = g.InputAt x j := by
  rw [InputAt_eq_inputsOf, InputAt_eq_inputsOf,
    (h.operands x (InputAt_mem_inputsOf g inst index x hx)).2.2.2 (IsFoldable_of_Not g x hn)]

theorem VisitAnd_notRule_frame (g g2 : HGraph) (inst : Nat) (ty ty2 : DataType)
    (hb : (g.BlockOf inst).isSome = true)
    (hv : SameView g g2 inst) (h : VisitAnd.notRule g inst ty = some g) :
    VisitAnd.notRule g2 inst ty2 = some g2 := by
  unfold VisitAnd.notRule at h ⊢
  rw [hv.GetLeft_eq, hv.GetRight_eq]
  cases hl : g.GetLeft inst with
  | none => rw [hl] at h; cases h
  | some left =>
    cases hr : g.GetRight inst with
    | none => rw [hl, hr] at h; cases h
    | some right =>
      rw [hl, hr] at h
      simp only at h ⊢
      rw [hv.kindIs_operand _ 0 left hl, hv.kindIs_operand _ 1 right hr]
      by_cases hx : xor (g.kindIs (fun k => k = InstructionKind.Not) left)
          (g.kindIs (fun k => k = InstructionKind.Not) right) = true
      · rw [if_pos hx] at h ⊢
        have hsrc : g2.InputAt
            (if g.kindIs (fun k => k = InstructionKind.Not) left = true then left else right) 0 =
            g.InputAt
            (if g.kindIs (fun k => k = InstructionKind.Not) left = true then left else right) 0
            := by
          by_cases hnl : g.kindIs (fun k => k = InstructionKind.Not) left = true
          · rw [if_pos hnl]
            exact hv.InputAt_of_Not 0 left hl hnl 0
          · rw [if_neg hnl]
            have hnr : g.kindIs (fun k => k = InstructionKind.Not) right = true := by
              cases h1 : g.kindIs (fun k => k = InstructionKind.Not) left
              · rw [h1] at hx; simpa using hx
              · exact absurd h1 hnl
            exact hv.InputAt_of_Not 1 right hr hnr 0
        rw [hsrc]
        cases hs : g.InputAt
            (if g.kindIs (fun k => k = InstructionKind.Not) left = true then left else right) 0
            with
        | none => rw [hs] at h; cases h
        | some src =>
          rw [hs] at h
          simp only at h ⊢
          rw [if_neg (constantRule_quiet g inst _ _ _ hb h)]
      · rw [if_neg hx]

theorem BlockOf_none_of_two (g g1 g' : HGraph) (inst : Nat) (h1 : Folds g g1 inst)
    (h2 : g' = g1 ∨ Folds g1 g' inst) : g'.BlockOf inst = none := by
  rcases h2 with h2 | h2
  · rw [h2]; exact h1.2
  · exact h2.2

theorem VisitAnd_frame (g g2 : HGraph) (inst : Nat) (hb : (g.BlockOf inst).isSome = true)
    (hv : SameView g g2 inst) (h : VisitAnd g inst = some g) :
    VisitAnd g2 inst = some g2 := by
  unfold VisitAnd at h ⊢
  simp only at h ⊢
  rw [hv.GetConstantRight_eq]
  cases hc : g.GetConstantRight inst with
  | none =>
    rw [hc] at h
    exact VisitAnd_notRule_frame g g2 inst _ _ hb hv h
  | some c =>
    rw [hc] at h
    simp only at h ⊢
    obtain ⟨index, hx⟩ := GetConstantRight_operand g inst c hc
    rw [hv.kindIs_operand _ index c hx]
    by_cases hz : g.kindIs InstructionKind.IsZeroBitPattern c = true
    · exfalso
      rw [if_pos hz] at h
      cases hr : g.ReplaceWithAndRemove inst c with
      | none => rw [hr] at h; cases h
      | some g1 =>
        rw [hr] at h
        simp only at h
        have h1 := Folds_ReplaceWithAndRemove g g g1 inst c (Evolves.ev_refl g _ _)
          (GetConstantRight_IsConstant g inst c hc) hr
        have := BlockOf_none_of_two g g1 g inst h1 (VisitAnd_notRule_step g1 g inst _ h)
        rw [this] at hb
        cases hb
    · rw [if_neg hz] at h ⊢
      exact VisitAnd_notRule_frame g g2 inst _ _ hb hv h

theorem VisitRem_oneRule_frame (g g2 : HGraph) (inst : Nat) (block block2 : Option Nat)
    (ty ty2 : DataType)
    (hb : (g.BlockOf inst).isSome = true)
    (hblock : g.BlockOf inst = block ∨ g.BlockOf inst = none)
    (hi : (g.GetInstruction inst).isSome = true)
    (hv : SameView g g2 inst) (h : VisitRem.oneRule g block inst ty = some g) :
    VisitRem.oneRule g2 block2 inst ty2 = some g2 := by
  unfold VisitRem.oneRule at h ⊢
  rw [hv.GetLeft_eq, hv.GetRight_eq]
  cases hl : g.GetLeft inst with
  | none => rw [hl] at h; cases h
  | some left =>
    cases hr : g.GetRight inst with
    | none => rw [hl, hr] at h; cases h
    | some right =>
      rw [hl, hr] at h
      simp only at h ⊢
      rw [hv.IsConstant_operand 1 right hr, hv.kindIs_operand _ 1 right hr,
        hv.kindIs_operand _ 1 right hr]
      split at h
      · exact absurd (Folds_ReplaceWithConstantAndRemoveFrom g g block inst ty 0 hblock hi h)
          (fun hf => not_Folds_self hf hb)
      · next hc => rw [if_neg hc]

theorem VisitRem_frame (g g2 : HGraph) (inst : Nat) (hb : (g.BlockOf inst).isSome = true)
    (hi : (g.GetInstruction inst).isSome = true)
    (hv : SameView g g2 inst) (h : VisitRem g inst = some g) :
    VisitRem g2 inst = some g2 := by
  unfold VisitRem at h ⊢
  simp only at h ⊢
  rw [hv.GetType_eq_self, hv.GetLeft_eq]
  split
  · rfl
  · next hty =>
    rw [if_neg hty] at h
    cases hl : g.GetLeft inst with
    | none => rw [hl] at h; cases h
    | some left =>
      rw [hl] at h
      simp only at h ⊢
      rw [hv.IsConstant_operand 0 left hl, hv.kindIs_operand _ 0 left hl]
      by_cases hz : (g.IsConstant left && g.kindIs InstructionKind.IsArithmeticZero left) = true
      · exfalso
        rw [if_pos hz] at h
        cases hr : g.ReplaceWithAndRemoveFrom (g.BlockOf inst) inst left with
        | none => rw [hr] at h; cases h
        | some g1 =>
          rw [hr] at h
          simp only at h
          simp only [Bool.and_eq_true] at hz
          have h1 := Folds_ReplaceWithAndRemoveFrom g g g1 _ inst left
            (Evolves.ev_refl g _ _) hz.1 (Or.inl rfl) hr
          have := BlockOf_none_of_two g g1 g inst h1
            (VisitRem_oneRule_step g1 g _ inst _ (Or.inr h1.2) (h1.1.isSome_old inst hi) h)
          rw [this] at hb
          cases hb
      · rw [if_neg hz] at h ⊢
        exact VisitRem_oneRule_frame g g2 inst _ _ _ _ hb (Or.inl rfl) hi hv h

theorem Simplifier_Accept_frame (g g2 : HGraph) (inst : Nat)
    (hb : (g.BlockOf inst).isSome = true)
    (hv : SameView g g2 inst)
    (h : InstructionWithAbsorbingInputSimplifier.Accept g inst = some g) :
    InstructionWithAbsorbingInputSimplifier.Accept g2 inst = some g2 := by
  have hi : (g.GetInstruction inst).isSome = true := by
    unfold HGraph.BlockOf at hb
    cases hg : g.GetInstruction inst with
    | none => rw [hg] at hb; cases hb
    | some _ => rfl
  unfold InstructionWithAbsorbingInputSimplifier.Accept at h ⊢
  rw [hv.KindOf_eq_self]
  cases hk : g.KindOf inst with
  | none => rfl
  | some k =>
    rw [hk] at h
    cases k <;> simp only at h ⊢ <;>
      first
      | rfl
      | exact VisitEqual_frame g g2 inst hb hv h
      | exact VisitNotEqual_frame g g2 inst hb hv h
      | exact VisitAbove_frame g g2 inst hb hv h
      | exact VisitAboveOrEqual_frame g g2 inst hb hv h
      | exact VisitBelow_frame g g2 inst hb hv h
      | exact VisitBelowOrEqual_frame g g2 inst hb hv h
      | exact VisitAnd_frame g g2 inst hb hv h
      | exact VisitCompare_frame g g2 inst hb hv h
      | exact VisitMul_frame g g2 inst hb hv h
      | exact VisitOr_frame g g2 inst hb hv h
      | exact VisitRem_frame g g2 inst hb hi hv h
      | exact VisitShift_frame g g2 inst hb hv h
      | exact VisitSub_frame g g2 inst hb hi hv h
      | exact VisitXor_frame g g2 inst hb hi hv h

theorem Accept_eq (ev : StaticEvaluator) (vis : HConstantFoldingVisitor) (inst : Nat)
    (k : InstructionKind) (hk : vis.graph.KindOf inst = some k) :
    HConstantFoldingVisitor.Accept ev vis inst =
      if k.IsUnaryOperation = true then
        (VisitUnaryOperation ev vis.graph inst).map (fun g => { vis with graph := g })
      else if k.IsBinaryOperation = true then
        (VisitBinaryOperation ev vis.graph inst).map (fun g => { vis with graph := g })
      else if k = InstructionKind.TypeConversion then
        (VisitTypeConversion ev vis.graph inst).map (fun g => { vis with graph := g })
      else if k = InstructionKind.DivZeroCheck then
        (VisitDivZeroCheck vis.graph inst).map (fun g => { vis with graph := g })
      else if k = InstructionKind.If then VisitIf vis inst
      else some vis := by
  unfold HConstantFoldingVisitor.Accept
  simp only [hk]
  split
  · rfl
  · split
    · rfl
    · cases k <;> simp

theorem IsFoldable_eq (k : InstructionKind) :
    k.IsFoldable = (k.IsUnaryOperation || k.IsBinaryOperation ||
      decide (k = InstructionKind.TypeConversion) ||
      decide (k = InstructionKind.DivZeroCheck)) := by
  cases k <;> rfl

/-- The visit of an instruction that is not an If keeps the statistics, and
either leaves the graph as it is or folds the instruction, which is then an
operation. -/
theorem Accept_step (ev : StaticEvaluator) (vis vis' : HConstantFoldingVisitor) (inst : Nat)
    (hk : vis.graph.KindOf inst ≠ some InstructionKind.If)
    (h : HConstantFoldingVisitor.Accept ev vis inst = some vis') :
    vis'.stats = vis.stats ∧
    (vis'.graph = vis.graph ∨
      (Folds vis.graph vis'.graph inst ∧
        vis.graph.kindIs InstructionKind.IsFoldable inst = true)) := by
  cases hkk : vis.graph.KindOf inst with
  | none =>
    unfold HConstantFoldingVisitor.Accept at h
    simp only [hkk] at h
    cases h
  | some k =>
    rw [Accept_eq ev vis inst k hkk] at h
    have hfold : ∀ r : Option HGraph,
        r.map (fun g => ({ vis with graph := g } : HConstantFoldingVisitor)) = some vis' →
        (∀ g', r = some g' → g' = vis.graph ∨ Folds vis.graph g' inst) →
        k.IsFoldable = true →
        vis'.stats = vis.stats ∧
        (vis'.graph = vis.graph ∨
          (Folds vis.graph vis'.graph inst ∧
            vis.graph.kindIs InstructionKind.IsFoldable inst = true)) := by
      intro r hr hstep hf
      cases r with
      | none => cases hr
      | some g' =>
        simp only [Option.map_some', Option.some.injEq] at hr
        rw [← hr]
        refine ⟨rfl, ?_⟩
        rcases hstep g' rfl with h1 | h1
        · exact Or.inl h1
        · exact Or.inr ⟨h1, by rw [kindIs_of_KindOf _ _ _ k hkk]; exact hf⟩
    split at h
    · next hu =>
      exact hfold _ h (fun g' hg => VisitUnaryOperation_step ev _ g' inst hg)
        (by rw [IsFoldable_eq, hu]; rfl)
    · split at h
      · next hu hbin =>
        exact hfold _ h (fun g' hg => VisitBinaryOperation_step ev _ g' inst hg)
          (by rw [IsFoldable_eq, hbin]; simp)
      · split at h
        · next htc =>
          exact hfold _ h (fun g' hg => VisitTypeConversion_step ev _ g' inst hg)
            (by rw [htc]; rfl)
        · split at h
          · next hdz =>
            exact hfold _ h (fun g' hg => VisitDivZeroCheck_step _ g' inst hg)
              (by rw [hdz]; rfl)
          · split at h
            · next hif =>
              rw [hif] at hkk
              exact absurd hkk hk
            · rw [← Option.some.inj h]
              exact ⟨rfl, Or.inl rfl⟩

theorem TryStaticEvaluation_frame (ev : StaticEvaluator) (hev : ev.IsLocal) (g g2 : HGraph)
    (inst : Nat) (hv : SameView g g2 inst) (h : g.TryStaticEvaluation ev inst = none) :
    g2.TryStaticEvaluation ev inst = none := by
  unfold HGraph.TryStaticEvaluation at h ⊢
  rw [hev g g2 inst hv.self (fun x hx => ⟨(hv.operands x hx).1, (hv.operands x hx).2.1⟩)]
  cases he : ev g inst with
  | none => rfl
  | some c => rw [he] at h; cases h

theorem VisitUnaryOperation_frame (ev : StaticEvaluator) (hev : ev.IsLocal) (g g2 : HGraph)
    (inst : Nat) (hb : (g.BlockOf inst).isSome = true) (hv : SameView g g2 inst)
    (h : VisitUnaryOperation ev g inst = some g) :
    VisitUnaryOperation ev g2 inst = some g2 := by
  unfold VisitUnaryOperation at h ⊢
  cases hev' : g.TryStaticEvaluation ev inst with
  | none => rw [TryStaticEvaluation_frame ev hev g g2 inst hv hev']
  | some r =>
    rw [hev'] at h
    obtain ⟨h1, hc⟩ := TryStaticEvaluation_evolves ev g r.1 inst r.2 hev'
      (fun _ => False) (fun _ => False)
    exact absurd (Folds_ReplaceWithAndRemove g r.1 g inst r.2 h1 hc h)
      (fun hf => not_Folds_self hf hb)

theorem VisitBinaryOperation_frame (ev : StaticEvaluator) (hev : ev.IsLocal) (g g2 : HGraph)
    (inst : Nat) (hb : (g.BlockOf inst).isSome = true) (hv : SameView g g2 inst)
    (h : VisitBinaryOperation ev g inst = some g) :
    VisitBinaryOperation ev g2 inst = some g2 := by
  unfold VisitBinaryOperation at h ⊢
  cases hev' : g.TryStaticEvaluation ev inst with
  | none =>
    rw [TryStaticEvaluation_frame ev hev g g2 inst hv hev']
    rw [hev'] at h
    exact Simplifier_Accept_frame g g2 inst hb hv h
  | some r =>
    rw [hev'] at h
    obtain ⟨h1, hc⟩ := TryStaticEvaluation_evolves ev g r.1 inst r.2 hev'
      (fun _ => False) (fun _ => False)
    exact absurd (Folds_ReplaceWithAndRemove g r.1 g inst r.2 h1 hc h)
      (fun hf => not_Folds_self hf hb)

/-- A visit that leaves the graph as it is does so in every graph that shows
the instruction the same. -/
theorem Accept_frame (ev : StaticEvaluator) (hev : ev.IsLocal) (g g2 : HGraph) (inst : Nat)
    (hb : (g.BlockOf inst).isSome = true) (hv : SameView g g2 inst)
    (hk : g.KindOf inst ≠ some InstructionKind.If)
    (h : ∀ stats, HConstantFoldingVisitor.Accept ev { graph := g, stats := stats } inst =
      some { graph := g, stats := stats }) :
    ∀ stats, HConstantFoldingVisitor.Accept ev { graph := g2, stats := stats } inst =
      some { graph := g2, stats := stats } := by
  intro stats
  have h0 := h stats
  cases hkk : g.KindOf inst with
  | none =>
    unfold HConstantFoldingVisitor.Accept at h0
    simp only [hkk] at h0
    cases h0
  | some k =>
    have hkk2 : g2.KindOf inst = some k := by rw [hv.KindOf_eq_self, hkk]
    rw [Accept_eq ev _ inst k hkk] at h0
    rw [Accept_eq ev _ inst k hkk2]
    have hmap : ∀ r : Option HGraph,
        r.map (fun g' => ({ graph := g', stats := stats } : HConstantFoldingVisitor)) =
          some { graph := g, stats := stats } → r = some g := by
      intro r hr
      cases r with
      | none => cases hr
      | some g' =>
        simp only [Option.map_some', Option.some.injEq, HConstantFoldingVisitor.mk.injEq,
          and_true] at hr
        rw [hr]
    split at h0
    · next hu =>
      rw [if_pos hu, VisitUnaryOperation_frame ev hev g g2 inst hb hv (hmap _ h0)]
      rfl
    · next hu =>
      rw [if_neg hu]
      split at h0
      · next hbin =>
        rw [if_pos hbin, VisitBinaryOperation_frame ev hev g g2 inst hb hv (hmap _ h0)]
        rfl
      · next hbin =>
        rw [if_neg hbin]
        split at h0
        · next htc =>
          rw [if_pos htc]
          have := VisitUnaryOperation_frame ev hev g g2 inst hb hv (hmap _ h0)
          unfold VisitTypeConversion
          unfold VisitUnaryOperation at this
          rw [this]
          rfl
        · next htc =>
          rw [if_neg htc]
          split at h0
          · next hdz =>
            rw [if_pos hdz, VisitDivZeroCheck_frame g g2 inst hb hv (hmap _ h0)]
            rfl
          · next hdz =>
            rw [if_neg hdz]
            split at h0
            · next hif =>
              rw [hif] at hkk
              exact absurd hkk hk
            · next hif =>
              rw [if_neg hif]

theorem mem_instructionsOf_of_first (g : HGraph) (s d : Nat)
    (h : (g.GetBlock s).bind (·.GetFirstInstruction) = some d) :
    ∃ rest, g.instructionsOf s = d :: rest := by
  unfold HGraph.instructionsOf
  cases hb : g.GetBlock s with
  | none => rw [hb] at h; cases h
  | some blk =>
    rw [hb] at h
    simp only [Option.some_bind, HBasicBlock.GetFirstInstruction] at h
    cases hl : blk.instructions with
    | nil => rw [hl] at h; cases h
    | cons x rest =>
      rw [hl] at h
      simp only [List.head?_cons, Option.some.injEq] at h
      exact ⟨rest, by rw [← h]; exact hl⟩

/-- The instructions that the first instruction of the block `s` dominates
are the ones that a propagation from `s` reaches. -/
theorem inRegion_first (g : HGraph) (hc : g.Consistent) (s d u : Nat)
    (h : (g.GetBlock s).bind (·.GetFirstInstruction) = some d) :
    g.inRegion d u = g.inBranch s u := by
  obtain ⟨rest, hl⟩ := mem_instructionsOf_of_first g s d h
  obtain ⟨hbd, hpd⟩ := hc s d (by rw [hl]; exact List.mem_cons_self _ _)
  unfold HGraph.inRegion HGraph.inBranch HGraph.InstructionDominates
  cases hbu : g.BlockOf u with
  | none => rfl
  | some b =>
    simp only [Option.isSome_some, Bool.true_and]
    by_cases hdu : d = u
    · subst hdu
      rw [hbd] at hbu
      have : b = s := (Option.some.inj hbu).symm
      simp [this, hpd]
    · have hne : (d == u) = false := by simpa using hdu
      rw [hne, Bool.false_or]
      unfold HGraph.StrictlyDominates
      rw [if_neg hdu, hbd, hbu]
      simp only
      by_cases hbs : b = s
      · subst hbs
        simp only [ne_eq, not_true_eq_false, if_false, hpd, Bool.false_eq_true, if_true]
        cases hpu : g.IsPhi u with
        | true => simp
        | false =>
          simp only [Bool.false_eq_true, if_false, Bool.not_false]
          unfold HGraph.instructionsOf at hl
          cases hblk : g.GetBlock b with
          | none => rw [hblk] at hl; cases hl
          | some blk =>
            rw [hblk] at hl
            simp only at hl ⊢
            rw [hl]
            simp [FoundBefore]
      · have hsb : s ≠ b := fun e => hbs e.symm
        simp [hsb, hbs]

theorem mapWithIndex_id {α : Type} (f : Nat → α → α) (l : List α) :
    ∀ n, (∀ i x, l[i]? = some x → f (n + i) x = x) → mapWithIndex f n l = l := by
  induction l with
  | nil => intro _ _; rfl
  | cons x xs ih =>
    intro n h
    unfold mapWithIndex
    have h0 : f n x = x := h 0 x (by simp)
    rw [h0, ih (n + 1)]
    intro i y hy
    have := h (i + 1) y (by simpa using hy)
    have e : n + 1 + i = n + (i + 1) := by omega
    rw [e]
    exact this

/-- A replacement of uses that finds no use leaves the graph as it is. -/
theorem ReplaceUsesDominatedBy_id (g : HGraph) (var d c : Nat)
    (h : ∀ u, g.inRegion d u = true → var ∉ g.inputsOf u) :
    g.ReplaceUsesDominatedBy var d c false = g := by
  unfold HGraph.ReplaceUsesDominatedBy
  have : mapWithIndex (fun user u =>
      if (u.block.isSome &&
          (if false = true then g.StrictlyDominates d user
            else g.InstructionDominates d user)) = true then
        { u with inputs := substInput var c u.inputs }
      else u) 0 g.instructions = g.instructions := by
    apply mapWithIndex_id
    intro i x hx
    simp only [Nat.zero_add, Bool.false_eq_true, if_false]
    split
    · next hcond =>
      have hreg : g.inRegion d i = true := by
        simp only [HGraph.inRegion, HGraph.BlockOf, HGraph.GetInstruction, hx,
          Option.some_bind]
        exact hcond
      have hno := h i hreg
      simp only [HGraph.inputsOf, HGraph.GetInstruction, hx] at hno
      rw [substInput_of_not_mem _ _ _ hno]
    · rfl
  rw [this]

/-- A propagation that finds no use leaves the graph as it is. -/
theorem PropagateValue_quiet (g : HGraph) (hc : g.Consistent) (s x c : Nat)
    (hfirst : ((g.GetBlock s).bind (·.GetFirstInstruction)).isSome = true)
    (hno : g.NoUse x s) (stats : Option OptimizingCompilerStats) :
    ∃ stats', PropagateValue { graph := g, stats := stats } s x c =
      some { graph := g, stats := stats' } := by
  unfold PropagateValue
  cases hd : (g.GetBlock s).bind (·.GetFirstInstruction) with
  | none => rw [hd] at hfirst; cases hfirst
  | some d =>
    simp only [hd]
    have hid : g.ReplaceUsesDominatedBy x d c false = g :=
      ReplaceUsesDominatedBy_id g x d c (fun u hu => hno u (by
        rw [← inRegion_first g hc s d u hd]; exact hu))
    rw [hid]
    exact ⟨_, rfl⟩

/-- What a propagation does: it touches the instructions it reaches that use
`x`, and leaves no use of `x` among the instructions it reaches. -/
theorem PropagateValue_evolves (vis vis' : HConstantFoldingVisitor) (hc : vis.graph.Consistent)
    (s x c : Nat) (hcc : vis.graph.IsConstant c = true) (hne : c ≠ x)
    (h : PropagateValue vis s x c = some vis') :
    Evolves vis.graph vis'.graph
      (fun u => vis.graph.inBranch s u = true ∧ x ∈ vis.graph.inputsOf u) (fun _ => False) ∧
    vis'.graph.NoUse x s := by
  unfold PropagateValue at h
  cases hd : (vis.graph.GetBlock s).bind (·.GetFirstInstruction) with
  | none => simp only [hd] at h; cases h
  | some d =>
    simp only [hd, Option.some.injEq] at h
    have hg : vis'.graph = vis.graph.ReplaceUsesDominatedBy x d c false := by rw [← h]
    rw [hg]
    constructor
    · refine (Evolves_ReplaceUsesDominatedBy vis.graph x d c hcc (fun _ => False)).mono ?_
        (fun _ hr => hr)
      intro u hu
      exact ⟨by rw [← inRegion_first vis.graph hc s d u hd]; exact hu.1, hu.2⟩
    · intro u hu
      have hc' := (Evolves_ReplaceUsesDominatedBy vis.graph x d c hcc (fun _ => False)).cons hc
      have hd' : ((vis.graph.ReplaceUsesDominatedBy x d c false).GetBlock s).bind
          (·.GetFirstInstruction) = some d := hd
      rw [← inRegion_first _ hc' s d u hd', inRegion_ReplaceUsesDominatedBy] at hu
      unfold HGraph.inputsOf
      rw [GetInstruction_ReplaceUsesDominatedBy]
      cases hi : vis.graph.GetInstruction u with
      | none => simp
      | some i =>
        simp only [Option.map_some', Bool.false_eq_true, if_false]
        have hcond : (i.block.isSome && vis.graph.InstructionDominates d u) = true := by
          simp only [HGraph.inRegion, HGraph.BlockOf, hi, Option.some_bind] at hu
          exact hu
        rw [if_pos hcond]
        exact not_mem_substInput x c i.inputs hne

/-- Later visits introduce only constants, so they leave no use of `x` where
there was none. -/
theorem NoUse_mono {g g' : HGraph} {t r : Nat → Prop} (h : Evolves g g' t r) (x s : Nat)
    (hx : (g.GetInstruction x).isSome = true) (hnc : g.IsConstant x = false)
    (hno : g.NoUse x s) : g'.NoUse x s := by
  intro u hu hmem
  cases hi : g.GetInstruction u with
  | none =>
    cases hi' : g'.GetInstruction u with
    | none => simp [HGraph.inputsOf, hi'] at hmem
    | some i' =>
      have := (h.fresh u i' hi hi').1
      simp [HGraph.inputsOf, hi', this] at hmem
  | some i =>
    have hus : (g.GetInstruction u).isSome = true := by rw [hi]; rfl
    have hbr : g.inBranch s u = true := by
      unfold HGraph.inBranch at hu ⊢
      rcases h.BlockOf_old u hus with hb | ⟨_, hb⟩
      · rw [hb] at hu
        cases hbu : g.BlockOf u with
        | none => rw [hbu] at hu; cases hu
        | some b =>
          rw [hbu] at hu
          simp only at hu ⊢
          have hp : g'.IsPhi u = g.IsPhi u := h.kindIs_eq_old _ u hus
          rw [hp, h.Dominates_eq_old] at hu
          exact hu
      · rw [hb] at hu; cases hu
    rcases h.inputsOf_old u with he | ⟨_, _, he⟩
    · rw [he] at hmem
      exact hno u hbr hmem
    · rcases he x hmem with h1 | h1
      · exact hno u hbr h1
      · rw [h.IsConstant_eq_old x hx, hnc] at h1
        cases h1

theorem GetConstantOfKind_of_interned (g : HGraph) (k : InstructionKind) (ty : DataType)
    (h : (findConstant k g.instructions 0).isSome = true) :
    (g.GetConstantOfKind k ty).1 = g := by
  unfold HGraph.GetConstantOfKind
  cases hc : findConstant k g.instructions 0 with
  | none => rw [hc] at h; cases h
  | some c => rfl

theorem GetIntConstant_of_interned (g : HGraph) (value : Int)
    (h : (findConstant (InstructionKind.IntConstant value) g.instructions 0).isSome = true) :
    (g.GetIntConstant value).1 = g :=
  GetConstantOfKind_of_interned g _ _ h

/-- An If that has nothing left to propagate is visited without a change of
the graph. -/
theorem VisitIf_quiet (g : HGraph) (hc : g.Consistent) (inst v t f : Nat)
    (hs : IfSettled g inst v t f) (stats : Option OptimizingCompilerStats) :
    ∃ stats', VisitIf { graph := g, stats := stats } inst =
      some { graph := g, stats := stats' } := by
  unfold VisitIf
  simp only [hs.input, hs.true_successor, hs.false_successor]
  split
  · exact ⟨stats, rfl⟩
  · rw [GetIntConstant_of_interned g 1 hs.one]
    obtain ⟨s1, h1⟩ := PropagateValue_quiet g hc t v (g.GetIntConstant 1).2 hs.true_first
      hs.true_uses stats
    rw [h1]
    simp only
    rw [GetIntConstant_of_interned g 0 hs.zero]
    obtain ⟨s2, h2⟩ := PropagateValue_quiet g hc f v (g.GetIntConstant 0).2 hs.false_first
      hs.false_uses s1
    rw [h2]
    simp only
    unfold VisitIf.propagateCondition
    cases hcand : VisitIf.candidate g v with
    | none => exact ⟨s2, rfl⟩
    | some p =>
      obtain ⟨var, constant⟩ := p
      simp only
      obtain ⟨hu1, hu2⟩ := hs.operand_uses var constant hcand
      by_cases he : g.kindIs (fun k => k = InstructionKind.Equal) v = true
      · simp only [he, if_true] at hu1 hu2 ⊢
        obtain ⟨s3, h3⟩ := PropagateValue_quiet g hc t var constant hs.true_first hu1 s2
        rw [h3]
        simp only
        by_cases hbool : VisitIf.isBooleanCase g var constant = true
        · rw [if_pos hbool]
          have hr : (if g.kindIs (fun k => k = InstructionKind.IntConstant 1) constant = true
              then g.GetIntConstant 0 else g.GetIntConstant 1).1 = g := by
            split
            · exact GetIntConstant_of_interned g 0 hs.zero
            · exact GetIntConstant_of_interned g 1 hs.one
          rw [hr]
          exact PropagateValue_quiet g hc f var _ hs.false_first (hu2 hbool) s3
        · rw [if_neg hbool]
          exact ⟨s3, rfl⟩
      · simp only [he, Bool.false_eq_true, if_false] at hu1 hu2 ⊢
        obtain ⟨s3, h3⟩ := PropagateValue_quiet g hc f var constant hs.false_first hu1 s2
        rw [h3]
        simp only
        by_cases hbool : VisitIf.isBooleanCase g var constant = true
        · rw [if_pos hbool]
          have hr : (if g.kindIs (fun k => k = InstructionKind.IntConstant 1) constant = true
              then g.GetIntConstant 0 else g.GetIntConstant 1).1 = g := by
            split
            · exact GetIntConstant_of_interned g 0 hs.zero
            · exact GetIntConstant_of_interned g 1 hs.one
          rw [hr]
          exact PropagateValue_quiet g hc t var _ hs.true_first (hu2 hbool) s3
        · rw [if_neg hbool]
          exact ⟨s3, rfl⟩

/-- A settled instruction that is in a block is visited without a change of
the graph. -/
theorem Settled.quiet {ev : StaticEvaluator} {g : HGraph} {inst : Nat}
    (h : Settled ev g inst) (hc : g.Consistent) (hb : (g.BlockOf inst).isSome = true) :
    Quiet ev g inst := by
  intro stats
  rcases h with h | ⟨_, _, h⟩ | ⟨hk, v, hin, h⟩
  · rw [h] at hb; cases hb
  · exact ⟨stats, h stats⟩
  · rw [Accept_eq ev _ inst _ hk]
    simp only [InstructionKind.IsUnaryOperation, InstructionKind.IsBinaryOperation,
      Bool.false_eq_true, if_false, reduceCtorEq, if_true]
    rcases h with h | ⟨t, f, h⟩
    · refine ⟨stats, ?_⟩
      unfold VisitIf
      simp only [hin, h, if_true]
    · exact VisitIf_quiet g hc inst v t f h stats

theorem Defined_of_InputsDefined (g : HGraph) (h : g.InputsDefined = true) : g.Defined :=
  fun u x hx => InputsDefined_isSome g h u x hx

theorem Evolves.mono_old {g g' : HGraph} {t r t' : Nat → Prop} (h : Evolves g g' t r)
    (ht : ∀ u, (g.GetInstruction u).isSome = true → t u → t' u) : Evolves g g' t' r where
  entry := h.entry
  rpo := h.rpo
  succ := h.succ
  block_some := h.block_some
  lists := h.lists
  lists_frame := h.lists_frame
  last := h.last
  inst := fun u i hi => by
    obtain ⟨i', hi', hk, hty, hcn, hb, hin⟩ := h.inst u i hi
    refine ⟨i', hi', hk, hty, hcn, hb, ?_⟩
    rcases hin with hin | ⟨htu, hbs, hlen, hin⟩
    · exact Or.inl hin
    · exact Or.inr ⟨ht u (by rw [hi]; rfl) htu, hbs, hlen, hin⟩
  fresh := h.fresh
  cons := h.cons

theorem Evolves.defined {g g' : HGraph} {t r : Nat → Prop} (h : Evolves g g' t r)
    (hd : g.Defined) : g'.Defined := by
  intro u x hx
  rcases h.inputsOf_old u with he | ⟨_, _, he⟩
  · rw [he] at hx
    exact h.isSome_old x (hd u x hx)
  · rcases he x hx with h1 | h1
    · exact h.isSome_old x (hd u x h1)
    · exact isSome_of_kindIs_true _ _ _ h1

theorem Evolves.inBranch_eq_old {g g' : HGraph} {t : Nat → Prop}
    (h : Evolves g g' t (fun _ => False)) (s u : Nat)
    (hu : (g.GetInstruction u).isSome = true) : g'.inBranch s u = g.inBranch s u := by
  unfold HGraph.inBranch
  rw [h.BlockOf_eq u hu]
  have hp : g'.IsPhi u = g.IsPhi u := h.kindIs_eq_old _ u hu
  cases g.BlockOf u with
  | none => rfl
  | some b => simp only [hp, h.Dominates_eq_old]

theorem IfTrueSuccessor_eq (g : HGraph) (inst : Nat) :
    g.IfTrueSuccessor inst = (g.BlockOf inst).bind (fun b => (g.successorsOf b)[0]?) := by
  unfold HGraph.IfTrueSuccessor HGraph.successorsOf
  cases g.BlockOf inst with
  | none => rfl
  | some b =>
    simp only [Option.some_bind]
    cases g.GetBlock b <;> simp

theorem IfFalseSuccessor_eq (g : HGraph) (inst : Nat) :
    g.IfFalseSuccessor inst = (g.BlockOf inst).bind (fun b => (g.successorsOf b)[1]?) := by
  unfold HGraph.IfFalseSuccessor HGraph.successorsOf
  cases g.BlockOf inst with
  | none => rfl
  | some b =>
    simp only [Option.some_bind]
    cases g.GetBlock b <;> simp

theorem Evolves.IfSuccessors_eq {g g' : HGraph} {t r : Nat → Prop} (h : Evolves g g' t r)
    (inst : Nat) (hb : g'.BlockOf inst = g.BlockOf inst) :
    g'.IfTrueSuccessor inst = g.IfTrueSuccessor inst ∧
    g'.IfFalseSuccessor inst = g.IfFalseSuccessor inst := by
  rw [IfTrueSuccessor_eq, IfTrueSuccessor_eq, IfFalseSuccessor_eq, IfFalseSuccessor_eq, hb]
  cases g.BlockOf inst with
  | none => exact ⟨rfl, rfl⟩
  | some b => simp [h.succ]

theorem findConstant_isSome (k : InstructionKind) (l : List HInstruction) :
    ∀ (n u : Nat) (i : HInstruction), l[u]? = some i → i.kind = k → i.block.isSome = true →
      (findConstant k l n).isSome = true := by
  induction l with
  | nil => intro n u i h; simp at h
  | cons x rest ih =>
    intro n u i h hk hb
    unfold findConstant
    split
    · rfl
    · next hx =>
      cases u with
      | zero =>
        simp only [List.getElem?_cons_zero, Option.some.injEq] at h
        rw [h] at hx
        exact absurd ⟨hk, hb⟩ hx
      | succ u =>
        simp only [List.getElem?_cons_succ] at h
        exact ih (n + 1) u i h hk hb

theorem findConstant_exists (k : InstructionKind) (l : List HInstruction) (n : Nat)
    (h : (findConstant k l n).isSome = true) :
    ∃ (u : Nat) (i : HInstruction), l[u]? = some i ∧ i.kind = k ∧ i.block.isSome = true := by
  cases hc : findConstant k l n with
  | none => rw [hc] at h; cases h
  | some c =>
    obtain ⟨_, i, hi, hk, hb⟩ := findConstant_some k l n c hc
    exact ⟨c - n, i, hi, hk, hb⟩

/-- An interned constant stays interned as long as no constant is removed. -/
theorem Evolves.interned {g g' : HGraph} {t r : Nat → Prop} (h : Evolves g g' t r)
    (k : InstructionKind) (hk : k.IsFoldable = false)
    (hr : ∀ u, r u → g.kindIs InstructionKind.IsFoldable u = true)
    (hc : (findConstant k g.instructions 0).isSome = true) :
    (findConstant k g'.instructions 0).isSome = true := by
  obtain ⟨u, i, hi, hki, hb⟩ := findConstant_exists k g.instructions 0 hc
  obtain ⟨i', hi', hk', _, _, hb', _⟩ := h.inst u i hi
  refine findConstant_isSome k g'.instructions 0 u i' hi' (hk'.trans hki) ?_
  rcases hb' with hb' | ⟨hru, _⟩
  · rw [hb']; exact hb
  · have := hr u hru
    rw [kindIs_of_KindOf g _ u i.kind (by simp [HGraph.KindOf, HGraph.GetInstruction, hi]),
      hki, hk] at this
    cases this

theorem GetConstantOfKind_interned (g : HGraph) (k : InstructionKind) (ty : DataType) :
    (findConstant k (g.GetConstantOfKind k ty).1.instructions 0).isSome = true := by
  obtain ⟨hk, hb, _⟩ := GetConstantOfKind_spec g k ty
  cases hi : (g.GetConstantOfKind k ty).1.GetInstruction (g.GetConstantOfKind k ty).2 with
  | none => simp [HGraph.KindOf, hi] at hk
  | some i =>
    refine findConstant_isSome k _ 0 _ i hi ?_ ?_
    · simpa [HGraph.KindOf, hi] using hk
    · simpa [HGraph.BlockOf, hi] using hb

theorem first_isSome_iff (g : HGraph) (s : Nat) :
    ((g.GetBlock s).bind (·.GetFirstInstruction)).isSome = true ↔
      ((g.instructionsOf s).getLast?).isSome = true := by
  unfold HGraph.instructionsOf
  cases g.GetBlock s with
  | none => simp
  | some blk =>
    simp only [Option.some_bind, HBasicBlock.GetFirstInstruction]
    cases blk.instructions with
    | nil => simp
    | cons x rest => simp [List.getLast?_cons_cons]

theorem Evolves.first_isSome {g g' : HGraph} {t r : Nat → Prop} (h : Evolves g g' t r)
    (s : Nat) (hr : ∀ x, (g.instructionsOf s).getLast? = some x → ¬ r x)
    (hf : ((g.GetBlock s).bind (·.GetFirstInstruction)).isSome = true) :
    ((g'.GetBlock s).bind (·.GetFirstInstruction)).isSome = true := by
  rw [first_isSome_iff] at hf ⊢
  cases hl : (g.instructionsOf s).getLast? with
  | none => rw [hl] at hf; cases hf
  | some x => rw [h.last s x hl (hr x hl)]; rfl

theorem pickOperands_frame {g g' : HGraph} {t r : Nat → Prop} (h : Evolves g g' t r)
    (left right : Nat)
    (hl : (g.GetInstruction left).isSome = true) (hr : (g.GetInstruction right).isSome = true) :
    VisitIf.pickOperands g' left right = VisitIf.pickOperands g left right := by
  unfold VisitIf.pickOperands
  simp only [HGraph.IsConstant, h.kindIs_eq_old _ left hl, h.kindIs_eq_old _ right hr]
  split
  · rfl
  · by_cases hc : g.kindIs InstructionKind.IsConstant left = true
    · simp only [hc, if_true, h.GetType_eq_old right hr]
    · simp only [hc, Bool.false_eq_true, if_false, h.GetType_eq_old left hl]

theorem IsFoldable_of_Compare (g : HGraph) (x : Nat)
    (h : g.kindIs (fun k => k = InstructionKind.Compare true ∨
      k = InstructionKind.Compare false) x = true) :
    g.kindIs InstructionKind.IsFoldable x = true := by
  unfold HGraph.kindIs at h ⊢
  cases hk : g.KindOf x with
  | none => rw [hk] at h; cases h
  | some k =>
    rw [hk] at h
    simp only [decide_eq_true_eq] at h
    rcases h with h | h <;> rw [h] <;> rfl

/-- The pair that the condition of an If equates is the same in a later
graph in which the condition and its operands that are operations have kept
their inputs. -/
theorem candidate_frame {g g' : HGraph} {t r : Nat → Prop} (h : Evolves g g' t r) (v : Nat)
    (hdef : g.Defined)
    (hv : (g.GetInstruction v).isSome = true)
    (hin : g'.inputsOf v = g.inputsOf v)
    (hin2 : ∀ y ∈ g.inputsOf v, g.kindIs InstructionKind.IsFoldable y = true →
      g'.inputsOf y = g.inputsOf y) :
    VisitIf.candidate g' v = VisitIf.candidate g v := by
  unfold VisitIf.candidate
  simp only [h.kindIs_eq_old _ v hv, HGraph.GetLeft, HGraph.GetRight, InputAt_eq_inputsOf, hin]
  split
  · rfl
  · split
    · rfl
    · cases hl : (g.inputsOf v)[0]? with
      | none => rfl
      | some left =>
        cases hr : (g.inputsOf v)[1]? with
        | none => rfl
        | some right =>
          simp only
          have hlm : left ∈ g.inputsOf v := List.getElem?_mem hl
          have hrm : right ∈ g.inputsOf v := List.getElem?_mem hr
          have hle := hdef v left hlm
          have hre := hdef v right hrm
          rw [pickOperands_frame h left right hle hre]
          cases hp : VisitIf.pickOperands g left right with
          | none => rfl
          | some p =>
            obtain ⟨var, constant⟩ := p
            simp only
            obtain ⟨hwhich, _⟩ := pickOperands_spec g left right var constant hp
            have hvm : var ∈ g.inputsOf v := by
              rcases hwhich with ⟨h, _⟩ | ⟨h, _⟩ <;> rw [h] <;> assumption
            have hcm : constant ∈ g.inputsOf v := by
              rcases hwhich with ⟨_, h⟩ | ⟨_, h⟩ <;> rw [h] <;> assumption
            have hve := hdef v var hvm
            have hce := hdef v constant hcm
            simp only [h.kindIs_eq_old _ var hve, h.kindIs_eq_old _ constant hce]
            split
            · next hcmp =>
              rw [hin2 var hvm (IsFoldable_of_Compare g var hcmp)]
              split
              · rfl
              · cases hl2 : (g.inputsOf var)[0]? with
                | none => rfl
                | some left2 =>
                  cases hr2 : (g.inputsOf var)[1]? with
                  | none => rfl
                  | some right2 =>
                    simp only
                    exact pickOperands_frame h left2 right2
                      (hdef var left2 (List.getElem?_mem hl2))
                      (hdef var right2 (List.getElem?_mem hr2))
            · rfl

theorem isBooleanCase_frame {g g' : HGraph} {t r : Nat → Prop} (h : Evolves g g' t r)
    (var constant : Nat)
    (hv : (g.GetInstruction var).isSome = true)
    (hc : (g.GetInstruction constant).isSome = true) :
    VisitIf.isBooleanCase g' var constant = VisitIf.isBooleanCase g var constant := by
  simp only [VisitIf.isBooleanCase, h.GetType_eq_old var hv, h.kindIs_eq_old _ constant hc]

theorem candidate_none_of_not_foldable (g : HGraph) (v : Nat)
    (h : g.kindIs InstructionKind.IsFoldable v = false) : VisitIf.candidate g v = none := by
  unfold VisitIf.candidate
  have : g.kindIs InstructionKind.IsCondition v = false := by
    unfold HGraph.kindIs at h ⊢
    cases hk : g.KindOf v with
    | none => rfl
    | some k =>
      rw [hk] at h
      simp only at h ⊢
      cases k <;> first | rfl | (exfalso; revert h; decide)
  simp [this]

theorem Evolves.trans_keep {g g1 g2 : HGraph} {t1 t2 : Nat → Prop}
    (h1 : Evolves g g1 t1 (fun _ => False)) (h2 : Evolves g1 g2 t2 (fun _ => False)) :
    Evolves g g2 (fun u => t1 u ∨ t2 u) (fun _ => False) :=
  (h1.ev_trans h2).mono (fun _ h => h) (fun _ h => h.elim id id)

/-- One propagation, as a step of the evolution: it touches only
instructions that it reaches, and leaves no use of `x` among them. -/
theorem PropagateValue_step_branch (vis vis' : HConstantFoldingVisitor)
    (hc : vis.graph.Consistent) (s x c : Nat) (hcc : vis.graph.IsConstant c = true)
    (hxc : vis.graph.IsConstant x = false)
    (h : PropagateValue vis s x c = some vis') :
    Evolves vis.graph vis'.graph (fun u => vis.graph.inBranch s u = true) (fun _ => False) ∧
    vis'.graph.NoUse x s ∧
    ((vis.graph.GetBlock s).bind (·.GetFirstInstruction)).isSome = true := by
  have hne : c ≠ x := by
    intro e
    rw [e, hxc] at hcc
    cases hcc
  obtain ⟨h1, h2⟩ := PropagateValue_evolves vis vis' hc s x c hcc hne h
  refine ⟨h1.mono (fun _ hu => hu.1) (fun _ hr => hr), h2, ?_⟩
  unfold PropagateValue at h
  cases hd : (vis.graph.GetBlock s).bind (·.GetFirstInstruction) with
  | none => simp only [hd] at h; cases h
  | some d => rfl

/-- The second half of VisitIf, as a step of the evolution. -/
theorem propagateCondition_step (vis2 vis' : HConstantFoldingVisitor) (v t f : Nat)
    (hc : vis2.graph.Consistent) (hdef : vis2.graph.Defined)
    (h : VisitIf.propagateCondition vis2 v t f = some vis') :
    Evolves vis2.graph vis'.graph
      (fun u => vis2.graph.inBranch t u = true ∨ vis2.graph.inBranch f u = true)
      (fun _ => False) ∧
    ∀ var constant, VisitIf.candidate vis2.graph v = some (var, constant) →
      vis'.graph.NoUse var
        (if vis2.graph.kindIs (fun k => k = InstructionKind.Equal) v then t else f) ∧
      (VisitIf.isBooleanCase vis2.graph var constant = true →
        vis'.graph.NoUse var
          (if vis2.graph.kindIs (fun k => k = InstructionKind.Equal) v then f else t)) := by
  unfold VisitIf.propagateCondition at h
  cases hcand : VisitIf.candidate vis2.graph v with
  | none =>
    rw [hcand] at h
    simp only [Option.some.injEq] at h
    rw [← h]
    exact ⟨Evolves.ev_refl _ _ _, fun _ _ hh => by cases hh⟩
  | some p =>
    obtain ⟨var, constant⟩ := p
    rw [hcand] at h
    simp only at h
    obtain ⟨hvnc, hcc, _, hvmem⟩ := candidate_spec vis2.graph v var constant hcand
    have hvar : (vis2.graph.GetInstruction var).isSome = true := by
      rcases hvmem with hm | ⟨y, _, hm⟩
      · exact hdef v var hm
      · exact hdef y var hm
    have hcon : (vis2.graph.GetInstruction constant).isSome = true :=
      isSome_of_kindIs_true _ _ _ hcc
    generalize hstart :
      (if vis2.graph.kindIs (fun k => k = InstructionKind.Equal) v = true then t else f) =
        start at h
    generalize hother :
      (if vis2.graph.kindIs (fun k => k = InstructionKind.Equal) v = true then f else t) =
        other at h
    have hbr : ∀ g : HGraph, ∀ u, (g.inBranch start u = true ∨ g.inBranch other u = true) →
        (g.inBranch t u = true ∨ g.inBranch f u = true) := by
      intro g u hu
      by_cases he : vis2.graph.kindIs (fun k => k = InstructionKind.Equal) v = true
      · rw [if_pos he] at hstart hother
        rw [← hstart, ← hother] at hu
        exact hu
      · rw [if_neg he] at hstart hother
        rw [← hstart, ← hother] at hu
        exact hu.symm
    cases h3 : PropagateValue vis2 start var constant with
    | none => rw [h3] at h; cases h
    | some vis3 =>
      rw [h3] at h
      simp only at h
      obtain ⟨e3, n3, _⟩ := PropagateValue_step_branch vis2 vis3 hc start var constant hcc hvnc h3
      have hbool : VisitIf.isBooleanCase vis3.graph var constant =
          VisitIf.isBooleanCase vis2.graph var constant :=
        isBooleanCase_frame e3 var constant hvar hcon
      rw [hbool] at h
      by_cases hb : VisitIf.isBooleanCase vis2.graph var constant = true
      · rw [if_pos hb] at h
        generalize hr : (if vis3.graph.kindIs (fun k => k = InstructionKind.IntConstant 1)
            constant = true then vis3.graph.GetIntConstant 0
          else vis3.graph.GetIntConstant 1) = r at h
        have hrspec : Evolves vis3.graph r.1 (fun _ => False) (fun _ => False) ∧
            r.1.IsConstant r.2 = true := by
          rw [← hr]
          split
          · refine ⟨Evolves_GetConstantOfKind _ (InstructionKind.IntConstant 0) _ rfl _ _, ?_⟩
            simp only [HGraph.IsConstant, HGraph.kindIs, HGraph.GetIntConstant,
              (GetConstantOfKind_spec _ _ _).1]
            rfl
          · refine ⟨Evolves_GetConstantOfKind _ (InstructionKind.IntConstant 1) _ rfl _ _, ?_⟩
            simp only [HGraph.IsConstant, HGraph.kindIs, HGraph.GetIntConstant,
              (GetConstantOfKind_spec _ _ _).1]
            rfl
        obtain ⟨er, hrc⟩ := hrspec
        have e3r := e3.trans_keep er
        have hvnc' : r.1.IsConstant var = false := by
          rw [e3r.IsConstant_eq_old var hvar]; exact hvnc
        obtain ⟨e4, n4, _⟩ := PropagateValue_step_branch { vis3 with graph := r.1 } vis'
          (e3r.cons hc) other var r.2 hrc hvnc' h
        have e34 := er.trans_keep e4
        refine ⟨?_, ?_⟩
        · refine (e3.trans_keep e34).mono_old ?_
          intro u hu htouch
          apply hbr vis2.graph u
          rcases htouch with h1 | h1 | h1
          · exact Or.inl h1
          · exact absurd h1 id
          · right
            have := e3r.inBranch_eq_old other u hu
            simp only at h1
            rw [← this]
            exact h1
        · intro var' constant' hh
          cases hh
          refine ⟨?_, fun _ => n4⟩
          exact NoUse_mono e34 var start (e3.isSome_old var hvar)
            (by rw [e3.IsConstant_eq_old var hvar]; exact hvnc) n3
      · rw [if_neg hb] at h
        simp only [Option.some.injEq] at h
        rw [← h]
        refine ⟨e3.mono_old (fun u _ hu => hbr vis2.graph u (Or.inl hu)), ?_⟩
        intro var' constant' hh
        cases hh
        exact ⟨n3, fun hb' => absurd hb' hb⟩

theorem GetIntConstant_evolves (g : HGraph) (value : Int) :
    Evolves g (g.GetIntConstant value).1 (fun _ => False) (fun _ => False) ∧
    (g.GetIntConstant value).1.IsConstant (g.GetIntConstant value).2 = true ∧
    (findConstant (InstructionKind.IntConstant value)
      (g.GetIntConstant value).1.instructions 0).isSome = true := by
  refine ⟨Evolves_GetConstantOfKind g (InstructionKind.IntConstant value) _ rfl _ _, ?_,
    GetConstantOfKind_interned g _ _⟩
  simp only [HGraph.IsConstant, HGraph.kindIs, HGraph.GetIntConstant,
    (GetConstantOfKind_spec _ _ _).1]
  rfl

theorem Evolves.interned_keep {g g' : HGraph} {t : Nat → Prop}
    (h : Evolves g g' t (fun _ => False)) (value : Int)
    (hc : (findConstant (InstructionKind.IntConstant value) g.instructions 0).isSome = true) :
    (findConstant (InstructionKind.IntConstant value) g'.instructions 0).isSome = true :=
  h.interned _ rfl (fun _ hr => absurd hr id) hc

theorem Evolves.first_keep {g g' : HGraph} {t : Nat → Prop}
    (h : Evolves g g' t (fun _ => False)) (s : Nat)
    (hf : ((g.GetBlock s).bind (·.GetFirstInstruction)).isSome = true) :
    ((g'.GetBlock s).bind (·.GetFirstInstruction)).isSome = true :=
  h.first_isSome s (fun _ _ hr => hr) hf

/-- The visit of an If on a condition that is not a constant, as a step of
the evolution: it touches only instructions that the propagation from its
successors reaches, removes nothing, and leaves the If settled when the If,
its condition and the operands of the condition are out of reach. -/
theorem VisitIf_step (vis vis' : HConstantFoldingVisitor) (inst v : Nat)
    (hc : vis.graph.Consistent) (hdef : vis.graph.Defined)
    (hi : (vis.graph.GetInstruction inst).isSome = true)
    (hin : vis.graph.InputAt inst 0 = some v)
    (hnc : vis.graph.IsConstant v = false)
    (h : VisitIf vis inst = some vis') :
    ∃ t f, vis.graph.IfTrueSuccessor inst = some t ∧
      vis.graph.IfFalseSuccessor inst = some f ∧
      Evolves vis.graph vis'.graph
        (fun u => vis.graph.inBranch t u = true ∨ vis.graph.inBranch f u = true)
        (fun _ => False) ∧
      ((∀ u, (u = inst ∨ (vis.graph.kindIs InstructionKind.IsFoldable v = true ∧
            (u = v ∨ (u ∈ vis.graph.inputsOf v ∧
              vis.graph.kindIs InstructionKind.IsFoldable u = true)))) →
          vis.graph.inBranch t u = false ∧ vis.graph.inBranch f u = false) →
        IfSettled vis'.graph inst v t f) := by
  have hv : (vis.graph.GetInstruction v).isSome = true :=
    hdef inst v (InputAt_mem_inputsOf _ inst 0 v hin)
  unfold VisitIf at h
  simp only [hin, hnc, Bool.false_eq_true, if_false] at h
  cases ht : vis.graph.IfTrueSuccessor inst with
  | none => rw [ht] at h; cases h
  | some t =>
    cases hf : vis.graph.IfFalseSuccessor inst with
    | none => rw [ht, hf] at h; cases h
    | some f =>
      rw [ht, hf] at h
      simp only at h
      obtain ⟨e1, hc1, hone⟩ := GetIntConstant_evolves vis.graph 1
      cases h1 : PropagateValue { vis with graph := (vis.graph.GetIntConstant 1).1 } t v
          (vis.graph.GetIntConstant 1).2 with
      | none => rw [h1] at h; cases h
      | some vis1 =>
        rw [h1] at h
        simp only at h
        obtain ⟨e2, n1, f1⟩ := PropagateValue_step_branch _ vis1 (e1.cons hc) t v _ hc1
          (by rw [e1.IsConstant_eq_old v hv]; exact hnc) h1
        simp only at e2 f1
        have e12 := e1.trans_keep e2
        obtain ⟨e3, hc0, hzero⟩ := GetIntConstant_evolves vis1.graph 0
        cases h2 : PropagateValue { vis1 with graph := (vis1.graph.GetIntConstant 0).1 } f v
            (vis1.graph.GetIntConstant 0).2 with
        | none => rw [h2] at h; cases h
        | some vis2 =>
          rw [h2] at h
          simp only at h
          have e123 := e12.trans_keep e3
          obtain ⟨e4, n2, f2⟩ := PropagateValue_step_branch _ vis2 (e123.cons hc) f v _ hc0
            (by rw [e123.IsConstant_eq_old v hv]; exact hnc) h2
          simp only at e4 f2
          have e1234 := e123.trans_keep e4
          obtain ⟨e5, hops⟩ := propagateCondition_step vis2 vis' v t f (e1234.cons hc)
            (e1234.defined hdef) h
          have e34 := e3.trans_keep e4
          have e345 := e34.trans_keep e5
          have e2345 := e2.trans_keep e345
          have e45 := e4.trans_keep e5
          -- the whole visit
          have eall : Evolves vis.graph vis'.graph
              (fun u => vis.graph.inBranch t u = true ∨ vis.graph.inBranch f u = true)
              (fun _ => False) := by
            refine (e1234.trans_keep e5).mono_old ?_
            intro u hu htouch
            rcases htouch with (((h0 | h0) | h0) | h0) | h0
            · exact absurd h0 id
            · left
              rw [← e1.inBranch_eq_old t u hu]; exact h0
            · exact absurd h0 id
            · right
              rw [← e123.inBranch_eq_old f u hu]; exact h0
            · rcases h0 with h0 | h0
              · left
                rw [← e1234.inBranch_eq_old t u hu]; exact h0
              · right
                rw [← e1234.inBranch_eq_old f u hu]; exact h0
          refine ⟨t, f, rfl, rfl, eall, ?_⟩
          intro hout
          have hkeep : ∀ u, (vis.graph.GetInstruction u).isSome = true →
              vis.graph.inBranch t u = false ∧ vis.graph.inBranch f u = false →
              vis'.graph.inputsOf u = vis.graph.inputsOf u ∧
              vis2.graph.inputsOf u = vis.graph.inputsOf u := by
            intro u hu hno
            have hn : ¬ (vis.graph.inBranch t u = true ∨ vis.graph.inBranch f u = true) := by
              rw [hno.1, hno.2]
              simp
            constructor
            · rcases eall.inputsOf_old u with he | ⟨htouch, _⟩
              · exact he
              · exact absurd htouch hn
            · have e' : Evolves vis.graph vis2.graph
                  (fun u => vis.graph.inBranch t u = true ∨ vis.graph.inBranch f u = true)
                  (fun _ => False) := by
                refine e1234.mono_old ?_
                intro u hu htouch
                rcases htouch with ((h0 | h0) | h0) | h0
                · exact absurd h0 id
                · left
                  rw [← e1.inBranch_eq_old t u hu]; exact h0
                · exact absurd h0 id
                · right
                  rw [← e123.inBranch_eq_old f u hu]; exact h0
              rcases e'.inputsOf_old u with he | ⟨htouch, _⟩
              · exact he
              · exact absurd htouch hn
          have hsucc := eall.IfSuccessors_eq inst (eall.BlockOf_eq inst hi)
          have hv2 : (vis2.graph.GetInstruction v).isSome = true := e1234.isSome_old v hv
          refine ⟨?_, by rw [hsucc.1, ht], by rw [hsucc.2, hf], ?_, ?_, ?_, ?_, ?_, ?_, ?_⟩
          · rw [InputAt_eq_inputsOf, (hkeep inst hi (hout inst (Or.inl rfl))).1,
              ← InputAt_eq_inputsOf]
            exact hin
          · exact e2345.interned_keep 1 hone
          · exact e45.interned_keep 0 hzero
          · exact e2345.first_keep t f1
          · exact e45.first_keep f f2
          · exact NoUse_mono e345 v t (e12.isSome_old v hv)
              (by rw [e12.IsConstant_eq_old v hv]; exact hnc) n1
          · exact NoUse_mono e5 v f hv2
              (by rw [e1234.IsConstant_eq_old v hv]; exact hnc) n2
          · intro var constant hcand
            by_cases hfold : vis.graph.kindIs InstructionKind.IsFoldable v = true
            · have hcf : VisitIf.candidate vis'.graph v = VisitIf.candidate vis2.graph v := by
                have hv_out := hout v (Or.inr ⟨hfold, Or.inl rfl⟩)
                have hkv := hkeep v hv hv_out
                apply candidate_frame e5 v (e1234.defined hdef) hv2
                · rw [hkv.1, hkv.2]
                · intro y hy hyf
                  rw [hkv.2] at hy
                  have hys := hdef v y hy
                  have hyf' : vis.graph.kindIs InstructionKind.IsFoldable y = true := by
                    rw [← e1234.kindIs_eq_old _ y hys]; exact hyf
                  have hky := hkeep y hys (hout y (Or.inr ⟨hfold, Or.inr ⟨hy, hyf'⟩⟩))
                  rw [hky.1, hky.2]
              rw [hcf] at hcand
              obtain ⟨_, hcc, _, hvmem⟩ := candidate_spec vis2.graph v var constant hcand
              have hvar : (vis2.graph.GetInstruction var).isSome = true := by
                rcases hvmem with hm | ⟨y, _, hm⟩
                · exact e1234.defined hdef v var hm
                · exact e1234.defined hdef y var hm
              have hcon : (vis2.graph.GetInstruction constant).isSome = true :=
                isSome_of_kindIs_true _ _ _ hcc
              rw [e5.kindIs_eq_old _ v hv2, isBooleanCase_frame e5 var constant hvar hcon]
              exact hops var constant hcand
            · have hnf : vis'.graph.kindIs InstructionKind.IsFoldable v = false := by
                rw [eall.kindIs_eq_old _ v hv]
                simpa using hfold
              rw [candidate_none_of_not_foldable vis'.graph v hnf] at hcand
              cases hcand

theorem mem_of_precedes (l : List Nat) (x y : Nat) (h : precedes l x y = true) : y ∈ l := by
  induction l with
  | nil => simp [precedes] at h
  | cons z zs ih =>
    unfold precedes at h
    split_ifs at h
    · exact List.mem_cons_of_mem _ (of_decide_eq_true h)
    · exact List.mem_cons_of_mem _ (ih h)

theorem precedes_append_right (l1 l2 : List Nat) (x y : Nat) (h : precedes l2 x y = true) :
    precedes (l1 ++ l2) x y = true := by
  induction l1 with
  | nil => exact h
  | cons z zs ih =>
    rw [List.cons_append]
    unfold precedes
    split_ifs
    · exact decide_eq_true (List.mem_append_right _ (mem_of_precedes l2 x y h))
    · exact ih

theorem precedes_of_mem (l1 l2 : List Nat) (x y : Nat) (hx : x ∈ l1) (hy : y ∈ l2) :
    precedes (l1 ++ l2) x y = true := by
  induction l1 with
  | nil => cases hx
  | cons z zs ih =>
    rw [List.cons_append]
    unfold precedes
    split_ifs with hz
    · exact decide_eq_true (List.mem_append_right _ hy)
    · rcases List.mem_cons.mp hx with hx | hx
      · exact absurd hx.symm hz
      · exact ih hx

/-- The order of the blocks carries over to their instructions in the
flattened order. -/
theorem precedes_flatten (f : Nat → List Nat) (l : List Nat) (a b x y : Nat)
    (h : precedes l a b = true) (hx : x ∈ f a) (hy : y ∈ f b) :
    precedes (l.map f).flatten x y = true := by
  induction l with
  | nil => simp [precedes] at h
  | cons z zs ih =>
    rw [List.map_cons, List.flatten_cons]
    unfold precedes at h
    split_ifs at h with hz
    · subst hz
      apply precedes_of_mem _ _ _ _ hx
      rw [List.mem_flatten]
      exact ⟨f b, List.mem_map.mpr ⟨b, of_decide_eq_true h, rfl⟩, hy⟩
    · exact precedes_append_right _ _ _ _ (ih h)

/-- In a duplicate-free order, what precedes a member of a prefix belongs to
the prefix. -/
theorem mem_initial_of_precedes (d r : List Nat) (x y : Nat) (hn : (d ++ r).Nodup)
    (h : precedes (d ++ r) x y = true) (hy : y ∈ d) : x ∈ d := by
  induction d with
  | nil => cases hy
  | cons z zs ih =>
    rw [List.cons_append] at hn h
    unfold precedes at h
    split_ifs at h with hz
    · rw [hz]; exact List.mem_cons_self _ _
    · rcases List.mem_cons.mp hy with hy | hy
      · subst hy
        exact absurd (mem_of_precedes _ _ _ h) (List.nodup_cons.mp hn).1
      · exact List.mem_cons_of_mem _ (ih (List.nodup_cons.mp hn).2 h hy)

/-- In a duplicate-free order, what a member precedes is neither before it
nor the member itself. -/
theorem not_mem_of_precedes (d r : List Nat) (x y : Nat) (hn : (d ++ x :: r).Nodup)
    (h : precedes (d ++ x :: r) x y = true) : y ∉ d ++ [x] := by
  induction d with
  | nil =>
    rw [List.nil_append] at hn h ⊢
    unfold precedes at h
    rw [if_pos rfl] at h
    have hy := of_decide_eq_true h
    intro hmem
    rw [List.mem_singleton] at hmem
    subst hmem
    exact (List.nodup_cons.mp hn).1 hy
  | cons z zs ih =>
    rw [List.cons_append] at hn h ⊢
    unfold precedes at h
    have hz : z ≠ x := by
      intro e
      subst e
      exact (List.nodup_cons.mp hn).1 (by simp)
    rw [if_neg hz] at h
    intro hmem
    rcases List.mem_cons.mp hmem with hmem | hmem
    · subst hmem
      exact (List.nodup_cons.mp hn).1 (mem_of_precedes _ _ _ h)
    · exact ih (List.nodup_cons.mp hn).2 h hmem

theorem mem_visitOrder (g : HGraph) (u : Nat) :
    u ∈ g.visitOrder ↔ ∃ b ∈ g.reverse_post_order, u ∈ g.instructionsOf b := by
  unfold HGraph.visitOrder
  rw [List.mem_flatten]
  constructor
  · rintro ⟨l, hl, hu⟩
    obtain ⟨b, hb, rfl⟩ := List.mem_map.mp hl
    exact ⟨b, hb, hu⟩
  · rintro ⟨b, hb, hu⟩
    exact ⟨_, List.mem_map.mpr ⟨b, hb, rfl⟩, hu⟩

theorem instructionsOf_of_not_lt (g : HGraph) (b : Nat) (h : ¬ b < g.blocks.length) :
    g.instructionsOf b = [] := by
  unfold HGraph.instructionsOf HGraph.GetBlock
  rw [List.getD_eq_default _ _ (Nat.le_of_not_lt h)]

theorem GetBlock_isSome_lt (g : HGraph) (b : Nat) (h : (g.GetBlock b).isSome = true) :
    b < g.blocks.length := by
  by_contra hlt
  unfold HGraph.GetBlock at h
  rw [List.getD_eq_default _ _ (Nat.le_of_not_lt hlt)] at h
  cases h

/-- The check of well-formedness establishes what it is meant to. -/
theorem WellFormed_ordered (g : HGraph) (h : g.WellFormed = true) : g.Ordered := by
  unfold HGraph.WellFormed at h
  simp only [Bool.and_eq_true, beq_iff_eq, decide_eq_true_eq, List.all_eq_true,
    List.mem_range, Bool.or_eq_true, Bool.not_eq_true'] at h
  obtain ⟨⟨⟨⟨⟨⟨⟨h1, h2⟩, h3⟩, h4⟩, h5⟩, h6⟩, h7⟩, h8⟩ := h
  refine ⟨h1, h2, h3, Defined_of_InputsDefined g h4, ?_, ?_, ?_, ?_, ?_⟩
  · intro b u hu
    by_cases hb : b < g.blocks.length
    · have := (h5 b hb).2 u hu
      exact ⟨this.1, this.2⟩
    · rw [instructionsOf_of_not_lt g b hb] at hu
      cases hu
  · intro b hb
    rcases (h5 b (GetBlock_isSome_lt g b hb)).1 with hn | hm
    · rw [hb] at hn; cases hn
    · exact hm
  · intro b hb
    obtain ⟨hs, hl⟩ := h6 b hb
    refine ⟨hs, ?_⟩
    cases hx : (g.instructionsOf b).getLast? with
    | none => rw [hx] at hl; cases hl
    | some x =>
      rw [hx] at hl
      exact ⟨x, rfl, by simpa using hl⟩
  · intro u hu x hx hf
    rcases h7 u hu x hx with hn | hp
    · rw [hf] at hn; cases hn
    · exact hp
  · intro a ha hif s hs b hb hd
    rcases h8 a ha with hn | hall
    · exfalso
      obtain ⟨u, hu, hk⟩ := hif
      have : (g.instructionsOf a).any
          (fun u => g.kindIs (fun k => k = InstructionKind.If) u) = true := by
        rw [List.any_eq_true]
        exact ⟨u, hu, by simp [HGraph.kindIs, hk]⟩
      rw [this] at hn
      cases hn
    · rcases hall s hs b hb with hn | hp
      · rw [hd] at hn; cases hn
      · exact hp

theorem IsFoldable_not_IsConstant (k : InstructionKind) (h : k.IsFoldable = true) :
    k.IsConstant = false := by
  unfold InstructionKind.IsConstant
  split
  · cases h
  · cases h
  · cases h
  · cases h
  · cases h
  · rfl

theorem kindIs_IsFoldable_not_IsConstant (g : HGraph) (x : Nat)
    (h : g.kindIs InstructionKind.IsFoldable x = true) : g.IsConstant x = false := by
  unfold HGraph.IsConstant
  unfold HGraph.kindIs at h ⊢
  cases hk : g.KindOf x with
  | none => rfl
  | some k =>
    rw [hk] at h
    exact IsFoldable_not_IsConstant k h

theorem not_IsFoldable_of_If (g : HGraph) (x : Nat)
    (h : g.KindOf x = some InstructionKind.If) :
    g.kindIs InstructionKind.IsFoldable x = false := by
  unfold HGraph.kindIs
  rw [h]
  rfl

/-- An If that has nothing left to propagate stays so along the evolution of
the graph, as long as the If, its condition and the operands of the condition
are not touched. -/
theorem IfSettled.if_frame {g g' : HGraph} {T R : Nat → Prop} (E : Evolves g g' T R)
    (hdef : g.Defined) {inst v t f : Nat} (hs : IfSettled g inst v t f)
    (hnc : g.IsConstant v = false)
    (hR : ∀ x, R x → g.kindIs InstructionKind.IsFoldable x = true)
    (hlast : ∀ b x, (g.instructionsOf b).getLast? = some x →
      g.kindIs InstructionKind.IsFoldable x = false)
    (hk : g.KindOf inst = some InstructionKind.If)
    (hT : ¬ T inst)
    (hT2 : g.kindIs InstructionKind.IsFoldable v = true →
      ¬ T v ∧ ∀ y ∈ g.inputsOf v, g.kindIs InstructionKind.IsFoldable y = true → ¬ T y) :
    IfSettled g' inst v t f := by
  have hi : (g.GetInstruction inst).isSome = true := by
    unfold HGraph.KindOf at hk
    cases hg : g.GetInstruction inst with
    | none => rw [hg] at hk; cases hk
    | some i => rfl
  have hv : (g.GetInstruction v).isSome = true :=
    hdef inst v (InputAt_mem_inputsOf _ inst 0 v hs.input)
  have hnot : ∀ x, (g.kindIs InstructionKind.IsFoldable x = false) → ¬ R x := by
    intro x hx hr
    rw [hR x hr] at hx
    cases hx
  have hin : g'.inputsOf inst = g.inputsOf inst := by
    rcases E.inputsOf_old inst with he | ⟨ht, _⟩
    · exact he
    · exact absurd ht hT
  have hb : g'.BlockOf inst = g.BlockOf inst := by
    rcases E.BlockOf_old inst hi with he | ⟨hr, _⟩
    · exact he
    · exact absurd hr (hnot inst (not_IsFoldable_of_If g inst hk))
  have hsucc := E.IfSuccessors_eq inst hb
  refine ⟨?_, by rw [hsucc.1]; exact hs.true_successor,
    by rw [hsucc.2]; exact hs.false_successor,
    E.interned _ rfl hR hs.one, E.interned _ rfl hR hs.zero,
    E.first_isSome t (fun x hx => hnot x (hlast t x hx)) hs.true_first,
    E.first_isSome f (fun x hx => hnot x (hlast f x hx)) hs.false_first,
    NoUse_mono E v t hv hnc hs.true_uses, NoUse_mono E v f hv hnc hs.false_uses, ?_⟩
  · rw [InputAt_eq_inputsOf, hin, ← InputAt_eq_inputsOf]
    exact hs.input
  · intro var constant hcand
    by_cases hfold : g.kindIs InstructionKind.IsFoldable v = true
    · obtain ⟨htv, hty⟩ := hT2 hfold
      have hcf : VisitIf.candidate g' v = VisitIf.candidate g v := by
        apply candidate_frame E v hdef hv
        · rcases E.inputsOf_old v with he | ⟨ht, _⟩
          · exact he
          · exact absurd ht htv
        · intro y hy hyf
          rcases E.inputsOf_old y with he | ⟨ht, _⟩
          · exact he
          · exact absurd ht (hty y hy hyf)
      rw [hcf] at hcand
      obtain ⟨hvnc, hcc, _, hvmem⟩ := candidate_spec g v var constant hcand
      have hvar : (g.GetInstruction var).isSome = true := by
        rcases hvmem with hm | ⟨y, _, hm⟩
        · exact hdef v var hm
        · exact hdef y var hm
      have hcon : (g.GetInstruction constant).isSome = true :=
        isSome_of_kindIs_true _ _ _ hcc
      obtain ⟨hu1, hu2⟩ := hs.operand_uses var constant hcand
      rw [E.kindIs_eq_old _ v hv, isBooleanCase_frame E var constant hvar hcon]
      exact ⟨NoUse_mono E var _ hvar hvnc hu1,
        fun hbool => NoUse_mono E var _ hvar hvnc (hu2 hbool)⟩
    · have hnf : g'.kindIs InstructionKind.IsFoldable v = false := by
        rw [E.kindIs_eq_old _ v hv]
        simpa using hfold
      rw [candidate_none_of_not_foldable g' v hnf] at hcand
      cases hcand

/-- A settled instruction stays settled along the evolution of the graph, as
long as nothing of a set `D` is touched that holds the instruction and is
closed under taking the operations among the inputs. -/
theorem Settled.frame {ev : StaticEvaluator} (hev : ev.IsLocal) {g g' : HGraph}
    {T R : Nat → Prop} (E : Evolves g g' T R) (hdef : g.Defined) {u : Nat}
    (hS : Settled ev g u) (hu : (g.GetInstruction u).isSome = true)
    (hR : ∀ x, R x → g.kindIs InstructionKind.IsFoldable x = true)
    (hlast : ∀ b x, (g.instructionsOf b).getLast? = some x →
      g.kindIs InstructionKind.IsFoldable x = false)
    (D : Nat → Prop) (hD : ∀ x, D x → ¬ T x) (hDu : D u)
    (hDc : ∀ x y, D x → y ∈ g.inputsOf x → g.kindIs InstructionKind.IsFoldable y = true → D y) :
    Settled ev g' u := by
  have hin : g'.inputsOf u = g.inputsOf u := by
    rcases E.inputsOf_old u with he | ⟨ht, _⟩
    · exact he
    · exact absurd ht (hD u hDu)
  rcases hS with hb | ⟨hk, hsome, hq⟩ | ⟨hk, v, hinp, hv⟩
  · exact Or.inl (BlockOf_none_of_evolves E u hu hb)
  · cases hb' : g'.BlockOf u with
    | none => exact Or.inl hb'
    | some b =>
      have hbe : g'.BlockOf u = g.BlockOf u := by
        rcases E.BlockOf_old u hu with he | ⟨_, hn⟩
        · exact he
        · rw [hn] at hb'; cases hb'
      have hbs : (g.BlockOf u).isSome = true := by rw [← hbe, hb']; rfl
      have hview : SameView g g' u := by
        constructor
        · cases hi : g.GetInstruction u with
          | none => rw [hi] at hu; cases hu
          | some i =>
            obtain ⟨i', hi', h1, h2, h3, _, _⟩ := E.inst u i hi
            rw [hi']
            have h4 : i'.block = i.block := by
              simpa [HGraph.BlockOf, hi, hi'] using hbe
            have h5 : i'.inputs = i.inputs := by
              simpa [HGraph.inputsOf, hi, hi'] using hin
            obtain ⟨h3, h6⟩ := h3
            cases i
            cases i'
            simp only at h1 h2 h3 h4 h5 h6
            rw [h1, h2, h3, h4, h5, h6]
        · intro x hx
          have hxs := hdef u x hx
          refine ⟨E.KindOf_eq_old x hxs, E.GetType_eq_old x hxs, ?_, ?_⟩
          · cases hi : g.GetInstruction x with
            | none => rw [hi] at hxs; cases hxs
            | some i =>
              obtain ⟨i', hi', _, _, h3, _⟩ := E.inst x i hi
              rw [hi']
              simp [h3.1]
          · intro hf
            rcases E.inputsOf_old x with he | ⟨ht, _⟩
            · exact he
            · exact absurd ht (hD x (hDc u x hDu hx hf))
      refine Or.inr (Or.inl ⟨by rw [E.KindOf_eq_old u hu]; exact hk,
        by rw [E.KindOf_eq_old u hu]; exact hsome, Accept_frame ev hev g g' u hbs hview hk hq⟩)
  · have hvm := InputAt_mem_inputsOf _ u 0 v hinp
    have hvs := hdef u v hvm
    refine Or.inr (Or.inr ⟨by rw [E.KindOf_eq_old u hu]; exact hk, v, ?_, ?_⟩)
    · rw [InputAt_eq_inputsOf, hin, ← InputAt_eq_inputsOf]
      exact hinp
    · cases hc : g.IsConstant v with
      | true => exact Or.inl (by rw [E.IsConstant_eq_old v hvs]; exact hc)
      | false =>
        rcases hv with hv | ⟨t, f, hs⟩
        · rw [hc] at hv; cases hv
        · refine Or.inr ⟨t, f, hs.if_frame E hdef hc hR hlast hk (hD u hDu) ?_⟩
          intro hf
          exact ⟨hD v (hDc u v hDu hvm hf),
            fun y hy hyf => hD y (hDc v y (hDc u v hDu hvm hf) hy hyf)⟩

/-- The visit of an instruction other than an If does not look at the
statistics. -/
theorem Accept_graph (ev : StaticEvaluator) (vis vis' : HConstantFoldingVisitor) (inst : Nat)
    (hk : vis.graph.KindOf inst ≠ some InstructionKind.If)
    (h : HConstantFoldingVisitor.Accept ev vis inst = some vis')
    (stats : Option OptimizingCompilerStats) :
    HConstantFoldingVisitor.Accept ev { graph := vis.graph, stats := stats } inst =
      some { graph := vis'.graph, stats := stats } := by
  cases hkind : vis.graph.KindOf inst with
  | none =>
    unfold HConstantFoldingVisitor.Accept at h
    rw [hkind] at h
    cases h
  | some k =>
    have hne : k ≠ InstructionKind.If := fun e => hk (by rw [hkind, e])
    rw [Accept_eq ev vis inst k hkind] at h
    rw [Accept_eq ev { graph := vis.graph, stats := stats } inst k hkind]
    simp only [if_neg hne] at h ⊢
    split_ifs at h ⊢
    all_goals first
      | (cases h; rfl)
      | (revert h
         generalize VisitUnaryOperation ev vis.graph inst = r
         intro h
         cases r with
         | none => cases h
         | some g1 => cases h; rfl)
      | (revert h
         generalize VisitBinaryOperation ev vis.graph inst = r
         intro h
         cases r with
         | none => cases h
         | some g1 => cases h; rfl)
      | (revert h
         generalize VisitTypeConversion ev vis.graph inst = r
         intro h
         cases r with
         | none => cases h
         | some g1 => cases h; rfl)
      | (revert h
         generalize VisitDivZeroCheck vis.graph inst = r
         intro h
         cases r with
         | none => cases h
         | some g1 => cases h; rfl)

theorem Accept_If (ev : StaticEvaluator) (vis : HConstantFoldingVisitor) (inst : Nat)
    (hk : vis.graph.KindOf inst = some InstructionKind.If) :
    HConstantFoldingVisitor.Accept ev vis inst = VisitIf vis inst := by
  rw [Accept_eq ev vis inst _ hk]
  rfl

theorem inBranch_dominated (g : HGraph) (s u : Nat) (h : g.inBranch s u = true) :
    ∃ b, g.BlockOf u = some b ∧ g.Dominates s b = true := by
  unfold HGraph.inBranch at h
  cases hb : g.BlockOf u with
  | none => rw [hb] at h; cases h
  | some b =>
    rw [hb] at h
    simp only at h
    refine ⟨b, rfl, ?_⟩
    split_ifs at h with hbs
    · rw [hbs]; exact Dominates_self g s
    · exact h

theorem isSome_of_BlockOf (g : HGraph) (u b : Nat) (h : g.BlockOf u = some b) :
    (g.GetInstruction u).isSome = true := by
  unfold HGraph.BlockOf at h
  cases hi : g.GetInstruction u with
  | none => rw [hi] at h; cases h
  | some i => rfl

theorem HGraph.Ordered.block_of {g : HGraph} (O : g.Ordered) (u : Nat) (hu : u ∈ g.visitOrder) :
    ∃ b ∈ g.reverse_post_order, u ∈ g.instructionsOf b ∧ g.BlockOf u = some b ∧
      (g.GetInstruction u).isSome = true := by
  obtain ⟨b, hb, hub⟩ := (mem_visitOrder g u).mp hu
  have hblk := (O.consistent b u hub).1
  exact ⟨b, hb, hub, hblk, isSome_of_BlockOf g u b hblk⟩

/-- The last instruction of a block is still not an operation after the
visits. -/
theorem Swept.last_kept {ev : StaticEvaluator} {g0 g : HGraph} {done : List Nat}
    (S : Swept ev g0 g done) (O : g0.Ordered) (b x : Nat)
    (h : (g.instructionsOf b).getLast? = some x) :
    g.kindIs InstructionKind.IsFoldable x = false := by
  cases h0 : (g0.instructionsOf b).getLast? with
  | some x0 =>
    have hmem : x0 ∈ g0.instructionsOf b := List.mem_of_mem_getLast? h0
    have hblk := (O.consistent b x0 hmem).1
    have hx0 := isSome_of_BlockOf g0 x0 b hblk
    have hbs : (g0.GetBlock b).isSome = true := by
      unfold HGraph.instructionsOf at hmem
      cases hg : g0.GetBlock b with
      | none => rw [hg] at hmem; cases hmem
      | some blk => rfl
    obtain ⟨_, x1, hx1, hnf⟩ := O.terminated b (O.listed b hbs)
    rw [h0] at hx1
    cases hx1
    have hl := S.evolves.last b x0 h0 (fun hr => by rw [hr.2] at hnf; cases hnf)
    rw [h] at hl
    cases hl
    rw [S.evolves.kindIs_eq_old _ x hx0]
    exact hnf
  | none =>
    exfalso
    have hnil : g0.instructionsOf b = [] := List.getLast?_eq_none_iff.mp h0
    have hne : b ≠ g0.entry_block := by
      intro e
      have hmem : g0.entry_block ∈ g0.reverse_post_order := List.mem_of_mem_head? O.head
      obtain ⟨_, x1, hx1, _⟩ := O.terminated _ hmem
      rw [← e, h0] at hx1
      cases hx1
    have := S.evolves.lists_frame b hne (by rw [hnil]; intro u hu; cases hu)
    rw [this, hnil] at h
    cases h

/-- An operation among the inputs of an instruction after the visits was
among its inputs before. -/
theorem Swept.pull_back {ev : StaticEvaluator} {g0 g : HGraph} {done : List Nat}
    (S : Swept ev g0 g done) (O : g0.Ordered) (u x : Nat) (hx : x ∈ g.inputsOf u)
    (hf : g.kindIs InstructionKind.IsFoldable x = true) :
    x ∈ g0.inputsOf u ∧ g0.kindIs InstructionKind.IsFoldable x = true := by
  have hmem : x ∈ g0.inputsOf u := by
    rcases S.evolves.inputsOf_old u with he | ⟨_, _, hall⟩
    · rw [← he]; exact hx
    · rcases hall x hx with hm | hc
      · exact hm
      · rw [kindIs_IsFoldable_not_IsConstant g x hf] at hc
        cases hc
  refine ⟨hmem, ?_⟩
  rw [← S.evolves.kindIs_eq_old _ x (O.defined u x hmem)]
  exact hf

/-- The visited instructions are closed under taking the operations among
the inputs. -/
theorem Swept.closed {ev : StaticEvaluator} {g0 g : HGraph} {done : List Nat}
    (S : Swept ev g0 g done) (O : g0.Ordered) (pre rest : List Nat)
    (hvo : g0.visitOrder = pre ++ rest) (x y : Nat) (hx : x ∈ pre)
    (hy : y ∈ g.inputsOf x) (hf : g.kindIs InstructionKind.IsFoldable y = true) :
    y ∈ pre := by
  obtain ⟨hy0, hf0⟩ := S.pull_back O x y hy hf
  have hxv : x ∈ g0.visitOrder := by rw [hvo]; exact List.mem_append_left _ hx
  have hp := O.ordered x hxv y hy0 hf0
  have hn := O.nodup
  rw [hvo] at hp hn
  exact mem_initial_of_precedes pre rest y x hn hp hx

/-- The fold of an operation touches no instruction that has been visited. -/
theorem Swept.fold_untouched {ev : StaticEvaluator} {g0 g : HGraph} {done : List Nat}
    (S : Swept ev g0 g done) (O : g0.Ordered) (todo : List Nat) (inst : Nat)
    (hvo : g0.visitOrder = done ++ inst :: todo)
    (hf : g.kindIs InstructionKind.IsFoldable inst = true)
    (x : Nat) (hx : x ∈ done ++ [inst]) : inst ∉ g.inputsOf x := by
  intro hmem
  obtain ⟨hm0, hf0⟩ := S.pull_back O x inst hmem hf
  have hxv : x ∈ g0.visitOrder := by
    rw [hvo]
    rcases List.mem_append.mp hx with h | h
    · exact List.mem_append_left _ h
    · rw [List.mem_singleton] at h
      rw [h]
      exact List.mem_append_right _ (List.mem_cons_self _ _)
  have hp := O.ordered x hxv inst hm0 hf0
  have hn := O.nodup
  rw [hvo] at hp hn
  exact not_mem_of_precedes done todo inst x hn hp hx

theorem mem_take_two (l : List Nat) (s : Nat) (h : l[0]? = some s ∨ l[1]? = some s) :
    s ∈ l.take 2 := by
  match l, h with
  | [], h => simp at h
  | [a], h =>
    rcases h with h | h
    · simp only [List.getElem?_cons_zero, Option.some.injEq] at h
      simp [h]
    · simp at h
  | a :: b :: rest, h =>
    simp only [List.getElem?_cons_zero, List.getElem?_cons_succ, Option.some.injEq] at h
    simp only [List.take_succ_cons, List.take_zero, List.mem_cons, List.mem_singleton]
    rcases h with h | h
    · exact Or.inl h.symm
    · exact Or.inr (Or.inl h.symm)

/-- The propagation from a successor of an If reaches no instruction that
has been visited. -/
theorem Swept.branch_untouched {ev : StaticEvaluator} {g0 g : HGraph} {done : List Nat}
    (S : Swept ev g0 g done) (O : g0.Ordered) (todo : List Nat) (inst s : Nat)
    (hvo : g0.visitOrder = done ++ inst :: todo)
    (hk : g.KindOf inst = some InstructionKind.If)
    (hs : g.IfTrueSuccessor inst = some s ∨ g.IfFalseSuccessor inst = some s)
    (x : Nat) (hx : x ∈ done ++ [inst]) : g.inBranch s x = false := by
  cases hbr : g.inBranch s x with
  | false => rfl
  | true =>
    exfalso
    obtain ⟨b, hxb, hdom⟩ := inBranch_dominated g s x hbr
    have hiv : inst ∈ g0.visitOrder := by
      rw [hvo]; exact List.mem_append_right _ (List.mem_cons_self _ _)
    have hxv : x ∈ g0.visitOrder := by
      rcases List.mem_append.mp hx with h | h
      · rw [hvo]
        exact List.mem_append_left _ h
      · rw [List.mem_singleton] at h
        rw [h]
        exact hiv
    obtain ⟨a, ha, hia, hiblk, hi0⟩ := O.block_of inst hiv
    obtain ⟨b0, hb0, hxb0, hxblk, hx0⟩ := O.block_of x hxv
    have hbb : b0 = b := by
      rcases S.evolves.BlockOf_old x hx0 with he | ⟨_, hn⟩
      · rw [he, hxblk] at hxb
        exact Option.some.inj hxb
      · rw [hn] at hxb; cases hxb
    subst hbb
    have hk0 : g0.KindOf inst = some InstructionKind.If := by
      rw [← S.evolves.KindOf_eq_old inst hi0]; exact hk
    have hsucc : s ∈ (g0.successorsOf a).take 2 := by
      apply mem_take_two
      rw [IfTrueSuccessor_eq, IfFalseSuccessor_eq] at hs
      have hblk : g.BlockOf inst = some a := by
        rcases S.evolves.BlockOf_old inst hi0 with he | ⟨_, hn⟩
        · rw [he]; exact hiblk
        · rw [hn] at hs
          rcases hs with hs | hs <;> cases hs
      rw [hblk] at hs
      simp only [Option.some_bind, S.evolves.succ] at hs
      exact hs
    have hd0 : g0.Dominates s b0 = true := by
      rw [← S.evolves.Dominates_eq_old s b0]; exact hdom
    have hp := O.branches a ha ⟨inst, hia, hk0⟩ s hsucc b0 hb0 hd0
    have hpv : precedes g0.visitOrder inst x = true :=
      precedes_flatten g0.instructionsOf g0.reverse_post_order a b0 inst x hp hia hxb0
    have hn := O.nodup
    rw [hvo] at hpv hn
    exact not_mem_of_precedes done todo inst x hn hpv hx

/-- One visit of the sweep: after the visit of the next instruction of the
visiting order, the visited instructions, the new one included, are settled. -/
theorem Swept.step {ev : StaticEvaluator} (hev : ev.IsLocal) {g0 : HGraph} (O : g0.Ordered)
    (done todo : List Nat) (inst : Nat) (hvo : g0.visitOrder = done ++ inst :: todo)
    (vis vis' : HConstantFoldingVisitor) (S : Swept ev g0 vis.graph done)
    (h : HConstantFoldingVisitor.Accept ev vis inst = some vis') :
    Swept ev g0 vis'.graph (done ++ [inst]) := by
  have hc := S.evolves.cons O.consistent
  have hdef := S.evolves.defined O.defined
  have hlast := S.last_kept O
  have hiv : inst ∈ g0.visitOrder := by
    rw [hvo]; exact List.mem_append_right _ (List.mem_cons_self _ _)
  obtain ⟨a, ha, hia, hiblk, hi0⟩ := O.block_of inst hiv
  have hi := S.evolves.isSome_old inst hi0
  have hvo2 : g0.visitOrder = (done ++ [inst]) ++ todo := by
    rw [hvo, List.append_assoc]; rfl
  have hDc : ∀ x y, x ∈ done ++ [inst] → y ∈ vis.graph.inputsOf x →
      vis.graph.kindIs InstructionKind.IsFoldable y = true → y ∈ done ++ [inst] :=
    fun x y hx hy hf => S.closed O _ todo hvo2 x y hx hy hf
  have hold : ∀ u ∈ done, (vis.graph.GetInstruction u).isSome = true := by
    intro u hu
    have huv : u ∈ g0.visitOrder := by rw [hvo]; exact List.mem_append_left _ hu
    obtain ⟨_, _, _, _, hu0⟩ := O.block_of u huv
    exact S.evolves.isSome_old u hu0
  have hmono : Evolves g0 vis.graph (fun _ => True)
      (fun u => u ∈ done ++ [inst] ∧ g0.kindIs InstructionKind.IsFoldable u = true) :=
    S.evolves.mono (fun _ hu => hu) (fun u hu => ⟨List.mem_append_left _ hu.1, hu.2⟩)
  by_cases hk : vis.graph.KindOf inst = some InstructionKind.If
  · rw [Accept_If ev vis inst hk] at h
    cases hin : vis.graph.InputAt inst 0 with
    | none =>
      unfold VisitIf at h
      rw [hin] at h
      cases h
    | some v =>
      cases hcv : vis.graph.IsConstant v with
      | true =>
        have hvv : vis' = vis := by
          unfold VisitIf at h
          rw [hin] at h
          simp only [hcv, if_true] at h
          exact (Option.some.inj h).symm
        rw [hvv]
        refine ⟨hmono, ?_⟩
        intro u hu
        rcases List.mem_append.mp hu with hu | hu
        · exact S.settled u hu
        · rw [List.mem_singleton] at hu
          rw [hu]
          exact Or.inr (Or.inr ⟨hk, v, hin, Or.inl hcv⟩)
      | false =>
        obtain ⟨t, f, ht, hf, E, hset⟩ := VisitIf_step vis vis' inst v hc hdef hi hin hcv h
        have hD : ∀ x, x ∈ done ++ [inst] →
            ¬ (vis.graph.inBranch t x = true ∨ vis.graph.inBranch f x = true) := by
          intro x hx hbr
          rw [S.branch_untouched O todo inst t hvo hk (Or.inl ht) x hx,
            S.branch_untouched O todo inst f hvo hk (Or.inr hf) x hx] at hbr
          rcases hbr with hbr | hbr <;> cases hbr
        have hself : inst ∈ done ++ [inst] := List.mem_append_right _ (List.mem_singleton_self _)
        have hvm := InputAt_mem_inputsOf _ inst 0 v hin
        refine ⟨(S.evolves.ev_trans E).mono (fun _ _ => trivial) ?_, ?_⟩
        · intro u hu
          rcases hu with hu | hu
          · exact ⟨List.mem_append_left _ hu.1, hu.2⟩
          · exact absurd hu id
        · intro u hu
          rcases List.mem_append.mp hu with hu | hu
          · exact Settled.frame hev E hdef (S.settled u hu) (hold u hu)
              (fun x hr => absurd hr id) hlast (fun x => x ∈ done ++ [inst]) hD
              (List.mem_append_left _ hu) hDc
          · rw [List.mem_singleton] at hu
            rw [hu]
            have hs : IfSettled vis'.graph inst v t f := by
              apply hset
              intro u hcase
              have hmem : u ∈ done ++ [inst] := by
                rcases hcase with hcase | ⟨hfv, hcase⟩
                · rw [hcase]; exact hself
                · have hvd := hDc inst v hself hvm hfv
                  rcases hcase with hcase | ⟨hcase, hfu⟩
                  · rw [hcase]; exact hvd
                  · exact hDc v u hvd hcase hfu
              have := hD u hmem
              constructor
              · cases hb : vis.graph.inBranch t u with
                | false => rfl
                | true => exact absurd (Or.inl hb) this
              · cases hb : vis.graph.inBranch f u with
                | false => rfl
                | true => exact absurd (Or.inr hb) this
            exact Or.inr (Or.inr ⟨by rw [E.KindOf_eq_old inst hi]; exact hk, v, hs.input,
              Or.inr ⟨t, f, hs⟩⟩)
  · obtain ⟨_, hstep⟩ := Accept_step ev vis vis' inst hk h
    rcases hstep with hg | ⟨hfolds, hfold⟩
    · rw [hg]
      refine ⟨hmono, ?_⟩
      intro u hu
      rcases List.mem_append.mp hu with hu | hu
      · exact S.settled u hu
      · rw [List.mem_singleton] at hu
        rw [hu]
        refine Or.inr (Or.inl ⟨hk, ?_, ?_⟩)
        · unfold HGraph.KindOf
          cases hg1 : vis.graph.GetInstruction inst with
          | none => rw [hg1] at hi; cases hi
          | some i => rfl
        · intro stats
          have := Accept_graph ev vis vis' inst hk h stats
          rw [hg] at this
          exact this
    · obtain ⟨E, hrem⟩ := hfolds
      have hf0 : g0.kindIs InstructionKind.IsFoldable inst = true := by
        rw [← S.evolves.kindIs_eq_old _ inst hi0]; exact hfold
      refine ⟨(S.evolves.ev_trans E).mono (fun _ _ => trivial) ?_, ?_⟩
      · intro u hu
        rcases hu with hu | hu
        · exact ⟨List.mem_append_left _ hu.1, hu.2⟩
        · rw [hu]
          exact ⟨List.mem_append_right _ (List.mem_singleton_self _), hf0⟩
      · intro u hu
        rcases List.mem_append.mp hu with hu | hu
        · exact Settled.frame hev E hdef (S.settled u hu) (hold u hu)
            (fun x hr => by rw [hr]; exact hfold) hlast (fun x => x ∈ done ++ [inst])
            (fun x hx => S.fold_untouched O todo inst hvo hfold x hx)
            (List.mem_append_left _ hu) hDc
        · rw [List.mem_singleton] at hu
          rw [hu]
          exact Or.inl hrem

theorem Swept.start (ev : StaticEvaluator) (g0 : HGraph) : Swept ev g0 g0 [] :=
  ⟨Evolves.ev_refl g0 _ _, fun _ hu => by cases hu⟩

/-- The visits of a stretch of the visiting order keep the invariant of the
sweep. -/
theorem Swept.visit_instructions {ev : StaticEvaluator} (hev : ev.IsLocal) {g0 : HGraph}
    (O : g0.Ordered) :
    ∀ (l done rest : List Nat) (vis vis' : HConstantFoldingVisitor),
      g0.visitOrder = done ++ l ++ rest → Swept ev g0 vis.graph done →
      HConstantFoldingVisitor.visitInstructions ev l vis = some vis' →
      Swept ev g0 vis'.graph (done ++ l) := by
  intro l
  induction l with
  | nil =>
    intro done rest vis vis' _ S h
    unfold HConstantFoldingVisitor.visitInstructions at h
    cases h
    rw [List.append_nil]
    exact S
  | cons inst l ih =>
    intro done rest vis vis' hvo S h
    unfold HConstantFoldingVisitor.visitInstructions at h
    cases h1 : HConstantFoldingVisitor.Accept ev vis inst with
    | none => rw [h1] at h; cases h
    | some vis1 =>
      rw [h1] at h
      simp only at h
      have hvo1 : g0.visitOrder = done ++ inst :: (l ++ rest) := by
        rw [hvo]; simp
      have S1 := Swept.step hev O done (l ++ rest) inst hvo1 vis vis1 S h1
      have := ih (done ++ [inst]) rest vis1 vis' (by rw [hvo]; simp) S1 h
      rw [List.append_assoc] at this
      exact this

/-- The visits of the remaining blocks of the reverse post order keep the
invariant of the sweep: a block is visited with the instruction list it had at
the start. -/
theorem Swept.visit_blocks {ev : StaticEvaluator} (hev : ev.IsLocal) {g0 : HGraph}
    (O : g0.Ordered) :
    ∀ (bl bdone : List Nat) (vis vis' : HConstantFoldingVisitor),
      g0.reverse_post_order = bdone ++ bl →
      Swept ev g0 vis.graph (bdone.map g0.instructionsOf).flatten →
      (bdone = [] → vis.graph = g0) →
      HConstantFoldingVisitor.visitBlocks ev bl vis = some vis' →
      Swept ev g0 vis'.graph g0.visitOrder := by
  intro bl
  induction bl with
  | nil =>
    intro bdone vis vis' hrpo S _ h
    unfold HConstantFoldingVisitor.visitBlocks at h
    cases h
    rw [List.append_nil] at hrpo
    unfold HGraph.visitOrder
    rw [hrpo]
    exact S
  | cons b bl ih =>
    intro bdone vis vis' hrpo S hfirst h
    unfold HConstantFoldingVisitor.visitBlocks at h
    cases h1 : HConstantFoldingVisitor.VisitBasicBlock ev vis b with
    | none => rw [h1] at h; cases h
    | some vis1 =>
      rw [h1] at h
      simp only at h
      have hvo : g0.visitOrder = (bdone.map g0.instructionsOf).flatten ++
          g0.instructionsOf b ++ (bl.map g0.instructionsOf).flatten := by
        unfold HGraph.visitOrder
        rw [hrpo]
        simp
      have hlist : vis.graph.instructionsOf b = g0.instructionsOf b := by
        cases bdone with
        | nil => rw [hfirst rfl]
        | cons b0 bs =>
          have hhead := O.head
          rw [hrpo] at hhead
          simp only [List.cons_append, List.head?_cons, Option.some.injEq] at hhead
          have hnd := O.nodup_blocks
          rw [hrpo] at hnd
          have hne : b ≠ g0.entry_block := by
            intro e
            rw [← hhead] at e
            rw [List.cons_append, List.nodup_cons] at hnd
            exact hnd.1 (by rw [← e]; simp)
          apply S.evolves.lists_frame b hne
          intro u hu hr
          have hn := O.nodup
          rw [hvo, List.append_assoc] at hn
          exact (List.nodup_append.mp hn).2.2 hr.1 (List.mem_append_left _ hu)
      unfold HConstantFoldingVisitor.VisitBasicBlock at h1
      cases hb : vis.graph.GetBlock b with
      | none => rw [hb] at h1; cases h1
      | some blk =>
        rw [hb] at h1
        simp only at h1
        have hblk : blk.instructions = g0.instructionsOf b := by
          rw [← hlist]
          unfold HGraph.instructionsOf
          rw [hb]
        rw [hblk] at h1
        have S1 := Swept.visit_instructions hev O (g0.instructionsOf b) _ _ vis vis1 hvo S h1
        apply ih (bdone ++ [b]) vis1 vis' (by rw [hrpo]; simp) (by simpa using S1)
          (fun e => by simp at e) h

/-- The visits of instructions that are quiet return the graph as it is. -/
theorem quiet_visitInstructions (ev : StaticEvaluator) (g : HGraph) :
    ∀ (l : List Nat) (stats : Option OptimizingCompilerStats), (∀ u ∈ l, Quiet ev g u) →
      ∃ stats', HConstantFoldingVisitor.visitInstructions ev l { graph := g, stats := stats } =
        some { graph := g, stats := stats' } := by
  intro l
  induction l with
  | nil => exact fun stats _ => ⟨stats, rfl⟩
  | cons inst l ih =>
    intro stats hq
    obtain ⟨s1, h1⟩ := hq inst (List.mem_cons_self _ _) stats
    obtain ⟨s2, h2⟩ := ih s1 (fun u hu => hq u (List.mem_cons_of_mem _ hu))
    refine ⟨s2, ?_⟩
    unfold HConstantFoldingVisitor.visitInstructions
    rw [h1]
    exact h2

theorem quiet_visitBlocks (ev : StaticEvaluator) (g : HGraph) :
    ∀ (bl : List Nat) (stats : Option OptimizingCompilerStats),
      (∀ b ∈ bl, (g.GetBlock b).isSome = true ∧ ∀ u ∈ g.instructionsOf b, Quiet ev g u) →
      ∃ stats', HConstantFoldingVisitor.visitBlocks ev bl { graph := g, stats := stats } =
        some { graph := g, stats := stats' } := by
  intro bl
  induction bl with
  | nil => exact fun stats _ => ⟨stats, rfl⟩
  | cons b bl ih =>
    intro stats hq
    obtain ⟨hb, hqb⟩ := hq b (List.mem_cons_self _ _)
    cases hblk : g.GetBlock b with
    | none => rw [hblk] at hb; cases hb
    | some blk =>
      have hl : g.instructionsOf b = blk.instructions := by
        unfold HGraph.instructionsOf
        rw [hblk]
      rw [hl] at hqb
      obtain ⟨s1, h1⟩ := quiet_visitInstructions ev g blk.instructions stats hqb
      obtain ⟨s2, h2⟩ := ih s1 (fun b' hb' => hq b' (List.mem_cons_of_mem _ hb'))
      refine ⟨s2, ?_⟩
      unfold HConstantFoldingVisitor.visitBlocks HConstantFoldingVisitor.VisitBasicBlock
      simp only [hblk, h1]
      exact h2

/-- The visit of a constant is empty. -/
theorem Quiet_of_constant (ev : StaticEvaluator) (g : HGraph) (u : Nat) (i : HInstruction)
    (hi : g.GetInstruction u = some i) (hk : i.kind.IsConstant = true) : Quiet ev g u := by
  intro stats
  refine ⟨stats, ?_⟩
  have hkind : g.KindOf u = some i.kind := by simp [HGraph.KindOf, hi]
  have hnf : i.kind.IsFoldable = false := by
    cases hf : i.kind.IsFoldable with
    | false => rfl
    | true =>
      rw [IsFoldable_not_IsConstant _ hf] at hk
      cases hk
  rw [IsFoldable_eq] at hnf
  simp only [Bool.or_eq_false_iff, decide_eq_false_iff_not] at hnf
  obtain ⟨⟨⟨h1, h2⟩, h3⟩, h4⟩ := hnf
  have h5 : i.kind ≠ InstructionKind.If := by
    intro e
    rw [e] at hk
    cases hk
  rw [Accept_eq ev _ u i.kind hkind]
  simp only [h1, h2, Bool.false_eq_true, if_false, if_neg h3, if_neg h4, if_neg h5]

theorem exampleEvaluator_IsLocal : StaticEvaluator.IsLocal exampleEvaluator := by
  intro g g' inst hself hops
  have hk : g'.KindOf inst = g.KindOf inst := by
    unfold HGraph.KindOf
    rw [hself]
  have hin : g'.InputAt inst 0 = g.InputAt inst 0 := by
    unfold HGraph.InputAt
    rw [hself]
  have hik : (g'.InputAt inst 0).bind g'.KindOf = (g.InputAt inst 0).bind g.KindOf := by
    rw [hin]
    cases hx : g.InputAt inst 0 with
    | none => rfl
    | some x => exact (hops x (InputAt_mem_inputsOf g inst 0 x hx)).1
  unfold exampleEvaluator
  rw [hk, hik]

/-- The second sweep over the graph that the first sweep produced returns it
unchanged. -/
theorem VisitReversePostOrder_twice (ev : StaticEvaluator) (hev : ev.IsLocal) (g : HGraph)
    (stats : Option OptimizingCompilerStats) (vis : HConstantFoldingVisitor)
    (hwf : g.WellFormed = true)
    (h : HConstantFoldingVisitor.VisitReversePostOrder ev { graph := g, stats := stats } =
      some vis) :
    ∃ stats', HConstantFoldingVisitor.VisitReversePostOrder ev vis =
      some { graph := vis.graph, stats := stats' } := by
  have O := WellFormed_ordered g hwf
  unfold HConstantFoldingVisitor.VisitReversePostOrder at h
  have S : Swept ev g vis.graph g.visitOrder :=
    Swept.visit_blocks hev O g.reverse_post_order [] { graph := g, stats := stats } vis rfl
      (Swept.start ev g) (fun _ => rfl) h
  have hc := S.evolves.cons O.consistent
  unfold HConstantFoldingVisitor.VisitReversePostOrder
  rw [S.evolves.rpo]
  obtain ⟨g1, s1⟩ := vis
  apply quiet_visitBlocks ev g1 g.reverse_post_order s1
  intro b hb
  refine ⟨S.evolves.block_some b (O.terminated b hb).1, ?_⟩
  intro u hu
  have hblk := (hc b u hu).1
  rcases S.evolves.lists b u hu with hu0 | hnew
  · have huv : u ∈ g.visitOrder := (mem_visitOrder g u).mpr ⟨b, hb, hu0⟩
    exact (S.settled u huv).quiet hc (by rw [hblk]; rfl)
  · have hnone : g.GetInstruction u = none := by
      unfold HGraph.GetInstruction
      exact List.getElem?_eq_none hnew
    cases hi : g1.GetInstruction u with
    | none =>
      have := isSome_of_BlockOf g1 u b hblk
      rw [hi] at this
      cases this
    | some i => exact Quiet_of_constant ev g1 u i hi (S.evolves.fresh u i hnone hi).2

/-- C18: constant folding is idempotent.  For every well-formed graph `g`
(the reverse post order and the instruction lists are consistent, an operation
is defined before it is used, and what a successor of an If dominates comes
after the If) and every evaluator that looks only at an instruction and at the
kinds and types of its inputs, HConstantFolding::Run on the graph that
HConstantFolding::Run produced from `g` returns, and returns that graph
unchanged: no instruction is replaced or removed and no use is rewritten in the
second run. -/
theorem HConstantFolding_Run_idempotent (ev : StaticEvaluator) (hev : ev.IsLocal) (g : HGraph)
    (stats : Option OptimizingCompilerStats) (vis : HConstantFoldingVisitor)
    (hwf : g.WellFormed = true)
    (h : HConstantFolding.Run ev g stats = some (vis, true)) :
    ∃ stats', HConstantFolding.Run ev vis.graph vis.stats =
      some ({ graph := vis.graph, stats := stats' }, true) := by
  unfold HConstantFolding.Run at h
  cases h1 : HConstantFoldingVisitor.VisitReversePostOrder ev
      { graph := g, stats := stats } with
  | none => rw [h1] at h; cases h
  | some vis1 =>
    rw [h1] at h
    simp only [Option.map_some', Option.some.injEq, Prod.mk.injEq, and_true] at h
    subst h
    obtain ⟨stats', h2⟩ := VisitReversePostOrder_twice ev hev g stats vis1 hwf h1
    refine ⟨stats', ?_⟩
    unfold HConstantFolding.Run
    rw [h2]
    rfl

theorem HConstantFolding_Run_idempotent_witness :
    exampleFoldedIf.WellFormed = true ∧
    ∃ vis, HConstantFolding.Run exampleEvaluator exampleFoldedIf none = some (vis, true) ∧
      vis.graph.BlockOf 3 = none ∧ vis.graph.InputAt 6 1 = some 13 ∧
      ∃ stats', HConstantFolding.Run exampleEvaluator vis.graph vis.stats =
        some ({ graph := vis.graph, stats := stats' }, true) :=
  ⟨by decide, _, rfl, rfl, rfl,
    HConstantFolding_Run_idempotent exampleEvaluator exampleEvaluator_IsLocal exampleFoldedIf
      none _ (by decide) rfl⟩

/-! ## Graph mutation primitives: what they leave alone -/

theorem getD_modify_map (l : List (Option HBasicBlock)) (f : HBasicBlock → HBasicBlock)
    (b id : Nat) :
    (l.modify (Option.map f) b).getD id none =
      if b = id then (l.getD id none).map f else l.getD id none := by
  simp only [List.getD_eq_getElem?_getD, List.getElem?_modify]
  cases h : l[id]? with
  | none => by_cases hb : b = id <;> simp [hb]
  | some ob => by_cases hb : b = id <;> simp [hb]

theorem shapeOf_eq_of_GetBlock (g g' : HGraph) (b : Nat) (f : HBasicBlock → HBasicBlock)
    (hf : ∀ blk, (f blk).phis = blk.phis ∧ (f blk).predecessors = blk.predecessors ∧
      (f blk).successors = blk.successors ∧ (f blk).loop_information = blk.loop_information ∧
      (f blk).try_catch_information = blk.try_catch_information ∧
      (f blk).is_catch_block = blk.is_catch_block)
    (h : g'.GetBlock b = (g.GetBlock b).map f) : g'.shapeOf b = g.shapeOf b := by
  unfold HGraph.shapeOf
  rw [h]
  cases g.GetBlock b with
  | none => rfl
  | some blk =>
    obtain ⟨h1, h2, h3, h4, h5, h6⟩ := hf blk
    simp [h1, h2, h3, h4, h5, h6]

theorem successorsOf_of_shapeOf (g g' : HGraph) (b : Nat) (h : g'.shapeOf b = g.shapeOf b) :
    g'.successorsOf b = g.successorsOf b := by
  unfold HGraph.shapeOf at h
  unfold HGraph.successorsOf
  cases h1 : g'.GetBlock b <;> cases h2 : g.GetBlock b <;> rw [h1, h2] at h <;>
    simp at h ⊢
  exact h.2.2.1

theorem predecessorsOf_of_shapeOf (g g' : HGraph) (b : Nat) (h : g'.shapeOf b = g.shapeOf b) :
    g'.predecessorsOf b = g.predecessorsOf b := by
  unfold HGraph.shapeOf at h
  unfold HGraph.predecessorsOf
  cases h1 : g'.GetBlock b <;> cases h2 : g.GetBlock b <;> rw [h1, h2] at h <;>
    simp at h ⊢
  exact h.2.1

theorem HasTryCatchInformation_of_shapeOf (g g' : HGraph) (b : Nat)
    (h : g'.shapeOf b = g.shapeOf b) :
    g'.HasTryCatchInformation b = g.HasTryCatchInformation b := by
  unfold HGraph.shapeOf at h
  unfold HGraph.HasTryCatchInformation
  cases h1 : g'.GetBlock b <;> cases h2 : g.GetBlock b <;> rw [h1, h2] at h <;>
    simp at h ⊢
  rw [h.2.2.2.2.1, h.2.2.2.2.2]

theorem isSome_of_shapeOf (g g' : HGraph) (b : Nat) (h : g'.shapeOf b = g.shapeOf b) :
    (g'.GetBlock b).isSome = (g.GetBlock b).isSome := by
  unfold HGraph.shapeOf at h
  cases h1 : g'.GetBlock b <;> cases h2 : g.GetBlock b <;> rw [h1, h2] at h <;>
    simp at h ⊢

theorem phis_of_shapeOf (g g' : HGraph) (b : Nat) (h : g'.shapeOf b = g.shapeOf b) :
    (g'.GetBlock b).map (·.phis) = (g.GetBlock b).map (·.phis) := by
  unfold HGraph.shapeOf at h
  cases h1 : g'.GetBlock b <;> cases h2 : g.GetBlock b <;> rw [h1, h2] at h <;>
    simp at h ⊢
  exact h.1

theorem shapeOf_RemoveInstruction (g : HGraph) (block_id inst b : Nat) :
    (g.RemoveInstruction block_id inst).shapeOf b = g.shapeOf b := by
  by_cases hb : block_id = b
  · exact shapeOf_eq_of_GetBlock g _ b
      (fun blk => { blk with instructions := blk.instructions.filter (fun i => i ≠ inst) })
      (fun _ => ⟨rfl, rfl, rfl, rfl, rfl, rfl⟩)
      (by rw [GetBlock_RemoveInstruction]; simp [hb])
  · exact shapeOf_eq_of_GetBlock g _ b id (fun _ => ⟨rfl, rfl, rfl, rfl, rfl, rfl⟩)
      (by rw [GetBlock_RemoveInstruction]; simp [hb])

theorem GetBlock_ReplaceWith (g : HGraph) (inst other b : Nat) :
    (g.ReplaceWith inst other).GetBlock b = g.GetBlock b := rfl

theorem shapeOf_ReplaceWith (g : HGraph) (inst other b : Nat) :
    (g.ReplaceWith inst other).shapeOf b = g.shapeOf b := rfl

theorem GetBlock_InsertInstructionFirst (g : HGraph) (block : Nat) (i : HInstruction)
    (b : Nat) :
    (g.InsertInstructionFirst block i).1.GetBlock b =
      if block = b then
        (g.GetBlock b).map (fun blk =>
          { blk with instructions := g.instructions.length :: blk.instructions })
      else g.GetBlock b := by
  simp only [HGraph.GetBlock, HGraph.InsertInstructionFirst]
  exact getD_modify_map _ _ _ _

theorem shapeOf_InsertInstructionFirst (g : HGraph) (block : Nat) (i : HInstruction) (b : Nat) :
    (g.InsertInstructionFirst block i).1.shapeOf b = g.shapeOf b := by
  by_cases hb : block = b
  · exact shapeOf_eq_of_GetBlock g _ b
      (fun blk => { blk with instructions := g.instructions.length :: blk.instructions })
      (fun _ => ⟨rfl, rfl, rfl, rfl, rfl, rfl⟩)
      (by rw [GetBlock_InsertInstructionFirst, if_pos hb])
  · exact shapeOf_eq_of_GetBlock g _ b id (fun _ => ⟨rfl, rfl, rfl, rfl, rfl, rfl⟩)
      (by rw [GetBlock_InsertInstructionFirst, if_neg hb]; simp)

theorem instructionsOf_InsertInstructionFirst (g : HGraph) (block : Nat) (i : HInstruction)
    (b : Nat) :
    (g.InsertInstructionFirst block i).1.instructionsOf b =
      if block = b ∧ (g.GetBlock b).isSome = true then
        g.instructions.length :: g.instructionsOf b
      else g.instructionsOf b := by
  unfold HGraph.instructionsOf
  rw [GetBlock_InsertInstructionFirst]
  by_cases hb : block = b
  · cases h : g.GetBlock b <;> simp [hb, h]
  · simp [hb]

theorem GetInstruction_InsertInstructionFirst (g : HGraph) (block : Nat) (i : HInstruction)
    (u : Nat) :
    (g.InsertInstructionFirst block i).1.GetInstruction u =
      if u = g.instructions.length then some { i with block := some block }
      else g.GetInstruction u := by
  simp only [HGraph.GetInstruction, HGraph.InsertInstructionFirst]
  by_cases hu : u = g.instructions.length
  · rw [if_pos hu, hu]
    simp
  · rw [if_neg hu]
    rcases Nat.lt_or_gt_of_ne hu with hlt | hgt
    · rw [List.getElem?_append_left hlt]
    · rw [List.getElem?_eq_none (by simp; omega), List.getElem?_eq_none (by omega)]

theorem GetBlock_ReplaceSuccessor_shape (g : HGraph) (block existing new_block b : Nat)
    (hb : b ≠ block) :
    (g.ReplaceSuccessor block existing new_block).successorsOf b = g.successorsOf b := by
  rw [successorsOf_ReplaceSuccessor, if_neg hb]

theorem HasTryCatchInformation_ReplaceSuccessor (g : HGraph) (block existing new_block b : Nat) :
    (g.ReplaceSuccessor block existing new_block).HasTryCatchInformation b =
      g.HasTryCatchInformation b := by
  unfold HGraph.HasTryCatchInformation
  rw [GetBlock_ReplaceSuccessor]
  cases g.GetBlock b with
  | none => rfl
  | some blk =>
    simp only [Option.map_some']
    by_cases h1 : existing = b <;> by_cases h2 : new_block = b <;> by_cases h3 : block = b <;>
      simp [h1, h2, h3]

theorem instructionsOf_ReplaceSuccessor (g : HGraph) (block existing new_block b : Nat) :
    (g.ReplaceSuccessor block existing new_block).instructionsOf b = g.instructionsOf b := by
  unfold HGraph.instructionsOf
  rw [GetBlock_ReplaceSuccessor]
  cases g.GetBlock b with
  | none => rfl
  | some blk =>
    simp only [Option.map_some']
    by_cases h1 : existing = b <;> by_cases h2 : new_block = b <;> by_cases h3 : block = b <;>
      simp [h1, h2, h3]

theorem GetBlock_isSome_ReplaceSuccessor (g : HGraph) (block existing new_block b : Nat) :
    ((g.ReplaceSuccessor block existing new_block).GetBlock b).isSome = (g.GetBlock b).isSome := by
  rw [GetBlock_ReplaceSuccessor]
  cases g.GetBlock b <;> rfl

/-! ## RemoveDeadInstructions -/

theorem DefinedBeforeUse_sweepable (g : HGraph) (h : g.DefinedBeforeUse = true) :
    g.Sweepable := by
  unfold HGraph.DefinedBeforeUse at h
  simp only [Bool.and_eq_true, beq_iff_eq, decide_eq_true_eq, List.all_eq_true,
    List.mem_range, Bool.or_eq_true, Bool.not_eq_true', decide_eq_false_iff_not] at h
  obtain ⟨⟨⟨h1, h2⟩, h3⟩, h4⟩ := h
  refine ⟨h1, ?_, ?_, fun b hb => (h3 b hb).1, ?_, ?_⟩
  · intro b hb
    rcases (h2 b (GetBlock_isSome_lt g b hb)).1 with hn | hm
    · rw [hb] at hn; cases hn
    · exact hm
  · intro b u hu
    by_cases hb : b < g.blocks.length
    · exact (h2 b hb).2 u hu
    · rw [instructionsOf_of_not_lt g b hb] at hu
      cases hu
  · intro b hb x hx
    have := (h3 b hb).2
    rw [hx] at this
    simpa using this
  · intro w hw x hx hxv
    rcases h4 w hw x hx with hn | hp
    · exact absurd hxv hn
    · exact hp

theorem sum_ne_zero_exists (l : List Nat) (h : l.sum ≠ 0) : ∃ n ∈ l, n ≠ 0 := by
  induction l with
  | nil => exact absurd rfl h
  | cons x xs ih =>
    by_cases hx : x = 0
    · rw [List.sum_cons, hx, Nat.zero_add] at h
      obtain ⟨n, hn, hn0⟩ := ih h
      exact ⟨n, List.mem_cons_of_mem _ hn, hn0⟩
    · exact ⟨x, List.mem_cons_self _ _, hx⟩

theorem sum_ne_zero_of_mem (l : List Nat) (n : Nat) (hn : n ∈ l) (h0 : n ≠ 0) : l.sum ≠ 0 := by
  induction l with
  | nil => cases hn
  | cons x xs ih =>
    rw [List.sum_cons]
    rcases List.mem_cons.mp hn with e | hm
    · subst e
      omega
    · have := ih hm
      omega

/-- An instruction has a use exactly when an instruction that is in a block
has it among its inputs. -/
theorem NumUses_ne_zero_iff (g : HGraph) (v : Nat) :
    g.NumUses v ≠ 0 ↔ ∃ w, (g.BlockOf w).isSome = true ∧ v ∈ g.inputsOf w := by
  unfold HGraph.NumUses
  constructor
  · intro h
    obtain ⟨n, hn, hn0⟩ := sum_ne_zero_exists _ h
    obtain ⟨i, hi, rfl⟩ := List.mem_map.mp hn
    obtain ⟨him, hib⟩ := List.mem_filter.mp hi
    obtain ⟨w, hw, hget⟩ := List.getElem_of_mem him
    refine ⟨w, ?_, ?_⟩
    · simp only [HGraph.BlockOf, HGraph.GetInstruction, List.getElem?_eq_getElem hw, hget,
        Option.some_bind]
      exact hib
    · simp only [HGraph.inputsOf, HGraph.GetInstruction, List.getElem?_eq_getElem hw, hget]
      exact List.count_pos_iff.mp (Nat.pos_of_ne_zero hn0)
  · rintro ⟨w, hb, hv⟩
    cases hi : g.GetInstruction w with
    | none => simp [HGraph.BlockOf, hi] at hb
    | some i =>
      simp only [HGraph.BlockOf, hi, Option.some_bind] at hb
      simp only [HGraph.inputsOf, hi] at hv
      apply sum_ne_zero_of_mem _ (i.inputs.count v)
      · refine List.mem_map.mpr ⟨i, List.mem_filter.mpr ⟨?_, hb⟩, rfl⟩
        unfold HGraph.GetInstruction at hi
        exact List.getElem?_mem hi
      · exact Nat.pos_iff_ne_zero.mp (List.count_pos_iff.mpr hv)

theorem IsDeadAndRemovable_eq_false_iff (g : HGraph) (u : Nat) :
    g.IsDeadAndRemovable u = false ↔
      g.kindIs InstructionKind.IsRemovable u = false ∨
      ∃ w, (g.BlockOf w).isSome = true ∧ u ∈ g.inputsOf w := by
  rw [← NumUses_ne_zero_iff]
  unfold HGraph.IsDeadAndRemovable
  cases g.kindIs InstructionKind.IsRemovable u <;> simp

theorem inputsOf_RemoveInstruction (g : HGraph) (block_id inst id : Nat) :
    (g.RemoveInstruction block_id inst).inputsOf id = g.inputsOf id := by
  simp only [HGraph.inputsOf, GetInstruction_RemoveInstruction]
  cases g.GetInstruction id with
  | none => rfl
  | some u => simp only [Option.map_some']; split <;> rfl

theorem BlockOf_RemoveInstruction (g : HGraph) (block_id inst id : Nat) :
    (g.RemoveInstruction block_id inst).BlockOf id =
      if inst = id then none else g.BlockOf id := by
  simp only [HGraph.BlockOf, GetInstruction_RemoveInstruction]
  cases g.GetInstruction id with
  | none => simp
  | some u =>
    simp only [Option.map_some', Option.some_bind]
    split <;> rfl

theorem GetBlock_isSome_RemoveInstruction (g : HGraph) (block_id inst b : Nat) :
    ((g.RemoveInstruction block_id inst).GetBlock b).isSome = (g.GetBlock b).isSome := by
  rw [GetBlock_RemoveInstruction]
  cases g.GetBlock b <;> rfl

theorem SweptDead.dead_start (g0 : HGraph) : SweptDead g0 g0 [] where
  rpo := rfl
  block_some := fun _ => rfl
  kind := fun _ => rfl
  inputs := fun _ => rfl
  block := fun _ => Or.inl rfl
  lists := fun _ _ h => ⟨h, rfl⟩
  lists_frame := fun _ _ => rfl
  alive := fun _ h => by cases h

theorem HGraph.Sweepable.sweep_block_of {g : HGraph} (O : g.Sweepable) (u : Nat)
    (hu : u ∈ g.visitOrder) :
    ∃ b ∈ g.reverse_post_order, u ∈ g.instructionsOf b ∧ g.BlockOf u = some b := by
  obtain ⟨b, hb, hub⟩ := (mem_visitOrder g u).mp hu
  exact ⟨b, hb, hub, O.member b u hub⟩

theorem kindIs_of_KindOf_eq (g g' : HGraph) (p : InstructionKind → Bool) (u : Nat)
    (h : g'.KindOf u = g.KindOf u) : g'.kindIs p u = g.kindIs p u := by
  simp only [HGraph.kindIs, h]

/-- The last instruction of a block is passed over: it is not removable. -/
theorem SweptDead.skip {g0 g : HGraph} (O : g0.Sweepable) (seen : List Nat) (x b : Nat)
    (hb : b ∈ g0.reverse_post_order) (hx : (g0.instructionsOf b).getLast? = some x)
    (S : SweptDead g0 g seen) : SweptDead g0 g (x :: seen) where
  rpo := S.rpo
  block_some := S.block_some
  kind := S.kind
  inputs := S.inputs
  block := fun u => by
    rcases S.block u with h | ⟨hs, h⟩
    · exact Or.inl h
    · exact Or.inr ⟨List.mem_cons_of_mem _ hs, h⟩
  lists := S.lists
  lists_frame := fun b' h => S.lists_frame b' (fun u hu hs => h u hu (List.mem_cons_of_mem _ hs))
  alive := fun u hu hbu => by
    rcases List.mem_cons.mp hu with e | hs
    · left
      rw [e, kindIs_of_KindOf_eq g0 g _ x (S.kind x)]
      exact O.terminated b hb x hx
    · rcases S.alive u hs hbu with h | ⟨w, hw, huw, hws⟩
      · exact Or.inl h
      · exact Or.inr ⟨w, hw, huw, fun hv => List.mem_cons_of_mem _ (hws hv)⟩

/-- One test of the sweep: the instruction is removed when it is dead, and
otherwise has a user that the rest of the sweep does not visit. -/
theorem SweptDead.dead_step {g0 : HGraph} (O : g0.Sweepable) (todo seen : List Nat) (u b : Nat)
    (hvo : g0.visitOrder = todo ++ u :: seen) (hub : g0.BlockOf u = some b)
    (dce : HDeadCodeElimination) (S : SweptDead g0 dce.graph seen) :
    SweptDead g0 (RemoveDeadInstructions.step b dce u).graph (u :: seen) := by
  have huv : u ∈ g0.visitOrder := by
    rw [hvo]; exact List.mem_append_right _ (List.mem_cons_self _ _)
  have hnd := O.nodup
  rw [hvo] at hnd
  have hus : u ∉ seen := by
    have := (List.nodup_append.mp hnd).2.1
    exact (List.nodup_cons.mp this).1
  unfold RemoveDeadInstructions.step
  by_cases hdead : dce.graph.IsDeadAndRemovable u = true
  · rw [if_pos hdead]
    simp only
    refine ⟨S.rpo, ?_, ?_, ?_, ?_, ?_, ?_, ?_⟩
    · intro b'
      rw [GetBlock_isSome_RemoveInstruction]
      exact S.block_some b'
    · intro w
      rw [KindOf_RemoveInstruction]
      exact S.kind w
    · intro w
      rw [inputsOf_RemoveInstruction]
      exact S.inputs w
    · intro w
      rw [BlockOf_RemoveInstruction]
      by_cases huw : u = w
      · rw [if_pos huw]
        exact Or.inr ⟨by rw [← huw]; exact List.mem_cons_self _ _, rfl⟩
      · rw [if_neg huw]
        rcases S.block w with h | ⟨hs, h⟩
        · exact Or.inl h
        · exact Or.inr ⟨List.mem_cons_of_mem _ hs, h⟩
    · intro b' w hw
      rw [instructionsOf_RemoveInstruction] at hw
      have hmem : w ∈ dce.graph.instructionsOf b' ∧ w ≠ u := by
        by_cases hbb : b = b'
        · rw [if_pos hbb] at hw
          have := List.mem_filter.mp hw
          exact ⟨this.1, by simpa using this.2⟩
        · rw [if_neg hbb] at hw
          refine ⟨hw, ?_⟩
          intro e
          have h1 := O.member b' w (S.lists b' w hw).1
          rw [e, hub] at h1
          exact hbb (Option.some.inj h1)
      obtain ⟨h1, h2⟩ := S.lists b' w hmem.1
      refine ⟨h1, ?_⟩
      rw [BlockOf_RemoveInstruction, if_neg (fun e => hmem.2 e.symm)]
      exact h2
    · intro b' hb'
      rw [instructionsOf_RemoveInstruction]
      have hbb : b ≠ b' := by
        intro e
        obtain ⟨b2, _, hu2, hb2⟩ := O.sweep_block_of u huv
        rw [hub] at hb2
        have : b2 = b' := by rw [← e]; exact (Option.some.inj hb2).symm
        rw [this] at hu2
        exact hb' u hu2 (List.mem_cons_self _ _)
      rw [if_neg hbb]
      exact S.lists_frame b' (fun w hw hs => hb' w hw (List.mem_cons_of_mem _ hs))
    · intro v hv hbv
      rw [BlockOf_RemoveInstruction] at hbv
      have hvu : ¬ u = v := by
        intro e
        rw [if_pos e] at hbv
        cases hbv
      rw [if_neg hvu] at hbv
      have hvs : v ∈ seen := by
        rcases List.mem_cons.mp hv with e | hs
        · exact absurd e.symm hvu
        · exact hs
      rcases S.alive v hvs hbv with h | ⟨w, hw, hvw, hws⟩
      · left
        rw [kindIs_of_KindOf_eq _ _ _ v (KindOf_RemoveInstruction _ _ _ _)]
        exact h
      · right
        have hwu : ¬ u = w := by
          intro e
          rw [← e] at hws
          exact hus (hws huv)
        refine ⟨w, ?_, ?_, fun hwv => List.mem_cons_of_mem _ (hws hwv)⟩
        · rw [BlockOf_RemoveInstruction, if_neg hwu]
          exact hw
        · rw [inputsOf_RemoveInstruction]
          exact hvw
  · rw [if_neg hdead]
    refine ⟨S.rpo, S.block_some, S.kind, S.inputs, ?_, S.lists, ?_, ?_⟩
    · intro w
      rcases S.block w with h | ⟨hs, h⟩
      · exact Or.inl h
      · exact Or.inr ⟨List.mem_cons_of_mem _ hs, h⟩
    · intro b' h
      exact S.lists_frame b' (fun w hw hs => h w hw (List.mem_cons_of_mem _ hs))
    · intro v hv hbv
      rcases List.mem_cons.mp hv with e | hs
      · subst e
        have hnot : dce.graph.IsDeadAndRemovable v = false := by
          cases hd : dce.graph.IsDeadAndRemovable v with
          | false => rfl
          | true => exact absurd hd hdead
        rcases (IsDeadAndRemovable_eq_false_iff _ _).mp hnot with h | ⟨w, hw, hvw⟩
        · exact Or.inl h
        · refine Or.inr ⟨w, hw, hvw, ?_⟩
          intro hwv
          rw [S.inputs w] at hvw
          have hp := O.ordered w hwv v hvw huv
          rw [hvo] at hp hwv
          have hnot := not_mem_of_precedes todo seen v w hnd hp
          rcases List.mem_append.mp hwv with h1 | h1
          · exact absurd (List.mem_append_left _ h1) hnot
          · rcases List.mem_cons.mp h1 with h2 | h2
            · exact absurd (List.mem_append_right _ (by rw [h2]; simp)) hnot
            · exact List.mem_cons_of_mem _ h2
      · rcases S.alive v hs hbv with h | ⟨w, hw, hvw, hws⟩
        · exact Or.inl h
        · exact Or.inr ⟨w, hw, hvw, fun hwv => List.mem_cons_of_mem _ (hws hwv)⟩

/-- The sweep over the instructions of a block before its last one. -/
theorem SweptDead.sweep_list {g0 : HGraph} (O : g0.Sweepable) (b : Nat) :
    ∀ (l todo seen : List Nat) (dce : HDeadCodeElimination),
      g0.visitOrder = todo ++ l ++ seen → (∀ u ∈ l, g0.BlockOf u = some b) →
      SweptDead g0 dce.graph seen →
      SweptDead g0 (l.foldr (fun u d => RemoveDeadInstructions.step b d u) dce).graph
        (l ++ seen) := by
  intro l
  induction l with
  | nil => intro todo seen dce _ _ S; exact S
  | cons u t ih =>
    intro todo seen dce hvo hb S
    have S1 := ih (todo ++ [u]) seen dce (by rw [hvo]; simp)
      (fun w hw => hb w (List.mem_cons_of_mem _ hw)) S
    exact SweptDead.dead_step O todo (t ++ seen) u b (by rw [hvo]; simp)
      (hb u (List.mem_cons_self _ _)) _ S1

theorem reverse_drop_one_foldl {σ : Type} (f : σ → Nat → σ) (l : List Nat) (a : σ) :
    (l.reverse.drop 1).foldl f a = l.dropLast.foldr (fun u d => f d u) a := by
  rcases List.eq_nil_or_concat l with h | ⟨l', x, h⟩
  · subst h; rfl
  · subst h
    simp [List.foldl_reverse]

theorem dropLast_append_getLast? (l : List Nat) (x : Nat) (h : l.getLast? = some x) :
    l = l.dropLast ++ [x] := by
  rcases List.eq_nil_or_concat l with e | ⟨l', y, e⟩
  · subst e; cases h
  · subst e
    simp at h
    simp [h]

/-- The visit of a block by the sweep. -/
theorem SweptDead.visit_block {g0 : HGraph} (O : g0.Sweepable) (todo seen : List Nat) (b : Nat)
    (hb : b ∈ g0.reverse_post_order)
    (hvo : g0.visitOrder = todo ++ g0.instructionsOf b ++ seen)
    (dce : HDeadCodeElimination) (S : SweptDead g0 dce.graph seen) :
    ∃ dce', RemoveDeadInstructions.visitBlock dce b = some dce' ∧
      SweptDead g0 dce'.graph (g0.instructionsOf b ++ seen) := by
  have hsome : (dce.graph.GetBlock b).isSome = true := by
    rw [S.block_some]; exact O.block_some b hb
  have hnd := O.nodup
  rw [hvo] at hnd
  have hlist : dce.graph.instructionsOf b = g0.instructionsOf b := by
    apply S.lists_frame
    intro u hu hs
    exact (List.nodup_append.mp hnd).2.2 (List.mem_append_right _ hu) hs
  unfold RemoveDeadInstructions.visitBlock
  cases hblk : dce.graph.GetBlock b with
  | none => rw [hblk] at hsome; cases hsome
  | some blk =>
    have hl : blk.instructions = g0.instructionsOf b := by
      rw [← hlist]
      unfold HGraph.instructionsOf
      rw [hblk]
    refine ⟨_, rfl, ?_⟩
    rw [hl, reverse_drop_one_foldl]
    cases hlast : (g0.instructionsOf b).getLast? with
    | none =>
      have hnil : g0.instructionsOf b = [] := List.getLast?_eq_none_iff.mp hlast
      rw [hnil]
      exact S
    | some x =>
      have hsplit := dropLast_append_getLast? _ x hlast
      have S1 := SweptDead.skip O seen x b hb hlast S
      have hvo1 : g0.visitOrder = todo ++ (g0.instructionsOf b).dropLast ++ (x :: seen) := by
        rw [hvo]
        nth_rewrite 1 [hsplit]
        simp
      have S2 := SweptDead.sweep_list O b (g0.instructionsOf b).dropLast todo (x :: seen) dce
        hvo1 (fun u hu => O.member b u (List.mem_of_mem_dropLast hu)) S1
      have he : (g0.instructionsOf b).dropLast ++ x :: seen = g0.instructionsOf b ++ seen := by
        nth_rewrite 2 [hsplit]
        simp
      rw [he] at S2
      exact S2

/-- The sweep over the remaining blocks of the post order. -/
theorem SweptDead.dead_visit_blocks {g0 : HGraph} (O : g0.Sweepable) :
    ∀ (bl bseen : List Nat) (dce : HDeadCodeElimination),
      g0.reverse_post_order = bl.reverse ++ bseen →
      SweptDead g0 dce.graph (bseen.map g0.instructionsOf).flatten →
      ∃ dce', iterate RemoveDeadInstructions.visitBlock bl dce = some dce' ∧
        SweptDead g0 dce'.graph g0.visitOrder := by
  intro bl
  induction bl with
  | nil =>
    intro bseen dce hrpo S
    refine ⟨dce, rfl, ?_⟩
    unfold HGraph.visitOrder
    rw [hrpo]
    exact S
  | cons b bl ih =>
    intro bseen dce hrpo S
    have hrpo1 : g0.reverse_post_order = bl.reverse ++ (b :: bseen) := by
      rw [hrpo]; simp
    have hb : b ∈ g0.reverse_post_order := by rw [hrpo1]; simp
    have hvo : g0.visitOrder = (bl.reverse.map g0.instructionsOf).flatten ++
        g0.instructionsOf b ++ (bseen.map g0.instructionsOf).flatten := by
      unfold HGraph.visitOrder
      rw [hrpo1]
      simp
    obtain ⟨dce1, h1, S1⟩ := SweptDead.visit_block O _ _ b hb hvo dce S
    obtain ⟨dce2, h2, S2⟩ := ih (b :: bseen) dce1 hrpo1 (by simpa using S1)
    refine ⟨dce2, ?_, S2⟩
    unfold iterate
    rw [h1]
    exact h2

/-- A sweep that finds no dead instruction changes nothing. -/
theorem RemoveDeadInstructions_of_none_dead (dce : HDeadCodeElimination) :
    ∀ bl : List Nat,
      (∀ b ∈ bl, (dce.graph.GetBlock b).isSome = true ∧
        ∀ u ∈ dce.graph.instructionsOf b, dce.graph.IsDeadAndRemovable u = false) →
      iterate RemoveDeadInstructions.visitBlock bl dce = some dce := by
  intro bl
  induction bl with
  | nil => intro _; rfl
  | cons b bl ih =>
    intro h
    obtain ⟨hb, hall⟩ := h b (List.mem_cons_self _ _)
    have hstep : RemoveDeadInstructions.visitBlock dce b = some dce := by
      unfold RemoveDeadInstructions.visitBlock
      cases hblk : dce.graph.GetBlock b with
      | none => rw [hblk] at hb; cases hb
      | some blk =>
        have hl : dce.graph.instructionsOf b = blk.instructions := by
          unfold HGraph.instructionsOf
          rw [hblk]
        rw [hl] at hall
        have hfold : ∀ l : List Nat, (∀ u ∈ l, dce.graph.IsDeadAndRemovable u = false) →
            l.foldl (RemoveDeadInstructions.step b) dce = dce := by
          intro l
          induction l with
          | nil => intro _; rfl
          | cons u t iht =>
            intro hl
            rw [List.foldl_cons]
            have : RemoveDeadInstructions.step b dce u = dce := by
              unfold RemoveDeadInstructions.step
              rw [hl u (List.mem_cons_self _ _)]
              rfl
            rw [this]
            exact iht (fun w hw => hl w (List.mem_cons_of_mem _ hw))
        simp only
        rw [hfold _ (fun u hu => hall u (List.mem_reverse.mp (List.mem_of_mem_drop hu)))]
    unfold iterate
    rw [hstep]
    exact ih (fun b' hb' => h b' (List.mem_cons_of_mem _ hb'))

/-- C29 (as stated, refuted): in `exampleDeadPhiUser` the only user of the phi
7 is the dead Neg 8.  RemoveDeadInstructions removes the Neg and leaves the
phi, which has then zero uses and is removable, in its block. -/
theorem RemoveDeadInstructions_keeps_dead_phi :
    exampleDeadPhiUser.NumUses 7 = 1 ∧
    (RemoveDeadInstructions { graph := exampleDeadPhiUser, stats := none }).map
      (fun dce => ((dce.graph.GetBlock 4).map (fun b => (b.phis, b.instructions)),
        dce.graph.BlockOf 7, dce.graph.IsDeadAndRemovable 7, dce.graph.NumUses 7)) =
      some (some ([7], [9]), some 4, true, 0) := by
  decide

/-- C29 (amended): on a well-formed graph RemoveDeadInstructions returns, and
afterwards no instruction of the instruction list of a block (the regular
instructions; the phis are not swept) is dead and removable; a second run of
RemoveDeadInstructions removes nothing. -/
theorem RemoveDeadInstructions_leaves_no_dead_instruction (dce : HDeadCodeElimination)
    (hwf : dce.graph.DefinedBeforeUse = true) :
    ∃ dce', RemoveDeadInstructions dce = some dce' ∧
      (∀ b u, u ∈ dce'.graph.instructionsOf b → dce'.graph.IsDeadAndRemovable u = false) ∧
      RemoveDeadInstructions dce' = some dce' := by
  have O := DefinedBeforeUse_sweepable dce.graph hwf
  obtain ⟨dce', hrun, S⟩ := SweptDead.dead_visit_blocks O dce.graph.GetPostOrder [] dce
    (by simp [HGraph.GetPostOrder]) (SweptDead.dead_start dce.graph)
  have hpost : ∀ b u, u ∈ dce'.graph.instructionsOf b →
      dce'.graph.IsDeadAndRemovable u = false := by
    intro b u hu
    obtain ⟨hu0, hbu⟩ := S.lists b u hu
    have hbs : (dce.graph.GetBlock b).isSome = true := by
      unfold HGraph.instructionsOf at hu0
      cases hg : dce.graph.GetBlock b with
      | none => rw [hg] at hu0; cases hu0
      | some blk => rfl
    have huv : u ∈ dce.graph.visitOrder :=
      (mem_visitOrder _ u).mpr ⟨b, O.listed b hbs, hu0⟩
    have hblk : (dce'.graph.BlockOf u).isSome = true := by
      rw [hbu, O.member b u hu0]; rfl
    rw [IsDeadAndRemovable_eq_false_iff]
    rcases S.alive u huv hblk with h | ⟨w, hw, huw, _⟩
    · exact Or.inl h
    · exact Or.inr ⟨w, hw, huw⟩
  refine ⟨dce', hrun, hpost, ?_⟩
  unfold RemoveDeadInstructions
  apply RemoveDeadInstructions_of_none_dead
  intro b hb
  refine ⟨?_, hpost b⟩
  rw [S.block_some]
  apply O.block_some
  have : b ∈ dce.graph.GetPostOrder := by
    unfold HGraph.GetPostOrder at hb ⊢
    rw [S.rpo] at hb
    exact hb
  unfold HGraph.GetPostOrder at this
  exact List.mem_reverse.mp this

theorem RemoveDeadInstructions_leaves_no_dead_instruction_witness :
    exampleDeadChain.DefinedBeforeUse = true ∧
    exampleDeadChain.IsDeadAndRemovable 3 = true ∧
    exampleDeadChain.IsDeadAndRemovable 2 = false ∧
    ∃ dce', RemoveDeadInstructions { graph := exampleDeadChain, stats := none } = some dce' ∧
      (∀ b u, u ∈ dce'.graph.instructionsOf b → dce'.graph.IsDeadAndRemovable u = false) ∧
      RemoveDeadInstructions dce' = some dce' :=
  ⟨by decide, by decide, by decide,
    RemoveDeadInstructions_leaves_no_dead_instruction
      { graph := exampleDeadChain, stats := none } (by decide)⟩

/-! ## SimplifyAlwaysThrows -/

theorem InstStep.inst_refl (P : Nat → Prop) (g : HGraph) : InstStep P g g where
  kind_old := fun _ _ => rfl
  fresh := fun u h h' => by rw [h] at h'; cases h'
  lists := fun b => ⟨[], [], by simp, (by simp), (by simp), fun h => absurd rfl h⟩
  block_old := fun _ _ _ => rfl
  arity := fun _ _ => rfl

theorem isSome_of_KindOf (g : HGraph) (u : Nat) (k : InstructionKind)
    (h : g.KindOf u = some k) : (g.GetInstruction u).isSome = true := by
  unfold HGraph.KindOf at h
  cases hi : g.GetInstruction u with
  | none => rw [hi] at h; cases h
  | some i => rfl

theorem InstStep.stays_some {P : Nat → Prop} {g g' : HGraph} (h : InstStep P g g') (u : Nat)
    (hu : (g.GetInstruction u).isSome = true) : (g'.GetInstruction u).isSome = true := by
  have hk := h.kind_old u hu
  cases hi : g.GetInstruction u with
  | none => rw [hi] at hu; cases hu
  | some i =>
    apply isSome_of_KindOf g' u i.kind
    rw [hk]
    simp [HGraph.KindOf, hi]

theorem InstStep.inst_trans {P : Nat → Prop} {g g1 g2 : HGraph} (h1 : InstStep P g g1)
    (h2 : InstStep P g1 g2) : InstStep P g g2 where
  kind_old := fun u hu => (h2.kind_old u (h1.stays_some u hu)).trans (h1.kind_old u hu)
  fresh := fun u hu hu2 => by
    cases hi1 : g1.GetInstruction u with
    | none => exact h2.fresh u hi1 hu2
    | some i1 =>
      have hs1 : (g1.GetInstruction u).isSome = true := by rw [hi1]; rfl
      rw [h2.kind_old u hs1]
      exact h1.fresh u hu hs1
  lists := fun b => by
    obtain ⟨ins1, rem1, hl1, hr1, hi1, hp1⟩ := h1.lists b
    obtain ⟨ins2, rem2, hl2, hr2, hi2, hp2⟩ := h2.lists b
    have hold : ∀ u ∈ rem2, (g.GetInstruction u).isSome = true := by
      intro u hu
      cases hg : g.GetInstruction u with
      | some i => rfl
      | none =>
        have hk := hr2 u hu
        have := h1.fresh u hg (isSome_of_KindOf g1 u _ hk)
        rw [hk] at this
        cases this
    refine ⟨ins2 ++ ins1.filter (fun u => decide (u ∉ rem2)), rem1 ++ rem2, ?_, ?_, ?_, ?_⟩
    · rw [hl2, hl1, List.filter_append, List.filter_filter, List.append_assoc]
      congr 2
      apply List.filter_congr
      intro u _
      simp only [List.mem_append, not_or, Bool.decide_and, Bool.and_comm]
    · intro u hu
      rcases List.mem_append.mp hu with hm | hm
      · exact hr1 u hm
      · rw [← h1.kind_old u (hold u hm)]
        exact hr2 u hm
    · intro u hu
      rcases List.mem_append.mp hu with hm | hm
      · have h1n := (hi2 u hm).1
        refine ⟨?_, (hi2 u hm).2⟩
        cases hg : g.GetInstruction u with
        | none => rfl
        | some i =>
          have := h1.stays_some u (by rw [hg]; rfl)
          rw [h1n] at this
          cases this
      · have h1b := hi1 u (List.mem_filter.mp hm).1
        refine ⟨h1b.1, ?_⟩
        rw [h2.kind_old u (isSome_of_KindOf g1 u _ h1b.2)]
        exact h1b.2
    · intro hne
      by_cases e2 : ins2 = []
      · apply hp1
        intro e1
        rw [e1, e2] at hne
        exact hne rfl
      · exact hp2 e2
  block_old := fun u hu hk =>
    (h2.block_old u (h1.stays_some u hu) (by rw [h1.kind_old u hu]; exact hk)).trans
      (h1.block_old u hu hk)
  arity := fun u hu => (h2.arity u (h1.stays_some u hu)).trans (h1.arity u hu)

theorem InstStep.inst_mono {P Q : Nat → Prop} {g g' : HGraph} (hPQ : ∀ b, P b → Q b)
    (h : InstStep P g g') : InstStep Q g g' where
  kind_old := h.kind_old
  fresh := h.fresh
  lists := fun b => by
    obtain ⟨ins, rm, h1, h2, h3, h4⟩ := h.lists b
    exact ⟨ins, rm, h1, h2, h3, fun hne => hPQ b (h4 hne)⟩
  block_old := h.block_old
  arity := h.arity

theorem NullStep.null_refl (P : Nat → Prop) (g : HGraph) : NullStep P g g :=
  { InstStep.inst_refl P g with shape := fun _ => rfl, exit := rfl, rpo := rfl }

theorem NullStep.null_trans {P : Nat → Prop} {g g1 g2 : HGraph} (h1 : NullStep P g g1)
    (h2 : NullStep P g1 g2) : NullStep P g g2 :=
  { h1.toInstStep.inst_trans h2.toInstStep with
    shape := fun b => (h2.shape b).trans (h1.shape b)
    exit := h2.exit.trans h1.exit
    rpo := h2.rpo.trans h1.rpo }

theorem ThrowStep.throw_refl (g : HGraph) : ThrowStep g g :=
  { InstStep.inst_refl _ g with
    info := fun _ => rfl, succ := fun _ _ => rfl, block_some := fun _ => rfl, exit := rfl,
    rpo := rfl }

theorem ThrowStep.throw_trans {g g1 g2 : HGraph} (h1 : ThrowStep g g1)
    (h2 : ThrowStep g1 g2) : ThrowStep g g2 :=
  { h1.toInstStep.inst_trans
      (h2.toInstStep.inst_mono (fun b hb => (h1.info b).symm.trans hb)) with
    info := fun b => (h2.info b).trans (h1.info b)
    succ := fun b hb => (h2.succ b ((h1.info b).trans hb)).trans (h1.succ b hb)
    block_some := fun b => (h2.block_some b).trans (h1.block_some b)
    exit := h2.exit.trans h1.exit
    rpo := h2.rpo.trans h1.rpo }

theorem KindOf_InsertInstructionFirst (g : HGraph) (block : Nat) (i : HInstruction) (u : Nat) :
    (g.InsertInstructionFirst block i).1.KindOf u =
      if u = g.instructions.length then some i.kind else g.KindOf u := by
  unfold HGraph.KindOf
  rw [GetInstruction_InsertInstructionFirst]
  split <;> rfl

theorem GetInstruction_length (g : HGraph) : g.GetInstruction g.instructions.length = none := by
  unfold HGraph.GetInstruction
  exact List.getElem?_eq_none (Nat.le_refl _)

/-- The insertion of the bound type. -/
theorem NullStep_InsertInstructionFirst (g : HGraph) (block : Nat) (i : HInstruction)
    (hk : i.kind = InstructionKind.BoundType) :
    NullStep (fun b => b = block) g (g.InsertInstructionFirst block i).1 where
  shape := shapeOf_InsertInstructionFirst g block i
  exit := rfl
  rpo := rfl
  kind_old := fun u hu => by
    rw [KindOf_InsertInstructionFirst, if_neg]
    intro e
    rw [e, GetInstruction_length] at hu
    cases hu
  fresh := fun u hu hu' => by
    rw [KindOf_InsertInstructionFirst]
    rw [GetInstruction_InsertInstructionFirst] at hu'
    by_cases e : u = g.instructions.length
    · rw [if_pos e, hk]
    · rw [if_neg e, hu] at hu'
      cases hu'
  lists := fun b => by
    rw [instructionsOf_InsertInstructionFirst]
    by_cases hb : block = b ∧ (g.GetBlock b).isSome = true
    · rw [if_pos hb]
      refine ⟨[g.instructions.length], [], by simp, (by simp), ?_, fun _ => hb.1.symm⟩
      intro u hu
      rw [List.mem_singleton] at hu
      rw [hu]
      refine ⟨GetInstruction_length g, ?_⟩
      rw [KindOf_InsertInstructionFirst, if_pos rfl, hk]
    · rw [if_neg hb]
      exact ⟨[], [], by simp, (by simp), (by simp), fun h => absurd rfl h⟩
  block_old := fun u hu _ => by
    unfold HGraph.BlockOf
    rw [GetInstruction_InsertInstructionFirst, if_neg]
    intro e
    rw [e, GetInstruction_length] at hu
    cases hu
  arity := fun u hu => by
    unfold HGraph.inputsOf
    rw [GetInstruction_InsertInstructionFirst, if_neg]
    intro e
    rw [e, GetInstruction_length] at hu
    cases hu

theorem inputsOf_length_ReplaceWith (g : HGraph) (inst other id : Nat) :
    ((g.ReplaceWith inst other).inputsOf id).length = (g.inputsOf id).length := by
  unfold HGraph.inputsOf
  rw [GetInstruction_ReplaceWith]
  cases g.GetInstruction id with
  | none => rfl
  | some u =>
    simp only [Option.map_some']
    split
    · exact length_substInput _ _ _
    · rfl

/-- The replacement and removal of one NullCheck. -/
theorem NullStep_replace_NullCheck (P : Nat → Prop) (g : HGraph) (u c ub : Nat)
    (hk : g.KindOf u = some InstructionKind.NullCheck) :
    NullStep P g ((g.ReplaceWith u c).RemoveInstruction ub u) where
  shape := fun b => (shapeOf_RemoveInstruction _ ub u b).trans (shapeOf_ReplaceWith g u c b)
  exit := rfl
  rpo := rfl
  kind_old := fun w _ => by rw [KindOf_RemoveInstruction, KindOf_ReplaceWith]
  fresh := fun w hw hw' => by
    rw [GetInstruction_RemoveInstruction, GetInstruction_ReplaceWith, hw] at hw'
    cases hw'
  lists := fun b => by
    rw [instructionsOf_RemoveInstruction, instructionsOf_ReplaceWith]
    by_cases hb : ub = b
    · rw [if_pos hb]
      refine ⟨[], [u], ?_, ?_, (by simp), fun h => absurd rfl h⟩
      · rw [List.nil_append]
        apply List.filter_congr
        intro w _
        simp
      · intro w hw
        rw [List.mem_singleton] at hw
        rw [hw]
        exact hk
    · rw [if_neg hb]
      exact ⟨[], [], by simp, (by simp), (by simp), fun h => absurd rfl h⟩
  block_old := fun w _ hw => by
    rw [BlockOf_RemoveInstruction, BlockOf_ReplaceWith, if_neg]
    intro e
    rw [e] at hk
    exact hw hk
  arity := fun w _ => by
    rw [inputsOf_RemoveInstruction, inputsOf_length_ReplaceWith]

theorem InstStep.kindIs_old {P : Nat → Prop} {g g' : HGraph} (h : InstStep P g g') (p : InstructionKind → Bool)
    (u : Nat) (hu : (g.GetInstruction u).isSome = true) : g'.kindIs p u = g.kindIs p u := by
  simp only [HGraph.kindIs, h.kind_old u hu]

/-- The loop of RemoveNonNullControlDependences over the users. -/
theorem NullStep_users (P : Nat → Prop) (c : Nat) :
    ∀ (users : List Nat) (g0 g : HGraph), NullStep P g0 g →
      (∀ u ∈ users, g0.KindOf u = some InstructionKind.NullCheck) →
      NullStep P g0 (users.foldl (fun g1 u =>
        match g1.BlockOf u with
        | none => g1
        | some user_block => (g1.ReplaceWith u c).RemoveInstruction user_block u) g) := by
  intro users
  induction users with
  | nil => intro g0 g h _; exact h
  | cons u rest ih =>
    intro g0 g h hk
    rw [List.foldl_cons]
    apply ih
    · have hku : g.KindOf u = some InstructionKind.NullCheck := by
        rw [h.kind_old u (isSome_of_KindOf g0 u _ (hk u (List.mem_cons_self _ _)))]
        exact hk u (List.mem_cons_self _ _)
      cases hb : g.BlockOf u with
      | none => exact h
      | some ub => exact h.null_trans (NullStep_replace_NullCheck P g u c ub hku)
    · exact fun w hw => hk w (List.mem_cons_of_mem _ hw)

theorem users_NullCheck (dom g : HGraph) (block throws obj u : Nat)
    (h : u ∈ RemoveNonNullControlDependences.users dom g block throws obj) :
    g.KindOf u = some InstructionKind.NullCheck := by
  unfold RemoveNonNullControlDependences.users at h
  have := (List.mem_filter.mp h).2
  simp only [Bool.and_eq_true, decide_eq_true_eq] at this
  have hk := this.1.2
  unfold HGraph.kindIs at hk
  cases hkind : g.KindOf u with
  | none => rw [hkind] at hk; cases hk
  | some k =>
    rw [hkind] at hk
    simp only [decide_eq_true_eq] at hk
    rw [hk]

theorem kindIs_eq_iff (g : HGraph) (K : InstructionKind) (u : Nat) :
    g.kindIs (fun k => decide (k = K)) u = true ↔ g.KindOf u = some K := by
  unfold HGraph.kindIs
  cases g.KindOf u with
  | none => simp
  | some k => simp

/-- The block `not_throws` that the pattern match finds is the other successor
of the If. -/
theorem pattern_not_throws (g : HGraph) (ifs throws nt obj : Nat)
    (h : RemoveNonNullControlDependences.pattern g ifs throws = some (some (some nt, obj))) :
    g.IfTrueSuccessor ifs = some throws ∧ g.IfFalseSuccessor ifs = some nt ∨
      g.IfFalseSuccessor ifs = some throws ∧ g.IfTrueSuccessor ifs = some nt := by
  unfold RemoveNonNullControlDependences.pattern at h
  cases hc : g.InputAt ifs 0 with
  | none => rw [hc] at h; cases h
  | some cond =>
    rw [hc] at h
    simp only at h
    have key : ∀ x : Option Nat,
        (match g.InputAt cond 1, g.InputAt cond 0 with
          | some right, some left =>
            if g.kindIs (fun k => decide (k = InstructionKind.NullConstant)) right = true then
              some (some (x, left))
            else if (!g.kindIs (fun k => decide (k = InstructionKind.NullConstant)) left) = true
              then some none
            else some (some (x, right))
          | _, _ => none) = some (some (some nt, obj)) → x = some nt := by
      intro x hx
      split at hx
      · split at hx
        · simp only [Option.some.injEq, Prod.mk.injEq] at hx
          exact hx.1
        · split at hx
          · cases hx
          · simp only [Option.some.injEq, Prod.mk.injEq] at hx
            exact hx.1
      · cases hx
    by_cases c1 : g.IfTrueSuccessor ifs = some throws ∧
        g.kindIs (fun k => decide (k = InstructionKind.Equal)) cond = true
    · rw [if_pos c1] at h
      exact Or.inl ⟨c1.1, key _ h⟩
    · rw [if_neg c1] at h
      by_cases c2 : g.IfFalseSuccessor ifs = some throws ∧
          g.kindIs (fun k => decide (k = InstructionKind.NotEqual)) cond = true
      · rw [if_pos c2] at h
        exact Or.inr ⟨c2.1, key _ h⟩
      · rw [if_neg c2] at h
        cases h

/-- RemoveNonNullControlDependences changes the graph by the bound type, which
it adds to the block `not_throws`, and the NullChecks only. -/
theorem RemoveNonNullControlDependences_step (dom g : HGraph) (block throws : Nat)
    (g' : HGraph) (r : Bool)
    (h : RemoveNonNullControlDependences dom g block throws = some (g', r)) :
    NullStep (g.IsNotThrows block throws) g g' := by
  unfold RemoveNonNullControlDependences at h
  cases hb : g.GetBlock block with
  | none => rw [hb] at h; cases h
  | some b =>
    rw [hb] at h
    simp only at h
    cases hl : b.GetLastInstruction with
    | none =>
      rw [hl] at h
      cases h
      exact NullStep.null_refl _ g
    | some ifs =>
      rw [hl] at h
      simp only at h
      split at h
      · cases h
        exact NullStep.null_refl _ g
      · rename_i hk
        simp only [Bool.not_eq_true', Bool.not_eq_false] at hk
        cases hp : RemoveNonNullControlDependences.pattern g ifs throws with
        | none => rw [hp] at h; cases h
        | some p =>
          rw [hp] at h
          cases p with
          | none =>
            cases h
            exact NullStep.null_refl _ g
          | some q =>
            obtain ⟨not_throws, obj⟩ := q
            simp only at h
            cases hu : RemoveNonNullControlDependences.users dom g block throws obj with
            | nil =>
              rw [hu] at h
              cases h
              exact NullStep.null_refl _ g
            | cons user users =>
              rw [hu] at h
              simp only at h
              cases not_throws with
              | none => cases h
              | some nt =>
                simp only at h
                cases hf : (g.GetBlock nt).bind (·.GetFirstInstruction) with
                | none => rw [hf] at h; cases h
                | some first =>
                  rw [hf] at h
                  simp only [Option.some.injEq, Prod.mk.injEq] at h
                  rw [← h.1]
                  apply NullStep_users
                  · have hs := NullStep_InsertInstructionFirst g nt (HBoundType g obj) rfl
                    refine { hs.toInstStep.inst_mono ?_ with
                      shape := hs.shape, exit := hs.exit, rpo := hs.rpo }
                    intro x hx
                    subst hx
                    refine ⟨ifs, ?_, (kindIs_eq_iff g _ ifs).mp hk, pattern_not_throws g ifs throws x obj hp⟩
                    unfold HGraph.instructionsOf
                    rw [hb]
                    exact hl
                  · intro w hw
                    exact users_NullCheck dom g block throws obj w (by rw [hu]; exact hw)

theorem successorsOf_of_not_lt (g : HGraph) (b : Nat) (h : ¬ b < g.blocks.length) :
    g.successorsOf b = [] := by
  unfold HGraph.successorsOf
  cases hb : g.GetBlock b with
  | none => rfl
  | some blk =>
    exact absurd (GetBlock_isSome_lt g b (by rw [hb]; rfl)) h

theorem predecessorsOf_of_not_lt (g : HGraph) (b : Nat) (h : ¬ b < g.blocks.length) :
    g.predecessorsOf b = [] := by
  unfold HGraph.predecessorsOf
  cases hb : g.GetBlock b with
  | none => rfl
  | some blk =>
    exact absurd (GetBlock_isSome_lt g b (by rw [hb]; rfl)) h

theorem ThrowReady_throwable (g : HGraph) (h : g.ThrowReady = true) : Throwable g := by
  unfold HGraph.ThrowReady at h
  simp only [Bool.and_eq_true, List.all_eq_true, List.mem_range] at h
  obtain ⟨⟨⟨h0, h1⟩, h2⟩, h3⟩ := h
  have hlast : ∀ B, (g.GetBlock B).isSome = true →
      ∃ last, (g.instructionsOf B).getLast? = some last ∧
        g.kindIs (fun k => decide (k = InstructionKind.NullCheck)) last = false ∧
        (g.kindIs (fun k => decide (k = InstructionKind.Goto)) last = true →
          g.successorsOf B ≠ []) ∧
        (g.kindIs (fun k => decide (k = InstructionKind.If)) last = true →
          (2 ≤ (g.successorsOf B).length ∧ g.BlockOf last = some B ∧
            1 ≤ (g.inputsOf last).length) ∧
          ∀ s1 ∈ g.successorsOf B, ∀ s2 ∈ g.successorsOf B,
            g.HasTryCatchInformation s1 = g.HasTryCatchInformation s2) := by
    intro B hB
    have := (h2 B (GetBlock_isSome_lt g B hB)).2
    rw [hB] at this
    simp only [Bool.not_true, Bool.false_or] at this
    cases hl : (g.instructionsOf B).getLast? with
    | none => rw [hl] at this; cases this
    | some last =>
      rw [hl] at this
      simp only [Bool.and_eq_true, Bool.or_eq_true, Bool.not_eq_true', beq_iff_eq,
        decide_eq_true_eq, List.isEmpty_eq_true, List.all_eq_true] at this
      obtain ⟨⟨hn, hg⟩, hi⟩ := this
      refine ⟨last, rfl, hn, ?_, ?_⟩
      · intro hk
        rcases hg with hg | hg
        · rw [hk] at hg; cases hg
        · intro e
          rw [e] at hg
          cases hg
      · intro hk
        rcases hi with hi | hi
        · rw [hk] at hi; cases hi
        · exact ⟨⟨hi.1.1.1, hi.1.1.2, hi.1.2⟩, hi.2⟩
  refine ⟨?_, h1, ?_, ?_, ?_, ?_, ?_, ?_, ?_⟩
  · intro exit he
    rw [he] at h0
    exact h0
  · intro B s hs
    by_cases hB : B < g.blocks.length
    · exact (h2 B hB).1.1 s hs
    · rw [successorsOf_of_not_lt g B hB] at hs
      cases hs
  · intro B p hp
    by_cases hB : B < g.blocks.length
    · exact (h2 B hB).1.2 p hp
    · rw [predecessorsOf_of_not_lt g B hB] at hp
      cases hp
  · intro B hB
    obtain ⟨last, hl, hn, _, _⟩ := hlast B hB
    refine ⟨last, hl, ?_⟩
    intro hk
    rw [(kindIs_eq_iff g _ last).mpr hk] at hn
    cases hn
  · intro B last hl hk
    by_cases hB : (g.GetBlock B).isSome = true
    · obtain ⟨last', hl', _, hg, _⟩ := hlast B hB
      rw [hl] at hl'
      cases hl'
      exact hg ((kindIs_eq_iff g _ last).mpr hk)
    · unfold HGraph.instructionsOf at hl
      cases hb : g.GetBlock B with
      | none => rw [hb] at hl; cases hl
      | some b => rw [hb] at hB; exact absurd rfl hB
  · intro B last hl hk
    by_cases hB : (g.GetBlock B).isSome = true
    · obtain ⟨last', hl', _, _, hi⟩ := hlast B hB
      rw [hl] at hl'
      cases hl'
      exact (hi ((kindIs_eq_iff g _ last).mpr hk)).1
    · unfold HGraph.instructionsOf at hl
      cases hb : g.GetBlock B with
      | none => rw [hb] at hl; cases hl
      | some b => rw [hb] at hB; exact absurd rfl hB
  · intro B last hl hk
    by_cases hB : (g.GetBlock B).isSome = true
    · obtain ⟨last', hl', _, _, hi⟩ := hlast B hB
      rw [hl] at hl'
      cases hl'
      exact (hi ((kindIs_eq_iff g _ last).mpr hk)).2
    · unfold HGraph.instructionsOf at hl
      cases hb : g.GetBlock B with
      | none => rw [hb] at hl; cases hl
      | some b => rw [hb] at hB; exact absurd rfl hB
  · intro u hu
    have hs : (g.GetInstruction u).isSome = true := by
      rcases hu with hu | hu <;> exact isSome_of_KindOf g u _ hu
    have hlt : u < g.instructions.length := by
      unfold HGraph.GetInstruction at hs
      by_contra hc
      rw [List.getElem?_eq_none (Nat.le_of_not_lt hc)] at hs
      cases hs
    have := h3 u hlt
    simp only [Bool.or_eq_true, Bool.not_eq_true', decide_eq_true_eq,
      Bool.or_eq_false_iff] at this
    rcases this with hn | h2
    · rcases hu with hu | hu
      · rw [(kindIs_eq_iff g _ u).mpr hu] at hn
        cases hn.1
      · rw [(kindIs_eq_iff g _ u).mpr hu] at hn
        cases hn.2
    · exact h2

theorem mem_replaceFirst (old new x : Nat) (l : List Nat) (h : x ∈ replaceFirst old new l) :
    x ∈ l ∨ x = new := by
  induction l with
  | nil => cases h
  | cons y ys ih =>
    unfold replaceFirst at h
    split at h
    · rcases List.mem_cons.mp h with e | hm
      · exact Or.inr e
      · exact Or.inl (List.mem_cons_of_mem _ hm)
    · rcases List.mem_cons.mp h with e | hm
      · exact Or.inl (e ▸ List.mem_cons_self _ _)
      · rcases ih hm with h1 | h1
        · exact Or.inl (List.mem_cons_of_mem _ h1)
        · exact Or.inr h1

theorem length_replaceFirst (old new : Nat) (l : List Nat) :
    (replaceFirst old new l).length = l.length := by
  induction l with
  | nil => rfl
  | cons y ys ih =>
    unfold replaceFirst
    split
    · rfl
    · simp [ih]

theorem mem_predecessorsOf_ReplaceSuccessor (g : HGraph) (block existing new_block x p : Nat)
    (h : p ∈ (g.ReplaceSuccessor block existing new_block).predecessorsOf x) :
    p ∈ g.predecessorsOf x ∨ p = block := by
  unfold HGraph.predecessorsOf at h ⊢
  rw [GetBlock_ReplaceSuccessor] at h
  cases hb : g.GetBlock x with
  | none => rw [hb] at h; cases h
  | some blk =>
    rw [hb] at h
    simp only [Option.map_some'] at h
    by_cases h1 : existing = x <;> by_cases h2 : new_block = x <;> by_cases h3 : block = x <;>
      simp only [h1, h2, h3, if_true, if_false, List.mem_append, List.mem_singleton] at h
    all_goals first
      | exact Or.inl h
      | (rcases h with h | h
         · exact Or.inl (List.mem_of_mem_erase h)
         · exact Or.inr (by simp [h, h3]))
      | exact Or.inl (List.mem_of_mem_erase h)
      | (rcases h with h | h
         · exact Or.inl h
         · exact Or.inr (by simp [h, h3]))

/-- ReplaceSuccessor towards a block of the graph keeps the graph well-formed. -/
theorem Throwable.replace_successor {g : HGraph} (T : Throwable g)
    (block existing new_block : Nat) (hb : (g.GetBlock block).isSome = true)
    (hn : (g.GetBlock new_block).isSome = true)
    (hg : ∀ last, (g.instructionsOf block).getLast? = some last →
      g.KindOf last ≠ some InstructionKind.If) :
    Throwable (g.ReplaceSuccessor block existing new_block) where
  exit_some := fun exit he => by
    rw [GetBlock_isSome_ReplaceSuccessor]
    exact T.exit_some exit he
  blocks := fun B hB => by
    rw [GetBlock_isSome_ReplaceSuccessor]
    exact T.blocks B hB
  succs := fun B s hs => by
    rw [GetBlock_isSome_ReplaceSuccessor]
    rw [successorsOf_ReplaceSuccessor] at hs
    split at hs
    · rcases mem_replaceFirst _ _ _ _ hs with h | h
      · exact T.succs B s h
      · rw [h]; exact hn
    · exact T.succs B s hs
  preds := fun B p hp => by
    rw [GetBlock_isSome_ReplaceSuccessor]
    rcases mem_predecessorsOf_ReplaceSuccessor g _ _ _ _ _ hp with h | h
    · exact T.preds B p h
    · rw [h]; exact hb
  last := fun B hB => by
    rw [GetBlock_isSome_ReplaceSuccessor] at hB
    rw [instructionsOf_ReplaceSuccessor]
    exact T.last B hB
  goto := fun B last hl hk => by
    rw [instructionsOf_ReplaceSuccessor] at hl
    have := T.goto B last hl hk
    rw [successorsOf_ReplaceSuccessor]
    split
    · intro e
      have hlen := length_replaceFirst existing new_block (g.successorsOf B)
      rw [e] at hlen
      exact this (List.length_eq_zero.mp hlen.symm)
    · exact this
  ifs := fun B last hl hk => by
    rw [instructionsOf_ReplaceSuccessor] at hl
    have := T.ifs B last hl hk
    rw [successorsOf_ReplaceSuccessor]
    split
    · rw [length_replaceFirst]; exact this
    · exact this
  sides := fun B last hl hk s1 h1 s2 h2 => by
    rw [instructionsOf_ReplaceSuccessor] at hl
    rw [successorsOf_ReplaceSuccessor] at h1 h2
    rw [HasTryCatchInformation_ReplaceSuccessor, HasTryCatchInformation_ReplaceSuccessor]
    by_cases e : B = block
    · subst e
      exact absurd hk (hg last hl)
    · rw [if_neg e] at h1 h2
      exact T.sides B last hl hk s1 h1 s2 h2
  conds := T.conds

theorem getLast?_append_of_ne_nil (l1 l2 : List Nat) (h : l2 ≠ []) :
    (l1 ++ l2).getLast? = l2.getLast? := by
  cases l2 with
  | nil => exact absurd rfl h
  | cons x xs =>
    rw [List.getLast?_append, List.getLast?_cons]
    rfl

theorem InstStep.kind_ne {P : Nat → Prop} {g g' : HGraph} (h : InstStep P g g') (u : Nat) (K : InstructionKind)
    (hK : K ≠ InstructionKind.BoundType) (hk : g'.KindOf u = some K) :
    (g.GetInstruction u).isSome = true ∧ g.KindOf u = some K := by
  cases hg : g.GetInstruction u with
  | none =>
    have := h.fresh u hg (isSome_of_KindOf g' u K hk)
    rw [hk] at this
    exact absurd (Option.some.inj this) hK
  | some i =>
    have hs : (g.GetInstruction u).isSome = true := by rw [hg]; rfl
    refine ⟨rfl, ?_⟩
    rw [← h.kind_old u hs]
    exact hk

/-- The last instruction of a block stays the last one. -/
theorem InstStep.last_stays {P : Nat → Prop} {g g' : HGraph} (h : InstStep P g g') (B last : Nat)
    (hl : (g.instructionsOf B).getLast? = some last)
    (hk : g.KindOf last ≠ some InstructionKind.NullCheck) :
    (g'.instructionsOf B).getLast? = some last := by
  obtain ⟨ins, rm, he, hr, _, _⟩ := h.lists B
  have hf : ((g.instructionsOf B).filter (fun u => decide (u ∉ rm))).getLast? = some last := by
    apply getLast?_filter_of_pos _ _ _ hl
    simp only [decide_eq_true_eq]
    intro hm
    exact hk (hr last hm)
  rw [he, getLast?_append_of_ne_nil, hf]
  intro e
  rw [e] at hf
  cases hf

/-- The follow-up of SimplifyAlwaysThrows keeps the graph well-formed. -/
theorem Throwable.null_step {P : Nat → Prop} {g g' : HGraph} (T : Throwable g)
    (h : NullStep P g g') :
    Throwable g' where
  exit_some := fun exit he => by
    rw [isSome_of_shapeOf g g' exit (h.shape exit)]
    rw [h.exit] at he
    exact T.exit_some exit he
  blocks := fun B hB => by
    rw [isSome_of_shapeOf g g' B (h.shape B)]
    rw [h.rpo] at hB
    exact T.blocks B hB
  succs := fun B s hs => by
    rw [isSome_of_shapeOf g g' s (h.shape s)]
    rw [successorsOf_of_shapeOf g g' B (h.shape B)] at hs
    exact T.succs B s hs
  preds := fun B p hp => by
    rw [isSome_of_shapeOf g g' p (h.shape p)]
    rw [predecessorsOf_of_shapeOf g g' B (h.shape B)] at hp
    exact T.preds B p hp
  last := fun B hB => by
    rw [isSome_of_shapeOf g g' B (h.shape B)] at hB
    obtain ⟨last, hl, hk⟩ := T.last B hB
    refine ⟨last, h.last_stays B last hl hk, ?_⟩
    intro hk'
    exact hk (h.kind_ne last _ (by decide) hk').2
  goto := fun B last hl hk => by
    have hB : (g.GetBlock B).isSome = true := by
      rw [← isSome_of_shapeOf g g' B (h.shape B)]
      unfold HGraph.instructionsOf at hl
      cases hb : g'.GetBlock B with
      | none => rw [hb] at hl; cases hl
      | some b => rfl
    obtain ⟨l0, hl0, hk0⟩ := T.last B hB
    have := h.last_stays B l0 hl0 hk0
    rw [hl] at this
    cases this
    rw [successorsOf_of_shapeOf g g' B (h.shape B)]
    exact T.goto B last hl0 (h.kind_ne last _ (by decide) hk).2
  ifs := fun B last hl hk => by
    have hB : (g.GetBlock B).isSome = true := by
      rw [← isSome_of_shapeOf g g' B (h.shape B)]
      unfold HGraph.instructionsOf at hl
      cases hb : g'.GetBlock B with
      | none => rw [hb] at hl; cases hl
      | some b => rfl
    obtain ⟨l0, hl0, hk0⟩ := T.last B hB
    have := h.last_stays B l0 hl0 hk0
    rw [hl] at this
    cases this
    obtain ⟨hs, hko⟩ := h.kind_ne last _ (by decide) hk
    obtain ⟨h1, h2, h3⟩ := T.ifs B last hl0 hko
    rw [successorsOf_of_shapeOf g g' B (h.shape B), h.block_old last hs hk0, h.arity last hs]
    exact ⟨h1, h2, h3⟩
  sides := fun B last hl hk s1 h1 s2 h2 => by
    have hB : (g.GetBlock B).isSome = true := by
      rw [← isSome_of_shapeOf g g' B (h.shape B)]
      unfold HGraph.instructionsOf at hl
      cases hb : g'.GetBlock B with
      | none => rw [hb] at hl; cases hl
      | some b => rfl
    obtain ⟨l0, hl0, hk0⟩ := T.last B hB
    have := h.last_stays B l0 hl0 hk0
    rw [hl] at this
    cases this
    rw [successorsOf_of_shapeOf g g' B (h.shape B)] at h1 h2
    rw [HasTryCatchInformation_of_shapeOf g g' s1 (h.shape s1),
      HasTryCatchInformation_of_shapeOf g g' s2 (h.shape s2)]
    exact T.sides B last hl0 (h.kind_ne last _ (by decide) hk).2 s1 h1 s2 h2
  conds := fun u hu => by
    have : (g.GetInstruction u).isSome = true ∧
        (g.KindOf u = some InstructionKind.Equal ∨ g.KindOf u = some InstructionKind.NotEqual) := by
      rcases hu with hu | hu
      · exact ⟨(h.kind_ne u _ (by decide) hu).1, Or.inl (h.kind_ne u _ (by decide) hu).2⟩
      · exact ⟨(h.kind_ne u _ (by decide) hu).1, Or.inr (h.kind_ne u _ (by decide) hu).2⟩
    rw [h.arity u this.1]
    exact T.conds u this.2

theorem getElem?_isSome_of_lt (l : List Nat) (i : Nat) (h : i < l.length) :
    ∃ x, l[i]? = some x ∧ x ∈ l :=
  ⟨l[i], List.getElem?_eq_getElem h, List.getElem_mem h⟩

/-- The pattern match of RemoveNonNullControlDependences dereferences no null
pointer, and the block `not_throws` that it finds is a successor of `block`. -/
theorem pattern_total {g : HGraph} (T : Throwable g) (block ifs throws : Nat)
    (hl : (g.instructionsOf block).getLast? = some ifs)
    (hk : g.KindOf ifs = some InstructionKind.If) :
    ∃ p, RemoveNonNullControlDependences.pattern g ifs throws = some p ∧
      ∀ nt obj, p = some (nt, obj) → ∃ n, nt = some n ∧ n ∈ g.successorsOf block := by
  obtain ⟨h2, hb, h1⟩ := T.ifs block ifs hl hk
  obtain ⟨cond, hcond, _⟩ := getElem?_isSome_of_lt (g.inputsOf ifs) 0 h1
  have hin : g.InputAt ifs 0 = some cond := by
    unfold HGraph.InputAt
    unfold HGraph.inputsOf at hcond
    cases hi : g.GetInstruction ifs with
    | none => rw [hi] at hcond; cases hcond
    | some i => rw [hi] at hcond; exact hcond
  obtain ⟨s0, hs0, hm0⟩ := getElem?_isSome_of_lt (g.successorsOf block) 0 (by omega)
  obtain ⟨s1, hs1, hm1⟩ := getElem?_isSome_of_lt (g.successorsOf block) 1 (by omega)
  have hT : g.IfTrueSuccessor ifs = some s0 := by
    unfold HGraph.IfTrueSuccessor
    rw [hb]
    unfold HGraph.successorsOf at hs0
    cases hg : g.GetBlock block with
    | none => rw [hg] at hs0; cases hs0
    | some blk =>
      rw [hg] at hs0
      simp only [Option.some_bind, hg]
      exact hs0
  have hF : g.IfFalseSuccessor ifs = some s1 := by
    unfold HGraph.IfFalseSuccessor
    rw [hb]
    unfold HGraph.successorsOf at hs1
    cases hg : g.GetBlock block with
    | none => rw [hg] at hs1; cases hs1
    | some blk =>
      rw [hg] at hs1
      simp only [Option.some_bind, hg]
      exact hs1
  unfold RemoveNonNullControlDependences.pattern
  rw [hin]
  simp only [hT, hF]
  have key : ∀ nt : Nat, nt ∈ g.successorsOf block →
      (g.KindOf cond = some InstructionKind.Equal ∨
        g.KindOf cond = some InstructionKind.NotEqual) →
      ∃ p, (match g.InputAt cond 1, g.InputAt cond 0 with
        | some right, some left =>
          if g.kindIs (fun k => decide (k = InstructionKind.NullConstant)) right = true then
            some (some (some nt, left))
          else if (!g.kindIs (fun k => decide (k = InstructionKind.NullConstant)) left) = true
            then some none
          else some (some (some nt, right))
        | _, _ => none) = some p ∧
        ∀ nt' obj, p = some (nt', obj) → ∃ n, nt' = some n ∧ n ∈ g.successorsOf block := by
    intro nt hnt hkc
    have h2c := T.conds cond hkc
    obtain ⟨l, hl0, _⟩ := getElem?_isSome_of_lt (g.inputsOf cond) 0 (by omega)
    obtain ⟨r, hr1, _⟩ := getElem?_isSome_of_lt (g.inputsOf cond) 1 (by omega)
    have hi0 : g.InputAt cond 0 = some l := by
      unfold HGraph.InputAt
      unfold HGraph.inputsOf at hl0
      cases hi : g.GetInstruction cond with
      | none => rw [hi] at hl0; cases hl0
      | some i => rw [hi] at hl0; exact hl0
    have hi1 : g.InputAt cond 1 = some r := by
      unfold HGraph.InputAt
      unfold HGraph.inputsOf at hr1
      cases hi : g.GetInstruction cond with
      | none => rw [hi] at hr1; cases hr1
      | some i => rw [hi] at hr1; exact hr1
    rw [hi0, hi1]
    simp only
    split
    · refine ⟨_, rfl, ?_⟩
      intro nt' obj e
      simp only [Option.some.injEq, Prod.mk.injEq] at e
      exact ⟨nt, e.1.symm, hnt⟩
    · split
      · exact ⟨_, rfl, fun nt' obj e => by cases e⟩
      · refine ⟨_, rfl, ?_⟩
        intro nt' obj e
        simp only [Option.some.injEq, Prod.mk.injEq] at e
        exact ⟨nt, e.1.symm, hnt⟩
  by_cases c1 : some s0 = some throws ∧
      g.kindIs (fun k => decide (k = InstructionKind.Equal)) cond = true
  · rw [if_pos c1]
    exact key s1 hm1 (Or.inl ((kindIs_eq_iff g _ cond).mp c1.2))
  · rw [if_neg c1]
    by_cases c2 : some s1 = some throws ∧
        g.kindIs (fun k => decide (k = InstructionKind.NotEqual)) cond = true
    · rw [if_pos c2]
      exact key s0 hm0 (Or.inr ((kindIs_eq_iff g _ cond).mp c2.2))
    · rw [if_neg c2]
      exact ⟨none, rfl, fun nt obj e => by cases e⟩

/-- RemoveNonNullControlDependences dereferences no null pointer. -/
theorem RemoveNonNullControlDependences_total {g : HGraph} (T : Throwable g) (dom : HGraph)
    (block throws : Nat) (hb : (g.GetBlock block).isSome = true) :
    ∃ r, RemoveNonNullControlDependences dom g block throws = some r := by
  unfold RemoveNonNullControlDependences
  cases hg : g.GetBlock block with
  | none => rw [hg] at hb; cases hb
  | some b =>
    simp only
    cases hl : b.GetLastInstruction with
    | none => exact ⟨_, rfl⟩
    | some ifs =>
      simp only
      split
      · exact ⟨_, rfl⟩
      · rename_i hk
        simp only [Bool.not_eq_true', Bool.not_eq_false] at hk
        have hl' : (g.instructionsOf block).getLast? = some ifs := by
          unfold HGraph.instructionsOf
          rw [hg]
          exact hl
        obtain ⟨p, hp, hnt⟩ := pattern_total T block ifs throws hl'
          ((kindIs_eq_iff g _ ifs).mp hk)
        rw [hp]
        cases p with
        | none => exact ⟨_, rfl⟩
        | some q =>
          obtain ⟨nt, obj⟩ := q
          simp only
          obtain ⟨n, hn, hmem⟩ := hnt nt obj rfl
          subst hn
          cases hu : RemoveNonNullControlDependences.users dom g block throws obj with
          | nil => exact ⟨_, rfl⟩
          | cons user users =>
            simp only
            obtain ⟨last, hlast, _⟩ := T.last n (T.succs block n hmem)
            unfold HGraph.instructionsOf at hlast
            cases hgn : g.GetBlock n with
            | none => rw [hgn] at hlast; cases hlast
            | some nb =>
              rw [hgn] at hlast
              simp only at hlast
              cases hins : nb.instructions with
              | nil => rw [hins] at hlast; cases hlast
              | cons x xs =>
                simp only [Option.some_bind, HBasicBlock.GetFirstInstruction, hins,
                  List.head?_cons]
                exact ⟨_, rfl⟩

theorem HasTryCatchInformation_of_GetBlock (g : HGraph) (B : Nat) (b : HBasicBlock)
    (hb : g.GetBlock B = some b) :
    g.HasTryCatchInformation B = (b.try_catch_information.isSome || b.is_catch_block) := by
  unfold HGraph.HasTryCatchInformation
  rw [hb]

/-- One visit of the loop of SimplifyAlwaysThrows returns, and either changes
nothing or redirects the first successor of the visited block, which has no
try-catch information, to the exit block and runs the follow-up. -/
theorem visitBlock_outcome {st : SimplifyAlwaysThrowsState} (T : Throwable st.graph)
    (dom : HGraph) (exit B : Nat) (hB : (st.graph.GetBlock B).isSome = true)
    (hexit : (st.graph.GetBlock exit).isSome = true) :
    ∃ st', SimplifyAlwaysThrows.visitBlock dom exit st B = some st' ∧
      (st' = st ∨
        (st.graph.HasTryCatchInformation B = false ∧
          ∃ succ pred, (st.graph.successorsOf B)[0]? = some succ ∧ succ ≠ exit ∧
            st'.rerun_dominance_and_loop_analysis = true ∧
            Throwable (st.graph.ReplaceSuccessor B succ exit) ∧
            NullStep ((st.graph.ReplaceSuccessor B succ exit).IsNotThrows pred B)
              (st.graph.ReplaceSuccessor B succ exit) st'.graph)) := by
  unfold SimplifyAlwaysThrows.visitBlock
  cases hb : st.graph.GetBlock B with
  | none => rw [hb] at hB; cases hB
  | some b =>
    simp only
    have hins : st.graph.instructionsOf B = b.instructions := by
      unfold HGraph.instructionsOf; rw [hb]
    have hsuc : st.graph.successorsOf B = b.successors := by
      unfold HGraph.successorsOf; rw [hb]
    have hprd : st.graph.predecessorsOf B = b.predecessors := by
      unfold HGraph.predecessorsOf; rw [hb]
    by_cases htry : (b.try_catch_information.isSome || b.is_catch_block) = true
    · rw [if_pos htry]
      exact ⟨st, rfl, Or.inl rfl⟩
    · rw [if_neg htry]
      obtain ⟨last, hl, _⟩ := T.last B hB
      rw [hins] at hl
      unfold HBasicBlock.GetLastInstruction
      rw [hl]
      simp only
      cases hp : b.instructions.dropLast.getLast? with
      | none => exact ⟨st, rfl, Or.inl rfl⟩
      | some prev =>
        simp only
        split
        · rename_i hc
          simp only [Bool.and_eq_true, decide_eq_true_eq] at hc
          obtain ⟨⟨⟨_, hgoto⟩, _⟩, hlen⟩ := hc
          obtain ⟨pred, hpred, hpm⟩ := getElem?_isSome_of_lt b.predecessors 0 (by omega)
          have hne : b.successors ≠ [] := by
            rw [← hsuc]
            apply T.goto B last (by rw [hins]; exact hl)
            exact (kindIs_eq_iff _ _ _).mp hgoto
          obtain ⟨succ, hsucc, hsm⟩ := getElem?_isSome_of_lt b.successors 0
            (List.length_pos.mpr hne)
          rw [hpred, hsucc]
          simp only
          split
          · exact ⟨st, rfl, Or.inl rfl⟩
          · rename_i hse
            split
            · exact ⟨st, rfl, Or.inl rfl⟩
            · split
              · exact ⟨st, rfl, Or.inl rfl⟩
              · have hss := T.succs B succ (by rw [hsuc]; exact hsm)
                cases hsb : st.graph.GetBlock succ with
                | none => rw [hsb] at hss; cases hss
                | some sb =>
                  simp only
                  split
                  · have T1 := T.replace_successor B succ exit hB hexit (by
                      intro l0 hl0 hk0
                      rw [hins, hl] at hl0
                      cases hl0
                      rw [(kindIs_eq_iff _ _ _).mp hgoto] at hk0
                      cases hk0)
                    have hp1 : ((st.graph.ReplaceSuccessor B succ exit).GetBlock pred).isSome
                        = true := by
                      rw [GetBlock_isSome_ReplaceSuccessor]
                      exact T.preds B pred (by rw [hprd]; exact hpm)
                    obtain ⟨r, hr⟩ := RemoveNonNullControlDependences_total T1 dom pred B hp1
                    obtain ⟨g2, removed⟩ := r
                    rw [hr]
                    simp only
                    refine ⟨_, rfl, Or.inr ⟨?_, succ, pred, ?_, hse, rfl, T1, ?_⟩⟩
                    · rw [HasTryCatchInformation_of_GetBlock _ B b hb]
                      simpa using htry
                    · rw [hsuc]; exact hsucc
                    · exact RemoveNonNullControlDependences_step dom _ pred B g2 removed hr
                  · exact ⟨st, rfl, Or.inl rfl⟩
        · exact ⟨st, rfl, Or.inl rfl⟩

/-- ReplaceSuccessor on a block without try-catch information, followed by
the follow-up, as a step of SimplifyAlwaysThrows. -/
theorem ThrowStep_of_redirect (P : Nat → Prop) (g g' : HGraph) (B succ exit : Nat)
    (hB : g.HasTryCatchInformation B = false)
    (hP : ∀ b, P b → g.HasTryCatchInformation b = false)
    (h : NullStep P (g.ReplaceSuccessor B succ exit) g') : ThrowStep g g' where
  kind_old := h.kind_old
  fresh := h.fresh
  lists := fun b => by
    obtain ⟨ins, rm, h1, h2, h3, h4⟩ := h.lists b
    rw [instructionsOf_ReplaceSuccessor] at h1
    exact ⟨ins, rm, h1, h2, h3, fun hne => hP b (h4 hne)⟩
  block_old := h.block_old
  arity := h.arity
  info := fun b => by
    rw [HasTryCatchInformation_of_shapeOf _ g' b (h.shape b),
      HasTryCatchInformation_ReplaceSuccessor]
  succ := fun b hb => by
    rw [successorsOf_of_shapeOf _ g' b (h.shape b), successorsOf_ReplaceSuccessor, if_neg]
    intro e
    rw [e, hB] at hb
    cases hb
  block_some := fun b => by
    rw [isSome_of_shapeOf _ g' b (h.shape b), GetBlock_isSome_ReplaceSuccessor]
  exit := h.exit
  rpo := h.rpo

theorem mem_successorsOf_of_getElem? (g : HGraph) (p s i : Nat)
    (h : ((some p).bind g.GetBlock).bind (·.successors[i]?) = some s) :
    s ∈ g.successorsOf p := by
  unfold HGraph.successorsOf
  simp only [Option.some_bind] at h
  cases hb : g.GetBlock p with
  | none => rw [hb] at h; cases h
  | some blk =>
    rw [hb] at h
    exact List.getElem?_mem h

/-- The block `not_throws` has no try-catch information when `throws` has
none. -/
theorem Throwable.not_throws_untried {g : HGraph} (T : Throwable g) (block throws b : Nat)
    (h : g.IsNotThrows block throws b) (ht : g.HasTryCatchInformation throws = false) :
    g.HasTryCatchInformation b = false := by
  obtain ⟨ifs, hl, hk, hs⟩ := h
  obtain ⟨_, hbo, _⟩ := T.ifs block ifs hl hk
  have key : ∀ i j, g.IfTrueSuccessor ifs = some i → g.IfFalseSuccessor ifs = some j →
      g.HasTryCatchInformation i = g.HasTryCatchInformation j := by
    intro i j hi hj
    unfold HGraph.IfTrueSuccessor at hi
    unfold HGraph.IfFalseSuccessor at hj
    rw [hbo] at hi hj
    exact T.sides block ifs hl hk i (mem_successorsOf_of_getElem? g block i 0 hi) j
      (mem_successorsOf_of_getElem? g block j 1 hj)
  rcases hs with ⟨h1, h2⟩ | ⟨h1, h2⟩
  · rw [← key throws b h1 h2]; exact ht
  · rw [key b throws h2 h1]; exact ht

/-- The effects of one visit, for the loop. -/
theorem visitBlock_effects {st : SimplifyAlwaysThrowsState} (T : Throwable st.graph)
    (dom : HGraph) (exit B : Nat) (hB : (st.graph.GetBlock B).isSome = true)
    (hexit : (st.graph.GetBlock exit).isSome = true) :
    ∃ st', SimplifyAlwaysThrows.visitBlock dom exit st B = some st' ∧
      Throwable st'.graph ∧ ThrowStep st.graph st'.graph ∧
      (st.rerun_dominance_and_loop_analysis = true →
        st'.rerun_dominance_and_loop_analysis = true) ∧
      (∀ b, st.graph.successorsOf b = [exit] → st'.graph.successorsOf b = [exit]) := by
  obtain ⟨st', hv, hcase⟩ := visitBlock_outcome T dom exit B hB hexit
  refine ⟨st', hv, ?_⟩
  rcases hcase with e | ⟨htry, succ, pred, hs, hne, hrr, T1, hstep⟩
  · subst e
    exact ⟨T, ThrowStep.throw_refl _, fun h => h, fun _ h => h⟩
  · refine ⟨T1.null_step hstep,
      ThrowStep_of_redirect _ _ _ B succ exit htry ?_ hstep, fun _ => hrr, ?_⟩
    · intro b hb
      rw [← HasTryCatchInformation_ReplaceSuccessor st.graph B succ exit b]
      apply T1.not_throws_untried pred B b hb
      rw [HasTryCatchInformation_ReplaceSuccessor]
      exact htry
    intro b hb
    rw [successorsOf_of_shapeOf _ _ b (hstep.shape b), successorsOf_ReplaceSuccessor]
    by_cases e : b = B
    · subst e
      rw [hb] at hs
      simp only [List.getElem?_cons_zero, Option.some.injEq] at hs
      exact absurd hs.symm hne
    · rw [if_neg e]
      exact hb

/-- The loop of SimplifyAlwaysThrows over blocks of the reverse post order
returns. -/
theorem SimplifyAlwaysThrows_loop (dom : HGraph) (exit : Nat) :
    ∀ (l : List Nat) (st : SimplifyAlwaysThrowsState), Throwable st.graph →
      (∀ B ∈ l, B ∈ st.graph.reverse_post_order) →
      (st.graph.GetBlock exit).isSome = true →
      ∃ st', iterate (SimplifyAlwaysThrows.visitBlock dom exit) l st = some st' ∧
        Throwable st'.graph ∧ ThrowStep st.graph st'.graph ∧
        (st.rerun_dominance_and_loop_analysis = true →
          st'.rerun_dominance_and_loop_analysis = true) ∧
        (∀ b, st.graph.successorsOf b = [exit] → st'.graph.successorsOf b = [exit]) := by
  intro l
  induction l with
  | nil =>
    intro st T _ _
    exact ⟨st, rfl, T, ThrowStep.throw_refl _, fun h => h, fun _ h => h⟩
  | cons B rest ih =>
    intro st T hl hexit
    have hB := T.blocks B (hl B (List.mem_cons_self _ _))
    obtain ⟨st1, hv, T1, S1, hr1, hs1⟩ := visitBlock_effects T dom exit B hB hexit
    obtain ⟨st2, hi, T2, S2, hr2, hs2⟩ := ih st1 T1
      (fun x hx => by rw [S1.rpo]; exact hl x (List.mem_cons_of_mem _ hx))
      (by rw [S1.block_some]; exact hexit)
    refine ⟨st2, ?_, T2, S1.throw_trans S2, fun h => hr2 (hr1 h), fun b h => hs2 b (hs1 b h)⟩
    simp only [iterate, hv]
    exact hi

theorem iterate_append {σ α : Type} (body : σ → α → Option σ) (l1 l2 : List α) (s s1 : σ)
    (h : iterate body l1 s = some s1) :
    iterate body (l1 ++ l2) s = iterate body l2 s1 := by
  induction l1 generalizing s with
  | nil =>
    simp only [iterate, Option.some.injEq] at h
    rw [h]
    rfl
  | cons x xs ih =>
    simp only [iterate, List.cons_append] at h ⊢
    cases hb : body s x with
    | none => rw [hb] at h; cases h
    | some s' =>
      rw [hb] at h
      simp only at h ⊢
      exact ih s' h

/-- The rebuild of the dominator tree keeps the successors and the instruction
lists. -/
theorem GetBlock_rebuild (a : GraphAnalysis) (g : HGraph) (b : Nat) :
    ∃ f : HBasicBlock → HBasicBlock,
      (∀ blk, (f blk).successors = blk.successors ∧ (f blk).instructions = blk.instructions ∧
        (f blk).predecessors = blk.predecessors ∧ (f blk).phis = blk.phis) ∧
      ((g.ClearLoopInformation.ClearDominanceInformation).BuildDominatorTree a).GetBlock b =
        (g.GetBlock b).map f := by
  let g1 := (g.ClearLoopInformation.ClearDominanceInformation).ComputeDominanceInformation a
  let g2 := g1.mapBlocks (fun id b => { b with loop_information := a.loopInformation g1 id })
  refine ⟨fun blk => { blk with
    loop_information := a.loopInformation g1 b,
    try_catch_information := a.tryCatchInformation g2 b }, fun _ => ⟨rfl, rfl, rfl, rfl⟩, ?_⟩
  simp only [HGraph.BuildDominatorTree, HGraph.ComputeTryBlockInformation, GetBlock_mapBlocks]
  have : ((g.ClearLoopInformation.ClearDominanceInformation).ComputeDominanceInformation a
      ).GetBlock b = g.ClearLoopInformation.GetBlock b := rfl
  rw [this, HGraph.ClearLoopInformation, GetBlock_mapBlocks]
  cases g.GetBlock b <;> rfl

theorem successorsOf_rebuild (a : GraphAnalysis) (g : HGraph) (b : Nat) :
    ((g.ClearLoopInformation.ClearDominanceInformation).BuildDominatorTree a).successorsOf b =
      g.successorsOf b := by
  obtain ⟨f, hf, hg⟩ := GetBlock_rebuild a g b
  unfold HGraph.successorsOf
  rw [hg]
  cases g.GetBlock b with
  | none => rfl
  | some blk => exact (hf blk).1

theorem instructionsOf_rebuild (a : GraphAnalysis) (g : HGraph) (b : Nat) :
    ((g.ClearLoopInformation.ClearDominanceInformation).BuildDominatorTree a).instructionsOf b =
      g.instructionsOf b := by
  obtain ⟨f, hf, hg⟩ := GetBlock_rebuild a g b
  unfold HGraph.instructionsOf
  rw [hg]
  cases g.GetBlock b with
  | none => rfl
  | some blk => exact (hf blk).2.1

theorem last_two_of_reverse (l : List Nat) (last prev : Nat) (rest : List Nat)
    (h : l.reverse = last :: prev :: rest) :
    l.getLast? = some last ∧ l.dropLast.getLast? = some prev := by
  have hl : l = (rest.reverse ++ [prev]) ++ [last] := by
    rw [← List.reverse_reverse l, h]
    simp
  subst hl
  constructor
  · simp
  · rw [List.dropLast_concat]
    simp

/-- The visit of a block that meets every condition of lines 272-283
redirects it to the exit block. -/
theorem visitBlock_redirects (dom : HGraph) (exit B pred succ : Nat)
    (st st' : SimplifyAlwaysThrowsState)
    (hc : st.graph.ThrowsBeforeGoto exit B succ = true)
    (hphis : st.graph.phisOf B = [])
    (hpred : st.graph.predecessorsOf B = [pred])
    (hd1 : dom.Dominates B pred = false) (hd2 : dom.Dominates pred succ = true)
    (h : SimplifyAlwaysThrows.visitBlock dom exit st B = some st') :
    st'.rerun_dominance_and_loop_analysis = true ∧ st'.graph.successorsOf B = [exit] := by
  unfold HGraph.ThrowsBeforeGoto at hc
  simp only [Bool.and_eq_true, Bool.not_eq_true', beq_iff_eq, bne_iff_ne, ne_eq,
    decide_eq_true_eq, List.isEmpty_eq_true] at hc
  obtain ⟨⟨⟨⟨⟨htry, hins⟩, hsucc⟩, hne⟩, hlen⟩, hsphis⟩ := hc
  unfold SimplifyAlwaysThrows.visitBlock at h
  cases hb : st.graph.GetBlock B with
  | none =>
    unfold HGraph.predecessorsOf at hpred
    rw [hb] at hpred
    cases hpred
  | some b =>
    rw [hb] at h
    simp only at h
    have hi : st.graph.instructionsOf B = b.instructions := by
      unfold HGraph.instructionsOf; rw [hb]
    have hs : b.successors = [succ] := by
      unfold HGraph.successorsOf at hsucc; rw [hb] at hsucc; exact hsucc
    have hp : b.predecessors = [pred] := by
      unfold HGraph.predecessorsOf at hpred; rw [hb] at hpred; exact hpred
    have hph : b.phis = [] := by
      unfold HGraph.phisOf at hphis; rw [hb] at hphis; exact hphis
    rw [HasTryCatchInformation_of_GetBlock _ B b hb] at htry
    rw [if_neg (by rw [htry]; exact Bool.false_ne_true)] at h
    rw [hi] at hins
    split at hins
    · rename_i last prev rest hrev
      obtain ⟨hl, hpv⟩ := last_two_of_reverse _ _ _ _ hrev
      simp only [Bool.and_eq_true] at hins
      unfold HBasicBlock.GetLastInstruction at h
      rw [hl] at h
      simp only at h
      rw [hpv] at h
      simp only [hins.1, hins.2, hph, hp, hs, List.isEmpty_nil, List.length_singleton,
        decide_True, Bool.and_self, if_true, List.getElem?_cons_zero] at h
      rw [if_neg hne, hd1, hd2] at h
      simp only [Bool.false_eq_true, if_false, Bool.not_true] at h
      cases hsb : st.graph.GetBlock succ with
      | none =>
        unfold HGraph.predecessorsOf at hlen
        rw [hsb] at hlen
        simp at hlen
      | some sb =>
        rw [hsb] at h
        simp only at h
        have h1 : sb.predecessors.length > 1 := by
          unfold HGraph.predecessorsOf at hlen
          rw [hsb] at hlen
          exact hlen
        have h2 : sb.phis = [] := by
          unfold HGraph.phisOf at hsphis
          rw [hsb] at hsphis
          exact hsphis
        simp only [h1, h2, decide_True, List.isEmpty_nil, Bool.and_self, if_true] at h
        cases hr : RemoveNonNullControlDependences dom
            (st.graph.ReplaceSuccessor B succ exit) pred B with
        | none => rw [hr] at h; cases h
        | some r =>
          obtain ⟨g2, removed⟩ := r
          rw [hr] at h
          simp only [Option.some.injEq] at h
          have hstep := RemoveNonNullControlDependences_step dom _ pred B g2 removed hr
          rw [← h]
          refine ⟨rfl, ?_⟩
          simp only
          rw [successorsOf_of_shapeOf _ _ B (hstep.shape B), successorsOf_ReplaceSuccessor,
            if_pos rfl]
          rw [hsucc]
          simp [replaceFirst]
    · cases hins

/-- C26 (as stated, refuted): a block whose second-to-last instruction always
throws and whose Goto leads to a non-exit block with two predecessors and no
phis is not redirected when it has two predecessors itself (block 4 of
`exampleThrowingMerge`), when its predecessor does not dominate the successor
(block 2 of `exampleThrowingSide`), when it has a phi (block 2 of
`exampleThrowingPhi`), and when an earlier redirection has left the successor
with one predecessor (block 3 of `exampleThrowingTwice`). -/
theorem SimplifyAlwaysThrows_leaves_throwing_goto :
    (exampleThrowingMerge.ThrowsBeforeGoto 6 4 5 = true ∧
      SimplifyAlwaysThrows (exampleAnalysis [0, 1, 2, 3, 4, 7, 5, 6])
          { graph := exampleThrowingMerge, stats := none } =
        some ({ graph := exampleThrowingMerge, stats := none }, false)) ∧
    (exampleThrowingSide.ThrowsBeforeGoto 5 2 4 = true ∧
      SimplifyAlwaysThrows (exampleAnalysis [0, 1, 2, 3, 4, 5])
          { graph := exampleThrowingSide, stats := none } =
        some ({ graph := exampleThrowingSide, stats := none }, false)) ∧
    (exampleThrowingPhi.ThrowsBeforeGoto 5 2 4 = true ∧
      SimplifyAlwaysThrows (exampleAnalysis [0, 1, 2, 3, 4, 5])
          { graph := exampleThrowingPhi, stats := none } =
        some ({ graph := exampleThrowingPhi, stats := none }, false)) ∧
    (exampleThrowingTwice.ThrowsBeforeGoto 5 3 4 = true ∧
      (SimplifyAlwaysThrows (exampleAnalysis [0, 1, 2, 3, 4, 5])
          { graph := exampleThrowingTwice, stats := none }).map
          (fun r => (r.1.graph.successorsOf 2, r.1.graph.successorsOf 3)) =
        some ([5], [4])) := by
  decide

/-- C26 (amended): let a graph be well-formed and have an exit block.  For
every block of the reverse post order that, when the loop of
SimplifyAlwaysThrows reaches it, is outside a try, has no phis and exactly one
predecessor `pred`, whose second-to-last instruction always throws and whose
last one is a Goto to a successor `succ` that is not the exit block, has at
least two predecessors and has no phis, where, in the dominator tree with which
the pass starts, `pred` dominates `succ` and the block does not dominate
`pred`: SimplifyAlwaysThrows returns true, and the exit block is the only
successor of the block afterwards. -/
theorem SimplifyAlwaysThrows_redirects_to_exit (a : GraphAnalysis)
    (dce : HDeadCodeElimination) (exit block pred succ : Nat) (l1 l2 : List Nat)
    (st1 : SimplifyAlwaysThrowsState)
    (hwf : dce.graph.ThrowReady = true)
    (hexit : dce.graph.exit_block = some exit)
    (hrpo : dce.graph.reverse_post_order = l1 ++ block :: l2)
    (hreach : iterate (SimplifyAlwaysThrows.visitBlock dce.graph exit) l1
      { graph := dce.graph, stats := dce.stats,
        rerun_dominance_and_loop_analysis := false } = some st1)
    (hc : st1.graph.ThrowsBeforeGoto exit block succ = true)
    (hphis : st1.graph.phisOf block = [])
    (hpred : st1.graph.predecessorsOf block = [pred])
    (hd1 : dce.graph.Dominates block pred = false)
    (hd2 : dce.graph.Dominates pred succ = true) :
    ∃ r, SimplifyAlwaysThrows a dce = some r ∧ r.2 = true ∧
      r.1.graph.successorsOf block = [exit] := by
  have T0 := ThrowReady_throwable dce.graph hwf
  have he0 := T0.exit_some exit hexit
  obtain ⟨st1', hi1, T1, S1, _, _⟩ := SimplifyAlwaysThrows_loop dce.graph exit l1
    { graph := dce.graph, stats := dce.stats, rerun_dominance_and_loop_analysis := false }
    T0 (fun B hB => by
      show B ∈ dce.graph.reverse_post_order
      rw [hrpo]
      exact List.mem_append_left _ hB) he0
  rw [hreach] at hi1
  cases hi1
  have hB1 : (st1.graph.GetBlock block).isSome = true := by
    rw [S1.block_some]
    apply T0.blocks
    rw [hrpo]
    exact List.mem_append_right _ (List.mem_cons_self _ _)
  have he1 : (st1.graph.GetBlock exit).isSome = true := by
    rw [S1.block_some]; exact he0
  obtain ⟨st2, hv, T2, S2, _, _⟩ := visitBlock_effects T1 dce.graph exit block hB1 he1
  obtain ⟨hr2, hs2⟩ := visitBlock_redirects dce.graph exit block pred succ st1 st2 hc hphis
    hpred hd1 hd2 hv
  obtain ⟨st3, hi3, T3, S3, hr3, hs3⟩ := SimplifyAlwaysThrows_loop dce.graph exit l2 st2 T2
    (fun B hB => by
      rw [S2.rpo, S1.rpo]
      show B ∈ dce.graph.reverse_post_order
      rw [hrpo]
      exact List.mem_append_right _ (List.mem_cons_of_mem _ hB))
    (by rw [S2.block_some]; exact he1)
  have hloop : iterate (SimplifyAlwaysThrows.visitBlock dce.graph exit)
      dce.graph.reverse_post_order
      { graph := dce.graph, stats := dce.stats,
        rerun_dominance_and_loop_analysis := false } = some st3 := by
    rw [hrpo, iterate_append _ _ _ _ _ hreach]
    simp only [iterate, hv]
    exact hi3
  unfold SimplifyAlwaysThrows
  rw [hexit]
  simp only
  rw [hloop]
  simp only [hr3 hr2, if_true]
  refine ⟨_, rfl, rfl, ?_⟩
  simp only
  rw [successorsOf_rebuild]
  exact hs3 block hs2

/-- In `exampleThrowingBranch`, block 2 is redirected to the exit block 5. -/
theorem SimplifyAlwaysThrows_redirects_to_exit_witness :
    exampleThrowingBranch.ThrowReady = true ∧
    exampleThrowingBranch.ThrowsBeforeGoto 5 2 4 = true ∧
    exampleThrowingBranch.successorsOf 2 = [4] ∧
    ∃ r, SimplifyAlwaysThrows (exampleAnalysis [0, 1, 2, 3, 4, 5])
        { graph := exampleThrowingBranch, stats := none } = some r ∧ r.2 = true ∧
      r.1.graph.successorsOf 2 = [5] :=
  ⟨by decide, by decide, by decide,
    SimplifyAlwaysThrows_redirects_to_exit (exampleAnalysis [0, 1, 2, 3, 4, 5])
      { graph := exampleThrowingBranch, stats := none } 5 2 1 4 [0, 1] [3, 4, 5]
      { graph := exampleThrowingBranch, stats := none,
        rerun_dominance_and_loop_analysis := false }
      (by decide) (by decide) (by decide) (by decide) (by decide) (by decide) (by decide)
      (by decide) (by decide)⟩

/-- C27 (as stated, refuted): in `exampleNullCheckInTry`, SimplifyAlwaysThrows
redirects block 2 to the exit block, and its follow-up removes the NullCheck
(instruction 9) from block 5, which has try-catch information: the instructions
of block 5 are 9, 10 and 11 before and 10 and 11 afterwards. -/
theorem SimplifyAlwaysThrows_removes_NullCheck_in_try :
    exampleNullCheckInTry.HasTryCatchInformation 5 = true ∧
    exampleNullCheckInTry.instructionsOf 5 = [9, 10, 11] ∧
    (SimplifyAlwaysThrows (exampleAnalysis [0, 1, 2, 3, 4, 5, 6, 7, 8])
        { graph := exampleNullCheckInTry, stats := none }).map
        (fun r => (r.1.graph.instructionsOf 5, r.1.graph.instructionsOf 3, r.2)) =
      some ([10, 11], [15, 7], true) := by
  decide

/-- C27 (amended): on a well-formed graph SimplifyAlwaysThrows returns, and
every block with try-catch information has the same successors afterwards as
before, and the same instructions except for NullChecks, which may have left
it. -/
theorem SimplifyAlwaysThrows_keeps_try_blocks (a : GraphAnalysis)
    (dce : HDeadCodeElimination) (hwf : dce.graph.ThrowReady = true) :
    ∃ r, SimplifyAlwaysThrows a dce = some r ∧
      ∀ b, dce.graph.HasTryCatchInformation b = true →
        r.1.graph.successorsOf b = dce.graph.successorsOf b ∧
        ∃ removed : List Nat,
          r.1.graph.instructionsOf b =
            (dce.graph.instructionsOf b).filter (fun u => decide (u ∉ removed)) ∧
          ∀ u ∈ removed, dce.graph.KindOf u = some InstructionKind.NullCheck := by
  have T0 := ThrowReady_throwable dce.graph hwf
  unfold SimplifyAlwaysThrows
  cases hexit : dce.graph.exit_block with
  | none =>
    refine ⟨_, rfl, fun b _ => ⟨rfl, [], ?_, by simp⟩⟩
    simp
  | some exit =>
    simp only
    obtain ⟨st, hi, _, S, _, _⟩ := SimplifyAlwaysThrows_loop dce.graph exit
      dce.graph.reverse_post_order
      { graph := dce.graph, stats := dce.stats, rerun_dominance_and_loop_analysis := false }
      T0 (fun _ h => h) (T0.exit_some exit hexit)
    rw [hi]
    simp only
    have key : ∀ b, dce.graph.HasTryCatchInformation b = true →
        st.graph.successorsOf b = dce.graph.successorsOf b ∧
        ∃ removed : List Nat,
          st.graph.instructionsOf b =
            (dce.graph.instructionsOf b).filter (fun u => decide (u ∉ removed)) ∧
          ∀ u ∈ removed, dce.graph.KindOf u = some InstructionKind.NullCheck := by
      intro b hb
      refine ⟨S.succ b hb, ?_⟩
      obtain ⟨ins, rm, h1, h2, _, h4⟩ := S.lists b
      have : ins = [] := by
        by_contra hne
        have := h4 hne
        simp only at this
        rw [hb] at this
        cases this
      rw [this, List.nil_append] at h1
      exact ⟨rm, h1, h2⟩
    split
    · refine ⟨_, rfl, fun b hb => ?_⟩
      simp only
      rw [successorsOf_rebuild, instructionsOf_rebuild]
      exact key b hb
    · exact ⟨_, rfl, key⟩

/-- On `exampleNullCheckInTry`, whose block 5 loses its NullCheck. -/
theorem SimplifyAlwaysThrows_keeps_try_blocks_witness :
    exampleNullCheckInTry.ThrowReady = true ∧
    ∃ r, SimplifyAlwaysThrows (exampleAnalysis [0, 1, 2, 3, 4, 5, 6, 7, 8])
        { graph := exampleNullCheckInTry, stats := none } = some r ∧
      ∀ b, exampleNullCheckInTry.HasTryCatchInformation b = true →
        r.1.graph.successorsOf b = exampleNullCheckInTry.successorsOf b ∧
        ∃ removed : List Nat,
          r.1.graph.instructionsOf b =
            (exampleNullCheckInTry.instructionsOf b).filter (fun u => decide (u ∉ removed)) ∧
          ∀ u ∈ removed, exampleNullCheckInTry.KindOf u = some InstructionKind.NullCheck :=
  ⟨by decide,
    SimplifyAlwaysThrows_keeps_try_blocks (exampleAnalysis [0, 1, 2, 3, 4, 5, 6, 7, 8])
      { graph := exampleNullCheckInTry, stats := none } (by decide)⟩

/-! ## ConnectSuccessiveBlocks -/

theorem MergeReady_merging (g : HGraph) (h : g.MergeReady = true) : Merging g := by
  unfold HGraph.MergeReady at h
  simp only [Bool.and_eq_true, List.all_eq_true, List.mem_range, decide_eq_true_eq,
    beq_iff_eq] at h
  obtain ⟨⟨⟨h1, h2⟩, h3⟩, h4⟩ := h
  have hlast : ∀ B ∈ g.reverse_post_order, ∃ last, (g.instructionsOf B).getLast? = some last ∧
      (g.KindOf last = some InstructionKind.Goto → ∃ s, g.successorsOf B = [s] ∧
        (g.EndsInMergeableGoto B = true → precedes g.reverse_post_order B s = true)) := by
    intro B hB
    have := (h4 B hB).2
    cases hl : (g.instructionsOf B).getLast? with
    | none => rw [hl] at this; cases this
    | some last =>
      rw [hl] at this
      refine ⟨last, rfl, ?_⟩
      intro hk
      simp only at this
      rw [(kindIs_eq_iff g _ last).mpr hk] at this
      simp only [Bool.not_true, Bool.false_or] at this
      split at this
      · rename_i s hsucc
        refine ⟨s, hsucc, ?_⟩
        intro hm
        rw [hm] at this
        simpa using this
      · cases this
  refine ⟨h1, h2, ?_, fun B hB => (h4 B hB).1.1, fun B hB => (h4 B hB).1.2, ?_, ?_, ?_⟩
  · intro B hB
    have := h3 B (GetBlock_isSome_lt g B hB)
    rw [hB] at this
    simpa using this
  · intro B hB
    obtain ⟨last, hl, _⟩ := hlast B hB
    exact ⟨last, hl⟩
  · intro B hB last hl hk
    obtain ⟨last', hl', hs⟩ := hlast B hB
    rw [hl] at hl'
    cases hl'
    obtain ⟨s, hs, _⟩ := hs hk
    exact ⟨s, hs⟩
  · intro B hB s hm hsucc
    obtain ⟨last, hl, hs⟩ := hlast B hB
    have hk : g.KindOf last = some InstructionKind.Goto := by
      unfold HGraph.EndsInMergeableGoto at hm
      rw [hl, hsucc] at hm
      simp only [Bool.and_eq_true] at hm
      exact (kindIs_eq_iff g _ last).mp hm.1.1
    obtain ⟨s', hs', hp⟩ := hs hk
    rw [hsucc] at hs'
    cases hs'
    exact hp hm

/-- The block table after MergeWith. -/
theorem GetBlock_MergeWith (g : HGraph) (block other id : Nat) :
    (g.MergeWith block other).GetBlock id =
      if id = other then none
      else (g.GetBlock id).map (fun blk =>
        { blk with
          instructions :=
            if id = block then
              blk.instructions.filter (fun i => some i ≠ (g.instructionsOf block).getLast?) ++
                g.instructionsOf other
            else blk.instructions,
          successors := if id = block then g.successorsOf other else blk.successors,
          predecessors :=
            if id ∈ g.successorsOf other then
              ((g.successorsOf other).filter (fun s => s = id)).foldl
                (fun preds _ => replaceFirst other block preds) blk.predecessors
            else blk.predecessors }) := by
  simp only [GetBlock_eq, HGraph.MergeWith, getElem?_mapWithIndex, Nat.zero_add]
  cases g.blocks[id]? with
  | none => simp
  | some ob =>
    by_cases h : id = other
    · simp [h]
    · cases ob with
      | none => simp [h]
      | some blk => simp [h]

theorem KindOf_MergeWith (g : HGraph) (block other u : Nat) :
    (g.MergeWith block other).KindOf u = g.KindOf u := by
  simp only [HGraph.KindOf, HGraph.GetInstruction, HGraph.MergeWith, getElem?_mapWithIndex,
    Nat.zero_add]
  cases g.instructions[u]? with
  | none => rfl
  | some i =>
    simp only [Option.map_some']
    split
    · rfl
    · split <;> rfl

theorem GetBlock_isSome_MergeWith (g : HGraph) (block other id : Nat) :
    ((g.MergeWith block other).GetBlock id).isSome =
      (decide (id ≠ other) && (g.GetBlock id).isSome) := by
  rw [GetBlock_MergeWith]
  by_cases h : id = other
  · simp [h]
  · cases g.GetBlock id <;> simp [h]

theorem instructionsOf_MergeWith (g : HGraph) (block other id : Nat)
    (hb : (g.GetBlock block).isSome = true) :
    (g.MergeWith block other).instructionsOf id =
      if id = other then []
      else if id = block then
        (g.instructionsOf block).filter (fun i => some i ≠ (g.instructionsOf block).getLast?) ++
          g.instructionsOf other
      else g.instructionsOf id := by
  unfold HGraph.instructionsOf
  rw [GetBlock_MergeWith]
  by_cases h : id = other
  · simp [h]
  · rw [if_neg h, if_neg h]
    by_cases h2 : id = block
    · subst h2
      cases hg : g.GetBlock id with
      | none => rw [hg] at hb; cases hb
      | some blk => simp [HGraph.instructionsOf, hg]
    · cases hg : g.GetBlock id with
      | none => simp [h2]
      | some blk => simp [h2]

theorem successorsOf_MergeWith (g : HGraph) (block other id : Nat)
    (hb : (g.GetBlock block).isSome = true) :
    (g.MergeWith block other).successorsOf id =
      if id = other then []
      else if id = block then g.successorsOf other
      else g.successorsOf id := by
  unfold HGraph.successorsOf
  rw [GetBlock_MergeWith]
  by_cases h : id = other
  · simp [h]
  · rw [if_neg h, if_neg h]
    by_cases h2 : id = block
    · subst h2
      cases hg : g.GetBlock id with
      | none => rw [hg] at hb; cases hb
      | some blk => simp [HGraph.successorsOf]
    · cases hg : g.GetBlock id with
      | none => simp [h2]
      | some blk => simp [h2]

theorem length_foldl_replaceFirst (old new : Nat) (k : List Nat) (l : List Nat) :
    (k.foldl (fun preds _ => replaceFirst old new preds) l).length = l.length := by
  induction k generalizing l with
  | nil => rfl
  | cons x xs ih =>
    rw [List.foldl_cons, ih, length_replaceFirst]

theorem mem_replaceFirst_of_ne (old new x : Nat) (l : List Nat) (h : x ∈ l) (hx : x ≠ old) :
    x ∈ replaceFirst old new l := by
  induction l with
  | nil => cases h
  | cons y ys ih =>
    unfold replaceFirst
    split
    · rename_i hy
      rcases List.mem_cons.mp h with e | hm
      · exact absurd (e.trans hy) hx
      · exact List.mem_cons_of_mem _ hm
    · rcases List.mem_cons.mp h with e | hm
      · exact e ▸ List.mem_cons_self _ _
      · exact List.mem_cons_of_mem _ (ih hm)

theorem mem_replaceFirst_new (old new : Nat) (l : List Nat) (h : old ∈ l) :
    new ∈ replaceFirst old new l := by
  induction l with
  | nil => cases h
  | cons y ys ih =>
    unfold replaceFirst
    split
    · exact List.mem_cons_self _ _
    · rename_i hy
      rcases List.mem_cons.mp h with e | hm
      · exact absurd e.symm hy
      · exact List.mem_cons_of_mem _ (ih hm)

theorem mem_foldl_replaceFirst_of_ne (old new x : Nat) (k : List Nat) (l : List Nat)
    (h : x ∈ l) (hx : x ≠ old) :
    x ∈ k.foldl (fun preds _ => replaceFirst old new preds) l := by
  induction k generalizing l with
  | nil => exact h
  | cons y ys ih =>
    rw [List.foldl_cons]
    exact ih _ (mem_replaceFirst_of_ne old new x l h hx)

theorem mem_foldl_replaceFirst_new (old new : Nat) (k : List Nat) (l : List Nat)
    (hk : k ≠ []) (h : old ∈ l) (hne : new ≠ old) :
    new ∈ k.foldl (fun preds _ => replaceFirst old new preds) l := by
  cases k with
  | nil => exact absurd rfl hk
  | cons y ys =>
    rw [List.foldl_cons]
    exact mem_foldl_replaceFirst_of_ne old new new ys _ (mem_replaceFirst_new old new l h) hne

theorem length_predecessorsOf_MergeWith (g : HGraph) (block other id : Nat) :
    ((g.MergeWith block other).predecessorsOf id).length =
      if id = other then 0 else (g.predecessorsOf id).length := by
  unfold HGraph.predecessorsOf
  rw [GetBlock_MergeWith]
  by_cases h : id = other
  · simp [h]
  · rw [if_neg h, if_neg h]
    cases hg : g.GetBlock id with
    | none => rfl
    | some blk =>
      simp only [Option.map_some']
      split
      · exact length_foldl_replaceFirst _ _ _ _
      · rfl

/-- A predecessor other than the absorbed block stays a predecessor. -/
theorem mem_predecessorsOf_MergeWith (g : HGraph) (block other id p : Nat)
    (h : p ∈ g.predecessorsOf id) (hid : id ≠ other) (hp : p ≠ other) :
    p ∈ (g.MergeWith block other).predecessorsOf id := by
  unfold HGraph.predecessorsOf at h ⊢
  rw [GetBlock_MergeWith, if_neg hid]
  cases hg : g.GetBlock id with
  | none => rw [hg] at h; cases h
  | some blk =>
    rw [hg] at h
    simp only [Option.map_some'] at h ⊢
    split
    · exact mem_foldl_replaceFirst_of_ne _ _ _ _ _ h hp
    · exact h

/-- The absorbing block becomes a predecessor of the successors of the
absorbed block. -/
theorem mem_predecessorsOf_MergeWith_new (g : HGraph) (block other id : Nat)
    (hs : id ∈ g.successorsOf other) (h : other ∈ g.predecessorsOf id) (hid : id ≠ other)
    (hne : block ≠ other) :
    block ∈ (g.MergeWith block other).predecessorsOf id := by
  unfold HGraph.predecessorsOf at h ⊢
  rw [GetBlock_MergeWith, if_neg hid]
  cases hg : g.GetBlock id with
  | none => rw [hg] at h; cases h
  | some blk =>
    rw [hg] at h
    simp only [Option.map_some'] at h ⊢
    rw [if_pos hs]
    apply mem_foldl_replaceFirst_new _ _ _ _ _ h hne
    intro e
    have : id ∈ (g.successorsOf other).filter (fun s => decide (s = id)) :=
      List.mem_filter.mpr ⟨hs, by simp⟩
    rw [e] at this
    cases this

theorem precedes_filter (p : Nat → Bool) (l : List Nat) (x y : Nat) (hx : p x = true)
    (hy : p y = true) (h : precedes l x y = true) : precedes (l.filter p) x y = true := by
  induction l with
  | nil => simp [precedes] at h
  | cons z zs ih =>
    unfold precedes at h
    by_cases hz : z = x
    · rw [if_pos hz] at h
      subst hz
      rw [List.filter_cons_of_pos hx]
      unfold precedes
      rw [if_pos rfl]
      simp only [decide_eq_true_eq] at h ⊢
      exact List.mem_filter.mpr ⟨h, hy⟩
    · rw [if_neg hz] at h
      by_cases hpz : p z = true
      · rw [List.filter_cons_of_pos hpz]
        unfold precedes
        rw [if_neg hz]
        exact ih h
      · rw [List.filter_cons_of_neg hpz]
        exact ih h

theorem precedes_trans (l : List Nat) (x y z : Nat) (hn : l.Nodup)
    (h1 : precedes l x y = true) (h2 : precedes l y z = true) : precedes l x z = true := by
  induction l with
  | nil => simp [precedes] at h1
  | cons w ws ih =>
    unfold precedes at h1 h2 ⊢
    have hw := (List.nodup_cons.mp hn).1
    by_cases hx : w = x
    · rw [if_pos hx] at h1 ⊢
      simp only [decide_eq_true_eq] at h1 ⊢
      have hy : w ≠ y := fun e => hw (e ▸ h1)
      rw [if_neg hy] at h2
      exact mem_of_precedes ws y z h2
    · rw [if_neg hx] at h1 ⊢
      have hy : w ≠ y := fun e => hw (e ▸ mem_of_precedes ws x y h1)
      rw [if_neg hy] at h2
      exact ih (List.nodup_cons.mp hn).2 h1 h2

theorem head?_ne_of_precedes (l : List Nat) (x y : Nat) (hn : l.Nodup)
    (h : precedes l x y = true) : l.head? ≠ some y := by
  cases l with
  | nil => simp
  | cons w ws =>
    intro e
    simp only [List.head?_cons, Option.some.injEq] at e
    subst e
    have hw := (List.nodup_cons.mp hn).1
    unfold precedes at h
    split at h
    · simp only [decide_eq_true_eq] at h
      exact hw h
    · exact hw (mem_of_precedes ws x w h)

theorem head?_filter_of_pos (p : Nat → Bool) (l : List Nat) (x : Nat) (h : l.head? = some x)
    (hp : p x = true) : (l.filter p).head? = some x := by
  cases l with
  | nil => cases h
  | cons w ws =>
    simp only [List.head?_cons, Option.some.injEq] at h
    subst h
    rw [List.filter_cons_of_pos hp]
    rfl

/-- The facts about a block `b` that ends in a mergeable Goto to `s`. -/
theorem Merging.mergeable {g : HGraph} (M : Merging g) (b s : Nat)
    (hb : b ∈ g.reverse_post_order) (hm : g.EndsInMergeableGoto b = true)
    (hs : g.successorsOf b = [s]) :
    precedes g.reverse_post_order b s = true ∧ s ∈ g.reverse_post_order ∧ s ≠ b ∧
      g.predecessorsOf s = [b] := by
  have hp := M.order b hb s hm hs
  have hsm := mem_of_precedes _ _ _ hp
  have hpred : g.predecessorsOf s = [b] := by
    have he := M.edges b hb s (by rw [hs]; exact List.mem_singleton.mpr rfl)
    unfold HGraph.EndsInMergeableGoto at hm
    rw [hs] at hm
    cases hl : (g.instructionsOf b).getLast? with
    | none => rw [hl] at hm; cases hm
    | some last =>
      rw [hl] at hm
      simp only [Bool.and_eq_true, decide_eq_true_eq] at hm
      have hlen := hm.1.2
      cases hps : g.predecessorsOf s with
      | nil => rw [hps] at hlen; cases hlen
      | cons p ps =>
        rw [hps] at hlen he
        cases ps with
        | nil =>
          rw [List.mem_singleton] at he
          rw [he]
        | cons q qs => simp at hlen
  refine ⟨hp, hsm, ?_, hpred⟩
  intro e
  subst e
  have hn := M.nodup
  revert hp
  generalize g.reverse_post_order = l at hn
  induction l with
  | nil => simp [precedes]
  | cons w ws ih =>
    intro hp
    unfold precedes at hp
    have hw := (List.nodup_cons.mp hn).1
    split at hp
    · rename_i e
      simp only [decide_eq_true_eq] at hp
      exact hw (e ▸ hp)
    · exact ih (List.nodup_cons.mp hn).2 hp

/-- A block other than the two merged ones that ends in a mergeable Goto
after MergeWith did so before. -/
theorem EndsInMergeableGoto_MergeWith_other (g : HGraph) (b s B : Nat)
    (hb : (g.GetBlock b).isSome = true) (h1 : B ≠ b) (h2 : B ≠ s)
    (h : (g.MergeWith b s).EndsInMergeableGoto B = true) :
    g.EndsInMergeableGoto B = true ∧
      ∀ x, g.successorsOf B = [x] → x ≠ s := by
  unfold HGraph.EndsInMergeableGoto at h ⊢
  rw [instructionsOf_MergeWith g b s B hb, if_neg h2, if_neg h1,
    successorsOf_MergeWith g b s B hb, if_neg h2, if_neg h1] at h
  cases hl : (g.instructionsOf B).getLast? with
  | none => rw [hl] at h; simp at h
  | some last =>
    rw [hl] at h
    cases hs : g.successorsOf B with
    | nil => rw [hs] at h; simp at h
    | cons x xs =>
      cases xs with
      | cons y ys => rw [hs] at h; simp at h
      | nil =>
        rw [hs] at h
        simp only [Bool.and_eq_true, decide_eq_true_eq] at h ⊢
        obtain ⟨⟨hk, hlen⟩, hex⟩ := h
        rw [length_predecessorsOf_MergeWith] at hlen
        have hx : x ≠ s := by
          intro e
          rw [if_pos e] at hlen
          cases hlen
        rw [if_neg hx] at hlen
        refine ⟨⟨⟨?_, hlen⟩, hex⟩, ?_⟩
        · unfold HGraph.kindIs at hk ⊢
          rw [KindOf_MergeWith] at hk
          exact hk
        · intro x' e
          simp only [List.cons.injEq, and_true] at e
          rw [← e]
          exact hx

/-- MergeWith of a block with the successor of its mergeable Goto keeps the
graph well-formed. -/
theorem Merging.merge_with {g : HGraph} (M : Merging g) (b s : Nat)
    (hb : b ∈ g.reverse_post_order) (hm : g.EndsInMergeableGoto b = true)
    (hs : g.successorsOf b = [s]) : Merging (g.MergeWith b s) := by
  obtain ⟨hp, hsm, hne, hpred⟩ := M.mergeable b s hb hm hs
  have hbs := M.blocks b hb
  have hrpo : (g.MergeWith b s).reverse_post_order =
      g.reverse_post_order.filter (fun x => decide (x ≠ s)) := rfl
  have hmem : ∀ B, B ∈ (g.MergeWith b s).reverse_post_order ↔
      B ∈ g.reverse_post_order ∧ B ≠ s := by
    intro B
    rw [hrpo, List.mem_filter]
    simp
  have hlast_s := M.last s hsm
  have hins_b : ∀ l, (g.instructionsOf s).getLast? = some l →
      ((g.MergeWith b s).instructionsOf b).getLast? = some l := by
    intro l hl
    rw [instructionsOf_MergeWith g b s b hbs, if_neg (Ne.symm hne), if_pos rfl,
      getLast?_append_of_ne_nil, hl]
    intro e
    rw [e] at hl
    cases hl
  have hsucc_b : (g.MergeWith b s).successorsOf b = g.successorsOf s := by
    rw [successorsOf_MergeWith g b s b hbs, if_neg (Ne.symm hne), if_pos rfl]
  have hself : s ∉ g.successorsOf s := by
    intro hmem_s
    have := M.edges s hsm s hmem_s
    rw [hpred, List.mem_singleton] at this
    exact hne this
  refine ⟨?_, ?_, ?_, ?_, ?_, ?_, ?_, ?_⟩
  · rw [hrpo]
    exact M.nodup.filter _
  · rw [hrpo]
    apply head?_filter_of_pos _ _ _ M.entry
    simp only [decide_eq_true_eq]
    intro e
    exact head?_ne_of_precedes _ b s M.nodup hp (by rw [M.entry, e])
  · intro B hB
    rw [GetBlock_isSome_MergeWith] at hB
    simp only [Bool.and_eq_true, decide_eq_true_eq] at hB
    exact (hmem B).mpr ⟨M.listed B hB.2, hB.1⟩
  · intro B hB
    rw [GetBlock_isSome_MergeWith]
    simp only [Bool.and_eq_true, decide_eq_true_eq]
    exact ⟨((hmem B).mp hB).2, M.blocks B ((hmem B).mp hB).1⟩
  · intro B hB x hx
    obtain ⟨hBr, hBs⟩ := (hmem B).mp hB
    by_cases e : B = b
    · subst e
      rw [hsucc_b] at hx
      have hxs : x ≠ s := fun e => hself (e ▸ hx)
      exact mem_predecessorsOf_MergeWith_new g B s x hx (M.edges s hsm x hx) hxs (Ne.symm hne)
    · rw [successorsOf_MergeWith g b s B hbs, if_neg hBs, if_neg e] at hx
      have hold := M.edges B hBr x hx
      have hxs : x ≠ s := by
        intro e2
        rw [e2, hpred, List.mem_singleton] at hold
        exact e hold
      exact mem_predecessorsOf_MergeWith g b s x B hold hxs hBs
  · intro B hB
    obtain ⟨hBr, hBs⟩ := (hmem B).mp hB
    by_cases e : B = b
    · subst e
      obtain ⟨l, hl⟩ := hlast_s
      exact ⟨l, hins_b l hl⟩
    · rw [instructionsOf_MergeWith g b s B hbs, if_neg hBs, if_neg e]
      exact M.last B hBr
  · intro B hB last hl hk
    obtain ⟨hBr, hBs⟩ := (hmem B).mp hB
    rw [KindOf_MergeWith] at hk
    by_cases e : B = b
    · subst e
      obtain ⟨l, hl0⟩ := hlast_s
      rw [hins_b l hl0] at hl
      cases hl
      rw [hsucc_b]
      exact M.single s hsm last hl0 hk
    · rw [instructionsOf_MergeWith g b s B hbs, if_neg hBs, if_neg e] at hl
      rw [successorsOf_MergeWith g b s B hbs, if_neg hBs, if_neg e]
      exact M.single B hBr last hl hk
  · intro B hB x hmB hsB
    obtain ⟨hBr, hBs⟩ := (hmem B).mp hB
    rw [hrpo]
    by_cases e : B = b
    · subst e
      rw [hsucc_b] at hsB
      obtain ⟨l, hl0⟩ := hlast_s
      have hxs : x ≠ s := fun e => hself (by rw [hsB, e]; exact List.mem_singleton.mpr rfl)
      have hms : g.EndsInMergeableGoto s = true := by
        unfold HGraph.EndsInMergeableGoto at hmB ⊢
        rw [hins_b l hl0, hsucc_b, hsB] at hmB
        rw [hl0, hsB]
        simp only [Bool.and_eq_true, decide_eq_true_eq] at hmB ⊢
        obtain ⟨⟨hk, hlen⟩, hex⟩ := hmB
        rw [length_predecessorsOf_MergeWith, if_neg hxs] at hlen
        refine ⟨⟨?_, hlen⟩, hex⟩
        unfold HGraph.kindIs at hk ⊢
        rw [KindOf_MergeWith] at hk
        exact hk
      have hp2 := M.order s hsm x hms hsB
      apply precedes_filter _ _ _ _ (by simpa using hBs) (by simpa using hxs)
      exact precedes_trans _ B s x M.nodup hp hp2
    · obtain ⟨hmo, hxs⟩ := EndsInMergeableGoto_MergeWith_other g b s B hbs e hBs hmB
      rw [successorsOf_MergeWith g b s B hbs, if_neg hBs, if_neg e] at hsB
      apply precedes_filter _ _ _ _ (by simpa using hBs) (by simpa using hxs x hsB)
      exact M.order B hBr x hmo hsB

theorem filter_ne_of_not_mem (l : List Nat) (s : Nat) (h : s ∉ l) :
    l.filter (fun x => decide (x ≠ s)) = l := by
  apply List.filter_eq_self.mpr
  intro x hx
  simp only [decide_eq_true_eq]
  intro e
  exact h (e ▸ hx)

theorem length_filter_ne_lt (l : List Nat) (s : Nat) (h : s ∈ l) :
    (l.filter (fun x => decide (x ≠ s))).length < l.length := by
  induction l with
  | nil => cases h
  | cons y ys ih =>
    by_cases e : y = s
    · rw [List.filter_cons_of_neg (by simp [e])]
      exact Nat.lt_succ_of_le (List.length_filter_le _ _)
    · rw [List.filter_cons_of_pos (by simp [e])]
      rcases List.mem_cons.mp h with e2 | hm
      · exact absurd e2.symm e
      · simp only [List.length_cons]
        exact Nat.succ_lt_succ (ih hm)

/-- The inner loop of ConnectSuccessiveBlocks returns; afterwards the block
does not end in a mergeable Goto, the blocks before it in the reverse post
order are where they were, and those that did not end in a mergeable Goto still
do not. -/
theorem ConnectSuccessiveBlocks_merge_spec :
    ∀ (fuel : Nat) (g : HGraph) (done rest : List Nat) (b : Nat), Merging g →
      g.reverse_post_order = done ++ b :: rest → rest.length ≤ fuel →
      ∃ g1 rest1, ConnectSuccessiveBlocks.merge fuel g b = some g1 ∧ Merging g1 ∧
        g1.reverse_post_order = done ++ b :: rest1 ∧ rest1.length ≤ rest.length ∧
        g1.EndsInMergeableGoto b = false ∧
        ∀ B ∈ done, g.EndsInMergeableGoto B = false → g1.EndsInMergeableGoto B = false := by
  intro fuel
  induction fuel with
  | zero =>
    intro g done rest b M hrpo hfuel
    have hrest : rest = [] := List.length_eq_zero.mp (Nat.le_zero.mp hfuel)
    subst hrest
    have hb : b ∈ g.reverse_post_order := by rw [hrpo]; simp
    obtain ⟨blk, hblk⟩ := Option.isSome_iff_exists.mp (M.blocks b hb)
    obtain ⟨last, hl⟩ := M.last b hb
    have hl' : blk.GetLastInstruction = some last := by
      unfold HGraph.instructionsOf at hl
      rw [hblk] at hl
      exact hl
    unfold ConnectSuccessiveBlocks.merge
    simp only [hblk, Option.some_bind, hl']
    by_cases hk : g.kindIs (fun k => decide (k = InstructionKind.Goto)) last = true
    · rw [if_pos hk]
      obtain ⟨s, hs⟩ := M.single b hb last hl ((kindIs_eq_iff g _ last).mp hk)
      rw [hs]
      simp only [List.getElem?_cons_zero]
      have he := M.edges b hb s (by rw [hs]; exact List.mem_singleton.mpr rfl)
      cases hsb : g.GetBlock s with
      | none =>
        unfold HGraph.predecessorsOf at he
        rw [hsb] at he
        cases he
      | some sb =>
        simp only
        by_cases hc : g.exit_block = some s ∨ sb.predecessors.length ≠ 1
        · rw [if_pos hc]
          refine ⟨g, [], rfl, M, hrpo, Nat.le_refl _, ?_, fun _ _ h => h⟩
          unfold HGraph.EndsInMergeableGoto
          rw [hl, hs]
          simp only [Bool.and_eq_false_iff, decide_eq_false_iff_not, not_not]
          rcases hc with hc | hc
          · exact Or.inr hc
          · refine Or.inl (Or.inr ?_)
            unfold HGraph.predecessorsOf
            rw [hsb]
            exact hc
        · exfalso
          have hm : g.EndsInMergeableGoto b = true := by
            unfold HGraph.EndsInMergeableGoto
            rw [hl, hs]
            simp only [Bool.and_eq_true, decide_eq_true_eq]
            simp only [not_or, not_not] at hc
            refine ⟨⟨hk, ?_⟩, hc.1⟩
            unfold HGraph.predecessorsOf
            rw [hsb]
            exact hc.2
          obtain ⟨hp, hsm, hne, _⟩ := M.mergeable b s hb hm hs
          have hnm := not_mem_of_precedes done [] b s (by rw [← hrpo]; exact M.nodup)
            (by rw [← hrpo]; exact hp)
          rw [hrpo] at hsm
          exact hnm hsm
    · rw [if_neg hk]
      refine ⟨g, [], rfl, M, hrpo, Nat.le_refl _, ?_, fun _ _ h => h⟩
      unfold HGraph.EndsInMergeableGoto
      rw [hl]
      simp only [Bool.not_eq_true] at hk
      split
      · rename_i h1 h2
        simp only [Option.some.injEq] at h1
        subst h1
        simp [hk]
      · rfl
  | succ fuel ih =>
    intro g done rest b M hrpo hfuel
    have hb : b ∈ g.reverse_post_order := by rw [hrpo]; simp
    obtain ⟨blk, hblk⟩ := Option.isSome_iff_exists.mp (M.blocks b hb)
    obtain ⟨last, hl⟩ := M.last b hb
    have hl' : blk.GetLastInstruction = some last := by
      unfold HGraph.instructionsOf at hl
      rw [hblk] at hl
      exact hl
    unfold ConnectSuccessiveBlocks.merge
    simp only [hblk, Option.some_bind, hl']
    by_cases hk : g.kindIs (fun k => decide (k = InstructionKind.Goto)) last = true
    · rw [if_pos hk]
      obtain ⟨s, hs⟩ := M.single b hb last hl ((kindIs_eq_iff g _ last).mp hk)
      rw [hs]
      simp only [List.getElem?_cons_zero]
      have he := M.edges b hb s (by rw [hs]; exact List.mem_singleton.mpr rfl)
      cases hsb : g.GetBlock s with
      | none =>
        unfold HGraph.predecessorsOf at he
        rw [hsb] at he
        cases he
      | some sb =>
        simp only
        by_cases hc : g.exit_block = some s ∨ sb.predecessors.length ≠ 1
        · rw [if_pos hc]
          refine ⟨g, rest, rfl, M, hrpo, Nat.le_refl _, ?_, fun _ _ h => h⟩
          unfold HGraph.EndsInMergeableGoto
          rw [hl, hs]
          simp only [Bool.and_eq_false_iff, decide_eq_false_iff_not, not_not]
          rcases hc with hc | hc
          · exact Or.inr hc
          · refine Or.inl (Or.inr ?_)
            unfold HGraph.predecessorsOf
            rw [hsb]
            exact hc
        · rw [if_neg hc]
          have hm : g.EndsInMergeableGoto b = true := by
            unfold HGraph.EndsInMergeableGoto
            rw [hl, hs]
            simp only [Bool.and_eq_true, decide_eq_true_eq]
            simp only [not_or, not_not] at hc
            refine ⟨⟨hk, ?_⟩, hc.1⟩
            unfold HGraph.predecessorsOf
            rw [hsb]
            exact hc.2
          obtain ⟨hp, hsm, hne, _⟩ := M.mergeable b s hb hm hs
          have hnm := not_mem_of_precedes done rest b s (by rw [← hrpo]; exact M.nodup)
            (by rw [← hrpo]; exact hp)
          have hsr : s ∈ rest := by
            rw [hrpo] at hsm
            rcases List.mem_append.mp hsm with h1 | h1
            · exact absurd (List.mem_append_left _ h1) hnm
            · rcases List.mem_cons.mp h1 with h2 | h2
              · exact absurd (List.mem_append_right _ (List.mem_singleton.mpr h2)) hnm
              · exact h2
          have hrpo' : (g.MergeWith b s).reverse_post_order =
              done ++ b :: rest.filter (fun x => decide (x ≠ s)) := by
            show g.reverse_post_order.filter (fun x => decide (x ≠ s)) = _
            rw [hrpo, List.filter_append, List.filter_cons_of_pos (by simpa using Ne.symm hne),
              filter_ne_of_not_mem done s (fun h => hnm (List.mem_append_left _ h))]
          have hlen := length_filter_ne_lt rest s hsr
          obtain ⟨g1, rest1, h1, M1, hr1, hl1, hm1, hf1⟩ := ih (g.MergeWith b s) done
            (rest.filter (fun x => decide (x ≠ s))) b (M.merge_with b s hb hm hs) hrpo'
            (by omega)
          refine ⟨g1, rest1, h1, M1, hr1, by omega, hm1, ?_⟩
          intro B hB hBm
          apply hf1 B hB
          have hBb : B ≠ b := by
            intro e
            have hn := M.nodup
            rw [hrpo] at hn
            exact (List.disjoint_of_nodup_append hn) hB (e ▸ List.mem_cons_self _ _)
          have hBs : B ≠ s := fun e => hnm (List.mem_append_left _ (e ▸ hB))
          cases hx : (g.MergeWith b s).EndsInMergeableGoto B with
          | false => rfl
          | true =>
            rw [(EndsInMergeableGoto_MergeWith_other g b s B (M.blocks b hb) hBb hBs hx).1]
              at hBm
            cases hBm
    · rw [if_neg hk]
      refine ⟨g, rest, rfl, M, hrpo, Nat.le_refl _, ?_, fun _ _ h => h⟩
      unfold HGraph.EndsInMergeableGoto
      rw [hl]
      simp only [Bool.not_eq_true] at hk
      split
      · rename_i h1 h2
        simp only [Option.some.injEq] at h1
        subst h1
        simp [hk]
      · rfl

/-- The outer loop of ConnectSuccessiveBlocks from the index after the
blocks `e :: d` on returns; afterwards no block of the reverse post order but
the first one ends in a mergeable Goto. -/
theorem ConnectSuccessiveBlocks_loop_spec :
    ∀ (fuel : Nat) (g : HGraph) (e : Nat) (d todo : List Nat), Merging g →
      g.reverse_post_order = e :: d ++ todo → todo.length ≤ fuel →
      (∀ B ∈ d, g.EndsInMergeableGoto B = false) →
      ∃ g' d', ConnectSuccessiveBlocks.loop fuel (d.length + 1) g = some g' ∧ Merging g' ∧
        g'.reverse_post_order = e :: d' ∧ ∀ B ∈ d', g'.EndsInMergeableGoto B = false := by
  intro fuel
  induction fuel with
  | zero =>
    intro g e d todo M hrpo hfuel hd
    have ht : todo = [] := List.length_eq_zero.mp (Nat.le_zero.mp hfuel)
    subst ht
    rw [List.append_nil] at hrpo
    unfold ConnectSuccessiveBlocks.loop
    rw [if_pos (by rw [hrpo]; rfl)]
    exact ⟨g, d, rfl, M, hrpo, hd⟩
  | succ fuel ih =>
    intro g e d todo M hrpo hfuel hd
    cases todo with
    | nil =>
      rw [List.append_nil] at hrpo
      unfold ConnectSuccessiveBlocks.loop
      rw [if_pos (by rw [hrpo]; rfl)]
      exact ⟨g, d, rfl, M, hrpo, hd⟩
    | cons b rest =>
      unfold ConnectSuccessiveBlocks.loop
      have hlen : g.reverse_post_order.length = d.length + 1 + (rest.length + 1) := by
        rw [hrpo]
        simp only [List.cons_append, List.length_cons, List.length_append]
        omega
      rw [if_neg (by omega)]
      simp only
      have hget : g.reverse_post_order[d.length + 1]? = some b := by
        rw [hrpo]
        have : e :: d ++ b :: rest = (e :: d) ++ b :: rest := rfl
        rw [this, List.getElem?_append_right (by simp)]
        simp
      rw [hget]
      simp only
      obtain ⟨g1, rest1, h1, M1, hr1, hl1, hm1, hf1⟩ :=
        ConnectSuccessiveBlocks_merge_spec g.reverse_post_order.length g (e :: d) rest b M
          hrpo (by omega)
      rw [h1]
      simp only
      have hrpo1 : g1.reverse_post_order = e :: (d ++ [b]) ++ rest1 := by
        rw [hr1]
        simp
      simp only [List.length_cons] at hfuel
      obtain ⟨g', d', h2, M2, hr2, hd2⟩ := ih g1 e (d ++ [b]) rest1 M1 hrpo1 (by omega) (by
        intro B hB
        rcases List.mem_append.mp hB with hB | hB
        · exact hf1 B (List.mem_cons_of_mem _ hB) (hd B hB)
        · rw [List.mem_singleton] at hB
          rw [hB]
          exact hm1)
      rw [List.length_append, List.length_singleton] at h2
      exact ⟨g', d', h2, M2, hr2, hd2⟩

/-- C28 (as stated, refuted): the loop of ConnectSuccessiveBlocks starts at
index 1 of the reverse post order and never visits the entry block.  In
`exampleEntryGoto` the entry block 0 ends in a Goto whose unique successor,
block 1, has exactly one predecessor and is not the exit block;
ConnectSuccessiveBlocks returns the graph unchanged. -/
theorem ConnectSuccessiveBlocks_skips_entry_block :
    exampleEntryGoto.MergeReady = true ∧
    exampleEntryGoto.EndsInMergeableGoto 0 = true ∧
    exampleEntryGoto.entry_block = 0 ∧
    ConnectSuccessiveBlocks exampleEntryGoto = some exampleEntryGoto := by
  decide

/-- C28 (amended): on a well-formed graph ConnectSuccessiveBlocks returns, and
afterwards no block of the graph other than the entry block ends in a Goto
whose unique successor has exactly one predecessor and is not the exit block. -/
theorem ConnectSuccessiveBlocks_leaves_no_mergeable_goto (g : HGraph)
    (hwf : g.MergeReady = true) :
    ∃ g', ConnectSuccessiveBlocks g = some g' ∧
      ∀ B, (g'.GetBlock B).isSome = true → B ≠ g'.entry_block →
        g'.EndsInMergeableGoto B = false := by
  have M := MergeReady_merging g hwf
  cases hr : g.reverse_post_order with
  | nil =>
    have := M.entry
    rw [hr] at this
    cases this
  | cons e todo =>
    obtain ⟨g', d', h1, M', hr', hd'⟩ := ConnectSuccessiveBlocks_loop_spec
      g.reverse_post_order.length g e [] todo M (by rw [hr]; rfl) (by rw [hr]; simp)
      (fun _ h => by cases h)
    refine ⟨g', h1, ?_⟩
    intro B hB hne
    have hm := M'.listed B hB
    have he := M'.entry
    rw [hr'] at hm he
    simp only [List.head?_cons, Option.some.injEq] at he
    rcases List.mem_cons.mp hm with h | h
    · exact absurd (h.trans he) hne
    · exact hd' B h

/-- In `exampleGotoChain` the blocks 1, 2 and 3 are merged into one. -/
theorem ConnectSuccessiveBlocks_leaves_no_mergeable_goto_witness :
    exampleGotoChain.MergeReady = true ∧
    exampleGotoChain.EndsInMergeableGoto 1 = true ∧
    ∃ g', ConnectSuccessiveBlocks exampleGotoChain = some g' ∧
      ∀ B, (g'.GetBlock B).isSome = true → B ≠ g'.entry_block →
        g'.EndsInMergeableGoto B = false :=
  ⟨by decide, by decide,
    ConnectSuccessiveBlocks_leaves_no_mergeable_goto exampleGotoChain (by decide)⟩

/-! ## RemoveUnneededTries: the graph primitives -/

theorem GetBlock_RemoveSuccessor (g : HGraph) (block successor id : Nat) :
    (g.RemoveSuccessor block successor).GetBlock id =
      if block = id then
        (g.GetBlock id).map (fun b => { b with successors := b.successors.erase successor })
      else g.GetBlock id := by
  simp only [HGraph.GetBlock, HGraph.RemoveSuccessor]
  exact getD_modify_map _ _ _ _

theorem GetBlock_RemovePredecessor (g : HGraph) (block predecessor id : Nat) :
    (g.RemovePredecessor block predecessor).GetBlock id =
      if block = id then
        (g.GetBlock id).map (fun b =>
          { b with predecessors := b.predecessors.erase predecessor })
      else g.GetBlock id := by
  simp only [HGraph.GetBlock, HGraph.RemovePredecessor]
  exact getD_modify_map _ _ _ _

theorem GetBlock_AddInstruction (g : HGraph) (block : Nat) (i : HInstruction) (id : Nat) :
    (g.AddInstruction block i).GetBlock id =
      if block = id then
        (g.GetBlock id).map (fun b =>
          { b with instructions := b.instructions ++ [g.instructions.length] })
      else g.GetBlock id := by
  simp only [HGraph.GetBlock, HGraph.AddInstruction]
  exact getD_modify_map _ _ _ _

theorem GetBlock_ClearTryCatchInformation (g : HGraph) (block id : Nat) :
    (g.ClearTryCatchInformation block).GetBlock id =
      if block = id then
        (g.GetBlock id).map (fun b =>
          { b with try_catch_information := none, is_catch_block := false })
      else g.GetBlock id := by
  simp only [HGraph.GetBlock, HGraph.ClearTryCatchInformation]
  exact getD_modify_map _ _ _ _

/-- One iteration of the loop that disconnects the handlers. -/
theorem disconnect_one (g : HGraph) (X h : Nat) :
    let g1 := (g.RemoveSuccessor X h).RemovePredecessor h X
    g1.successorsOf X = (g.successorsOf X).erase h ∧
    (∀ B, B ≠ X → g1.successorsOf B = g.successorsOf B) ∧
    (∀ B, g1.predecessorsOf B =
      if B = h then (g.predecessorsOf B).erase X else g.predecessorsOf B) ∧
    (∀ B, g1.instructionsOf B = g.instructionsOf B) ∧
    (∀ B, g1.tryOf B = g.tryOf B) ∧
    (∀ B, (g1.GetBlock B).isSome = (g.GetBlock B).isSome) ∧
    g1.instructions = g.instructions ∧ g1.exit_block = g.exit_block := by
  intro g1
  have hg : ∀ B, g1.GetBlock B =
      (g.GetBlock B).map (fun b =>
        { b with
          successors := if X = B then b.successors.erase h else b.successors,
          predecessors := if h = B then b.predecessors.erase X else b.predecessors }) := by
    intro B
    show ((g.RemoveSuccessor X h).RemovePredecessor h X).GetBlock B = _
    rw [GetBlock_RemovePredecessor, GetBlock_RemoveSuccessor]
    by_cases e1 : h = B <;> by_cases e2 : X = B <;> cases g.GetBlock B <;> simp [e1, e2]
  refine ⟨?_, ?_, ?_, ?_, ?_, ?_, rfl, rfl⟩
  · unfold HGraph.successorsOf
    rw [hg]
    cases g.GetBlock X <;> simp
  · intro B hB
    unfold HGraph.successorsOf
    rw [hg]
    cases g.GetBlock B <;> simp [Ne.symm hB]
  · intro B
    unfold HGraph.predecessorsOf
    rw [hg]
    by_cases e : B = h
    · cases g.GetBlock B <;> simp [e]
    · cases g.GetBlock B <;> simp [e, Ne.symm e]
  · intro B
    unfold HGraph.instructionsOf
    rw [hg]
    cases g.GetBlock B <;> rfl
  · intro B
    unfold HGraph.tryOf
    rw [hg]
    cases g.GetBlock B <;> rfl
  · intro B
    rw [hg]
    cases g.GetBlock B <;> rfl

theorem erase_second (s0 h : Nat) (rest : List Nat) :
    (s0 :: h :: rest).erase h = s0 :: rest := by
  by_cases e : s0 = h
  · subst e
    simp
  · rw [List.erase_cons_tail (by simpa using e), List.erase_cons_head]

/-- The loop that disconnects the handlers returns; the block keeps its first
successor only and is erased from the predecessors of the others once for each
edge. -/
theorem disconnectHandlers_spec :
    ∀ (fuel : Nat) (g : HGraph) (X : Nat) (any : Bool),
      (g.successorsOf X).length ≤ fuel + 1 →
      ∃ g' any', disconnectHandlers fuel g X any = some (g', any') ∧
        g'.successorsOf X = (g.successorsOf X).take 1 ∧
        (∀ B, B ≠ X → g'.successorsOf B = g.successorsOf B) ∧
        (∀ B Y, (g'.predecessorsOf B).count Y =
          if Y = X then (g.predecessorsOf B).count X - ((g.successorsOf X).drop 1).count B
          else (g.predecessorsOf B).count Y) ∧
        (∀ B, g'.instructionsOf B = g.instructionsOf B) ∧
        (∀ B, g'.tryOf B = g.tryOf B) ∧
        (∀ B, (g'.GetBlock B).isSome = (g.GetBlock B).isSome) ∧
        g'.instructions = g.instructions ∧ g'.exit_block = g.exit_block := by
  intro fuel
  induction fuel with
  | zero =>
    intro g X any hlen
    unfold disconnectHandlers
    cases hs : g.successorsOf X with
    | nil =>
      refine ⟨g, any, rfl, by simpa using hs, fun _ _ => rfl, ?_, fun _ => rfl, fun _ => rfl,
        fun _ => rfl, rfl, rfl⟩
      intro B Y
      split <;> simp_all
    | cons s0 rest =>
      cases rest with
      | nil =>
        refine ⟨g, any, rfl, by simpa using hs, fun _ _ => rfl, ?_, fun _ => rfl, fun _ => rfl,
          fun _ => rfl, rfl, rfl⟩
        intro B Y
        split <;> simp_all
      | cons h rest => rw [hs] at hlen; simp at hlen
  | succ fuel ih =>
    intro g X any hlen
    unfold disconnectHandlers
    cases hs : g.successorsOf X with
    | nil =>
      refine ⟨g, any, rfl, by simpa using hs, fun _ _ => rfl, ?_, fun _ => rfl, fun _ => rfl,
        fun _ => rfl, rfl, rfl⟩
      intro B Y
      split <;> simp_all
    | cons s0 rest =>
      cases rest with
      | nil =>
        refine ⟨g, any, rfl, by simpa using hs, fun _ _ => rfl, ?_, fun _ => rfl, fun _ => rfl,
          fun _ => rfl, rfl, rfl⟩
        intro B Y
        split <;> simp_all
      | cons h rest =>
        simp only
        obtain ⟨h1, h2, h3, h4, h5, h6, h7, h8⟩ := disconnect_one g X h
        have hsucc1 : ((g.RemoveSuccessor X h).RemovePredecessor h X).successorsOf X =
            s0 :: rest := by
          rw [h1, hs, erase_second]
        obtain ⟨g', any', hr, k1, k2, k3, k4, k5, k6, k7, k8⟩ :=
          ih ((g.RemoveSuccessor X h).RemovePredecessor h X) X
            (any || (Option.map (fun x => x.IsInLoop)
              (((g.RemoveSuccessor X h).RemovePredecessor h X).GetBlock h)).getD false)
            (by rw [hsucc1]; rw [hs] at hlen; simp at hlen ⊢; omega)
        refine ⟨g', any', hr, ?_, ?_, ?_, ?_, ?_, ?_, ?_, ?_⟩
        · rw [k1, hsucc1]
          simp
        · intro B hB
          rw [k2 B hB, h2 B hB]
        · intro B Y
          rw [k3 B Y, hsucc1, h3 B]
          simp only [List.drop_succ_cons, List.drop_zero]
          by_cases eY : Y = X
          · subst eY
            simp only [if_true]
            by_cases eB : B = h
            · subst eB
              simp only [if_true, List.count_cons_self]
              rw [List.count_erase_self]
              omega
            · rw [if_neg eB, List.count_cons_of_ne eB]
          · rw [if_neg eY, if_neg eY]
            by_cases eB : B = h
            · rw [if_pos eB, List.count_erase_of_ne eY]
            · rw [if_neg eB]
        · intro B
          rw [k4 B, h4 B]
        · intro B
          rw [k5 B, h5 B]
        · intro B
          rw [k6 B, h6 B]
        · rw [k7, h7]
        · rw [k8, h8]

theorem GetInstruction_AddInstruction (g : HGraph) (block : Nat) (i : HInstruction) (u : Nat) :
    (g.AddInstruction block i).GetInstruction u =
      if u = g.instructions.length then some { i with block := some block }
      else g.GetInstruction u := by
  simp only [HGraph.GetInstruction, HGraph.AddInstruction]
  by_cases hu : u = g.instructions.length
  · rw [if_pos hu, hu]
    simp
  · rw [if_neg hu]
    rcases Nat.lt_or_gt_of_ne hu with hlt | hgt
    · rw [List.getElem?_append_left hlt]
    · rw [List.getElem?_eq_none (by simp; omega), List.getElem?_eq_none (by omega)]

theorem GetDexPc_RemoveInstruction (g : HGraph) (block_id inst u : Nat) :
    (g.RemoveInstruction block_id inst).GetDexPc u = g.GetDexPc u := by
  unfold HGraph.GetDexPc
  rw [GetInstruction_RemoveInstruction]
  cases g.GetInstruction u with
  | none => rfl
  | some i =>
    simp only [Option.map_some']
    split <;> rfl

theorem GetDexPc_of_GetInstruction (g : HGraph) (u : Nat) (i : HInstruction)
    (h : g.GetInstruction u = some i) : g.GetDexPc u = i.dex_pc := by
  unfold HGraph.GetDexPc
  rw [h]

theorem GetDexPc_of_map (g g' : HGraph) (u : Nat) (f : HInstruction → HInstruction)
    (h : g'.GetInstruction u = (g.GetInstruction u).map f)
    (hf : ∀ v, (f v).dex_pc = v.dex_pc) : g'.GetDexPc u = g.GetDexPc u := by
  unfold HGraph.GetDexPc
  rw [h]
  cases g.GetInstruction u with
  | none => rfl
  | some v => exact hf v

/-- The block fields after RemoveInstruction followed by AddInstruction on the
same block. -/
theorem GetBlock_replace_last (g : HGraph) (X last : Nat) (i : HInstruction) (B : Nat) :
    ((g.RemoveInstruction X last).AddInstruction X i).GetBlock B =
      (g.GetBlock B).map (fun b =>
        if X = B then
          { b with instructions :=
              b.instructions.filter (fun j => j ≠ last) ++ [g.instructions.length] }
        else b) := by
  rw [GetBlock_AddInstruction, GetBlock_RemoveInstruction]
  have hlen : (g.RemoveInstruction X last).instructions.length = g.instructions.length := by
    simp [HGraph.RemoveInstruction]
  rw [hlen]
  by_cases e : X = B
  · cases g.GetBlock B <;> simp [e]
  · cases g.GetBlock B <;> simp [e]

/-- DisconnectHandlersAndUpdateTryBoundary returns on a block that has an
instruction, and does what `Disconnected` says. -/
theorem DisconnectHandlersAndUpdateTryBoundary_spec (g : HGraph) (X : Nat) (any : Bool)
    (last : Nat) (hl : (g.instructionsOf X).getLast? = some last) :
    ∃ g' any', DisconnectHandlersAndUpdateTryBoundary g X any = some (g', any') ∧
      Disconnected g g' X last g.instructions.length := by
  obtain ⟨g1, any1, hr, k1, k2, k3, k4, k5, k6, k7, k8⟩ :=
    disconnectHandlers_spec (g.successorsOf X).length g X any (Nat.le_succ _)
  unfold DisconnectHandlersAndUpdateTryBoundary
  rw [hr]
  simp only
  rw [k4 X, hl]
  simp only
  have hdex : g1.GetDexPc last = g.GetDexPc last := by
    unfold HGraph.GetDexPc HGraph.GetInstruction
    rw [k7]
  have hlen1 : (g1.RemoveInstruction X last).instructions.length = g.instructions.length := by
    simp [HGraph.RemoveInstruction, k7]
  have hgb := GetBlock_replace_last g1 X last (HGoto (g1.GetDexPc last))
  have hgi : ∀ u, ((g1.RemoveInstruction X last).AddInstruction X
      (HGoto (g1.GetDexPc last))).GetInstruction u =
      if u = g.instructions.length then
        some { HGoto (g1.GetDexPc last) with block := some X }
      else (g.GetInstruction u).map
        (fun v => if last = u then { v with block := none } else v) := by
    intro u
    rw [GetInstruction_AddInstruction, hlen1, GetInstruction_RemoveInstruction]
    unfold HGraph.GetInstruction
    rw [k7]
  refine ⟨_, any1, rfl, ?_⟩
  refine ⟨?_, ?_, ?_, hl, ?_, ?_, rfl, ?_, ?_, ?_, ?_, ?_, ?_⟩
  · unfold HGraph.successorsOf
    rw [hgb]
    have := k1
    unfold HGraph.successorsOf at this
    rw [← this]
    cases g1.GetBlock X <;> simp
  · intro B hB
    rw [← k2 B hB]
    unfold HGraph.successorsOf
    rw [hgb]
    cases g1.GetBlock B <;> simp [Ne.symm hB]
  · intro B Y
    rw [← k3 B Y]
    unfold HGraph.predecessorsOf
    rw [hgb]
    by_cases e : X = B
    · cases g1.GetBlock B <;> simp [e]
    · cases g1.GetBlock B <;> simp [e]
  · have hl1 : (g1.instructionsOf X).getLast? = some last := by rw [k4 X]; exact hl
    rw [← k4 X, ← k7]
    unfold HGraph.instructionsOf at hl1 ⊢
    rw [hgb]
    cases hg1 : g1.GetBlock X with
    | none => rw [hg1] at hl1; cases hl1
    | some b => simp
  · intro B hB
    rw [← k4 B]
    unfold HGraph.instructionsOf
    rw [hgb]
    cases g1.GetBlock B <;> simp [Ne.symm hB]
  · simp [HGraph.AddInstruction, HGraph.RemoveInstruction, k7]
  · constructor
    · unfold HGraph.KindOf
      rw [hgi, if_pos rfl]
      rfl
    · rw [GetDexPc_of_GetInstruction _ _ _ (by rw [hgi, if_pos rfl])]
      exact hdex
  · intro u hu
    constructor
    · unfold HGraph.KindOf
      rw [hgi, if_neg hu]
      cases g.GetInstruction u with
      | none => rfl
      | some v => simp only [Option.map_some', Option.map_map]; split <;> rfl
    · apply GetDexPc_of_map _ _ _ _ (by rw [hgi, if_neg hu])
      intro v
      split <;> rfl
  · intro B
    rw [← k5 B]
    unfold HGraph.tryOf
    rw [hgb]
    by_cases e : X = B
    · cases g1.GetBlock B <;> simp [e]
    · cases g1.GetBlock B <;> simp [e]
  · intro B
    rw [← k6 B, hgb]
    cases g1.GetBlock B <;> rfl
  · rw [← k8]
    rfl

/-! ## RemoveTry -/

theorem TryInv.init (g : HGraph) (hk : List Nat) : TryInv g g [] [] hk where
  succ_rew := fun _ h => by cases h
  succ_keep := fun _ _ _ => rfl
  insts := fun _ _ => rfl
  goto := fun _ h => by cases h
  length := Nat.le_refl _
  old := fun _ _ => ⟨rfl, rfl⟩
  fresh := fun u hu => by
    right
    unfold HGraph.KindOf HGraph.GetInstruction
    rw [List.getElem?_eq_none hu]
    rfl
  preds_rew := fun _ h => by cases h
  preds_keep := fun _ _ _ _ => rfl
  preds_own := fun _ _ _ _ _ => rfl
  try_clr := fun _ h => by cases h
  try_keep := fun _ _ => rfl
  block_some := fun _ => rfl
  exit := rfl

theorem lt_length_of_KindOf (g : HGraph) (u : Nat) (k : InstructionKind)
    (h : g.KindOf u = some k) : u < g.instructions.length := by
  by_contra hc
  unfold HGraph.KindOf HGraph.GetInstruction at h
  rw [List.getElem?_eq_none (Nat.le_of_not_lt hc)] at h
  cases h

/-- A block that ends with a TryBoundary has a last instruction, which is a
TryBoundary of the instruction arena. -/
theorem EndsWithTryBoundary_last (g : HGraph) (X : Nat) (h : g.EndsWithTryBoundary X = true) :
    ∃ last b, (g.instructionsOf X).getLast? = some last ∧
      g.KindOf last = some (InstructionKind.TryBoundary b) ∧ last < g.instructions.length := by
  unfold HGraph.EndsWithTryBoundary at h
  cases hl : (g.instructionsOf X).getLast? with
  | none => rw [hl] at h; cases h
  | some last =>
    rw [hl] at h
    simp only at h
    unfold HGraph.kindIs at h
    cases hk : g.KindOf last with
    | none => rw [hk] at h; cases h
    | some k =>
      rw [hk] at h
      simp only at h
      split at h
      · rename_i b
        exact ⟨last, b, rfl, hk, lt_length_of_KindOf g last _ hk⟩
      · cases h

/-- Whether a block that RemoveTry has not replaced ends with a TryBoundary
is decided by the graph RemoveTry started with. -/
theorem TryInv.ends_same {g0 g : HGraph} {rew clr hk : List Nat} (I : TryInv g0 g rew clr hk)
    (X : Nat) (hX : X ∉ rew) : g.EndsWithTryBoundary X = g0.EndsWithTryBoundary X := by
  unfold HGraph.EndsWithTryBoundary
  rw [I.insts X hX]
  cases hl : (g0.instructionsOf X).getLast? with
  | none => rfl
  | some last =>
    simp only
    unfold HGraph.kindIs
    by_cases hlt : last < g0.instructions.length
    · rw [(I.old last hlt).1]
    · have h0 : g0.KindOf last = none := by
        unfold HGraph.KindOf HGraph.GetInstruction
        rw [List.getElem?_eq_none (Nat.le_of_not_lt hlt)]
        rfl
      rw [h0]
      rcases I.fresh last (Nat.le_of_not_lt hlt) with h | h
      · rw [h]
      · rw [h]

/-- The replacement of the TryBoundary of one more block. -/
theorem TryInv.disconnect {g0 g g' : HGraph} {rew clr hk : List Nat}
    (I : TryInv g0 g rew clr hk) (X last : Nat) (hX : X ∉ rew) (hXk : X ∉ hk)
    (hlt : last < g0.instructions.length)
    (D : Disconnected g g' X last g.instructions.length) :
    TryInv g0 g' (X :: rew) clr hk where
  succ_rew := fun Y hY => by
    rcases List.mem_cons.mp hY with e | hm
    · subst e
      rw [D.succ_self, I.succ_keep Y hX hXk]
    · have hne : Y ≠ X := fun e => hX (e ▸ hm)
      rw [D.succ_other Y hne]
      exact I.succ_rew Y hm
  succ_keep := fun Y hY hYk => by
    have hne : Y ≠ X := fun e => hY (e ▸ List.mem_cons_self _ _)
    rw [D.succ_other Y hne]
    exact I.succ_keep Y (fun h => hY (List.mem_cons_of_mem _ h)) hYk
  insts := fun Y hY => by
    have hne : Y ≠ X := fun e => hY (e ▸ List.mem_cons_self _ _)
    rw [D.insts_other Y hne]
    exact I.insts Y (fun h => hY (List.mem_cons_of_mem _ h))
  goto := fun Y hY => by
    rcases List.mem_cons.mp hY with e | hm
    · subst e
      refine ⟨last, g.instructions.length, ?_, ?_, D.goto.1, ?_⟩
      · rw [← I.insts Y hX]
        exact D.last_old
      · rw [D.insts_self]
        simp
      · rw [D.goto.2]
        exact (I.old last hlt).2
    · have hne : Y ≠ X := fun e => hX (e ▸ hm)
      obtain ⟨l, n, h1, h2, h3, h4⟩ := I.goto Y hm
      have hn : n ≠ g.instructions.length :=
        Nat.ne_of_lt (lt_length_of_KindOf g n _ h3)
      refine ⟨l, n, h1, ?_, ?_, ?_⟩
      · rw [D.insts_other Y hne]
        exact h2
      · rw [(D.old n hn).1]
        exact h3
      · rw [(D.old n hn).2]
        exact h4
  length := by
    rw [D.length]
    exact Nat.le_succ_of_le I.length
  old := fun u hu => by
    have hn : u ≠ g.instructions.length := Nat.ne_of_lt (Nat.lt_of_lt_of_le hu I.length)
    rw [(D.old u hn).1, (D.old u hn).2]
    exact I.old u hu
  fresh := fun u hu => by
    by_cases hn : u = g.instructions.length
    · left
      rw [hn]
      exact D.goto.1
    · rw [(D.old u hn).1]
      exact I.fresh u hu
  preds_rew := fun Y hY B => by
    rw [D.preds B Y]
    rcases List.mem_cons.mp hY with e | hm
    · subst e
      rw [if_pos rfl, I.succ_keep Y hX hXk, I.preds_keep B Y hX hXk]
    · have hne : Y ≠ X := fun e => hX (e ▸ hm)
      rw [if_neg hne]
      exact I.preds_rew Y hm B
  preds_keep := fun B Y hY hYk => by
    have hne : Y ≠ X := fun e => hY (e ▸ List.mem_cons_self _ _)
    rw [D.preds B Y, if_neg hne]
    exact I.preds_keep B Y (fun h => hY (List.mem_cons_of_mem _ h)) hYk
  preds_own := fun B Y hY hB he => by
    have hne : Y ≠ X := fun e => hY (e ▸ List.mem_cons_self _ _)
    rw [D.preds B Y, if_neg hne]
    exact I.preds_own B Y (fun h => hY (List.mem_cons_of_mem _ h)) hB he
  try_clr := fun M hM => by
    rw [D.try_same]
    exact I.try_clr M hM
  try_keep := fun B hB => by
    rw [D.try_same]
    exact I.try_keep B hB
  block_some := fun B => by
    rw [D.block_some]
    exact I.block_some B
  exit := by
    rw [D.exit]
    exact I.exit

/-- The accessors after `SetTryCatchInformation(nullptr)`. -/
theorem ClearTryCatchInformation_frame (g : HGraph) (M : Nat) :
    (∀ B, (g.ClearTryCatchInformation M).successorsOf B = g.successorsOf B) ∧
    (∀ B, (g.ClearTryCatchInformation M).predecessorsOf B = g.predecessorsOf B) ∧
    (∀ B, (g.ClearTryCatchInformation M).instructionsOf B = g.instructionsOf B) ∧
    (∀ B, (g.ClearTryCatchInformation M).tryOf B =
      if M = B then (g.tryOf B).map (fun _ => (none, false)) else g.tryOf B) ∧
    (∀ B, ((g.ClearTryCatchInformation M).GetBlock B).isSome = (g.GetBlock B).isSome) := by
  refine ⟨?_, ?_, ?_, ?_, ?_⟩
  · intro B
    unfold HGraph.successorsOf
    rw [GetBlock_ClearTryCatchInformation]
    by_cases e : M = B <;> cases g.GetBlock B <;> simp [e]
  · intro B
    unfold HGraph.predecessorsOf
    rw [GetBlock_ClearTryCatchInformation]
    by_cases e : M = B <;> cases g.GetBlock B <;> simp [e]
  · intro B
    unfold HGraph.instructionsOf
    rw [GetBlock_ClearTryCatchInformation]
    by_cases e : M = B <;> cases g.GetBlock B <;> simp [e]
  · intro B
    unfold HGraph.tryOf
    rw [GetBlock_ClearTryCatchInformation]
    by_cases e : M = B <;> cases g.GetBlock B <;> simp [e]
  · intro B
    rw [GetBlock_ClearTryCatchInformation]
    by_cases e : M = B <;> cases g.GetBlock B <;> simp [e]

/-- The visit of one more member block: its try-catch information is
cleared. -/
theorem TryInv.clear {g0 g : HGraph} {rew clr hk : List Nat} (I : TryInv g0 g rew clr hk)
    (M : Nat) : TryInv g0 (g.ClearTryCatchInformation M) rew (M :: clr) hk := by
  obtain ⟨c1, c2, c3, c4, c5⟩ := ClearTryCatchInformation_frame g M
  refine ⟨?_, ?_, ?_, ?_, I.length, I.old, I.fresh, ?_, ?_, ?_, ?_, ?_, ?_, I.exit⟩
  · intro X hX
    rw [c1]
    exact I.succ_rew X hX
  · intro X hX hXk
    rw [c1]
    exact I.succ_keep X hX hXk
  · intro X hX
    rw [c3]
    exact I.insts X hX
  · intro X hX
    obtain ⟨l, n, h1, h2, h3, h4⟩ := I.goto X hX
    exact ⟨l, n, h1, by rw [c3]; exact h2, h3, h4⟩
  · intro X hX B
    rw [c2]
    exact I.preds_rew X hX B
  · intro B Y hY hYk
    rw [c2]
    exact I.preds_keep B Y hY hYk
  · intro B Y hY hB he
    rw [c2]
    exact I.preds_own B Y hY (fun h => hB (List.mem_cons_of_mem _ h)) he
  · intro B hB
    rw [c4]
    by_cases e : M = B
    · rw [if_pos e]
      by_cases hc : B ∈ clr
      · rw [I.try_clr B hc]
        cases g0.tryOf B <;> rfl
      · rw [I.try_keep B hc]
    · rw [if_neg e]
      rcases List.mem_cons.mp hB with h | h
      · exact absurd h.symm e
      · exact I.try_clr B h
  · intro B hB
    rw [c4, if_neg (fun e : M = B => hB (e ▸ List.mem_cons_self _ _))]
    exact I.try_keep B (fun h => hB (List.mem_cons_of_mem _ h))
  · intro B
    rw [c5]
    exact I.block_some B

theorem TryRemovable_ready (g : HGraph) (E : Nat) (info : TryBelongingInformation)
    (h : g.TryRemovable E info = true) : TryReady g E info := by
  unfold HGraph.TryRemovable at h
  simp only [Bool.and_eq_true, decide_eq_true_eq, List.all_eq_true, Bool.or_eq_true,
    Bool.not_eq_true', List.isEmpty_eq_false, ne_eq] at h
  obtain ⟨⟨h1, h2⟩, h3⟩ := h
  refine ⟨h1, h2, ?_, ?_, fun M hM => (h3 M hM).1⟩
  · intro M hM hb
    rcases (h3 M hM).2 with hn | hs
    · rw [hb] at hn; cases hn
    · intro e
      rw [e] at hs
      simp at hs
  · intro M hM hb he
    rcases (h3 M hM).2 with hn | hs
    · rw [hb] at hn; cases hn
    · rcases hs.2 with hne | hp
      · exact absurd he hne
      · refine ⟨?_, ?_⟩
        · intro e
          rw [e] at hp
          simp at hp
        · intro p hpm
          unfold HGraph.innerBlocks
          rw [List.mem_filter]
          have := hp.2 p hpm
          simp only [Bool.not_eq_true'] at this ⊢
          exact this

theorem count_predecessorsOf_ReplaceSuccessor (g : HGraph) (block existing new_block B Y : Nat)
    (hY : Y ≠ block) :
    ((g.ReplaceSuccessor block existing new_block).predecessorsOf B).count Y =
      (g.predecessorsOf B).count Y := by
  unfold HGraph.predecessorsOf
  rw [GetBlock_ReplaceSuccessor]
  cases g.GetBlock B with
  | none => rfl
  | some blk =>
    have e1 : ∀ l : List Nat, (l.erase block).count Y = l.count Y :=
      fun l => List.count_erase_of_ne hY l
    have e2 : ∀ l : List Nat, (l ++ [block]).count Y = l.count Y := by
      intro l
      rw [List.count_append, List.count_singleton]
      simp [Ne.symm hY]
    simp only [Option.map_some']
    by_cases h1 : existing = B <;> by_cases h2 : new_block = B <;>
      simp only [h1, h2, if_true, if_false] <;> split <;> simp only [e1, e2]

theorem predecessorsOf_ReplaceSuccessor_other (g : HGraph)
    (block existing new_block B : Nat) (h1 : B ≠ existing) (h2 : B ≠ new_block) :
    (g.ReplaceSuccessor block existing new_block).predecessorsOf B = g.predecessorsOf B := by
  unfold HGraph.predecessorsOf
  rw [GetBlock_ReplaceSuccessor]
  cases g.GetBlock B with
  | none => rfl
  | some blk =>
    simp only [Option.map_some']
    by_cases h3 : block = B <;> simp [Ne.symm h1, Ne.symm h2, h3]

theorem tryOf_ReplaceSuccessor (g : HGraph) (block existing new_block B : Nat) :
    (g.ReplaceSuccessor block existing new_block).tryOf B = g.tryOf B := by
  unfold HGraph.tryOf
  rw [GetBlock_ReplaceSuccessor]
  cases g.GetBlock B with
  | none => rfl
  | some blk =>
    simp only [Option.map_some']
    by_cases h1 : existing = B <;> by_cases h2 : new_block = B <;> by_cases h3 : block = B <;>
      simp [h1, h2, h3]

/-- The exit fix-up of lines 649-654: the predecessor `p` of the member `M`
is redirected to the exit block. -/
theorem TryInv.redirect {g0 g : HGraph} {rew clr hk : List Nat} (I : TryInv g0 g rew clr hk)
    (p M e : Nat) (hp : p ∉ rew) (hpk : p ∈ hk) (hM : M ∈ clr)
    (he : g0.exit_block = some e) :
    TryInv g0 (g.ReplaceSuccessor p M e) rew clr hk := by
  refine ⟨?_, ?_, ?_, ?_, I.length, I.old, I.fresh, ?_, ?_, ?_, ?_, ?_, ?_, I.exit⟩
  · intro X hX
    rw [successorsOf_ReplaceSuccessor, if_neg (fun e2 : X = p => hp (e2 ▸ hX))]
    exact I.succ_rew X hX
  · intro X hX hXk
    rw [successorsOf_ReplaceSuccessor, if_neg (fun e2 : X = p => hXk (e2 ▸ hpk))]
    exact I.succ_keep X hX hXk
  · intro X hX
    rw [instructionsOf_ReplaceSuccessor]
    exact I.insts X hX
  · intro X hX
    obtain ⟨l, n, h1, h2, h3, h4⟩ := I.goto X hX
    exact ⟨l, n, h1, by rw [instructionsOf_ReplaceSuccessor]; exact h2, h3, h4⟩
  · intro X hX B
    rw [count_predecessorsOf_ReplaceSuccessor g p M e B X (fun e2 => hp (e2 ▸ hX))]
    exact I.preds_rew X hX B
  · intro B Y hY hYk
    rw [count_predecessorsOf_ReplaceSuccessor g p M e B Y (fun e2 => hYk (e2 ▸ hpk))]
    exact I.preds_keep B Y hY hYk
  · intro B Y hY hB hex
    rw [predecessorsOf_ReplaceSuccessor_other g p M e B (fun e2 => hB (e2 ▸ hM))
      (fun e2 => hex (by rw [he, e2]))]
    exact I.preds_own B Y hY hB hex
  · intro B hB
    rw [tryOf_ReplaceSuccessor]
    exact I.try_clr B hB
  · intro B hB
    rw [tryOf_ReplaceSuccessor]
    exact I.try_keep B hB
  · intro B
    rw [GetBlock_isSome_ReplaceSuccessor]
    exact I.block_some B

theorem count_pos_of_mem (l : List Nat) (x : Nat) (h : x ∈ l) : 0 < l.count x :=
  List.count_pos_iff.mpr h

theorem mem_of_count_pos (l : List Nat) (x : Nat) (h : 0 < l.count x) : x ∈ l :=
  List.count_pos_iff.mp h

/-- The visit of a member block by RemoveTry returns and keeps the
invariant. -/
theorem updateBlock_spec {g0 g : HGraph} {rew clr hk : List Nat} (I : TryInv g0 g rew clr hk)
    (any : Bool) (M : Nat) (hM1 : M ∉ rew) (hM2 : M ∉ clr)
    (hR : ∀ X ∈ rew, g0.EndsWithTryBoundary X = true)
    (hhk : ∀ p ∈ hk, g0.EndsWithTryBoundary p = false)
    (hexits : g0.EndsWithTryBoundary M = true → g0.successorsOf M ≠ [])
    (hfix : g0.EndsWithTryBoundary M = true → (g0.successorsOf M)[0]? = g0.exit_block →
      g0.predecessorsOf M ≠ [] ∧ ∀ p ∈ g0.predecessorsOf M, p ∈ hk)
    (hex : g0.exit_block ≠ some M) :
    ∃ g' any' rew', RemoveTry.updateBlock (g, any) M = some (g', any') ∧
      TryInv g0 g' rew' (M :: clr) hk ∧
      (∀ X, X ∈ rew' ↔ X ∈ rew ∨ (X = M ∧ g0.EndsWithTryBoundary M = true)) := by
  have I1 := I.clear M
  have hends := I1.ends_same M hM1
  obtain ⟨c1, c2, c3, c4, c5⟩ := ClearTryCatchInformation_frame g M
  unfold RemoveTry.updateBlock
  simp only
  cases hb : g0.EndsWithTryBoundary M with
  | false =>
    rw [hends, hb]
    simp only [Bool.false_eq_true, if_false]
    refine ⟨_, any, rew, rfl, I1, ?_⟩
    intro X
    simp
  | true =>
    rw [hends, hb]
    simp only [if_true]
    obtain ⟨last, b, hl, hk0, hlt⟩ := EndsWithTryBoundary_last g0 M hb
    have hMk : M ∉ hk := by
      intro h
      rw [hhk M h] at hb
      cases hb
    have hl1 : ((g.ClearTryCatchInformation M).instructionsOf M).getLast? = some last := by
      rw [I1.insts M hM1]
      exact hl
    obtain ⟨g2, any2, hr, D⟩ :=
      DisconnectHandlersAndUpdateTryBoundary_spec (g.ClearTryCatchInformation M) M any last hl1
    rw [hr]
    simp only
    have I2 := I1.disconnect M last hM1 hMk hlt D
    have hrew : ∀ X, X ∈ M :: rew ↔ X ∈ rew ∨ (X = M ∧ True) := by
      intro X
      simp only [List.mem_cons, and_true]
      exact or_comm
    have hs2 := I2.succ_rew M (List.mem_cons_self _ _)
    cases hs0 : g0.successorsOf M with
    | nil => exact absurd hs0 (hexits hb)
    | cons s0 rest =>
      rw [hs0] at hs2
      simp only [List.take_succ_cons, List.take_zero] at hs2
      rw [hs2]
      simp only [List.getElem?_cons_zero]
      by_cases he : g2.exit_block = some s0
      · rw [if_pos he]
        have he0 : g0.exit_block = some s0 := by rw [← I2.exit]; exact he
        obtain ⟨hne, hall⟩ := hfix hb (by rw [hs0, he0]; simp)
        -- the predecessors of `M` are what they were, but for `M` itself
        have hcount : ∀ Y, Y ≠ M → Y ∉ rew →
            (g2.predecessorsOf M).count Y = (g0.predecessorsOf M).count Y := by
          intro Y hY hYr
          rw [D.preds M Y, if_neg hY, c2 M]
          exact I.preds_own M Y hYr hM2 hex
        have hmem : ∀ p, p ∈ g2.predecessorsOf M → p ∈ hk ∧ p ∉ M :: rew := by
          intro p hp
          have hpos := count_pos_of_mem _ _ hp
          have hp0 : p ∈ g0.predecessorsOf M := by
            by_cases hpM : p = M
            · subst hpM
              rw [D.preds p p, if_pos rfl, c2 p] at hpos
              have := I.preds_own p p hM1 hM2 hex
              exact mem_of_count_pos _ _ (by omega)
            · by_cases hpr : p ∈ rew
              · rw [D.preds M p, if_neg hpM, c2 M] at hpos
                have := I.preds_rew p hpr M
                exact mem_of_count_pos _ _ (by omega)
              · rw [hcount p hpM hpr] at hpos
                exact mem_of_count_pos _ _ hpos
          have hpk := hall p hp0
          refine ⟨hpk, ?_⟩
          intro hc
          rcases List.mem_cons.mp hc with e | hm
          · rw [e] at hpk
            exact hMk hpk
          · have := hR p hm
            rw [hhk p hpk] at this
            cases this
        cases hps : g2.predecessorsOf M with
        | nil =>
          exfalso
          cases hp0 : g0.predecessorsOf M with
          | nil => exact hne hp0
          | cons p0 ps0 =>
            have hp0m : p0 ∈ g0.predecessorsOf M := by rw [hp0]; exact List.mem_cons_self _ _
            have hp0k := hall p0 hp0m
            have h1 : p0 ≠ M := fun e => hMk (e ▸ hp0k)
            have h2 : p0 ∉ rew := by
              intro hm
              have := hR p0 hm
              rw [hhk p0 hp0k] at this
              cases this
            have := hcount p0 h1 h2
            rw [hps] at this
            have hpos := count_pos_of_mem _ _ hp0m
            simp at this
            omega
        | cons p ps =>
          simp only [List.getElem?_cons_zero]
          obtain ⟨hpk, hpr⟩ := hmem p (by rw [hps]; exact List.mem_cons_self _ _)
          exact ⟨_, any2, M :: rew, rfl,
            I2.redirect p M s0 hpr hpk (List.mem_cons_self _ _) he0, hrew⟩
      · rw [if_neg he]
        exact ⟨g2, any2, M :: rew, rfl, I2, hrew⟩

/-- The loop of RemoveTry over the coalesced try entries. -/
theorem RemoveTry_entries_spec {g0 : HGraph} (hk : List Nat)
    (hhk : ∀ p ∈ hk, g0.EndsWithTryBoundary p = false) :
    ∀ (C : List Nat) (g : HGraph) (any : Bool) (rew : List Nat), TryInv g0 g rew [] hk →
      C.Nodup → (∀ X ∈ C, X ∉ rew) → (∀ X ∈ C, g0.EndsWithTryBoundary X = true) →
      ∃ g' any' rew', iterate (fun (st : HGraph × Bool) X =>
          DisconnectHandlersAndUpdateTryBoundary st.1 X st.2) C (g, any) = some (g', any') ∧
        TryInv g0 g' rew' [] hk ∧ (∀ X, X ∈ rew' ↔ X ∈ rew ∨ X ∈ C) := by
  intro C
  induction C with
  | nil =>
    intro g any rew I _ _ _
    exact ⟨g, any, rew, rfl, I, fun X => by simp⟩
  | cons X rest ih =>
    intro g any rew I hnd hnot hends
    have hX := hends X (List.mem_cons_self _ _)
    have hXr := hnot X (List.mem_cons_self _ _)
    obtain ⟨last, b, hl, _, hlt⟩ := EndsWithTryBoundary_last g0 X hX
    have hXk : X ∉ hk := by
      intro h
      rw [hhk X h] at hX
      cases hX
    obtain ⟨g1, any1, hr, D⟩ := DisconnectHandlersAndUpdateTryBoundary_spec g X any last
      (by rw [I.insts X hXr]; exact hl)
    have I1 := I.disconnect X last hXr hXk hlt D
    obtain ⟨g', any', rew', h1, I', hrew⟩ := ih g1 any1 (X :: rew) I1
      (List.nodup_cons.mp hnd).2
      (by
        intro Y hY hc
        rcases List.mem_cons.mp hc with e | hm
        · exact (List.nodup_cons.mp hnd).1 (e ▸ hY)
        · exact hnot Y (List.mem_cons_of_mem _ hY) hm)
      (fun Y hY => hends Y (List.mem_cons_of_mem _ hY))
    refine ⟨g', any', rew', ?_, I', ?_⟩
    · simp only [iterate, hr]
      exact h1
    · intro Y
      rw [hrew Y]
      simp only [List.mem_cons]
      tauto

/-- The loop of RemoveTry over the member blocks. -/
theorem RemoveTry_members_spec {g0 : HGraph} (hk : List Nat)
    (hhk : ∀ p ∈ hk, g0.EndsWithTryBoundary p = false) :
    ∀ (Ms : List Nat) (g : HGraph) (any : Bool) (rew clr : List Nat),
      TryInv g0 g rew clr hk → Ms.Nodup → (∀ M ∈ Ms, M ∉ rew ∧ M ∉ clr) →
      (∀ X ∈ rew, g0.EndsWithTryBoundary X = true) →
      (∀ M ∈ Ms, g0.EndsWithTryBoundary M = true → g0.successorsOf M ≠ []) →
      (∀ M ∈ Ms, g0.EndsWithTryBoundary M = true →
        (g0.successorsOf M)[0]? = g0.exit_block →
        g0.predecessorsOf M ≠ [] ∧ ∀ p ∈ g0.predecessorsOf M, p ∈ hk) →
      (∀ M ∈ Ms, g0.exit_block ≠ some M) →
      ∃ g' any' rew' clr', iterate RemoveTry.updateBlock Ms (g, any) = some (g', any') ∧
        TryInv g0 g' rew' clr' hk ∧
        (∀ X, X ∈ rew' ↔ X ∈ rew ∨ (X ∈ Ms ∧ g0.EndsWithTryBoundary X = true)) ∧
        (∀ X, X ∈ clr' ↔ X ∈ clr ∨ X ∈ Ms) := by
  intro Ms
  induction Ms with
  | nil =>
    intro g any rew clr I _ _ _ _ _ _
    exact ⟨g, any, rew, clr, rfl, I, fun X => by simp, fun X => by simp⟩
  | cons M rest ih =>
    intro g any rew clr I hnd hnot hR hexits hfix hex
    obtain ⟨hM1, hM2⟩ := hnot M (List.mem_cons_self _ _)
    obtain ⟨g1, any1, rew1, hr, I1, hrew1⟩ := updateBlock_spec I any M hM1 hM2 hR hhk
      (hexits M (List.mem_cons_self _ _)) (hfix M (List.mem_cons_self _ _))
      (hex M (List.mem_cons_self _ _))
    obtain ⟨g', any', rew', clr', h1, I', hrew, hclr⟩ := ih g1 any1 rew1 (M :: clr) I1
      (List.nodup_cons.mp hnd).2
      (by
        intro Y hY
        have hYM : Y ≠ M := fun e => (List.nodup_cons.mp hnd).1 (e ▸ hY)
        obtain ⟨h1, h2⟩ := hnot Y (List.mem_cons_of_mem _ hY)
        refine ⟨?_, ?_⟩
        · intro hc
          rcases (hrew1 Y).mp hc with h | h
          · exact h1 h
          · exact hYM h.1
        · intro hc
          rcases List.mem_cons.mp hc with h | h
          · exact hYM h
          · exact h2 h)
      (by
        intro X hX
        rcases (hrew1 X).mp hX with h | h
        · exact hR X h
        · rw [h.1]; exact h.2)
      (fun Y hY => hexits Y (List.mem_cons_of_mem _ hY))
      (fun Y hY => hfix Y (List.mem_cons_of_mem _ hY))
      (fun Y hY => hex Y (List.mem_cons_of_mem _ hY))
    refine ⟨g', any', rew', clr', ?_, I', ?_, ?_⟩
    · simp only [iterate, hr]
      exact h1
    · intro X
      rw [hrew X, hrew1 X]
      simp only [List.mem_cons]
      constructor
      · rintro ((h | ⟨h1, h2⟩) | ⟨h1, h2⟩)
        · exact Or.inl h
        · exact Or.inr ⟨Or.inl h1, h1 ▸ h2⟩
        · exact Or.inr ⟨Or.inr h1, h2⟩
      · rintro (h | ⟨h1 | h1, h2⟩)
        · exact Or.inl (Or.inl h)
        · exact Or.inl (Or.inr ⟨h1, h1 ▸ h2⟩)
        · exact Or.inr ⟨h1, h2⟩
    · intro X
      rw [hclr X]
      simp only [List.mem_cons]
      tauto

theorem HasTryCatchInformation_of_tryOf (g : HGraph) (B : Nat) :
    g.HasTryCatchInformation B =
      match g.tryOf B with
      | none => false
      | some t => t.1.isSome || t.2 := by
  unfold HGraph.HasTryCatchInformation HGraph.tryOf
  cases g.GetBlock B <;> rfl

/-- RemoveTry returns on a well-formed try and establishes the invariant for
all its boundary blocks and members. -/
theorem RemoveTry_spec (g : HGraph) (E : Nat) (info : TryBelongingInformation) (any : Bool)
    (T : TryReady g E info) :
    ∃ g' any' rew clr, RemoveTry g E info any = some (g', any') ∧
      TryInv g g' rew clr (g.innerBlocks info) ∧
      (∀ X, X ∈ rew ↔ X ∈ g.boundaryBlocks E info) ∧
      (∀ X, X ∈ clr ↔ X ∈ info.blocks_in_try) := by
  have hhk : ∀ p ∈ g.innerBlocks info, g.EndsWithTryBoundary p = false := by
    intro p hp
    unfold HGraph.innerBlocks at hp
    simpa using (List.mem_filter.mp hp).2
  have hkM : ∀ p ∈ g.innerBlocks info, p ∈ info.blocks_in_try := by
    intro p hp
    unfold HGraph.innerBlocks at hp
    exact (List.mem_filter.mp hp).1
  have hnd := T.nodup
  have hE : E ∉ info.coalesced_try_entries ++ info.blocks_in_try := (List.nodup_cons.mp hnd).1
  have hCM := (List.nodup_cons.mp hnd).2
  have hC : info.coalesced_try_entries.Nodup := (List.nodup_append.mp hCM).1
  have hM : info.blocks_in_try.Nodup := (List.nodup_append.mp hCM).2.1
  have hdis := (List.nodup_append.mp hCM).2.2
  have hEb := T.entries E (List.mem_cons_self _ _)
  obtain ⟨last, b, hl, _, hlt⟩ := EndsWithTryBoundary_last g E hEb
  obtain ⟨g1, any1, hr1, D1⟩ := DisconnectHandlersAndUpdateTryBoundary_spec g E any last hl
  have I1 := (TryInv.init g (g.innerBlocks info)).disconnect E last (by simp)
    (fun h => hE (List.mem_append_right _ (hkM E h))) hlt D1
  obtain ⟨g2, any2, rew2, hr2, I2, hrew2⟩ := RemoveTry_entries_spec (g.innerBlocks info) hhk
    info.coalesced_try_entries g1 any1 [E] I1 hC
    (by
      intro X hX hc
      rw [List.mem_singleton] at hc
      exact hE (List.mem_append_left _ (hc ▸ hX)))
    (fun X hX => T.entries X (List.mem_cons_of_mem _ hX))
  obtain ⟨g3, any3, rew3, clr3, hr3, I3, hrew3, hclr3⟩ :=
    RemoveTry_members_spec (g.innerBlocks info) hhk info.blocks_in_try g2 any2 rew2 [] I2 hM
      (by
        intro M hMm
        refine ⟨?_, by simp⟩
        intro hc
        rcases (hrew2 M).mp hc with h | h
        · rw [List.mem_singleton] at h
          exact hE (List.mem_append_right _ (h ▸ hMm))
        · exact hdis h hMm)
      (by
        intro X hX
        rcases (hrew2 X).mp hX with h | h
        · rw [List.mem_singleton] at h
          rw [h]; exact hEb
        · exact T.entries X (List.mem_cons_of_mem _ h))
      T.exits T.fix_up T.exit_out
  refine ⟨g3, any3, rew3, clr3, ?_, I3, ?_, ?_⟩
  · unfold RemoveTry
    rw [hr1]
    simp only
    rw [hr2]
    simp only
    exact hr3
  · intro X
    rw [hrew3 X, hrew2 X]
    unfold HGraph.boundaryBlocks
    simp only [List.mem_singleton, List.mem_cons, List.mem_append, List.mem_filter]
    tauto
  · intro X
    rw [hclr3 X]
    simp

/-- C23: RemoveTry on a well-formed try returns.  For the try entry, every
coalesced try entry and every member block that ends with a TryBoundary: the
block is left with exactly one successor, the one it had at index 0; no former
handler lists it as a predecessor; and its last instruction is a Goto with the
dex pc of the TryBoundary.  Every member block has its try-catch information
cleared. -/
theorem RemoveTry_rewrites_every_boundary (g : HGraph) (try_entry : Nat)
    (info : TryBelongingInformation) (any_handler_in_loop : Bool)
    (hwf : g.TryRemovable try_entry info = true)
    (hsucc : ∀ X ∈ try_entry :: info.coalesced_try_entries, g.successorsOf X ≠ [])
    (hedges : ∀ X ∈ g.boundaryBlocks try_entry info, ∀ h ∈ (g.successorsOf X).drop 1,
      (g.predecessorsOf h).count X ≤ ((g.successorsOf X).drop 1).count h) :
    ∃ r, RemoveTry g try_entry info any_handler_in_loop = some r ∧
      (∀ X ∈ g.boundaryBlocks try_entry info, ∃ s0 last n,
        (g.successorsOf X)[0]? = some s0 ∧ r.1.successorsOf X = [s0] ∧
        (∀ h ∈ (g.successorsOf X).drop 1, X ∉ r.1.predecessorsOf h) ∧
        (g.instructionsOf X).getLast? = some last ∧
        g.EndsWithTryBoundary X = true ∧
        (r.1.instructionsOf X).getLast? = some n ∧
        r.1.KindOf n = some InstructionKind.Goto ∧ r.1.GetDexPc n = g.GetDexPc last) ∧
      (∀ M ∈ info.blocks_in_try, r.1.HasTryCatchInformation M = false) := by
  have T := TryRemovable_ready g try_entry info hwf
  obtain ⟨g', any', rew, clr, hr, I, hrew, hclr⟩ :=
    RemoveTry_spec g try_entry info any_handler_in_loop T
  refine ⟨(g', any'), hr, ?_, ?_⟩
  · intro X hX
    have hXr := (hrew X).mpr hX
    have hne : g.successorsOf X ≠ [] := by
      unfold HGraph.boundaryBlocks at hX
      rw [List.cons_append] at hX
      rcases List.mem_cons.mp hX with h | h
      · exact hsucc X (h ▸ List.mem_cons_self _ _)
      · rcases List.mem_append.mp h with h | h
        · exact hsucc X (List.mem_cons_of_mem _ h)
        · obtain ⟨h1, h2⟩ := List.mem_filter.mp h
          exact T.exits X h1 h2
    have hb : g.EndsWithTryBoundary X = true := by
      unfold HGraph.boundaryBlocks at hX
      rw [List.cons_append] at hX
      rcases List.mem_cons.mp hX with h | h
      · exact T.entries X (h ▸ List.mem_cons_self _ _)
      · rcases List.mem_append.mp h with h | h
        · exact T.entries X (List.mem_cons_of_mem _ h)
        · exact (List.mem_filter.mp h).2
    obtain ⟨last, n, h1, h2, h3, h4⟩ := I.goto X hXr
    cases hs : g.successorsOf X with
    | nil => exact absurd hs hne
    | cons s0 rest =>
      refine ⟨s0, last, n, by simp, ?_, ?_, h1, hb, h2, h3, h4⟩
      · rw [I.succ_rew X hXr, hs]
        rfl
      · intro h hh hc
        have h5 := I.preds_rew X hXr h
        have h6 := hedges X hX h (by rw [hs]; exact hh)
        have h7 := count_pos_of_mem _ _ hc
        rw [hs] at h5 h6
        simp only at h7
        omega
  · intro M hM
    have := I.try_clr M ((hclr M).mpr hM)
    rw [HasTryCatchInformation_of_tryOf, this]
    cases g.tryOf M <;> rfl

/-- On `exampleRemovableTry`: the blocks 1, 3 and 7 are rewritten. -/
theorem RemoveTry_rewrites_every_boundary_witness :
    exampleRemovableTry.TryRemovable 1
      { blocks_in_try := [2, 3, 4, 7], coalesced_try_entries := [] } = true ∧
    exampleRemovableTry.boundaryBlocks 1
      { blocks_in_try := [2, 3, 4, 7], coalesced_try_entries := [] } = [1, 3, 7] ∧
    ∃ r, RemoveTry exampleRemovableTry 1
        { blocks_in_try := [2, 3, 4, 7], coalesced_try_entries := [] } false = some r ∧
      (∀ X ∈ exampleRemovableTry.boundaryBlocks 1
          { blocks_in_try := [2, 3, 4, 7], coalesced_try_entries := [] }, ∃ s0 last n,
        (exampleRemovableTry.successorsOf X)[0]? = some s0 ∧ r.1.successorsOf X = [s0] ∧
        (∀ h ∈ (exampleRemovableTry.successorsOf X).drop 1, X ∉ r.1.predecessorsOf h) ∧
        (exampleRemovableTry.instructionsOf X).getLast? = some last ∧
        exampleRemovableTry.EndsWithTryBoundary X = true ∧
        (r.1.instructionsOf X).getLast? = some n ∧
        r.1.KindOf n = some InstructionKind.Goto ∧
        r.1.GetDexPc n = exampleRemovableTry.GetDexPc last) ∧
      (∀ M ∈ [2, 3, 4, 7], r.1.HasTryCatchInformation M = false) :=
  ⟨by decide, by decide,
    RemoveTry_rewrites_every_boundary exampleRemovableTry 1
      { blocks_in_try := [2, 3, 4, 7], coalesced_try_entries := [] } false
      (by decide) (by decide) (by decide)⟩

/-! ## RemoveUnneededTries: the loop that removes the tries -/

theorem TryFrame.frame_refl (T : List Nat) (g : HGraph) : TryFrame T g g where
  succ := fun _ _ => rfl
  insts := fun _ _ => rfl
  try_same := fun _ _ => rfl
  preds_out := fun _ _ _ => rfl
  preds_in := fun _ _ _ _ => Nat.le_refl _
  length := Nat.le_refl _
  old := fun _ _ => ⟨rfl, rfl⟩
  fresh := fun u hu => by
    right
    unfold HGraph.KindOf HGraph.GetInstruction
    rw [List.getElem?_eq_none hu]
    rfl
  exit := rfl

theorem TryFrame.frame_trans {T : List Nat} {g0 g1 g2 : HGraph} (F1 : TryFrame T g0 g1)
    (F2 : TryFrame T g1 g2) : TryFrame T g0 g2 where
  succ := fun X hX => (F2.succ X hX).trans (F1.succ X hX)
  insts := fun X hX => (F2.insts X hX).trans (F1.insts X hX)
  try_same := fun X hX => (F2.try_same X hX).trans (F1.try_same X hX)
  preds_out := fun B Y hY => (F2.preds_out B Y hY).trans (F1.preds_out B Y hY)
  preds_in := fun B Y hB he =>
    Nat.le_trans (F2.preds_in B Y hB (by rw [F1.exit]; exact he)) (F1.preds_in B Y hB he)
  length := Nat.le_trans F1.length F2.length
  old := fun u hu => by
    have h2 := F2.old u (Nat.lt_of_lt_of_le hu F1.length)
    have h1 := F1.old u hu
    exact ⟨h2.1.trans h1.1, h2.2.trans h1.2⟩
  fresh := fun u hu => by
    by_cases h : u < g1.instructions.length
    · rw [(F2.old u h).1]
      exact F1.fresh u hu
    · exact F2.fresh u (Nat.le_of_not_lt h)
  exit := F2.exit.trans F1.exit

theorem TryFrame.frame_mono {T T' : List Nat} {g0 g : HGraph} (h : ∀ X ∈ T, X ∈ T')
    (F : TryFrame T g0 g) : TryFrame T' g0 g where
  succ := fun X hX => F.succ X (fun hc => hX (h X hc))
  insts := fun X hX => F.insts X (fun hc => hX (h X hc))
  try_same := fun X hX => F.try_same X (fun hc => hX (h X hc))
  preds_out := fun B Y hY => F.preds_out B Y (fun hc => hY (h Y hc))
  preds_in := fun B Y hB he => F.preds_in B Y (fun hc => hB (h B hc)) he
  length := F.length
  old := F.old
  fresh := F.fresh
  exit := F.exit

/-- RemoveTry leaves the blocks outside the try alone. -/
theorem TryFrame.of_inv {g0 g : HGraph} {rew clr hk : List Nat} (I : TryInv g0 g rew clr hk)
    (T : List Nat) (h1 : ∀ X ∈ rew, X ∈ T) (h2 : ∀ X ∈ clr, X ∈ T) (h3 : ∀ X ∈ hk, X ∈ T) :
    TryFrame T g0 g where
  succ := fun X hX => I.succ_keep X (fun hc => hX (h1 X hc)) (fun hc => hX (h3 X hc))
  insts := fun X hX => I.insts X (fun hc => hX (h1 X hc))
  try_same := fun X hX => I.try_keep X (fun hc => hX (h2 X hc))
  preds_out := fun B Y hY =>
    I.preds_keep B Y (fun hc => hY (h1 Y hc)) (fun hc => hY (h3 Y hc))
  preds_in := fun B Y hB he => by
    by_cases hY : Y ∈ rew
    · exact Nat.le_trans (I.preds_rew Y hY B) (Nat.sub_le _ _)
    · exact Nat.le_of_eq (I.preds_own B Y hY (fun hc => hB (h2 B hc)) he)
  length := I.length
  old := I.old
  fresh := I.fresh
  exit := I.exit

theorem TryFrame.kind_same {T : List Nat} {g0 g : HGraph} (F : TryFrame T g0 g)
    (p : InstructionKind → Bool) (hp : p InstructionKind.Goto = false) (u : Nat) :
    g.kindIs p u = g0.kindIs p u := by
  unfold HGraph.kindIs
  by_cases hlt : u < g0.instructions.length
  · rw [(F.old u hlt).1]
  · have h0 : g0.KindOf u = none := by
      unfold HGraph.KindOf HGraph.GetInstruction
      rw [List.getElem?_eq_none (Nat.le_of_not_lt hlt)]
      rfl
    rw [h0]
    rcases F.fresh u (Nat.le_of_not_lt hlt) with h | h
    · rw [h]; exact hp
    · rw [h]

theorem TryFrame.boundary_same {T : List Nat} {g0 g : HGraph} (F : TryFrame T g0 g) (X : Nat)
    (hX : X ∉ T) : g.EndsWithTryBoundary X = g0.EndsWithTryBoundary X := by
  unfold HGraph.EndsWithTryBoundary
  rw [F.insts X hX]
  cases (g0.instructionsOf X).getLast? with
  | none => rfl
  | some last => exact F.kind_same _ rfl last

theorem all_congr_mem (l : List Nat) (p q : Nat → Bool) (h : ∀ x ∈ l, p x = q x) :
    l.all p = l.all q := by
  induction l with
  | nil => rfl
  | cons x xs ih =>
    simp only [List.all_cons]
    rw [h x (List.mem_cons_self _ _), ih (fun y hy => h y (List.mem_cons_of_mem _ hy))]

theorem TryFrame.can_remove_same {T : List Nat} {g0 g : HGraph} (F : TryFrame T g0 g)
    (info : TryBelongingInformation) (h : ∀ M ∈ info.blocks_in_try, M ∉ T) :
    CanPerformTryRemoval g info = CanPerformTryRemoval g0 info := by
  unfold CanPerformTryRemoval
  apply all_congr_mem
  intro M hM
  rw [F.insts M (h M hM)]
  apply all_congr_mem
  intro i _
  unfold HGraph.CanThrow
  rw [F.kind_same _ rfl i]

theorem TryFrame.has_try_same {T : List Nat} {g0 g : HGraph} (F : TryFrame T g0 g) (X : Nat)
    (hX : X ∉ T) : g.HasTryCatchInformation X = g0.HasTryCatchInformation X := by
  rw [HasTryCatchInformation_of_tryOf, HasTryCatchInformation_of_tryOf, F.try_same X hX]

/-- A try that the removal of other tries has not touched is as well-formed
as before. -/
theorem TryReady.transfer {T : List Nat} {g0 g : HGraph} (F : TryFrame T g0 g) (E : Nat)
    (info : TryBelongingInformation) (R : TryReady g0 E info)
    (hdis : ∀ X ∈ tryBlocks (E, info), X ∉ T) : TryReady g E info := by
  have hE : ∀ X ∈ E :: info.coalesced_try_entries, X ∉ T := by
    intro X hX
    apply hdis
    unfold tryBlocks
    rw [List.cons_append]
    rcases List.mem_cons.mp hX with h | h
    · rw [h]; exact List.mem_cons_self _ _
    · exact List.mem_cons_of_mem _ (List.mem_append_left _ h)
  have hM : ∀ X ∈ info.blocks_in_try, X ∉ T := by
    intro X hX
    apply hdis
    unfold tryBlocks
    rw [List.cons_append]
    exact List.mem_cons_of_mem _ (List.mem_append_right _ hX)
  have hinner : g.innerBlocks info = g0.innerBlocks info := by
    unfold HGraph.innerBlocks
    apply List.filter_congr
    intro M hMm
    rw [F.boundary_same M (hM M hMm)]
  refine ⟨R.nodup, ?_, ?_, ?_, ?_⟩
  · intro X hX
    rw [F.boundary_same X (hE X hX)]
    exact R.entries X hX
  · intro M hMm hb
    rw [F.boundary_same M (hM M hMm)] at hb
    rw [F.succ M (hM M hMm)]
    exact R.exits M hMm hb
  · intro M hMm hb hs
    rw [F.boundary_same M (hM M hMm)] at hb
    rw [F.succ M (hM M hMm), F.exit] at hs
    obtain ⟨hne, hall⟩ := R.fix_up M hMm hb hs
    have hinT : ∀ p ∈ g0.innerBlocks info, p ∉ T := by
      intro p hp
      unfold HGraph.innerBlocks at hp
      exact hM p (List.mem_filter.mp hp).1
    refine ⟨?_, ?_⟩
    · intro e
      cases hp0 : g0.predecessorsOf M with
      | nil => exact hne hp0
      | cons p0 ps =>
        have hm : p0 ∈ g0.predecessorsOf M := by rw [hp0]; exact List.mem_cons_self _ _
        have := F.preds_out M p0 (hinT p0 (hall p0 hm))
        rw [e] at this
        have hpos := count_pos_of_mem _ _ hm
        simp at this
        omega
    · intro p hp
      rw [hinner]
      apply hall
      have hpos := count_pos_of_mem _ _ hp
      have := F.preds_in M p (hM M hMm) (R.exit_out M hMm)
      exact mem_of_count_pos _ _ (by omega)
  · intro M hMm
    rw [F.exit]
    exact R.exit_out M hMm

theorem TriesRemovable_ready (g : HGraph) (tries : TryMap) (h : g.TriesRemovable tries = true) :
    TriesReady g tries := by
  unfold HGraph.TriesRemovable at h
  simp only [Bool.and_eq_true, List.all_eq_true, decide_eq_true_eq] at h
  exact ⟨fun e he => TryRemovable_ready g e.1 e.2 (h.1 e he).1, fun e he => (h.1 e he).2, h.2⟩

theorem mem_tryBlocks_of_member (entry : Nat × TryBelongingInformation) (M : Nat)
    (h : M ∈ entry.2.blocks_in_try) : M ∈ tryBlocks entry := by
  unfold tryBlocks
  rw [List.cons_append]
  exact List.mem_cons_of_mem _ (List.mem_append_right _ h)

/-- The blocks of two different tries of a map without shared blocks. -/
theorem tryBlocks_disjoint (tries : TryMap) (hnd : (tries.flatMap tryBlocks).Nodup)
    (e1 e2 : Nat × TryBelongingInformation) (h1 : e1 ∈ tries) (h2 : e2 ∈ tries)
    (hne : e1 ≠ e2) (X : Nat) (hX1 : X ∈ tryBlocks e1) : X ∉ tryBlocks e2 := by
  induction tries with
  | nil => cases h1
  | cons e rest ih =>
    rw [List.flatMap_cons] at hnd
    obtain ⟨_, hr, hd⟩ := List.nodup_append.mp hnd
    rcases List.mem_cons.mp h1 with a1 | a1 <;> rcases List.mem_cons.mp h2 with a2 | a2
    · exact absurd (a1.trans a2.symm) hne
    · subst a1
      intro hX2
      exact hd hX1 (List.mem_flatMap.mpr ⟨e2, a2, hX2⟩)
    · subst a2
      intro hX2
      exact hd hX2 (List.mem_flatMap.mpr ⟨e1, a1, hX1⟩)
    · exact ih hr a1 a2

/-- The loop of RemoveUnneededTries that removes the tries returns; it
removes the tries without a throwing instruction, clears the try-catch
information of their members and leaves the blocks of the other tries alone. -/
theorem RemoveUnneededTries_loop_spec :
    ∀ (tries : TryMap) (g : HGraph) (n : Nat) (any : Bool),
      (∀ entry ∈ tries, TryReady g entry.1 entry.2) → (tries.flatMap tryBlocks).Nodup →
      ∃ st, iterate RemoveUnneededTries.step tries
          { graph := g, removed_tries := n, any_handler_in_loop := any } = some st ∧
        TryFrame ((tries.filter (fun e => CanPerformTryRemoval g e.2)).flatMap tryBlocks)
          g st.graph ∧
        st.removed_tries = n + (tries.filter (fun e => CanPerformTryRemoval g e.2)).length ∧
        ∀ entry ∈ tries, CanPerformTryRemoval g entry.2 = true →
          ∀ M ∈ entry.2.blocks_in_try, st.graph.HasTryCatchInformation M = false := by
  intro tries
  induction tries with
  | nil =>
    intro g n any _ _
    exact ⟨_, rfl, TryFrame.frame_refl _ g, rfl, fun _ h => by cases h⟩
  | cons e rest ih =>
    intro g n any hready hnd
    have hnd' := hnd
    rw [List.flatMap_cons] at hnd'
    obtain ⟨_, hndr, hdis⟩ := List.nodup_append.mp hnd'
    have hdis' : ∀ e' ∈ rest, ∀ X ∈ tryBlocks e', X ∉ tryBlocks e := by
      intro e' he' X hX hc
      exact hdis hc (List.mem_flatMap.mpr ⟨e', he', hX⟩)
    cases hc : CanPerformTryRemoval g e.2 with
    | false =>
      obtain ⟨st, h1, F, hn, hclr⟩ := ih g n any
        (fun e' he' => hready e' (List.mem_cons_of_mem _ he')) hndr
      refine ⟨st, ?_, ?_, ?_, ?_⟩
      · simp only [iterate, RemoveUnneededTries.step, hc, Bool.false_eq_true, if_false]
        exact h1
      · rw [List.filter_cons_of_neg (by simp [hc])]
        exact F
      · rw [List.filter_cons_of_neg (by simp [hc])]
        exact hn
      · intro e' he' hc'
        rcases List.mem_cons.mp he' with h | h
        · rw [h, hc] at hc'
          cases hc'
        · exact hclr e' h hc'
    | true =>
      obtain ⟨g1, any1, rew, clr, hr, I, hrew, hclr⟩ :=
        RemoveTry_spec g e.1 e.2 any (hready e (List.mem_cons_self _ _))
      have hsub1 : ∀ X ∈ rew, X ∈ tryBlocks e := by
        intro X hX
        have := (hrew X).mp hX
        unfold HGraph.boundaryBlocks at this
        unfold tryBlocks
        rw [List.cons_append] at this ⊢
        rcases List.mem_cons.mp this with h | h
        · rw [h]; exact List.mem_cons_self _ _
        · rcases List.mem_append.mp h with h | h
          · exact List.mem_cons_of_mem _ (List.mem_append_left _ h)
          · exact List.mem_cons_of_mem _ (List.mem_append_right _ (List.mem_filter.mp h).1)
      have hsub2 : ∀ X ∈ clr, X ∈ tryBlocks e :=
        fun X hX => mem_tryBlocks_of_member e X ((hclr X).mp hX)
      have hsub3 : ∀ X ∈ g.innerBlocks e.2, X ∈ tryBlocks e := by
        intro X hX
        unfold HGraph.innerBlocks at hX
        exact mem_tryBlocks_of_member e X (List.mem_filter.mp hX).1
      have F1 := TryFrame.of_inv I (tryBlocks e) hsub1 hsub2 hsub3
      obtain ⟨st, h1, F2, hn, hclr2⟩ := ih g1 (n + 1) any1
        (fun e' he' => TryReady.transfer F1 e'.1 e'.2
          (hready e' (List.mem_cons_of_mem _ he')) (hdis' e' he')) hndr
      have hfilter : rest.filter (fun e' => CanPerformTryRemoval g1 e'.2) =
          rest.filter (fun e' => CanPerformTryRemoval g e'.2) := by
        apply List.filter_congr
        intro e' he'
        exact F1.can_remove_same e'.2
          (fun M hM => hdis' e' he' M (mem_tryBlocks_of_member e' M hM))
      rw [hfilter] at F2 hn
      refine ⟨st, ?_, ?_, ?_, ?_⟩
      · simp only [iterate, RemoveUnneededTries.step, hc, if_true, hr]
        exact h1
      · rw [List.filter_cons_of_pos (by simp [hc]), List.flatMap_cons]
        exact (F1.frame_mono (fun X hX => List.mem_append_left _ hX)).frame_trans
          (F2.frame_mono (fun X hX => List.mem_append_right _ hX))
      · rw [List.filter_cons_of_pos (by simp [hc]), List.length_cons, hn]
        omega
      · intro e' he' hc' M hM
        rcases List.mem_cons.mp he' with h | h
        · subst h
          have hM1 : g1.HasTryCatchInformation M = false := by
            rw [HasTryCatchInformation_of_tryOf, I.try_clr M ((hclr M).mpr hM)]
            cases g.tryOf M <;> rfl
          rw [F2.has_try_same M, hM1]
          intro hmem
          obtain ⟨e2, he2, hX2⟩ := List.mem_flatMap.mp hmem
          exact hdis' e2 (List.mem_filter.mp he2).1 M hX2 (mem_tryBlocks_of_member e' M hM)
        · apply hclr2 e' h _ M hM
          rw [F1.can_remove_same e'.2
            (fun M' hM' => hdis' e' h M' (mem_tryBlocks_of_member e' M' hM'))]
          exact hc'

/-- A try of the map that has a throwing instruction is outside what the
loop touches. -/
theorem kept_not_touched (g : HGraph) (tries : TryMap) (hnd : (tries.flatMap tryBlocks).Nodup)
    (entry : Nat × TryBelongingInformation) (he : entry ∈ tries)
    (hc : CanPerformTryRemoval g entry.2 = false) (X : Nat) (hX : X ∈ tryBlocks entry) :
    X ∉ (tries.filter (fun e => CanPerformTryRemoval g e.2)).flatMap tryBlocks := by
  intro hmem
  obtain ⟨e2, he2, hX2⟩ := List.mem_flatMap.mp hmem
  obtain ⟨h1, h2⟩ := List.mem_filter.mp he2
  have hne : entry ≠ e2 := by
    intro e
    rw [e] at hc
    rw [hc] at h2
    cases h2
  exact tryBlocks_disjoint tries hnd entry e2 he h1 hne X hX hX2

theorem CanPerformTryRemoval_iff (g : HGraph) (info : TryBelongingInformation) :
    CanPerformTryRemoval g info = true ↔
      ∀ block ∈ info.blocks_in_try, ∀ i ∈ g.instructionsOf block, g.CanThrow i = false := by
  unfold CanPerformTryRemoval
  simp only [List.all_eq_true, Bool.not_eq_true']

/-- The loop over the tries: CanPerformTryRemoval is true iff no instruction
in any block of the
(coalesced) try can throw; consequently the loop of RemoveUnneededTries over
the tries of a well-formed graph removes a try (its member blocks are left
without try-catch information) iff none of its member blocks contains an
instruction that can throw, and counts the tries it removes. -/
theorem tries_loop_removes_iff_no_throw (g : HGraph) (tries : TryMap)
    (hwf : g.TriesRemovable tries = true) :
    (∀ info, CanPerformTryRemoval g info = true ↔
      ∀ block ∈ info.blocks_in_try, ∀ i ∈ g.instructionsOf block, g.CanThrow i = false) ∧
    ∃ st, iterate RemoveUnneededTries.step tries
        { graph := g, removed_tries := 0, any_handler_in_loop := false } = some st ∧
      st.removed_tries = (tries.filter (fun e => CanPerformTryRemoval g e.2)).length ∧
      ∀ entry ∈ tries,
        ((∀ M ∈ entry.2.blocks_in_try, st.graph.HasTryCatchInformation M = false) ↔
          ∀ block ∈ entry.2.blocks_in_try, ∀ i ∈ g.instructionsOf block,
            g.CanThrow i = false) := by
  have R := TriesRemovable_ready g tries hwf
  refine ⟨CanPerformTryRemoval_iff g, ?_⟩
  obtain ⟨st, h1, F, hn, hclr⟩ := RemoveUnneededTries_loop_spec tries g 0 false R.ready R.disjoint
  refine ⟨st, h1, by rw [hn, Nat.zero_add], ?_⟩
  intro entry he
  constructor
  · intro hall
    cases hc : CanPerformTryRemoval g entry.2 with
    | true => exact (CanPerformTryRemoval_iff g entry.2).mp hc
    | false =>
      exfalso
      have hex : ¬ ∀ block ∈ entry.2.blocks_in_try, ∀ i ∈ g.instructionsOf block,
          g.CanThrow i = false := by
        intro h
        rw [(CanPerformTryRemoval_iff g entry.2).mpr h] at hc
        cases hc
      apply hex
      intro block hb
      exfalso
      have hk := kept_not_touched g tries R.disjoint entry he hc block
        (mem_tryBlocks_of_member entry block hb)
      have := hall block hb
      rw [F.has_try_same block hk, R.member_info entry he block hb] at this
      cases this
  · intro hno
    exact hclr entry he ((CanPerformTryRemoval_iff g entry.2).mpr hno)

/-- C24 (as stated, refuted): in `exampleNestedTry` the inner try has a
throwing instruction (instruction 8 of its member block 7), and
RemoveUnneededTries deletes its entry block 6, its member block 7 and its
handler 9: they are reachable only through the handler of the outer try, which
is removed. -/
theorem RemoveUnneededTries_deletes_nested_throwing_try :
    RemoveUnneededTries.tries exampleNestedTry =
      some [(1, { blocks_in_try := [2], coalesced_try_entries := [] }),
        (6, { blocks_in_try := [7], coalesced_try_entries := [] })] ∧
    exampleNestedTry.instructionsOf 7 = [8, 9] ∧
    exampleNestedTry.CanThrow 8 = true ∧
    (RemoveUnneededTries (exampleAnalysis [0, 1, 2, 3, 5, 6, 7, 8, 9, 4])
        { graph := exampleNestedTry, stats := none }).map
        (fun r => (r.1.graph.GetBlock 6, r.1.graph.GetBlock 7, r.1.graph.GetBlock 9, r.2)) =
      some (none, none, none, true) := by
  decide

/-- C24 (amended): the loop of RemoveUnneededTries over the tries of a
well-formed graph returns, and it leaves a try with a throwing instruction
fully intact: its entry blocks and its member blocks keep their successors,
their instructions (they end with a TryBoundary as before) and their try-catch
information, and every block lists them as predecessors as before. -/
theorem RemoveUnneededTries_loop_keeps_throwing_try (g : HGraph) (tries : TryMap)
    (hwf : g.TriesRemovable tries = true) :
    ∃ st, iterate RemoveUnneededTries.step tries
        { graph := g, removed_tries := 0, any_handler_in_loop := false } = some st ∧
      ∀ entry ∈ tries,
        (∃ block ∈ entry.2.blocks_in_try, ∃ i ∈ g.instructionsOf block,
          g.CanThrow i = true) →
        ∀ X ∈ tryBlocks entry,
          st.graph.successorsOf X = g.successorsOf X ∧
          st.graph.instructionsOf X = g.instructionsOf X ∧
          st.graph.EndsWithTryBoundary X = g.EndsWithTryBoundary X ∧
          st.graph.tryOf X = g.tryOf X ∧
          ∀ h, (st.graph.predecessorsOf h).count X = (g.predecessorsOf h).count X := by
  have R := TriesRemovable_ready g tries hwf
  obtain ⟨st, h1, F, _, _⟩ := RemoveUnneededTries_loop_spec tries g 0 false R.ready R.disjoint
  refine ⟨st, h1, ?_⟩
  rintro entry he ⟨block, hb, i, hi, hthrow⟩ X hX
  have hc : CanPerformTryRemoval g entry.2 = false := by
    cases hc : CanPerformTryRemoval g entry.2 with
    | false => rfl
    | true =>
      rw [(CanPerformTryRemoval_iff g entry.2).mp hc block hb i hi] at hthrow
      cases hthrow
  have hk := kept_not_touched g tries R.disjoint entry he hc X hX
  exact ⟨F.succ X hk, F.insts X hk, F.boundary_same X hk, F.try_same X hk,
    fun h => F.preds_out h X hk⟩

/-- On `exampleCoalescedTry`, whose second try has a throwing instruction. -/
theorem RemoveUnneededTries_loop_keeps_throwing_try_witness :
    exampleCoalescedTry.TriesRemovable exampleCoalescedTries = true ∧
    exampleCoalescedTry.CanThrow 8 = true ∧
    ∃ st, iterate RemoveUnneededTries.step exampleCoalescedTries
        { graph := exampleCoalescedTry, removed_tries := 0,
          any_handler_in_loop := false } = some st ∧
      ∀ entry ∈ exampleCoalescedTries,
        (∃ block ∈ entry.2.blocks_in_try, ∃ i ∈ exampleCoalescedTry.instructionsOf block,
          exampleCoalescedTry.CanThrow i = true) →
        ∀ X ∈ tryBlocks entry,
          st.graph.successorsOf X = exampleCoalescedTry.successorsOf X ∧
          st.graph.instructionsOf X = exampleCoalescedTry.instructionsOf X ∧
          st.graph.EndsWithTryBoundary X = exampleCoalescedTry.EndsWithTryBoundary X ∧
          st.graph.tryOf X = exampleCoalescedTry.tryOf X ∧
          ∀ h, (st.graph.predecessorsOf h).count X =
            (exampleCoalescedTry.predecessorsOf h).count X :=
  ⟨by decide, by decide,
    RemoveUnneededTries_loop_keeps_throwing_try exampleCoalescedTry exampleCoalescedTries
      (by decide)⟩

/-- Run, stage by stage: when the first four passes leave the graph as it is
and RemoveUnneededTries changes it, the result is that of the second
ConnectSuccessiveBlocks and of RemoveDeadInstructions. -/
theorem Run_after_tries (a : GraphAnalysis) (simplifyCFG : HGraph → HGraph)
    (ev : StaticEvaluator) (cev : ConditionEvaluator) (ssa : HGraph → HGraph)
    (dce dce4 : HDeadCodeElimination) (did1 did2 did3 : Bool)
    (h0 : dce.graph.has_irreducible_loops = false)
    (h1 : ConnectSuccessiveBlocks dce.graph = some dce.graph)
    (h2 : SimplifyAlwaysThrows a dce = some (dce, did1))
    (h3 : SimplifyIfs a simplifyCFG ev cev dce = some (dce, did2))
    (h4 : RemoveDeadBlocks a dce = some (dce, did3))
    (h5 : RemoveUnneededTries a dce = some (dce4, true)) :
    HDeadCodeElimination.Run a simplifyCFG ev cev ssa dce =
      ((ConnectSuccessiveBlocks dce4.graph).bind (fun g5 =>
        RemoveDeadInstructions { dce4 with graph := ssa g5 })).map (fun r => (r, true)) := by
  unfold HDeadCodeElimination.Run
  simp only [h0, h1, Bool.not_false, if_true]
  rw [show ({ dce with graph := dce.graph } : HDeadCodeElimination) = dce from rfl]
  simp only [h2, h3, h4, h5, Bool.or_true, if_true]
  cases hc : ConnectSuccessiveBlocks dce4.graph with
  | none => rfl
  | some g5 =>
    simp only [Option.some_bind]
    cases RemoveDeadInstructions { dce4 with graph := ssa g5 } <;> rfl

/-- C25 (as stated, refuted): `exampleCoalescedTry` is well-formed and has no
irreducible loop; after HDeadCodeElimination::Run block 4 still belongs to the
try of instruction 3, and no instruction of any block can throw.  The try was
kept for the call in block 8, which RemoveDeadBlocks deleted afterwards. -/
theorem Run_leaves_try_without_throwing_instruction :
    exampleCoalescedTry.has_irreducible_loops = false ∧
    exampleCoalescedTry.MergeReady = true ∧ exampleCoalescedTry.ThrowReady = true ∧
    exampleCoalescedTry.DefinedBeforeUse = true ∧
    (HDeadCodeElimination.Run (exampleAnalysis [0, 1, 2, 3, 4, 7, 8, 5, 9, 6]) id
        (fun _ _ => none) (fun _ _ _ => none) id
        { graph := exampleCoalescedTry, stats := none }).map
        (fun r => ((r.1.graph.GetBlock 4).bind (·.try_catch_information),
          r.1.graph.EndsWithTryBoundary 1, r.1.graph.successorsOf 1,
          (List.range r.1.graph.blocks.length).all (fun b =>
            (r.1.graph.instructionsOf b).all (fun i => !r.1.graph.CanThrow i)))) =
      some (some 3, true, [4, 9], true) := by
  refine ⟨by decide, by decide, by decide, by decide, ?_⟩
  rw [Run_after_tries _ _ _ _ _ _ { graph := exampleCoalescedTryRemoved, stats := none }
    false false false (by decide) (by decide) (by decide) (by decide) (by decide) (by decide)]
  decide

/-- C25 (amended): the loop of RemoveUnneededTries over the tries of a
well-formed graph returns, and afterwards every try of which a member block
still has try-catch information has a member block with an instruction that
can throw. -/
theorem RemoveUnneededTries_loop_kept_try_can_throw (g : HGraph) (tries : TryMap)
    (hwf : g.TriesRemovable tries = true) :
    ∃ st, iterate RemoveUnneededTries.step tries
        { graph := g, removed_tries := 0, any_handler_in_loop := false } = some st ∧
      ∀ entry ∈ tries,
        (∃ M ∈ entry.2.blocks_in_try, st.graph.HasTryCatchInformation M = true) →
        ∃ block ∈ entry.2.blocks_in_try, ∃ i ∈ st.graph.instructionsOf block,
          st.graph.CanThrow i = true := by
  have R := TriesRemovable_ready g tries hwf
  obtain ⟨st, h1, F, _, hclr⟩ := RemoveUnneededTries_loop_spec tries g 0 false R.ready
    R.disjoint
  refine ⟨st, h1, ?_⟩
  rintro entry he ⟨M, hM, hinfo⟩
  have hc : CanPerformTryRemoval g entry.2 = false := by
    cases hc : CanPerformTryRemoval g entry.2 with
    | false => rfl
    | true =>
      rw [hclr entry he hc M hM] at hinfo
      cases hinfo
  have hex : ∃ block ∈ entry.2.blocks_in_try, ∃ i ∈ g.instructionsOf block,
      g.CanThrow i = true := by
    by_contra hno
    have : CanPerformTryRemoval g entry.2 = true := by
      apply (CanPerformTryRemoval_iff g entry.2).mpr
      intro block hb i hi
      cases ht : g.CanThrow i with
      | false => rfl
      | true => exact absurd ⟨block, hb, i, hi, ht⟩ hno
    rw [this] at hc
    cases hc
  obtain ⟨block, hb, i, hi, ht⟩ := hex
  have hk := kept_not_touched g tries R.disjoint entry he hc block
    (mem_tryBlocks_of_member entry block hb)
  refine ⟨block, hb, i, by rw [F.insts block hk]; exact hi, ?_⟩
  unfold HGraph.CanThrow at ht ⊢
  rw [F.kind_same _ rfl i]
  exact ht

/-- On `exampleCoalescedTry`. -/
theorem RemoveUnneededTries_loop_kept_try_can_throw_witness :
    exampleCoalescedTry.TriesRemovable exampleCoalescedTries = true ∧
    ∃ st, iterate RemoveUnneededTries.step exampleCoalescedTries
        { graph := exampleCoalescedTry, removed_tries := 0,
          any_handler_in_loop := false } = some st ∧
      ∀ entry ∈ exampleCoalescedTries,
        (∃ M ∈ entry.2.blocks_in_try, st.graph.HasTryCatchInformation M = true) →
        ∃ block ∈ entry.2.blocks_in_try, ∃ i ∈ st.graph.instructionsOf block,
          st.graph.CanThrow i = true :=
  ⟨by decide,
    RemoveUnneededTries_loop_kept_try_can_throw exampleCoalescedTry exampleCoalescedTries
      (by decide)⟩

/-! ## SimplifyIfs: the blocks it skips -/

theorem PhisApart_owned (g : HGraph) (X : Nat) (h : g.PhisApart X = true) : PhisOwned g X := by
  unfold HGraph.PhisApart at h
  simp only [Bool.and_eq_true, List.all_eq_true, decide_eq_true_eq, Bool.or_eq_true,
    List.mem_range] at h
  refine ⟨h.1, ?_⟩
  intro B hB p hp
  by_cases hlt : B < g.blocks.length
  · rcases h.2 B hlt with e | e
    · exact absurd e hB
    · exact e p hp
  · exfalso
    unfold HGraph.phisOf HGraph.GetBlock at hp
    rw [List.getD_eq_default _ _ (Nat.le_of_not_lt hlt)] at hp
    cases hp

theorem phisOf_of_headOf (g g' : HGraph) (X : Nat) (h : g'.headOf X = g.headOf X) :
    g'.phisOf X = g.phisOf X := by
  unfold HGraph.headOf at h
  unfold HGraph.phisOf
  cases h1 : g'.GetBlock X with
  | none =>
    cases h2 : g.GetBlock X with
    | none => rfl
    | some b => rw [h1, h2] at h; cases h
  | some b' =>
    cases h2 : g.GetBlock X with
    | none => rw [h1, h2] at h; cases h
    | some b =>
      rw [h1, h2] at h
      simp only [Option.map_some', Option.some.injEq, Prod.mk.injEq] at h
      exact h.1

theorem Bypassed.by_refl (X : Nat) (g : HGraph) : Bypassed X g g :=
  ⟨rfl, fun _ _ => rfl, List.prefix_refl _, fun _ => Nat.le_refl _⟩

theorem Bypassed.by_trans {X : Nat} {g g1 g2 : HGraph} (h1 : Bypassed X g g1)
    (h2 : Bypassed X g1 g2) : Bypassed X g g2 where
  phis := h2.phis.trans h1.phis
  inputs := fun p hp => (h2.inputs p (h1.phis ▸ hp)).trans (h1.inputs p hp)
  preds := h1.preds.trans h2.preds
  succs := fun p => Nat.le_trans (h1.succs p) (h2.succs p)

theorem Skipping.sk_refl {X : Nat} {g : HGraph} (O : PhisOwned g X) : Skipping X g g :=
  ⟨Bypassed.by_refl X g, rfl, Nat.le_refl _, O⟩

theorem Skipping.sk_trans {X : Nat} {g g1 g2 : HGraph} (h1 : Skipping X g g1)
    (h2 : Skipping X g1 g2) : Skipping X g g2 :=
  ⟨h1.kept.by_trans h2.kept, h2.head.trans h1.head, Nat.le_trans h1.length h2.length, h2.owned⟩

/-- A step that keeps the head of block `X`, its predecessors as a prefix, the
edges to it, the input counts of its phis, and that adds only new instructions
to the phis of the other blocks, keeps the invariant. -/
theorem Skipping.of_local {X : Nat} {g g' : HGraph} (O : PhisOwned g X)
    (hhead : g'.headOf X = g.headOf X)
    (hpreds : g.predecessorsOf X <+: g'.predecessorsOf X)
    (hsuccs : ∀ p, (g.successorsOf p).count X ≤ (g'.successorsOf p).count X)
    (hin : ∀ p ∈ g.phisOf X, (g'.inputsOf p).length = (g.inputsOf p).length)
    (hlen : g.instructions.length ≤ g'.instructions.length)
    (hphis : ∀ B, B ≠ X → ∀ p ∈ g'.phisOf B, p ∈ g.phisOf B ∨ g.instructions.length ≤ p) :
    Skipping X g g' := by
  have hp := phisOf_of_headOf g g' X hhead
  refine ⟨⟨hp, hin, hpreds, hsuccs⟩, hhead, hlen, ?_, ?_⟩
  · intro p h
    rw [hp] at h
    exact Nat.lt_of_lt_of_le (O.bound p h) hlen
  · intro B hB p h hX
    rw [hp] at hX
    rcases hphis B hB p h with h1 | h1
    · exact O.apart B hB p h1 hX
    · exact absurd (O.bound p hX) (Nat.not_lt.mpr h1)

/-- A step that leaves the block table alone. -/
theorem Skipping.of_arena {X : Nat} {g g' : HGraph} (O : PhisOwned g X)
    (hblocks : ∀ b, g'.GetBlock b = g.GetBlock b)
    (hin : ∀ p ∈ g.phisOf X, (g'.inputsOf p).length = (g.inputsOf p).length)
    (hlen : g.instructions.length ≤ g'.instructions.length) : Skipping X g g' := by
  have hph : ∀ B, g'.phisOf B = g.phisOf B := fun B => by
    unfold HGraph.phisOf; rw [hblocks]
  apply Skipping.of_local O
  · unfold HGraph.headOf; rw [hblocks]
  · unfold HGraph.predecessorsOf; rw [hblocks]
  · intro p; unfold HGraph.successorsOf; rw [hblocks]
  · exact hin
  · exact hlen
  · intro B _ p h
    rw [hph] at h
    exact Or.inl h

theorem Skipping_ReplaceInput {X : Nat} {g : HGraph} (O : PhisOwned g X) (user index r : Nat) :
    Skipping X g (g.ReplaceInput user index r) := by
  apply Skipping.of_arena O (fun b => GetBlock_ReplaceInput g user index r b)
  · intro p _
    unfold HGraph.inputsOf
    rw [GetInstruction_ReplaceInput]
    cases g.GetInstruction p with
    | none => rfl
    | some u =>
      simp only [Option.map_some']
      split <;> simp
  · simp [HGraph.ReplaceInput]

theorem Skipping_ReplaceWith {X : Nat} {g : HGraph} (O : PhisOwned g X) (inst other : Nat) :
    Skipping X g (g.ReplaceWith inst other) := by
  apply Skipping.of_arena O (fun b => GetBlock_ReplaceWith g inst other b)
  · intro p _
    exact inputsOf_length_ReplaceWith g inst other p
  · simp [HGraph.ReplaceWith]

theorem Skipping_RemoveInputAt {X : Nat} {g : HGraph} (O : PhisOwned g X) (phi index : Nat)
    (hphi : phi ∉ g.phisOf X) : Skipping X g (g.RemoveInputAt phi index) := by
  apply Skipping.of_arena O (fun b => GetBlock_RemoveInputAt g phi index b)
  · intro p hp
    unfold HGraph.inputsOf
    rw [GetInstruction_RemoveInputAt]
    cases g.GetInstruction p with
    | none => rfl
    | some u =>
      simp only [Option.map_some']
      have : phi ≠ p := fun e => hphi (e ▸ hp)
      simp [this]
  · simp [HGraph.RemoveInputAt]

theorem count_replaceFirst_of_ne (old new X : Nat) (l : List Nat) (h : X ≠ old) :
    l.count X ≤ (replaceFirst old new l).count X := by
  induction l with
  | nil => exact Nat.le_refl _
  | cons x xs ih =>
    unfold replaceFirst
    by_cases hx : x = old
    · rw [if_pos hx, List.count_cons, List.count_cons]
      have : (x == X) = false := by
        rw [beq_eq_false_iff_ne]
        intro e
        exact h (e ▸ hx)
      rw [this]
      simp only [Bool.false_eq_true, if_false, Nat.add_zero]
      split
      · exact Nat.le_succ _
      · exact Nat.le_refl _
    · rw [if_neg hx, List.count_cons, List.count_cons]
      exact Nat.add_le_add_right ih _

/-- A step that updates the blocks one by one: the update keeps the head and
the predecessors of block `X` as a prefix, the edges to it, and adds only new
instructions to the phis of the other blocks. -/
theorem Skipping.of_blocks {X : Nat} {g g' : HGraph} (O : PhisOwned g X)
    (F : Nat → HBasicBlock → HBasicBlock)
    (hblocks : ∀ b, g'.GetBlock b = (g.GetBlock b).map (F b))
    (hX : ∀ blk, (F X blk).phis = blk.phis ∧ (F X blk).is_catch_block = blk.is_catch_block ∧
      (F X blk).loop_information = blk.loop_information ∧
      blk.predecessors <+: (F X blk).predecessors)
    (hsucc : ∀ p blk, blk.successors.count X ≤ (F p blk).successors.count X)
    (hphis : ∀ B blk, B ≠ X → ∀ p ∈ (F B blk).phis, p ∈ blk.phis ∨ g.instructions.length ≤ p)
    (hin : ∀ p ∈ g.phisOf X, (g'.inputsOf p).length = (g.inputsOf p).length)
    (hlen : g.instructions.length ≤ g'.instructions.length) : Skipping X g g' := by
  apply Skipping.of_local O
  · unfold HGraph.headOf
    rw [hblocks]
    cases g.GetBlock X with
    | none => rfl
    | some blk =>
      obtain ⟨h1, h2, h3, _⟩ := hX blk
      simp only [Option.map_some', h1, h2, h3]
  · unfold HGraph.predecessorsOf
    rw [hblocks]
    cases g.GetBlock X with
    | none => exact List.prefix_refl _
    | some blk => exact (hX blk).2.2.2
  · intro p
    unfold HGraph.successorsOf
    rw [hblocks]
    cases g.GetBlock p with
    | none => exact Nat.le_refl _
    | some blk => exact hsucc p blk
  · exact hin
  · exact hlen
  · intro B hB p hp
    unfold HGraph.phisOf at hp ⊢
    rw [hblocks] at hp
    cases hb : g.GetBlock B with
    | none => rw [hb] at hp; cases hp
    | some blk =>
      rw [hb] at hp
      exact hphis B blk hB p hp

theorem inputsOf_of_GetInstruction (g g' : HGraph) (p : Nat)
    (h : ∀ i, g.GetInstruction p = some i → g'.GetInstruction p = some i)
    (hp : p < g.instructions.length) : g'.inputsOf p = g.inputsOf p := by
  unfold HGraph.inputsOf
  cases hi : g.GetInstruction p with
  | none =>
    exfalso
    unfold HGraph.GetInstruction at hi
    rw [List.getElem?_eq_none_iff] at hi
    exact absurd hp (Nat.not_lt.mpr hi)
  | some i => rw [h i hi]

theorem Skipping_InsertConstant {X : Nat} {g : HGraph} (O : PhisOwned g X)
    (k : InstructionKind) (ty : DataType) : Skipping X g (g.InsertConstant k ty).1 := by
  apply Skipping.of_blocks O
    (fun b blk => if g.entry_block = b then
        { blk with instructions := insertBeforeLast blk.instructions g.instructions.length }
      else blk)
    (fun b => GetBlock_InsertConstant g k ty b)
  · intro blk
    split <;> exact ⟨rfl, rfl, rfl, List.prefix_refl _⟩
  · intro p blk
    by_cases h : g.entry_block = p
    · simp only [h, if_true]; exact Nat.le_refl _
    · simp only [h, if_false]; exact Nat.le_refl _
  · intro B blk _ p hp
    by_cases h : g.entry_block = B
    · simp only [h, if_true] at hp; exact Or.inl hp
    · simp only [h, if_false] at hp; exact Or.inl hp
  · intro p hp
    rw [inputsOf_of_GetInstruction g _ p (GetInstruction_InsertConstant_old g k ty p)
      (O.bound p hp)]
  · simp [HGraph.InsertConstant]

theorem Skipping_GetConstantOfKind {X : Nat} {g : HGraph} (O : PhisOwned g X)
    (k : InstructionKind) (ty : DataType) : Skipping X g (g.GetConstantOfKind k ty).1 := by
  unfold HGraph.GetConstantOfKind
  split
  · exact Skipping.sk_refl O
  · exact Skipping_InsertConstant O k ty

theorem Skipping_GetIntConstant {X : Nat} {g : HGraph} (O : PhisOwned g X) (value : Int) :
    Skipping X g (g.GetIntConstant value).1 :=
  Skipping_GetConstantOfKind O _ _

theorem Skipping_AddPhi {X : Nat} {g : HGraph} (O : PhisOwned g X) (block : Nat)
    (ty : DataType) (inputs : List Nat) (hX : X ≠ block) :
    Skipping X g (g.AddPhi block ty inputs).1 := by
  have hne : ¬ block = X := fun e => hX e.symm
  apply Skipping.of_blocks O
    (fun b blk => if block = b then { blk with phis := blk.phis ++ [g.instructions.length] }
      else blk)
    (fun b => GetBlock_AddPhi g block ty inputs b)
  · intro blk
    rw [if_neg hne]
    exact ⟨rfl, rfl, rfl, List.prefix_refl _⟩
  · intro p blk
    by_cases h : block = p
    · simp only [h, if_true]; exact Nat.le_refl _
    · simp only [h, if_false]; exact Nat.le_refl _
  · intro B blk _ p hp
    by_cases h : block = B
    · simp only [h, if_true, List.mem_append, List.mem_singleton] at hp
      rcases hp with hp | hp
      · exact Or.inl hp
      · exact Or.inr (Nat.le_of_eq hp.symm)
    · simp only [h, if_false] at hp; exact Or.inl hp
  · intro p hp
    rw [inputsOf_of_GetInstruction g _ p (GetInstruction_AddPhi_old g block ty inputs p)
      (O.bound p hp)]
  · simp [HGraph.AddPhi]

theorem Skipping_RemoveInstruction {X : Nat} {g : HGraph} (O : PhisOwned g X)
    (block_id inst : Nat) : Skipping X g (g.RemoveInstruction block_id inst) := by
  apply Skipping.of_blocks O
    (fun b blk => if block_id = b then
        { blk with instructions := blk.instructions.filter (fun i => i ≠ inst) }
      else blk)
    (fun b => GetBlock_RemoveInstruction g block_id inst b)
  · intro blk
    split <;> exact ⟨rfl, rfl, rfl, List.prefix_refl _⟩
  · intro p blk
    by_cases h : block_id = p
    · simp only [h, if_true]; exact Nat.le_refl _
    · simp only [h, if_false]; exact Nat.le_refl _
  · intro B blk _ p hp
    by_cases h : block_id = B
    · simp only [h, if_true] at hp; exact Or.inl hp
    · simp only [h, if_false] at hp; exact Or.inl hp
  · intro p _
    rw [inputsOf_RemoveInstruction]
  · simp [HGraph.RemoveInstruction]

theorem GetInstruction_RemovePhi (g : HGraph) (block_id phi id : Nat) :
    (g.RemovePhi block_id phi).GetInstruction id =
      (g.GetInstruction id).map (fun u => if phi = id then { u with block := none } else u) := by
  simp only [HGraph.GetInstruction, HGraph.RemovePhi, List.getElem?_modify]
  rfl

theorem inputsOf_RemovePhi (g : HGraph) (block_id phi id : Nat) :
    (g.RemovePhi block_id phi).inputsOf id = g.inputsOf id := by
  simp only [HGraph.inputsOf, GetInstruction_RemovePhi]
  cases g.GetInstruction id with
  | none => rfl
  | some u => simp only [Option.map_some']; split <;> rfl

theorem Skipping_RemovePhi {X : Nat} {g : HGraph} (O : PhisOwned g X)
    (block_id phi : Nat) (hX : X ≠ block_id) : Skipping X g (g.RemovePhi block_id phi) := by
  have hne : ¬ block_id = X := fun e => hX e.symm
  apply Skipping.of_blocks O
    (fun b blk => if block_id = b then { blk with phis := blk.phis.filter (fun i => i ≠ phi) }
      else blk)
    (fun b => GetBlock_RemovePhi g block_id phi b)
  · intro blk
    rw [if_neg hne]
    exact ⟨rfl, rfl, rfl, List.prefix_refl _⟩
  · intro p blk
    by_cases h : block_id = p
    · simp only [h, if_true]; exact Nat.le_refl _
    · simp only [h, if_false]; exact Nat.le_refl _
  · intro B blk _ p hp
    by_cases h : block_id = B
    · simp only [h, if_true] at hp
      exact Or.inl (List.mem_filter.mp hp).1
    · simp only [h, if_false] at hp; exact Or.inl hp
  · intro p _
    rw [inputsOf_RemovePhi]
  · simp [HGraph.RemovePhi]

theorem Skipping_ReplaceSuccessor {X : Nat} {g : HGraph} (O : PhisOwned g X)
    (block existing new_block : Nat) (hX : X ≠ existing) :
    Skipping X g (g.ReplaceSuccessor block existing new_block) := by
  have hne : ¬ existing = X := fun e => hX e.symm
  apply Skipping.of_blocks O
    (fun x blk =>
        let b1 : HBasicBlock :=
          if existing = x then { blk with predecessors := blk.predecessors.erase block } else blk
        let b2 : HBasicBlock :=
          if new_block = x then { b1 with predecessors := b1.predecessors ++ [block] } else b1
        if block = x then
          { b2 with successors := replaceFirst existing new_block b2.successors }
        else b2)
    (fun b => GetBlock_ReplaceSuccessor g block existing new_block b)
  · intro blk
    by_cases h2 : new_block = X <;> by_cases h3 : block = X <;> simp [hne, h2, h3]
  · intro p blk
    by_cases h1 : existing = p <;> by_cases h2 : new_block = p <;> by_cases h3 : block = p <;>
      simp only [h1, h2, h3, if_true, if_false] <;>
      first
      | exact Nat.le_refl _
      | exact count_replaceFirst_of_ne _ _ _ _ hX
      | exact count_replaceFirst_of_ne _ _ _ _ (h1 ▸ hX)
  · intro B blk _ p hp
    by_cases h1 : existing = B <;> by_cases h2 : new_block = B <;> by_cases h3 : block = B <;>
      simp only [h1, h2, h3, if_true, if_false] at hp <;> exact Or.inl hp
  · intro p _
    rfl
  · exact Nat.le_refl _

theorem Skipping_Evaluate {X : Nat} {g : HGraph} (O : PhisOwned g X) (cev : ConditionEvaluator)
    (condition left right : Nat) (g1 : HGraph) (v : Option Nat)
    (h : Evaluate cev g condition left right = some (g1, v)) : Skipping X g g1 := by
  unfold Evaluate at h
  split at h
  · cases h
  · split at h
    · split at h
      · cases h
      · simp only [Option.some.injEq, Prod.mk.injEq] at h
        rw [← h.1]
        exact Skipping_GetIntConstant O _
    · split at h
      · simp only [Option.some.injEq, Prod.mk.injEq] at h
        rw [← h.1]
        exact Skipping.sk_refl O
      · split at h
        · split at h
          · cases h
          · simp only [Option.some.injEq, Prod.mk.injEq] at h
            rw [← h.1]
            exact Skipping_GetIntConstant O _
        · cases h

theorem Skipping_valueToCheck {X : Nat} {g : HGraph} (O : PhisOwned g X)
    (cev : ConditionEvaluator) (first : Nat) (a l : Bool) (input : Nat) (g1 : HGraph)
    (v : Option Nat) (h : SimplifyIfs.valueToCheck cev g first a l input = some (g1, v)) :
    Skipping X g g1 := by
  unfold SimplifyIfs.valueToCheck at h
  split at h
  · simp only [Option.some.injEq, Prod.mk.injEq] at h
    rw [← h.1]
    exact Skipping.sk_refl O
  · split at h
    · split at h
      · cases h
      · exact Skipping_Evaluate O cev _ _ _ g1 v h
    · split at h
      · cases h
      · exact Skipping_Evaluate O cev _ _ _ g1 v h

theorem Skipping_MaybeAddPhi_inputs {X : Nat} (true_successor false_successor : Nat)
    (same_input : Bool) (input : Nat) (preds : List Nat) :
    ∀ g : HGraph, PhisOwned g X →
      Skipping X g
        (MaybeAddPhi.inputs true_successor false_successor same_input input g preds).1 := by
  induction preds with
  | nil =>
    intro g O
    exact Skipping.sk_refl O
  | cons pred rest ih =>
    intro g O
    unfold MaybeAddPhi.inputs
    simp only
    split
    · split
      · exact Skipping.sk_refl O
      · exact ih g O
    · have S := Skipping_GetIntConstant O
        (if same_input = g.Dominates true_successor pred then 1 else 0)
      exact S.sk_trans (ih _ S.owned)

theorem Skipping_MaybeAddPhi_finish {X : Nat} {g1 : HGraph} (O : PhisOwned g1 X)
    (block if_instruction input : Nat) (inputs : List Nat) (hX : X ≠ block) :
    Skipping X g1
      (if ((g1.AddPhi block DataType.kInt32 inputs).1.ReplaceInput if_instruction 0
            (g1.AddPhi block DataType.kInt32 inputs).2).IsDeadAndRemovable input = true then
        match ((g1.AddPhi block DataType.kInt32 inputs).1.ReplaceInput if_instruction 0
            (g1.AddPhi block DataType.kInt32 inputs).2).BlockOf input with
        | none => (g1.AddPhi block DataType.kInt32 inputs).1.ReplaceInput if_instruction 0
            (g1.AddPhi block DataType.kInt32 inputs).2
        | some input_block =>
          ((g1.AddPhi block DataType.kInt32 inputs).1.ReplaceInput if_instruction 0
            (g1.AddPhi block DataType.kInt32 inputs).2).RemoveInstruction input_block input
      else (g1.AddPhi block DataType.kInt32 inputs).1.ReplaceInput if_instruction 0
        (g1.AddPhi block DataType.kInt32 inputs).2) := by
  have S2 := Skipping_AddPhi O block DataType.kInt32 inputs hX
  have S3 := Skipping_ReplaceInput S2.owned if_instruction 0
    (g1.AddPhi block DataType.kInt32 inputs).2
  refine S2.sk_trans ?_
  split
  · split
    · exact S3
    · exact S3.sk_trans (Skipping_RemoveInstruction S3.owned _ _)
  · exact S3

theorem Skipping_MaybeAddPhi {X : Nat} (dce dce' : HDeadCodeElimination) (block : Nat)
    (O : PhisOwned dce.graph X) (hX : X ≠ block) (h : MaybeAddPhi dce block = some dce') :
    Skipping X dce.graph dce'.graph := by
  have R : ∀ d : HDeadCodeElimination, some dce = some d → Skipping X dce.graph d.graph := by
    intro d e
    simp only [Option.some.injEq] at e
    rw [← e]
    exact Skipping.sk_refl O
  unfold MaybeAddPhi at h
  simp only at h
  split at h
  · cases h
  · split at h
    · cases h
    · split at h
      · cases h
      · split at h
        · exact R _ h
        · split at h
          · exact R _ h
          · split at h
            · exact R _ h
            · split at h
              · cases h
              · split at h
                · exact R _ h
                · split at h
                  · exact R _ h
                  · split at h
                    · cases h
                    · split at h
                      · exact R _ h
                      · split at h
                        · split at h
                          · rename_i g1 hg1
                            have S1 : Skipping X dce.graph g1 := by
                              have e := congrArg Prod.fst hg1
                              simp only at e
                              rw [← e]
                              exact Skipping_MaybeAddPhi_inputs _ _ _ _ _ _ O
                            simp only [Option.some.injEq] at h
                            rw [← h]
                            exact S1
                          · rename_i g1 inputs hg1
                            have S1 : Skipping X dce.graph g1 := by
                              have e := congrArg Prod.fst hg1
                              simp only at e
                              rw [← e]
                              exact Skipping_MaybeAddPhi_inputs _ _ _ _ _ _ O
                            simp only [Option.some.injEq] at h
                            rw [← h]
                            simp only
                            exact S1.sk_trans
                              (Skipping_MaybeAddPhi_finish S1.owned block _ _ inputs hX)
                        · cases h

theorem Skipping_redirect {X : Nat} (cev : ConditionEvaluator) (block phi first : Nat)
    (a l : Bool) (hX : X ≠ block) :
    ∀ (fuel i : Nat) (st st' : SimplifyIfsState), PhisOwned st.graph X →
      phi ∉ st.graph.phisOf X →
      SimplifyIfs.redirect cev block phi first a l fuel i st = some st' →
      Skipping X st.graph st'.graph := by
  intro fuel
  induction fuel with
  | zero =>
    intro i st st' O _ h
    unfold SimplifyIfs.redirect at h
    split at h
    · cases h
    · simp only [Option.some.injEq] at h
      rw [← h]
      exact Skipping.sk_refl O
  | succ fuel ih =>
    intro i st st' O hphi h
    unfold SimplifyIfs.redirect at h
    split at h
    · split at h
      · cases h
      · split at h
        · cases h
        · rename_i g1 hv
          have S1 := Skipping_valueToCheck O cev _ _ _ _ g1 none hv
          have := ih (i + 1) { st with graph := g1 } st' S1.owned
            (by rw [S1.kept.phis]; exact hphi) h
          exact S1.sk_trans this
        · rename_i g1 v hv
          have S1 := Skipping_valueToCheck O cev _ _ _ _ g1 (some v) hv
          split at h
          · cases h
          · split at h
            · rename_i p s _ _
              have S2 := Skipping_ReplaceSuccessor S1.owned p block s hX
              have S3 := Skipping_RemoveInputAt S2.owned phi i
                (by rw [S2.kept.phis, S1.kept.phis]; exact hphi)
              have S := S1.sk_trans (S2.sk_trans S3)
              simp only at h
              split at h
              · simp only [Option.some.injEq] at h
                rw [← h]
                exact S
              · have := ih i _ st' S.owned (by rw [S.kept.phis]; exact hphi) h
                exact S.sk_trans this
            · cases h
    · simp only [Option.some.injEq] at h
      rw [← h]
      exact Skipping.sk_refl O

theorem Skipping_removePhi {X : Nat} {g : HGraph} (O : PhisOwned g X) (ev : StaticEvaluator)
    (block phi first : Nat) (c : Bool) (g2 : HGraph) (hX : X ≠ block)
    (h : SimplifyIfs.removePhi ev g block phi first c = some g2) : Skipping X g g2 := by
  unfold SimplifyIfs.removePhi at h
  split at h
  · cases h
  · split at h
    · split at h
      · cases h
      · rename_i input _
        have S1 := Skipping_ReplaceWith O phi input
        have S2 := S1.sk_trans (Skipping_RemovePhi S1.owned block phi hX)
        simp only at h
        split at h
        · split at h
          · rename_i g3 result he
            simp only [Option.some.injEq] at h
            rw [← h]
            have S3 : Skipping X ((g.ReplaceWith phi input).RemovePhi block phi) g3 := by
              unfold HGraph.TryStaticEvaluation at he
              split at he
              · cases he
              · simp only [Option.some.injEq] at he
                have e := congrArg Prod.fst he
                simp only at e
                rw [← e]
                exact Skipping_GetConstantOfKind S2.owned _ _
            have S4 := Skipping_ReplaceWith S3.owned first result
            have S5 := Skipping_RemoveInstruction S4.owned block first
            exact S2.sk_trans (S3.sk_trans (S4.sk_trans S5))
          · simp only [Option.some.injEq] at h
            rw [← h]
            exact S2
        · simp only [Option.some.injEq] at h
          rw [← h]
          exact S2
    · simp only [Option.some.injEq] at h
      rw [← h]
      exact Skipping.sk_refl O

theorem IsCatchOrLoopHeader_of_head {X : Nat} {g g' : HGraph} (h : g'.headOf X = g.headOf X) :
    g'.IsCatchOrLoopHeader X = g.IsCatchOrLoopHeader X := by
  unfold HGraph.IsCatchOrLoopHeader
  rw [h]

theorem ne_of_visited {X block : Nat} {g : HGraph} {b0 : HBasicBlock}
    (hs : g.IsCatchOrLoopHeader X = true) (hb : g.GetBlock block = some b0)
    (hc : ¬ b0.is_catch_block = true) (hl : ¬ b0.loop_information = some block) :
    X ≠ block := by
  intro e
  subst e
  unfold HGraph.IsCatchOrLoopHeader HGraph.headOf at hs
  rw [hb] at hs
  simp only [Option.map_some', Bool.or_eq_true, decide_eq_true_eq] at hs
  rcases hs with h | h
  · exact hc h
  · exact hl h

theorem Skipping_visitBlock {X : Nat} (ev : StaticEvaluator) (cev : ConditionEvaluator)
    (st st' : SimplifyIfsState) (block : Nat) (O : PhisOwned st.graph X)
    (hs : st.graph.IsCatchOrLoopHeader X = true)
    (h : SimplifyIfs.visitBlock ev cev st block = some st') :
    Skipping X st.graph st'.graph := by
  have R : ∀ s : SimplifyIfsState, some st = some s → Skipping X st.graph s.graph := by
    intro s e
    simp only [Option.some.injEq] at e
    rw [← e]
    exact Skipping.sk_refl O
  unfold SimplifyIfs.visitBlock at h
  split at h
  · cases h
  · rename_i b0 hb0
    split at h
    · exact R _ h
    · rename_i hc
      split at h
      · cases h
      · split at h
        · exact R _ h
        · split at h
          · exact R _ h
          · rename_i hl
            have hX : X ≠ block := ne_of_visited hs hb0 hc hl
            split at h
            · cases h
            · rename_i dce hm
              have S1 : Skipping X st.graph dce.graph :=
                Skipping_MaybeAddPhi { graph := st.graph, stats := st.stats } dce block O hX hm
              have R1 : ∀ s : SimplifyIfsState,
                  some ({ st with graph := dce.graph, stats := dce.stats } : SimplifyIfsState) =
                    some s → Skipping X st.graph s.graph := by
                intro s e
                simp only [Option.some.injEq] at e
                rw [← e]
                exact S1
              simp only at h
              split at h
              · cases h
              · rename_i b hb
                split at h
                · rename_i phi hphis
                  have hphi : phi ∉ dce.graph.phisOf X := by
                    have e : dce.graph.phisOf block = [phi] := by
                      unfold HGraph.phisOf
                      rw [hb]
                      exact hphis
                    apply S1.owned.apart block (fun e => hX e.symm)
                    rw [e]
                    exact List.mem_singleton.mpr rfl
                  split at h
                  · split at h
                    · cases h
                    · split at h
                      · split at h
                        · cases h
                        · rename_i st1 hr
                          have S2 := Skipping_redirect cev block phi _ _ _ hX _ 0 _ st1
                            S1.owned hphi hr
                          split at h
                          · cases h
                          · rename_i g2 hp
                            have S3 := Skipping_removePhi S2.owned ev block phi _ _ g2 hX hp
                            simp only [Option.some.injEq] at h
                            rw [← h]
                            exact S1.sk_trans (S2.sk_trans S3)
                      · exact R1 _ h
                  · exact R1 _ h
                · exact R1 _ h

theorem foldl_none_SimplifyIfs (ev : StaticEvaluator) (cev : ConditionEvaluator)
    (order : List Nat) :
    order.foldl (fun (st : Option SimplifyIfsState) block =>
      match st with
      | none => none
      | some st => SimplifyIfs.visitBlock ev cev st block) none = none := by
  induction order with
  | nil => rfl
  | cons b rest ih => exact ih

theorem Skipping_loop {X : Nat} (ev : StaticEvaluator) (cev : ConditionEvaluator)
    (order : List Nat) :
    ∀ (st st' : SimplifyIfsState), PhisOwned st.graph X →
      st.graph.IsCatchOrLoopHeader X = true →
      order.foldl (fun (st : Option SimplifyIfsState) block =>
        match st with
        | none => none
        | some st => SimplifyIfs.visitBlock ev cev st block) (some st) = some st' →
      Skipping X st.graph st'.graph := by
  induction order with
  | nil =>
    intro st st' O _ h
    simp only [List.foldl_nil, Option.some.injEq] at h
    rw [← h]
    exact Skipping.sk_refl O
  | cons b rest ih =>
    intro st st' O hs h
    rw [List.foldl_cons] at h
    simp only at h
    cases hv : SimplifyIfs.visitBlock ev cev st b with
    | none =>
      rw [hv, foldl_none_SimplifyIfs] at h
      cases h
    | some st1 =>
      rw [hv] at h
      have S1 := Skipping_visitBlock ev cev st st1 b O hs hv
      have S2 := ih st1 st' S1.owned (by rw [IsCatchOrLoopHeader_of_head S1.head]; exact hs) h
      exact S1.sk_trans S2

theorem Bypassed.of_block_update {X : Nat} {g g' : HGraph} (F : Nat → HBasicBlock → HBasicBlock)
    (hblocks : ∀ b, g'.GetBlock b = (g.GetBlock b).map (F b))
    (hF : ∀ id blk, (F id blk).phis = blk.phis ∧ (F id blk).predecessors = blk.predecessors ∧
      (F id blk).successors = blk.successors)
    (hinst : g'.instructions = g.instructions) : Bypassed X g g' where
  phis := by
    unfold HGraph.phisOf
    rw [hblocks]
    cases g.GetBlock X with
    | none => rfl
    | some blk => exact (hF X blk).1
  inputs := fun p _ => by
    unfold HGraph.inputsOf HGraph.GetInstruction
    rw [hinst]
  preds := by
    unfold HGraph.predecessorsOf
    rw [hblocks]
    cases g.GetBlock X with
    | none => exact List.prefix_refl _
    | some blk =>
      simp only [Option.map_some']
      rw [(hF X blk).2.1]
  succs := fun p => by
    unfold HGraph.successorsOf
    rw [hblocks]
    cases g.GetBlock p with
    | none => exact Nat.le_refl _
    | some blk =>
      simp only [Option.map_some']
      rw [(hF p blk).2.2]

theorem Bypassed_mapBlocks {X : Nat} (g : HGraph) (f : Nat → HBasicBlock → HBasicBlock)
    (hf : ∀ id blk, (f id blk).phis = blk.phis ∧ (f id blk).predecessors = blk.predecessors ∧
      (f id blk).successors = blk.successors) : Bypassed X g (g.mapBlocks f) :=
  Bypassed.of_block_update f (fun b => GetBlock_mapBlocks g f b) hf rfl

theorem Bypassed_order {X : Nat} (g : HGraph) (order : List Nat) :
    Bypassed X g { g with reverse_post_order := order } :=
  Bypassed.of_block_update (fun _ blk => blk)
    (fun b => by
      show g.GetBlock b = _
      cases g.GetBlock b <;> rfl)
    (fun _ _ => ⟨rfl, rfl, rfl⟩) rfl

theorem Bypassed_ComputeTryBlockInformation {X : Nat} (a : GraphAnalysis) (g : HGraph) :
    Bypassed X g (g.ComputeTryBlockInformation a) :=
  Bypassed_mapBlocks g (fun id b => { b with try_catch_information := a.tryCatchInformation g id })
    (fun _ _ => ⟨rfl, rfl, rfl⟩)

theorem Bypassed_ClearLoopInformation {X : Nat} (g : HGraph) :
    Bypassed X g g.ClearLoopInformation :=
  Bypassed_mapBlocks g (fun _ b => { b with loop_information := none })
    (fun _ _ => ⟨rfl, rfl, rfl⟩)

theorem Bypassed_ClearDominanceInformation {X : Nat} (g : HGraph) :
    Bypassed X g g.ClearDominanceInformation :=
  Bypassed_order g []

theorem Bypassed_ComputeDominanceInformation {X : Nat} (a : GraphAnalysis) (g : HGraph) :
    Bypassed X g (g.ComputeDominanceInformation a) :=
  Bypassed_order g (a.reversePostOrder g)

theorem Bypassed_BuildDominatorTree {X : Nat} (a : GraphAnalysis) (g : HGraph) :
    Bypassed X g (g.BuildDominatorTree a) := by
  have h1 : Bypassed X g (g.ComputeDominanceInformation a) :=
    Bypassed_ComputeDominanceInformation a g
  have h2 : Bypassed X (g.ComputeDominanceInformation a)
      ((g.ComputeDominanceInformation a).mapBlocks (fun id b =>
        { b with loop_information := a.loopInformation (g.ComputeDominanceInformation a) id })) :=
    Bypassed_mapBlocks _ _ (fun _ _ => ⟨rfl, rfl, rfl⟩)
  exact (h1.by_trans h2).by_trans (Bypassed_ComputeTryBlockInformation a _)

/-- C21: SimplifyIfs never applies to a catch block or to a loop header.  For
a block `X` that is a catch block or a loop header, and whose phis are phis of
no other block: the visit of `X` returns the state as it is; whatever blocks
the loop of SimplifyIfs visits, the block has afterwards the phis it had, each
of them with as many inputs as it had, its predecessors are still its first
predecessors, and no block has lost it as a successor; and the same holds of the
graph that SimplifyIfs returns when the critical-edge removal of SimplifyCFG
bypasses the block. -/
theorem SimplifyIfs_bypasses_catch_blocks_and_loop_headers (ev : StaticEvaluator)
    (cev : ConditionEvaluator) (g : HGraph) (X : Nat) (b : HBasicBlock)
    (hb : g.GetBlock X = some b)
    (hX : b.is_catch_block = true ∨ b.loop_information = some X)
    (hwf : g.PhisApart X = true) :
    (∀ st : SimplifyIfsState, st.graph = g →
      (b.is_catch_block = true ∨ b.instructions ≠ []) →
      SimplifyIfs.visitBlock ev cev st X = some st) ∧
    (∀ (order : List Nat) (st st' : SimplifyIfsState), st.graph = g →
      order.foldl (fun (st : Option SimplifyIfsState) block =>
        match st with
        | none => none
        | some st => SimplifyIfs.visitBlock ev cev st block) (some st) = some st' →
      Bypassed X g st'.graph) ∧
    (∀ (a : GraphAnalysis) (simplifyCFG : HGraph → HGraph) (dce : HDeadCodeElimination)
        (r : HDeadCodeElimination × Bool), dce.graph = g →
      (∀ g1, Bypassed X g1 (simplifyCFG g1)) →
      SimplifyIfs a simplifyCFG ev cev dce = some r → Bypassed X g r.1.graph) := by
  have O := PhisApart_owned g X hwf
  have hs : g.IsCatchOrLoopHeader X = true := by
    unfold HGraph.IsCatchOrLoopHeader HGraph.headOf
    rw [hb]
    simp only [Option.map_some', Bool.or_eq_true, decide_eq_true_eq]
    exact hX
  refine ⟨?_, ?_, ?_⟩
  · intro st hg hne
    unfold SimplifyIfs.visitBlock
    rw [hg, hb]
    simp only
    split
    · rfl
    · rename_i hc
      have hl : b.loop_information = some X := hX.resolve_left hc
      have hi : b.instructions ≠ [] := hne.resolve_left hc
      cases hlast : b.GetLastInstruction with
      | none =>
        exfalso
        unfold HBasicBlock.GetLastInstruction at hlast
        exact hi (List.getLast?_eq_none_iff.mp hlast)
      | some last =>
        simp only
        split
        · rfl
        · rfl
  · intro order st st' hg h
    subst hg
    exact (Skipping_loop ev cev order st st' O hs h).kept
  · intro a simplifyCFG dce r hg hcfg h
    subst hg
    unfold SimplifyIfs at h
    simp only at h
    split at h
    · cases h
    · rename_i st hloop
      have K : Bypassed X dce.graph st.graph :=
        (Skipping_loop ev cev _ _ st O hs hloop).kept
      simp only [Option.some.injEq] at h
      rw [← h]
      simp only
      split
      · split
        · exact K.by_trans (((Bypassed_ClearLoopInformation _).by_trans
            (Bypassed_ClearDominanceInformation _)).by_trans (Bypassed_BuildDominatorTree a _))
        · exact K.by_trans ((((Bypassed_ClearDominanceInformation _).by_trans (hcfg _)).by_trans
            (Bypassed_ComputeDominanceInformation a _)).by_trans
            (Bypassed_ComputeTryBlockInformation a _))
      · exact K

/-- On `exampleDiamondLoop`, for the loop header 5: the loop of SimplifyIfs
redirects block 2 from block 4 to block 5, which gains a predecessor and keeps
its phi. -/
theorem SimplifyIfs_bypasses_catch_blocks_and_loop_headers_witness :
    exampleDiamondLoop.PhisApart 5 = true ∧
    (exampleDiamondLoop.GetPostOrder.foldl
      (fun (st : Option SimplifyIfsState) block =>
        match st with
        | none => none
        | some st => SimplifyIfs.visitBlock exampleEvaluator (fun _ _ _ => none) st block)
      (some (SimplifyIfsState.start exampleDiamondLoop))).map
      (fun st => (st.graph.phisOf 5, st.graph.inputsOf 12, st.graph.predecessorsOf 5,
        st.graph.successorsOf 2)) = some ([12], [1, 2], [4, 5, 2], [5]) ∧
    ((∀ st : SimplifyIfsState, st.graph = exampleDiamondLoop →
      (false = true ∨ [9] ≠ []) →
      SimplifyIfs.visitBlock exampleEvaluator (fun _ _ _ => none) st 5 = some st) ∧
    (∀ (order : List Nat) (st st' : SimplifyIfsState), st.graph = exampleDiamondLoop →
      order.foldl (fun (st : Option SimplifyIfsState) block =>
        match st with
        | none => none
        | some st => SimplifyIfs.visitBlock exampleEvaluator (fun _ _ _ => none) st block)
        (some st) = some st' →
      Bypassed 5 exampleDiamondLoop st'.graph) ∧
    (∀ (a : GraphAnalysis) (simplifyCFG : HGraph → HGraph) (dce : HDeadCodeElimination)
        (r : HDeadCodeElimination × Bool), dce.graph = exampleDiamondLoop →
      (∀ g1, Bypassed 5 g1 (simplifyCFG g1)) →
      SimplifyIfs a simplifyCFG exampleEvaluator (fun _ _ _ => none) dce = some r →
      Bypassed 5 exampleDiamondLoop r.1.graph)) :=
  ⟨by decide, by decide,
    SimplifyIfs_bypasses_catch_blocks_and_loop_headers exampleEvaluator (fun _ _ _ => none)
      exampleDiamondLoop 5
      { phis := [12], instructions := [9], predecessors := [4, 5], successors := [5, 7],
        loop_information := some 5 }
      (by decide) (Or.inr rfl) (by decide)⟩

/-! ## The uses of removed instructions -/

theorem NumUses_eq_zero_iff (g : HGraph) (v : Nat) :
    g.NumUses v = 0 ↔ ∀ w, (g.BlockOf w).isSome = true → v ∉ g.inputsOf w := by
  constructor
  · intro h w hb hv
    exact (NumUses_ne_zero_iff g v).mpr ⟨w, hb, hv⟩ h
  · intro h
    by_contra hne
    obtain ⟨w, hb, hv⟩ := (NumUses_ne_zero_iff g v).mp hne
    exact h w hb hv

/-- A step that gives no instruction in a block an input `v` it did not have
before, while in a block, leaves `v` without uses. -/
theorem NumUses_zero_of_no_new_use (g g' : HGraph) (v : Nat) (h : g.NumUses v = 0)
    (hstep : ∀ w, (g'.BlockOf w).isSome = true → v ∈ g'.inputsOf w →
      (g.BlockOf w).isSome = true ∧ v ∈ g.inputsOf w) : g'.NumUses v = 0 := by
  rw [NumUses_eq_zero_iff] at h ⊢
  intro w hb hv
  obtain ⟨h1, h2⟩ := hstep w hb hv
  exact h w h1 h2

theorem NumUses_RemoveInstruction_zero (g : HGraph) (b x v : Nat) (h : g.NumUses v = 0) :
    (g.RemoveInstruction b x).NumUses v = 0 := by
  apply NumUses_zero_of_no_new_use g _ v h
  intro w hb hv
  rw [inputsOf_RemoveInstruction] at hv
  rw [BlockOf_RemoveInstruction] at hb
  refine ⟨?_, hv⟩
  split at hb
  · cases hb
  · exact hb

theorem BlockOf_RemovePhi (g : HGraph) (block_id phi id : Nat) :
    (g.RemovePhi block_id phi).BlockOf id = if phi = id then none else g.BlockOf id := by
  simp only [HGraph.BlockOf, HGraph.GetInstruction, HGraph.RemovePhi, List.getElem?_modify]
  cases g.instructions[id]? with
  | none => simp
  | some u =>
    by_cases h : phi = id
    · simp [h]
    · simp [h]

theorem NumUses_RemovePhi_zero (g : HGraph) (b x v : Nat) (h : g.NumUses v = 0) :
    (g.RemovePhi b x).NumUses v = 0 := by
  apply NumUses_zero_of_no_new_use g _ v h
  intro w hb hv
  rw [inputsOf_RemovePhi] at hv
  rw [BlockOf_RemovePhi] at hb
  refine ⟨?_, hv⟩
  split at hb
  · cases hb
  · exact hb

theorem inputsOf_ReplaceWith (g : HGraph) (inst other w : Nat)
    (hb : (g.BlockOf w).isSome = true) :
    (g.ReplaceWith inst other).inputsOf w = substInput inst other (g.inputsOf w) := by
  unfold HGraph.inputsOf
  rw [GetInstruction_ReplaceWith]
  unfold HGraph.BlockOf at hb
  cases hi : g.GetInstruction w with
  | none => rfl
  | some u =>
    rw [hi] at hb
    simp only [Option.some_bind] at hb
    simp only [Option.map_some', hb, if_true]

theorem mem_substInput_of_ne (old new v : Nat) (l : List Nat) (hv : new ≠ v)
    (h : v ∈ substInput old new l) : v ∈ l := by
  unfold substInput at h
  obtain ⟨y, hy, e⟩ := List.mem_map.mp h
  by_cases hyo : y = old
  · rw [if_pos hyo] at e
    exact absurd e hv
  · rw [if_neg hyo] at e
    rw [← e]
    exact hy

/-- After `inst->ReplaceWith(other)` the instruction has no use, when `other`
is another instruction. -/
theorem NumUses_ReplaceWith_self (g : HGraph) (inst other : Nat) (hne : other ≠ inst) :
    (g.ReplaceWith inst other).NumUses inst = 0 := by
  rw [NumUses_eq_zero_iff]
  intro w hb hv
  rw [BlockOf_ReplaceWith] at hb
  rw [inputsOf_ReplaceWith g inst other w hb] at hv
  exact not_mem_substInput inst other _ hne hv

/-- A replacement by `other` leaves an instruction that is not `other`
without uses. -/
theorem NumUses_ReplaceWith_zero (g : HGraph) (inst other v : Nat) (hne : other ≠ v)
    (h : g.NumUses v = 0) : (g.ReplaceWith inst other).NumUses v = 0 := by
  apply NumUses_zero_of_no_new_use g _ v h
  intro w hb hv
  rw [BlockOf_ReplaceWith] at hb
  rw [inputsOf_ReplaceWith g inst other w hb] at hv
  exact ⟨hb, mem_substInput_of_ne inst other v _ hne hv⟩

/-- The pair `inst->ReplaceWith(other); RemoveInstruction(inst)` leaves the
instruction without uses. -/
theorem NumUses_replaced_removed (g : HGraph) (inst other b : Nat) (hne : other ≠ inst) :
    ((g.ReplaceWith inst other).RemoveInstruction b inst).NumUses inst = 0 :=
  NumUses_RemoveInstruction_zero _ b inst inst (NumUses_ReplaceWith_self g inst other hne)

/-! ## Constant folding: a folded instruction has no use left -/

theorem Unused_ReplaceWithAndRemove (g1 g' : HGraph) (inst c : Nat)
    (hc : g1.IsConstant c = true) (hnc : g1.IsConstant inst = false)
    (h : g1.ReplaceWithAndRemove inst c = some g') : g'.NumUses inst = 0 := by
  unfold HGraph.ReplaceWithAndRemove at h
  simp only at h
  split at h
  · cases h
  · simp only [Option.some.injEq] at h
    rw [← h]
    exact NumUses_replaced_removed g1 inst c _ (ne_of_IsConstant g1 c inst hc hnc)

theorem Unused_ReplaceWithAndRemoveFrom (g1 g' : HGraph) (block : Option Nat) (inst c : Nat)
    (hc : g1.IsConstant c = true) (hnc : g1.IsConstant inst = false)
    (h : g1.ReplaceWithAndRemoveFrom block inst c = some g') : g'.NumUses inst = 0 := by
  unfold HGraph.ReplaceWithAndRemoveFrom at h
  cases block with
  | none => cases h
  | some b =>
    simp only [Option.some.injEq] at h
    rw [← h]
    exact NumUses_replaced_removed g1 inst c _ (ne_of_IsConstant g1 c inst hc hnc)

theorem Unused_ReplaceWithConstantAndRemove (g g' : HGraph) (inst : Nat) (ty : DataType)
    (value : Int) (hi : (g.GetInstruction inst).isSome = true)
    (hnc : g.IsConstant inst = false)
    (h : g.ReplaceWithConstantAndRemove inst ty value = some g') : g'.NumUses inst = 0 := by
  unfold HGraph.ReplaceWithConstantAndRemove at h
  obtain ⟨h1, hc⟩ := GetConstant_evolves g ty value (fun _ => False) (fun _ => False)
  exact Unused_ReplaceWithAndRemove _ g' inst _ hc
    (by rw [h1.IsConstant_eq_old inst hi]; exact hnc) h

theorem Unused_ReplaceWithConstantAndRemoveFrom (g g' : HGraph) (block : Option Nat)
    (inst : Nat) (ty : DataType) (value : Int) (hi : (g.GetInstruction inst).isSome = true)
    (hnc : g.IsConstant inst = false)
    (h : g.ReplaceWithConstantAndRemoveFrom block inst ty value = some g') :
    g'.NumUses inst = 0 := by
  unfold HGraph.ReplaceWithConstantAndRemoveFrom at h
  obtain ⟨h1, hc⟩ := GetConstant_evolves g ty value (fun _ => False) (fun _ => False)
  exact Unused_ReplaceWithAndRemoveFrom _ g' block inst _ hc
    (by rw [h1.IsConstant_eq_old inst hi]; exact hnc) h

theorem VisitUnaryOperation_unused (ev : StaticEvaluator) (g g' : HGraph) (inst : Nat)
    (hi : (g.GetInstruction inst).isSome = true) (hnc : g.IsConstant inst = false)
    (h : VisitUnaryOperation ev g inst = some g') : g' = g ∨ g'.NumUses inst = 0 := by
  unfold VisitUnaryOperation at h
  cases hev : g.TryStaticEvaluation ev inst with
  | none =>
    rw [hev] at h
    exact Or.inl (Option.some.inj h).symm
  | some r =>
    rw [hev] at h
    obtain ⟨h1, hc⟩ := TryStaticEvaluation_evolves ev g r.1 inst r.2 hev
      (fun _ => False) (fun _ => False)
    exact Or.inr (Unused_ReplaceWithAndRemove r.1 g' inst r.2 hc
      (by rw [h1.IsConstant_eq_old inst hi]; exact hnc) h)

theorem VisitDivZeroCheck_unused (g g' : HGraph) (inst : Nat)
    (hnc : g.IsConstant inst = false)
    (h : VisitDivZeroCheck g inst = some g') : g' = g ∨ g'.NumUses inst = 0 := by
  unfold VisitDivZeroCheck at h
  cases hin : g.InputAt inst 0 with
  | none => rw [hin] at h; cases h
  | some check_input =>
    rw [hin] at h
    simp only at h
    split at h
    · next hc =>
      simp only [Bool.and_eq_true] at hc
      exact Or.inr (Unused_ReplaceWithAndRemove g g' inst check_input hc.1 hnc h)
    · exact Or.inl (Option.some.inj h).symm

theorem VisitShift_unused (g g' : HGraph) (inst : Nat) (hnc : g.IsConstant inst = false)
    (h : VisitShift g inst = some g') : g' = g ∨ g'.NumUses inst = 0 := by
  unfold VisitShift at h
  cases hin : g.GetLeft inst with
  | none => rw [hin] at h; cases h
  | some left =>
    rw [hin] at h
    simp only at h
    split at h
    · next hc =>
      simp only [Bool.and_eq_true] at hc
      exact Or.inr (Unused_ReplaceWithAndRemove g g' inst left hc.1 hnc h)
    · exact Or.inl (Option.some.inj h).symm

theorem constantRule_unused (g g' : HGraph) (inst : Nat) (c : Prop) [Decidable c]
    (ty : DataType) (value : Int) (hi : (g.GetInstruction inst).isSome = true)
    (hnc : g.IsConstant inst = false)
    (h : (if c then g.ReplaceWithConstantAndRemove inst ty value else some g) = some g') :
    g' = g ∨ g'.NumUses inst = 0 := by
  split at h
  · exact Or.inr (Unused_ReplaceWithConstantAndRemove g g' inst ty value hi hnc h)
  · exact Or.inl (Option.some.inj h).symm

theorem constantRightRule_unused (g g' : HGraph) (inst : Nat) (p : Nat → Bool)
    (hnc : g.IsConstant inst = false)
    (h : (match g.GetConstantRight inst with
      | some input_cst =>
        if p input_cst = true then g.ReplaceWithAndRemove inst input_cst else some g
      | none => some g) = some g') :
    g' = g ∨ g'.NumUses inst = 0 := by
  cases hc : g.GetConstantRight inst with
  | none =>
    rw [hc] at h
    exact Or.inl (Option.some.inj h).symm
  | some c =>
    rw [hc] at h
    simp only at h
    split at h
    · exact Or.inr (Unused_ReplaceWithAndRemove g g' inst c
        (GetConstantRight_IsConstant g inst c hc) hnc h)
    · exact Or.inl (Option.some.inj h).symm

theorem VisitMul_unused (g g' : HGraph) (inst : Nat) (hnc : g.IsConstant inst = false)
    (h : VisitMul g inst = some g') : g' = g ∨ g'.NumUses inst = 0 := by
  unfold VisitMul at h
  exact constantRightRule_unused g g' inst
    (fun c => (g.GetType inst).IsIntOrLongType &&
      g.kindIs InstructionKind.IsArithmeticZero c) hnc h

theorem VisitOr_unused (g g' : HGraph) (inst : Nat) (hnc : g.IsConstant inst = false)
    (h : VisitOr g inst = some g') : g' = g ∨ g'.NumUses inst = 0 := by
  unfold VisitOr at h
  cases hc : g.GetConstantRight inst with
  | none =>
    rw [hc] at h
    exact Or.inl (Option.some.inj h).symm
  | some c =>
    rw [hc] at h
    simp only at h
    split at h
    · exact Or.inr (Unused_ReplaceWithAndRemove g g' inst c
        (GetConstantRight_IsConstant g inst c hc) hnc h)
    · exact Or.inl (Option.some.inj h).symm

theorem VisitCompare_unused (g g' : HGraph) (inst : Nat)
    (hi : (g.GetInstruction inst).isSome = true) (hnc : g.IsConstant inst = false)
    (h : VisitCompare g inst = some g') : g' = g ∨ g'.NumUses inst = 0 := by
  unfold VisitCompare at h
  cases hc : g.GetConstantRight inst with
  | none =>
    rw [hc] at h
    exact Or.inl (Option.some.inj h).symm
  | some c =>
    rw [hc] at h
    simp only at h
    cases hl : g.GetLeastConstantLeft inst with
    | none => rw [hl] at h; cases h
    | some x =>
      rw [hl] at h
      simp only at h
      exact constantRule_unused g g' inst _ _ _ hi hnc h

theorem VisitAnd_notRule_unused (g g' : HGraph) (inst : Nat) (type : DataType)
    (hi : (g.GetInstruction inst).isSome = true) (hnc : g.IsConstant inst = false)
    (h : VisitAnd.notRule g inst type = some g') : g' = g ∨ g'.NumUses inst = 0 := by
  unfold VisitAnd.notRule at h
  cases hl : g.GetLeft inst with
  | none => rw [hl] at h; cases h
  | some left =>
    cases hr : g.GetRight inst with
    | none => rw [hl, hr] at h; cases h
    | some right =>
      rw [hl, hr] at h
      simp only at h
      split at h
      · split at h
        · cases h
        · exact constantRule_unused g g' inst _ _ _ hi hnc h
      · exact Or.inl (Option.some.inj h).symm

/-- When a second rule runs on a folded instruction, the instruction has no
use afterwards either. -/
theorem twoRules_unused (g g1 g' : HGraph) (inst : Nat)
    (h1 : g1.NumUses inst = 0) (h2 : g' = g1 ∨ g'.NumUses inst = 0) :
    g' = g ∨ g'.NumUses inst = 0 := by
  rcases h2 with h2 | h2
  · rw [h2]; exact Or.inr h1
  · exact Or.inr h2

theorem VisitAnd_unused (g g' : HGraph) (inst : Nat)
    (hi : (g.GetInstruction inst).isSome = true) (hnc : g.IsConstant inst = false)
    (h : VisitAnd g inst = some g') : g' = g ∨ g'.NumUses inst = 0 := by
  unfold VisitAnd at h
  simp only at h
  cases hc : g.GetConstantRight inst with
  | none =>
    rw [hc] at h
    exact VisitAnd_notRule_unused g g' inst _ hi hnc h
  | some c =>
    rw [hc] at h
    simp only at h
    by_cases hz : g.kindIs InstructionKind.IsZeroBitPattern c = true
    · rw [if_pos hz] at h
      cases hr : g.ReplaceWithAndRemove inst c with
      | none => rw [hr] at h; cases h
      | some g1 =>
        rw [hr] at h
        simp only at h
        have hcc := GetConstantRight_IsConstant g inst c hc
        have h1 := Folds_ReplaceWithAndRemove g g g1 inst c (Evolves.ev_refl g _ _) hcc hr
        have hu := Unused_ReplaceWithAndRemove g g1 inst c hcc hnc hr
        exact twoRules_unused g g1 g' inst hu
          (VisitAnd_notRule_unused g1 g' inst _ (h1.1.isSome_old inst hi)
            (by rw [h1.1.IsConstant_eq_old inst hi]; exact hnc) h)
    · rw [if_neg hz] at h
      exact VisitAnd_notRule_unused g g' inst _ hi hnc h

theorem VisitRem_oneRule_unused (g g' : HGraph) (block : Option Nat) (inst : Nat)
    (type : DataType)
    (hi : (g.GetInstruction inst).isSome = true) (hnc : g.IsConstant inst = false)
    (h : VisitRem.oneRule g block inst type = some g') : g' = g ∨ g'.NumUses inst = 0 := by
  unfold VisitRem.oneRule at h
  cases hl : g.GetLeft inst with
  | none => rw [hl] at h; cases h
  | some left =>
    cases hr : g.GetRight inst with
    | none => rw [hl, hr] at h; cases h
    | some right =>
      rw [hl, hr] at h
      simp only at h
      split at h
      · exact Or.inr (Unused_ReplaceWithConstantAndRemoveFrom g g' block inst type 0 hi hnc h)
      · exact Or.inl (Option.some.inj h).symm

theorem VisitRem_unused (g g' : HGraph) (inst : Nat)
    (hi : (g.GetInstruction inst).isSome = true) (hnc : g.IsConstant inst = false)
    (h : VisitRem g inst = some g') : g' = g ∨ g'.NumUses inst = 0 := by
  unfold VisitRem at h
  simp only at h
  split at h
  · exact Or.inl (Option.some.inj h).symm
  · cases hl : g.GetLeft inst with
    | none => rw [hl] at h; cases h
    | some left =>
      rw [hl] at h
      simp only at h
      by_cases hz : (g.IsConstant left && g.kindIs InstructionKind.IsArithmeticZero left) = true
      · rw [if_pos hz] at h
        cases hr : g.ReplaceWithAndRemoveFrom (g.BlockOf inst) inst left with
        | none => rw [hr] at h; cases h
        | some g1 =>
          rw [hr] at h
          simp only at h
          simp only [Bool.and_eq_true] at hz
          have h1 := Folds_ReplaceWithAndRemoveFrom g g g1 _ inst left
            (Evolves.ev_refl g _ _) hz.1 (Or.inl rfl) hr
          have hu := Unused_ReplaceWithAndRemoveFrom g g1 _ inst left hz.1 hnc hr
          exact twoRules_unused g g1 g' inst hu
            (VisitRem_oneRule_unused g1 g' _ inst _ (h1.1.isSome_old inst hi)
              (by rw [h1.1.IsConstant_eq_old inst hi]; exact hnc) h)
      · rw [if_neg hz] at h
        exact VisitRem_oneRule_unused g g' _ inst _ hi hnc h

theorem VisitSub_unused (g g' : HGraph) (inst : Nat)
    (hi : (g.GetInstruction inst).isSome = true) (hnc : g.IsConstant inst = false)
    (h : VisitSub g inst = some g') : g' = g ∨ g'.NumUses inst = 0 := by
  unfold VisitSub at h
  simp only at h
  split at h
  · exact Or.inl (Option.some.inj h).symm
  · cases hl : g.GetLeft inst with
    | none => rw [hl] at h; cases h
    | some left =>
      cases hr : g.GetRight inst with
      | none => rw [hl, hr] at h; cases h
      | some right =>
        rw [hl, hr] at h
        simp only at h
        split at h
        · exact Or.inr (Unused_ReplaceWithConstantAndRemoveFrom g g' _ inst _ 0 hi hnc h)
        · exact Or.inl (Option.some.inj h).symm

theorem VisitXor_unused (g g' : HGraph) (inst : Nat)
    (hi : (g.GetInstruction inst).isSome = true) (hnc : g.IsConstant inst = false)
    (h : VisitXor g inst = some g') : g' = g ∨ g'.NumUses inst = 0 := by
  unfold VisitXor at h
  cases hl : g.GetLeft inst with
  | none => rw [hl] at h; cases h
  | some left =>
    cases hr : g.GetRight inst with
    | none => rw [hl, hr] at h; cases h
    | some right =>
      rw [hl, hr] at h
      simp only at h
      split at h
      · exact Or.inr (Unused_ReplaceWithConstantAndRemoveFrom g g' _ inst _ 0 hi hnc h)
      · exact Or.inl (Option.some.inj h).symm

theorem Simplifier_Accept_unused (g g' : HGraph) (inst : Nat)
    (hi : (g.GetInstruction inst).isSome = true) (hnc : g.IsConstant inst = false)
    (h : InstructionWithAbsorbingInputSimplifier.Accept g inst = some g') :
    g' = g ∨ g'.NumUses inst = 0 := by
  unfold InstructionWithAbsorbingInputSimplifier.Accept at h
  split at h
  · exact constantRule_unused g g' inst _ _ _ hi hnc h
  · exact constantRule_unused g g' inst _ _ _ hi hnc h
  · exact constantRule_unused g g' inst _ _ _ hi hnc h
  · exact constantRule_unused g g' inst _ _ _ hi hnc h
  · exact constantRule_unused g g' inst _ _ _ hi hnc h
  · exact constantRule_unused g g' inst _ _ _ hi hnc h
  · exact VisitAnd_unused g g' inst hi hnc h
  · exact VisitCompare_unused g g' inst hi hnc h
  · exact VisitMul_unused g g' inst hnc h
  · exact VisitOr_unused g g' inst hnc h
  · exact VisitRem_unused g g' inst hi hnc h
  · exact VisitShift_unused g g' inst hnc h
  · exact VisitShift_unused g g' inst hnc h
  · exact VisitSub_unused g g' inst hi hnc h
  · exact VisitShift_unused g g' inst hnc h
  · exact VisitXor_unused g g' inst hi hnc h
  · exact Or.inl (Option.some.inj h).symm

theorem VisitBinaryOperation_unused (ev : StaticEvaluator) (g g' : HGraph) (inst : Nat)
    (hi : (g.GetInstruction inst).isSome = true) (hnc : g.IsConstant inst = false)
    (h : VisitBinaryOperation ev g inst = some g') : g' = g ∨ g'.NumUses inst = 0 := by
  unfold VisitBinaryOperation at h
  cases hev : g.TryStaticEvaluation ev inst with
  | none =>
    rw [hev] at h
    exact Simplifier_Accept_unused g g' inst hi hnc h
  | some r =>
    rw [hev] at h
    obtain ⟨h1, hc⟩ := TryStaticEvaluation_evolves ev g r.1 inst r.2 hev
      (fun _ => False) (fun _ => False)
    exact Or.inr (Unused_ReplaceWithAndRemove r.1 g' inst r.2 hc
      (by rw [h1.IsConstant_eq_old inst hi]; exact hnc) h)

theorem IsConstant_false_of_IsFoldable (k : InstructionKind) (h : k.IsFoldable = true) :
    k.IsConstant = false := by
  cases k <;> first
    | rfl
    | cases h

/-- The visit of an instruction that is not an If leaves the graph as it is
or leaves the instruction without uses. -/
theorem Accept_unused (ev : StaticEvaluator) (vis vis' : HConstantFoldingVisitor) (inst : Nat)
    (hk : vis.graph.KindOf inst ≠ some InstructionKind.If)
    (h : HConstantFoldingVisitor.Accept ev vis inst = some vis') :
    vis'.graph = vis.graph ∨ vis'.graph.NumUses inst = 0 := by
  cases hkk : vis.graph.KindOf inst with
  | none =>
    unfold HConstantFoldingVisitor.Accept at h
    simp only [hkk] at h
    cases h
  | some k =>
    have hi := KindOf_isSome vis.graph inst k hkk
    rw [Accept_eq ev vis inst k hkk] at h
    have hfold : ∀ r : Option HGraph,
        r.map (fun g => ({ vis with graph := g } : HConstantFoldingVisitor)) = some vis' →
        (∀ g', r = some g' → g' = vis.graph ∨ g'.NumUses inst = 0) →
        vis'.graph = vis.graph ∨ vis'.graph.NumUses inst = 0 := by
      intro r hr hstep
      cases r with
      | none => cases hr
      | some g' =>
        simp only [Option.map_some', Option.some.injEq] at hr
        rw [← hr]
        exact hstep g' rfl
    have hnc : k.IsFoldable = true → vis.graph.IsConstant inst = false := by
      intro hf
      simp only [HGraph.IsConstant, kindIs_of_KindOf _ _ _ k hkk]
      exact IsConstant_false_of_IsFoldable k hf
    split at h
    · next hu =>
      exact hfold _ h (fun g' hg => VisitUnaryOperation_unused ev _ g' inst hi
        (hnc (by rw [IsFoldable_eq, hu]; rfl)) hg)
    · split at h
      · next hu hbin =>
        exact hfold _ h (fun g' hg => VisitBinaryOperation_unused ev _ g' inst hi
          (hnc (by rw [IsFoldable_eq, hbin]; simp)) hg)
      · split at h
        · next htc =>
          exact hfold _ h (fun g' hg => VisitUnaryOperation_unused ev _ g' inst hi
            (hnc (by rw [htc]; rfl)) hg)
        · split at h
          · next hdz =>
            exact hfold _ h (fun g' hg => VisitDivZeroCheck_unused _ g' inst
              (hnc (by rw [hdz]; rfl)) hg)
          · split at h
            · next hif =>
              rw [hif] at hkk
              exact absurd hkk hk
            · rw [← Option.some.inj h]
              exact Or.inl rfl

/-! ## Constant folding: the sweep creates no dangling use -/

theorem isSome_of_BlockOf_isSome (g : HGraph) (u : Nat) (h : (g.BlockOf u).isSome = true) :
    (g.GetInstruction u).isSome = true := by
  cases hb : g.BlockOf u with
  | none => rw [hb] at h; cases h
  | some b => exact isSome_of_BlockOf g u b hb

/-- A visit introduces only constants as new inputs: an instruction that is
not a constant and has no use has none afterwards. -/
theorem NumUses_zero_of_evolves {g g' : HGraph} {t r : Nat → Prop} (h : Evolves g g' t r)
    (u : Nat) (hu : (g.GetInstruction u).isSome = true) (hnc : g.IsConstant u = false)
    (h0 : g.NumUses u = 0) : g'.NumUses u = 0 := by
  rw [NumUses_eq_zero_iff] at h0 ⊢
  intro w hb hmem
  cases hi : g.GetInstruction w with
  | none =>
    cases hi' : g'.GetInstruction w with
    | none => simp [HGraph.inputsOf, hi'] at hmem
    | some i' =>
      have := (h.fresh w i' hi hi').1
      simp [HGraph.inputsOf, hi', this] at hmem
  | some i =>
    have hw : (g.GetInstruction w).isSome = true := by rw [hi]; rfl
    have hbw : (g.BlockOf w).isSome = true := by
      rcases h.BlockOf_old w hw with e | ⟨_, e⟩
      · rw [← e]; exact hb
      · rw [e] at hb; cases hb
    rcases h.inputsOf_old w with e | ⟨_, _, e⟩
    · rw [e] at hmem
      exact h0 w hbw hmem
    · rcases e u hmem with h1 | h1
      · exact h0 w hbw h1
      · rw [h.IsConstant_eq_old u hu, hnc] at h1
        cases h1

theorem FoldedClean.clean_start (g : HGraph) : FoldedClean g g where
  evolves := Evolves.ev_refl g _ _
  removed := fun u hb hn => by rw [hn] at hb; cases hb

/-- One visit keeps the invariant: what it removes is not a constant and has
no use afterwards. -/
theorem FoldedClean.clean_step {g0 g g' : HGraph} {t r : Nat → Prop} (F : FoldedClean g0 g)
    (E : Evolves g g' t r)
    (hr : ∀ u, r u → (g.BlockOf u).isSome = true → g.IsConstant u = false ∧ g'.NumUses u = 0) :
    FoldedClean g0 g' where
  evolves := (F.evolves.ev_trans E).mono (fun _ _ => trivial) (fun _ _ => trivial)
  removed := fun u hb hn => by
    have hu0 := isSome_of_BlockOf_isSome g0 u hb
    have hu := F.evolves.isSome_old u hu0
    have hk := F.evolves.IsConstant_eq_old u hu0
    cases hbg : g.BlockOf u with
    | none =>
      obtain ⟨h1, h2⟩ := F.removed u hb hbg
      exact ⟨h1, NumUses_zero_of_evolves E u hu (by rw [hk]; exact h1) h2⟩
    | some b =>
      rcases E.BlockOf_old u hu with e | ⟨hru, _⟩
      · rw [hn, hbg] at e; cases e
      · obtain ⟨h1, h2⟩ := hr u hru (by rw [hbg]; rfl)
        exact ⟨by rw [← hk]; exact h1, h2⟩

theorem PropagateValue_evolves_any (vis vis' : HConstantFoldingVisitor) (s x c : Nat)
    (hcc : vis.graph.IsConstant c = true) (h : PropagateValue vis s x c = some vis') :
    Evolves vis.graph vis'.graph (fun _ => True) (fun _ => False) := by
  unfold PropagateValue at h
  cases hd : (vis.graph.GetBlock s).bind (·.GetFirstInstruction) with
  | none => simp only [hd] at h; cases h
  | some d =>
    simp only [hd, Option.some.injEq] at h
    have hg : vis'.graph = vis.graph.ReplaceUsesDominatedBy x d c false := by rw [← h]
    rw [hg]
    exact (Evolves_ReplaceUsesDominatedBy vis.graph x d c hcc (fun _ => False)).mono
      (fun _ _ => trivial) (fun _ hr => hr)

theorem Evolves.keep_trans {g g1 g2 : HGraph}
    (h1 : Evolves g g1 (fun _ => True) (fun _ => False))
    (h2 : Evolves g1 g2 (fun _ => True) (fun _ => False)) :
    Evolves g g2 (fun _ => True) (fun _ => False) :=
  (h1.ev_trans h2).mono (fun _ _ => trivial) (fun _ hr => hr.elim id id)

theorem GetIntConstant_evolves_any (g : HGraph) (value : Int) :
    Evolves g (g.GetIntConstant value).1 (fun _ => True) (fun _ => False) :=
  (GetIntConstant_evolves g value).1.mono (fun _ _ => trivial) (fun _ hr => hr)

theorem propagateCondition_evolves_any (vis2 vis' : HConstantFoldingVisitor) (v t f : Nat)
    (h : VisitIf.propagateCondition vis2 v t f = some vis') :
    Evolves vis2.graph vis'.graph (fun _ => True) (fun _ => False) := by
  unfold VisitIf.propagateCondition at h
  cases hcand : VisitIf.candidate vis2.graph v with
  | none =>
    rw [hcand] at h
    simp only [Option.some.injEq] at h
    rw [← h]
    exact Evolves.ev_refl _ _ _
  | some p =>
    obtain ⟨var, constant⟩ := p
    rw [hcand] at h
    simp only at h
    obtain ⟨_, hcc, _, _⟩ := candidate_spec vis2.graph v var constant hcand
    split at h
    · cases h
    · rename_i vis3 hp
      have E1 := PropagateValue_evolves_any vis2 vis3 _ var constant hcc hp
      split at h
      · split at h
        · have E2 := GetIntConstant_evolves_any vis3.graph 0
          have E3 := PropagateValue_evolves_any _ vis' _ var _
            (GetIntConstant_evolves vis3.graph 0).2.1 h
          exact E1.keep_trans (E2.keep_trans E3)
        · have E2 := GetIntConstant_evolves_any vis3.graph 1
          have E3 := PropagateValue_evolves_any _ vis' _ var _
            (GetIntConstant_evolves vis3.graph 1).2.1 h
          exact E1.keep_trans (E2.keep_trans E3)
      · simp only [Option.some.injEq] at h
        rw [← h]
        exact E1

/-- The visit of an If removes no instruction, and introduces only constants
as new inputs. -/
theorem VisitIf_evolves_any (vis vis' : HConstantFoldingVisitor) (inst : Nat)
    (h : VisitIf vis inst = some vis') :
    Evolves vis.graph vis'.graph (fun _ => True) (fun _ => False) := by
  unfold VisitIf at h
  split at h
  · cases h
  · split at h
    · simp only [Option.some.injEq] at h
      rw [← h]
      exact Evolves.ev_refl _ _ _
    · split at h
      · simp only at h
        split at h
        · cases h
        · rename_i vis1 hp1
          have E1 := GetIntConstant_evolves_any vis.graph 1
          have E2 := PropagateValue_evolves_any _ vis1 _ _ _
            (GetIntConstant_evolves vis.graph 1).2.1 hp1
          split at h
          · cases h
          · rename_i vis2 hp2
            have E3 := GetIntConstant_evolves_any vis1.graph 0
            have E4 := PropagateValue_evolves_any _ vis2 _ _ _
              (GetIntConstant_evolves vis1.graph 0).2.1 hp2
            have E5 := propagateCondition_evolves_any vis2 vis' _ _ _ h
            exact E1.keep_trans (E2.keep_trans (E3.keep_trans (E4.keep_trans E5)))
      · cases h

theorem Accept_clean (ev : StaticEvaluator) (g0 : HGraph) (vis vis' : HConstantFoldingVisitor)
    (inst : Nat) (F : FoldedClean g0 vis.graph)
    (h : HConstantFoldingVisitor.Accept ev vis inst = some vis') :
    FoldedClean g0 vis'.graph := by
  by_cases hk : vis.graph.KindOf inst = some InstructionKind.If
  · rw [Accept_If ev vis inst hk] at h
    exact F.clean_step (VisitIf_evolves_any vis vis' inst h) (fun _ hr _ => hr.elim)
  · obtain ⟨_, hs⟩ := Accept_step ev vis vis' inst hk h
    rcases hs with e | ⟨hf, hfold⟩
    · rw [e]; exact F
    · have hnc : vis.graph.IsConstant inst = false := by
        cases hkk : vis.graph.KindOf inst with
        | none =>
          unfold HGraph.kindIs at hfold
          rw [hkk] at hfold
          cases hfold
        | some k =>
          rw [kindIs_of_KindOf _ _ _ k hkk] at hfold
          simp only [HGraph.IsConstant, kindIs_of_KindOf _ _ _ k hkk]
          exact IsConstant_false_of_IsFoldable k hfold
      rcases Accept_unused ev vis vis' inst hk h with e | hu
      · rw [e]; exact F
      · refine F.clean_step hf.1 ?_
        intro u hru _
        rw [hru]
        exact ⟨hnc, hu⟩

theorem visitInstructions_clean (ev : StaticEvaluator) (g0 : HGraph) (l : List Nat) :
    ∀ vis vis' : HConstantFoldingVisitor, FoldedClean g0 vis.graph →
      HConstantFoldingVisitor.visitInstructions ev l vis = some vis' →
      FoldedClean g0 vis'.graph := by
  induction l with
  | nil =>
    intro vis vis' F h
    unfold HConstantFoldingVisitor.visitInstructions at h
    rw [← Option.some.inj h]
    exact F
  | cons inst rest ih =>
    intro vis vis' F h
    unfold HConstantFoldingVisitor.visitInstructions at h
    cases ha : HConstantFoldingVisitor.Accept ev vis inst with
    | none => rw [ha] at h; cases h
    | some vis1 =>
      rw [ha] at h
      exact ih vis1 vis' (Accept_clean ev g0 vis vis1 inst F ha) h

theorem visitBlocks_clean (ev : StaticEvaluator) (g0 : HGraph) (l : List Nat) :
    ∀ vis vis' : HConstantFoldingVisitor, FoldedClean g0 vis.graph →
      HConstantFoldingVisitor.visitBlocks ev l vis = some vis' →
      FoldedClean g0 vis'.graph := by
  induction l with
  | nil =>
    intro vis vis' F h
    unfold HConstantFoldingVisitor.visitBlocks at h
    rw [← Option.some.inj h]
    exact F
  | cons block rest ih =>
    intro vis vis' F h
    unfold HConstantFoldingVisitor.visitBlocks at h
    cases hv : HConstantFoldingVisitor.VisitBasicBlock ev vis block with
    | none => rw [hv] at h; cases h
    | some vis1 =>
      rw [hv] at h
      refine ih vis1 vis' ?_ h
      unfold HConstantFoldingVisitor.VisitBasicBlock at hv
      split at hv
      · cases hv
      · exact visitInstructions_clean ev g0 _ vis vis1 F hv

/-- Constant folding creates no dangling use: every instruction that the pass
has taken out of its block has no use in the graph it returns. -/
theorem HConstantFolding_Run_unlinks (ev : StaticEvaluator) (g : HGraph)
    (stats : Option OptimizingCompilerStats) (r : HConstantFoldingVisitor × Bool)
    (h : HConstantFolding.Run ev g stats = some r) : Unlinks g r.1.graph := by
  unfold HConstantFolding.Run HConstantFoldingVisitor.VisitReversePostOrder at h
  cases hv : HConstantFoldingVisitor.visitBlocks ev g.reverse_post_order
      { graph := g, stats := stats } with
  | none =>
    simp only at h
    rw [hv] at h
    cases h
  | some vis' =>
    simp only at h
    rw [hv] at h
    simp only [Option.map_some', Option.some.injEq] at h
    rw [← h]
    have F := visitBlocks_clean ev g _ { graph := g, stats := stats } vis'
      (FoldedClean.clean_start g) hv
    intro u hb hn
    exact (F.removed u hb hn).2

/-! ## Dead code elimination: the removals create no dangling use -/

/-- A step that takes no instruction out of its block creates no dangling
use. -/
theorem Unlinks_of_kept (g g' : HGraph)
    (h : ∀ u, (g.BlockOf u).isSome = true → (g'.BlockOf u).isSome = true) : Unlinks g g' := by
  intro u hb hn
  have := h u hb
  rw [hn] at this
  cases this

theorem lt_of_BlockOf_isSome (g : HGraph) (u : Nat) (h : (g.BlockOf u).isSome = true) :
    u < g.instructions.length :=
  GetInstruction_lt g u (isSome_of_BlockOf_isSome g u h)

theorem BlockOf_InsertInstructionFirst_old (g : HGraph) (block : Nat) (i : HInstruction)
    (u : Nat) (hu : u < g.instructions.length) :
    (g.InsertInstructionFirst block i).1.BlockOf u = g.BlockOf u := by
  unfold HGraph.BlockOf
  rw [GetInstruction_InsertInstructionFirst, if_neg (Nat.ne_of_lt hu)]

/-- The loop of RemoveNonNullControlDependences over the users: what it has
removed has no use, when no user is the bound type. -/
theorem replaceUsers_unlinks (g : HGraph) (bound : Nat)
    (hbound : ∀ u, (g.BlockOf u).isSome = true → bound ≠ u) (l : List Nat) :
    ∀ g1 : HGraph, Unlinks g g1 →
      Unlinks g (l.foldl (fun g1 u =>
        match g1.BlockOf u with
        | none => g1
        | some user_block => (g1.ReplaceWith u bound).RemoveInstruction user_block u) g1) := by
  induction l with
  | nil => intro g1 J; exact J
  | cons x rest ih =>
    intro g1 J
    rw [List.foldl_cons]
    apply ih
    cases hx : g1.BlockOf x with
    | none => exact J
    | some xb =>
      simp only
      intro u hb hn
      rw [BlockOf_RemoveInstruction, BlockOf_ReplaceWith] at hn
      by_cases e : x = u
      · rw [← e]
        exact NumUses_replaced_removed g1 x bound xb (by rw [e]; exact hbound u hb)
      · rw [if_neg e] at hn
        exact NumUses_RemoveInstruction_zero _ xb x u
          (NumUses_ReplaceWith_zero g1 x bound u (hbound u hb) (J u hb hn))

theorem RemoveNonNullControlDependences_unlinks (dom g : HGraph) (block throws : Nat)
    (r : HGraph × Bool) (h : RemoveNonNullControlDependences dom g block throws = some r) :
    Unlinks g r.1 := by
  have R : ∀ b : Bool, some (g, b) = some r → Unlinks g r.1 := by
    intro b e
    simp only [Option.some.injEq] at e
    rw [← e]
    exact Unlinks_of_kept g g (fun _ hb => hb)
  unfold RemoveNonNullControlDependences at h
  split at h
  · cases h
  · split at h
    · exact R _ h
    · split at h
      · exact R _ h
      · split at h
        · cases h
        · exact R _ h
        · split at h
          · exact R _ h
          · split at h
            · cases h
            · split at h
              · cases h
              · simp only [Option.some.injEq] at h
                rw [← h]
                simp only
                apply replaceUsers_unlinks g
                · intro u hb e
                  have := lt_of_BlockOf_isSome g u hb
                  rw [← e] at this
                  exact Nat.lt_irrefl _ this
                · apply Unlinks_of_kept
                  intro u hb
                  rw [BlockOf_InsertInstructionFirst_old g _ _ u (lt_of_BlockOf_isSome g u hb)]
                  exact hb

theorem RemoveDeadInstructions_step_unlinks (g0 : HGraph) (block : Nat)
    (dce : HDeadCodeElimination) (inst : Nat) (J : Unlinks g0 dce.graph) :
    Unlinks g0 (RemoveDeadInstructions.step block dce inst).graph := by
  unfold RemoveDeadInstructions.step
  split
  · rename_i hd
    simp only
    intro u hb hn
    rw [BlockOf_RemoveInstruction] at hn
    by_cases e : inst = u
    · rw [← e]
      apply NumUses_RemoveInstruction_zero
      unfold HGraph.IsDeadAndRemovable at hd
      simp only [Bool.and_eq_true, beq_iff_eq] at hd
      exact hd.2
    · rw [if_neg e] at hn
      exact NumUses_RemoveInstruction_zero _ block inst u (J u hb hn)
  · exact J

theorem RemoveDeadInstructions_fold_unlinks (g0 : HGraph) (block : Nat) (l : List Nat) :
    ∀ dce : HDeadCodeElimination, Unlinks g0 dce.graph →
      Unlinks g0 (l.foldl (RemoveDeadInstructions.step block) dce).graph := by
  induction l with
  | nil => intro dce J; exact J
  | cons x rest ih =>
    intro dce J
    rw [List.foldl_cons]
    exact ih _ (RemoveDeadInstructions_step_unlinks g0 block dce x J)

theorem RemoveDeadInstructions_iterate_unlinks (g0 : HGraph) (l : List Nat) :
    ∀ dce dce' : HDeadCodeElimination, Unlinks g0 dce.graph →
      iterate RemoveDeadInstructions.visitBlock l dce = some dce' →
      Unlinks g0 dce'.graph := by
  induction l with
  | nil =>
    intro dce dce' J h
    unfold iterate at h
    rw [← Option.some.inj h]
    exact J
  | cons b rest ih =>
    intro dce dce' J h
    unfold iterate at h
    cases hv : RemoveDeadInstructions.visitBlock dce b with
    | none => rw [hv] at h; cases h
    | some dce1 =>
      rw [hv] at h
      refine ih dce1 dce' ?_ h
      unfold RemoveDeadInstructions.visitBlock at hv
      split at hv
      · cases hv
      · rw [← Option.some.inj hv]
        exact RemoveDeadInstructions_fold_unlinks g0 b _ dce J

theorem RemoveDeadInstructions_unlinks (dce dce' : HDeadCodeElimination)
    (h : RemoveDeadInstructions dce = some dce') : Unlinks dce.graph dce'.graph :=
  RemoveDeadInstructions_iterate_unlinks dce.graph _ dce dce'
    (Unlinks_of_kept _ _ (fun _ hb => hb)) h

theorem BlockOf_of_GetInstruction (g g' : HGraph) (u : Nat)
    (h : ∀ i, g.GetInstruction u = some i → g'.GetInstruction u = some i)
    (hu : (g.GetInstruction u).isSome = true) : g'.BlockOf u = g.BlockOf u := by
  unfold HGraph.BlockOf
  cases hi : g.GetInstruction u with
  | none => rw [hi] at hu; cases hu
  | some i => rw [h i hi]

theorem KindOf_of_GetInstruction (g g' : HGraph) (u : Nat)
    (h : ∀ i, g.GetInstruction u = some i → g'.GetInstruction u = some i)
    (hu : (g.GetInstruction u).isSome = true) : g'.KindOf u = g.KindOf u := by
  unfold HGraph.KindOf
  cases hi : g.GetInstruction u with
  | none => rw [hi] at hu; cases hu
  | some i => rw [h i hi]

theorem NumUses_InsertConstant_zero (g : HGraph) (k : InstructionKind) (ty : DataType) (v : Nat)
    (h : g.NumUses v = 0) : (g.InsertConstant k ty).1.NumUses v = 0 := by
  apply NumUses_zero_of_no_new_use g _ v h
  intro w hb hv
  cases hi : g.GetInstruction w with
  | none =>
    exfalso
    cases hi' : (g.InsertConstant k ty).1.GetInstruction w with
    | none => simp [HGraph.inputsOf, hi'] at hv
    | some i' =>
      obtain ⟨_, e⟩ := GetInstruction_InsertConstant_fresh g k ty w i' hi hi'
      simp [HGraph.inputsOf, hi', e] at hv
  | some i =>
    have e := GetInstruction_InsertConstant_old g k ty w i hi
    simp only [HGraph.BlockOf, HGraph.inputsOf, e, hi] at hb hv ⊢
    exact ⟨hb, hv⟩

theorem NumUses_GetConstantOfKind_zero (g : HGraph) (k : InstructionKind) (ty : DataType)
    (v : Nat) (h : g.NumUses v = 0) : (g.GetConstantOfKind k ty).1.NumUses v = 0 := by
  unfold HGraph.GetConstantOfKind
  split
  · exact h
  · exact NumUses_InsertConstant_zero g k ty v h

theorem MaybeAddPhi_inputs_old (true_successor false_successor : Nat) (same_input : Bool)
    (input : Nat) (preds : List Nat) :
    ∀ (g : HGraph) (id : Nat) (i : HInstruction), g.GetInstruction id = some i →
      (MaybeAddPhi.inputs true_successor false_successor same_input input g
        preds).1.GetInstruction id = some i := by
  induction preds with
  | nil => intro g id i h; exact h
  | cons pred rest ih =>
    intro g id i h
    unfold MaybeAddPhi.inputs
    simp only
    split
    · split
      · exact h
      · exact ih g id i h
    · exact ih _ id i ((GetConstantOfKind_spec g _ _).2.2 id i h)

theorem BlockOf_ReplaceInput (g : HGraph) (user index r id : Nat) :
    (g.ReplaceInput user index r).BlockOf id = g.BlockOf id := by
  simp only [HGraph.BlockOf, GetInstruction_ReplaceInput]
  cases g.GetInstruction id with
  | none => rfl
  | some u => simp only [Option.map_some', Option.some_bind]; split <;> rfl

/-- The end of MaybeAddPhi (lines 544-555): the old condition is removed only
when it is dead. -/
theorem MaybeAddPhi_finish_unlinks (g g1 : HGraph)
    (hold : ∀ u i, g.GetInstruction u = some i → g1.GetInstruction u = some i)
    (block if_instruction input : Nat) (inputs : List Nat) :
    Unlinks g
      (if ((g1.AddPhi block DataType.kInt32 inputs).1.ReplaceInput if_instruction 0
            (g1.AddPhi block DataType.kInt32 inputs).2).IsDeadAndRemovable input = true then
        match ((g1.AddPhi block DataType.kInt32 inputs).1.ReplaceInput if_instruction 0
            (g1.AddPhi block DataType.kInt32 inputs).2).BlockOf input with
        | none => (g1.AddPhi block DataType.kInt32 inputs).1.ReplaceInput if_instruction 0
            (g1.AddPhi block DataType.kInt32 inputs).2
        | some input_block =>
          ((g1.AddPhi block DataType.kInt32 inputs).1.ReplaceInput if_instruction 0
            (g1.AddPhi block DataType.kInt32 inputs).2).RemoveInstruction input_block input
      else (g1.AddPhi block DataType.kInt32 inputs).1.ReplaceInput if_instruction 0
        (g1.AddPhi block DataType.kInt32 inputs).2) := by
  have h3 : ∀ u, (g.BlockOf u).isSome = true →
      (((g1.AddPhi block DataType.kInt32 inputs).1.ReplaceInput if_instruction 0
        (g1.AddPhi block DataType.kInt32 inputs).2).BlockOf u).isSome = true := by
    intro u hb
    have hu := isSome_of_BlockOf_isSome g u hb
    rw [BlockOf_ReplaceInput,
      BlockOf_of_GetInstruction g _ u
        (fun i hi => GetInstruction_AddPhi_old g1 block _ inputs u i (hold u i hi)) hu]
    exact hb
  split
  · rename_i hd
    split
    · exact Unlinks_of_kept _ _ h3
    · rename_i ib _
      intro u hb hn
      rw [BlockOf_RemoveInstruction] at hn
      by_cases e : input = u
      · rw [← e]
        apply NumUses_RemoveInstruction_zero
        unfold HGraph.IsDeadAndRemovable at hd
        simp only [Bool.and_eq_true, beq_iff_eq] at hd
        exact hd.2
      · rw [if_neg e] at hn
        have := h3 u hb
        rw [hn] at this
        cases this
  · exact Unlinks_of_kept _ _ h3

theorem MaybeAddPhi_unlinks (dce dce' : HDeadCodeElimination) (block : Nat)
    (h : MaybeAddPhi dce block = some dce') : Unlinks dce.graph dce'.graph := by
  have R : ∀ d : HDeadCodeElimination, some dce = some d → Unlinks dce.graph d.graph := by
    intro d e
    simp only [Option.some.injEq] at e
    rw [← e]
    exact Unlinks_of_kept _ _ (fun _ hb => hb)
  unfold MaybeAddPhi at h
  simp only at h
  split at h
  · cases h
  · split at h
    · cases h
    · split at h
      · cases h
      · split at h
        · exact R _ h
        · split at h
          · exact R _ h
          · split at h
            · exact R _ h
            · split at h
              · cases h
              · split at h
                · exact R _ h
                · split at h
                  · exact R _ h
                  · split at h
                    · cases h
                    · split at h
                      · exact R _ h
                      · split at h
                        · split at h
                          · rename_i g1 hg1
                            have hold : ∀ u i, dce.graph.GetInstruction u = some i →
                                g1.GetInstruction u = some i := by
                              intro u i hi
                              have e := congrArg Prod.fst hg1
                              simp only at e
                              rw [← e]
                              exact MaybeAddPhi_inputs_old _ _ _ _ _ _ u i hi
                            simp only [Option.some.injEq] at h
                            rw [← h]
                            apply Unlinks_of_kept
                            intro u hb
                            rw [BlockOf_of_GetInstruction dce.graph g1 u (hold u)
                              (isSome_of_BlockOf_isSome _ u hb)]
                            exact hb
                          · rename_i g1 inputs hg1
                            have hold : ∀ u i, dce.graph.GetInstruction u = some i →
                                g1.GetInstruction u = some i := by
                              intro u i hi
                              have e := congrArg Prod.fst hg1
                              simp only at e
                              rw [← e]
                              exact MaybeAddPhi_inputs_old _ _ _ _ _ _ u i hi
                            simp only [Option.some.injEq] at h
                            rw [← h]
                            exact MaybeAddPhi_finish_unlinks dce.graph g1 hold block _ _ inputs
                        · cases h

theorem IsConstant_false_of_IsCondition (k : InstructionKind) (h : k.IsCondition = true) :
    k.IsConstant = false := by
  cases k <;> first
    | rfl
    | cases h

theorem KindOf_RemovePhi (g : HGraph) (block_id phi id : Nat) :
    (g.RemovePhi block_id phi).KindOf id = g.KindOf id := by
  simp only [HGraph.KindOf, GetInstruction_RemovePhi]
  cases g.GetInstruction id with
  | none => rfl
  | some u => simp only [Option.map_some']; split <;> rfl

/-- Lines 402-414 of SimplifyIfs: the phi is replaced by its input, which is
another instruction, before it is removed, and the condition by a constant. -/
theorem removePhi_unlinks (ev : StaticEvaluator) (g : HGraph) (block phi first : Nat)
    (c : Bool) (g' : HGraph)
    (hphi : g.InputAt phi 0 ≠ some phi)
    (hcond : c = true → g.kindIs InstructionKind.IsCondition first = true)
    (h : SimplifyIfs.removePhi ev g block phi first c = some g') : Unlinks g g' := by
  unfold SimplifyIfs.removePhi at h
  split at h
  · cases h
  · split at h
    · split at h
      · cases h
      · rename_i input hin
        have hne : input ≠ phi := by
          intro e
          rw [e] at hin
          exact hphi hin
        have hb2 : ∀ u, ((g.ReplaceWith phi input).RemovePhi block phi).BlockOf u =
            if phi = u then none else g.BlockOf u := by
          intro u
          rw [BlockOf_RemovePhi, BlockOf_ReplaceWith]
        have hphi2 : ((g.ReplaceWith phi input).RemovePhi block phi).NumUses phi = 0 :=
          NumUses_RemovePhi_zero _ block phi phi (NumUses_ReplaceWith_self g phi input hne)
        have U2 : Unlinks g ((g.ReplaceWith phi input).RemovePhi block phi) := by
          intro u hb hn
          rw [hb2] at hn
          by_cases e : phi = u
          · rw [← e]; exact hphi2
          · rw [if_neg e] at hn
            rw [hn] at hb
            cases hb
        simp only at h
        split at h
        · rename_i hc
          split at h
          · rename_i g3 result he
            simp only [Option.some.injEq] at h
            rw [← h]
            unfold HGraph.TryStaticEvaluation at he
            split at he
            · cases he
            · rename_i value _
              simp only [Option.some.injEq] at he
              have e3 := congrArg Prod.fst he
              have er := congrArg Prod.snd he
              simp only at e3 er
              obtain ⟨sk, sb, sold⟩ := GetConstantOfKind_spec
                ((g.ReplaceWith phi input).RemovePhi block phi) value.kind value.type
              rw [e3, er] at sk sb
              rw [e3] at sold
              have hphi3 : g3.NumUses phi = 0 := by
                rw [← e3]
                exact NumUses_GetConstantOfKind_zero _ _ _ phi hphi2
              intro u hb hn
              have hu := isSome_of_BlockOf_isSome g u hb
              have hu2 : (((g.ReplaceWith phi input).RemovePhi block phi).GetInstruction
                  u).isSome = true := by
                rw [GetInstruction_RemovePhi, GetInstruction_ReplaceWith]
                cases hi : g.GetInstruction u with
                | none => rw [hi] at hu; cases hu
                | some i => rfl
              have hb3 : g3.BlockOf u = if phi = u then none else g.BlockOf u := by
                rw [BlockOf_of_GetInstruction _ g3 u (sold u) hu2, hb2]
              rw [BlockOf_RemoveInstruction, BlockOf_ReplaceWith] at hn
              by_cases e : first = u
              · rw [← e]
                apply NumUses_replaced_removed
                intro er2
                have hk3 : g3.KindOf first = g.KindOf first := by
                  rw [e, KindOf_of_GetInstruction _ g3 u (sold u) hu2, KindOf_RemovePhi,
                    KindOf_ReplaceWith]
                rw [er2, hk3] at sk
                have := hcond hc
                rw [kindIs_of_KindOf g _ first _ sk] at this
                have hcon := ConstantValue_kind_IsConstant value
                rw [IsConstant_false_of_IsCondition _ this] at hcon
                cases hcon
              · rw [if_neg e, hb3] at hn
                by_cases e2 : phi = u
                · rw [← e2]
                  apply NumUses_RemoveInstruction_zero
                  apply NumUses_ReplaceWith_zero _ _ _ _ _ hphi3
                  intro er2
                  have hb3p : g3.BlockOf phi = none := by
                    rw [e2, hb3, if_pos e2]
                  rw [er2, hb3p] at sb
                  cases sb
                · rw [if_neg e2] at hn
                  rw [hn] at hb
                  cases hb
          · simp only [Option.some.injEq] at h
            rw [← h]
            exact U2
        · simp only [Option.some.injEq] at h
          rw [← h]
          exact U2
    · simp only [Option.some.injEq] at h
      rw [← h]
      exact Unlinks_of_kept _ _ (fun _ hb => hb)

/-! ## No dangling use is created -/

/-- C30: no dangling uses are created.  Every instruction that is in a block
before and in no block after has zero remaining uses afterwards, that is, no
instruction in a block has it among its inputs: for a whole run of constant
folding (folded operations, elided DivZeroChecks, absorbed operations); for
RemoveNonNullControlDependences (replaced NullChecks); for the removal of the
phi and of the condition in SimplifyIfs, where the phi is not its own input
and, when the block has only the phi, the condition and the If, the first
instruction is a condition; for MaybeAddPhi (the old condition); and for a
whole run of RemoveDeadInstructions (dead instructions). -/
theorem removed_instructions_have_no_remaining_use :
    (∀ (ev : StaticEvaluator) (g : HGraph) (stats : Option OptimizingCompilerStats)
        (r : HConstantFoldingVisitor × Bool),
      HConstantFolding.Run ev g stats = some r → Unlinks g r.1.graph) ∧
    (∀ (dom g : HGraph) (block throws : Nat) (r : HGraph × Bool),
      RemoveNonNullControlDependences dom g block throws = some r → Unlinks g r.1) ∧
    (∀ (ev : StaticEvaluator) (g : HGraph) (block phi first : Nat)
        (has_only_phi_condition_and_if : Bool) (g' : HGraph),
      g.InputAt phi 0 ≠ some phi →
      (has_only_phi_condition_and_if = true →
        g.kindIs InstructionKind.IsCondition first = true) →
      SimplifyIfs.removePhi ev g block phi first has_only_phi_condition_and_if = some g' →
      Unlinks g g') ∧
    (∀ (dce dce' : HDeadCodeElimination) (block : Nat),
      MaybeAddPhi dce block = some dce' → Unlinks dce.graph dce'.graph) ∧
    (∀ dce dce' : HDeadCodeElimination,
      RemoveDeadInstructions dce = some dce' → Unlinks dce.graph dce'.graph) :=
  ⟨fun ev g stats r h => HConstantFolding_Run_unlinks ev g stats r h,
    fun dom g block throws r h => RemoveNonNullControlDependences_unlinks dom g block throws r h,
    fun ev g block phi first c g' hphi hcond h =>
      removePhi_unlinks ev g block phi first c g' hphi hcond h,
    fun dce dce' block h => MaybeAddPhi_unlinks dce dce' block h,
    fun dce dce' h => RemoveDeadInstructions_unlinks dce dce' h⟩

theorem removed_instructions_have_no_remaining_use_witness :
    (HConstantFolding.Run exampleEvaluator exampleDivZeroCheck none).map
      (fun r => (r.1.graph.BlockOf 3, r.1.graph.NumUses 3)) = some (none, 0) ∧
    (∃ r, HConstantFolding.Run exampleEvaluator exampleDivZeroCheck none = some r ∧
      Unlinks exampleDivZeroCheck r.1.graph) ∧
    (RemoveNonNullControlDependences exampleNullCheckInTry exampleNullCheckInTry 1 2).map
      (fun r => (r.1.BlockOf 9, r.1.NumUses 9)) = some (none, 0) ∧
    (∃ r, RemoveNonNullControlDependences exampleNullCheckInTry exampleNullCheckInTry 1 2 =
        some r ∧ Unlinks exampleNullCheckInTry r.1) ∧
    exampleSinglePhi.InputAt 2 0 ≠ some 2 ∧
    exampleSinglePhi.kindIs InstructionKind.IsCondition 3 = true ∧
    (SimplifyIfs.removePhi exampleEqualEvaluator exampleSinglePhi 1 2 3 true).map
      (fun g => (g.BlockOf 2, g.NumUses 2, g.BlockOf 3, g.NumUses 3)) =
      some (none, 0, none, 0) ∧
    (∃ g', SimplifyIfs.removePhi exampleEqualEvaluator exampleSinglePhi 1 2 3 true = some g' ∧
      Unlinks exampleSinglePhi g') ∧
    (∃ dce', MaybeAddPhi { graph := exampleChain, stats := none } 4 = some dce' ∧
      Unlinks exampleChain dce'.graph) ∧
    (RemoveDeadInstructions { graph := exampleDeadChain, stats := none }).map
      (fun d => (d.graph.BlockOf 2, d.graph.NumUses 2, d.graph.BlockOf 3, d.graph.NumUses 3)) =
      some (none, 0, none, 0) ∧
    (∃ dce', RemoveDeadInstructions { graph := exampleDeadChain, stats := none } = some dce' ∧
      Unlinks exampleDeadChain dce'.graph) := by
  refine ⟨by decide, ?_, by decide, ?_, by decide, by decide, by decide, ?_, ?_, by decide, ?_⟩
  · obtain ⟨r, hr⟩ := Option.isSome_iff_exists.mp
      (show (HConstantFolding.Run exampleEvaluator exampleDivZeroCheck none).isSome = true
        by decide)
    exact ⟨r, hr, removed_instructions_have_no_remaining_use.1 _ _ _ r hr⟩
  · obtain ⟨r, hr⟩ := Option.isSome_iff_exists.mp
      (show (RemoveNonNullControlDependences exampleNullCheckInTry exampleNullCheckInTry
        1 2).isSome = true by decide)
    exact ⟨r, hr, removed_instructions_have_no_remaining_use.2.1 _ _ _ _ r hr⟩
  · obtain ⟨g', hg⟩ := Option.isSome_iff_exists.mp
      (show (SimplifyIfs.removePhi exampleEqualEvaluator exampleSinglePhi 1 2 3
        true).isSome = true by decide)
    exact ⟨g', hg, removed_instructions_have_no_remaining_use.2.2.1 _ _ _ _ _ _ g'
      (by decide) (fun _ => by decide) hg⟩
  · obtain ⟨d, hd⟩ := Option.isSome_iff_exists.mp
      (show (MaybeAddPhi { graph := exampleChain, stats := none } 4).isSome = true by decide)
    exact ⟨d, hd, removed_instructions_have_no_remaining_use.2.2.2.1 _ d _ hd⟩
  · obtain ⟨d, hd⟩ := Option.isSome_iff_exists.mp
      (show (RemoveDeadInstructions { graph := exampleDeadChain, stats := none }).isSome = true
        by decide)
    exact ⟨d, hd, removed_instructions_have_no_remaining_use.2.2.2.2 _ d hd⟩

/-! ## ImageHeader::IsValid -/

/-- On arrays that are not empty, IsValid compares the first byte of the magic
and the first byte of the version, and no other. -/
theorem IsValid_eq_first_bytes (m v a b : Nat) (ms vs as bs : List Nat) (base : Nat) :
    ImageHeader.IsValid (m :: ms) (v :: vs)
      { magic_ := a :: as, version_ := b :: bs, base_addr_ := base } =
      (decide (a = m) && decide (b = v)) := by
  simp only [ImageHeader.IsValid, sizeofImageMagic, sizeofImageVersion, memcmp]
  by_cases h1 : a = m
  · by_cases h2 : b = v
    · simp [h1, h2, memcmp]
    · have : (b : Int) - (v : Int) ≠ 0 := by omega
      simp [h1, h2, memcmp, this]
  · have : (a : Int) - (m : Int) ≠ 0 := by omega
    simp [h1, memcmp, this]

/-- C40: `ImageHeader::IsValid` accepts a header whose magic and version
differ from the expected ones in every byte but the first: for the magic
`art\n` and the version `001\0`, the header with the magic `a\0\0\0` and the
version `0999` is valid, although neither array equals the expected one, while
a header that differs in the first byte of the magic is rejected and the
header that the constructor builds is valid. -/
theorem ImageHeader_IsValid_accepts_wrong_magic_and_version :
    ImageHeader.IsValid [97, 114, 116, 10] [48, 48, 49, 0]
      { magic_ := [97, 0, 0, 0], version_ := [48, 57, 57, 57], base_addr_ := 0 } = true ∧
    [97, 0, 0, 0] ≠ [97, 114, 116, 10] ∧ [48, 57, 57, 57] ≠ [48, 48, 49, 0] ∧
    ImageHeader.IsValid [97, 114, 116, 10] [48, 48, 49, 0]
      { magic_ := [98, 114, 116, 10], version_ := [48, 48, 49, 0], base_addr_ := 0 } = false ∧
    ImageHeader.IsValid [97, 114, 116, 10] [48, 48, 49, 0]
      (ImageHeader.ofBaseAddr [97, 114, 116, 10] [48, 48, 49, 0] 4096) = true := by
  refine ⟨by decide, by decide, by decide, by decide, by decide⟩

/-! ## Evaluate on identical operands -/

/-- On identical values a condition holds exactly when it has equality. -/
theorem holds_self (c : IfCondition) (w : Nat) (v : Int) : c.holds w v v = HasEquality c := by
  cases c <;> simp [IfCondition.holds, HasEquality]

theorem HasEquality_iff_holds_self (c : IfCondition) (w : Nat) :
    (HasEquality c = true ↔ ∀ v : Int, c.holds w v v = true) ∧
    (HasEquality c = false ↔ ∀ v : Int, c.holds w v v = false) := by
  constructor
  · constructor
    · intro h v
      rw [holds_self, h]
    · intro h
      rw [← holds_self c w 0]
      exact h 0
  · constructor
    · intro h v
      rw [holds_self, h]
    · intro h
      rw [← holds_self c w 0]
      exact h 0

/-- C39: Evaluate on identical operands is semantically exact.  For a
condition of any of the ten kinds and an operand `x` that is not of a
floating-point type, `Evaluate(cond, x, x)` returns an int constant, which is
1 exactly when the condition holds on `(v, v)` for every integer `v`, that is
for EQ, LE, GE, BE and AE, and 0 exactly when it holds for no `v`, that is for
NE, LT, GT, B and A.  On an operand of a floating-point type that is not a
constant, and on operands that differ and are not both constants, it returns
no result and leaves the graph as it is. -/
theorem Evaluate_identical_operands_exact (cev : ConditionEvaluator) (g : HGraph)
    (condition : Nat) (ck : InstructionKind) (c : IfCondition) (w : Nat)
    (hk : g.KindOf condition = some ck) (hc : ck.GetCondition = some c) :
    (∀ x, (g.GetType x).IsFloatingPointType = false →
      ∃ g1 r, Evaluate cev g condition x x = some (g1, some r) ∧
        (g1.KindOf r = some (InstructionKind.IntConstant 1) ∨
          g1.KindOf r = some (InstructionKind.IntConstant 0)) ∧
        (g1.KindOf r = some (InstructionKind.IntConstant 1) ↔
          ∀ v : Int, c.holds w v v = true) ∧
        (g1.KindOf r = some (InstructionKind.IntConstant 0) ↔
          ∀ v : Int, c.holds w v v = false) ∧
        (g1.KindOf r = some (InstructionKind.IntConstant 1) ↔
          c ∈ [IfCondition.kCondEQ, IfCondition.kCondLE, IfCondition.kCondGE,
            IfCondition.kCondBE, IfCondition.kCondAE]) ∧
        (g1.KindOf r = some (InstructionKind.IntConstant 0) ↔
          c ∈ [IfCondition.kCondNE, IfCondition.kCondLT, IfCondition.kCondGT,
            IfCondition.kCondB, IfCondition.kCondA])) ∧
    (∀ x, (g.GetType x).IsFloatingPointType = true → g.IsConstant x = false →
      Evaluate cev g condition x x = some (g, none)) ∧
    (∀ left right, left ≠ right → (g.IsConstant left = false ∨ g.IsConstant right = false) →
      Evaluate cev g condition left right = some (g, none)) := by
  refine ⟨?_, ?_, ?_⟩
  · intro x hx
    have hE : Evaluate cev g condition x x =
        some ((g.GetIntConstant (if HasEquality c then 1 else 0)).1,
          some (g.GetIntConstant (if HasEquality c then 1 else 0)).2) := by
      unfold Evaluate
      simp only [hk, hx, and_self, if_true, hc]
    have hkind := (GetConstantOfKind_spec g
      (InstructionKind.IntConstant (if HasEquality c then 1 else 0)) DataType.kInt32).1
    refine ⟨_, _, hE, ?_⟩
    unfold HGraph.GetIntConstant
    rw [hkind]
    obtain ⟨h1, h0⟩ := HasEquality_iff_holds_self c w
    rw [← h1, ← h0]
    cases c <;> simp [HasEquality]
  · intro x hx hcst
    unfold Evaluate
    simp [hk, hx, hcst]
  · intro left right hne hcst
    unfold Evaluate
    rw [hk]
    simp only [hne, false_and, if_false]
    rcases hcst with h | h <;> simp [h]

theorem Evaluate_identical_operands_exact_witness :
    exampleEqualIf.KindOf 3 = some InstructionKind.Equal ∧
    InstructionKind.Equal.GetCondition = some IfCondition.kCondEQ ∧
    (Evaluate (fun _ _ _ => none) exampleEqualIf 3 0 0).map
      (fun r => r.2.bind r.1.KindOf) = some (some (InstructionKind.IntConstant 1)) ∧
    ((∀ x, (exampleEqualIf.GetType x).IsFloatingPointType = false →
      ∃ g1 r, Evaluate (fun _ _ _ => none) exampleEqualIf 3 x x = some (g1, some r) ∧
        (g1.KindOf r = some (InstructionKind.IntConstant 1) ∨
          g1.KindOf r = some (InstructionKind.IntConstant 0)) ∧
        (g1.KindOf r = some (InstructionKind.IntConstant 1) ↔
          ∀ v : Int, IfCondition.kCondEQ.holds 32 v v = true) ∧
        (g1.KindOf r = some (InstructionKind.IntConstant 0) ↔
          ∀ v : Int, IfCondition.kCondEQ.holds 32 v v = false) ∧
        (g1.KindOf r = some (InstructionKind.IntConstant 1) ↔
          IfCondition.kCondEQ ∈ [IfCondition.kCondEQ, IfCondition.kCondLE,
            IfCondition.kCondGE, IfCondition.kCondBE, IfCondition.kCondAE]) ∧
        (g1.KindOf r = some (InstructionKind.IntConstant 0) ↔
          IfCondition.kCondEQ ∈ [IfCondition.kCondNE, IfCondition.kCondLT,
            IfCondition.kCondGT, IfCondition.kCondB, IfCondition.kCondA])) ∧
    (∀ x, (exampleEqualIf.GetType x).IsFloatingPointType = true →
      exampleEqualIf.IsConstant x = false →
      Evaluate (fun _ _ _ => none) exampleEqualIf 3 x x = some (exampleEqualIf, none)) ∧
    (∀ left right, left ≠ right →
      (exampleEqualIf.IsConstant left = false ∨ exampleEqualIf.IsConstant right = false) →
      Evaluate (fun _ _ _ => none) exampleEqualIf 3 left right = some (exampleEqualIf, none))) :=
  ⟨by decide, rfl, by decide,
    Evaluate_identical_operands_exact (fun _ _ _ => none) exampleEqualIf 3
      InstructionKind.Equal IfCondition.kCondEQ 32 (by decide) rfl⟩

/-! ## MaybeAddPhi: all or nothing -/

/-- The loop of MaybeAddPhi over the predecessors only interns constants, and
the inputs it returns are one per predecessor. -/
theorem MaybeAddPhi_inputs_extends (true_successor false_successor : Nat) (same_input : Bool)
    (input : Nat) (preds : List Nat) :
    ∀ g : HGraph,
      Extends g (MaybeAddPhi.inputs true_successor false_successor same_input input g preds).1 ∧
      ∀ l, (MaybeAddPhi.inputs true_successor false_successor same_input input g preds).2 =
        some l → l.length = preds.length := by
  induction preds with
  | nil =>
    intro g
    refine ⟨Extends.ext_refl g, ?_⟩
    intro l h
    simp only [MaybeAddPhi.inputs, Option.some.injEq] at h
    rw [← h]
  | cons pred rest ih =>
    intro g
    unfold MaybeAddPhi.inputs
    dsimp only
    split
    · split
      · exact ⟨Extends.ext_refl g, fun l h => by cases h⟩
      · obtain ⟨h1, h2⟩ := ih g
        refine ⟨h1, ?_⟩
        intro l h
        simp only [Option.map_eq_some'] at h
        obtain ⟨l', hl', e⟩ := h
        rw [← e, List.length_cons, h2 l' hl', List.length_cons]
    · have hext0 := Extends_GetIntConstant g
        (if same_input = g.Dominates true_successor pred then 1 else 0)
      obtain ⟨h1, h2⟩ := ih (g.GetIntConstant
        (if same_input = g.Dominates true_successor pred then 1 else 0)).1
      refine ⟨hext0.ext_trans h1, ?_⟩
      intro l h
      simp only [Option.map_eq_some'] at h
      obtain ⟨l', hl', e⟩ := h
      rw [← e, List.length_cons, h2 l' hl', List.length_cons]

theorem PhiSkipped.skipped_refl (g : HGraph) (block if_instruction : Nat) :
    PhiSkipped g g block if_instruction :=
  ⟨rfl, rfl, fun _ _ h => h⟩

theorem phisOf_of_extends {g g1 : HGraph} (h : Extends g g1) (block : Nat) :
    g1.phisOf block = g.phisOf block := by
  have := h.phis block
  unfold HGraph.phisOf
  cases h1 : g1.GetBlock block <;> cases h0 : g.GetBlock block <;>
    rw [h1, h0] at this <;> simp at this ⊢
  exact this

theorem InputAt_of_extends {g g1 : HGraph} (h : Extends g g1) (id index v : Nat)
    (hv : g.InputAt id index = some v) : g1.InputAt id index = some v := by
  unfold HGraph.InputAt at hv ⊢
  cases hi : g.GetInstruction id with
  | none => rw [hi] at hv; cases hv
  | some i =>
    rw [hi] at hv
    rw [h.inst id i hi]
    exact hv

theorem PhiSkipped.of_extends {g g1 : HGraph} (h : Extends g g1) (block if_instruction input : Nat)
    (hin : g.InputAt if_instruction 0 = some input) : PhiSkipped g g1 block if_instruction :=
  ⟨phisOf_of_extends h block, by rw [hin]; exact InputAt_of_extends h _ _ _ hin, h.inst⟩

/-- C37: MaybeAddPhi is all-or-nothing.  On a block that ends in an If whose
input is an instruction of the graph, every result of MaybeAddPhi either has
exactly one phi added to the block, with one input per predecessor and taken by
the If as its input, or has the phis of the block, the input of the If and
every instruction of the graph as they were.  The latter is the case when the
condition of the If is a constant, when the block has fewer than two
predecessors, when the block has a phi already, when the dominator does not end
in an If, when the two conditions are neither identical nor opposite (in all
of these the graph is returned as it is), and when the conditions are opposite
and some predecessor is dominated by both or by neither successor of the
dominator.  MaybeAddPhi returns whenever the block has a dominator and the If
of the dominator, if it ends in one, has an input and two successors. -/
theorem MaybeAddPhi_all_or_nothing (dce : HDeadCodeElimination) (block : Nat)
    (b : HBasicBlock) (if_instruction input : Nat)
    (hb : dce.graph.GetBlock block = some b)
    (hlast : b.GetLastInstruction = some if_instruction)
    (hin : dce.graph.InputAt if_instruction 0 = some input)
    (hinput : (dce.graph.GetInstruction input).isSome = true) :
    (∀ dce', MaybeAddPhi dce block = some dce' →
      (∃ phi, PhiAdded dce.graph dce'.graph block if_instruction phi) ∨
      PhiSkipped dce.graph dce'.graph block if_instruction) ∧
    (dce.graph.IsConstant input = true → MaybeAddPhi dce block = some dce) ∧
    (b.predecessors.length < 2 → MaybeAddPhi dce block = some dce) ∧
    (b.phis ≠ [] → MaybeAddPhi dce block = some dce) ∧
    (∀ dominator, dce.graph.GetDominator block = some dominator →
      ((dce.graph.GetBlock dominator).bind (·.GetLastInstruction) = none →
        MaybeAddPhi dce block = some dce) ∧
      (∀ dominator_if,
        (dce.graph.GetBlock dominator).bind (·.GetLastInstruction) = some dominator_if →
        (dce.graph.kindIs (fun k => k = InstructionKind.If) dominator_if = false →
          MaybeAddPhi dce block = some dce) ∧
        (∀ dominator_input, dce.graph.InputAt dominator_if 0 = some dominator_input →
          (dominator_input ≠ input →
            MaybeAddPhi.isOpposite dce.graph input dominator_input = false →
            MaybeAddPhi dce block = some dce) ∧
          (∀ true_successor false_successor,
            dce.graph.IfTrueSuccessor dominator_if = some true_successor →
            dce.graph.IfFalseSuccessor dominator_if = some false_successor →
            (∃ dce', MaybeAddPhi dce block = some dce') ∧
            (dominator_input ≠ input →
              MaybeAddPhi.isOpposite dce.graph input dominator_input = true →
              (∃ pred ∈ b.predecessors, dce.graph.Dominates true_successor pred =
                dce.graph.Dominates false_successor pred) →
              ∃ dce', MaybeAddPhi dce block = some dce' ∧
                PhiSkipped dce.graph dce'.graph block if_instruction))))) := by
  have R : ∀ dce', some dce = some dce' →
      (∃ phi, PhiAdded dce.graph dce'.graph block if_instruction phi) ∨
      PhiSkipped dce.graph dce'.graph block if_instruction := by
    intro dce' e
    simp only [Option.some.injEq] at e
    rw [← e]
    exact Or.inr (PhiSkipped.skipped_refl _ _ _)
  have hphisOf : dce.graph.phisOf block = b.phis := by
    unfold HGraph.phisOf; rw [hb]
  have hpredsOf : dce.graph.predecessorsOf block = b.predecessors := by
    unfold HGraph.predecessorsOf; rw [hb]
  obtain ⟨u, hu, hu0⟩ : ∃ u, dce.graph.GetInstruction if_instruction = some u ∧
      u.inputs[0]? = some input := by
    unfold HGraph.InputAt at hin
    cases h : dce.graph.GetInstruction if_instruction with
    | none => rw [h] at hin; cases hin
    | some u => rw [h] at hin; exact ⟨u, rfl, hin⟩
  -- what the part after the loop over the predecessors gives
  have hfin : ∀ (t f : Nat) (s : Bool) (dce' : HDeadCodeElimination), b.phis = [] →
      (match MaybeAddPhi.inputs t f s input dce.graph b.predecessors with
        | (g1, none) => some { dce with graph := g1 }
        | (g1, some inputs) =>
          let r := g1.AddPhi block DataType.kInt32 inputs
          let g3 := r.1.ReplaceInput if_instruction 0 r.2
          let g4 :=
            if g3.IsDeadAndRemovable input then
              match g3.BlockOf input with
              | none => g3
              | some input_block => g3.RemoveInstruction input_block input
            else g3
          some { graph := g4,
                 stats := MaybeRecordStat dce.stats
                   MethodCompilationStat.kSimplifyIfAddedPhi 1 }) = some dce' →
      (∃ phi, PhiAdded dce.graph dce'.graph block if_instruction phi) ∨
      PhiSkipped dce.graph dce'.graph block if_instruction := by
    intro t f s dce' hphis h
    obtain ⟨hext, hlen⟩ := MaybeAddPhi_inputs_extends t f s input b.predecessors dce.graph
    generalize MaybeAddPhi.inputs t f s input dce.graph b.predecessors = res at h hext hlen
    obtain ⟨g1, r⟩ := res
    cases r with
    | none =>
      simp only [Option.some.injEq] at h
      rw [← h]
      exact Or.inr (PhiSkipped.of_extends hext block if_instruction input hin)
    | some l =>
      simp only [Option.some.injEq] at h
      rw [← h]
      left
      obtain ⟨blk, hblk, hblkphis⟩ : ∃ blk, g1.GetBlock block = some blk ∧ blk.phis = [] := by
        have := hext.phis block
        rw [hb] at this
        cases h1 : g1.GetBlock block with
        | none => rw [h1] at this; cases this
        | some blk =>
          rw [h1] at this
          simp only [Option.map_some', Option.some.injEq] at this
          exact ⟨blk, rfl, by rw [this, hphis]⟩
      have hinput1 : (g1.GetInstruction input).isSome = true := by
        cases h1 : dce.graph.GetInstruction input with
        | none => rw [h1] at hinput; cases hinput
        | some i => rw [hext.inst input i h1]; rfl
      have hF := MaybeAddPhi_finish g1 block if_instruction input l _ rfl u
        (hext.inst _ _ hu) hu0 hinput1 blk hblk hblkphis
      have key : ∀ g4 : HGraph,
          (g4.KindOf g1.instructions.length = some InstructionKind.Phi ∧
            g4.BlockOf g1.instructions.length = some block ∧
            (g4.GetBlock block).map (·.phis) = some [g1.instructions.length] ∧
            g4.InputAt if_instruction 0 = some g1.instructions.length ∧
            g4.inputsOf g1.instructions.length = l ∧
            (∀ c k, g1.KindOf c = some k → g4.KindOf c = some k)) →
          PhiAdded dce.graph g4 block if_instruction g1.instructions.length := by
        intro g4 hF4
        obtain ⟨h1, _, h3, h4, h5, _⟩ := hF4
        refine ⟨?_, ?_, ?_, h1, ?_, h4⟩
        · unfold HGraph.GetInstruction
          exact List.getElem?_eq_none hext.length
        · rw [hphisOf, hphis]
        · unfold HGraph.phisOf
          cases h6 : g4.GetBlock block with
          | none => rw [h6] at h3; cases h3
          | some b4 =>
            rw [h6] at h3
            simpa using h3
        · rw [h5, hpredsOf]
          exact hlen l rfl
      exact ⟨_, key _ hF⟩
  have hconst : dce.graph.IsConstant input = true → MaybeAddPhi dce block = some dce := by
    intro hc
    unfold MaybeAddPhi
    simp only [hb, hlast, hin, hc, if_true]
  have hfew : b.predecessors.length < 2 → MaybeAddPhi dce block = some dce := by
    intro hp
    unfold MaybeAddPhi
    simp only [hb, hlast, hin, hp, decide_True, if_true]
    split <;> rfl
  have hhas : b.phis ≠ [] → MaybeAddPhi dce block = some dce := by
    intro hp
    have : (!b.phis.isEmpty) = true := by
      cases h : b.phis with
      | nil => exact absurd h hp
      | cons _ _ => rfl
    unfold MaybeAddPhi
    simp only [hb, hlast, hin, this, if_true]
    split
    · rfl
    · split <;> rfl
  have hearly : (dce.graph.IsConstant input = true ∨ b.predecessors.length < 2 ∨ b.phis ≠ []) →
      MaybeAddPhi dce block = some dce := by
    rintro (h | h | h)
    · exact hconst h
    · exact hfew h
    · exact hhas h
  refine ⟨?_, hconst, hfew, hhas, ?_⟩
  · intro dce' h
    unfold MaybeAddPhi at h
    simp only [hb, hlast, hin] at h
    split at h
    · exact R _ h
    · split at h
      · exact R _ h
      · split at h
        · exact R _ h
        · rename_i hphis
          have hphis' : b.phis = [] := by
            cases hp : b.phis with
            | nil => rfl
            | cons _ _ => rw [hp] at hphis; simp at hphis
          split at h
          · cases h
          · split at h
            · exact R _ h
            · split at h
              · exact R _ h
              · split at h
                · cases h
                · split at h
                  · exact R _ h
                  · split at h
                    · exact hfin _ _ _ dce' hphis' h
                    · cases h
  · intro dominator hdom
    by_cases he : dce.graph.IsConstant input = true ∨ b.predecessors.length < 2 ∨ b.phis ≠ []
    · have e := hearly he
      refine ⟨fun _ => e, fun dominator_if _ => ⟨fun _ => e, fun dominator_input _ =>
        ⟨fun _ _ => e, fun t f _ _ => ⟨⟨dce, e⟩, fun _ _ _ =>
          ⟨dce, e, PhiSkipped.skipped_refl _ _ _⟩⟩⟩⟩⟩
    · rw [not_or, not_or] at he
      obtain ⟨hc, hp, hphis⟩ := he
      have hc' : dce.graph.IsConstant input = false := by
        cases h : dce.graph.IsConstant input with
        | true => exact absurd h hc
        | false => rfl
      have hphis' : b.phis = [] := by
        by_contra h
        exact hphis h
      refine ⟨?_, ?_⟩
      · intro hnone
        unfold MaybeAddPhi
        simp only [hb, hlast, hin, hc', hp, hphis', hdom, hnone, List.isEmpty_nil, Bool.not_true,
          Bool.false_eq_true, if_false, decide_False]
      · intro dominator_if hdlast
        refine ⟨?_, ?_⟩
        · intro hk
          unfold MaybeAddPhi
          simp only [hb, hlast, hin, hc', hp, hphis', hdom, hdlast, hk, List.isEmpty_nil,
            Bool.not_true, Bool.not_false, Bool.false_eq_true, if_false, if_true, decide_False]
        · intro dominator_input hdin
          refine ⟨?_, ?_⟩
          · intro hne hopp
            unfold MaybeAddPhi
            simp only [hb, hlast, hin, hc', hp, hphis', hdom, hdlast, hdin, hne, hopp,
              List.isEmpty_nil, Bool.not_true, Bool.not_false, Bool.false_eq_true, if_false,
              if_true, decide_False, Bool.and_self]
            split <;> rfl
          · intro t f hts hfs
            refine ⟨?_, ?_⟩
            · unfold MaybeAddPhi
              simp only [hb, hlast, hin, hc', hp, hphis', hdom, hdlast, hdin, hts, hfs,
                List.isEmpty_nil, Bool.not_true, Bool.false_eq_true, if_false, decide_False]
              split
              · exact ⟨_, rfl⟩
              · split
                · exact ⟨_, rfl⟩
                · split
                  · exact ⟨_, rfl⟩
                  · exact ⟨_, rfl⟩
            · intro hne hopp hpred
              obtain ⟨g1, hrun, hext⟩ := MaybeAddPhi_inputs_none t f input b.predecessors
                dce.graph hpred
              have hk : dce.graph.kindIs (fun k => k = InstructionKind.If) dominator_if = true ∨
                  dce.graph.kindIs (fun k => k = InstructionKind.If) dominator_if = false := by
                cases dce.graph.kindIs (fun k => k = InstructionKind.If) dominator_if
                · exact Or.inr rfl
                · exact Or.inl rfl
              rcases hk with hk | hk
              · refine ⟨{ dce with graph := g1 }, ?_,
                  PhiSkipped.of_extends hext block if_instruction input hin⟩
                unfold MaybeAddPhi
                simp only [hb, hlast, hin, hc', hp, hphis', hdom, hdlast, hdin, hts, hfs, hk, hne,
                  hopp, hrun, List.isEmpty_nil, Bool.not_true, Bool.false_eq_true, if_false,
                  decide_False, Bool.and_false]
              · refine ⟨dce, ?_, PhiSkipped.skipped_refl _ _ _⟩
                unfold MaybeAddPhi
                simp only [hb, hlast, hin, hc', hp, hphis', hdom, hdlast, hk, List.isEmpty_nil,
                  Bool.not_true, Bool.not_false, Bool.false_eq_true, if_false, if_true,
                  decide_False]

theorem MaybeAddPhi_all_or_nothing_witness :
    exampleChain.GetBlock 4 = some (mkBlock [5] [2, 3] [5, 6]) ∧
    (mkBlock [5] [2, 3] [5, 6]).GetLastInstruction = some 5 ∧
    exampleChain.InputAt 5 0 = some 0 ∧
    (exampleChain.GetInstruction 0).isSome = true ∧
    (MaybeAddPhi { graph := exampleChain, stats := none } 4).map
      (fun d => (d.graph.phisOf 4, d.graph.InputAt 5 0, d.graph.inputsOf 11)) =
      some ([11], some 11, [9, 10]) ∧
    (MaybeAddPhi { graph := exampleChain, stats := none } 1).map (·.graph) =
      some exampleChain ∧
    ((∀ dce', MaybeAddPhi { graph := exampleChain, stats := none } 4 = some dce' →
      (∃ phi, PhiAdded exampleChain dce'.graph 4 5 phi) ∨
      PhiSkipped exampleChain dce'.graph 4 5) ∧
    (exampleChain.IsConstant 0 = true → MaybeAddPhi { graph := exampleChain, stats := none } 4 =
      some { graph := exampleChain, stats := none }) ∧
    ([2, 3].length < 2 → MaybeAddPhi { graph := exampleChain, stats := none } 4 =
      some { graph := exampleChain, stats := none }) ∧
    (([] : List Nat) ≠ [] → MaybeAddPhi { graph := exampleChain, stats := none } 4 =
      some { graph := exampleChain, stats := none }) ∧
    (∀ dominator, exampleChain.GetDominator 4 = some dominator →
      ((exampleChain.GetBlock dominator).bind (·.GetLastInstruction) = none →
        MaybeAddPhi { graph := exampleChain, stats := none } 4 =
          some { graph := exampleChain, stats := none }) ∧
      (∀ dominator_if,
        (exampleChain.GetBlock dominator).bind (·.GetLastInstruction) = some dominator_if →
        (exampleChain.kindIs (fun k => k = InstructionKind.If) dominator_if = false →
          MaybeAddPhi { graph := exampleChain, stats := none } 4 =
            some { graph := exampleChain, stats := none }) ∧
        (∀ dominator_input, exampleChain.InputAt dominator_if 0 = some dominator_input →
          (dominator_input ≠ 0 →
            MaybeAddPhi.isOpposite exampleChain 0 dominator_input = false →
            MaybeAddPhi { graph := exampleChain, stats := none } 4 =
              some { graph := exampleChain, stats := none }) ∧
          (∀ true_successor false_successor,
            exampleChain.IfTrueSuccessor dominator_if = some true_successor →
            exampleChain.IfFalseSuccessor dominator_if = some false_successor →
            (∃ dce', MaybeAddPhi { graph := exampleChain, stats := none } 4 = some dce') ∧
            (dominator_input ≠ 0 →
              MaybeAddPhi.isOpposite exampleChain 0 dominator_input = true →
              (∃ pred ∈ [2, 3], exampleChain.Dominates true_successor pred =
                exampleChain.Dominates false_successor pred) →
              ∃ dce', MaybeAddPhi { graph := exampleChain, stats := none } 4 = some dce' ∧
                PhiSkipped exampleChain dce'.graph 4 5)))))) :=
  ⟨by decide, by decide, by decide, by decide, by decide, by decide,
    MaybeAddPhi_all_or_nothing { graph := exampleChain, stats := none } 4
      (mkBlock [5] [2, 3] [5, 6]) 5 0 (by decide) (by decide) (by decide) (by decide)⟩

/-! ## RemoveUnneededTries: the coalesced tries are a partition -/

theorem HasSameExceptionHandlersAs_iff (g : HGraph) (key other : Nat) :
    g.HasSameExceptionHandlersAs key other = true ↔
      (g.successorsOf key).drop 1 = (g.successorsOf other).drop 1 := by
  unfold HGraph.HasSameExceptionHandlersAs
  exact beq_iff_eq

theorem HasSameExceptionHandlersAs_false_iff (g : HGraph) (key other : Nat) :
    g.HasSameExceptionHandlersAs key other = false ↔
      (g.successorsOf key).drop 1 ≠ (g.successorsOf other).drop 1 := by
  have h := HasSameExceptionHandlersAs_iff g key other
  constructor
  · intro hf he
    rw [h.mpr he] at hf
    cases hf
  · intro hne
    cases hs : g.HasSameExceptionHandlersAs key other with
    | false => rfl
    | true => exact absurd (h.mp hs) hne

theorem mem_unionBlocks (xs ys : List Nat) (x : Nat) :
    x ∈ unionBlocks xs ys ↔ x ∈ xs ∨ x ∈ ys := by
  unfold unionBlocks
  rw [List.mem_append, List.mem_filter]
  constructor
  · rintro (h | h)
    · exact Or.inl h
    · exact Or.inr h.1
  · rintro (h | h)
    · exact Or.inl h
    · by_cases hx : x ∈ xs
      · exact Or.inl hx
      · exact Or.inr ⟨h, by simpa using hx⟩

theorem mem_foldl_unionBlocks (same : TryMap) :
    ∀ (init : List Nat) (x : Nat),
      x ∈ same.foldl (fun acc other => unionBlocks acc other.2.blocks_in_try) init ↔
        x ∈ init ∨ ∃ o ∈ same, x ∈ o.2.blocks_in_try := by
  induction same with
  | nil => intro init x; simp
  | cons o rest ih =>
    intro init x
    rw [List.foldl_cons, ih, mem_unionBlocks]
    constructor
    · rintro ((h | h) | ⟨o', ho', hx⟩)
      · exact Or.inl h
      · exact Or.inr ⟨o, List.mem_cons_self _ _, h⟩
      · exact Or.inr ⟨o', List.mem_cons_of_mem _ ho', hx⟩
    · rintro (h | ⟨o', ho', hx⟩)
      · exact Or.inl (Or.inl h)
      · rcases List.mem_cons.mp ho' with e | e
        · rw [e] at hx; exact Or.inl (Or.inr hx)
        · exact Or.inr ⟨o', e, hx⟩

/-- What the deduplication loop computes from a map `L`: the keys left are a
sublist of the keys of `L`, no two of them have the same exception handlers,
every entry of `L` is the entry left with its key or is recorded as coalesced
in an entry left with the same handlers, which has its blocks, and every block
of an entry left comes from an entry of `L` with the same handlers. -/
theorem coalesce_spec (g : HGraph) :
    ∀ (fuel : Nat) (L : TryMap), L.length ≤ fuel →
      ((RemoveUnneededTries.coalesce g fuel L).map (·.1)).Sublist (L.map (·.1)) ∧
      (RemoveUnneededTries.coalesce g fuel L).Pairwise
        (fun a b => g.HasSameExceptionHandlersAs a.1 b.1 = false) ∧
      (∀ e ∈ L, ∃ e' ∈ RemoveUnneededTries.coalesce g fuel L,
        (e'.1 = e.1 ∨ e.1 ∈ e'.2.coalesced_try_entries) ∧
        g.HasSameExceptionHandlersAs e'.1 e.1 = true ∧
        ∀ x ∈ e.2.blocks_in_try, x ∈ e'.2.blocks_in_try) ∧
      (∀ e' ∈ RemoveUnneededTries.coalesce g fuel L, ∀ x ∈ e'.2.blocks_in_try,
        ∃ e ∈ L, x ∈ e.2.blocks_in_try ∧ g.HasSameExceptionHandlersAs e'.1 e.1 = true) := by
  intro fuel
  induction fuel with
  | zero =>
    intro L hL
    have : L = [] := List.length_eq_zero.mp (Nat.le_zero.mp hL)
    subst this
    simp [RemoveUnneededTries.coalesce]
  | succ fuel ih =>
    intro L hL
    cases L with
    | nil => simp [RemoveUnneededTries.coalesce]
    | cons head rest =>
      obtain ⟨key, info⟩ := head
      have hlen : (rest.filter
          (fun other => !g.HasSameExceptionHandlersAs key other.1)).length ≤ fuel := by
        have := List.length_filter_le
          (fun other : Nat × TryBelongingInformation =>
            !g.HasSameExceptionHandlersAs key other.1) rest
        simp only [List.length_cons] at hL
        omega
      obtain ⟨c1, c2, c3, c4⟩ := ih _ hlen
      have hrefl : g.HasSameExceptionHandlersAs key key = true :=
        (HasSameExceptionHandlersAs_iff g key key).mpr rfl
      unfold RemoveUnneededTries.coalesce
      dsimp only
      refine ⟨?_, ?_, ?_, ?_⟩
      · simp only [List.map_cons]
        apply List.Sublist.cons₂
        exact c1.trans (List.Sublist.map _ (List.filter_sublist _))
      · rw [List.pairwise_cons]
        refine ⟨?_, c2⟩
        intro e' he'
        have hk : e'.1 ∈ (rest.filter
            (fun other => !g.HasSameExceptionHandlersAs key other.1)).map (·.1) :=
          c1.subset (List.mem_map_of_mem _ he')
        obtain ⟨o, ho, hoe⟩ := List.mem_map.mp hk
        have := (List.mem_filter.mp ho).2
        rw [← hoe]
        simpa using this
      · intro e he
        rcases List.mem_cons.mp he with h | h
        · rw [h]
          refine ⟨_, List.mem_cons_self _ _, Or.inl rfl, hrefl, ?_⟩
          intro x hx
          exact (mem_foldl_unionBlocks _ _ _).mpr (Or.inl hx)
        · by_cases hs : g.HasSameExceptionHandlersAs key e.1 = true
          · have hmem : e ∈ rest.filter
                (fun other => g.HasSameExceptionHandlersAs key other.1) :=
              List.mem_filter.mpr ⟨h, hs⟩
            refine ⟨_, List.mem_cons_self _ _, Or.inr ?_, hs, ?_⟩
            · exact (mem_unionBlocks _ _ _).mpr (Or.inr (List.mem_map_of_mem _ hmem))
            · intro x hx
              exact (mem_foldl_unionBlocks _ _ _).mpr (Or.inr ⟨e, hmem, hx⟩)
          · have hmem : e ∈ rest.filter
                (fun other => !g.HasSameExceptionHandlersAs key other.1) :=
              List.mem_filter.mpr ⟨h, by simpa using hs⟩
            obtain ⟨e', he', h1, h2, h3⟩ := c3 e hmem
            exact ⟨e', List.mem_cons_of_mem _ he', h1, h2, h3⟩
      · intro e' he' x hx
        rcases List.mem_cons.mp he' with h | h
        · rw [h] at hx ⊢
          rcases (mem_foldl_unionBlocks _ _ _).mp hx with h1 | ⟨o, ho, hxo⟩
          · exact ⟨_, List.mem_cons_self _ _, h1, hrefl⟩
          · have := List.mem_filter.mp ho
            exact ⟨o, List.mem_cons_of_mem _ this.1, hxo, this.2⟩
        · obtain ⟨e, he, h1, h2⟩ := c4 e' h x hx
          exact ⟨e, List.mem_cons_of_mem _ (List.mem_filter.mp he).1, h1, h2⟩

theorem insertBlock_owner (g : HGraph) (key block : Nat)
    (hkey : g.tryEntryBlockOf block = some key) :
    ∀ tries : TryMap,
      (∀ e ∈ tries, ∀ x ∈ e.2.blocks_in_try, g.tryEntryBlockOf x = some e.1) →
      ∀ e ∈ tries.insertBlock key block, ∀ x ∈ e.2.blocks_in_try,
        g.tryEntryBlockOf x = some e.1 := by
  intro tries
  induction tries with
  | nil =>
    intro _ e he x hx
    simp only [TryMap.insertBlock, List.mem_singleton] at he
    rw [he] at hx ⊢
    simp only [List.mem_singleton] at hx
    rw [hx]
    exact hkey
  | cons head rest ih =>
    obtain ⟨k, info⟩ := head
    intro hown e he x hx
    unfold TryMap.insertBlock at he
    split at he
    · rename_i hk
      rcases List.mem_cons.mp he with h | h
      · rw [h] at hx ⊢
        dsimp only at hx ⊢
        split at hx
        · exact hown _ (List.mem_cons_self _ _) x hx
        · rcases List.mem_append.mp hx with h1 | h1
          · exact hown _ (List.mem_cons_self _ _) x h1
          · simp only [List.mem_singleton] at h1
            rw [h1, hk]
            exact hkey
      · exact hown e (List.mem_cons_of_mem _ h) x hx
    · rcases List.mem_cons.mp he with h | h
      · rw [h] at hx ⊢
        exact hown _ (List.mem_cons_self _ _) x hx
      · exact ih (fun e he => hown e (List.mem_cons_of_mem _ he)) e h x hx

theorem insertBlock_keeps (key block : Nat) :
    ∀ tries : TryMap, ∀ e ∈ tries,
      ∃ e' ∈ tries.insertBlock key block, e'.1 = e.1 ∧
        ∀ x ∈ e.2.blocks_in_try, x ∈ e'.2.blocks_in_try := by
  intro tries
  induction tries with
  | nil => intro e he; cases he
  | cons head rest ih =>
    obtain ⟨k, info⟩ := head
    intro e he
    unfold TryMap.insertBlock
    split
    · rcases List.mem_cons.mp he with h | h
      · refine ⟨_, List.mem_cons_self _ _, by rw [h], ?_⟩
        intro x hx
        rw [h] at hx
        dsimp only at hx ⊢
        split
        · exact hx
        · exact List.mem_append_left _ hx
      · exact ⟨e, List.mem_cons_of_mem _ h, rfl, fun _ hx => hx⟩
    · rcases List.mem_cons.mp he with h | h
      · exact ⟨e, by rw [h]; exact List.mem_cons_self _ _, rfl, fun _ hx => hx⟩
      · obtain ⟨e', he', h1, h2⟩ := ih e h
        exact ⟨e', List.mem_cons_of_mem _ he', h1, h2⟩

theorem insertBlock_inserts (key block : Nat) :
    ∀ tries : TryMap, ∃ e ∈ tries.insertBlock key block, e.1 = key ∧
      block ∈ e.2.blocks_in_try := by
  intro tries
  induction tries with
  | nil => exact ⟨_, List.mem_singleton.mpr rfl, rfl, List.mem_singleton.mpr rfl⟩
  | cons head rest ih =>
    obtain ⟨k, info⟩ := head
    unfold TryMap.insertBlock
    split
    · rename_i hk
      refine ⟨_, List.mem_cons_self _ _, hk, ?_⟩
      dsimp only
      split
      · assumption
      · exact List.mem_append_right _ (List.mem_singleton.mpr rfl)
    · obtain ⟨e, he, h1, h2⟩ := ih
      exact ⟨e, List.mem_cons_of_mem _ he, h1, h2⟩

/-- The loop that collects the tries: it returns, every block of an entry has
the key of the entry as the block of its try entry, and every try block walked
over is in the entry of the block of its try entry. -/
theorem collect_spec (g : HGraph) :
    ∀ (l : List Nat) (tries : TryMap) (seen : List Nat),
      (∀ block ∈ l, ∃ b, g.GetBlock block = some b ∧
        ∀ try_entry, b.try_catch_information = some try_entry →
          (g.BlockOf try_entry).isSome = true) →
      (∀ e ∈ tries, ∀ x ∈ e.2.blocks_in_try, g.tryEntryBlockOf x = some e.1) →
      (∀ x ∈ seen, ∀ k, g.tryEntryBlockOf x = some k →
        ∃ e ∈ tries, e.1 = k ∧ x ∈ e.2.blocks_in_try) →
      ∃ tries', iterate (RemoveUnneededTries.collect g) l tries = some tries' ∧
        (∀ e ∈ tries', ∀ x ∈ e.2.blocks_in_try, g.tryEntryBlockOf x = some e.1) ∧
        (∀ x ∈ seen ++ l, ∀ k, g.tryEntryBlockOf x = some k →
          ∃ e ∈ tries', e.1 = k ∧ x ∈ e.2.blocks_in_try) := by
  intro l
  induction l with
  | nil =>
    intro tries seen _ hown hseen
    refine ⟨tries, rfl, hown, ?_⟩
    rw [List.append_nil]
    exact hseen
  | cons block rest ih =>
    intro tries seen hwf hown hseen
    obtain ⟨b, hb, htry⟩ := hwf block (List.mem_cons_self _ _)
    have hrest := fun x hx => hwf x (List.mem_cons_of_mem _ hx)
    unfold iterate
    cases hte : b.try_catch_information with
    | none =>
      have hc : RemoveUnneededTries.collect g tries block = some tries := by
        unfold RemoveUnneededTries.collect
        simp only [hb, hte]
      rw [hc]
      obtain ⟨tries', h1, h2, h3⟩ := ih tries (seen ++ [block]) hrest hown (by
        intro x hx k hk
        rcases List.mem_append.mp hx with h | h
        · exact hseen x h k hk
        · simp only [List.mem_singleton] at h
          rw [h] at hk
          unfold HGraph.tryEntryBlockOf at hk
          simp [hb, hte] at hk)
      refine ⟨tries', h1, h2, ?_⟩
      rw [List.append_assoc] at h3
      exact h3
    | some try_entry =>
      obtain ⟨key, hkey⟩ := Option.isSome_iff_exists.mp (htry try_entry hte)
      have hc : RemoveUnneededTries.collect g tries block = some (tries.insertBlock key block) := by
        unfold RemoveUnneededTries.collect
        simp only [hb, hte, hkey]
      have hk : g.tryEntryBlockOf block = some key := by
        unfold HGraph.tryEntryBlockOf
        simp [hb, hte, hkey]
      rw [hc]
      obtain ⟨tries', h1, h2, h3⟩ := ih (tries.insertBlock key block) (seen ++ [block]) hrest
        (insertBlock_owner g key block hk tries hown) (by
        intro x hx k hxk
        rcases List.mem_append.mp hx with h | h
        · obtain ⟨e, he, e1, e2⟩ := hseen x h k hxk
          obtain ⟨e', he', e3, e4⟩ := insertBlock_keeps key block tries e he
          exact ⟨e', he', by rw [e3, e1], e4 x e2⟩
        · simp only [List.mem_singleton] at h
          rw [h] at hxk ⊢
          rw [hk] at hxk
          simp only [Option.some.injEq] at hxk
          rw [← hxk]
          exact insertBlock_inserts key block tries)
      refine ⟨tries', h1, h2, ?_⟩
      rw [List.append_assoc] at h3
      exact h3

theorem TriesCollectable_spec (g : HGraph) (h : g.TriesCollectable = true) :
    ∀ block ∈ g.reverse_post_order.drop 1, ∃ b, g.GetBlock block = some b ∧
      ∀ try_entry, b.try_catch_information = some try_entry →
        (g.BlockOf try_entry).isSome = true := by
  intro block hblock
  unfold HGraph.TriesCollectable at h
  rw [List.all_eq_true] at h
  have := h block hblock
  cases hb : g.GetBlock block with
  | none => rw [hb] at this; cases this
  | some b =>
    rw [hb] at this
    refine ⟨b, rfl, ?_⟩
    intro try_entry hte
    simp only [hte] at this
    exact this

/-- C36: try coalescing in RemoveUnneededTries yields a partition.  The map
of the tries is computed, and after the deduplication loop no two entries left
have try entries with the same exception handlers; every try block of the
reverse post order, the entry block apart, is in the member set of exactly one
entry left; and that entry has the block of the try entry of the block as its
key, or has it, merged away, in its set of coalesced try entries. -/
theorem RemoveUnneededTries_coalescing_yields_partition (g : HGraph)
    (hwf : g.TriesCollectable = true) :
    ∃ tries, RemoveUnneededTries.tries g = some tries ∧
      tries.Pairwise (fun a b => g.HasSameExceptionHandlersAs a.1 b.1 = false) ∧
      ∀ block ∈ g.reverse_post_order.drop 1, ∀ key, g.tryEntryBlockOf block = some key →
        ∃ entry ∈ tries, block ∈ entry.2.blocks_in_try ∧
          (∀ other ∈ tries, block ∈ other.2.blocks_in_try → other = entry) ∧
          (entry.1 = key ∨ key ∈ entry.2.coalesced_try_entries) ∧
          (key ∉ tries.map (·.1) → key ∈ entry.2.coalesced_try_entries) ∧
          g.HasSameExceptionHandlersAs entry.1 key = true := by
  obtain ⟨collected, hrun, hown, hseen⟩ := collect_spec g (g.reverse_post_order.drop 1) [] []
    (TriesCollectable_spec g hwf) (fun _ he => by cases he) (fun _ hx => by cases hx)
  obtain ⟨_, c2, c3, c4⟩ := coalesce_spec g collected.length collected (Nat.le_refl _)
  refine ⟨RemoveUnneededTries.coalesce g collected.length collected, ?_, c2, ?_⟩
  · unfold RemoveUnneededTries.tries
    rw [hrun]
  · intro block hblock key hkey
    obtain ⟨e, he, hek, hxe⟩ := hseen block (by simpa using hblock) key hkey
    obtain ⟨entry, hentry, h1, h2, h3⟩ := c3 e he
    rw [hek] at h1 h2
    refine ⟨entry, hentry, h3 block hxe, ?_, h1, ?_, h2⟩
    · intro other hother hbo
      by_contra hne
      obtain ⟨e2, he2, hxe2, hs2⟩ := c4 other hother block hbo
      have hk2 := hown e2 he2 block hxe2
      rw [hkey] at hk2
      simp only [Option.some.injEq] at hk2
      rw [← hk2] at hs2
      have hsym : Symmetric (fun a b : Nat × TryBelongingInformation =>
          g.HasSameExceptionHandlersAs a.1 b.1 = false) := by
        intro a b hab
        rw [HasSameExceptionHandlersAs_false_iff] at hab ⊢
        exact fun h => hab h.symm
      have hdiff := c2.forall hsym hother hentry hne
      rw [HasSameExceptionHandlersAs_false_iff] at hdiff
      rw [HasSameExceptionHandlersAs_iff] at hs2 h2
      exact hdiff (hs2.trans h2.symm)
    · intro hnot
      rcases h1 with h | h
      · exact absurd (List.mem_map.mpr ⟨entry, hentry, h⟩) hnot
      · exact h

theorem RemoveUnneededTries_coalescing_yields_partition_witness :
    exampleCoalescedTry.TriesCollectable = true ∧
    RemoveUnneededTries.tries exampleCoalescedTry = some exampleCoalescedTries ∧
    exampleCoalescedTry.tryEntryBlockOf 8 = some 7 ∧
    ∃ tries, RemoveUnneededTries.tries exampleCoalescedTry = some tries ∧
      tries.Pairwise
        (fun a b => exampleCoalescedTry.HasSameExceptionHandlersAs a.1 b.1 = false) ∧
      ∀ block ∈ exampleCoalescedTry.reverse_post_order.drop 1, ∀ key,
        exampleCoalescedTry.tryEntryBlockOf block = some key →
        ∃ entry ∈ tries, block ∈ entry.2.blocks_in_try ∧
          (∀ other ∈ tries, block ∈ other.2.blocks_in_try → other = entry) ∧
          (entry.1 = key ∨ key ∈ entry.2.coalesced_try_entries) ∧
          (key ∉ tries.map (·.1) → key ∈ entry.2.coalesced_try_entries) ∧
          exampleCoalescedTry.HasSameExceptionHandlersAs entry.1 key = true :=
  ⟨by decide, by decide, by decide,
    RemoveUnneededTries_coalescing_yields_partition exampleCoalescedTry (by decide)⟩

/-! ## Run on a graph with irreducible loops -/

theorem EndsInControlFlow_spec (g : HGraph) (h : g.EndsInControlFlow = true) :
    (∀ b ∈ g.reverse_post_order, (g.GetBlock b).isSome = true) ∧
    (∀ b x, (g.instructionsOf b).getLast? = some x →
      g.kindIs InstructionKind.IsRemovable x = false) := by
  unfold HGraph.EndsInControlFlow at h
  rw [Bool.and_eq_true, List.all_eq_true, List.all_eq_true] at h
  refine ⟨h.1, ?_⟩
  intro b x hx
  by_cases hb : b < g.blocks.length
  · have := h.2 b (List.mem_range.mpr hb)
    rw [hx] at this
    simpa using this
  · exfalso
    have hnone : g.GetBlock b = none := by
      unfold HGraph.GetBlock
      simp [List.getElem?_eq_none (Nat.le_of_not_lt hb)]
    unfold HGraph.instructionsOf at hx
    rw [hnone] at hx
    simp at hx

theorem SweepFrame.sweep_refl (g : HGraph) : SweepFrame g g :=
  ⟨rfl, fun _ => rfl, fun _ => rfl, fun _ => rfl, fun _ _ => rfl,
    fun _ => List.Sublist.refl _, rfl⟩

theorem RemoveDeadInstructions_step_frame (g1 : HGraph)
    (hterm : ∀ b x, (g1.instructionsOf b).getLast? = some x →
      g1.kindIs InstructionKind.IsRemovable x = false)
    (block : Nat) (dce : HDeadCodeElimination) (inst : Nat) (F : SweepFrame g1 dce.graph) :
    SweepFrame g1 (RemoveDeadInstructions.step block dce inst).graph := by
  unfold RemoveDeadInstructions.step
  split
  · rename_i hd
    have hrem : dce.graph.kindIs InstructionKind.IsRemovable inst = true := by
      unfold HGraph.IsDeadAndRemovable at hd
      simp only [Bool.and_eq_true] at hd
      exact hd.1
    have hrem1 : g1.kindIs InstructionKind.IsRemovable inst = true := by
      unfold HGraph.kindIs at hrem ⊢
      rw [← F.kind]
      exact hrem
    dsimp only
    refine ⟨F.rpo, ?_, ?_, ?_, ?_, ?_, F.try_catch⟩
    · intro b
      rw [shapeOf_RemoveInstruction]
      exact F.shape b
    · intro u
      rw [KindOf_RemoveInstruction]
      exact F.kind u
    · intro b
      rw [instructionsOf_RemoveInstruction]
      split
      · cases hl : (g1.instructionsOf b).getLast? with
        | none =>
          have h0 := F.last b
          rw [hl] at h0
          rw [List.getLast?_eq_none_iff] at h0 ⊢
          rw [h0]
          rfl
        | some x =>
          have h0 := F.last b
          rw [hl] at h0
          apply getLast?_filter_of_pos _ _ _ h0
          have hx := hterm b x hl
          have : x ≠ inst := by
            intro e
            rw [e, hrem1] at hx
            cases hx
          simpa using this
      · exact F.last b
    · intro u hu
      rw [BlockOf_RemoveInstruction]
      have : inst ≠ u := by
        intro e
        rw [e, hu] at hrem1
        cases hrem1
      rw [if_neg this]
      exact F.block u hu
    · intro b
      rw [instructionsOf_RemoveInstruction]
      split
      · exact (List.filter_sublist _).trans (F.sublist b)
      · exact F.sublist b
  · exact F

theorem RemoveDeadInstructions_fold_frame (g1 : HGraph)
    (hterm : ∀ b x, (g1.instructionsOf b).getLast? = some x →
      g1.kindIs InstructionKind.IsRemovable x = false)
    (block : Nat) (l : List Nat) :
    ∀ dce : HDeadCodeElimination, SweepFrame g1 dce.graph →
      SweepFrame g1 (l.foldl (RemoveDeadInstructions.step block) dce).graph := by
  induction l with
  | nil => intro dce F; exact F
  | cons x rest ih =>
    intro dce F
    rw [List.foldl_cons]
    exact ih _ (RemoveDeadInstructions_step_frame g1 hterm block dce x F)

theorem RemoveDeadInstructions_iterate_frame (g1 : HGraph)
    (hterm : ∀ b x, (g1.instructionsOf b).getLast? = some x →
      g1.kindIs InstructionKind.IsRemovable x = false) (l : List Nat)
    (hl : ∀ b ∈ l, (g1.GetBlock b).isSome = true) :
    ∀ dce : HDeadCodeElimination, SweepFrame g1 dce.graph →
      ∃ dce', iterate RemoveDeadInstructions.visitBlock l dce = some dce' ∧
        SweepFrame g1 dce'.graph := by
  induction l with
  | nil => intro dce F; exact ⟨dce, rfl, F⟩
  | cons b rest ih =>
    intro dce F
    unfold iterate
    have hb : (dce.graph.GetBlock b).isSome = true := by
      rw [isSome_of_shapeOf _ _ b (F.shape b)]
      exact hl b (List.mem_cons_self _ _)
    obtain ⟨blk, hblk⟩ := Option.isSome_iff_exists.mp hb
    have hv : RemoveDeadInstructions.visitBlock dce b =
        some ((blk.instructions.reverse.drop 1).foldl (RemoveDeadInstructions.step b) dce) := by
      unfold RemoveDeadInstructions.visitBlock
      rw [hblk]
    rw [hv]
    exact ih (fun x hx => hl x (List.mem_cons_of_mem _ hx)) _
      (RemoveDeadInstructions_fold_frame g1 hterm b _ dce F)

/-- C31: on a graph that has irreducible loops, `HDeadCodeElimination::Run`
removes no block and simplifies no control flow.  Where the redundant phi
elimination, a parameter here, keeps the blocks, the predecessors, the
successors, the last instruction of every block and the try-catch flag, and
every block of the graph it returns ends in an instruction that is not
removable, Run returns true, and the graph after Run has the same blocks, every
block has the predecessors, the successors and the last instruction it had
before Run, and the try-catch flag is the same.  Every block has the phis the
redundant phi elimination left, and its instructions are among those it had
then. -/
theorem Run_with_irreducible_loops_keeps_cfg (a : GraphAnalysis)
    (simplifyCFG : HGraph → HGraph) (ev : StaticEvaluator) (cev : ConditionEvaluator)
    (ssaRedundantPhiElimination : HGraph → HGraph) (dce : HDeadCodeElimination)
    (hirr : dce.graph.has_irreducible_loops = true)
    (hssa : CfgKept dce.graph (ssaRedundantPhiElimination dce.graph))
    (hwf : (ssaRedundantPhiElimination dce.graph).EndsInControlFlow = true) :
    ∃ dce', HDeadCodeElimination.Run a simplifyCFG ev cev ssaRedundantPhiElimination dce =
        some (dce', true) ∧
      CfgKept dce.graph dce'.graph ∧
      ∀ b, dce'.graph.phisOf b = (ssaRedundantPhiElimination dce.graph).phisOf b ∧
        (dce'.graph.instructionsOf b).Sublist
          ((ssaRedundantPhiElimination dce.graph).instructionsOf b) := by
  obtain ⟨hsome, hterm⟩ := EndsInControlFlow_spec _ hwf
  obtain ⟨dce', hrun, F⟩ := RemoveDeadInstructions_iterate_frame
    (ssaRedundantPhiElimination dce.graph) hterm
    (ssaRedundantPhiElimination dce.graph).GetPostOrder
    (fun b hb => hsome b (by
      unfold HGraph.GetPostOrder at hb
      exact List.mem_reverse.mp hb))
    { dce with graph := ssaRedundantPhiElimination dce.graph } (SweepFrame.sweep_refl _)
  refine ⟨dce', ?_, ?_, ?_⟩
  · unfold HDeadCodeElimination.Run
    simp only [hirr, Bool.not_true, Bool.false_eq_true, if_false]
    unfold RemoveDeadInstructions
    rw [hrun]
  · refine ⟨?_, ?_, ?_, ?_, ?_, ?_⟩
    · intro b
      rw [isSome_of_shapeOf _ _ b (F.shape b)]
      exact hssa.blocks b
    · intro b
      rw [predecessorsOf_of_shapeOf _ _ b (F.shape b)]
      exact hssa.predecessors b
    · intro b
      rw [successorsOf_of_shapeOf _ _ b (F.shape b)]
      exact hssa.successors b
    · intro b
      rw [F.last b]
      exact hssa.terminator b
    · intro b x hx
      have hx1 : ((ssaRedundantPhiElimination dce.graph).instructionsOf b).getLast? = some x := by
        rw [hssa.terminator b]
        exact hx
      obtain ⟨h1, h2⟩ := hssa.kind b x hx
      exact ⟨by rw [F.kind, h1], by rw [F.block x (hterm b x hx1), h2]⟩
    · rw [F.try_catch]
      exact hssa.try_catch
  · intro b
    refine ⟨?_, F.sublist b⟩
    have := phis_of_shapeOf _ _ b (F.shape b)
    unfold HGraph.phisOf
    cases h1 : dce'.graph.GetBlock b <;>
      cases h2 : (ssaRedundantPhiElimination dce.graph).GetBlock b <;>
      rw [h1, h2] at this <;> simp at this ⊢
    exact this

theorem Run_with_irreducible_loops_keeps_cfg_witness :
    exampleIrreducibleLoop.has_irreducible_loops = true ∧
    CfgKept exampleIrreducibleLoop (id exampleIrreducibleLoop) ∧
    (id exampleIrreducibleLoop).EndsInControlFlow = true ∧
    (HDeadCodeElimination.Run (exampleAnalysis [0, 1, 2, 3, 4]) id exampleEvaluator
      (fun _ _ _ => none) id { graph := exampleIrreducibleLoop, stats := none }).map
      (fun r => (r.1.graph.instructionsOf 1, r.1.graph.BlockOf 3, r.2)) =
      some ([4], none, true) ∧
    ∃ dce', HDeadCodeElimination.Run (exampleAnalysis [0, 1, 2, 3, 4]) id exampleEvaluator
        (fun _ _ _ => none) id { graph := exampleIrreducibleLoop, stats := none } =
        some (dce', true) ∧
      CfgKept exampleIrreducibleLoop dce'.graph ∧
      ∀ b, dce'.graph.phisOf b = (id exampleIrreducibleLoop).phisOf b ∧
        (dce'.graph.instructionsOf b).Sublist ((id exampleIrreducibleLoop).instructionsOf b) :=
  ⟨rfl, ⟨fun _ => rfl, fun _ => rfl, fun _ => rfl, fun _ => rfl, fun _ _ _ => ⟨rfl, rfl⟩, rfl⟩,
    by decide, by decide,
    Run_with_irreducible_loops_keeps_cfg (exampleAnalysis [0, 1, 2, 3, 4]) id exampleEvaluator
      (fun _ _ _ => none) id { graph := exampleIrreducibleLoop, stats := none } rfl
      ⟨fun _ => rfl, fun _ => rfl, fun _ => rfl, fun _ => rfl, fun _ _ _ => ⟨rfl, rfl⟩, rfl⟩
      (by decide)⟩

/-! ## The statistics do not influence the transformation -/

theorem Agreeing.cases_on {σ : Type} {R : σ → σ → Prop} {o o' : Option σ}
    (h : Agreeing R o o') :
    (o = none ∧ o' = none) ∨ ∃ v v', o = some v ∧ o' = some v' ∧ R v v' := by
  cases o <;> cases o'
  · exact Or.inl ⟨rfl, rfl⟩
  · exact h.elim
  · exact h.elim
  · exact Or.inr ⟨_, _, rfl, rfl, h⟩

theorem Agreeing.of_some {σ : Type} {R : σ → σ → Prop} {v v' : σ} (h : R v v') :
    Agreeing R (some v) (some v') := h

theorem Agreeing.of_none {σ : Type} (R : σ → σ → Prop) : Agreeing R none none := trivial

theorem sameGraph_of_graph (g : HGraph) (s s' : Option OptimizingCompilerStats) :
    HConstantFoldingVisitor.sameGraph { graph := g, stats := s } { graph := g, stats := s' } :=
  rfl

theorem PropagateValue_stats (vis vis' : HConstantFoldingVisitor) (h : vis.sameGraph vis')
    (starting_block var constant : Nat) :
    Agreeing HConstantFoldingVisitor.sameGraph (PropagateValue vis starting_block var constant)
      (PropagateValue vis' starting_block var constant) := by
  unfold HConstantFoldingVisitor.sameGraph at h
  unfold PropagateValue
  rw [h]
  cases (vis'.graph.GetBlock starting_block).bind (·.GetFirstInstruction) with
  | none => exact Agreeing.of_none _
  | some first => exact Agreeing.of_some rfl

theorem propagateCondition_stats (vis vis' : HConstantFoldingVisitor) (h : vis.sameGraph vis')
    (if_input true_successor false_successor : Nat) :
    Agreeing HConstantFoldingVisitor.sameGraph
      (VisitIf.propagateCondition vis if_input true_successor false_successor)
      (VisitIf.propagateCondition vis' if_input true_successor false_successor) := by
  have hg : vis.graph = vis'.graph := h
  unfold VisitIf.propagateCondition
  rw [hg]
  cases VisitIf.candidate vis'.graph if_input with
  | none => exact Agreeing.of_some h
  | some p =>
    obtain ⟨var, constant⟩ := p
    dsimp only
    rcases (PropagateValue_stats vis vis' h
      (if vis'.graph.kindIs (fun k => k = InstructionKind.Equal) if_input = true
        then true_successor else false_successor) var constant).cases_on with
      ⟨e1, e2⟩ | ⟨v, v', e1, e2, hv⟩
    · rw [e1, e2]
      exact Agreeing.of_none _
    · rw [e1, e2]
      have hv' : v.graph = v'.graph := hv
      dsimp only
      rw [hv']
      split
      · apply PropagateValue_stats
        exact sameGraph_of_graph _ _ _
      · exact Agreeing.of_some hv

theorem VisitIf_stats (vis vis' : HConstantFoldingVisitor) (h : vis.sameGraph vis')
    (inst : Nat) :
    Agreeing HConstantFoldingVisitor.sameGraph (VisitIf vis inst) (VisitIf vis' inst) := by
  have hg : vis.graph = vis'.graph := h
  unfold VisitIf
  rw [hg]
  cases vis'.graph.InputAt inst 0 with
  | none => exact Agreeing.of_none _
  | some if_input =>
    dsimp only
    split
    · exact Agreeing.of_some h
    · cases vis'.graph.IfTrueSuccessor inst with
      | none => exact Agreeing.of_none _
      | some t =>
        cases vis'.graph.IfFalseSuccessor inst with
        | none => exact Agreeing.of_none _
        | some f =>
          dsimp only
          rcases (PropagateValue_stats { vis with graph := (vis'.graph.GetIntConstant 1).1 }
            { vis' with graph := (vis'.graph.GetIntConstant 1).1 }
            (sameGraph_of_graph _ _ _) t if_input
            (vis'.graph.GetIntConstant 1).2).cases_on with ⟨e1, e2⟩ | ⟨v, v', e1, e2, hv⟩
          · rw [e1, e2]
            exact Agreeing.of_none _
          · rw [e1, e2]
            have hv' : v.graph = v'.graph := hv
            dsimp only
            rw [hv']
            rcases (PropagateValue_stats { v with graph := (v'.graph.GetIntConstant 0).1 }
              { v' with graph := (v'.graph.GetIntConstant 0).1 }
              (sameGraph_of_graph _ _ _) f if_input
              (v'.graph.GetIntConstant 0).2).cases_on with ⟨e3, e4⟩ | ⟨w, w', e3, e4, hw⟩
            · rw [e3, e4]
              exact Agreeing.of_none _
            · rw [e3, e4]
              exact propagateCondition_stats w w' hw _ _ _

theorem Accept_stats (ev : StaticEvaluator) (vis vis' : HConstantFoldingVisitor)
    (h : vis.sameGraph vis') (inst : Nat) :
    Agreeing HConstantFoldingVisitor.sameGraph (HConstantFoldingVisitor.Accept ev vis inst)
      (HConstantFoldingVisitor.Accept ev vis' inst) := by
  have hg : vis.graph = vis'.graph := h
  have W : ∀ r : Option HGraph, Agreeing HConstantFoldingVisitor.sameGraph
      (r.map (fun g => { vis with graph := g })) (r.map (fun g => { vis' with graph := g })) := by
    intro r
    cases r with
    | none => exact Agreeing.of_none _
    | some g => exact Agreeing.of_some (sameGraph_of_graph _ _ _)
  unfold HConstantFoldingVisitor.Accept
  dsimp only
  rw [hg]
  cases vis'.graph.KindOf inst with
  | none => exact Agreeing.of_none _
  | some k =>
    dsimp only
    split
    · exact W _
    · split
      · exact W _
      · split
        · exact W _
        · exact W _
        · exact VisitIf_stats vis vis' h inst
        · exact Agreeing.of_some h

theorem visitInstructions_stats (ev : StaticEvaluator) (l : List Nat) :
    ∀ vis vis' : HConstantFoldingVisitor, vis.sameGraph vis' →
      Agreeing HConstantFoldingVisitor.sameGraph
        (HConstantFoldingVisitor.visitInstructions ev l vis)
        (HConstantFoldingVisitor.visitInstructions ev l vis') := by
  induction l with
  | nil => intro vis vis' h; exact Agreeing.of_some h
  | cons inst rest ih =>
    intro vis vis' h
    unfold HConstantFoldingVisitor.visitInstructions
    rcases (Accept_stats ev vis vis' h inst).cases_on with ⟨e1, e2⟩ | ⟨v, v', e1, e2, hv⟩
    · rw [e1, e2]
      exact Agreeing.of_none _
    · rw [e1, e2]
      exact ih v v' hv

theorem VisitBasicBlock_stats (ev : StaticEvaluator) (vis vis' : HConstantFoldingVisitor)
    (h : vis.sameGraph vis') (block : Nat) :
    Agreeing HConstantFoldingVisitor.sameGraph
      (HConstantFoldingVisitor.VisitBasicBlock ev vis block)
      (HConstantFoldingVisitor.VisitBasicBlock ev vis' block) := by
  have hg : vis.graph = vis'.graph := h
  unfold HConstantFoldingVisitor.VisitBasicBlock
  rw [hg]
  cases vis'.graph.GetBlock block with
  | none => exact Agreeing.of_none _
  | some b => exact visitInstructions_stats ev _ vis vis' h

theorem visitBlocks_stats (ev : StaticEvaluator) (l : List Nat) :
    ∀ vis vis' : HConstantFoldingVisitor, vis.sameGraph vis' →
      Agreeing HConstantFoldingVisitor.sameGraph
        (HConstantFoldingVisitor.visitBlocks ev l vis)
        (HConstantFoldingVisitor.visitBlocks ev l vis') := by
  induction l with
  | nil => intro vis vis' h; exact Agreeing.of_some h
  | cons block rest ih =>
    intro vis vis' h
    unfold HConstantFoldingVisitor.visitBlocks
    rcases (VisitBasicBlock_stats ev vis vis' h block).cases_on with
      ⟨e1, e2⟩ | ⟨v, v', e1, e2, hv⟩
    · rw [e1, e2]
      exact Agreeing.of_none _
    · rw [e1, e2]
      exact ih v v' hv

/-- The result of constant folding does not depend on the statistics sink. -/
theorem HConstantFolding_Run_stats (ev : StaticEvaluator) (g : HGraph)
    (s s' : Option OptimizingCompilerStats) :
    (HConstantFolding.Run ev g s).map (fun r => (r.1.graph, r.2)) =
      (HConstantFolding.Run ev g s').map (fun r => (r.1.graph, r.2)) := by
  unfold HConstantFolding.Run HConstantFoldingVisitor.VisitReversePostOrder
  rcases (visitBlocks_stats ev g.reverse_post_order { graph := g, stats := s }
    { graph := g, stats := s' } (sameGraph_of_graph _ _ _)).cases_on with
    ⟨e1, e2⟩ | ⟨v, v', e1, e2, hv⟩
  · rw [e1, e2]
  · rw [e1, e2]
    have hv' : v.graph = v'.graph := hv
    simp only [Option.map_some', hv']

theorem sameGraph_of_dce (g : HGraph) (s s' : Option OptimizingCompilerStats) :
    HDeadCodeElimination.sameGraph { graph := g, stats := s } { graph := g, stats := s' } :=
  rfl

theorem MaybeAddPhi_stats (dce dce' : HDeadCodeElimination) (h : dce.sameGraph dce')
    (block : Nat) :
    Agreeing HDeadCodeElimination.sameGraph (MaybeAddPhi dce block) (MaybeAddPhi dce' block) := by
  have hg : dce.graph = dce'.graph := h
  unfold MaybeAddPhi
  dsimp only
  rw [hg]
  cases dce'.graph.GetBlock block with
  | none => exact Agreeing.of_none _
  | some b =>
    dsimp only
    cases b.GetLastInstruction with
    | none => exact Agreeing.of_none _
    | some if_instruction =>
      dsimp only
      cases dce'.graph.InputAt if_instruction 0 with
      | none => exact Agreeing.of_none _
      | some input =>
        dsimp only
        split
        · exact Agreeing.of_some h
        · split
          · exact Agreeing.of_some h
          · split
            · exact Agreeing.of_some h
            · cases dce'.graph.GetDominator block with
              | none => exact Agreeing.of_none _
              | some dominator =>
                dsimp only
                cases (dce'.graph.GetBlock dominator).bind (·.GetLastInstruction) with
                | none => exact Agreeing.of_some h
                | some dominator_if =>
                  dsimp only
                  split
                  · exact Agreeing.of_some h
                  · cases dce'.graph.InputAt dominator_if 0 with
                    | none => exact Agreeing.of_none _
                    | some dominator_input =>
                      dsimp only
                      split
                      · exact Agreeing.of_some h
                      · cases dce'.graph.IfTrueSuccessor dominator_if with
                        | none => exact Agreeing.of_none _
                        | some t =>
                          cases dce'.graph.IfFalseSuccessor dominator_if with
                          | none => exact Agreeing.of_none _
                          | some f =>
                            dsimp only
                            generalize MaybeAddPhi.inputs t f (decide (dominator_input = input))
                              input dce'.graph b.predecessors = res
                            obtain ⟨g1, r⟩ := res
                            cases r with
                            | none => exact Agreeing.of_some (sameGraph_of_dce _ _ _)
                            | some inputs => exact Agreeing.of_some (sameGraph_of_dce _ _ _)

theorem sameButStats_of_ifs (g : HGraph) (s s' : Option OptimizingCompilerStats) (a b : Bool) :
    SimplifyIfsState.sameButStats
      { graph := g, stats := s, simplified_one_or_more_ifs := a,
        rerun_dominance_and_loop_analysis := b }
      { graph := g, stats := s', simplified_one_or_more_ifs := a,
        rerun_dominance_and_loop_analysis := b } :=
  ⟨rfl, rfl, rfl⟩

theorem redirect_stats (cev : ConditionEvaluator) (block phi first : Nat)
    (has_only_phi_and_if phi_input_is_left : Bool) :
    ∀ (fuel i : Nat) (st st' : SimplifyIfsState), st.sameButStats st' →
      Agreeing SimplifyIfsState.sameButStats
        (SimplifyIfs.redirect cev block phi first has_only_phi_and_if phi_input_is_left
          fuel i st)
        (SimplifyIfs.redirect cev block phi first has_only_phi_and_if phi_input_is_left
          fuel i st') := by
  intro fuel
  induction fuel with
  | zero =>
    intro i st st' h
    obtain ⟨hg, _, _⟩ := h
    unfold SimplifyIfs.redirect
    rw [hg]
    split
    · exact Agreeing.of_none _
    · exact Agreeing.of_some ⟨hg, by assumption, by assumption⟩
  | succ fuel ih =>
    intro i st st' h
    obtain ⟨g, s, a, b⟩ := st
    obtain ⟨g', s', a', b'⟩ := st'
    obtain ⟨hg, ha, hb⟩ := h
    dsimp only at hg ha hb
    subst hg ha hb
    unfold SimplifyIfs.redirect
    dsimp only
    split
    · cases g.InputAt phi i with
      | none => exact Agreeing.of_none _
      | some input =>
        dsimp only
        cases SimplifyIfs.valueToCheck cev g first has_only_phi_and_if phi_input_is_left
            input with
        | none => exact Agreeing.of_none _
        | some r =>
          obtain ⟨g1, v⟩ := r
          cases v with
          | none => exact ih _ _ _ (sameButStats_of_ifs _ _ _ _ _)
          | some value_to_check =>
            dsimp only
            cases g1.GetBlock block with
            | none => exact Agreeing.of_none _
            | some blk =>
              dsimp only
              split
              · split
                · exact Agreeing.of_some (sameButStats_of_ifs _ _ _ _ _)
                · exact ih _ _ _ (sameButStats_of_ifs _ _ _ _ _)
              · exact Agreeing.of_none _
    · exact Agreeing.of_some (sameButStats_of_ifs _ _ _ _ _)

theorem visitBlock_stats (ev : StaticEvaluator) (cev : ConditionEvaluator)
    (st st' : SimplifyIfsState) (h : st.sameButStats st') (block : Nat) :
    Agreeing SimplifyIfsState.sameButStats (SimplifyIfs.visitBlock ev cev st block)
      (SimplifyIfs.visitBlock ev cev st' block) := by
  obtain ⟨g, s, a, b⟩ := st
  obtain ⟨g', s', a', b'⟩ := st'
  obtain ⟨hg, ha, hb⟩ := h
  dsimp only at hg ha hb
  subst hg ha hb
  have S := sameButStats_of_ifs g s s' a b
  unfold SimplifyIfs.visitBlock
  dsimp only
  cases g.GetBlock block with
  | none => exact Agreeing.of_none _
  | some b0 =>
    dsimp only
    split
    · exact Agreeing.of_some S
    · cases b0.GetLastInstruction with
      | none => exact Agreeing.of_none _
      | some last =>
        dsimp only
        split
        · exact Agreeing.of_some S
        · split
          · exact Agreeing.of_some S
          · rcases (MaybeAddPhi_stats { graph := g, stats := s } { graph := g, stats := s' }
              (sameGraph_of_dce _ _ _) block).cases_on with ⟨e1, e2⟩ | ⟨d, d', e1, e2, hd⟩
            · rw [e1, e2]
              exact Agreeing.of_none _
            · rw [e1, e2]
              have hd' : d.graph = d'.graph := hd
              dsimp only
              rw [hd']
              have S0 := sameButStats_of_ifs d'.graph d.stats d'.stats a b
              cases d'.graph.GetBlock block with
              | none => exact Agreeing.of_none _
              | some blk =>
                dsimp only
                split
                · split
                  · cases blk.GetFirstInstruction with
                    | none => exact Agreeing.of_none _
                    | some first =>
                      dsimp only
                      split
                      · rcases (redirect_stats cev block _ first _ _ _ 0 _ _ S0).cases_on with
                          ⟨e3, e4⟩ | ⟨w, w', e3, e4, hw⟩
                        · rw [e3, e4]
                          exact Agreeing.of_none _
                        · rw [e3, e4]
                          obtain ⟨hw1, hw2, hw3⟩ := hw
                          dsimp only
                          rw [hw1]
                          cases SimplifyIfs.removePhi ev w'.graph block _ first _ with
                          | none => exact Agreeing.of_none _
                          | some g2 => exact Agreeing.of_some ⟨rfl, hw2, hw3⟩
                      · exact Agreeing.of_some S0
                  · exact Agreeing.of_some S0
                · exact Agreeing.of_some S0

theorem foldl_stats {σ α : Type} (R : σ → σ → Prop) (step : Option σ → α → Option σ)
    (hstep : ∀ o o' x, Agreeing R o o' → Agreeing R (step o x) (step o' x)) (l : List α) :
    ∀ o o' : Option σ, Agreeing R o o' → Agreeing R (l.foldl step o) (l.foldl step o') := by
  induction l with
  | nil => intro o o' h; exact h
  | cons x rest ih =>
    intro o o' h
    rw [List.foldl_cons, List.foldl_cons]
    exact ih _ _ (hstep o o' x h)

theorem SimplifyIfs_stats (a : GraphAnalysis) (simplifyCFG : HGraph → HGraph)
    (ev : StaticEvaluator) (cev : ConditionEvaluator) (dce dce' : HDeadCodeElimination)
    (h : dce.sameGraph dce') :
    Agreeing sameResult (SimplifyIfs a simplifyCFG ev cev dce)
      (SimplifyIfs a simplifyCFG ev cev dce') := by
  have hg : dce.graph = dce'.graph := h
  unfold SimplifyIfs
  dsimp only
  rw [hg]
  generalize hL : List.foldl _ (some (SimplifyIfsState.mk dce'.graph dce.stats false false))
    dce'.graph.GetPostOrder = L
  generalize hL' : List.foldl _ (some (SimplifyIfsState.mk dce'.graph dce'.stats false false))
    dce'.graph.GetPostOrder = L'
  have A : Agreeing SimplifyIfsState.sameButStats L L' := by
    rw [← hL, ← hL']
    exact foldl_stats SimplifyIfsState.sameButStats _ (by
      intro o o' x ho
      rcases ho.cases_on with ⟨e1, e2⟩ | ⟨v, v', e1, e2, hv⟩
      · rw [e1, e2]
        exact Agreeing.of_none _
      · rw [e1, e2]
        exact visitBlock_stats ev cev v v' hv x) dce'.graph.GetPostOrder _ _
      (Agreeing.of_some (sameButStats_of_ifs dce'.graph dce.stats dce'.stats false false))
  rcases A.cases_on with ⟨e1, e2⟩ | ⟨v, v', e1, e2, hv⟩
  · rw [e1, e2]
    exact Agreeing.of_none _
  · rw [e1, e2]
    obtain ⟨h1, h2, h3⟩ := hv
    dsimp only
    rw [h1, h2, h3]
    exact Agreeing.of_some ⟨rfl, rfl⟩

theorem iterate_stats {σ α : Type} (R : σ → σ → Prop) (body : σ → α → Option σ)
    (hbody : ∀ s s' x, R s s' → Agreeing R (body s x) (body s' x)) (l : List α) :
    ∀ s s', R s s' → Agreeing R (iterate body l s) (iterate body l s') := by
  induction l with
  | nil => intro s s' h; exact Agreeing.of_some h
  | cons x rest ih =>
    intro s s' h
    unfold iterate
    rcases (hbody s s' x h).cases_on with ⟨e1, e2⟩ | ⟨v, v', e1, e2, hv⟩
    · rw [e1, e2]
      exact Agreeing.of_none _
    · rw [e1, e2]
      exact ih v v' hv

theorem sameButStats_of_throws (g : HGraph) (s s' : Option OptimizingCompilerStats) (b : Bool) :
    SimplifyAlwaysThrowsState.sameButStats
      { graph := g, stats := s, rerun_dominance_and_loop_analysis := b }
      { graph := g, stats := s', rerun_dominance_and_loop_analysis := b } :=
  ⟨rfl, rfl⟩

theorem SimplifyAlwaysThrows_visitBlock_stats (dom : HGraph) (exit : Nat)
    (st st' : SimplifyAlwaysThrowsState) (block : Nat) (h : st.sameButStats st') :
    Agreeing SimplifyAlwaysThrowsState.sameButStats
      (SimplifyAlwaysThrows.visitBlock dom exit st block)
      (SimplifyAlwaysThrows.visitBlock dom exit st' block) := by
  obtain ⟨g, s, b⟩ := st
  obtain ⟨g', s', b'⟩ := st'
  obtain ⟨hg, hb⟩ := h
  dsimp only at hg hb
  subst hg hb
  have S := sameButStats_of_throws g s s' b
  unfold SimplifyAlwaysThrows.visitBlock
  dsimp only
  cases g.GetBlock block with
  | none => exact Agreeing.of_none _
  | some blk =>
    dsimp only
    split
    · exact Agreeing.of_some S
    · cases blk.GetLastInstruction with
      | none => exact Agreeing.of_none _
      | some last =>
        dsimp only
        cases blk.instructions.dropLast.getLast? with
        | none => exact Agreeing.of_some S
        | some prev =>
          dsimp only
          split
          · cases blk.predecessors[0]? with
            | none => exact Agreeing.of_none _
            | some pred =>
              cases blk.successors[0]? with
              | none => exact Agreeing.of_none _
              | some succ =>
                dsimp only
                split
                · exact Agreeing.of_some S
                · split
                  · exact Agreeing.of_some S
                  · split
                    · exact Agreeing.of_some S
                    · cases g.GetBlock succ with
                      | none => exact Agreeing.of_none _
                      | some sb =>
                        dsimp only
                        split
                        · cases RemoveNonNullControlDependences dom
                              (g.ReplaceSuccessor block succ exit) pred block with
                          | none => exact Agreeing.of_none _
                          | some r =>
                            exact Agreeing.of_some (sameButStats_of_throws _ _ _ _)
                        · exact Agreeing.of_some S
          · exact Agreeing.of_some S

theorem SimplifyAlwaysThrows_stats (a : GraphAnalysis) (dce dce' : HDeadCodeElimination)
    (h : dce.sameGraph dce') :
    Agreeing sameResult (SimplifyAlwaysThrows a dce) (SimplifyAlwaysThrows a dce') := by
  have hg : dce.graph = dce'.graph := h
  unfold SimplifyAlwaysThrows
  rw [hg]
  cases dce'.graph.exit_block with
  | none => exact Agreeing.of_some ⟨hg, rfl⟩
  | some exit =>
    dsimp only
    rcases (iterate_stats SimplifyAlwaysThrowsState.sameButStats
      (SimplifyAlwaysThrows.visitBlock dce'.graph exit)
      (fun s s' x hs => SimplifyAlwaysThrows_visitBlock_stats dce'.graph exit s s' x hs)
      dce'.graph.reverse_post_order _ _
      (sameButStats_of_throws dce'.graph dce.stats dce'.stats false)).cases_on with
      ⟨e1, e2⟩ | ⟨v, v', e1, e2, hv⟩
    · rw [e1, e2]
      exact Agreeing.of_none _
    · rw [e1, e2]
      obtain ⟨h1, h2⟩ := hv
      dsimp only
      rw [h1, h2]
      split
      · exact Agreeing.of_some ⟨rfl, rfl⟩
      · exact Agreeing.of_some ⟨rfl, rfl⟩

theorem sameButStats_of_blocks (g : HGraph) (s s' : Option OptimizingCompilerStats)
    (a b : Bool) :
    RemoveDeadBlocksState.sameButStats
      { graph := g, stats := s, removed_one_or_more_blocks := a,
        rerun_dominance_and_loop_analysis := b }
      { graph := g, stats := s', removed_one_or_more_blocks := a,
        rerun_dominance_and_loop_analysis := b } :=
  ⟨rfl, rfl, rfl⟩

theorem RemoveDeadBlocks_step_stats (live_blocks : ArenaBitVector)
    (st st' : RemoveDeadBlocksState) (h : st.sameButStats st') (id : Nat) :
    (RemoveDeadBlocks.step live_blocks st id).sameButStats
      (RemoveDeadBlocks.step live_blocks st' id) := by
  obtain ⟨g, s, a, b⟩ := st
  obtain ⟨g', s', a', b'⟩ := st'
  obtain ⟨hg, ha, hb⟩ := h
  dsimp only at hg ha hb
  subst hg ha hb
  unfold RemoveDeadBlocks.step
  dsimp only
  split
  · cases g.GetBlock id with
    | none => exact sameButStats_of_blocks _ _ _ _ _
    | some block => exact sameButStats_of_blocks _ _ _ _ _
  · exact sameButStats_of_blocks _ _ _ _ _

theorem RemoveDeadBlocks_fold_stats (live_blocks : ArenaBitVector) (l : List Nat) :
    ∀ st st' : RemoveDeadBlocksState, st.sameButStats st' →
      (l.foldl (RemoveDeadBlocks.step live_blocks) st).sameButStats
        (l.foldl (RemoveDeadBlocks.step live_blocks) st') := by
  induction l with
  | nil => intro st st' h; exact h
  | cons x rest ih =>
    intro st st' h
    rw [List.foldl_cons, List.foldl_cons]
    exact ih _ _ (RemoveDeadBlocks_step_stats live_blocks st st' h x)

theorem RemoveDeadBlocks_stats (a : GraphAnalysis) (dce dce' : HDeadCodeElimination)
    (h : dce.sameGraph dce') :
    Agreeing sameResult (RemoveDeadBlocks a dce) (RemoveDeadBlocks a dce') := by
  have hg : dce.graph = dce'.graph := h
  unfold RemoveDeadBlocks
  rw [hg]
  cases MarkReachableBlocks dce'.graph [] with
  | none => exact Agreeing.of_none _
  | some live_blocks =>
    dsimp only
    obtain ⟨h1, h2, h3⟩ := RemoveDeadBlocks_fold_stats live_blocks dce'.graph.GetPostOrder _ _
      (sameButStats_of_blocks dce'.graph dce.stats dce'.stats false false)
    rw [h1, h2, h3]
    exact Agreeing.of_some ⟨rfl, rfl⟩

theorem RemoveUnneededTries_stats (a : GraphAnalysis) (dce dce' : HDeadCodeElimination)
    (h : dce.sameGraph dce') :
    Agreeing sameResult (RemoveUnneededTries a dce) (RemoveUnneededTries a dce') := by
  have hg : dce.graph = dce'.graph := h
  unfold RemoveUnneededTries
  rw [hg]
  split
  · exact Agreeing.of_some ⟨hg, rfl⟩
  · cases RemoveUnneededTries.tries dce'.graph with
    | none => exact Agreeing.of_none _
    | some tries =>
      dsimp only
      cases iterate RemoveUnneededTries.step tries
          { graph := dce'.graph, removed_tries := 0, any_handler_in_loop := false } with
      | none => exact Agreeing.of_none _
      | some st =>
        dsimp only
        split
        · rcases (RemoveDeadBlocks_stats a
            { graph := if st.removed_tries = tries.length then
                { st.graph with has_try_catch := false } else st.graph, stats := dce.stats }
            { graph := if st.removed_tries = tries.length then
                { st.graph with has_try_catch := false } else st.graph, stats := dce'.stats }
            (sameGraph_of_dce _ _ _)).cases_on with ⟨e1, e2⟩ | ⟨v, v', e1, e2, hv⟩
          · rw [e1, e2]
            exact Agreeing.of_none _
          · rw [e1, e2]
            obtain ⟨d, r⟩ := v
            obtain ⟨d', r'⟩ := v'
            obtain ⟨h1, h2⟩ := hv
            dsimp only at h1 h2 ⊢
            rw [h1, h2]
            exact Agreeing.of_some ⟨rfl, rfl⟩
        · exact Agreeing.of_some ⟨rfl, rfl⟩

theorem RemoveDeadInstructions_step_stats (block : Nat) (dce dce' : HDeadCodeElimination)
    (h : dce.sameGraph dce') (inst : Nat) :
    (RemoveDeadInstructions.step block dce inst).sameGraph
      (RemoveDeadInstructions.step block dce' inst) := by
  have hg : dce.graph = dce'.graph := h
  unfold RemoveDeadInstructions.step
  rw [hg]
  split
  · exact sameGraph_of_dce _ _ _
  · exact h

theorem RemoveDeadInstructions_fold_stats (block : Nat) (l : List Nat) :
    ∀ dce dce' : HDeadCodeElimination, dce.sameGraph dce' →
      (l.foldl (RemoveDeadInstructions.step block) dce).sameGraph
        (l.foldl (RemoveDeadInstructions.step block) dce') := by
  induction l with
  | nil => intro dce dce' h; exact h
  | cons x rest ih =>
    intro dce dce' h
    rw [List.foldl_cons, List.foldl_cons]
    exact ih _ _ (RemoveDeadInstructions_step_stats block dce dce' h x)

theorem RemoveDeadInstructions_visitBlock_stats (dce dce' : HDeadCodeElimination)
    (block : Nat) (h : dce.sameGraph dce') :
    Agreeing HDeadCodeElimination.sameGraph (RemoveDeadInstructions.visitBlock dce block)
      (RemoveDeadInstructions.visitBlock dce' block) := by
  have hg : dce.graph = dce'.graph := h
  unfold RemoveDeadInstructions.visitBlock
  rw [hg]
  cases dce'.graph.GetBlock block with
  | none => exact Agreeing.of_none _
  | some b => exact Agreeing.of_some (RemoveDeadInstructions_fold_stats block _ dce dce' h)

theorem RemoveDeadInstructions_stats (dce dce' : HDeadCodeElimination)
    (h : dce.sameGraph dce') :
    Agreeing HDeadCodeElimination.sameGraph (RemoveDeadInstructions dce)
      (RemoveDeadInstructions dce') := by
  have hg : dce.graph = dce'.graph := h
  unfold RemoveDeadInstructions
  rw [hg]
  exact iterate_stats HDeadCodeElimination.sameGraph RemoveDeadInstructions.visitBlock
    (fun s s' x hs => RemoveDeadInstructions_visitBlock_stats s s' x hs) _ dce dce' h

theorem Run_stats (a : GraphAnalysis) (simplifyCFG : HGraph → HGraph)
    (ev : StaticEvaluator) (cev : ConditionEvaluator)
    (ssaRedundantPhiElimination : HGraph → HGraph) (dce dce' : HDeadCodeElimination)
    (h : dce.sameGraph dce') :
    Agreeing sameResult
      (HDeadCodeElimination.Run a simplifyCFG ev cev ssaRedundantPhiElimination dce)
      (HDeadCodeElimination.Run a simplifyCFG ev cev ssaRedundantPhiElimination dce') := by
  have hg : dce.graph = dce'.graph := h
  unfold HDeadCodeElimination.Run
  dsimp only
  rw [hg]
  generalize hS : (if (!dce'.graph.has_irreducible_loops) = true then _ else some dce) = S
  generalize hS' : (if (!dce'.graph.has_irreducible_loops) = true then _ else some dce') = S'
  have A : Agreeing HDeadCodeElimination.sameGraph S S' := by
    rw [← hS, ← hS']
    split
    · cases ConnectSuccessiveBlocks dce'.graph with
      | none => exact Agreeing.of_none _
      | some g0 =>
        dsimp only
        rcases (SimplifyAlwaysThrows_stats a { dce with graph := g0 } { dce' with graph := g0 }
          (sameGraph_of_dce _ _ _)).cases_on with ⟨e1, e2⟩ | ⟨v1, w1, e1, e2, h1⟩
        · rw [e1, e2]
          exact Agreeing.of_none _
        · rw [e1, e2]
          obtain ⟨d1, r1⟩ := v1
          obtain ⟨d1', r1'⟩ := w1
          obtain ⟨hd1, hr1⟩ := h1
          dsimp only at hd1 hr1 ⊢
          subst hr1
          rcases (SimplifyIfs_stats a simplifyCFG ev cev d1 d1' hd1).cases_on with
            ⟨e3, e4⟩ | ⟨v2, w2, e3, e4, h2⟩
          · rw [e3, e4]
            exact Agreeing.of_none _
          · rw [e3, e4]
            obtain ⟨d2, r2⟩ := v2
            obtain ⟨d2', r2'⟩ := w2
            obtain ⟨hd2, hr2⟩ := h2
            dsimp only at hd2 hr2 ⊢
            subst hr2
            rcases (RemoveDeadBlocks_stats a d2 d2' hd2).cases_on with
              ⟨e5, e6⟩ | ⟨v3, w3, e5, e6, h3⟩
            · rw [e5, e6]
              exact Agreeing.of_none _
            · rw [e5, e6]
              obtain ⟨d3, r3⟩ := v3
              obtain ⟨d3', r3'⟩ := w3
              obtain ⟨hd3, hr3⟩ := h3
              dsimp only at hd3 hr3 ⊢
              subst hr3
              rcases (RemoveUnneededTries_stats a d3 d3' hd3).cases_on with
                ⟨e7, e8⟩ | ⟨v4, w4, e7, e8, h4⟩
              · rw [e7, e8]
                exact Agreeing.of_none _
              · rw [e7, e8]
                obtain ⟨d4, r4⟩ := v4
                obtain ⟨d4', r4'⟩ := w4
                obtain ⟨hd4, hr4⟩ := h4
                dsimp only at hd4 hr4 ⊢
                subst hr4
                have hd4' : d4.graph = d4'.graph := hd4
                rw [hd4']
                split
                · cases ConnectSuccessiveBlocks d4'.graph with
                  | none => exact Agreeing.of_none _
                  | some g5 => exact Agreeing.of_some (sameGraph_of_dce _ _ _)
                · exact Agreeing.of_some hd4
    · exact Agreeing.of_some h
  rcases A.cases_on with ⟨e1, e2⟩ | ⟨v, v', e1, e2, hv⟩
  · rw [e1, e2]
    exact Agreeing.of_none _
  · rw [e1, e2]
    have hv' : v.graph = v'.graph := hv
    dsimp only
    rw [hv']
    rcases (RemoveDeadInstructions_stats
      { v with graph := ssaRedundantPhiElimination v'.graph }
      { v' with graph := ssaRedundantPhiElimination v'.graph }
      (sameGraph_of_dce _ _ _)).cases_on with ⟨e3, e4⟩ | ⟨w, w', e3, e4, hw⟩
    · rw [e3, e4]
      exact Agreeing.of_none _
    · rw [e3, e4]
      exact Agreeing.of_some ⟨hw, rfl⟩

/-- C32: statistics reporting never influences the transformation.  For
every graph and any two statistics sinks, in particular the null sink and a
sink that is not null, constant folding yields the same graph and the same
return value with either, and so does dead code elimination; they also agree
on whether they return at all. -/
theorem statistics_never_influence_the_transformation (a : GraphAnalysis)
    (simplifyCFG : HGraph → HGraph) (ev : StaticEvaluator) (cev : ConditionEvaluator)
    (ssaRedundantPhiElimination : HGraph → HGraph) (g : HGraph)
    (s s' : Option OptimizingCompilerStats) :
    (HConstantFolding.Run ev g s).map (fun r => (r.1.graph, r.2)) =
      (HConstantFolding.Run ev g s').map (fun r => (r.1.graph, r.2)) ∧
    (HDeadCodeElimination.Run a simplifyCFG ev cev ssaRedundantPhiElimination
      { graph := g, stats := s }).map (fun r => (r.1.graph, r.2)) =
      (HDeadCodeElimination.Run a simplifyCFG ev cev ssaRedundantPhiElimination
        { graph := g, stats := s' }).map (fun r => (r.1.graph, r.2)) := by
  refine ⟨HConstantFolding_Run_stats ev g s s', ?_⟩
  rcases (Run_stats a simplifyCFG ev cev ssaRedundantPhiElimination { graph := g, stats := s }
    { graph := g, stats := s' } (sameGraph_of_dce _ _ _)).cases_on with
    ⟨e1, e2⟩ | ⟨v, v', e1, e2, hv⟩
  · rw [e1, e2]
  · rw [e1, e2]
    obtain ⟨h1, h2⟩ := hv
    simp only [Option.map_some', h1, h2]

/-! ## SimplifyIfs: the inputs of the phi stay correlated with the predecessors -/

theorem walk_sublist {α : Type} (resolve : α → Option Bool) (l : List α) :
    ∀ i, (SimplifyIfs.walk resolve i l).Sublist l := by
  induction l with
  | nil => intro i; exact List.Sublist.refl _
  | cons s rest ih =>
    intro i
    unfold SimplifyIfs.walk
    cases resolve s with
    | none => exact List.Sublist.cons₂ _ (ih _)
    | some v =>
      dsimp only
      split
      · exact List.sublist_cons_self _ _
      · exact List.Sublist.cons _ (ih _)

theorem inputsOf_of_extends {g g1 : HGraph} (h : Extends g g1) (phi : Nat)
    (hphi : (g.GetInstruction phi).isSome = true) : g1.inputsOf phi = g.inputsOf phi := by
  unfold HGraph.inputsOf
  cases hp : g.GetInstruction phi with
  | none => rw [hp] at hphi; cases hphi
  | some i => rw [h.inst phi i hp]

/-- One iteration of the walk of SimplifyIfs at index `i`: it advances the
index and leaves the inputs of the phi and the predecessors of the block as
they are, or it redirects the predecessor at index `i` and removes the input
at index `i`, leaving the index as it is. -/
theorem redirect_iteration (cev : ConditionEvaluator) (block phi first : Nat)
    (a l : Bool) (st : SimplifyIfsState)
    (hnodup : (st.graph.predecessorsOf block).Nodup)
    (hself : block ∉ st.graph.predecessorsOf block)
    (hsucc : block ∉ st.graph.successorsOf block)
    (fuel i : Nat) (hi : i < (st.graph.inputsOf phi).length) :
    SimplifyIfs.redirect cev block phi first a l (fuel + 1) i st = none ∨
    ∃ st1, st1.graph.successorsOf block = st.graph.successorsOf block ∧
      ((st1.graph.inputsOf phi = st.graph.inputsOf phi ∧
          st1.graph.predecessorsOf block = st.graph.predecessorsOf block ∧
          SimplifyIfs.redirect cev block phi first a l (fuel + 1) i st =
            SimplifyIfs.redirect cev block phi first a l fuel (i + 1) st1) ∨
        (st1.graph.inputsOf phi = (st.graph.inputsOf phi).eraseIdx i ∧
          st1.graph.predecessorsOf block = (st.graph.predecessorsOf block).eraseIdx i ∧
          (∃ pred target, (st.graph.predecessorsOf block)[i]? = some pred ∧
            target ∈ st.graph.successorsOf block ∧
            st1.graph.successorsOf pred =
              replaceFirst block target (st.graph.successorsOf pred)) ∧
          (SimplifyIfs.redirect cev block phi first a l (fuel + 1) i st = some st1 ∨
            SimplifyIfs.redirect cev block phi first a l (fuel + 1) i st =
              SimplifyIfs.redirect cev block phi first a l fuel i st1))) := by
  have hphi : (st.graph.GetInstruction phi).isSome = true := by
    unfold HGraph.inputsOf at hi
    cases hp : st.graph.GetInstruction phi with
    | none => rw [hp] at hi; simp at hi
    | some _ => rfl
  rw [SimplifyIfs.redirect]
  simp only [hi, if_true]
  cases hin : st.graph.InputAt phi i with
  | none => exact Or.inl rfl
  | some input =>
    dsimp only
    cases hval : SimplifyIfs.valueToCheck cev st.graph first a l input with
    | none => exact Or.inl rfl
    | some r =>
      obtain ⟨g1, v⟩ := r
      have hext := valueToCheck_Extends cev st.graph first a l input g1 v hval
      have hin1 := inputsOf_of_extends hext phi hphi
      have hp1 := hext.predecessors block
      have hs1 := hext.successors block
      cases v with
      | none =>
        dsimp only
        exact Or.inr ⟨⟨g1, st.stats, st.simplified_one_or_more_ifs,
          st.rerun_dominance_and_loop_analysis⟩, hs1, Or.inl ⟨hin1, hp1, rfl⟩⟩
      | some c =>
        dsimp only
        cases hb : g1.GetBlock block with
        | none => exact Or.inl rfl
        | some b =>
          dsimp only
          have hbp := predecessorsOf_eq g1 block b hb
          have hbs := successorsOf_eq g1 block b hb
          cases hp : b.predecessors[i]? with
          | none => exact Or.inl rfl
          | some pred =>
            cases hsx : (if g1.kindIs (fun k => k = InstructionKind.IntConstant 1) c = true
                then b.successors[0]? else b.successors[1]?) with
            | none => exact Or.inl rfl
            | some target =>
              dsimp only
              right
              have hpi : (st.graph.predecessorsOf block)[i]? = some pred := by
                rw [← hp1, hbp]; exact hp
              have hpm : pred ∈ st.graph.predecessorsOf block :=
                List.getElem?_mem hpi
              have hpb : pred ≠ block := by
                intro e
                rw [e] at hpm
                exact hself hpm
              have htm : target ∈ st.graph.successorsOf block := by
                rw [← hs1, hbs]
                split at hsx
                · exact List.getElem?_mem hsx
                · exact List.getElem?_mem hsx
              have htb : target ≠ block := by
                intro e
                rw [e] at htm
                exact hsucc htm
              have hpreds3 : ((g1.ReplaceSuccessor pred block target).RemoveInputAt phi
                  i).predecessorsOf block = (st.graph.predecessorsOf block).eraseIdx i := by
                have e0 : ((g1.ReplaceSuccessor pred block target).RemoveInputAt phi
                    i).predecessorsOf block =
                    (g1.ReplaceSuccessor pred block target).predecessorsOf block := rfl
                rw [e0, predecessorsOf_ReplaceSuccessor g1 pred block target htb, hp1]
                obtain ⟨hlt, hget⟩ := List.getElem?_eq_some.mp hpi
                rw [← hget]
                exact hnodup.erase_getElem i hlt
              have hin3 : ((g1.ReplaceSuccessor pred block target).RemoveInputAt phi
                  i).inputsOf phi = (st.graph.inputsOf phi).eraseIdx i := by
                rw [← hin1]
                unfold HGraph.inputsOf
                rw [GetInstruction_RemoveInputAt, GetInstruction_ReplaceSuccessor]
                cases g1.GetInstruction phi with
                | none => rfl
                | some u => simp
              have hsuccs3 : ∀ p, ((g1.ReplaceSuccessor pred block target).RemoveInputAt phi
                  i).successorsOf p =
                  if p = pred then replaceFirst block target (st.graph.successorsOf p)
                  else st.graph.successorsOf p := by
                intro p
                have e0 : ((g1.ReplaceSuccessor pred block target).RemoveInputAt phi
                    i).successorsOf p =
                    (g1.ReplaceSuccessor pred block target).successorsOf p := rfl
                rw [e0, successorsOf_ReplaceSuccessor, hext.successors]
              refine ⟨⟨(g1.ReplaceSuccessor pred block target).RemoveInputAt phi i, st.stats,
                true, st.rerun_dominance_and_loop_analysis || b.IsInLoop⟩, ?_, Or.inr
                ⟨hin3, hpreds3, ⟨pred, target, hpi, htm, ?_⟩, ?_⟩⟩
              · show ((g1.ReplaceSuccessor pred block target).RemoveInputAt phi
                  i).successorsOf block = _
                rw [hsuccs3, if_neg (fun e => hpb e.symm)]
              · show ((g1.ReplaceSuccessor pred block target).RemoveInputAt phi
                  i).successorsOf pred = _
                rw [hsuccs3, if_pos rfl]
              · split
                · exact Or.inl rfl
                · exact Or.inr rfl

/-- C34: SimplifyIfs keeps the inputs of the phi index-correlated with the
predecessor edges.  In a state of the inner loop in which the phi has as many
inputs as the block has predecessors, the predecessors are pairwise distinct
and the block is neither its own predecessor nor its own successor, an
iteration at index `i` either advances `i` and leaves the inputs and the
predecessors as they are, or redirects the predecessor at index `i` to a
successor of the block and removes the input of the phi at the same index `i`,
leaving `i` as it is: either way the number of inputs minus `i` has gone down
by one, the counts are equal again, and every input left is paired with the
predecessor it was paired with.  The whole walk, run for as many iterations as
the phi has inputs, returns where the evaluation of every input has a result,
and the pairs of input and predecessor it leaves are pairs of the start, in
their order. -/
theorem SimplifyIfs_keeps_phi_inputs_correlated (cev : ConditionEvaluator)
    (block phi first : Nat) (a l : Bool) (st : SimplifyIfsState)
    (hlen : (st.graph.inputsOf phi).length = (st.graph.predecessorsOf block).length)
    (hnodup : (st.graph.predecessorsOf block).Nodup)
    (hself : block ∉ st.graph.predecessorsOf block)
    (hsucc : block ∉ st.graph.successorsOf block) :
    (∀ fuel i, i < (st.graph.inputsOf phi).length →
      SimplifyIfs.redirect cev block phi first a l (fuel + 1) i st = none ∨
      ∃ st1, st1.graph.successorsOf block = st.graph.successorsOf block ∧
        ((st1.graph.inputsOf phi = st.graph.inputsOf phi ∧
            st1.graph.predecessorsOf block = st.graph.predecessorsOf block ∧
            SimplifyIfs.redirect cev block phi first a l (fuel + 1) i st =
              SimplifyIfs.redirect cev block phi first a l fuel (i + 1) st1) ∨
          (st1.graph.inputsOf phi = (st.graph.inputsOf phi).eraseIdx i ∧
            st1.graph.predecessorsOf block = (st.graph.predecessorsOf block).eraseIdx i ∧
            (∃ pred target, (st.graph.predecessorsOf block)[i]? = some pred ∧
              target ∈ st.graph.successorsOf block ∧
              st1.graph.successorsOf pred =
                replaceFirst block target (st.graph.successorsOf pred)) ∧
            (SimplifyIfs.redirect cev block phi first a l (fuel + 1) i st = some st1 ∨
              SimplifyIfs.redirect cev block phi first a l (fuel + 1) i st =
                SimplifyIfs.redirect cev block phi first a l fuel i st1)))) ∧
    (∀ t f, st.graph.InputsDefined = true → (st.graph.GetInstruction first).isSome = true →
      first ≠ phi → (st.graph.successorsOf block)[0]? = some t →
      (st.graph.successorsOf block)[1]? = some f →
      (∀ input ∈ st.graph.inputsOf phi,
        (SimplifyIfs.resolution cev st.graph first a l input).isSome = true) →
      ∃ (st' : SimplifyIfsState) (slots : List (Nat × Nat)),
        SimplifyIfs.redirect cev block phi first a l (st.graph.inputsOf phi).length 0 st =
          some st' ∧
        slots.Sublist ((st.graph.inputsOf phi).zip (st.graph.predecessorsOf block)) ∧
        st'.graph.inputsOf phi = slots.map Prod.fst ∧
        st'.graph.predecessorsOf block = slots.map Prod.snd ∧
        (st'.graph.inputsOf phi).length = (st'.graph.predecessorsOf block).length) := by
  refine ⟨fun fuel i hi =>
    redirect_iteration cev block phi first a l st hnodup hself hsucc fuel i hi, ?_⟩
  intro t f hdef hfirst hne ht hf hres
  have hfst : ((st.graph.inputsOf phi).zip (st.graph.predecessorsOf block)).map Prod.fst =
      st.graph.inputsOf phi := List.map_fst_zip _ _ (Nat.le_of_eq hlen)
  have hsnd : ((st.graph.inputsOf phi).zip (st.graph.predecessorsOf block)).map Prod.snd =
      st.graph.predecessorsOf block := List.map_snd_zip _ _ (Nat.le_of_eq hlen.symm)
  have hzl : ((st.graph.inputsOf phi).zip (st.graph.predecessorsOf block)).length =
      (st.graph.inputsOf phi).length := by
    rw [List.length_zip, ← hlen, Nat.min_self]
  have htb : t ≠ block := by
    intro e
    rw [e] at ht
    exact hsucc (List.getElem?_mem ht)
  have hfb : f ≠ block := by
    intro e
    rw [e] at hf
    exact hsucc (List.getElem?_mem hf)
  obtain ⟨st', hrun, _, hin', hpreds', _, _⟩ :=
    redirect_spec cev st.graph block phi first a l t f hdef hfirst hne ht hf htb hfb
      ((st.graph.inputsOf phi).zip (st.graph.predecessorsOf block)) [] st
      (st.graph.inputsOf phi).length (Nat.le_of_eq hzl) (WalkStable.walk_refl _ _ _)
      (by rw [List.nil_append, hfst]) (by rw [List.nil_append, hsnd])
      (by rw [List.nil_append, hsnd]; exact hnodup)
      (by rw [List.nil_append, hsnd]; exact hself)
      (fun s hs => hres s.1 (by rw [← hfst]; exact List.mem_map_of_mem _ hs))
      (fun s hs => InputsDefined_isSome st.graph hdef phi s.1
        (by rw [← hfst]; exact List.mem_map_of_mem _ hs))
  simp only [List.length_nil, List.nil_append] at hrun hin' hpreds'
  exact ⟨st', _, hrun, walk_sublist _ _ 0, hin', hpreds', by
    rw [hin', hpreds', List.length_map, List.length_map]⟩

theorem SimplifyIfs_keeps_phi_inputs_correlated_witness :
    ((exampleDiamond 0).inputsOf 7).length = ((exampleDiamond 0).predecessorsOf 4).length ∧
    ((exampleDiamond 0).predecessorsOf 4).Nodup ∧
    4 ∉ (exampleDiamond 0).predecessorsOf 4 ∧ 4 ∉ (exampleDiamond 0).successorsOf 4 ∧
    (exampleDiamond 0).inputsOf 7 = [1, 0] ∧ (exampleDiamond 0).predecessorsOf 4 = [2, 3] ∧
    (SimplifyIfs.redirect (fun _ _ _ => none) 4 7 8 true true 2 0
      (SimplifyIfsState.start (exampleDiamond 0))).map
      (fun st' => (st'.graph.inputsOf 7, st'.graph.predecessorsOf 4,
        st'.graph.successorsOf 2)) = some ([0], [3], [5]) ∧
    (
SimplifyIfs.redirect (fun _ _ _ => none) 4 7 8 true true 2 0
          (SimplifyIfsState.start (exampleDiamond 0)) = none ∨
      ∃ st1, st1.graph.successorsOf 4 = (exampleDiamond 0).successorsOf 4 ∧
        ((st1.graph.inputsOf 7 = (exampleDiamond 0).inputsOf 7 ∧
            st1.graph.predecessorsOf 4 = (exampleDiamond 0).predecessorsOf 4 ∧
            SimplifyIfs.redirect (fun _ _ _ => none) 4 7 8 true true 2 0
          (SimplifyIfsState.start (exampleDiamond 0)) =
              SimplifyIfs.redirect (fun _ _ _ => none) 4 7 8 true true 1 1 st1) ∨
          (st1.graph.inputsOf 7 = ((exampleDiamond 0).inputsOf 7).eraseIdx 0 ∧
            st1.graph.predecessorsOf 4 = ((exampleDiamond 0).predecessorsOf 4).eraseIdx 0 ∧
            (∃ pred target, ((exampleDiamond 0).predecessorsOf 4)[0]? = some pred ∧
              target ∈ (exampleDiamond 0).successorsOf 4 ∧
              st1.graph.successorsOf pred =
                replaceFirst 4 target ((exampleDiamond 0).successorsOf pred)) ∧
            (SimplifyIfs.redirect (fun _ _ _ => none) 4 7 8 true true 2 0
          (SimplifyIfsState.start (exampleDiamond 0)) = some st1 ∨
              SimplifyIfs.redirect (fun _ _ _ => none) 4 7 8 true true 2 0
          (SimplifyIfsState.start (exampleDiamond 0)) =
                SimplifyIfs.redirect (fun _ _ _ => none) 4 7 8 true true 1 0 st1)))) ∧
    (∃ (st' : SimplifyIfsState) (slots : List (Nat × Nat)),
      SimplifyIfs.redirect (fun _ _ _ => none) 4 7 8 true true
        ((exampleDiamond 0).inputsOf 7).length 0 (SimplifyIfsState.start (exampleDiamond 0)) =
        some st' ∧
      slots.Sublist (((exampleDiamond 0).inputsOf 7).zip ((exampleDiamond 0).predecessorsOf 4)) ∧
      st'.graph.inputsOf 7 = slots.map Prod.fst ∧
      st'.graph.predecessorsOf 4 = slots.map Prod.snd ∧
      (st'.graph.inputsOf 7).length = (st'.graph.predecessorsOf 4).length) :=
  ⟨by decide, by decide, by decide, by decide, by decide, by decide, by decide,
    (SimplifyIfs_keeps_phi_inputs_correlated (fun _ _ _ => none) 4 7 8 true true
      (SimplifyIfsState.start (exampleDiamond 0)) (by decide) (by decide) (by decide)
      (by decide)).1 1 0 (by decide),
    (SimplifyIfs_keeps_phi_inputs_correlated (fun _ _ _ => none) 4 7 8 true true
      (SimplifyIfsState.start (exampleDiamond 0)) (by decide) (by decide) (by decide)
      (by decide)).2 5 6 (by decide) (by decide) (by decide) (by decide) (by decide)
      (by decide)⟩

/-! ## SimplifyAlwaysThrows: the alias of RemoveNonNullControlDependences dominates its uses -/

theorem DetachReady_spec (dom g : HGraph) (pred throws succ exit : Nat)
    (h : g.DetachReady dom pred throws succ exit = true) :
    Detaching dom g pred throws succ exit := by
  unfold HGraph.DetachReady at h
  simp only [Bool.and_eq_true, decide_eq_true_eq, List.all_eq_true, List.mem_range,
    Bool.or_eq_true, beq_iff_eq, List.isEmpty_iff, Bool.not_eq_true', Bool.and_eq_false_iff,
    beq_eq_false_iff_ne, ne_eq] at h
  obtain ⟨⟨⟨⟨⟨⟨⟨h1, h2⟩, h3⟩, h4⟩, h5⟩, h6⟩, h7⟩, h8⟩ := h
  refine ⟨ThrowReady_throwable _ h1, h2, h3, h4, ?_, h6, ?_, h8⟩
  · intro b s hs hne
    by_cases hb : b < g.blocks.length
    · rcases h5 b hb s hs with e | e
      · exact absurd e hne
      · exact e
    · rw [successorsOf_of_not_lt g b hb] at hs
      cases hs
  · intro u hu hk
    have hlt : u < g.instructions.length :=
      GetInstruction_lt g u (isSome_of_KindOf g u _ hk)
    rcases h7 u hlt with e | e
    · exact e hu
    · rw [(kindIs_eq_iff g _ u).mpr hk] at e
      cases e

/-- Dominance is transitive. -/
theorem Dominates_transitive (g : HGraph) (a b c : Nat) (hab : g.Dominates a b = true)
    (hbc : g.Dominates b c = true) : g.Dominates a c = true := by
  rw [Dominates_iff] at hab hbc ⊢
  by_cases hac : a = c
  · exact Or.inl hac
  right
  intro hreach
  rcases hab with e | hab
  · subst e
    rcases hbc with e | hbc
    · exact hac e
    · exact hbc hreach
  rcases hbc with e | hbc
  · subst e
    exact hab hreach
  have key : ∀ x, Reach (g.successorsAvoiding a) g.entry_block x →
      Reach (g.successorsAvoiding b) g.entry_block x ∨
        Reach (g.successorsAvoiding a) g.entry_block b := by
    intro x hx
    induction hx with
    | refl => exact Or.inl Relation.ReflTransGen.refl
    | @tail x y hxy hstep ih =>
      rcases ih with ih | ih
      · by_cases hxb : x = b
        · subst hxb
          exact Or.inr hxy
        · by_cases hyb : y = b
          · subst hyb
            exact Or.inr (Relation.ReflTransGen.tail hxy hstep)
          · have hs := (mem_successorsAvoiding g a x y).mp hstep
            exact Or.inl (Relation.ReflTransGen.tail ih
              ((mem_successorsAvoiding g b x y).mpr ⟨hxb, hs.2.1, hyb⟩))
      · exact Or.inr ih
  rcases key c hreach with h | h
  · exact hbc h
  · exact hab h

/-- After the redirection of the only edge that leaves `throws` to the exit
block, the other successor of `pred` dominates every block that `pred`
dominated, `pred`, `throws` and the exit block apart. -/
theorem Dominates_survivor (dom g : HGraph) (pred throws nt exit ub : Nat)
    (hentry : g.entry_block = dom.entry_block)
    (hedges : ∀ b s, s ∈ g.successorsOf b → s ≠ exit → s ∈ dom.successorsOf b)
    (hexit : g.successorsOf exit = [])
    (hthrows : g.successorsOf throws = [exit])
    (hpred : ∀ s ∈ g.successorsOf pred, s = throws ∨ s = nt)
    (h1 : ub ≠ pred) (h2 : ub ≠ throws) (h3 : ub ≠ exit)
    (hdom : dom.Dominates pred ub = true) : g.Dominates nt ub = true := by
  rw [Dominates_iff] at hdom ⊢
  by_cases hnt : nt = ub
  · exact Or.inl hnt
  right
  intro hreach
  have key : ∀ x, Reach (g.successorsAvoiding nt) g.entry_block x →
      Reach (dom.successorsAvoiding pred) dom.entry_block x ∨ x = pred ∨ x = throws ∨
        x = exit := by
    intro x hx
    induction hx with
    | refl => rw [hentry]; exact Or.inl Relation.ReflTransGen.refl
    | @tail x y hxy hstep ih =>
      have hs := (mem_successorsAvoiding g nt x y).mp hstep
      have frompred : x = pred → y = throws := by
        intro e
        rw [e] at hs
        rcases hpred y hs.2.1 with e1 | e1
        · exact e1
        · exact absurd e1 hs.2.2
      by_cases hxp : x = pred
      · exact Or.inr (Or.inr (Or.inl (frompred hxp)))
      rcases ih with ih | ih | ih | ih
      · by_cases hye : y = exit
        · exact Or.inr (Or.inr (Or.inr hye))
        · by_cases hyp : y = pred
          · exact Or.inr (Or.inl hyp)
          · exact Or.inl (Relation.ReflTransGen.tail ih
              ((mem_successorsAvoiding dom pred x y).mpr ⟨hxp, hedges x y hs.2.1 hye, hyp⟩))
      · exact absurd ih hxp
      · rw [ih, hthrows] at hs
        exact Or.inr (Or.inr (Or.inr (List.mem_singleton.mp hs.2.1)))
      · rw [ih, hexit] at hs
        cases hs.2.1
  rcases hdom with e | hdom
  · exact h1 e.symm
  rcases key ub hreach with h | h | h | h
  · exact hdom h
  · exact h1 h
  · exact h2 h
  · exact h3 h

theorem users_nodup (dom g : HGraph) (block throws obj : Nat) :
    (RemoveNonNullControlDependences.users dom g block throws obj).Nodup := by
  unfold RemoveNonNullControlDependences.users
  exact List.Nodup.filter _ (List.nodup_range _)

/-- The users that RemoveNonNullControlDependences replaces, as a
proposition. -/
theorem mem_users (dom g : HGraph) (block throws obj u : Nat)
    (h : u ∈ RemoveNonNullControlDependences.users dom g block throws obj) :
    u < g.instructions.length ∧ obj ∈ g.inputsOf u ∧
      g.KindOf u = some InstructionKind.NullCheck ∧
      ∃ ub, g.BlockOf u = some ub ∧ ub ≠ block ∧ ub ≠ throws ∧
        dom.Dominates block ub = true := by
  have hk := users_NullCheck dom g block throws obj u h
  unfold RemoveNonNullControlDependences.users at h
  obtain ⟨hr, hf⟩ := List.mem_filter.mp h
  simp only [Bool.and_eq_true, decide_eq_true_eq] at hf
  refine ⟨List.mem_range.mp hr, hf.1.1, hk, ?_⟩
  have h3 := hf.2
  cases hb : g.BlockOf u with
  | none => rw [hb] at h3; cases h3
  | some ub =>
    rw [hb] at h3
    simp only [Bool.and_eq_true, decide_eq_true_eq] at h3
    exact ⟨ub, rfl, h3.1.1, h3.1.2, h3.2⟩

/-- The loop of RemoveNonNullControlDependences over the users, which are
distinct instructions in a block, none of them the bound type: the users leave
their blocks, the bound type takes their place in the inputs of the
instructions that stay in a block, and the bound type stays the first
instruction of its block. -/
theorem replaceUsers_spec (bound : Nat) (l : List Nat) :
    ∀ g1 : HGraph, l.Nodup → (∀ u ∈ l, (g1.BlockOf u).isSome = true) →
      (∀ u ∈ l, u ≠ bound) →
      ∃ g2, l.foldl (fun g1 u =>
          match g1.BlockOf u with
          | none => g1
          | some user_block => (g1.ReplaceWith u bound).RemoveInstruction user_block u) g1 = g2 ∧
        (∀ w, g2.BlockOf w = if w ∈ l then none else g1.BlockOf w) ∧
        (∀ w, (g2.BlockOf w).isSome = true →
          g2.inputsOf w = (g1.inputsOf w).map (fun x => if x ∈ l then bound else x)) ∧
        (∀ w, g2.KindOf w = g1.KindOf w) ∧
        (∀ w, (g2.GetInstruction w).map (·.can_be_null) =
          (g1.GetInstruction w).map (·.can_be_null)) ∧
        (∀ b xs, g1.instructionsOf b = bound :: xs →
          ∃ ys, g2.instructionsOf b = bound :: ys) ∧
        g2.entry_block = g1.entry_block := by
  induction l with
  | nil =>
    intro g1 _ _ _
    refine ⟨g1, rfl, fun w => by simp, fun w _ => by simp, fun _ => rfl, fun _ => rfl,
      fun b xs h => ⟨xs, h⟩, rfl⟩
  | cons u rest ih =>
    intro g1 hnd hin hne
    obtain ⟨hu, hnd'⟩ := List.nodup_cons.mp hnd
    obtain ⟨ub, hub⟩ := Option.isSome_iff_exists.mp (hin u (List.mem_cons_self _ _))
    have hblock : ∀ w, ((g1.ReplaceWith u bound).RemoveInstruction ub u).BlockOf w =
        if u = w then none else g1.BlockOf w := by
      intro w
      rw [BlockOf_RemoveInstruction, BlockOf_ReplaceWith]
    obtain ⟨g2, e, hB, hI, hK, hN, hF, hE⟩ := ih ((g1.ReplaceWith u bound).RemoveInstruction ub u)
      hnd'
      (by
        intro w hw
        rw [hblock, if_neg (fun e : u = w => hu (by rw [e]; exact hw))]
        exact hin w (List.mem_cons_of_mem _ hw))
      (fun w hw => hne w (List.mem_cons_of_mem _ hw))
    refine ⟨g2, ?_, ?_, ?_, ?_, ?_, ?_, ?_⟩
    · rw [List.foldl_cons]
      simp only [hub]
      exact e
    · intro w
      rw [hB, hblock]
      by_cases hw : w ∈ rest
      · rw [if_pos hw, if_pos (List.mem_cons_of_mem _ hw)]
      · rw [if_neg hw]
        by_cases huw : u = w
        · rw [if_pos huw, if_pos (huw ▸ List.mem_cons_self _ _)]
        · rw [if_neg huw, if_neg]
          intro hm
          rcases List.mem_cons.mp hm with e1 | e1
          · exact huw e1.symm
          · exact hw e1
    · intro w hw
      have hw2 := hw
      rw [hB, hblock] at hw2
      have hwr : w ∉ rest := by
        intro hm
        rw [if_pos hm] at hw2
        cases hw2
      rw [if_neg hwr] at hw2
      have huw : u ≠ w := by
        intro hm
        rw [if_pos hm] at hw2
        cases hw2
      rw [if_neg huw] at hw2
      rw [hI w hw, inputsOf_RemoveInstruction, inputsOf_ReplaceWith g1 u bound w hw2]
      unfold substInput
      rw [List.map_map]
      apply List.map_congr_left
      intro x _
      simp only [Function.comp]
      by_cases hxu : x = u
      · subst hxu
        simp
      · rw [if_neg hxu]
        by_cases hxr : x ∈ rest
        · rw [if_pos hxr, if_pos (List.mem_cons_of_mem _ hxr)]
        · rw [if_neg hxr, if_neg]
          intro hm
          rcases List.mem_cons.mp hm with e1 | e1
          · exact hxu e1
          · exact hxr e1
    · intro w
      rw [hK, KindOf_RemoveInstruction, KindOf_ReplaceWith]
    · intro w
      rw [hN, GetInstruction_RemoveInstruction, GetInstruction_ReplaceWith]
      cases g1.GetInstruction w with
      | none => rfl
      | some i =>
        simp only [Option.map_some']
        split <;> split <;> rfl
    · intro b xs hb
      have hbu : bound ≠ u := fun e1 => hne u (List.mem_cons_self _ _) e1.symm
      by_cases hbb : ub = b
      · apply hF b (xs.filter (fun i => decide (i ≠ u)))
        rw [instructionsOf_RemoveInstruction, instructionsOf_ReplaceWith, hb, if_pos hbb]
        exact List.filter_cons_of_pos (by simpa using hbu)
      · apply hF b xs
        rw [instructionsOf_RemoveInstruction, instructionsOf_ReplaceWith, hb, if_neg hbb]
    · rw [hE]
      rfl

theorem RemovedIn_self (g : HGraph) (u : Nat) : g.RemovedIn g u = false := by
  unfold HGraph.RemovedIn
  cases g.BlockOf u <;> rfl

/-- A block that ends in an If and has at most two successors has no other
successor than the two successors of the If. -/
theorem successors_of_IsNotThrows {g : HGraph} (T : Throwable g) (pred throws nt : Nat)
    (htwo : (g.successorsOf pred).length ≤ 2) (h : g.IsNotThrows pred throws nt) :
    ∀ s ∈ g.successorsOf pred, s = throws ∨ s = nt := by
  obtain ⟨ifs, hl, hk, hs⟩ := h
  obtain ⟨_, hbo, _⟩ := T.ifs pred ifs hl hk
  unfold HGraph.IfTrueSuccessor HGraph.IfFalseSuccessor at hs
  rw [hbo] at hs
  simp only [Option.some_bind] at hs
  unfold HGraph.successorsOf at htwo ⊢
  cases hgb : g.GetBlock pred with
  | none => intro s hs'; cases hs'
  | some b =>
    rw [hgb] at hs htwo
    simp only [Option.some_bind] at hs
    simp only at htwo ⊢
    rcases hbs : b.successors with _ | ⟨x, _ | ⟨y, _ | ⟨z, t⟩⟩⟩
    · intro s hs'; cases hs'
    · rw [hbs] at hs
      rcases hs with hs | hs
      · exact absurd hs.2 (by simp)
      · exact absurd hs.1 (by simp)
    · rw [hbs] at hs
      simp only [List.getElem?_cons_zero, List.getElem?_cons_succ, Option.some.injEq] at hs
      intro s hs'
      simp only [List.mem_cons, List.mem_singleton, List.not_mem_nil, or_false] at hs'
      rcases hs with hs | hs <;> rcases hs' with e | e
      · exact Or.inl (e.trans hs.1)
      · exact Or.inr (e.trans hs.2)
      · exact Or.inr (e.trans hs.2)
      · exact Or.inl (e.trans hs.1)
    · rw [hbs] at htwo
      simp only [List.length_cons] at htwo
      omega

/-- What RemoveNonNullControlDependences does in a graph in which `throws`
has the exit block as its only successor: it returns true exactly when it has
removed an instruction, returns the graph as it is otherwise, and has put one
bound type in the place of the NullChecks it has removed. -/
theorem RemoveNonNullControlDependences_aliases (dom g : HGraph) (pred throws exit : Nat)
    (r : HGraph × Bool) (T : Throwable g)
    (htwo : (g.successorsOf pred).length ≤ 2)
    (hentry : g.entry_block = dom.entry_block)
    (hedges : ∀ b s, s ∈ g.successorsOf b → s ≠ exit → s ∈ dom.successorsOf b)
    (hexit : g.successorsOf exit = [])
    (hclean : ∀ u, g.BlockOf u = some exit → g.KindOf u ≠ some InstructionKind.NullCheck)
    (hthrows : g.successorsOf throws = [exit])
    (h : RemoveNonNullControlDependences dom g pred throws = some r) :
    (r.2 = true ↔ ∃ u, g.RemovedIn r.1 u = true) ∧
    (r.2 = false → r.1 = g) ∧
    (r.2 = true →
      ∃ not_throws obj, NullChecksAliased dom g r.1 pred throws not_throws obj) := by
  have R : ∀ r : HGraph × Bool, (g, false) = r →
      (r.2 = true ↔ ∃ u, g.RemovedIn r.1 u = true) ∧ (r.2 = false → r.1 = g) ∧
      (r.2 = true →
        ∃ not_throws obj, NullChecksAliased dom g r.1 pred throws not_throws obj) := by
    intro r e
    subst e
    refine ⟨⟨fun e => (by cases e), fun ⟨u, hu⟩ => ?_⟩, fun _ => rfl, fun e => (by cases e)⟩
    rw [RemovedIn_self] at hu
    cases hu
  have h0 := h
  unfold RemoveNonNullControlDependences at h
  cases hb : g.GetBlock pred with
  | none => rw [hb] at h; cases h
  | some b =>
    rw [hb] at h
    simp only at h
    cases hl : b.GetLastInstruction with
    | none =>
      rw [hl] at h
      exact R r (Option.some.inj h)
    | some ifs =>
      rw [hl] at h
      simp only at h
      split at h
      · exact R r (Option.some.inj h)
      · rename_i hk
        simp only [Bool.not_eq_true', Bool.not_eq_false] at hk
        cases hp : RemoveNonNullControlDependences.pattern g ifs throws with
        | none => rw [hp] at h; cases h
        | some p =>
          rw [hp] at h
          cases p with
          | none => exact R r (Option.some.inj h)
          | some q =>
            obtain ⟨not_throws, obj⟩ := q
            simp only at h
            cases hu : RemoveNonNullControlDependences.users dom g pred throws obj with
            | nil =>
              rw [hu] at h
              exact R r (Option.some.inj h)
            | cons user users =>
              rw [hu] at h
              simp only at h
              cases not_throws with
              | none => cases h
              | some nt =>
                simp only at h
                cases hf : (g.GetBlock nt).bind (·.GetFirstInstruction) with
                | none => rw [hf] at h; cases h
                | some first =>
                  rw [hf] at h
                  have hmem : ∀ u ∈ user :: users,
                      u ∈ RemoveNonNullControlDependences.users dom g pred throws obj := by
                    rw [hu]
                    exact fun _ hm => hm
                  have hold : ∀ u, u < g.instructions.length →
                      (g.InsertInstructionFirst nt (HBoundType g obj)).1.BlockOf u =
                        g.BlockOf u :=
                    fun u hlt => BlockOf_InsertInstructionFirst_old g nt _ u hlt
                  obtain ⟨g2, e, hB, hI, hK, hN, hF, hE⟩ :=
                    replaceUsers_spec g.instructions.length (user :: users)
                      (g.InsertInstructionFirst nt (HBoundType g obj)).1
                      (by rw [← hu]; exact users_nodup dom g pred throws obj)
                      (by
                        intro u hm
                        obtain ⟨hlt, _, _, ub, hub, _⟩ :=
                          mem_users dom g pred throws obj u (hmem u hm)
                        rw [hold u hlt, hub]
                        rfl)
                      (by
                        intro u hm
                        exact Nat.ne_of_lt
                          (mem_users dom g pred throws obj u (hmem u hm)).1)
                  have hr : (g2, true) = r := by
                    rw [← e]
                    exact Option.some.inj h
                  subst hr
                  have hRem : ∀ u, g.RemovedIn g2 u = true ↔ u ∈ user :: users := by
                    intro u
                    unfold HGraph.RemovedIn
                    rw [Bool.and_eq_true]
                    constructor
                    · intro hx
                      by_contra hn
                      have h2 := hx.2
                      rw [hB, if_neg hn, hold u (lt_of_BlockOf_isSome g u hx.1)] at h2
                      cases hbu : g.BlockOf u with
                      | none => rw [hbu] at hx; cases hx.1
                      | some ub => rw [hbu] at h2; cases h2
                    · intro hm
                      obtain ⟨_, _, _, ub, hub, _⟩ :=
                        mem_users dom g pred throws obj u (hmem u hm)
                      rw [hB, if_pos hm, hub]
                      exact ⟨rfl, rfl⟩
                  have hstep := RemoveNonNullControlDependences_step dom g pred throws g2 true h0
                  have hsurv : g.IsNotThrows pred throws nt := by
                    refine ⟨ifs, ?_, (kindIs_eq_iff g _ ifs).mp hk,
                      pattern_not_throws g ifs throws nt obj hp⟩
                    unfold HGraph.instructionsOf
                    rw [hb]
                    exact hl
                  have hcongr : ∀ a c, g2.Dominates a c = g.Dominates a c :=
                    Dominates_congr g g2 (hE.trans rfl)
                      (fun x => successorsOf_of_shapeOf g g2 x (hstep.shape x))
                  have hnew : (g.InsertInstructionFirst nt (HBoundType g obj)).1.GetInstruction
                      g.instructions.length =
                        some { HBoundType g obj with block := some nt } := by
                    rw [GetInstruction_InsertInstructionFirst, if_pos rfl]
                  have hnl : g.instructions.length ∉ user :: users := fun hm =>
                    Nat.lt_irrefl _ (mem_users dom g pred throws obj _ (hmem _ hm)).1
                  have hown : g2.BlockOf g.instructions.length = some nt := by
                    rw [hB, if_neg hnl]
                    unfold HGraph.BlockOf
                    rw [hnew]
                    rfl
                  have hrep : ∀ u, g.RemovedIn g2 u = true →
                      g.KindOf u = some InstructionKind.NullCheck ∧ obj ∈ g.inputsOf u ∧
                      g2.NumUses u = 0 ∧
                      ∃ ub, g.BlockOf u = some ub ∧ ub ≠ pred ∧ ub ≠ throws ∧
                        dom.Dominates pred ub = true ∧ g.Dominates nt ub = true ∧
                        g2.Dominates nt ub = true := by
                    intro u hx
                    obtain ⟨_, hobj, hkind, ub, hub, h1, h2, hd⟩ :=
                      mem_users dom g pred throws obj u (hmem u ((hRem u).mp hx))
                    have hx2 := hx
                    unfold HGraph.RemovedIn at hx2
                    rw [Bool.and_eq_true] at hx2
                    have hnone : g2.BlockOf u = none := by
                      cases hbu : g2.BlockOf u with
                      | none => rfl
                      | some x => rw [hbu] at hx2; cases hx2.2
                    have h3 : ub ≠ exit := by
                      intro e3
                      rw [e3] at hub
                      exact hclean u hub hkind
                    have hdg : g.Dominates nt ub = true :=
                      Dominates_survivor dom g pred throws nt exit ub hentry hedges hexit
                        hthrows (successors_of_IsNotThrows T pred throws nt htwo hsurv)
                        h1 h2 h3 hd
                    refine ⟨hkind, hobj, ?_, ub, hub, h1, h2, hd, hdg, ?_⟩
                    · exact RemoveNonNullControlDependences_unlinks dom g pred throws
                        (g2, true) h0 u hx2.1 hnone
                    · rw [hcongr]
                      exact hdg
                  refine ⟨⟨fun _ => ⟨user, (hRem user).mpr (List.mem_cons_self _ _)⟩,
                    fun _ => rfl⟩, fun e1 => (by cases e1), fun _ => ⟨nt, obj, ?_⟩⟩
                  refine ⟨hsurv, ?_, GetInstruction_length g, ?_, hown, ?_, ?_, hrep, ?_,
                    hstep.shape, ?_⟩
                  · apply hF nt (g.instructionsOf nt)
                    rw [instructionsOf_InsertInstructionFirst, if_pos]
                    refine ⟨rfl, ?_⟩
                    cases hgn : g.GetBlock nt with
                    | none => rw [hgn] at hf; cases hf
                    | some x => rfl
                  · rw [hK, KindOf_InsertInstructionFirst, if_pos rfl]
                    rfl
                  · rw [hN, hnew]
                    rfl
                  · intro hobj
                    rw [hI _ (by rw [hown]; rfl)]
                    unfold HGraph.inputsOf
                    rw [hnew]
                    have : obj ∉ user :: users := by
                      intro hm
                      rw [(hRem obj).mpr hm] at hobj
                      cases hobj
                    simp only [HBoundType, List.map_cons, List.map_nil, if_neg this]
                  · intro w hw hw2
                    rw [hI w hw2]
                    have : (g.InsertInstructionFirst nt (HBoundType g obj)).1.inputsOf w =
                        g.inputsOf w := by
                      unfold HGraph.inputsOf
                      rw [GetInstruction_InsertInstructionFirst,
                        if_neg (Nat.ne_of_lt (lt_of_BlockOf_isSome g w hw))]
                    rw [this]
                    apply List.map_congr_left
                    intro x _
                    by_cases hx : x ∈ user :: users
                    · rw [if_pos hx, if_pos ((hRem x).mpr hx)]
                    · rw [if_neg hx, if_neg (fun hm => hx ((hRem x).mp hm))]
                  · intro u ub wb hx hub hd
                    obtain ⟨_, _, _, ub2, hub2, _, _, _, hdg, _⟩ := hrep u hx
                    rw [hub] at hub2
                    cases hub2
                    rw [hcongr]
                    exact Dominates_transitive g nt ub wb hdg hd

/-- The visit of a block that meets every condition of lines 272-283 is the
call of RemoveNonNullControlDependences in the graph in which the block has
been redirected to the exit block. -/
theorem visitBlock_detaches (dom : HGraph) (exit B pred succ : Nat)
    (st : SimplifyAlwaysThrowsState)
    (hc : st.graph.ThrowsBeforeGoto exit B succ = true)
    (hphis : st.graph.phisOf B = [])
    (hpred : st.graph.predecessorsOf B = [pred])
    (hd1 : dom.Dominates B pred = false) (hd2 : dom.Dominates pred succ = true) :
    (SimplifyAlwaysThrows.visitBlock dom exit st B).map (·.graph) =
      (RemoveNonNullControlDependences dom (st.graph.ReplaceSuccessor B succ exit)
        pred B).map (·.1) := by
  unfold HGraph.ThrowsBeforeGoto at hc
  simp only [Bool.and_eq_true, Bool.not_eq_true', beq_iff_eq, bne_iff_ne, ne_eq,
    decide_eq_true_eq, List.isEmpty_eq_true] at hc
  obtain ⟨⟨⟨⟨⟨htry, hins⟩, hsucc⟩, hne⟩, hlen⟩, hsphis⟩ := hc
  unfold SimplifyAlwaysThrows.visitBlock
  cases hb : st.graph.GetBlock B with
  | none =>
    unfold HGraph.predecessorsOf at hpred
    rw [hb] at hpred
    cases hpred
  | some b =>
    simp only
    have hi : st.graph.instructionsOf B = b.instructions := by
      unfold HGraph.instructionsOf; rw [hb]
    have hs : b.successors = [succ] := by
      unfold HGraph.successorsOf at hsucc; rw [hb] at hsucc; exact hsucc
    have hp : b.predecessors = [pred] := by
      unfold HGraph.predecessorsOf at hpred; rw [hb] at hpred; exact hpred
    have hph : b.phis = [] := by
      unfold HGraph.phisOf at hphis; rw [hb] at hphis; exact hphis
    rw [HasTryCatchInformation_of_GetBlock _ B b hb] at htry
    rw [if_neg (by rw [htry]; exact Bool.false_ne_true)]
    rw [hi] at hins
    split at hins
    · rename_i last prev rest hrev
      obtain ⟨hl, hpv⟩ := last_two_of_reverse _ _ _ _ hrev
      simp only [Bool.and_eq_true] at hins
      unfold HBasicBlock.GetLastInstruction
      rw [hl]
      simp only
      rw [hpv]
      simp only [hins.1, hins.2, hph, hp, hs, List.isEmpty_nil, List.length_singleton,
        decide_True, Bool.and_self, if_true, List.getElem?_cons_zero]
      rw [if_neg hne, hd1, hd2]
      simp only [Bool.false_eq_true, if_false, Bool.not_true]
      cases hsb : st.graph.GetBlock succ with
      | none =>
        unfold HGraph.predecessorsOf at hlen
        rw [hsb] at hlen
        simp at hlen
      | some sb =>
        simp only
        have h1 : sb.predecessors.length > 1 := by
          unfold HGraph.predecessorsOf at hlen
          rw [hsb] at hlen
          exact hlen
        have h2 : sb.phis = [] := by
          unfold HGraph.phisOf at hsphis
          rw [hsb] at hsphis
          exact hsphis
        simp only [h1, h2, decide_True, List.isEmpty_nil, Bool.and_self, if_true]
        cases hr : RemoveNonNullControlDependences dom
            (st.graph.ReplaceSuccessor B succ exit) pred B with
        | none => rfl
        | some r => rfl
    · cases hins

/-- C33: let SimplifyAlwaysThrows have reached a graph of which every edge
that does not lead to the exit block is an edge of the graph `dom` for which
the dominator tree was computed, and redirect the only edge that leaves the
block `throws` to the exit block.  RemoveNonNullControlDependences then
returns a result for the block `pred` in the redirected graph, and the visit
of `throws` by SimplifyAlwaysThrows yields the graph of that result.  The
result is true exactly when an instruction has been removed, and the graph is
unchanged when it is false.  When it is true, every removed instruction is a
NullCheck on `obj`, without a use left, in a block other than `pred` and
`throws` that `pred` dominates in `dom`; one new bound type that cannot be
null, with `obj` as its input, is the first instruction of the other successor
`not_throws` of `pred` and has taken the place of every removed NullCheck in
the inputs of the instructions that stay; and `not_throws` dominates, in the
redirected graph and in the graph of the result, the block of every removed
NullCheck and every block that this block dominates. -/
theorem RemoveNonNullControlDependences_alias_dominates_uses (dom g : HGraph)
    (pred throws succ exit : Nat)
    (hwf : g.DetachReady dom pred throws succ exit = true) :
    ∃ r, RemoveNonNullControlDependences dom (g.ReplaceSuccessor throws succ exit)
        pred throws = some r ∧
      (r.2 = true ↔ ∃ u, (g.ReplaceSuccessor throws succ exit).RemovedIn r.1 u = true) ∧
      (r.2 = false → r.1 = g.ReplaceSuccessor throws succ exit) ∧
      (r.2 = true → ∃ not_throws obj,
        NullChecksAliased dom (g.ReplaceSuccessor throws succ exit) r.1 pred throws
          not_throws obj) ∧
      (∀ st : SimplifyAlwaysThrowsState, st.graph = g →
        g.ThrowsBeforeGoto exit throws succ = true → g.phisOf throws = [] →
        g.predecessorsOf throws = [pred] → dom.Dominates throws pred = false →
        dom.Dominates pred succ = true →
        (SimplifyAlwaysThrows.visitBlock dom exit st throws).map (·.graph) = some r.1) := by
  have D := DetachReady_spec dom g pred throws succ exit hwf
  obtain ⟨r, hr⟩ := RemoveNonNullControlDependences_total D.ready dom pred throws
    (by rw [GetBlock_isSome_ReplaceSuccessor]; exact D.pred_some)
  have hone : replaceFirst succ exit [succ] = [exit] := by simp [replaceFirst]
  have hsucc : ∀ b, b ≠ throws →
      (g.ReplaceSuccessor throws succ exit).successorsOf b = g.successorsOf b := by
    intro b hb
    rw [successorsOf_ReplaceSuccessor, if_neg hb]
  have hthrows : (g.ReplaceSuccessor throws succ exit).successorsOf throws = [exit] := by
    rw [successorsOf_ReplaceSuccessor, if_pos rfl, D.goto, hone]
  have hne : exit ≠ throws := by
    intro e
    have h1 := D.exit_last
    rw [e, D.goto] at h1
    cases h1
  obtain ⟨c1, c2, c3⟩ := RemoveNonNullControlDependences_aliases dom
    (g.ReplaceSuccessor throws succ exit) pred throws exit r D.ready
    (by
      rw [successorsOf_ReplaceSuccessor]
      split
      · rw [length_replaceFirst]
        exact D.two
      · exact D.two)
    D.entry
    (by
      intro b s hs hse
      by_cases hb : b = throws
      · rw [hb, hthrows] at hs
        exact absurd (List.mem_singleton.mp hs) hse
      · rw [hsucc b hb] at hs
        exact D.edges b s hs hse)
    (by rw [hsucc exit hne]; exact D.exit_last)
    D.exit_clean hthrows hr
  refine ⟨r, hr, c1, c2, c3, ?_⟩
  intro st hst hc hphis hpred hd1 hd2
  subst hst
  rw [visitBlock_detaches dom exit throws pred succ st hc hphis hpred hd1 hd2, hr]
  rfl

theorem RemoveNonNullControlDependences_alias_dominates_uses_witness :
    exampleNullCheckInTry.DetachReady exampleNullCheckInTry 1 2 4 8 = true ∧
    (RemoveNonNullControlDependences exampleNullCheckInTry
        (exampleNullCheckInTry.ReplaceSuccessor 2 4 8) 1 2).map
      (fun r => (r.2, r.1.BlockOf 9, r.1.instructionsOf 3, r.1.inputsOf 10)) =
      some (true, none, [15, 7], [15]) ∧
    (RemoveNonNullControlDependences exampleNullCheckInTry
        (exampleNullCheckInTry.ReplaceSuccessor 2 4 8) 1 2).map
      (fun r => (r.1.KindOf 15, r.1.inputsOf 15, r.1.NumUses 9, r.1.Dominates 3 5)) =
      some (some InstructionKind.BoundType, [0], 0, true) ∧
    (exampleNullCheckInTry.ThrowsBeforeGoto 8 2 4 = true ∧
      exampleNullCheckInTry.phisOf 2 = [] ∧ exampleNullCheckInTry.predecessorsOf 2 = [1] ∧
      exampleNullCheckInTry.Dominates 2 1 = false ∧
      exampleNullCheckInTry.Dominates 1 4 = true) ∧
    ∃ r, RemoveNonNullControlDependences exampleNullCheckInTry
        (exampleNullCheckInTry.ReplaceSuccessor 2 4 8) 1 2 = some r ∧
      (r.2 = true ↔
        ∃ u, (exampleNullCheckInTry.ReplaceSuccessor 2 4 8).RemovedIn r.1 u = true) ∧
      (r.2 = false → r.1 = exampleNullCheckInTry.ReplaceSuccessor 2 4 8) ∧
      (r.2 = true → ∃ not_throws obj,
        NullChecksAliased exampleNullCheckInTry (exampleNullCheckInTry.ReplaceSuccessor 2 4 8)
          r.1 1 2 not_throws obj) ∧
      (∀ st : SimplifyAlwaysThrowsState, st.graph = exampleNullCheckInTry →
        exampleNullCheckInTry.ThrowsBeforeGoto 8 2 4 = true →
        exampleNullCheckInTry.phisOf 2 = [] →
        exampleNullCheckInTry.predecessorsOf 2 = [1] →
        exampleNullCheckInTry.Dominates 2 1 = false →
        exampleNullCheckInTry.Dominates 1 4 = true →
        (SimplifyAlwaysThrows.visitBlock exampleNullCheckInTry 8 st 2).map (·.graph) =
          some r.1) :=
  ⟨by decide, by decide, by decide, by decide,
    RemoveNonNullControlDependences_alias_dominates_uses exampleNullCheckInTry
      exampleNullCheckInTry 1 2 4 8 (by decide)⟩

/-- C16 (amended): for every Compare whose right operand is a NaN constant
and whose left operand is of type float or double, the absorbing simplifier
replaces the Compare by the int constant fixed by its bias: 1 for the
greater-than bias and -1 for the less-than bias.  Every Compare whose left
operand is a NaN constant and whose right operand is not a constant is left as
it is: the simplifier returns the graph unchanged. -/
theorem VisitCompare_replaces_NaN_on_the_right_only (g : HGraph) (inst : Nat) (bias : Bool)
    (hk : g.KindOf inst = some (InstructionKind.Compare bias)) :
    (∀ block_id x nan, g.BlockOf inst = some block_id →
      g.InputAt inst 0 = some x → g.InputAt inst 1 = some nan →
      (g.GetType x).IsFloatingPointType = true → g.kindIs InstructionKind.IsNaN nan = true →
      ∃ g' c, InstructionWithAbsorbingInputSimplifier.Accept g inst = some g' ∧
        g'.KindOf c = some (InstructionKind.IntConstant (if bias = true then 1 else -1)) ∧
        g.Replaced g' inst block_id c) ∧
    (∀ nan x, g.InputAt inst 0 = some nan → g.InputAt inst 1 = some x →
      g.kindIs InstructionKind.IsNaN nan = true → g.IsConstant x = false →
      InstructionWithAbsorbingInputSimplifier.Accept g inst = some g) := by
  refine ⟨?_, ?_⟩
  · intro block_id x nan hb hl hr hfl hnan
    exact VisitCompare_right_NaN_rule g inst block_id x nan bias hk hb hl hr hfl hnan
  · intro nan x hl hr _ hx
    have hcomm : g.kindIs InstructionKind.IsCommutative inst = false := by
      cases bias <;> simp [HGraph.kindIs, hk, InstructionKind.IsCommutative]
    have hcr : g.GetConstantRight inst = none := by
      simp [HGraph.GetConstantRight, HGraph.GetLeft, HGraph.GetRight, hl, hr, hx, hcomm]
    simp only [InstructionWithAbsorbingInputSimplifier.Accept, hk, VisitCompare, hcr]

theorem VisitCompare_replaces_NaN_on_the_right_only_witness :
    (exampleOperation (InstructionKind.Compare false) DataType.kInt32 [0, 1] DataType.kFloat64
      (InstructionKind.DoubleConstant 0x7ff8000000000000)).KindOf 3 =
      some (InstructionKind.Compare false) ∧
    (∃ g' c, InstructionWithAbsorbingInputSimplifier.Accept
        (exampleOperation (InstructionKind.Compare false) DataType.kInt32 [0, 1]
          DataType.kFloat64 (InstructionKind.DoubleConstant 0x7ff8000000000000)) 3 = some g' ∧
      g'.KindOf c = some (InstructionKind.IntConstant (if false = true then 1 else -1)) ∧
      (exampleOperation (InstructionKind.Compare false) DataType.kInt32 [0, 1]
        DataType.kFloat64 (InstructionKind.DoubleConstant 0x7ff8000000000000)).Replaced
        g' 3 1 c) ∧
    (exampleOperation (InstructionKind.Compare true) DataType.kInt32 [1, 0] DataType.kFloat32
      (InstructionKind.FloatConstant 0x7fc00000)).KindOf 3 =
      some (InstructionKind.Compare true) ∧
    (exampleOperation (InstructionKind.Compare true) DataType.kInt32 [1, 0] DataType.kFloat32
      (InstructionKind.FloatConstant 0x7fc00000)).IsConstant 0 = false ∧
    InstructionWithAbsorbingInputSimplifier.Accept
      (exampleOperation (InstructionKind.Compare true) DataType.kInt32 [1, 0] DataType.kFloat32
        (InstructionKind.FloatConstant 0x7fc00000)) 3 =
      some (exampleOperation (InstructionKind.Compare true) DataType.kInt32 [1, 0]
        DataType.kFloat32 (InstructionKind.FloatConstant 0x7fc00000)) :=
  ⟨rfl,
    (VisitCompare_replaces_NaN_on_the_right_only
      (exampleOperation (InstructionKind.Compare false) DataType.kInt32 [0, 1]
        DataType.kFloat64 (InstructionKind.DoubleConstant 0x7ff8000000000000)) 3 false rfl).1
      1 0 1 rfl rfl rfl rfl rfl,
    rfl, rfl,
    (VisitCompare_replaces_NaN_on_the_right_only
      (exampleOperation (InstructionKind.Compare true) DataType.kInt32 [1, 0]
        DataType.kFloat32 (InstructionKind.FloatConstant 0x7fc00000)) 3 true rfl).2
      1 0 rfl rfl rfl rfl⟩

/-! ## RemoveUnneededTries: a try is removed by the loop iff it cannot throw -/

/-- C22 (counterexample): in `exampleNestedTry` the member block 7 of the
inner try holds an instruction that can throw (instruction 8), so
CanPerformTryRemoval is false for the inner try and the loop over the tries
removes the outer try only: block 7 keeps its try-catch information.  Yet
RemoveUnneededTries as a whole removes the inner try as well: the dead-block
removal that follows the loop deletes its entry block 6 and its member block
7, which were reachable through the handler of the outer try only. -/
theorem RemoveUnneededTries_removes_try_that_can_throw :
    RemoveUnneededTries.tries exampleNestedTry =
      some [(1, { blocks_in_try := [2], coalesced_try_entries := [] }),
        (6, { blocks_in_try := [7], coalesced_try_entries := [] })] ∧
    (8 ∈ exampleNestedTry.instructionsOf 7 ∧ exampleNestedTry.CanThrow 8 = true) ∧
    CanPerformTryRemoval exampleNestedTry { blocks_in_try := [7], coalesced_try_entries := [] } =
      false ∧
    CanPerformTryRemoval exampleNestedTry { blocks_in_try := [2], coalesced_try_entries := [] } =
      true ∧
    (iterate RemoveUnneededTries.step
        [(1, { blocks_in_try := [2], coalesced_try_entries := [] }),
          (6, { blocks_in_try := [7], coalesced_try_entries := [] })]
        { graph := exampleNestedTry, removed_tries := 0, any_handler_in_loop := false }).map
      (fun st => (st.removed_tries, st.graph.HasTryCatchInformation 2,
        st.graph.HasTryCatchInformation 7, (st.graph.GetBlock 7).isSome)) =
      some (1, false, true, true) ∧
    (RemoveUnneededTries (exampleAnalysis [0, 1, 2, 3, 5, 6, 7, 8, 9, 4])
        { graph := exampleNestedTry, stats := none }).map
        (fun r => ((r.1.graph.GetBlock 6).isSome, (r.1.graph.GetBlock 7).isSome, r.2)) =
      some (false, false, true) := by
  refine ⟨by decide, by decide, by decide, by decide, by decide, by decide⟩

/-- C22 (amended): CanPerformTryRemoval is true iff no instruction in any
block of the (coalesced) try can throw; consequently the loop of
RemoveUnneededTries over the tries that it has collected and coalesced (lines
708-714) removes a try (its member blocks are left without try-catch
information) iff none of its member blocks contains an instruction that can
throw, and counts the tries it removes; and RemoveUnneededTries, where it
returns, returns true iff the loop has removed a try, which is iff some try has
no member block with an instruction that can throw. -/
theorem RemoveUnneededTries_loop_removes_iff_no_throw (a : GraphAnalysis) (g : HGraph)
    (stats : Option OptimizingCompilerStats) (tries : TryMap)
    (htries : RemoveUnneededTries.tries g = some tries)
    (hwf : g.TriesRemovable tries = true) :
    (∀ info, CanPerformTryRemoval g info = true ↔
      ∀ block ∈ info.blocks_in_try, ∀ i ∈ g.instructionsOf block, g.CanThrow i = false) ∧
    (∃ st, iterate RemoveUnneededTries.step tries
        { graph := g, removed_tries := 0, any_handler_in_loop := false } = some st ∧
      st.removed_tries = (tries.filter (fun e => CanPerformTryRemoval g e.2)).length ∧
      ∀ entry ∈ tries,
        ((∀ M ∈ entry.2.blocks_in_try, st.graph.HasTryCatchInformation M = false) ↔
          ∀ block ∈ entry.2.blocks_in_try, ∀ i ∈ g.instructionsOf block,
            g.CanThrow i = false)) ∧
    (g.has_try_catch = true →
      ∀ r, RemoveUnneededTries a { graph := g, stats := stats } = some r →
        (r.2 = true ↔ ∃ entry ∈ tries, ∀ block ∈ entry.2.blocks_in_try,
          ∀ i ∈ g.instructionsOf block, g.CanThrow i = false)) := by
  obtain ⟨h1, st, hrun, hcount, hiff⟩ := tries_loop_removes_iff_no_throw g tries hwf
  refine ⟨h1, ⟨st, hrun, hcount, hiff⟩, ?_⟩
  intro htc r hr
  have hex : st.removed_tries ≠ 0 ↔ ∃ entry ∈ tries, ∀ block ∈ entry.2.blocks_in_try,
      ∀ i ∈ g.instructionsOf block, g.CanThrow i = false := by
    rw [hcount]
    constructor
    · intro hne
      cases hf : tries.filter (fun e => CanPerformTryRemoval g e.2) with
      | nil => rw [hf] at hne; exact absurd rfl hne
      | cons e rest =>
        have he : e ∈ tries.filter (fun e => CanPerformTryRemoval g e.2) := by
          rw [hf]; exact List.mem_cons_self _ _
        obtain ⟨hm, hc⟩ := List.mem_filter.mp he
        exact ⟨e, hm, (h1 e.2).mp hc⟩
    · intro ⟨e, hm, hno⟩ hzero
      have he : e ∈ tries.filter (fun e => CanPerformTryRemoval g e.2) :=
        List.mem_filter.mpr ⟨hm, (h1 e.2).mpr hno⟩
      rw [List.length_eq_zero.mp hzero] at he
      cases he
  unfold RemoveUnneededTries at hr
  simp only [htc, Bool.not_true, Bool.false_eq_true, if_false, htries, hrun] at hr
  by_cases hz : st.removed_tries ≠ 0
  · rw [if_pos hz] at hr
    cases hrd : RemoveDeadBlocks a
        { graph := if st.removed_tries = tries.length then
            { st.graph with has_try_catch := false } else st.graph, stats := stats } with
    | none => rw [hrd] at hr; cases hr
    | some p =>
      rw [hrd] at hr
      simp only [Option.some.injEq] at hr
      rw [← hr]
      exact ⟨fun _ => hex.mp hz, fun _ => rfl⟩
  · rw [if_neg hz] at hr
    simp only [Option.some.injEq] at hr
    rw [← hr]
    exact ⟨fun e => (by cases e), fun e => absurd (hex.mpr e) hz⟩

theorem RemoveUnneededTries_loop_removes_iff_no_throw_witness :
    exampleCoalescedTry.TriesRemovable exampleCoalescedTries = true ∧
    RemoveUnneededTries.tries exampleCoalescedTry = some exampleCoalescedTries ∧
    exampleCoalescedTry.has_try_catch = true ∧
    (iterate RemoveUnneededTries.step exampleCoalescedTries
        { graph := exampleCoalescedTry, removed_tries := 0,
          any_handler_in_loop := false }).map
      (fun st => (st.removed_tries, st.graph.HasTryCatchInformation 2,
        st.graph.HasTryCatchInformation 4, st.graph.HasTryCatchInformation 8)) =
      some (1, false, true, true) ∧
    (RemoveUnneededTries (exampleAnalysis [0, 1, 2, 3, 4, 5, 7, 8, 9, 6])
      { graph := exampleCoalescedTry, stats := none }).map (fun r => r.2) = some true ∧
    ((∀ info, CanPerformTryRemoval exampleCoalescedTry info = true ↔
      ∀ block ∈ info.blocks_in_try, ∀ i ∈ exampleCoalescedTry.instructionsOf block,
        exampleCoalescedTry.CanThrow i = false) ∧
    (∃ st, iterate RemoveUnneededTries.step exampleCoalescedTries
        { graph := exampleCoalescedTry, removed_tries := 0,
          any_handler_in_loop := false } = some st ∧
      st.removed_tries =
        (exampleCoalescedTries.filter
          (fun e => CanPerformTryRemoval exampleCoalescedTry e.2)).length ∧
      ∀ entry ∈ exampleCoalescedTries,
        ((∀ M ∈ entry.2.blocks_in_try, st.graph.HasTryCatchInformation M = false) ↔
          ∀ block ∈ entry.2.blocks_in_try, ∀ i ∈ exampleCoalescedTry.instructionsOf block,
            exampleCoalescedTry.CanThrow i = false)) ∧
    (exampleCoalescedTry.has_try_catch = true →
      ∀ r, RemoveUnneededTries (exampleAnalysis [0, 1, 2, 3, 4, 5, 7, 8, 9, 6])
          { graph := exampleCoalescedTry, stats := none } = some r →
        (r.2 = true ↔ ∃ entry ∈ exampleCoalescedTries, ∀ block ∈ entry.2.blocks_in_try,
          ∀ i ∈ exampleCoalescedTry.instructionsOf block,
            exampleCoalescedTry.CanThrow i = false))) :=
  ⟨by decide, by decide, by decide, by decide, by decide,
    RemoveUnneededTries_loop_removes_iff_no_throw
      (exampleAnalysis [0, 1, 2, 3, 4, 5, 7, 8, 9, 6]) exampleCoalescedTry none
      exampleCoalescedTries (by decide) (by decide)⟩

/-! ## SimplifyIfs: the body of the loop, whatever the inputs resolve to -/

theorem phisOf_ReplaceSuccessor (g : HGraph) (block existing new_block b : Nat) :
    (g.ReplaceSuccessor block existing new_block).phisOf b = g.phisOf b := by
  unfold HGraph.phisOf
  rw [GetBlock_ReplaceSuccessor]
  cases g.GetBlock b with
  | none => rfl
  | some blk =>
    simp only [Option.map_some']
    by_cases h1 : existing = b <;> by_cases h2 : new_block = b <;> by_cases h3 : block = b <;>
      simp [h1, h2, h3]

theorem phisOf_RemoveInputAt (g : HGraph) (phi index b : Nat) :
    (g.RemoveInputAt phi index).phisOf b = g.phisOf b := rfl

/-- The walk of SimplifyIfs leaves the phi lists of the blocks alone. -/
theorem redirect_phisOf (cev : ConditionEvaluator) (block phi first : Nat) (a l : Bool) :
    ∀ (fuel i : Nat) (st st' : SimplifyIfsState),
      SimplifyIfs.redirect cev block phi first a l fuel i st = some st' →
      ∀ b, st'.graph.phisOf b = st.graph.phisOf b := by
  intro fuel
  induction fuel with
  | zero =>
    intro i st st' h b
    rw [SimplifyIfs.redirect] at h
    split at h
    · cases h
    · cases h; rfl
  | succ fuel ih =>
    intro i st st' h b
    rw [SimplifyIfs.redirect] at h
    split at h
    · cases hin : st.graph.InputAt phi i with
      | none => rw [hin] at h; cases h
      | some input =>
        rw [hin] at h
        simp only at h
        cases hv : SimplifyIfs.valueToCheck cev st.graph first a l input with
        | none => rw [hv] at h; cases h
        | some r =>
          obtain ⟨g1, v⟩ := r
          have hext := valueToCheck_Extends cev st.graph first a l input g1 v hv
          rw [hv] at h
          cases v with
          | none =>
            simp only at h
            rw [ih _ _ _ h b]
            exact phisOf_of_extends hext b
          | some value =>
            simp only at h
            cases hb : g1.GetBlock block with
            | none => rw [hb] at h; cases h
            | some blk =>
              rw [hb] at h
              simp only at h
              split at h
              · rename_i pred target _ _
                split at h
                · cases h
                  show ((g1.ReplaceSuccessor pred block target).RemoveInputAt phi i).phisOf b = _
                  rw [phisOf_RemoveInputAt, phisOf_ReplaceSuccessor]
                  exact phisOf_of_extends hext b
                · rw [ih _ _ _ h b]
                  show ((g1.ReplaceSuccessor pred block target).RemoveInputAt phi i).phisOf b = _
                  rw [phisOf_RemoveInputAt, phisOf_ReplaceSuccessor]
                  exact phisOf_of_extends hext b
              · cases h
    · cases h; rfl

/-- When every slot resolves and there are two or more, the walk keeps the
last slot and drops every other one. -/
theorem walk_of_resolved {α : Type} (resolve : α → Option Bool) (l : List α)
    (h : ∀ s ∈ l, (resolve s).isSome = true) (hlen : 2 ≤ l.length) :
    SimplifyIfs.walk resolve 0 l = l.getLast?.toList ∧
    SimplifyIfs.walkRedirected resolve 0 l =
      l.dropLast.filterMap (fun s => (resolve s).map (fun v => (s, v))) := by
  induction l with
  | nil => simp at hlen
  | cons s rest ih =>
    obtain ⟨v, hv⟩ := Option.isSome_iff_exists.mp (h s (List.mem_cons_self _ _))
    unfold SimplifyIfs.walk SimplifyIfs.walkRedirected
    simp only [hv, Nat.zero_add]
    cases rest with
    | nil => simp at hlen
    | cons y t =>
      cases t with
      | nil => simp [hv]
      | cons z t' =>
        have hne : ¬ (y :: z :: t').length = 1 := by simp
        rw [if_neg hne, if_neg hne]
        obtain ⟨h1, h2⟩ := ih (fun x hx => h x (List.mem_cons_of_mem _ hx)) (by simp)
        rw [h1, h2]
        refine ⟨by simp [List.getLast?_cons_cons], ?_⟩
        simp [List.filterMap_cons, hv]

/-- The walk from the start keeps a slot when a slot does not resolve and
when there are two or more slots. -/
theorem walk_ne_nil {α : Type} (resolve : α → Option Bool) (l : List α)
    (h : (∃ s ∈ l, resolve s = none) ∨ 2 ≤ l.length) :
    SimplifyIfs.walk resolve 0 l ≠ [] := by
  rw [walk_closed_form]
  by_cases hex : ∃ s ∈ l, resolve s = none
  · rw [if_pos hex]
    obtain ⟨s, hs, hn⟩ := hex
    intro e
    have : s ∈ l.filter (fun s => (resolve s).isNone) :=
      List.mem_filter.mpr ⟨hs, by rw [hn]; rfl⟩
    rw [e] at this
    cases this
  · rw [if_neg hex]
    rcases h with h | h
    · exact absurd h hex
    · rw [if_pos h]
      cases l with
      | nil => simp at h
      | cons x t =>
        rw [List.getLast?_eq_getLast _ (by simp)]
        simp

/-- Lines 402-414 of SimplifyIfs on a block that is left with one
predecessor: the phi leaves the block and has no use left, and its user, if it
stays in its block, has the input of the phi in its place. -/
theorem removePhi_single (ev : StaticEvaluator) (g : HGraph) (block phi first : Nat)
    (c : Bool) (input : Nat)
    (hbs : (g.GetBlock block).isSome = true)
    (hone : (g.predecessorsOf block).length = 1)
    (hin : g.InputAt phi 0 = some input) (hne : input ≠ phi) (hfp : first ≠ phi)
    (hphiB : (g.BlockOf phi).isSome = true)
    (hcond : c = true → g.kindIs InstructionKind.IsCondition first = true) :
    ∃ g2, SimplifyIfs.removePhi ev g block phi first c = some g2 ∧
      g2.BlockOf phi = none ∧ g2.NumUses phi = 0 ∧
      g2.phisOf block = (g.phisOf block).filter (fun i => i ≠ phi) ∧
      ((g2.BlockOf first).isSome = true →
        g2.inputsOf first = substInput phi input (g.inputsOf first)) := by
  obtain ⟨g2, hg2, _, _⟩ := removePhi_edges ev g block phi first c hbs
    (fun _ => by rw [hin]; rfl)
  have hU := removePhi_unlinks ev g block phi first c g2
    (by rw [hin]; intro e; exact hne (Option.some.inj e)) hcond hg2
  have hg2' := hg2
  unfold SimplifyIfs.removePhi at hg2
  cases hblk : g.GetBlock block with
  | none => rw [hblk] at hbs; cases hbs
  | some b =>
    have hp : g.predecessorsOf block = b.predecessors := predecessorsOf_eq g block b hblk
    rw [hp] at hone
    rw [hblk] at hg2
    simp only [hone, if_true, hin] at hg2
    have hB1 : ((g.ReplaceWith phi input).RemovePhi block phi).BlockOf phi = none := by
      rw [BlockOf_RemovePhi, if_pos rfl]
    have hP1 : ((g.ReplaceWith phi input).RemovePhi block phi).phisOf block =
        (g.phisOf block).filter (fun i => i ≠ phi) := by
      unfold HGraph.phisOf
      rw [GetBlock_RemovePhi, GetBlock_ReplaceWith, hblk]
      simp
    have hI1 : (((g.ReplaceWith phi input).RemovePhi block phi).BlockOf first).isSome = true →
        ((g.ReplaceWith phi input).RemovePhi block phi).inputsOf first =
          substInput phi input (g.inputsOf first) := by
      intro hb
      rw [BlockOf_RemovePhi, if_neg (fun e => hfp e.symm), BlockOf_ReplaceWith] at hb
      rw [inputsOf_RemovePhi, inputsOf_ReplaceWith g phi input first hb]
    have hphi1 : (((g.ReplaceWith phi input).RemovePhi block phi).GetInstruction phi).isSome =
        true := by
      rw [GetInstruction_RemovePhi, GetInstruction_ReplaceWith]
      have := isSome_of_BlockOf_isSome g phi hphiB
      cases hgi : g.GetInstruction phi with
      | none => rw [hgi] at this; cases this
      | some _ => rfl
    have hfin : ∀ g2 : HGraph, g2 = (g.ReplaceWith phi input).RemovePhi block phi →
        g2.BlockOf phi = none ∧
        g2.phisOf block = (g.phisOf block).filter (fun i => i ≠ phi) ∧
        ((g2.BlockOf first).isSome = true →
          g2.inputsOf first = substInput phi input (g.inputsOf first)) := by
      intro g2 e
      subst e
      exact ⟨hB1, hP1, hI1⟩
    refine ⟨g2, hg2', ?_⟩
    have key : g2.BlockOf phi = none ∧
        g2.phisOf block = (g.phisOf block).filter (fun i => i ≠ phi) ∧
        ((g2.BlockOf first).isSome = true →
          g2.inputsOf first = substInput phi input (g.inputsOf first)) := by
      cases c with
      | false =>
        simp only [Bool.false_eq_true, if_false, Option.some.injEq] at hg2
        exact hfin g2 hg2.symm
      | true =>
        simp only [if_true] at hg2
        cases hev : ((g.ReplaceWith phi input).RemovePhi block phi).TryStaticEvaluation ev
            first with
        | none =>
          rw [hev] at hg2
          simp only [Option.some.injEq] at hg2
          exact hfin g2 hg2.symm
        | some r =>
          obtain ⟨g3, result⟩ := r
          rw [hev] at hg2
          simp only [Option.some.injEq] at hg2
          have hext : Extends ((g.ReplaceWith phi input).RemovePhi block phi) g3 := by
            unfold HGraph.TryStaticEvaluation at hev
            split at hev
            · cases hev
            · rename_i cv _
              simp only [Option.some.injEq] at hev
              have := Extends_GetConstantOfKind
                ((g.ReplaceWith phi input).RemovePhi block phi) cv.kind cv.type
              rw [hev] at this
              exact this
          rw [← hg2]
          refine ⟨?_, ?_, ?_⟩
          · rw [BlockOf_RemoveInstruction, if_neg hfp, BlockOf_ReplaceWith]
            obtain ⟨i, hi⟩ := Option.isSome_iff_exists.mp hphi1
            have h3 := hext.inst phi i hi
            unfold HGraph.BlockOf at hB1 ⊢
            rw [hi] at hB1
            rw [h3]
            exact hB1
          · have h1 := phis_of_shapeOf _ _ block
              ((shapeOf_RemoveInstruction (g3.ReplaceWith first result) block first block).trans
                (shapeOf_ReplaceWith g3 first result block))
            have h2 : ((g3.ReplaceWith first result).RemoveInstruction block first).phisOf block =
                g3.phisOf block := by
              unfold HGraph.phisOf
              cases ha : ((g3.ReplaceWith first result).RemoveInstruction block first).GetBlock
                  block <;> cases hb3 : g3.GetBlock block <;>
                rw [ha, hb3] at h1 <;> simp at h1 ⊢
              exact h1
            rw [h2, phisOf_of_extends hext block, hP1]
          · intro hb
            rw [BlockOf_RemoveInstruction, if_pos rfl] at hb
            cases hb
    refine ⟨key.1, ?_, key.2.1, key.2.2⟩
    exact hU phi hphiB key.1

theorem mem_predecessorsOf_ReplaceSuccessor_other (g : HGraph)
    (block existing new_block x p : Nat) (hx : x ≠ existing)
    (h : p ∈ g.predecessorsOf x) :
    p ∈ (g.ReplaceSuccessor block existing new_block).predecessorsOf x := by
  unfold HGraph.predecessorsOf at h ⊢
  rw [GetBlock_ReplaceSuccessor]
  cases hb : g.GetBlock x with
  | none => rw [hb] at h; cases h
  | some blk =>
    rw [hb] at h
    simp only [Option.map_some']
    by_cases h2 : new_block = x <;> by_cases h3 : block = x <;>
      simp only [Ne.symm hx, h2, h3, if_true, if_false, List.mem_append] <;>
      first
      | exact h
      | exact Or.inl h

/-- The walk of SimplifyIfs takes no predecessor from a block other than the
block it visits. -/
theorem redirect_predecessors_other (cev : ConditionEvaluator) (block phi first : Nat)
    (a l : Bool) :
    ∀ (fuel i : Nat) (st st' : SimplifyIfsState),
      SimplifyIfs.redirect cev block phi first a l fuel i st = some st' →
      ∀ x, x ≠ block → ∀ p ∈ st.graph.predecessorsOf x, p ∈ st'.graph.predecessorsOf x := by
  intro fuel
  induction fuel with
  | zero =>
    intro i st st' h x _ p hp
    rw [SimplifyIfs.redirect] at h
    split at h
    · cases h
    · cases h; exact hp
  | succ fuel ih =>
    intro i st st' h x hx p hp
    rw [SimplifyIfs.redirect] at h
    split at h
    · cases hin : st.graph.InputAt phi i with
      | none => rw [hin] at h; cases h
      | some input =>
        rw [hin] at h
        simp only at h
        cases hv : SimplifyIfs.valueToCheck cev st.graph first a l input with
        | none => rw [hv] at h; cases h
        | some r =>
          obtain ⟨g1, v⟩ := r
          have hext := valueToCheck_Extends cev st.graph first a l input g1 v hv
          have hp1 : p ∈ g1.predecessorsOf x := by rw [hext.predecessors x]; exact hp
          rw [hv] at h
          cases v with
          | none =>
            simp only at h
            exact ih _ _ _ h x hx p hp1
          | some value =>
            simp only at h
            cases hb : g1.GetBlock block with
            | none => rw [hb] at h; cases h
            | some blk =>
              rw [hb] at h
              simp only at h
              split at h
              · rename_i pred target _ _
                have hp2 : p ∈ ((g1.ReplaceSuccessor pred block target).RemoveInputAt phi
                    i).predecessorsOf x :=
                  mem_predecessorsOf_ReplaceSuccessor_other g1 pred block target x p hx hp1
                split at h
                · cases h
                  exact hp2
                · exact ih _ _ _ h x hx p hp2
              · cases h
    · cases h; exact hp

/-- The body of the loop of SimplifyIfs for a block that, after MaybeAddPhi,
consists of a single phi and an If on that phi (or on a single condition over
that phi): it returns; the block is left with the predecessor edges that the
walk keeps, and the predecessor of every slot that the walk drops has its edge
redirected.  When the walk leaves not exactly one edge, the phi stays, with the
inputs of the edges left; when it leaves exactly one, the phi leaves the block
and has no use left, and its user, if it stays in its block, has the input of
that edge in its place.  No other block loses a predecessor. -/
theorem visitBlock_walk (ev : StaticEvaluator) (cev : ConditionEvaluator)
    (st : SimplifyIfsState) (dce : HDeadCodeElimination) (block phi last first t f : Nat)
    (b0 b : HBasicBlock) (slots : List (Nat × Nat)) (a l : Bool)
    (hb0 : st.graph.GetBlock block = some b0)
    (hcatch : b0.is_catch_block = false)
    (hheader : b0.loop_information ≠ some block)
    (hlast : b0.GetLastInstruction = some last)
    (hif : st.graph.kindIs (fun k => k = InstructionKind.If) last = true)
    (hmaybe : MaybeAddPhi { graph := st.graph, stats := st.stats } block = some dce)
    (hb : dce.graph.GetBlock block = some b)
    (hphis : b.phis = [phi])
    (hfirst : b.GetFirstInstruction = some first)
    (huse : dce.graph.HasOnlyOneNonEnvironmentUse phi = true)
    (ha : a = (decide (last = first) && (dce.graph.InputAt last 0 == some phi)))
    (hl : l = (dce.graph.InputAt first 0 == some phi))
    (hshape : a = true ∨
      (dce.graph.kindIs InstructionKind.IsCondition first = true ∧
        HasInput dce.graph first phi = true ∧ b.instructions[1]? = some last ∧
        dce.graph.InputAt last 0 = some first ∧
        dce.graph.HasOnlyOneNonEnvironmentUse first = true))
    (hne : first ≠ phi)
    (hdef : dce.graph.InputsDefined = true)
    (ht : b.successors[0]? = some t) (hf : b.successors[1]? = some f)
    (htb : t ≠ block) (hfb : f ≠ block)
    (hinputs : dce.graph.inputsOf phi = slots.map Prod.fst)
    (hpreds : b.predecessors = slots.map Prod.snd)
    (hnodup : b.predecessors.Nodup) (hself : block ∉ b.predecessors)
    (hres : ∀ s ∈ slots,
      (SimplifyIfs.resolution cev dce.graph first a l s.1).isSome = true) :
    ∃ st', SimplifyIfs.visitBlock ev cev st block = some st' ∧
      st'.graph.predecessorsOf block =
        (SimplifyIfs.walk
          (fun s : Nat × Nat => (SimplifyIfs.resolution cev dce.graph first a l s.1).join)
          0 slots).map Prod.snd ∧
      (∀ p, st'.graph.successorsOf p =
        SimplifyIfs.redirectedSuccessors block t f
          (SimplifyIfs.walkRedirected
            (fun s : Nat × Nat => (SimplifyIfs.resolution cev dce.graph first a l s.1).join)
            0 slots) p (dce.graph.successorsOf p)) ∧
      ((SimplifyIfs.walk
          (fun s : Nat × Nat => (SimplifyIfs.resolution cev dce.graph first a l s.1).join)
          0 slots).length ≠ 1 →
        st'.graph.phisOf block = [phi] ∧
        st'.graph.inputsOf phi =
          (SimplifyIfs.walk
            (fun s : Nat × Nat => (SimplifyIfs.resolution cev dce.graph first a l s.1).join)
            0 slots).map Prod.fst) ∧
      (∀ s, SimplifyIfs.walk
          (fun s : Nat × Nat => (SimplifyIfs.resolution cev dce.graph first a l s.1).join)
          0 slots = [s] →
        s.1 ≠ phi → (dce.graph.BlockOf phi).isSome = true →
        st'.graph.phisOf block = [] ∧ st'.graph.BlockOf phi = none ∧
        st'.graph.NumUses phi = 0 ∧
        ((st'.graph.BlockOf first).isSome = true →
          st'.graph.inputsOf first = substInput phi s.1 (dce.graph.inputsOf first))) ∧
      (∀ x, x ≠ block → ∀ p ∈ dce.graph.predecessorsOf x, p ∈ st'.graph.predecessorsOf x) := by
  have hfirstI : (dce.graph.GetInstruction first).isSome = true := by
    rcases hshape with h | h
    · rw [ha] at h
      simp only [Bool.and_eq_true, decide_eq_true_eq, beq_iff_eq] at h
      rw [← h.1]
      have h2 := h.2
      unfold HGraph.InputAt at h2
      cases hgi : dce.graph.GetInstruction last with
      | none => rw [hgi] at h2; cases h2
      | some _ => rfl
    · exact isSome_of_kindIs _ _ _ h.1
  have hor : (a || !a && dce.graph.kindIs InstructionKind.IsCondition first &&
        HasInput dce.graph first phi && (b.instructions[1]? == some last) &&
        (dce.graph.InputAt last 0 == some first) &&
        dce.graph.HasOnlyOneNonEnvironmentUse first) = true := by
    rcases hshape with h | h
    · rw [h]; rfl
    · cases a
      · simp [h.1, h.2.1, h.2.2.1, h.2.2.2.1, h.2.2.2.2]
      · rfl
  have hsucc0 := successorsOf_eq dce.graph block b hb
  have hpred0 := predecessorsOf_eq dce.graph block b hb
  have hphis0 : dce.graph.phisOf block = [phi] := by
    unfold HGraph.phisOf
    rw [hb]
    exact hphis
  -- the walk
  obtain ⟨st1, hrun, hst1, hin1, hpreds1, _, hsuccs1⟩ :=
    redirect_spec cev dce.graph block phi first a l t f hdef hfirstI hne
      (by rw [hsucc0]; exact ht) (by rw [hsucc0]; exact hf) htb hfb
      slots [] ⟨dce.graph, dce.stats, st.simplified_one_or_more_ifs,
        st.rerun_dominance_and_loop_analysis⟩ slots.length (Nat.le_refl _)
      (WalkStable.walk_refl _ _ _)
      (by simpa using hinputs) (by rw [hpred0]; simpa using hpreds)
      (by rw [List.nil_append, ← hpreds]; exact hnodup)
      (by rw [List.nil_append, ← hpreds]; exact hself)
      hres
      (fun s hs => InputsDefined_isSome dce.graph hdef phi s.1
        (by rw [hinputs]; exact List.mem_map_of_mem _ hs))
  simp only [List.length_nil, List.nil_append] at hrun hin1 hpreds1 hsuccs1
  have hphis1 : st1.graph.phisOf block = [phi] := by
    rw [redirect_phisOf cev block phi first a l _ _ _ _ hrun block]
    exact hphis0
  -- lines 402-414
  obtain ⟨g2, hg2, hedges, hsame⟩ := removePhi_edges ev st1.graph block phi first
    (!(decide (last = first) && (dce.graph.InputAt last 0 == some phi)) &&
        dce.graph.kindIs InstructionKind.IsCondition first &&
        HasInput dce.graph first phi && (b.instructions[1]? == some last) &&
        (dce.graph.InputAt last 0 == some first) &&
        dce.graph.HasOnlyOneNonEnvironmentUse first)
    (by rw [hst1.is_some, hb]; rfl)
    (by
      intro h1
      rw [InputAt_eq_inputsOf, hin1]
      rw [hpreds1, List.length_map] at h1
      cases hk : SimplifyIfs.walk
          (fun s : Nat × Nat => (SimplifyIfs.resolution cev dce.graph first a l s.1).join)
          0 slots with
      | nil => rw [hk] at h1; cases h1
      | cons y _ => simp)
  have hlen : (dce.graph.inputsOf phi).length = slots.length := by rw [hinputs]; simp
  refine ⟨⟨g2, if st1.simplified_one_or_more_ifs then
      MaybeRecordStat st1.stats MethodCompilationStat.kSimplifyIf 1 else st1.stats,
    st1.simplified_one_or_more_ifs, st1.rerun_dominance_and_loop_analysis⟩, ?_, ?_, ?_, ?_, ?_,
    ?_⟩
  · unfold SimplifyIfs.visitBlock
    simp only [hb0, hcatch, hlast, hif, hheader, hmaybe, hb, hphis, huse, hfirst]
    rw [← ha] at hg2
    simp only [hlen, ← ha, ← hl, hrun, Bool.not_true, Bool.false_eq_true, if_false,
      if_true, hg2]
    rw [if_pos hor]
  · show g2.predecessorsOf block = _
    rw [(hedges block).1, hpreds1]
  · intro p
    show g2.successorsOf p = _
    rw [(hedges p).2, hsuccs1 p]
  · intro hlen1
    show g2.phisOf block = [phi] ∧ g2.inputsOf phi = _
    rw [hsame (by rw [hpreds1]; simpa using hlen1)]
    exact ⟨hphis1, hin1⟩
  · intro s hs hsphi hphiB
    show g2.phisOf block = [] ∧ g2.BlockOf phi = none ∧ g2.NumUses phi = 0 ∧
      ((g2.BlockOf first).isSome = true →
        g2.inputsOf first = substInput phi s.1 (dce.graph.inputsOf first))
    rw [hs] at hin1 hpreds1
    have hphiI := isSome_of_BlockOf_isSome dce.graph phi hphiB
    obtain ⟨iphi, hiphi⟩ := Option.isSome_iff_exists.mp hphiI
    obtain ⟨iphi1, hiphi1, _, _, hblk1, _⟩ := hst1.inst phi iphi hiphi
    obtain ⟨ifirst, hifirst⟩ := Option.isSome_iff_exists.mp hfirstI
    obtain ⟨ifirst1, hifirst1, _, _, _, hin1f⟩ := hst1.inst first ifirst hifirst
    obtain ⟨g2', hg2', hB, hN, hP, hI⟩ := removePhi_single ev st1.graph block phi first
      (!(decide (last = first) && (dce.graph.InputAt last 0 == some phi)) &&
        dce.graph.kindIs InstructionKind.IsCondition first &&
        HasInput dce.graph first phi && (b.instructions[1]? == some last) &&
        (dce.graph.InputAt last 0 == some first) &&
        dce.graph.HasOnlyOneNonEnvironmentUse first) s.1
      (by rw [hst1.is_some, hb]; rfl)
      (by rw [hpreds1]; rfl)
      (by rw [InputAt_eq_inputsOf, hin1]; rfl)
      hsphi hne
      (by
        unfold HGraph.BlockOf at hphiB ⊢
        rw [hiphi] at hphiB
        rw [hiphi1]
        simp only [Option.some_bind] at hphiB ⊢
        rw [hblk1]
        exact hphiB)
      (by
        intro hc
        simp only [Bool.and_eq_true] at hc
        rw [kindIs_of_KindOf_eq dce.graph st1.graph _ first
          (hst1.walk_KindOf_eq first hfirstI)]
        exact hc.1.1.1.1.2)
    rw [hg2] at hg2'
    cases hg2'
    refine ⟨?_, hB, hN, ?_⟩
    · rw [hP, hphis1]
      simp
    · intro hbf
      rw [hI hbf]
      unfold HGraph.inputsOf
      rw [hifirst, hifirst1]
      simp only
      rw [hin1f hne]
  · intro x hx p hp
    show p ∈ g2.predecessorsOf x
    rw [(hedges x).1]
    exact redirect_predecessors_other cev block phi first a l _ _ _ _ hrun x hx p hp

/-- The successors of the predecessor of a dropped slot, when the dropped
slots are the resolving slots of a list of slots with distinct
predecessors. -/
theorem redirectedSuccessors_of_dropped (block t f : Nat) (R : Nat × Nat → Option Bool)
    (L : List (Nat × Nat)) (hnd : (L.map Prod.snd).Nodup) (s : Nat × Nat) (hs : s ∈ L)
    (v : Bool) (hv : R s = some v) (succs : List Nat) :
    SimplifyIfs.redirectedSuccessors block t f
      (L.filterMap (fun s => (R s).map (fun v => (s, v)))) s.2 succs =
      replaceFirst block (if v then t else f) succs := by
  unfold SimplifyIfs.redirectedSuccessors
  cases hfind : (L.filterMap (fun s : Nat × Nat => (R s).map (fun v => (s, v)))).find?
      (fun r => r.1.2 == s.2) with
  | none =>
    exfalso
    rw [List.find?_eq_none] at hfind
    apply hfind (s, v)
    · rw [List.mem_filterMap]
      exact ⟨s, hs, by simp [hv]⟩
    · simp
  | some r =>
    have hr := List.mem_of_find?_eq_some hfind
    have hr2 := List.find?_some hfind
    rw [List.mem_filterMap] at hr
    obtain ⟨s1, hs1, hs1r⟩ := hr
    have hs1eq : s1 = s := by
      apply List.inj_on_of_nodup_map hnd hs1 hs
      cases hj : R s1 with
      | none => rw [hj] at hs1r; cases hs1r
      | some w =>
        rw [hj] at hs1r
        simp only [Option.map_some', Option.some.injEq] at hs1r
        rw [← hs1r] at hr2
        simpa using hr2
    have hrv : (s, v) = r := by
      rw [hs1eq, hv] at hs1r
      exact Option.some.inj hs1r
    rw [← hrv]

/-- A block that is the predecessor of no dropped slot keeps its successors. -/
theorem redirectedSuccessors_of_kept (block t f : Nat) (R : Nat × Nat → Option Bool)
    (L : List (Nat × Nat)) (p : Nat) (hp : ∀ s ∈ L, s.2 = p → R s = none)
    (succs : List Nat) :
    SimplifyIfs.redirectedSuccessors block t f
      (L.filterMap (fun s => (R s).map (fun v => (s, v)))) p succs = succs := by
  unfold SimplifyIfs.redirectedSuccessors
  have hnone : (L.filterMap (fun s : Nat × Nat => (R s).map (fun v => (s, v)))).find?
      (fun r => r.1.2 == p) = none := by
    rw [List.find?_eq_none]
    intro r hr hrp
    rw [List.mem_filterMap] at hr
    obtain ⟨s1, hs1, hs1r⟩ := hr
    cases hj : R s1 with
    | none => rw [hj] at hs1r; cases hs1r
    | some w =>
      rw [hj] at hs1r
      simp only [Option.map_some', Option.some.injEq] at hs1r
      rw [← hs1r] at hrp
      have := hp s1 hs1 (by simpa using hrp)
      rw [this] at hj
      cases hj
  rw [hnone]

theorem getLast?_not_mem_dropLast {α : Type} (l : List α) (x : α) (hnd : l.Nodup)
    (h : l.getLast? = some x) : x ∉ l.dropLast := by
  have hl : l = l.dropLast ++ [x] := by
    rw [List.getLast?_eq_some_iff] at h
    obtain ⟨ys, hys⟩ := h
    rw [hys, List.dropLast_concat]
  rw [hl] at hnd
  intro hm
  exact (List.nodup_append.mp hnd).2.2 hm (List.mem_singleton_self x)

/-- C19 (amended): for a non-catch, non-loop-header block that consists of a
single phi and an If on that phi (or on a single condition over that phi),
where the phi and the condition have no other use, the body of the loop of
SimplifyIfs returns.  When at least one input of the phi does not resolve,
every predecessor whose phi input resolves to true has its edge to the block
redirected to the true successor of the If, every predecessor whose input
resolves to false to the false successor; the other blocks keep their
successors; the block is left with the predecessor edges whose input did not
resolve, and, when more than one edge is left, the phi with their inputs.  When
every input resolves and the phi has two or more inputs, the walk stops with
the last input alone: the last predecessor keeps its edge to the block and is
its only predecessor left, every predecessor before it is redirected as its
input resolved, and the other blocks keep their successors.  The slots pair
each input of the phi with the predecessor of its edge. -/
theorem SimplifyIfs_redirects_resolving_predecessors_or_keeps_last (ev : StaticEvaluator)
    (cev : ConditionEvaluator)
    (st : SimplifyIfsState) (block phi last first t f : Nat) (b : HBasicBlock)
    (slots : List (Nat × Nat)) (a l : Bool)
    (hb : st.graph.GetBlock block = some b)
    (hcatch : b.is_catch_block = false)
    (hheader : b.loop_information ≠ some block)
    (hphis : b.phis = [phi])
    (hlast : b.GetLastInstruction = some last)
    (hif : st.graph.kindIs (fun k => k = InstructionKind.If) last = true)
    (hfirst : b.GetFirstInstruction = some first)
    (huse : st.graph.HasOnlyOneNonEnvironmentUse phi = true)
    (ha : a = (decide (last = first) && (st.graph.InputAt last 0 == some phi)))
    (hl : l = (st.graph.InputAt first 0 == some phi))
    (hshape : a = true ∨
      (st.graph.kindIs InstructionKind.IsCondition first = true ∧
        HasInput st.graph first phi = true ∧ b.instructions[1]? = some last ∧
        st.graph.InputAt last 0 = some first ∧
        st.graph.HasOnlyOneNonEnvironmentUse first = true))
    (hne : first ≠ phi)
    (hdef : st.graph.InputsDefined = true)
    (ht : b.successors[0]? = some t) (hf : b.successors[1]? = some f)
    (htb : t ≠ block) (hfb : f ≠ block)
    (hinputs : st.graph.inputsOf phi = slots.map Prod.fst)
    (hpreds : b.predecessors = slots.map Prod.snd)
    (hnodup : b.predecessors.Nodup) (hself : block ∉ b.predecessors)
    (hres : ∀ s ∈ slots, (SimplifyIfs.resolution cev st.graph first a l s.1).isSome = true) :
    ∃ st', SimplifyIfs.visitBlock ev cev st block = some st' ∧
      ((∃ s ∈ slots, SimplifyIfs.resolution cev st.graph first a l s.1 = some none) →
        (∀ s ∈ slots, ∀ v,
          SimplifyIfs.resolution cev st.graph first a l s.1 = some (some v) →
          st'.graph.successorsOf s.2 =
            replaceFirst block (if v then t else f) (st.graph.successorsOf s.2)) ∧
        (∀ p, (∀ s ∈ slots, s.2 = p →
            SimplifyIfs.resolution cev st.graph first a l s.1 = some none) →
          st'.graph.successorsOf p = st.graph.successorsOf p) ∧
        st'.graph.predecessorsOf block =
          (slots.filter (fun s =>
            decide (SimplifyIfs.resolution cev st.graph first a l s.1 = some none))).map
            Prod.snd ∧
        ((slots.filter (fun s =>
            decide (SimplifyIfs.resolution cev st.graph first a l s.1 = some none))).length
            ≠ 1 →
          st'.graph.inputsOf phi =
            (slots.filter (fun s =>
              decide (SimplifyIfs.resolution cev st.graph first a l s.1 = some none))).map
              Prod.fst)) ∧
      ((∀ s ∈ slots, SimplifyIfs.resolution cev st.graph first a l s.1 ≠ some none) →
        2 ≤ slots.length →
        ∃ kept, slots.getLast? = some kept ∧
          st'.graph.predecessorsOf block = [kept.2] ∧
          st'.graph.successorsOf kept.2 = st.graph.successorsOf kept.2 ∧
          (∀ s ∈ slots.dropLast, ∀ v,
            SimplifyIfs.resolution cev st.graph first a l s.1 = some (some v) →
            st'.graph.successorsOf s.2 =
              replaceFirst block (if v then t else f) (st.graph.successorsOf s.2)) ∧
          (∀ p, p ∉ slots.dropLast.map Prod.snd →
            st'.graph.successorsOf p = st.graph.successorsOf p)) := by
  have hx : ∃ x, st.graph.InputAt last 0 = some x := by
    rcases hshape with h | h
    · rw [ha] at h
      simp only [Bool.and_eq_true, beq_iff_eq] at h
      exact ⟨phi, h.2⟩
    · exact ⟨first, h.2.2.2.1⟩
  obtain ⟨x, hx⟩ := hx
  have hmaybe : MaybeAddPhi { graph := st.graph, stats := st.stats } block =
      some { graph := st.graph, stats := st.stats } :=
    MaybeAddPhi_of_phis _ block b last x hb hlast hx (by rw [hphis]; rfl)
  obtain ⟨st', hrun, hpreds', hsuccs', _, _⟩ := visitBlock_walk ev cev st
    { graph := st.graph, stats := st.stats } block phi last first t f b b slots a l
    hb hcatch hheader hlast hif hmaybe hb hphis hfirst huse ha hl hshape hne hdef ht hf htb hfb
    hinputs hpreds hnodup hself hres
  have hnd : (slots.map Prod.snd).Nodup := by rw [← hpreds]; exact hnodup
  refine ⟨st', hrun, ?_, ?_⟩
  · intro hex
    obtain ⟨st2, hrun2, h1, h2, h3, h4⟩ := visitBlock_with_unresolved_input ev cev
      st block phi last first t f b slots a l hb hcatch hheader hphis hlast hif hfirst huse ha
      hl hshape hne hdef ht hf htb hfb hinputs hpreds hnodup hself hres hex
    rw [hrun] at hrun2
    cases hrun2
    exact ⟨h1, h2, h3, h4⟩
  · intro hall hlen
    have hsome : ∀ s ∈ slots, ((fun s : Nat × Nat =>
        (SimplifyIfs.resolution cev st.graph first a l s.1).join) s).isSome = true := by
      intro s hs
      have h1 := hres s hs
      have h2 := hall s hs
      cases hr : SimplifyIfs.resolution cev st.graph first a l s.1 with
      | none => rw [hr] at h1; cases h1
      | some r =>
        cases r with
        | none => exact absurd hr h2
        | some v =>
          show ((SimplifyIfs.resolution cev st.graph first a l s.1).join).isSome = true
          rw [hr]
          rfl
    obtain ⟨hw1, hw2⟩ := walk_of_resolved _ slots hsome hlen
    simp only at hpreds' hsuccs'
    rw [hw1] at hpreds'
    have hsl : ∀ s : Nat × Nat, ∀ v,
        SimplifyIfs.resolution cev st.graph first a l s.1 = some (some v) →
        (fun s : Nat × Nat => (SimplifyIfs.resolution cev st.graph first a l s.1).join) s =
          some v := by
      intro s v hv
      show (SimplifyIfs.resolution cev st.graph first a l s.1).join = some v
      rw [hv]
      rfl
    cases hk : slots.getLast? with
    | none =>
      rw [List.getLast?_eq_none_iff] at hk
      rw [hk] at hlen
      simp at hlen
    | some kept =>
      rw [hk] at hpreds'
      have hndd : (slots.dropLast.map Prod.snd).Nodup :=
        List.Nodup.sublist (List.Sublist.map _ (List.dropLast_sublist slots)) hnd
      have hkept : kept.2 ∉ slots.dropLast.map Prod.snd := by
        have h1 : (slots.map Prod.snd).getLast? = some kept.2 := by
          rw [List.getLast?_map, hk]
          rfl
        have h2 := getLast?_not_mem_dropLast (slots.map Prod.snd) kept.2 hnd h1
        rw [← List.map_dropLast] at h2
        exact h2
      have hkeep : ∀ p, p ∉ slots.dropLast.map Prod.snd →
          st'.graph.successorsOf p = st.graph.successorsOf p := by
        intro p hp
        rw [hsuccs' p, hw2]
        apply redirectedSuccessors_of_kept
        intro s hs hsp
        exact absurd (hsp ▸ List.mem_map_of_mem Prod.snd hs) hp
      refine ⟨kept, rfl, by simpa using hpreds', hkeep kept.2 hkept, ?_, hkeep⟩
      intro s hs v hv
      rw [hsuccs' s.2, hw2]
      exact redirectedSuccessors_of_dropped block t f _ slots.dropLast hndd s hs v
        (hsl s v hv) _

theorem SimplifyIfs_redirects_resolving_predecessors_or_keeps_last_witness :
    (exampleDiamond 0).GetBlock 4 =
      some { phis := [7], instructions := [8], predecessors := [2, 3], successors := [5, 6] } ∧
    (exampleDiamond 0).inputsOf 7 = [1, 0] ∧
    SimplifyIfs.resolution (fun _ _ _ => none) (exampleDiamond 0) 8 true true 1 =
      some (some true) ∧
    SimplifyIfs.resolution (fun _ _ _ => none) (exampleDiamond 0) 8 true true 0 = some none ∧
    (∃ st', SimplifyIfs.visitBlock (fun _ _ => none) (fun _ _ _ => none)
        (SimplifyIfsState.start (exampleDiamond 0)) 4 = some st' ∧
      st'.graph.successorsOf 2 = [5] ∧ st'.graph.successorsOf 3 = [4] ∧
      st'.graph.predecessorsOf 4 = [3]) ∧
    (exampleDiamond 2).inputsOf 7 = [1, 2] ∧
    SimplifyIfs.resolution (fun _ _ _ => none) (exampleDiamond 2) 8 true true 1 =
      some (some true) ∧
    SimplifyIfs.resolution (fun _ _ _ => none) (exampleDiamond 2) 8 true true 2 =
      some (some false) ∧
    (∃ st', SimplifyIfs.visitBlock (fun _ _ => none) (fun _ _ _ => none)
        (SimplifyIfsState.start (exampleDiamond 2)) 4 = some st' ∧
      st'.graph.predecessorsOf 4 = [3] ∧ st'.graph.successorsOf 3 = [4] ∧
      st'.graph.successorsOf 2 = [5]) := by
  obtain ⟨st1, hrun1, hA1, _⟩ :=
    SimplifyIfs_redirects_resolving_predecessors_or_keeps_last (fun _ _ => none)
      (fun _ _ _ => none) (SimplifyIfsState.start (exampleDiamond 0)) 4 7 8 8 5 6
      { phis := [7], instructions := [8], predecessors := [2, 3], successors := [5, 6] }
      [(1, 2), (0, 3)] true true rfl rfl (by decide) rfl rfl rfl rfl rfl rfl rfl (Or.inl rfl)
      (by decide) rfl rfl rfl (by decide) (by decide) rfl rfl (by decide) (by decide)
      (by decide)
  obtain ⟨hresolved, hother, hpreds, _⟩ := hA1 ⟨(0, 3), by decide, rfl⟩
  obtain ⟨st2, hrun2, _, hB2⟩ :=
    SimplifyIfs_redirects_resolving_predecessors_or_keeps_last (fun _ _ => none)
      (fun _ _ _ => none) (SimplifyIfsState.start (exampleDiamond 2)) 4 7 8 8 5 6
      { phis := [7], instructions := [8], predecessors := [2, 3], successors := [5, 6] }
      [(1, 2), (2, 3)] true true rfl rfl (by decide) rfl rfl rfl rfl rfl rfl rfl (Or.inl rfl)
      (by decide) rfl rfl rfl (by decide) (by decide) rfl rfl (by decide) (by decide)
      (by decide)
  obtain ⟨kept, hk, hp2, hs2, hd2, _⟩ := hB2 (by decide) (by decide)
  have hkept : kept = (2, 3) := by
    have : some kept = some (2, 3) := by rw [← hk]; rfl
    exact Option.some.inj this
  subst hkept
  exact ⟨rfl, rfl, rfl, rfl,
    ⟨st1, hrun1, hresolved (1, 2) (by decide) true rfl, hother 3 (by decide), hpreds⟩,
    rfl, rfl, rfl, ⟨st2, hrun2, hp2, hs2, hd2 (1, 2) (by decide) true rfl⟩⟩

/-- The slots that the walk keeps and the slots that it drops are together
the slots it started with. -/
theorem walk_perm {α : Type} (resolve : α → Option Bool) (l : List α) (i : Nat) :
    List.Perm (SimplifyIfs.walk resolve i l ++
      (SimplifyIfs.walkRedirected resolve i l).map Prod.fst) l := by
  induction l generalizing i with
  | nil => simp [SimplifyIfs.walk, SimplifyIfs.walkRedirected]
  | cons s rest ih =>
    unfold SimplifyIfs.walk SimplifyIfs.walkRedirected
    cases hs : resolve s with
    | none =>
      simp only [List.cons_append]
      exact List.Perm.cons s (ih (i + 1))
    | some v =>
      simp only
      by_cases h1 : i + rest.length = 1
      · rw [if_pos h1, if_pos h1]
        simp only [List.map_cons, List.map_nil]
        exact (List.perm_append_singleton s rest)
      · rw [if_neg h1, if_neg h1]
        simp only [List.map_cons]
        exact List.Perm.trans List.perm_middle (List.Perm.cons s (ih i))

/-- A slot that the walk keeps is a slot it started with, and with distinct
predecessors its predecessor is the predecessor of no dropped slot. -/
theorem walk_kept {α : Type} (resolve : α → Option Bool) (l : List α) (snd : α → Nat)
    (hnd : (l.map snd).Nodup) (s : α) (hs : s ∈ SimplifyIfs.walk resolve 0 l) :
    s ∈ l ∧ ∀ r ∈ SimplifyIfs.walkRedirected resolve 0 l, snd r.1 ≠ snd s := by
  have hp := walk_perm resolve l 0
  refine ⟨hp.subset (List.mem_append_left _ hs), ?_⟩
  intro r hr heq
  have hnd2 : ((SimplifyIfs.walk resolve 0 l ++
      (SimplifyIfs.walkRedirected resolve 0 l).map Prod.fst).map snd).Nodup :=
    (List.Perm.nodup_iff (List.Perm.map snd hp)).mpr hnd
  rw [List.map_append] at hnd2
  have hdis := (List.nodup_append.mp hnd2).2.2
  exact hdis (List.mem_map_of_mem snd hs)
    (List.mem_map.mpr ⟨r.1, List.mem_map_of_mem Prod.fst hr, heq⟩)

/-- C35: for a non-catch, non-loop-header block that, after MaybeAddPhi,
consists of a single phi and an If on that phi (or on a single condition over
that phi), with two or more predecessors or with an input of the phi that does
not resolve, the body of the loop of SimplifyIfs returns and the block still
has a predecessor afterwards; every predecessor that the block is left with is
one of its predecessors before and has its successors unchanged (its edge is
not redirected); when every input of the phi resolves, the block is left with
the predecessor of the last input alone; and when exactly one predecessor
remains, the phi is no longer among the phis of the block, is in no block and
has no use left, and its user, if it stays in its block, has the input of the
remaining edge in the place of the phi.  No other block loses a predecessor. -/
theorem SimplifyIfs_keeps_a_predecessor (ev : StaticEvaluator) (cev : ConditionEvaluator)
    (st : SimplifyIfsState) (dce : HDeadCodeElimination) (block phi last first t f : Nat)
    (b0 b : HBasicBlock) (slots : List (Nat × Nat)) (a l : Bool)
    (hb0 : st.graph.GetBlock block = some b0)
    (hcatch : b0.is_catch_block = false)
    (hheader : b0.loop_information ≠ some block)
    (hlast : b0.GetLastInstruction = some last)
    (hif : st.graph.kindIs (fun k => k = InstructionKind.If) last = true)
    (hmaybe : MaybeAddPhi { graph := st.graph, stats := st.stats } block = some dce)
    (hb : dce.graph.GetBlock block = some b)
    (hphis : b.phis = [phi])
    (hfirst : b.GetFirstInstruction = some first)
    (huse : dce.graph.HasOnlyOneNonEnvironmentUse phi = true)
    (ha : a = (decide (last = first) && (dce.graph.InputAt last 0 == some phi)))
    (hl : l = (dce.graph.InputAt first 0 == some phi))
    (hshape : a = true ∨
      (dce.graph.kindIs InstructionKind.IsCondition first = true ∧
        HasInput dce.graph first phi = true ∧ b.instructions[1]? = some last ∧
        dce.graph.InputAt last 0 = some first ∧
        dce.graph.HasOnlyOneNonEnvironmentUse first = true))
    (hne : first ≠ phi)
    (hdef : dce.graph.InputsDefined = true)
    (ht : b.successors[0]? = some t) (hf : b.successors[1]? = some f)
    (htb : t ≠ block) (hfb : f ≠ block)
    (hinputs : dce.graph.inputsOf phi = slots.map Prod.fst)
    (hpreds : b.predecessors = slots.map Prod.snd)
    (hnodup : b.predecessors.Nodup) (hself : block ∉ b.predecessors)
    (hres : ∀ s ∈ slots,
      (SimplifyIfs.resolution cev dce.graph first a l s.1).isSome = true)
    (hphiB : (dce.graph.BlockOf phi).isSome = true)
    (hnophi : ∀ s ∈ slots, s.1 ≠ phi)
    (hlen : 2 ≤ slots.length ∨
      ∃ s ∈ slots, SimplifyIfs.resolution cev dce.graph first a l s.1 = some none) :
    ∃ st', SimplifyIfs.visitBlock ev cev st block = some st' ∧
      st'.graph.predecessorsOf block ≠ [] ∧
      (∀ p ∈ st'.graph.predecessorsOf block,
        p ∈ b.predecessors ∧ st'.graph.successorsOf p = dce.graph.successorsOf p) ∧
      ((∀ s ∈ slots, SimplifyIfs.resolution cev dce.graph first a l s.1 ≠ some none) →
        ∃ kept, slots.getLast? = some kept ∧ st'.graph.predecessorsOf block = [kept.2]) ∧
      (∀ p, st'.graph.predecessorsOf block = [p] →
        ∃ s ∈ slots, s.2 = p ∧ st'.graph.phisOf block = [] ∧
          st'.graph.BlockOf phi = none ∧ st'.graph.NumUses phi = 0 ∧
          ((st'.graph.BlockOf first).isSome = true →
            st'.graph.inputsOf first = substInput phi s.1 (dce.graph.inputsOf first))) ∧
      (∀ x, x ≠ block → ∀ p ∈ dce.graph.predecessorsOf x,
        p ∈ st'.graph.predecessorsOf x) := by
  obtain ⟨st', hrun, hpreds', hsuccs', _, hone, hothers⟩ := visitBlock_walk ev cev st dce block phi
    last first t f b0 b slots a l hb0 hcatch hheader hlast hif hmaybe hb hphis hfirst huse ha
    hl hshape hne hdef ht hf htb hfb hinputs hpreds hnodup hself hres
  have hnd : (slots.map Prod.snd).Nodup := by rw [← hpreds]; exact hnodup
  have hjoin : ∀ s : Nat × Nat,
      SimplifyIfs.resolution cev dce.graph first a l s.1 = some none →
      (fun s : Nat × Nat => (SimplifyIfs.resolution cev dce.graph first a l s.1).join) s =
        none := by
    intro s hs
    show (SimplifyIfs.resolution cev dce.graph first a l s.1).join = none
    rw [hs]
    rfl
  have hwne := walk_ne_nil
    (fun s : Nat × Nat => (SimplifyIfs.resolution cev dce.graph first a l s.1).join) slots
    (by
      rcases hlen with h | ⟨s, hs, hr⟩
      · exact Or.inr h
      · exact Or.inl ⟨s, hs, hjoin s hr⟩)
  refine ⟨st', hrun, ?_, ?_, ?_, ?_, hothers⟩
  · rw [hpreds']
    intro e
    exact hwne (List.map_eq_nil_iff.mp e)
  · intro p hp
    rw [hpreds'] at hp
    obtain ⟨s, hs, hsp⟩ := List.mem_map.mp hp
    obtain ⟨hmem, hnot⟩ := walk_kept _ slots Prod.snd hnd s hs
    refine ⟨by rw [hpreds, ← hsp]; exact List.mem_map_of_mem Prod.snd hmem, ?_⟩
    rw [hsuccs' p]
    unfold SimplifyIfs.redirectedSuccessors
    have hnone : (SimplifyIfs.walkRedirected
        (fun s : Nat × Nat => (SimplifyIfs.resolution cev dce.graph first a l s.1).join)
        0 slots).find? (fun r => r.1.2 == p) = none := by
      rw [List.find?_eq_none]
      intro r hr hrp
      apply hnot r hr
      rw [hsp]
      simpa using hrp
    rw [hnone]
  · intro hall
    have hlen2 : 2 ≤ slots.length := by
      rcases hlen with h | ⟨s, hs, hr⟩
      · exact h
      · exact absurd hr (hall s hs)
    have hsome : ∀ s ∈ slots, ((fun s : Nat × Nat =>
        (SimplifyIfs.resolution cev dce.graph first a l s.1).join) s).isSome = true := by
      intro s hs
      have h1 := hres s hs
      have h2 := hall s hs
      cases hr : SimplifyIfs.resolution cev dce.graph first a l s.1 with
      | none => rw [hr] at h1; cases h1
      | some r =>
        cases r with
        | none => exact absurd hr h2
        | some v =>
          show ((SimplifyIfs.resolution cev dce.graph first a l s.1).join).isSome = true
          rw [hr]
          rfl
    obtain ⟨hw1, _⟩ := walk_of_resolved _ slots hsome hlen2
    rw [hw1] at hpreds'
    cases hk : slots.getLast? with
    | none =>
      rw [List.getLast?_eq_none_iff] at hk
      rw [hk] at hlen2
      simp at hlen2
    | some kept =>
      rw [hk] at hpreds'
      exact ⟨kept, rfl, by simpa using hpreds'⟩
  · intro p hp
    rw [hpreds'] at hp
    cases hw : SimplifyIfs.walk
        (fun s : Nat × Nat => (SimplifyIfs.resolution cev dce.graph first a l s.1).join)
        0 slots with
    | nil => rw [hw] at hp; cases hp
    | cons s rest =>
      rw [hw] at hp
      cases rest with
      | cons y ys => simp at hp
      | nil =>
        simp only [List.map_cons, List.map_nil, List.cons.injEq, and_true] at hp
        have hmem := (walk_kept _ slots Prod.snd hnd s (by rw [hw]; simp)).1
        obtain ⟨h1, h2, h3, h4⟩ := hone s hw (hnophi s hmem) hphiB
        exact ⟨s, hmem, hp, h1, h2, h3, h4⟩

theorem SimplifyIfs_keeps_a_predecessor_witness :
    (exampleDiamond 2).GetBlock 4 =
      some { phis := [7], instructions := [8], predecessors := [2, 3], successors := [5, 6] } ∧
    (exampleDiamond 2).inputsOf 7 = [1, 2] ∧
    (exampleDiamond 2).KindOf 1 = some (InstructionKind.IntConstant 1) ∧
    (exampleDiamond 2).KindOf 2 = some (InstructionKind.IntConstant 0) ∧
    (exampleDiamond 2).inputsOf 8 = [7] ∧
    (∃ st', SimplifyIfs.visitBlock (fun _ _ => none) (fun _ _ _ => none)
        (SimplifyIfsState.start (exampleDiamond 2)) 4 = some st' ∧
      st'.graph.predecessorsOf 4 = [3] ∧ st'.graph.successorsOf 3 = [4] ∧
      st'.graph.phisOf 4 = [] ∧ st'.graph.BlockOf 7 = none ∧ st'.graph.NumUses 7 = 0 ∧
      st'.graph.inputsOf 8 = [2]) := by
  obtain ⟨st', hrun, _, hkeeps, hall, hone, _⟩ :=
    SimplifyIfs_keeps_a_predecessor (fun _ _ => none)
      (fun _ _ _ => none) (SimplifyIfsState.start (exampleDiamond 2))
      { graph := exampleDiamond 2, stats := none } 4 7 8 8 5 6
      { phis := [7], instructions := [8], predecessors := [2, 3], successors := [5, 6] }
      { phis := [7], instructions := [8], predecessors := [2, 3], successors := [5, 6] }
      [(1, 2), (2, 3)] true true rfl rfl (by decide) rfl rfl rfl rfl rfl rfl rfl rfl rfl
      (Or.inl rfl) (by decide) rfl rfl rfl (by decide) (by decide) rfl rfl (by decide)
      (by decide) (by decide) rfl (by decide) (Or.inl (by decide))
  obtain ⟨kept, hk, hp⟩ := hall (by decide)
  have hkept : kept = (2, 3) := by
    have : some kept = some (2, 3) := by rw [← hk]; rfl
    exact Option.some.inj this
  subst hkept
  obtain ⟨s, hs, hs2, h1, h2, h3, h4⟩ := hone 3 hp
  have hs1 : s = (2, 3) := by
    simp only [List.mem_cons, List.mem_singleton, List.not_mem_nil, or_false] at hs
    rcases hs with h | h
    · rw [h] at hs2; cases hs2
    · exact h
  subst hs1
  have hfirst : (st'.graph.BlockOf 8).isSome = true := by
    have hv : (SimplifyIfs.visitBlock (fun _ _ => none) (fun _ _ _ => none)
        (SimplifyIfsState.start (exampleDiamond 2)) 4).map
        (fun r => (r.graph.BlockOf 8).isSome) = some true := by decide
    rw [hrun] at hv
    exact Option.some.inj hv
  exact ⟨rfl, rfl, rfl, rfl, rfl, st', hrun, hp, (hkeeps 3 (by rw [hp]; simp)).2, h1, h2, h3,
    h4 hfirst⟩

/-! ## InstructionWithAbsorbingInputSimplifier: one rewrite per visit -/

theorem ReplaceWithAndRemove_eq (g : HGraph) (inst c b : Nat) (hb : g.BlockOf inst = some b) :
    g.ReplaceWithAndRemove inst c = some ((g.ReplaceWith inst c).RemoveInstruction b inst) := by
  unfold HGraph.ReplaceWithAndRemove
  simp only
  rw [BlockOf_ReplaceWith, hb]

theorem GetConstant_eq_GetConstantOfKind (g : HGraph) (ty : DataType) (value : Int) :
    ∃ k t, g.GetConstantOfKind k t =
      ((g.GetConstant ty value).1, (g.GetConstant ty value).2) := by
  unfold HGraph.GetConstant HGraph.GetLongConstant HGraph.GetIntConstant
  split
  · exact ⟨_, _, rfl⟩
  · exact ⟨_, _, rfl⟩

theorem ReplaceWithAndRemove_once (g : HGraph) (inst c b : Nat)
    (hb : g.BlockOf inst = some b) :
    ∃ g', g.ReplaceWithAndRemove inst c = some g' ∧ (g' = g ∨ g.RewrittenOnce g' inst b) :=
  ⟨_, ReplaceWithAndRemove_eq g inst c b hb, Or.inr ⟨g, c, Or.inl rfl, rfl⟩⟩

theorem ReplaceWithConstantAndRemove_once (g : HGraph) (inst b : Nat) (ty : DataType)
    (value : Int) (hb : g.BlockOf inst = some b) :
    ∃ g', g.ReplaceWithConstantAndRemove inst ty value = some g' ∧
      (g' = g ∨ g.RewrittenOnce g' inst b) := by
  unfold HGraph.ReplaceWithConstantAndRemove
  simp only
  have hb1 : (g.GetConstant ty value).1.BlockOf inst = some b :=
    BlockOf_of_extension g _ inst b (GetConstant_spec g ty value).2 hb
  refine ⟨_, ReplaceWithAndRemove_eq _ inst _ b hb1, Or.inr ⟨_, _, Or.inr ?_, rfl⟩⟩
  exact GetConstant_eq_GetConstantOfKind g ty value

theorem ReplaceWithAndRemoveFrom_once (g : HGraph) (inst c b : Nat) :
    ∃ g', g.ReplaceWithAndRemoveFrom (some b) inst c = some g' ∧
      (g' = g ∨ g.RewrittenOnce g' inst b) :=
  ⟨_, rfl, Or.inr ⟨g, c, Or.inl rfl, rfl⟩⟩

theorem ReplaceWithConstantAndRemoveFrom_once (g : HGraph) (inst b : Nat) (ty : DataType)
    (value : Int) :
    ∃ g', g.ReplaceWithConstantAndRemoveFrom (some b) inst ty value = some g' ∧
      (g' = g ∨ g.RewrittenOnce g' inst b) := by
  unfold HGraph.ReplaceWithConstantAndRemoveFrom
  simp only
  exact ⟨_, rfl, Or.inr ⟨_, _, Or.inr (GetConstant_eq_GetConstantOfKind g ty value), rfl⟩⟩

theorem kept_once (g : HGraph) (inst b : Nat) :
    ∃ g', some g = some g' ∧ (g' = g ∨ g.RewrittenOnce g' inst b) :=
  ⟨g, rfl, Or.inl rfl⟩

theorem constantRule_once (g : HGraph) (inst b : Nat) (c : Prop) [Decidable c]
    (ty : DataType) (value : Int) (hb : g.BlockOf inst = some b) :
    ∃ g', (if c then g.ReplaceWithConstantAndRemove inst ty value else some g) = some g' ∧
      (g' = g ∨ g.RewrittenOnce g' inst b) := by
  split
  · exact ReplaceWithConstantAndRemove_once g inst b ty value hb
  · exact kept_once g inst b

theorem GetConstantRight_cases (g : HGraph) (inst left right : Nat)
    (hl : g.GetLeft inst = some left) (hr : g.GetRight inst = some right) :
    g.GetConstantRight inst =
      if g.IsConstant right = true then some right
      else if (g.kindIs InstructionKind.IsCommutative inst && g.IsConstant left) = true then
        some left
      else none := by
  unfold HGraph.GetConstantRight
  rw [hl, hr]

/-- The visits of the simplifier with a single rule: they return, and leave
the graph as it is or rewrite the instruction once. -/
theorem single_rule_once (g : HGraph) (inst b left right : Nat)
    (hb : g.BlockOf inst = some b)
    (hl : g.GetLeft inst = some left) (hr : g.GetRight inst = some right)
    (hand : g.KindOf inst ≠ some InstructionKind.And)
    (hrem : g.KindOf inst ≠ some InstructionKind.Rem) :
    ∃ g', InstructionWithAbsorbingInputSimplifier.Accept g inst = some g' ∧
      (g' = g ∨ g.RewrittenOnce g' inst b) := by
  have hcr := GetConstantRight_cases g inst left right hl hr
  unfold InstructionWithAbsorbingInputSimplifier.Accept
  split
  · exact constantRule_once g inst b _ _ _ hb
  · exact constantRule_once g inst b _ _ _ hb
  · exact constantRule_once g inst b _ _ _ hb
  · exact constantRule_once g inst b _ _ _ hb
  · exact constantRule_once g inst b _ _ _ hb
  · exact constantRule_once g inst b _ _ _ hb
  · next hk => exact absurd hk hand
  · unfold VisitCompare
    cases hc : g.GetConstantRight inst with
    | none => exact kept_once g inst b
    | some c =>
      simp only
      have hlc : ∃ x, g.GetLeastConstantLeft inst = some x := by
        unfold HGraph.GetLeastConstantLeft
        rw [hc]
        simp only
        split
        · exact ⟨right, hr⟩
        · exact ⟨left, hl⟩
      obtain ⟨x, hx⟩ := hlc
      rw [hx]
      exact constantRule_once g inst b _ _ _ hb
  · unfold VisitMul
    cases hc : g.GetConstantRight inst with
    | none => exact kept_once g inst b
    | some c =>
      simp only
      split
      · exact ReplaceWithAndRemove_once g inst c b hb
      · exact kept_once g inst b
  · unfold VisitOr
    cases hc : g.GetConstantRight inst with
    | none => exact kept_once g inst b
    | some c =>
      simp only
      split
      · exact ReplaceWithAndRemove_once g inst c b hb
      · exact kept_once g inst b
  · next hk => exact absurd hk hrem
  · unfold VisitShift
    rw [hl]
    simp only
    split
    · exact ReplaceWithAndRemove_once g inst left b hb
    · exact kept_once g inst b
  · unfold VisitShift
    rw [hl]
    simp only
    split
    · exact ReplaceWithAndRemove_once g inst left b hb
    · exact kept_once g inst b
  · unfold VisitSub
    simp only
    split
    · exact kept_once g inst b
    · rw [hl, hr, hb]
      simp only
      split
      · exact ReplaceWithConstantAndRemoveFrom_once g inst b _ _
      · exact kept_once g inst b
  · unfold VisitShift
    rw [hl]
    simp only
    split
    · exact ReplaceWithAndRemove_once g inst left b hb
    · exact kept_once g inst b
  · unfold VisitXor
    rw [hl, hr, hb]
    simp only
    split
    · exact ReplaceWithConstantAndRemoveFrom_once g inst b _ _
    · exact kept_once g inst b
  · exact kept_once g inst b

theorem kindIs_rewritten (g : HGraph) (inst c b : Nat) (p : InstructionKind → Bool) (x : Nat) :
    ((g.ReplaceWith inst c).RemoveInstruction b inst).kindIs p x = g.kindIs p x := by
  unfold HGraph.kindIs
  rw [KindOf_RemoveInstruction, KindOf_ReplaceWith]

theorem IsConstant_rewritten (g : HGraph) (inst c b x : Nat) :
    ((g.ReplaceWith inst c).RemoveInstruction b inst).IsConstant x = g.IsConstant x :=
  kindIs_rewritten g inst c b _ x

theorem GetType_rewritten (g : HGraph) (inst c b x : Nat) :
    ((g.ReplaceWith inst c).RemoveInstruction b inst).GetType x = g.GetType x := by
  simp only [HGraph.GetType, GetInstruction_RemoveInstruction, GetInstruction_ReplaceWith]
  cases g.GetInstruction x with
  | none => rfl
  | some u =>
    simp only [Option.map_some']
    split <;> split <;> rfl

/-- The second rule of VisitAnd is its test followed by the rewrite. -/
theorem notRule_eq (g : HGraph) (inst left right : Nat) (type : DataType)
    (hl : g.GetLeft inst = some left) (hr : g.GetRight inst = some right)
    (hin : ∀ x, x = left ∨ x = right → g.KindOf x = some InstructionKind.Not →
      (g.InputAt x 0).isSome = true) :
    VisitAnd.notRule g inst type =
      if VisitAnd.notRuleApplies g inst = true then
        g.ReplaceWithConstantAndRemove inst type 0
      else some g := by
  have hkind : ∀ x, g.kindIs (fun k => k = InstructionKind.Not) x = true →
      g.KindOf x = some InstructionKind.Not := by
    intro x h1
    unfold HGraph.kindIs at h1
    cases hk : g.KindOf x with
    | none => rw [hk] at h1; cases h1
    | some k => rw [hk] at h1; simp only [decide_eq_true_eq] at h1; rw [h1]
  unfold VisitAnd.notRule VisitAnd.notRuleApplies
  rw [hl, hr]
  simp only
  by_cases h1 : g.kindIs (fun k => k = InstructionKind.Not) left = true <;>
    by_cases h2 : g.kindIs (fun k => k = InstructionKind.Not) right = true
  · simp [h1, h2]
  · have hsome := hin left (Or.inl rfl) (hkind left h1)
    simp only [Bool.not_eq_true] at h2
    cases hs : g.InputAt left 0 with
    | none => rw [hs] at hsome; cases hsome
    | some src => simp [h1, h2, hs]
  · have hsome := hin right (Or.inr rfl) (hkind right h2)
    simp only [Bool.not_eq_true] at h1
    cases hs : g.InputAt right 0 with
    | none => rw [hs] at hsome; cases hsome
    | some src => simp [h1, h2, hs]
  · simp only [Bool.not_eq_true] at h1 h2
    simp [h1, h2]

/-- The second rule of VisitRem is its test followed by the rewrite. -/
theorem oneRule_eq (g : HGraph) (inst left right : Nat) (block : Option Nat) (type : DataType)
    (hl : g.GetLeft inst = some left) (hr : g.GetRight inst = some right) :
    VisitRem.oneRule g block inst type =
      if VisitRem.oneRuleApplies g inst = true then
        g.ReplaceWithConstantAndRemoveFrom block inst type 0
      else some g := by
  unfold VisitRem.oneRule VisitRem.oneRuleApplies
  rw [hl, hr]

theorem GetLeft_rewritten (g : HGraph) (inst c b left : Nat) (hl : g.GetLeft inst = some left)
    (hne : left ≠ inst) :
    ((g.ReplaceWith inst c).RemoveInstruction b inst).GetLeft inst = some left :=
  InputAt_ReplaceWith_RemoveInstruction_other g inst c b inst 0 left hne hl

theorem GetRight_rewritten (g : HGraph) (inst c b right : Nat)
    (hr : g.GetRight inst = some right) (hne : right ≠ inst) :
    ((g.ReplaceWith inst c).RemoveInstruction b inst).GetRight inst = some right :=
  InputAt_ReplaceWith_RemoveInstruction_other g inst c b inst 1 right hne hr

theorem not_Not_of_IsConstant (g : HGraph) (x : Nat) (h : g.IsConstant x = true) :
    g.kindIs (fun k => k = InstructionKind.Not) x = false := by
  unfold HGraph.IsConstant HGraph.kindIs at h
  unfold HGraph.kindIs
  cases hk : g.KindOf x with
  | none => rfl
  | some k =>
    rw [hk] at h
    simp only at h ⊢
    cases k <;> first | rfl | cases h

theorem KindOf_of_kindIs_Not (g : HGraph) (x : Nat)
    (h1 : g.kindIs (fun k => k = InstructionKind.Not) x = true) :
    g.KindOf x = some InstructionKind.Not := by
  unfold HGraph.kindIs at h1
  cases hk : g.KindOf x with
  | none => rw [hk] at h1; cases h1
  | some k => rw [hk] at h1; simp only [decide_eq_true_eq] at h1; rw [h1]

/-- After the first rule of VisitAnd has replaced and removed the And, the
test of the second rule is false, when the operands are not both constants and
no operand is a Not of a constant or of the And itself. -/
theorem notRuleApplies_rewritten (g : HGraph) (inst b left right c : Nat)
    (hl : g.GetLeft inst = some left) (hr : g.GetRight inst = some right)
    (hli : left ≠ inst) (hri : right ≠ inst)
    (hnot : ∀ x, x = left ∨ x = right → g.KindOf x = some InstructionKind.Not →
      ∃ src, g.InputAt x 0 = some src ∧ src ≠ inst ∧ g.IsConstant src = false)
    (hc : g.GetConstantRight inst = some c) :
    VisitAnd.notRuleApplies ((g.ReplaceWith inst c).RemoveInstruction b inst) inst = false := by
  unfold VisitAnd.notRuleApplies
  rw [GetLeft_rewritten g inst c b left hl hli, GetRight_rewritten g inst c b right hr hri]
  simp only [kindIs_rewritten]
  rw [GetConstantRight_cases g inst left right hl hr] at hc
  by_cases h1 : g.kindIs (fun k => k = InstructionKind.Not) left = true
  · obtain ⟨src, hsrc, hsi, hsc⟩ := hnot left (Or.inl rfl) (KindOf_of_kindIs_Not g left h1)
    have hin := InputAt_ReplaceWith_RemoveInstruction_other g inst c b left 0 src hsi hsrc
    have hlc : g.IsConstant left = false := by
      cases hcl : g.IsConstant left with
      | false => rfl
      | true => rw [not_Not_of_IsConstant g left hcl] at h1; cases h1
    by_cases h2 : g.kindIs (fun k => k = InstructionKind.Not) right = true
    · simp [h1, h2]
    · simp only [Bool.not_eq_true] at h2
      have hrc : g.IsConstant right = true := by
        cases hcr : g.IsConstant right with
        | true => rfl
        | false => simp [hcr, hlc] at hc
      have hne : src ≠ right := by
        intro e
        rw [e, hrc] at hsc
        cases hsc
      simp [h1, h2, hin, hne]
  · simp only [Bool.not_eq_true] at h1
    by_cases h2 : g.kindIs (fun k => k = InstructionKind.Not) right = true
    · obtain ⟨src, hsrc, hsi, hsc⟩ := hnot right (Or.inr rfl) (KindOf_of_kindIs_Not g right h2)
      have hin := InputAt_ReplaceWith_RemoveInstruction_other g inst c b right 0 src hsi hsrc
      have hrc : g.IsConstant right = false := by
        cases hcr : g.IsConstant right with
        | false => rfl
        | true => rw [not_Not_of_IsConstant g right hcr] at h2; cases h2
      have hlc : g.IsConstant left = true := by
        cases hcl : g.IsConstant left with
        | true => rfl
        | false => simp [hrc, hcl] at hc
      have hne : src ≠ left := by
        intro e
        rw [e, hlc] at hsc
        cases hsc
      simp [h1, h2, hin, hne]
    · simp only [Bool.not_eq_true] at h2
      simp [h1, h2]

/-- VisitAnd on an And in a block of which no operand is a Not of a constant
or of the And itself: it returns,
and leaves the graph as it is or rewrites the And once; when the first rule
fires, the result is that of the first rewrite, on which the test of the second
rule is false. -/
theorem VisitAnd_once (g : HGraph) (inst b left right : Nat)
    (hb : g.BlockOf inst = some b)
    (hl : g.GetLeft inst = some left) (hr : g.GetRight inst = some right)
    (hli : left ≠ inst) (hri : right ≠ inst)
    (hnot : ∀ x, x = left ∨ x = right → g.KindOf x = some InstructionKind.Not →
      ∃ src, g.InputAt x 0 = some src ∧ src ≠ inst ∧ g.IsConstant src = false) :
    ∃ g', VisitAnd g inst = some g' ∧ (g' = g ∨ g.RewrittenOnce g' inst b) ∧
      (∀ c, g.GetConstantRight inst = some c →
        g.kindIs InstructionKind.IsZeroBitPattern c = true →
        g.ReplaceWithAndRemove inst c = some g' ∧
        VisitAnd.notRuleApplies g' inst = false ∧
        VisitAnd.notRule g' inst (g.GetType inst) = some g') := by
  have hin : ∀ x, x = left ∨ x = right → g.KindOf x = some InstructionKind.Not →
      (g.InputAt x 0).isSome = true := by
    intro x hx hk
    obtain ⟨src, hsrc, _⟩ := hnot x hx hk
    rw [hsrc]
    rfl
  have hsecond : ∃ g', VisitAnd.notRule g inst (g.GetType inst) = some g' ∧
      (g' = g ∨ g.RewrittenOnce g' inst b) := by
    rw [notRule_eq g inst left right _ hl hr hin]
    split
    · exact ReplaceWithConstantAndRemove_once g inst b _ _ hb
    · exact kept_once g inst b
  unfold VisitAnd
  simp only
  cases hc : g.GetConstantRight inst with
  | none =>
    simp only
    obtain ⟨g', h1, h2⟩ := hsecond
    exact ⟨g', h1, h2, fun c hcc => by cases hcc⟩
  | some c =>
    simp only
    by_cases hz : g.kindIs InstructionKind.IsZeroBitPattern c = true
    · rw [if_pos hz, ReplaceWithAndRemove_eq g inst c b hb]
      simp only
      have happ := notRuleApplies_rewritten g inst b left right c hl hr hli hri hnot hc
      have hl1 := GetLeft_rewritten g inst c b left hl hli
      have hr1 := GetRight_rewritten g inst c b right hr hri
      have hin1 : ∀ x, x = left ∨ x = right →
          ((g.ReplaceWith inst c).RemoveInstruction b inst).KindOf x =
            some InstructionKind.Not →
          (((g.ReplaceWith inst c).RemoveInstruction b inst).InputAt x 0).isSome = true := by
        intro x hx hk
        rw [KindOf_RemoveInstruction, KindOf_ReplaceWith] at hk
        obtain ⟨src, hsrc, hsi, _⟩ := hnot x hx hk
        rw [InputAt_ReplaceWith_RemoveInstruction_other g inst c b x 0 src hsi hsrc]
        rfl
      have hno : VisitAnd.notRule ((g.ReplaceWith inst c).RemoveInstruction b inst) inst
          (g.GetType inst) = some ((g.ReplaceWith inst c).RemoveInstruction b inst) := by
        rw [notRule_eq _ inst left right _ hl1 hr1 hin1, happ]
        rfl
      refine ⟨_, hno, Or.inr ⟨g, c, Or.inl rfl, rfl⟩, ?_⟩
      intro c2 hc2 _
      cases hc2
      exact ⟨ReplaceWithAndRemove_eq g inst c b hb, happ, hno⟩
    · rw [if_neg hz]
      simp only
      obtain ⟨g', h1, h2⟩ := hsecond
      refine ⟨g', h1, h2, ?_⟩
      intro c2 hc2 hz2
      cases hc2
      exact absurd hz2 hz

/-- VisitRem on a Rem in a block whose operands are not both constants: it
returns, and leaves the graph as it is or rewrites the Rem once; when the first
rule fires, the result is that of the first rewrite, on which the test of the
second rule is false. -/
theorem VisitRem_once (g : HGraph) (inst b left right : Nat)
    (hb : g.BlockOf inst = some b)
    (hl : g.GetLeft inst = some left) (hr : g.GetRight inst = some right)
    (hli : left ≠ inst) (hri : right ≠ inst)
    (hnc : g.IsConstant left = false ∨ g.IsConstant right = false) :
    ∃ g', VisitRem g inst = some g' ∧ (g' = g ∨ g.RewrittenOnce g' inst b) ∧
      ((g.GetType inst).IsIntegralType = true → g.isZeroConstant (some left) = true →
        g.ReplaceWithAndRemoveFrom (some b) inst left = some g' ∧
        VisitRem.oneRuleApplies g' inst = false ∧
        VisitRem.oneRule g' (some b) inst (g.GetType inst) = some g') := by
  unfold VisitRem
  simp only
  by_cases hty : (g.GetType inst).IsIntegralType = true
  · simp only [hty, Bool.not_true, Bool.false_eq_true, if_false]
    rw [hl, hb]
    simp only
    by_cases hz : (g.IsConstant left && g.kindIs InstructionKind.IsArithmeticZero left) = true
    · rw [if_pos hz]
      simp only [HGraph.ReplaceWithAndRemoveFrom]
      have hl1 := GetLeft_rewritten g inst left b left hl hli
      have hr1 := GetRight_rewritten g inst left b right hr hri
      have hlc : g.IsConstant left = true := by
        simp only [Bool.and_eq_true] at hz
        exact hz.1
      have hrc : g.IsConstant right = false := by
        rcases hnc with h | h
        · rw [h] at hlc; cases hlc
        · exact h
      have hne : left ≠ right := by
        intro e
        rw [e, hrc] at hlc
        cases hlc
      have happ : VisitRem.oneRuleApplies ((g.ReplaceWith inst left).RemoveInstruction b inst)
          inst = false := by
        unfold VisitRem.oneRuleApplies
        rw [hl1, hr1]
        simp [IsConstant_rewritten, hrc, hne]
      have hno : VisitRem.oneRule ((g.ReplaceWith inst left).RemoveInstruction b inst) (some b)
          inst (g.GetType inst) = some ((g.ReplaceWith inst left).RemoveInstruction b inst) := by
        rw [oneRule_eq _ inst left right _ _ hl1 hr1, happ]
        rfl
      exact ⟨_, hno, Or.inr ⟨g, left, Or.inl rfl, rfl⟩, fun _ _ => ⟨rfl, happ, hno⟩⟩
    · rw [if_neg hz]
      simp only
      rw [oneRule_eq g inst left right _ _ hl hr]
      have hzz : g.isZeroConstant (some left) = true → False := by
        intro h
        exact hz h
      split
      · obtain ⟨g', h1, h2⟩ :=
          ReplaceWithConstantAndRemoveFrom_once g inst b (g.GetType inst) 0
        exact ⟨g', h1, h2, fun _ h => (hzz h).elim⟩
      · exact ⟨g, rfl, Or.inl rfl, fun _ h => (hzz h).elim⟩
  · simp only [Bool.not_eq_true] at hty
    simp only [hty, Bool.not_false, if_true]
    exact ⟨g, rfl, Or.inl rfl, fun h => by cases h⟩

/-- VisitBinaryOperation on an operation in a block, when static evaluation
folds it if both operands are constants and no operand is a Not of a constant
or of the operation itself: it returns, and leaves the graph as it is or
rewrites the operation once; when the first rule of VisitAnd or of VisitRem
fires, the result is that of the first rewrite, on which the test of the second
rule is false. -/
theorem VisitBinaryOperation_once (ev : StaticEvaluator) (g : HGraph)
    (inst b left right : Nat)
    (hb : g.BlockOf inst = some b)
    (hl : g.GetLeft inst = some left) (hr : g.GetRight inst = some right)
    (hli : left ≠ inst) (hri : right ≠ inst)
    (hfold : g.IsConstant left = true → g.IsConstant right = true →
      (ev g inst).isSome = true)
    (hnot : ∀ x, x = left ∨ x = right → g.KindOf x = some InstructionKind.Not →
      ∃ src, g.InputAt x 0 = some src ∧ src ≠ inst ∧ g.IsConstant src = false) :
    ∃ g', VisitBinaryOperation ev g inst = some g' ∧
      (g' = g ∨ g.RewrittenOnce g' inst b) ∧
      (∀ c, g.KindOf inst = some InstructionKind.And → ev g inst = none →
        g.GetConstantRight inst = some c →
        g.kindIs InstructionKind.IsZeroBitPattern c = true →
        g.ReplaceWithAndRemove inst c = some g' ∧
        VisitAnd.notRuleApplies g' inst = false ∧
        VisitAnd.notRule g' inst (g.GetType inst) = some g') ∧
      (g.KindOf inst = some InstructionKind.Rem → ev g inst = none →
        (g.GetType inst).IsIntegralType = true → g.isZeroConstant (some left) = true →
        g.ReplaceWithAndRemoveFrom (some b) inst left = some g' ∧
        VisitRem.oneRuleApplies g' inst = false ∧
        VisitRem.oneRule g' (some b) inst (g.GetType inst) = some g') := by
  unfold VisitBinaryOperation HGraph.TryStaticEvaluation
  cases hev : ev g inst with
  | some cv =>
    simp only
    have hb1 : (g.GetConstantOfKind cv.kind cv.type).1.BlockOf inst = some b :=
      BlockOf_of_extension g _ inst b (GetConstantOfKind_spec g _ _).2.2 hb
    refine ⟨_, ReplaceWithAndRemove_eq _ inst _ b hb1,
      Or.inr ⟨_, _, Or.inr ⟨cv.kind, cv.type, rfl⟩, rfl⟩, ?_, ?_⟩
    · intro c _ h
      cases h
    · intro _ h
      cases h
  | none =>
    simp only
    have hnc : g.IsConstant left = false ∨ g.IsConstant right = false := by
      cases h1 : g.IsConstant left with
      | false => exact Or.inl rfl
      | true =>
        cases h2 : g.IsConstant right with
        | false => exact Or.inr rfl
        | true =>
          have := hfold h1 h2
          rw [hev] at this
          cases this
    by_cases hand : g.KindOf inst = some InstructionKind.And
    · have hacc : InstructionWithAbsorbingInputSimplifier.Accept g inst = VisitAnd g inst := by
        unfold InstructionWithAbsorbingInputSimplifier.Accept
        rw [hand]
      rw [hacc]
      obtain ⟨g', h1, h2, h3⟩ := VisitAnd_once g inst b left right hb hl hr hli hri hnot
      refine ⟨g', h1, h2, fun c _ _ hc hz => h3 c hc hz, ?_⟩
      intro hk
      rw [hand] at hk
      cases hk
    · by_cases hrem : g.KindOf inst = some InstructionKind.Rem
      · have hacc : InstructionWithAbsorbingInputSimplifier.Accept g inst = VisitRem g inst := by
          unfold InstructionWithAbsorbingInputSimplifier.Accept
          rw [hrem]
        rw [hacc]
        obtain ⟨g', h1, h2, h3⟩ := VisitRem_once g inst b left right hb hl hr hli hri hnc
        exact ⟨g', h1, h2, fun c hk => absurd hk hand, fun _ _ hty hz => h3 hty hz⟩
      · obtain ⟨g', h1, h2⟩ := single_rule_once g inst b left right hb hl hr hand hrem
        exact ⟨g', h1, h2, fun c hk => absurd hk hand, fun hk => absurd hk hrem⟩

theorem IsFoldable_of_IsBinaryOperation (g : HGraph) (x : Nat)
    (h : g.kindIs InstructionKind.IsBinaryOperation x = true) :
    g.kindIs InstructionKind.IsFoldable x = true := by
  unfold HGraph.kindIs at h ⊢
  cases hk : g.KindOf x with
  | none => rw [hk] at h; cases h
  | some k =>
    rw [hk] at h
    simp only at h ⊢
    rw [IsFoldable_eq, h]
    simp

theorem IsFoldable_of_KindOf_Not (g : HGraph) (x : Nat)
    (h : g.KindOf x = some InstructionKind.Not) :
    g.kindIs InstructionKind.IsFoldable x = true := by
  rw [kindIs_of_KindOf g _ x _ h]
  rfl

/-- In a state of the sweep, an operation that is an input of an instruction
that is still to be visited has been visited and is still in its block, as is
the instruction. -/
theorem Swept.operand_visited {ev : StaticEvaluator} {g0 g : HGraph} {done : List Nat}
    (S : Swept ev g0 g done) (F : FoldedClean g0 g) (O : g0.Ordered) (todo : List Nat)
    (inst x : Nat) (hvo : g0.visitOrder = done ++ inst :: todo)
    (hx : x ∈ g.inputsOf inst) (hf : g.kindIs InstructionKind.IsFoldable x = true) :
    x ∈ done ∧ (g.BlockOf inst).isSome = true ∧ (g.BlockOf x).isSome = true := by
  have hiv : inst ∈ g0.visitOrder := by
    rw [hvo]; exact List.mem_append_right _ (List.mem_cons_self _ _)
  have hn := O.nodup
  rw [hvo] at hn
  obtain ⟨hx0, hf0⟩ := S.pull_back O inst x hx hf
  have hp := O.ordered inst hiv x hx0 hf0
  have hxd : x ∈ done := by
    have hvo2 : g0.visitOrder = (done ++ [inst]) ++ todo := by
      rw [hvo, List.append_assoc]; rfl
    have hn2 := O.nodup
    rw [hvo2] at hp hn2
    have hmem := mem_initial_of_precedes (done ++ [inst]) todo x inst hn2 hp
      (List.mem_append_right _ (List.mem_singleton_self _))
    rcases List.mem_append.mp hmem with h | h
    · exact h
    · rw [List.mem_singleton] at h
      subst h
      exfalso
      have hp2 := O.ordered x hiv x hx0 hf0
      rw [hvo] at hp2
      exact not_mem_of_precedes done todo x x hn hp2
        (List.mem_append_right _ (List.mem_singleton_self _))
  have hind : inst ∉ done := by
    intro h
    have := (List.nodup_append.mp hn).2.2 h (List.mem_cons_self _ _)
    exact this
  obtain ⟨a, _, _, hia, hi0⟩ := O.block_of inst hiv
  have hib : (g.BlockOf inst).isSome = true := by
    rcases S.evolves.BlockOf_old inst hi0 with h | ⟨hr, _⟩
    · rw [h, hia]; rfl
    · exact absurd hr.1 hind
  refine ⟨hxd, hib, ?_⟩
  have hxv : x ∈ g0.visitOrder := by rw [hvo]; exact List.mem_append_left _ hxd
  obtain ⟨c, _, _, hxa, _⟩ := O.block_of x hxv
  cases hbx : g.BlockOf x with
  | some _ => rfl
  | none =>
    exfalso
    have h0 := (F.removed x (by rw [hxa]; rfl) hbx).2
    exact (NumUses_eq_zero_iff g x).mp h0 inst hib hx

/-- In a state of the sweep, an operation that is still to be visited is not
an input of an instruction that has been visited, nor of itself. -/
theorem Swept.not_operand {ev : StaticEvaluator} {g0 g : HGraph} {done : List Nat}
    (S : Swept ev g0 g done) (O : g0.Ordered) (todo : List Nat)
    (inst x : Nat) (hvo : g0.visitOrder = done ++ inst :: todo)
    (hf : g.kindIs InstructionKind.IsFoldable inst = true)
    (hx : x ∈ done ∨ x = inst) : inst ∉ g.inputsOf x := by
  intro hmem
  have hn := O.nodup
  rw [hvo] at hn
  obtain ⟨h0, hf0⟩ := S.pull_back O x inst hmem hf
  have hxv : x ∈ g0.visitOrder := by
    rw [hvo]
    rcases hx with h | h
    · exact List.mem_append_left _ h
    · rw [h]; exact List.mem_append_right _ (List.mem_cons_self _ _)
  have hp := O.ordered x hxv inst h0 hf0
  rw [hvo] at hp
  apply not_mem_of_precedes done todo inst x hn hp
  rcases hx with h | h
  · exact List.mem_append_left _ h
  · rw [h]; exact List.mem_append_right _ (List.mem_singleton_self _)

/-- A Not that is settled and still in its block is not folded by static
evaluation. -/
theorem Settled.not_evaluable {ev : StaticEvaluator} {g : HGraph} {x : Nat}
    (h : Settled ev g x) (hk : g.KindOf x = some InstructionKind.Not)
    (hb : (g.BlockOf x).isSome = true) : ev g x = none := by
  rcases h with h | ⟨_, _, h⟩ | ⟨h, _⟩
  · rw [h] at hb; cases hb
  · have ha := h none
    rw [Accept_eq ev _ x _ hk] at ha
    simp only [InstructionKind.IsUnaryOperation, if_true] at ha
    cases hv : VisitUnaryOperation ev g x with
    | none => rw [hv] at ha; cases ha
    | some g2 =>
      rw [hv] at ha
      simp only [Option.map_some', Option.some.injEq, HConstantFoldingVisitor.mk.injEq,
        and_true] at ha
      subst ha
      cases hev : ev g2 x with
      | none => rfl
      | some cv =>
        exfalso
        unfold VisitUnaryOperation at hv
        cases ht : g2.TryStaticEvaluation ev x with
        | none =>
          unfold HGraph.TryStaticEvaluation at ht
          rw [hev] at ht
          cases ht
        | some r =>
          rw [ht] at hv
          obtain ⟨h1, hc⟩ := TryStaticEvaluation_evolves ev g2 r.1 x r.2 ht
            (fun _ => False) (fun _ => False)
          exact not_Folds_self (Folds_ReplaceWithAndRemove g2 r.1 g2 x r.2 h1 hc hv) hb
  · rw [hk] at h
    cases h

theorem exampleBitwiseEvaluator_IsLocal : StaticEvaluator.IsLocal exampleBitwiseEvaluator := by
  intro g g' inst hself hops
  have hk : g'.KindOf inst = g.KindOf inst := by
    unfold HGraph.KindOf
    rw [hself]
  have hin : ∀ n, g'.InputAt inst n = g.InputAt inst n := by
    intro n
    unfold HGraph.InputAt
    rw [hself]
  have hik : ∀ n, (g'.InputAt inst n).bind g'.KindOf = (g.InputAt inst n).bind g.KindOf := by
    intro n
    rw [hin n]
    cases hx : g.InputAt inst n with
    | none => rfl
    | some x => exact (hops x (InputAt_mem_inputsOf g inst n x hx)).1
  unfold exampleBitwiseEvaluator
  rw [hk, hik 0, hik 1]

/-- C38: in every state of the sweep of the constant folding pass over a
well-formed graph (the invariants Swept and FoldedClean, which every visit
keeps), the visit of the next binary operation fires at most one rewrite.
Static evaluation is a parameter; it is assumed to fold the operation when both
of its operands are constants, and to fold a Not among its operands when the
input of that Not is a constant (the sweep has visited the operands before).
Then VisitBinaryOperation returns, the operation being in a block, and its
result is the graph unchanged or the graph after exactly one ReplaceWith and
one RemoveInstruction of the operation.  When the first rule of VisitAnd fires,
the result is that of the first rewrite, on which the test of the second rule is
false and the second rule leaves the graph as it is; the same holds for the two
rules of VisitRem. -/
theorem VisitBinaryOperation_rewrites_at_most_once (ev : StaticEvaluator) (g0 g : HGraph)
    (done todo : List Nat) (inst left right : Nat)
    (hwf : g0.WellFormed = true)
    (hvo : g0.visitOrder = done ++ inst :: todo)
    (S : Swept ev g0 g done) (F : FoldedClean g0 g)
    (hk : g.kindIs InstructionKind.IsBinaryOperation inst = true)
    (hl : g.GetLeft inst = some left) (hr : g.GetRight inst = some right)
    (hfold : g.IsConstant left = true → g.IsConstant right = true →
      (ev g inst).isSome = true)
    (hnot : ∀ x, x = left ∨ x = right → g.KindOf x = some InstructionKind.Not →
      ∃ src, g.InputAt x 0 = some src ∧
        (g.IsConstant src = true → (ev g x).isSome = true)) :
    ∃ block_id g', g.BlockOf inst = some block_id ∧
      VisitBinaryOperation ev g inst = some g' ∧
      (g' = g ∨ g.RewrittenOnce g' inst block_id) ∧
      (∀ c, g.KindOf inst = some InstructionKind.And → ev g inst = none →
        g.GetConstantRight inst = some c →
        g.kindIs InstructionKind.IsZeroBitPattern c = true →
        g.ReplaceWithAndRemove inst c = some g' ∧
        VisitAnd.notRuleApplies g' inst = false ∧
        VisitAnd.notRule g' inst (g.GetType inst) = some g') ∧
      (g.KindOf inst = some InstructionKind.Rem → ev g inst = none →
        (g.GetType inst).IsIntegralType = true → g.isZeroConstant (some left) = true →
        g.ReplaceWithAndRemoveFrom (some block_id) inst left = some g' ∧
        VisitRem.oneRuleApplies g' inst = false ∧
        VisitRem.oneRule g' (some block_id) inst (g.GetType inst) = some g') := by
  have O := WellFormed_ordered g0 hwf
  have hfi := IsFoldable_of_IsBinaryOperation g inst hk
  have hlm : left ∈ g.inputsOf inst := InputAt_mem_inputsOf g inst 0 left hl
  have hrm : right ∈ g.inputsOf inst := InputAt_mem_inputsOf g inst 1 right hr
  have hself := S.not_operand O todo inst inst hvo hfi (Or.inr rfl)
  have hli : left ≠ inst := fun e => hself (e ▸ hlm)
  have hri : right ≠ inst := fun e => hself (e ▸ hrm)
  have hiv : inst ∈ g0.visitOrder := by
    rw [hvo]; exact List.mem_append_right _ (List.mem_cons_self _ _)
  have hn := O.nodup
  rw [hvo] at hn
  have hind : inst ∉ done := fun h =>
    (List.nodup_append.mp hn).2.2 h (List.mem_cons_self _ _)
  obtain ⟨a, _, _, hia, hi0⟩ := O.block_of inst hiv
  have hb : g.BlockOf inst = some a := by
    rcases S.evolves.BlockOf_old inst hi0 with h | ⟨hr, _⟩
    · rw [h, hia]
    · exact absurd hr.1 hind
  have hnot2 : ∀ x, x = left ∨ x = right → g.KindOf x = some InstructionKind.Not →
      ∃ src, g.InputAt x 0 = some src ∧ src ≠ inst ∧ g.IsConstant src = false := by
    intro x hx hkx
    obtain ⟨src, hsrc, hevx⟩ := hnot x hx hkx
    have hxm : x ∈ g.inputsOf inst := by
      rcases hx with h | h
      · rw [h]; exact hlm
      · rw [h]; exact hrm
    obtain ⟨hxd, _, hxb⟩ := S.operand_visited F O todo inst x hvo hxm
      (IsFoldable_of_KindOf_Not g x hkx)
    refine ⟨src, hsrc, ?_, ?_⟩
    · intro e
      exact S.not_operand O todo inst x hvo hfi (Or.inl hxd)
        (e ▸ InputAt_mem_inputsOf g x 0 src hsrc)
    · cases hc : g.IsConstant src with
      | false => rfl
      | true =>
        have h1 := hevx hc
        rw [(S.settled x hxd).not_evaluable hkx hxb] at h1
        cases h1
  obtain ⟨g', h1, h2, h3, h4⟩ := VisitBinaryOperation_once ev g inst a left right hb hl hr
    hli hri hfold hnot2
  exact ⟨a, g', hb, h1, h2, h3, h4⟩

theorem VisitBinaryOperation_rewrites_at_most_once_witness :
    exampleAndOfZeroAndNot.WellFormed = true ∧
    exampleAndOfZeroAndNot.visitOrder = [0, 1, 2, 3, 4, 5] ∧
    (∃ vis, HConstantFoldingVisitor.visitInstructions exampleBitwiseEvaluator [0, 1, 2]
        { graph := exampleAndOfZeroAndNot, stats := none } = some vis ∧
      vis.graph.inputsOf 3 = [0, 6] ∧
      vis.graph.KindOf 6 = some (InstructionKind.IntConstant (-1)) ∧
      ∃ block_id g', vis.graph.BlockOf 3 = some block_id ∧
        VisitBinaryOperation exampleBitwiseEvaluator vis.graph 3 = some g' ∧
        (g' = vis.graph ∨ vis.graph.RewrittenOnce g' 3 block_id)) ∧
    (∃ g', VisitBinaryOperation (fun _ _ => none)
        (exampleOperation InstructionKind.And DataType.kInt32 [0, 1] DataType.kInt32
          (InstructionKind.IntConstant 0)) 3 = some g' ∧
      (exampleOperation InstructionKind.And DataType.kInt32 [0, 1] DataType.kInt32
        (InstructionKind.IntConstant 0)).ReplaceWithAndRemove 3 1 = some g' ∧
      VisitAnd.notRuleApplies g' 3 = false) ∧
    (∃ g', VisitBinaryOperation (fun _ _ => none)
        (exampleOperation InstructionKind.Rem DataType.kInt32 [1, 0] DataType.kInt32
          (InstructionKind.IntConstant 0)) 3 = some g' ∧
      (exampleOperation InstructionKind.Rem DataType.kInt32 [1, 0] DataType.kInt32
        (InstructionKind.IntConstant 0)).ReplaceWithAndRemoveFrom (some 1) 3 1 = some g' ∧
      VisitRem.oneRuleApplies g' 3 = false) := by
  have hnone : StaticEvaluator.IsLocal (fun _ _ => none) := fun _ _ _ _ _ => rfl
  refine ⟨by decide, by decide, ?_, ?_, ?_⟩
  · have hrun : HConstantFoldingVisitor.visitInstructions exampleBitwiseEvaluator [0, 1, 2]
        { graph := exampleAndOfZeroAndNot, stats := none } =
        some ((HConstantFoldingVisitor.visitInstructions exampleBitwiseEvaluator [0, 1, 2]
          { graph := exampleAndOfZeroAndNot, stats := none }).get (by decide)) := by
      simp
    obtain ⟨block_id, g', h1, h2, h3, _⟩ :=
      VisitBinaryOperation_rewrites_at_most_once exampleBitwiseEvaluator
        exampleAndOfZeroAndNot _ [0, 1, 2] [4, 5] 3 0 6 (by decide) (by decide)
        (Swept.visit_instructions exampleBitwiseEvaluator_IsLocal
          (WellFormed_ordered _ (by decide)) [0, 1, 2] [] [3, 4, 5] _ _ (by decide)
          (Swept.start _ _) hrun)
        (visitInstructions_clean _ _ [0, 1, 2] _ _ (FoldedClean.clean_start _) hrun)
        (by decide) (by decide) (by decide) (fun _ _ => by decide)
        (fun x hx hk => by
          rcases hx with h | h <;> subst h <;> exact absurd hk (by decide))
    exact ⟨_, hrun, by decide, by decide, block_id, g', h1, h2, h3⟩
  · obtain ⟨block_id, g', h1, h2, _, h4, _⟩ :=
      VisitBinaryOperation_rewrites_at_most_once (fun _ _ => none)
        (exampleOperation InstructionKind.And DataType.kInt32 [0, 1] DataType.kInt32
          (InstructionKind.IntConstant 0))
        (exampleOperation InstructionKind.And DataType.kInt32 [0, 1] DataType.kInt32
          (InstructionKind.IntConstant 0))
        [0, 1, 2] [4, 5] 3 0 1 (by decide) (by decide)
        (Swept.visit_instructions hnone
          (WellFormed_ordered _ (by decide)) [0, 1, 2] [] [3, 4, 5]
          { graph := exampleOperation InstructionKind.And DataType.kInt32 [0, 1]
              DataType.kInt32 (InstructionKind.IntConstant 0), stats := none }
          { graph := exampleOperation InstructionKind.And DataType.kInt32 [0, 1]
              DataType.kInt32 (InstructionKind.IntConstant 0), stats := none }
          (by decide) (Swept.start _ _) (by decide))
        (FoldedClean.clean_start _)
        (by decide) (by decide) (by decide) (by decide)
        (fun x hx hk => by
          rcases hx with h | h <;> subst h <;> exact absurd hk (by decide))
    obtain ⟨h5, h6, _⟩ := h4 1 (by decide) rfl (by decide) (by decide)
    exact ⟨g', h2, h5, h6⟩
  · obtain ⟨block_id, g', h1, h2, _, _, h4⟩ :=
      VisitBinaryOperation_rewrites_at_most_once (fun _ _ => none)
        (exampleOperation InstructionKind.Rem DataType.kInt32 [1, 0] DataType.kInt32
          (InstructionKind.IntConstant 0))
        (exampleOperation InstructionKind.Rem DataType.kInt32 [1, 0] DataType.kInt32
          (InstructionKind.IntConstant 0))
        [0, 1, 2] [4, 5] 3 1 0 (by decide) (by decide)
        (Swept.visit_instructions hnone
          (WellFormed_ordered _ (by decide)) [0, 1, 2] [] [3, 4, 5]
          { graph := exampleOperation InstructionKind.Rem DataType.kInt32 [1, 0]
              DataType.kInt32 (InstructionKind.IntConstant 0), stats := none }
          { graph := exampleOperation InstructionKind.Rem DataType.kInt32 [1, 0]
              DataType.kInt32 (InstructionKind.IntConstant 0), stats := none }
          (by decide) (Swept.start _ _) (by decide))
        (FoldedClean.clean_start _)
        (by decide) (by decide) (by decide) (by decide)
        (fun x hx hk => by
          rcases hx with h | h <;> subst h <;> exact absurd hk (by decide))
    have hb : block_id = 1 := by
      have : some block_id = some 1 := by rw [← h1]; rfl
      exact Option.some.inj this
    subst hb
    obtain ⟨h5, h6, _⟩ := h4 (by decide) rfl (by decide) (by decide)
    exact ⟨g', h2, h5, h6⟩

end art
